import Mathlib

/-!
# Edge switching by time-forward processing: `EdgeSwapParallelTFP`

A shallow embedding of `include/EdgeSwaps/EdgeSwapParallelTFP.cpp` and of the
message records of `include/EdgeSwapTFP.hpp`.

Conventions of the embedding.

* External-memory containers (`EdgeStream`, sorters, mergers, bit streams) are
  lists; a sorter is the list of pushed records, read back in comparator order.
* The engine is embedded as its release build: an `assert` has no effect.  A
  spin-wait that can never be released in the serial schedule is the result
  `none`.
* The worker threads of a batch are run in ascending swap id, the order the
  per-slot synchronisation of a batch enforces.  The per-thread sorters
  partition one message stream by the owner `_thread sid`; the messages carry
  the owner they were pushed for and the batch reads their union in key order.
  Slots of a thread (`edge_information[tid][pos]`, `source_edges[tid][pos]`,
  the existence store) are addressed by the swap id they belong to.
-/

namespace EdgeSwapParallelTFP

/-! ## Data model -/

/-! Node ids (`node_t`, signed 64 bit) are integers; edge ids (`edgeid_t`) and
swap ids (`swapid_t`) are natural numbers. -/

/-- Modelled from the spec: `defs.h` is not among the sources; the invalid
sentinel is "the maximal representable pair" of signed 64-bit node ids. -/
def INVALID_NODE : Int := 2 ^ 63 - 1

/-- Modelled from the spec: `edge_t` of `defs.h`, a pair of node ids. -/
structure edge_t where
  first : Int
  second : Int
deriving DecidableEq, Repr

namespace edge_t

/-- The sentinel `edge_t::invalid()`. -/
def invalid : edge_t := ⟨INVALID_NODE, INVALID_NODE⟩

/-- A self-loop is `u = v`. -/
def is_loop (e : edge_t) : Bool := decide (e.first = e.second)

/-- Lexicographic order of pairs (`operator<`). -/
def lt (a b : edge_t) : Prop :=
  a.first < b.first ∨ (a.first = b.first ∧ a.second < b.second)

instance : LT edge_t := ⟨edge_t.lt⟩

instance decLt (a b : edge_t) : Decidable (a < b) :=
  inferInstanceAs (Decidable (a.first < b.first ∨ (a.first = b.first ∧ a.second < b.second)))

/-- The order `operator<=` of pairs: `a <= b` is `!(b < a)`. -/
def le (a b : edge_t) : Prop := ¬ b < a

instance : LE edge_t := ⟨edge_t.le⟩

instance decLe (a b : edge_t) : Decidable (a ≤ b) :=
  inferInstanceAs (Decidable (¬ b < a))

/-- Canonical form `u ≤ v` of an edge. -/
def canonical (e : edge_t) : Prop := e.first ≤ e.second

instance (e : edge_t) : Decidable e.canonical :=
  inferInstanceAs (Decidable (e.first ≤ e.second))

/-- Canonical form of the pair `(x, y)`: `(min x y, max x y)`. -/
def normalized (x y : Int) : edge_t := if x ≤ y then ⟨x, y⟩ else ⟨y, x⟩

end edge_t

/-- Modelled from the spec: `SwapDescriptor` of `Swaps.h`
(`swap = (edge_id_a, edge_id_b, direction)`). -/
structure SwapDescriptor where
  eid_a : Nat
  eid_b : Nat
  direction : Bool
deriving DecidableEq, Repr

/-- Modelled from the spec: `SwapResult` of `Swaps.h`, one entry of the debug
vector `{performed, loop, conflictDetected[2], edges[2]}`. -/
structure SwapResult where
  performed : Bool
  loop : Bool
  edges : edge_t × edge_t
  conflictDetected : Bool × Bool
deriving DecidableEq, Repr

/-- Modelled from the spec: `SwapResult::normalize`, "the two output edges sorted
among themselves". -/
def SwapResult.normalize (r : SwapResult) : SwapResult :=
  if r.edges.2 < r.edges.1 then { r with edges := (r.edges.2, r.edges.1) } else r

/-- Modelled from the spec: `_swap_edges` of `EdgeSwapBase.h`.  The edges
`a = (a0, a1)`, `b = (b0, b1)` swap under `direction = 0` to `((a0, b0), (a1, b1))`
and under `direction = 1` to `((a0, b1), (a1, b0))`; each output edge is then
canonicalised. -/
def _swap_edges (e0 e1 : edge_t) (direction : Bool) : edge_t × edge_t :=
  if direction then
    (edge_t.normalized e0.first e1.second, edge_t.normalized e0.second e1.first)
  else
    (edge_t.normalized e0.first e1.first, edge_t.normalized e0.second e1.second)

/-! ## Record and key codec -/

/-- Width of `swapid_t` in bits. -/
def swapid_bits : Nat := 64

/-- Modelled from the spec: `pack_swap_id_spos` of `EdgeSwapParallelTFP.h`,
`pack(sid, side) = (sid << 1) | side` in `Nat`. -/
def pack_swap_id_spos (swap_id : Nat) (spos : Nat) : Nat :=
  ((swap_id <<< 1) ||| spos) % 2 ^ swapid_bits

/-- Modelled from the spec: `get_swap_id`, the inverse of `pack` on the swap id. -/
def get_swap_id (sid : Nat) : Nat := sid >>> 1

/-- Modelled from the spec: `get_swap_spos`, the inverse of `pack` on the side. -/
def get_swap_spos (sid : Nat) : Nat := sid &&& 1

/-- Modelled from the spec: `_thread`, "swaps with `sid mod T == tid` are
assigned to thread `tid`". -/
def _thread (num_threads : Nat) (swap_id : Nat) : Nat := swap_id % num_threads

/-- Modelled from the spec: `IntScale::Mi` of `defs.h`, the batch size per
thread. -/
def IntScale.Mi : Nat := 2 ^ 20

/-- The request `(eid, sid)` of `_edge_swap_sorter`; `sid` is the packed key of
the requesting swap side. -/
structure EdgeLoadRequest where
  eid : Nat
  sid : Nat
deriving DecidableEq, Repr

/-- The order `GenericComparatorStruct<EdgeLoadRequest>::Ascending`: by `eid`,
then by `sid`. -/
def EdgeLoadRequest.le (a b : EdgeLoadRequest) : Prop :=
  a.eid < b.eid ∨ (a.eid = b.eid ∧ a.sid ≤ b.sid)

instance (a b : EdgeLoadRequest) : Decidable (EdgeLoadRequest.le a b) :=
  inferInstanceAs (Decidable (a.eid < b.eid ∨ (a.eid = b.eid ∧ a.sid ≤ b.sid)))

/-- The message `DependencyChainEdgeMsg {sid, edge}`: a possible source
configuration of the swap side `sid`. -/
structure DependencyChainEdgeMsg where
  sid : Nat
  edge : edge_t
deriving DecidableEq, Repr

/-- Ascending lexicographic order of `DependencyChainEdgeMsg`. -/
def DependencyChainEdgeMsg.le (a b : DependencyChainEdgeMsg) : Prop :=
  a.sid < b.sid ∨ (a.sid = b.sid ∧ a.edge ≤ b.edge)

instance (a b : DependencyChainEdgeMsg) : Decidable (DependencyChainEdgeMsg.le a b) :=
  inferInstanceAs (Decidable (a.sid < b.sid ∨ (a.sid = b.sid ∧ a.edge ≤ b.edge)))

/-- The message `DependencyChainSuccessorMsg {sid, successor}`: the swap side
`sid` forwards its edge to the swap side `successor`. -/
structure DependencyChainSuccessorMsg where
  sid : Nat
  successor : Nat
deriving DecidableEq, Repr

/-- Ascending lexicographic order of `DependencyChainSuccessorMsg`. -/
def DependencyChainSuccessorMsg.le (a b : DependencyChainSuccessorMsg) : Prop :=
  a.sid < b.sid ∨ (a.sid = b.sid ∧ a.successor ≤ b.successor)

instance (a b : DependencyChainSuccessorMsg) :
    Decidable (DependencyChainSuccessorMsg.le a b) :=
  inferInstanceAs (Decidable (a.sid < b.sid ∨ (a.sid = b.sid ∧ a.successor ≤ b.successor)))

/-- The message `ExistenceRequestMsg {edge, swap_id, forward_only}` of
`EdgeSwapTFP.hpp`. -/
structure ExistenceRequestMsg where
  edge : edge_t
  swap_id : Nat
  forward_only : Bool
deriving DecidableEq, Repr

/-- The comparison `ExistenceRequestMsg::operator<`. -/
def ExistenceRequestMsg.lt (a o : ExistenceRequestMsg) : Prop :=
  a.edge < o.edge ∨ (a.edge = o.edge ∧
    (a.swap_id > o.swap_id ∨ (a.swap_id = o.swap_id ∧ a.forward_only < o.forward_only)))

instance (a o : ExistenceRequestMsg) : Decidable (ExistenceRequestMsg.lt a o) :=
  inferInstanceAs (Decidable (a.edge < o.edge ∨ (a.edge = o.edge ∧
    (a.swap_id > o.swap_id ∨ (a.swap_id = o.swap_id ∧ a.forward_only < o.forward_only)))))

/-- The order in which the sorter delivers existence requests: `a` may precede
`b` when `b < a` does not hold. -/
def ExistenceRequestMsg.le (a b : ExistenceRequestMsg) : Prop := ¬ ExistenceRequestMsg.lt b a

instance (a b : ExistenceRequestMsg) : Decidable (ExistenceRequestMsg.le a b) :=
  inferInstanceAs (Decidable (¬ ExistenceRequestMsg.lt b a))

/-- The message `ExistenceInfoMsg {swap_id, edge}`; the invalid edge stands for
a missing edge. -/
structure ExistenceInfoMsg where
  swap_id : Nat
  edge : edge_t
deriving DecidableEq, Repr

/-- Ascending lexicographic order of `ExistenceInfoMsg`. -/
def ExistenceInfoMsg.le (a b : ExistenceInfoMsg) : Prop :=
  a.swap_id < b.swap_id ∨ (a.swap_id = b.swap_id ∧ a.edge ≤ b.edge)

instance (a b : ExistenceInfoMsg) : Decidable (ExistenceInfoMsg.le a b) :=
  inferInstanceAs (Decidable (a.swap_id < b.swap_id ∨ (a.swap_id = b.swap_id ∧ a.edge ≤ b.edge)))

/-- The message `ExistenceSuccessorMsg {swap_id, edge, successor}`. -/
structure ExistenceSuccessorMsg where
  swap_id : Nat
  edge : edge_t
  successor : Nat
deriving DecidableEq, Repr

/-- Ascending lexicographic order of `ExistenceSuccessorMsg`. -/
def ExistenceSuccessorMsg.le (a b : ExistenceSuccessorMsg) : Prop :=
  a.swap_id < b.swap_id ∨ (a.swap_id = b.swap_id ∧
    (a.edge < b.edge ∨ (a.edge = b.edge ∧ a.successor ≤ b.successor)))

instance (a b : ExistenceSuccessorMsg) : Decidable (ExistenceSuccessorMsg.le a b) :=
  inferInstanceAs (Decidable (a.swap_id < b.swap_id ∨ (a.swap_id = b.swap_id ∧
    (a.edge < b.edge ∨ (a.edge = b.edge ∧ a.successor ≤ b.successor)))))

/-- The order of the placeholder sorter and of the edge-update merger on
`edge_t`: ascending. -/
def edge_le (a b : edge_t) : Prop := a ≤ b

instance (a b : edge_t) : Decidable (edge_le a b) := inferInstanceAs (Decidable (a ≤ b))

/-! ## External-memory primitives -/

/-- Modelled from the spec: an external-memory sorter, "receiving unordered
records and producing them in comparator order". -/
def sorter_sort {α : Type} (le : α → α → Prop) [DecidableRel le] (pushed : List α) : List α :=
  List.insertionSort le pushed

/-- Modelled from the spec: the PQ+sorter merger (`PQSorterMerger.h`,
`ParallelBufferedPQSorterMerger.h`), which "presents the union of a sorted run
and a priority queue as a single in-order stream". -/
structure PQSorterMerger (α : Type) where
  /-- the sorted run of the sorter -/
  sorter : List α
  /-- the unread rest of the run -/
  cursor : List α
  /-- the priority queue, in comparator order -/
  pq : List α
  /-- the upper bound of the window frozen by `start_batch` -/
  limit : Option α

namespace PQSorterMerger

variable {α : Type} (le : α → α → Prop) [DecidableRel le]

/-- The call `finish_sorter_input`: the pushed records become the sorted run. -/
def finish_sorter_input (pushed : List α) : PQSorterMerger α :=
  { sorter := sorter_sort le pushed, cursor := sorter_sort le pushed, pq := [], limit := none }

/-- The call `start_batch(upper_bound)`: freeze the window. -/
def start_batch (m : PQSorterMerger α) (upper_bound : α) : PQSorterMerger α :=
  { m with limit := some upper_bound }

/-- The call `end_batch()`. -/
def end_batch (m : PQSorterMerger α) : PQSorterMerger α := { m with limit := none }

/-- The call `rewind_sorter()`: "begin the next run over the sorter from
scratch". -/
def rewind_sorter (m : PQSorterMerger α) : PQSorterMerger α := { m with cursor := m.sorter }

/-- The call `push_pq(msg)`. -/
def push_pq (m : PQSorterMerger α) (msg : α) : PQSorterMerger α :=
  { m with pq := List.orderedInsert le msg m.pq }

/-- Whether a record lies in the window, strictly below the upper bound. -/
def in_window (m : PQSorterMerger α) (x : α) : Bool :=
  match m.limit with
  | none => true
  | some l => decide (¬ le l x)

/-- The front of the stream (`operator*`): "the lesser of the two fronts", if it
lies in the window; `none` is `empty()`. -/
def peek (m : PQSorterMerger α) : Option α :=
  match m.cursor, m.pq with
  | [], [] => none
  | x :: _, [] => if m.in_window le x then some x else none
  | [], y :: _ => if m.in_window le y then some y else none
  | x :: _, y :: _ =>
    if le x y then (if m.in_window le x then some x else none)
    else (if m.in_window le y then some y else none)

/-- The call `operator++`: drop the front. -/
def advance (m : PQSorterMerger α) : PQSorterMerger α :=
  match m.cursor, m.pq with
  | [], [] => m
  | _ :: xs, [] => { m with cursor := xs }
  | [], _ :: ys => { m with pq := ys }
  | x :: xs, y :: ys => if le x y then { m with cursor := xs } else { m with pq := ys }

end PQSorterMerger

/-- Modelled from the spec: `EdgeVectorUpdateStream.h`, the edge-update writer,
"at each edge position, if the position was marked invalid, emit the next
update; otherwise pass through".  A position without a mark passes through; an
invalid position for which no update is left emits nothing. -/
def EdgeVectorUpdateStream : List edge_t → List Bool → List edge_t → List edge_t
  | [], _, _ => []
  | e :: es, [], updates => e :: EdgeVectorUpdateStream es [] updates
  | e :: es, true :: valid, updates => e :: EdgeVectorUpdateStream es valid updates
  | _ :: es, false :: valid, u :: updates => u :: EdgeVectorUpdateStream es valid updates
  | _ :: es, false :: valid, [] => EdgeVectorUpdateStream es valid []

/-! ## The dependency-chain builder `_load_and_update_edges` -/

/-- What one pass of `use_edge` over the edges produces. -/
structure LoadOutput where
  /-- the messages pushed with `_edge_state.push_sorter`, in push order -/
  depchain_edges : List DependencyChainEdgeMsg
  /-- the messages pushed into `dependency_output[tid]`, with their `tid` -/
  dependency_output : List (Nat × DependencyChainSuccessorMsg)
  /-- the bits pushed into `next_valid_edges` -/
  next_valid_edges : List Bool
  /-- the unread rest of `_edge_swap_sorter` -/
  requests : List EdgeLoadRequest
deriving DecidableEq, Repr

/-- The loop `while (match_request())` of `use_edge`: further requests for the
same edge id store successor information. -/
def use_edge_successors (num_threads : Nat) (id : Nat) :
    Nat → Nat → List EdgeLoadRequest →
      List (Nat × DependencyChainSuccessorMsg) × List EdgeLoadRequest
  | _, _, [] => ([], [])
  | lastSid, lastTid, r :: rs =>
    if r.eid = id then
      let out := use_edge_successors num_threads id r.sid (_thread num_threads (get_swap_id r.sid)) rs
      ((lastTid, ⟨lastSid, r.sid⟩) :: out.1, out.2)
    else ([], r :: rs)

/-- The lambda `use_edge(cur_e, id)`. -/
def use_edge (num_threads : Nat) (requests : List EdgeLoadRequest) (cur_e : edge_t)
    (id : Nat) : LoadOutput :=
  match requests with
  | [] => ⟨[], [], [true], []⟩
  | r :: rs =>
    if r.eid = id then
      let out := use_edge_successors num_threads id r.sid (_thread num_threads (get_swap_id r.sid)) rs
      ⟨[⟨r.sid, cur_e⟩], out.1, [false], out.2⟩
    else ⟨[], [], [true], r :: rs⟩

/-- The loops `for (; !stream.empty(); ++id, ++stream) use_edge(*stream, id)`. -/
def load_edges (num_threads : Nat) :
    Nat → List edge_t → List EdgeLoadRequest → LoadOutput
  | _, [], requests => ⟨[], [], [], requests⟩
  | id, e :: es, requests =>
    let u := use_edge num_threads requests e id
    let r := load_edges num_threads (id + 1) es u.requests
    ⟨u.depchain_edges ++ r.depchain_edges, u.dependency_output ++ r.dependency_output,
      u.next_valid_edges ++ r.next_valid_edges, r.requests⟩

/-- A swap-direction bit stream per thread, read in the order of the swaps: the
direction bit of swap `sid` is the entry `sid`. -/
abbrev BoolStream := List Bool

/-- The fields of `EdgeSwapParallelTFP` that outlive a call. -/
structure Engine where
  num_threads : Nat
  _edges : List edge_t
  _num_swaps_in_run : Nat
  /-- the pushed, not yet sorted requests -/
  _edge_swap_sorter : List EdgeLoadRequest
  _swap_direction : BoolStream
  _needs_writeback : Bool
  _valid_edges : List Bool
  /-- the sorted stream of edge updates -/
  _edge_update_merger : List edge_t
  /-- the debug vector -/
  _result : List SwapResult
deriving DecidableEq, Repr

/-- What `_load_and_update_edges` leaves behind. -/
structure LoadResult where
  engine : Engine
  /-- the sorted content of `_edge_state` -/
  edge_state : PQSorterMerger DependencyChainEdgeMsg
  /-- the sorted successor messages `dependency_output`, all threads -/
  dependencies : List DependencyChainSuccessorMsg
  /-- the messages as they were pushed, with their threads -/
  pushed : LoadOutput

/-- The function `_load_and_update_edges`. -/
def _load_and_update_edges (g : Engine) : LoadResult :=
  let sorted := sorter_sort EdgeLoadRequest.le g._edge_swap_sorter
  let loaded_edges := !sorted.isEmpty
  let stream :=
    if !g._needs_writeback then g._edges
    else EdgeVectorUpdateStream g._edges g._valid_edges g._edge_update_merger
  let out := load_edges g.num_threads 0 stream sorted
  { engine := { g with
      _edges := stream
      _edge_update_merger := if !g._needs_writeback then g._edge_update_merger else []
      _needs_writeback := loaded_edges
      _valid_edges := out.next_valid_edges
      _edge_swap_sorter := if g._num_swaps_in_run > 0 then [] else sorted }
    edge_state := PQSorterMerger.finish_sorter_input DependencyChainEdgeMsg.le out.depchain_edges
    dependencies :=
      sorter_sort DependencyChainSuccessorMsg.le (out.dependency_output.map Prod.snd)
    pushed := out }

/-! ## The conflict computer `_compute_conflicts` -/

/-- The entries `[spos]` of the arrays of one `edge_information_t`: the flag
`is_set`, the primary edge `edge`, and the range `edges_begin .. edges_end` of
further configurations (`none` is `nullptr`). -/
structure edge_information_t where
  is_set : Bool
  edge : edge_t
  edges : Option (List edge_t)
deriving DecidableEq, Repr

namespace edge_information_t

/-- The call `reset(spos)`. -/
def reset : edge_information_t := ⟨false, edge_t.invalid, none⟩

/-- The edges `forEach(spos, f)` passes to `f`, in order. -/
def forEach (i : edge_information_t) : List edge_t :=
  match i.edges with
  | none => [i.edge]
  | some es => i.edge :: es

/-- The call `num_edges(spos)`. -/
def num_edges (i : edge_information_t) : Nat :=
  match i.edges with
  | none => 1
  | some es => es.length + 1

end edge_information_t

/-- Selects the entry `spos` of a two-element array. -/
def pair_get {α : Type} (p : α × α) (spos : Nat) : α := if spos = 0 then p.1 else p.2

/-- Writes the entry `k` of a table of slots. -/
def slot_set {κ β : Type} [DecidableEq κ] (f : κ → β) (k : κ) (v : β) : κ → β :=
  fun j => if j = k then v else f j

/-- The state of `_compute_conflicts` between two swaps. -/
structure ConflictState where
  _edge_state : PQSorterMerger DependencyChainEdgeMsg
  /-- the unread successor messages `dependencies` -/
  dep : List DependencyChainSuccessorMsg
  _swap_direction : BoolStream
  /-- the slot `edge_information[tid][pos]`, side `spos`, of a swap id -/
  edge_information : Nat × Nat → edge_information_t
  /-- the requests pushed into the existence request buffers, in push order -/
  existence_requests : List ExistenceRequestMsg
  /-- every configuration forwarded to a successor, in the batch or through
  `push_pq`, as the message it stands for -/
  forwarded : List DependencyChainEdgeMsg

/-- The loop `while (!_edge_state.empty() && _edge_state->sid == s)` of the
hydration: the further configurations of the swap side `s`. -/
def hydrate_more (s : Nat) :
    Nat → PQSorterMerger DependencyChainEdgeMsg →
      List edge_t × PQSorterMerger DependencyChainEdgeMsg
  | 0, m => ([], m)
  | fuel + 1, m =>
    match m.peek DependencyChainEdgeMsg.le with
    | none => ([], m)
    | some msg =>
      if msg.sid = s then
        let r := hydrate_more s fuel (m.advance DependencyChainEdgeMsg.le)
        (msg.edge :: r.1, r.2)
      else ([], m)

/-- The body of the hydration for the side `spos` of `swap_id`. -/
def hydrate_side (swap_id : Nat) (spos : Nat) (st : ConflictState) : ConflictState :=
  let s := pack_swap_id_spos swap_id spos
  let first : Option DependencyChainEdgeMsg :=
    match st._edge_state.peek DependencyChainEdgeMsg.le with
    | none => none
    | some msg => if msg.sid = s then some msg else none
  let m1 := match first with
    | none => st._edge_state
    | some _ => st._edge_state.advance DependencyChainEdgeMsg.le
  let more := hydrate_more s (m1.cursor.length + m1.pq.length) m1
  let info : edge_information_t :=
    { is_set := first.isSome
      edge := match first with
        | none => edge_t.invalid
        | some msg => msg.edge
      edges := if more.1.isEmpty then none else some more.1 }
  { st with
    _edge_state := more.2
    edge_information := slot_set st.edge_information (swap_id, spos) info }

/-- The hydration loop over the `n` swap ids from `swap_id` on. -/
def hydrate : Nat → Nat → ConflictState → ConflictState
  | 0, _, st => st
  | n + 1, swap_id, st =>
    hydrate n (swap_id + 1) (hydrate_side swap_id 1 (hydrate_side swap_id 0 st))

/-- The number of swap ids the hydration loops visit: the ids of the batch,
rounded up to whole rows of `num_threads` ids. -/
def hydrate_count (num_threads sid_in_batch_base sid_in_batch_limit : Nat) : Nat :=
  ((sid_in_batch_limit - sid_in_batch_base + num_threads - 1) / num_threads) * num_threads

/-- The step `do ++new_it; while (new_it != new_end && *new_it == last_e)` on the
rest of the candidates behind `last_e`. -/
def skip_duplicates (last_e : edge_t) : List edge_t → List edge_t
  | [] => []
  | x :: xs => if x = last_e then skip_duplicates last_e xs else x :: xs

/-- The loop `while (new_it != new_end && *new_it <= e)` of the merge: the calls
`forward_edge(*new_it, false)`, the rest of the candidates and `last_e`. -/
def forward_candidates (e : edge_t) :
    Nat → List edge_t → edge_t → List (edge_t × Bool) × List edge_t × edge_t
  | 0, new_it, last_e => ([], new_it, last_e)
  | _ + 1, [], last_e => ([], [], last_e)
  | fuel + 1, x :: xs, last_e =>
    if x ≤ e then
      let r := forward_candidates e fuel (skip_duplicates x xs) x
      ((x, false) :: r.1, r.2.1, r.2.2)
    else ([], x :: xs, last_e)

/-- The merge `current_edge_info.forEach(spos, ...)` of the source
configurations with the candidates: the calls of `forward_edge` and the rest of
the candidates. -/
def forward_sources : List edge_t → List edge_t → List (edge_t × Bool) × List edge_t
  | [], new_it => ([], new_it)
  | e :: es, new_it =>
    let r := forward_candidates e new_it.length new_it edge_t.invalid
    let own := if e ≠ r.2.2 then [(e, true)] else []
    let rest := forward_sources es r.2.1
    (r.1 ++ own ++ rest.1, rest.2)

/-- The loop "forward new edges past the current edges". -/
def forward_rest : Nat → List edge_t → List (edge_t × Bool)
  | 0, _ => []
  | _ + 1, [] => []
  | fuel + 1, x :: xs => (x, false) :: forward_rest fuel (skip_duplicates x xs)

/-- All calls `forward_edge(e, is_source)` for one side, in order: `sources` are
the configurations of the side, `dd` the sorted candidates. -/
def forward_calls (sources dd : List edge_t) : List (edge_t × Bool) :=
  let r := forward_sources sources dd
  r.1 ++ forward_rest r.2.length r.2

/-- The cartesian product of the configurations of both sides through
`_swap_edges`: the lists `dd_new_edges[0]`, `dd_new_edges[1]` before sorting. -/
def cartesian_new_edges (c0 c1 : List edge_t) (direction : Bool) :
    List edge_t × List edge_t :=
  let pairs := c0.flatMap fun e1 => c1.map fun e2 => _swap_edges e1 e2 direction
  (pairs.map Prod.fst, pairs.map Prod.snd)

/-- The block "get successor" for one side: reads the front of `dep`. -/
def fetch_successor (sid : Nat) (spos : Nat) (dep : List DependencyChainSuccessorMsg) :
    Nat × List DependencyChainSuccessorMsg :=
  match dep with
  | [] => (0, [])
  | msg :: rest => if msg.sid = pack_swap_id_spos sid spos then (msg.successor, rest) else (0, msg :: rest)

/-- The body of the loop `for (spos ...)` after the cartesian product: sort the
candidates, merge-forward them with the sources, push the existence requests and
hand the configurations to the successor. -/
def conflicts_side (sid_in_batch_limit sid : Nat) (successor_sid : Nat)
    (sources dd_new : List edge_t) (st : ConflictState) : ConflictState :=
  let dd := if dd_new.length > 1 then sorter_sort edge_le dd_new else dd_new
  let has_successor_in_batch :=
    decide (successor_sid ≠ 0 ∧ get_swap_id successor_sid < sid_in_batch_limit)
  let has_successor_in_other_batch :=
    decide (successor_sid ≠ 0 ∧ ¬ get_swap_id successor_sid < sid_in_batch_limit)
  let calls := forward_calls sources dd
  let st1 : ConflictState :=
    { st with
      existence_requests :=
        st.existence_requests ++ calls.map fun c => ⟨c.1, sid, c.2⟩
      forwarded :=
        if successor_sid ≠ 0 then st.forwarded ++ calls.map fun c => ⟨successor_sid, c.1⟩
        else st.forwarded }
  let st2 : ConflictState :=
    if has_successor_in_other_batch then
      { st1 with
        _edge_state := calls.foldl
          (fun m c => m.push_pq DependencyChainEdgeMsg.le ⟨successor_sid, c.1⟩) st1._edge_state }
    else st1
  if has_successor_in_batch then
    let key := (get_swap_id successor_sid, get_swap_spos successor_sid)
    let old := st2.edge_information key
    let info : edge_information_t :=
      { is_set := true
        edge := match calls with
          | [] => old.edge
          | c :: _ => c.1
        edges := if calls.length > 1 then some (calls.tail.map Prod.fst) else none }
    { st2 with edge_information := slot_set st2.edge_information key info }
  else st2

/-- The body of the worker loop for the swap `sid` (with `sid < _num_swaps_in_run`);
`none` when a side never receives a configuration. -/
def conflicts_swap (sid_in_batch_limit sid : Nat) (st : ConflictState) :
    Option ConflictState :=
  match st._swap_direction with
  | [] => none
  | direction :: directions =>
    let s0 := fetch_successor sid 0 st.dep
    let i0 := st.edge_information (sid, 0)
    if !i0.is_set then none else
    let s1 := fetch_successor sid 1 s0.2
    let i1 := st.edge_information (sid, 1)
    if !i1.is_set then none else
    let dd := cartesian_new_edges i0.forEach i1.forEach direction
    let st0 : ConflictState := { st with _swap_direction := directions, dep := s1.2 }
    let st1 := conflicts_side sid_in_batch_limit sid s0.1 i0.forEach dd.1 st0
    some (conflicts_side sid_in_batch_limit sid s1.1 (st1.edge_information (sid, 1)).forEach dd.2 st1)

/-- The worker loops of one batch, run in ascending swap id over the `n` ids
from `sid` on; ids from `_num_swaps_in_run` on are skipped. -/
def conflicts_workers (num_swaps sid_in_batch_limit : Nat) :
    Nat → Nat → ConflictState → Option ConflictState
  | 0, _, st => some st
  | n + 1, sid, st =>
    if sid ≥ num_swaps then conflicts_workers num_swaps sid_in_batch_limit n (sid + 1) st
    else
      match conflicts_swap sid_in_batch_limit sid st with
      | none => none
      | some st1 => conflicts_workers num_swaps sid_in_batch_limit n (sid + 1) st1

/-- The bound `loop_limit`: `_num_swaps_in_run` rounded up to a multiple of
`_num_threads`. -/
def loop_limit (num_swaps num_threads : Nat) : Nat :=
  if num_swaps % num_threads ≠ 0 then num_swaps + (num_threads - num_swaps % num_threads)
  else num_swaps

/-- The loop over the batches of `_compute_conflicts`, from `sid_in_batch_base`
on; `fuel` bounds the number of batches. -/
def conflicts_batches (num_threads batch_size_per_thread num_swaps : Nat) :
    Nat → Nat → ConflictState → Option ConflictState
  | 0, sid_in_batch_base, st =>
    if sid_in_batch_base < loop_limit num_swaps num_threads then none else some st
  | fuel + 1, sid_in_batch_base, st =>
    if sid_in_batch_base < loop_limit num_swaps num_threads then
      let width := batch_size_per_thread * num_threads
      let sid_in_batch_limit := min num_swaps (sid_in_batch_base + width)
      let limit : DependencyChainEdgeMsg := ⟨pack_swap_id_spos sid_in_batch_limit 0, ⟨-1, -1⟩⟩
      let st1 : ConflictState := { st with _edge_state := st._edge_state.start_batch limit }
      let st2 := hydrate (hydrate_count num_threads sid_in_batch_base sid_in_batch_limit)
        sid_in_batch_base st1
      match conflicts_workers num_swaps sid_in_batch_limit
          (min (loop_limit num_swaps num_threads) (sid_in_batch_base + width) - sid_in_batch_base)
          sid_in_batch_base st2 with
      | none => none
      | some st3 =>
        conflicts_batches num_threads batch_size_per_thread num_swaps fuel
          (sid_in_batch_base + width) { st3 with _edge_state := st3._edge_state.end_batch }
    else some st

/-- What `_compute_conflicts` leaves behind. -/
structure ConflictResult where
  /-- the merger `_edge_state` after `rewind_sorter()` -/
  edge_state : PQSorterMerger DependencyChainEdgeMsg
  /-- the existence requests in the order of `existence_merger` -/
  existence_merger : List ExistenceRequestMsg
  /-- the existence requests in push order -/
  existence_requests : List ExistenceRequestMsg
  /-- every forwarded configuration -/
  forwarded : List DependencyChainEdgeMsg

/-- The function `_compute_conflicts`; `dependencies` and `_swap_direction` are
rewound at its end and so are read again by `_perform_swaps`. -/
def _compute_conflicts (num_threads batch_size_per_thread num_swaps : Nat)
    (edge_state : PQSorterMerger DependencyChainEdgeMsg)
    (dependencies : List DependencyChainSuccessorMsg) (swap_direction : BoolStream) :
    Option ConflictResult :=
  let st : ConflictState :=
    { _edge_state := edge_state
      dep := dependencies
      _swap_direction := swap_direction
      edge_information := fun _ => edge_information_t.reset
      existence_requests := []
      forwarded := [] }
  match conflicts_batches num_threads batch_size_per_thread num_swaps
      (loop_limit num_swaps num_threads) 0 st with
  | none => none
  | some st1 =>
    some
      { edge_state := st1._edge_state.rewind_sorter
        existence_merger := sorter_sort ExistenceRequestMsg.le st1.existence_requests
        existence_requests := st1.existence_requests
        forwarded := st1.forwarded }

/-! ## The existence-request processor `_process_existence_requests` -/

/-- What `_process_existence_requests` pushes. -/
structure ExistenceOutput where
  /-- the messages pushed with `_existence_info.push_sorter` -/
  existence_info : List ExistenceInfoMsg
  /-- the messages pushed into `successor_output[tid]`, with their `tid` -/
  successor_output : List (Nat × ExistenceSuccessorMsg)
  /-- the tokens pushed into `existence_placeholder_output[tid]`, with their `tid` -/
  existence_placeholder_output : List (Nat × Nat)
deriving DecidableEq, Repr

/-- The loop "find edge in graph": advances `_edges` past the edges that are not
greater than `current_edge`; returns `exists` and the rest of `_edges`. -/
def find_edge (current_edge : edge_t) : List edge_t → Bool → Bool × List edge_t
  | [], ex => (ex, [])
  | edge :: rest, ex =>
    if edge > current_edge then (ex, edge :: rest)
    else find_edge current_edge rest (decide (edge = current_edge))

/-- The loop "build dependency chain" over the requests for `current_edge`:
returns the pushed successor messages and placeholders, `last_swap`,
`foundTargetEdge` and the rest of the requests. -/
def existence_chain (num_threads : Nat) (current_edge : edge_t) :
    List ExistenceRequestMsg → Nat → Bool →
      ExistenceOutput × Nat × Bool × List ExistenceRequestMsg
  | [], last_swap, foundTargetEdge => (⟨[], [], []⟩, last_swap, foundTargetEdge, [])
  | request :: rest, last_swap, foundTargetEdge =>
    if request.edge ≠ current_edge then
      (⟨[], [], []⟩, last_swap, foundTargetEdge, request :: rest)
    else
      let swap_id := request.swap_id
      let r := existence_chain num_threads current_edge rest swap_id
        (foundTargetEdge || !request.forward_only)
      if last_swap ≠ swap_id ∧ foundTargetEdge then
        (⟨r.1.existence_info,
          (_thread num_threads swap_id, ⟨swap_id, current_edge, last_swap⟩) :: r.1.successor_output,
          (_thread num_threads last_swap, last_swap) :: r.1.existence_placeholder_output⟩, r.2)
      else r

/-- The loop `while (!requestMerger.empty())`; `fuel` bounds the number of
requested edges. -/
def process_requests (num_threads : Nat) :
    Nat → List ExistenceRequestMsg → List edge_t → ExistenceOutput
  | 0, _, _ => ⟨[], [], []⟩
  | _ + 1, [], _ => ⟨[], [], []⟩
  | fuel + 1, request :: rest, edges =>
    let current_edge := request.edge
    let found := find_edge current_edge edges false
    let chain := existence_chain num_threads current_edge (request :: rest) request.swap_id false
    let last_swap := chain.2.1
    let foundTargetEdge := chain.2.2.1
    let r := process_requests num_threads fuel chain.2.2.2 found.2
    let info : ExistenceOutput :=
      if foundTargetEdge && found.1 then
        ⟨[⟨last_swap, current_edge⟩], [], [(_thread num_threads last_swap, last_swap)]⟩
      else ⟨[], [], []⟩
    ⟨chain.1.existence_info ++ info.existence_info ++ r.existence_info,
      chain.1.successor_output ++ info.successor_output ++ r.successor_output,
      chain.1.existence_placeholder_output ++ info.existence_placeholder_output
        ++ r.existence_placeholder_output⟩

/-- What `_process_existence_requests` leaves behind. -/
structure ExistenceResult where
  /-- the merger `_existence_info` after `finish_sorter_input()` -/
  existence_info : PQSorterMerger ExistenceInfoMsg
  /-- the sorted successor messages, all threads -/
  existence_successor : List ExistenceSuccessorMsg
  /-- the sorted placeholders, all threads -/
  existence_placeholder : List Nat
  /-- the messages as they were pushed, with their threads -/
  pushed : ExistenceOutput

/-- The function `_process_existence_requests`. -/
def _process_existence_requests (num_threads : Nat) (requestMerger : List ExistenceRequestMsg)
    (edges : List edge_t) : ExistenceResult :=
  let out := process_requests num_threads requestMerger.length requestMerger edges
  { existence_info := PQSorterMerger.finish_sorter_input ExistenceInfoMsg.le out.existence_info
    existence_successor :=
      sorter_sort ExistenceSuccessorMsg.le (out.successor_output.map Prod.snd)
    existence_placeholder :=
      sorter_sort (fun a b : Nat => a ≤ b) (out.existence_placeholder_output.map Prod.snd)
    pushed := out }

/-! ## The swap performer `_perform_swaps` -/

/-- Modelled from the spec: one position of `EdgeExistenceInformation`, with the
placeholder count of `add_possible_info`, the number of messages that have
arrived and the edges recorded by `push_exists`. -/
structure ExistenceSlot where
  expected : Nat
  arrived : Nat
  present : List edge_t
deriving DecidableEq, Repr

/-- Modelled from the spec: the existence-information store
`EdgeExistenceInformation.h`, addressed by the swap id of a position. -/
abbrev EdgeExistenceInformation := Nat → ExistenceSlot

namespace EdgeExistenceInformation

/-- Modelled from the spec: `start_initialization()`. -/
def start_initialization : EdgeExistenceInformation := fun _ => ⟨0, 0, []⟩

/-- Modelled from the spec: `add_possible_info(pos, count)` "accepts a
per-position placeholder count". -/
def add_possible_info (x : EdgeExistenceInformation) (pos : Nat) (count : Nat) :
    EdgeExistenceInformation :=
  slot_set x pos ⟨count, 0, []⟩

/-- Modelled from the spec: `push_exists(pos, edge)` "records a present edge". -/
def push_exists (x : EdgeExistenceInformation) (pos : Nat) (e : edge_t) :
    EdgeExistenceInformation :=
  slot_set x pos { x pos with arrived := (x pos).arrived + 1, present := e :: (x pos).present }

/-- Modelled from the spec: `push_missing(pos)` "decrements the missing
counter". -/
def push_missing (x : EdgeExistenceInformation) (pos : Nat) : EdgeExistenceInformation :=
  slot_set x pos { x pos with arrived := (x pos).arrived + 1 }

/-- Modelled from the spec: `wait_for_missing(pos)` "blocks until the expected
count has arrived"; `true` when it returns. -/
def wait_for_missing (x : EdgeExistenceInformation) (pos : Nat) : Bool :=
  decide ((x pos).expected ≤ (x pos).arrived)

/-- Modelled from the spec: `exists(pos, edge)`. -/
def «exists» (x : EdgeExistenceInformation) (pos : Nat) (e : edge_t) : Bool :=
  decide (e ∈ (x pos).present)

end EdgeExistenceInformation

/-- The state of `_perform_swaps` between two swaps. -/
structure PerformState where
  _edge_state : PQSorterMerger DependencyChainEdgeMsg
  _existence_info : PQSorterMerger ExistenceInfoMsg
  /-- the unread successor messages `edge_dependencies` -/
  edge_dependencies : List DependencyChainSuccessorMsg
  /-- the unread messages `existence_successor` -/
  existence_successor : List ExistenceSuccessorMsg
  /-- the unread tokens `existence_placeholder` -/
  existence_placeholder : List Nat
  _swap_direction : BoolStream
  /-- the slot `source_edges[tid][pos][spos]` of a swap id -/
  source_edges : Nat × Nat → edge_t
  existence_information : EdgeExistenceInformation
  /-- the edges pushed into the edge update buffers, in push order -/
  edge_updates : List edge_t
  /-- the records written to the debug vector -/
  debug : List SwapResult
  /-- every edge forwarded to a successor, in the batch or through `push_pq`, as
  the message it stands for -/
  forwarded : List DependencyChainEdgeMsg
  /-- every existence answer forwarded to a successor, in the batch or through
  `push_pq`, as the message it stands for -/
  answered : List ExistenceInfoMsg

/-- The loop `while (!my_existence_placeholder.empty() && *my_existence_placeholder == s)`:
the count `c` and the rest of the placeholders. -/
def count_placeholders (s : Nat) : List Nat → Nat × List Nat
  | [] => (0, [])
  | p :: rest =>
    if p = s then
      let r := count_placeholders s rest
      (r.1 + 1, r.2)
    else (0, p :: rest)

/-- The first parallel region of a batch: `add_possible_info` for the `n` swap
ids from `s` on that are below `_num_swaps_in_run`. -/
def init_existence (num_swaps : Nat) :
    Nat → Nat → List Nat → EdgeExistenceInformation →
      List Nat × EdgeExistenceInformation
  | 0, _, placeholders, x => (placeholders, x)
  | n + 1, s, placeholders, x =>
    if s < num_swaps then
      let c := count_placeholders s placeholders
      init_existence num_swaps n (s + 1) c.2 (x.add_possible_info s c.1)
    else (placeholders, x)

/-- The loop `while (!_existence_info.empty() && _existence_info->swap_id == swap_id)`
of the hydration. -/
def hydrate_existence (swap_id : Nat) :
    Nat → PQSorterMerger ExistenceInfoMsg → EdgeExistenceInformation →
      PQSorterMerger ExistenceInfoMsg × EdgeExistenceInformation
  | 0, m, x => (m, x)
  | fuel + 1, m, x =>
    match m.peek ExistenceInfoMsg.le with
    | none => (m, x)
    | some msg =>
      if msg.swap_id = swap_id then
        hydrate_existence swap_id fuel (m.advance ExistenceInfoMsg.le)
          (if msg.edge = edge_t.invalid then x.push_missing swap_id
           else x.push_exists swap_id msg.edge)
      else (m, x)

/-- The body of the loop `for (spos ...)` of the hydration: the source edge of
the side `spos` of `swap_id`. -/
def hydrate_source (swap_id : Nat) (spos : Nat) (st : PerformState) : PerformState :=
  match st._edge_state.peek DependencyChainEdgeMsg.le with
  | none => st
  | some msg =>
    if msg.sid = pack_swap_id_spos swap_id spos then
      { st with
        source_edges := slot_set st.source_edges (swap_id, spos) msg.edge
        _edge_state := st._edge_state.advance DependencyChainEdgeMsg.le }
    else st

/-- The hydration loop of `_perform_swaps` over the `n` swap ids from `swap_id`
on. -/
def perform_hydrate : Nat → Nat → PerformState → PerformState
  | 0, _, st => st
  | n + 1, swap_id, st =>
    let h := hydrate_existence swap_id
      (st._existence_info.cursor.length + st._existence_info.pq.length)
      st._existence_info st.existence_information
    let st1 : PerformState := { st with _existence_info := h.1, existence_information := h.2 }
    perform_hydrate n (swap_id + 1) (hydrate_source swap_id 1 (hydrate_source swap_id 0 st1))

/-- The loop "forward edge state to successor swap": returns the state and
`successor_found`. -/
def forward_edge_state (sid_in_batch_limit sid : Nat) (new_edges : edge_t × edge_t) :
    List DependencyChainSuccessorMsg → PerformState → Bool × Bool →
      PerformState × (Bool × Bool)
  | [], st, successor_found => ({ st with edge_dependencies := [] }, successor_found)
  | msg :: rest, st, successor_found =>
    if get_swap_id msg.sid = sid then
      let spos := get_swap_spos msg.sid
      let found : Bool × Bool :=
        if spos = 0 then (true, successor_found.2) else (successor_found.1, true)
      let successor_swap_id := get_swap_id msg.successor
      let e := pair_get new_edges spos
      let st1 : PerformState :=
        if successor_swap_id < sid_in_batch_limit then
          { st with
            source_edges :=
              slot_set st.source_edges (successor_swap_id, get_swap_spos msg.successor) e }
        else
          { st with
            _edge_state := st._edge_state.push_pq DependencyChainEdgeMsg.le ⟨msg.successor, e⟩ }
      forward_edge_state sid_in_batch_limit sid new_edges rest
        { st1 with forwarded := st1.forwarded ++ [⟨msg.successor, e⟩] } found
    else ({ st with edge_dependencies := msg :: rest }, successor_found)

/-- The lambda `push_existence_info(target_sid, e, exists)`. -/
def push_existence_info (sid_in_batch_limit : Nat) (target_sid : Nat) (e : edge_t)
    («exists» : Bool) (st : PerformState) : PerformState :=
  let e1 := if !«exists» then edge_t.invalid else e
  let st1 : PerformState :=
    if target_sid < sid_in_batch_limit then
      { st with
        existence_information :=
          if «exists» then st.existence_information.push_exists target_sid e1
          else st.existence_information.push_missing target_sid }
    else
      { st with _existence_info := st._existence_info.push_pq ExistenceInfoMsg.le ⟨target_sid, e1⟩ }
  { st1 with answered := st1.answered ++ [⟨target_sid, e1⟩] }

/-- The loop "forward existence information" of the swap `sid`. -/
def forward_existence (sid_in_batch_limit sid : Nat) (cur_edges new_edges : edge_t × edge_t) :
    List ExistenceSuccessorMsg → PerformState → PerformState
  | [], st => { st with existence_successor := [] }
  | succ :: rest, st =>
    if succ.swap_id > sid then { st with existence_successor := succ :: rest }
    else
      let st1 :=
        if succ.edge = new_edges.1 ∨ succ.edge = new_edges.2 then
          push_existence_info sid_in_batch_limit succ.successor succ.edge true st
        else if succ.edge = cur_edges.1 ∨ succ.edge = cur_edges.2 then
          push_existence_info sid_in_batch_limit succ.successor succ.edge false st
        else
          push_existence_info sid_in_batch_limit succ.successor succ.edge
            (st.existence_information.exists sid succ.edge) st
      forward_existence sid_in_batch_limit sid cur_edges new_edges rest st1

/-- The decision of the swap `sid` on its source edges `cur_edges`: the record
written to the debug vector (before `normalize`). -/
def swap_decision (x : EdgeExistenceInformation) (sid : Nat) (cur_edges : edge_t × edge_t)
    (direction : Bool) : SwapResult :=
  let new_edges := _swap_edges cur_edges.1 cur_edges.2 direction
  let conflict_exists : Bool × Bool := (x.exists sid new_edges.1, x.exists sid new_edges.2)
  let loop := new_edges.1.is_loop || new_edges.2.is_loop
  let perform_swap := !(conflict_exists.1 || conflict_exists.2 || loop)
  { performed := perform_swap, loop := loop, edges := new_edges,
    conflictDetected := conflict_exists }

/-- The edges `new_edges` of a swap after the step `if (!perform_swap)`. -/
def swap_outcome (res : SwapResult) (cur_edges : edge_t × edge_t) : edge_t × edge_t :=
  if !res.performed then cur_edges else res.edges

/-- Whether the busy wait on a source edge of a slot is left. -/
def source_ready (e : edge_t) : Bool := !(decide (e.first = INVALID_NODE) || decide (e.second = INVALID_NODE))

/-- The body of the worker loop of `_perform_swaps` for the swap `sid` (with
`sid < _num_swaps_in_run`); `none` when a wait of the swap is never left. -/
def perform_swap (sid_in_batch_limit sid : Nat) (st : PerformState) : Option PerformState :=
  match st._swap_direction with
  | [] => none
  | direction :: directions =>
    let cur_edges : edge_t × edge_t := (st.source_edges (sid, 0), st.source_edges (sid, 1))
    if !(source_ready cur_edges.1 && source_ready cur_edges.2) then none else
    if !st.existence_information.wait_for_missing sid then none else
    let res := swap_decision st.existence_information sid cur_edges direction
    let new_edges := swap_outcome res cur_edges
    let st0 : PerformState :=
      { st with _swap_direction := directions, debug := st.debug ++ [res.normalize] }
    let f := forward_edge_state sid_in_batch_limit sid new_edges st0.edge_dependencies st0
      (false, false)
    let st1 : PerformState :=
      { f.1 with
        edge_updates := f.1.edge_updates
          ++ (if !f.2.1 then [new_edges.1] else []) ++ (if !f.2.2 then [new_edges.2] else []) }
    let st2 := forward_existence sid_in_batch_limit sid cur_edges new_edges
      st1.existence_successor st1
    some { st2 with
      source_edges := slot_set (slot_set st2.source_edges (sid, 0) edge_t.invalid)
        (sid, 1) edge_t.invalid }

/-- The worker loops of one batch of `_perform_swaps`, run in ascending swap id
over the `n` ids from `sid` on; ids from `_num_swaps_in_run` on are skipped. -/
def perform_workers (num_swaps sid_in_batch_limit : Nat) :
    Nat → Nat → PerformState → Option PerformState
  | 0, _, st => some st
  | n + 1, sid, st =>
    if sid ≥ num_swaps then perform_workers num_swaps sid_in_batch_limit n (sid + 1) st
    else
      match perform_swap sid_in_batch_limit sid st with
      | none => none
      | some st1 => perform_workers num_swaps sid_in_batch_limit n (sid + 1) st1

/-- The loop over the batches of `_perform_swaps`, from `sid_in_batch_base` on;
`fuel` bounds the number of batches. -/
def perform_batches (num_threads batch_size_per_thread num_swaps : Nat) :
    Nat → Nat → PerformState → Option PerformState
  | 0, sid_in_batch_base, st =>
    if sid_in_batch_base < loop_limit num_swaps num_threads then none else some st
  | fuel + 1, sid_in_batch_base, st =>
    if sid_in_batch_base < loop_limit num_swaps num_threads then
      let width := batch_size_per_thread * num_threads
      let sid_in_batch_limit := min num_swaps (sid_in_batch_base + width)
      let i := init_existence num_swaps width sid_in_batch_base st.existence_placeholder
        EdgeExistenceInformation.start_initialization
      let st1 : PerformState :=
        { st with
          existence_placeholder := i.1
          existence_information := i.2
          _edge_state := st._edge_state.start_batch
            ⟨pack_swap_id_spos sid_in_batch_limit 0, ⟨-1, -1⟩⟩
          _existence_info := st._existence_info.start_batch ⟨sid_in_batch_limit, ⟨-1, -1⟩⟩ }
      let st2 := perform_hydrate
        (hydrate_count num_threads sid_in_batch_base sid_in_batch_limit) sid_in_batch_base st1
      match perform_workers num_swaps sid_in_batch_limit
          (min (loop_limit num_swaps num_threads) (sid_in_batch_base + width) - sid_in_batch_base)
          sid_in_batch_base st2 with
      | none => none
      | some st3 =>
        perform_batches num_threads batch_size_per_thread num_swaps fuel
          (sid_in_batch_base + width)
          { st3 with
            _edge_state := st3._edge_state.end_batch
            _existence_info := st3._existence_info.end_batch }
    else some st

/-- What `_perform_swaps` leaves behind. -/
structure PerformResult where
  /-- the sorted edge updates, the content of `_edge_update_merger` -/
  edge_update_merger : List edge_t
  /-- the edge updates in push order -/
  edge_updates : List edge_t
  /-- the records appended to the debug vector -/
  debug : List SwapResult
  /-- every forwarded edge -/
  forwarded : List DependencyChainEdgeMsg
  /-- every forwarded existence answer -/
  answered : List ExistenceInfoMsg

/-- The function `_perform_swaps`. -/
def _perform_swaps (num_threads batch_size_per_thread num_swaps : Nat)
    (edge_state : PQSorterMerger DependencyChainEdgeMsg)
    (existence_info : PQSorterMerger ExistenceInfoMsg)
    (edge_dependencies : List DependencyChainSuccessorMsg)
    (existence_successor : List ExistenceSuccessorMsg)
    (existence_placeholder : List Nat) (swap_direction : BoolStream) :
    Option PerformResult :=
  let st : PerformState :=
    { _edge_state := edge_state
      _existence_info := existence_info
      edge_dependencies := edge_dependencies
      existence_successor := existence_successor
      existence_placeholder := existence_placeholder
      _swap_direction := swap_direction
      source_edges := fun _ => edge_t.invalid
      existence_information := EdgeExistenceInformation.start_initialization
      edge_updates := []
      debug := []
      forwarded := []
      answered := [] }
  match perform_batches num_threads batch_size_per_thread num_swaps
      (loop_limit num_swaps num_threads) 0 st with
  | none => none
  | some st1 =>
    some
      { edge_update_merger := sorter_sort edge_le st1.edge_updates
        edge_updates := st1.edge_updates
        debug := st1.debug
        forwarded := st1.forwarded
        answered := st1.answered }

/-! ## The driver: `push`, `process_swaps`, `run` -/

/-- The messages of one call of `process_swaps`, by kind. -/
structure RunLog where
  /-- every `DependencyChainEdgeMsg`: from the dependency-chain builder, from
  the conflict computer and from the swap performer -/
  depchain_edges : List DependencyChainEdgeMsg
  /-- every `ExistenceRequestMsg` -/
  existence_requests : List ExistenceRequestMsg
  /-- every `ExistenceInfoMsg`: from the existence-request processor and from
  the swap performer -/
  existence_info : List ExistenceInfoMsg
  /-- every edge update -/
  edge_updates : List edge_t
deriving DecidableEq, Repr

/-- The log of a call that sends nothing. -/
def RunLog.empty : RunLog := ⟨[], [], [], []⟩

/-- The messages of two calls. -/
def RunLog.append (a b : RunLog) : RunLog :=
  ⟨a.depchain_edges ++ b.depchain_edges, a.existence_requests ++ b.existence_requests,
    a.existence_info ++ b.existence_info, a.edge_updates ++ b.edge_updates⟩

/-- The constructor `EdgeSwapParallelTFP(edges, swaps_per_iteration, num_threads)`
with `swaps_per_iteration = 0`. -/
def Engine.init (num_threads : Nat) (edges : List edge_t) : Engine :=
  { num_threads := num_threads
    _edges := edges
    _num_swaps_in_run := 0
    _edge_swap_sorter := []
    _swap_direction := []
    _needs_writeback := false
    _valid_edges := []
    _edge_update_merger := []
    _result := [] }

/-- Modelled from the spec: `push(swap)` of `EdgeSwapParallelTFP.h`, which
produces the swap requests `(eid, sid, side)`, "one per side of each swap", and
hands the direction bit to the swap direction stream; with
`swaps_per_iteration = 0` it never starts an iteration by itself. -/
def push (g : Engine) (swap : SwapDescriptor) : Engine :=
  { g with
    _edge_swap_sorter := g._edge_swap_sorter ++
      [⟨swap.eid_a, pack_swap_id_spos g._num_swaps_in_run 0⟩,
       ⟨swap.eid_b, pack_swap_id_spos g._num_swaps_in_run 1⟩]
    _swap_direction := g._swap_direction ++ [swap.direction]
    _num_swaps_in_run := g._num_swaps_in_run + 1 }

/-- The function `process_swaps` with the batch size per thread as a
parameter; `none` when a worker never leaves a wait. -/
def process_swaps_with (batch_size_per_thread : Nat) (g : Engine) : Option (Engine × RunLog) :=
  if g._num_swaps_in_run = 0 ∧ !g._needs_writeback then some (g, RunLog.empty)
  else
    let l := _load_and_update_edges g
    if g._num_swaps_in_run > 0 then
      match _compute_conflicts g.num_threads batch_size_per_thread g._num_swaps_in_run
          l.edge_state l.dependencies g._swap_direction with
      | none => none
      | some c =>
        let x := _process_existence_requests g.num_threads c.existence_merger l.engine._edges
        match _perform_swaps g.num_threads batch_size_per_thread g._num_swaps_in_run
            c.edge_state x.existence_info l.dependencies x.existence_successor
            x.existence_placeholder g._swap_direction with
        | none => none
        | some p =>
          some
            ({ l.engine with
                _edge_update_merger := p.edge_update_merger
                _result := l.engine._result ++ p.debug
                _swap_direction := []
                _num_swaps_in_run := 0
                _edge_swap_sorter := [] },
              { depchain_edges := l.pushed.depchain_edges ++ c.forwarded ++ p.forwarded
                existence_requests := c.existence_requests
                existence_info := x.pushed.existence_info ++ p.answered
                edge_updates := p.edge_updates })
    else
      some ({ l.engine with _num_swaps_in_run := 0, _edge_swap_sorter := [] }, RunLog.empty)

/-- The function `process_swaps`. -/
def process_swaps (g : Engine) : Option (Engine × RunLog) :=
  process_swaps_with IntScale.Mi g

/-- The function `run` with the batch size per thread as a parameter. -/
def run_with (batch_size_per_thread : Nat) (g : Engine) : Option (Engine × RunLog) :=
  match process_swaps_with batch_size_per_thread g with
  | none => none
  | some (g1, log1) =>
    match process_swaps_with batch_size_per_thread g1 with
    | none => none
    | some (g2, log2) => some (g2, log1.append log2)

/-- The function `run`: `process_swaps` twice. -/
def run (g : Engine) : Option (Engine × RunLog) := run_with IntScale.Mi g

/-- A run of the engine as the tests drive it: construct the engine on the
edge list, push every swap, call `run`. -/
def run_swaps_with (batch_size_per_thread num_threads : Nat) (edges : List edge_t)
    (swaps : List SwapDescriptor) : Option (Engine × RunLog) :=
  run_with batch_size_per_thread (swaps.foldl push (Engine.init num_threads edges))

/-- A run of the engine as the tests drive it, with the batch size of the
source. -/
def run_swaps (num_threads : Nat) (edges : List edge_t) (swaps : List SwapDescriptor) :
    Option (Engine × RunLog) :=
  run_swaps_with IntScale.Mi num_threads edges swaps

/-- The edge list a run leaves in `_edges`. -/
def edges_after (num_threads : Nat) (edges : List edge_t) (swaps : List SwapDescriptor) :
    Option (List edge_t) :=
  (run_swaps num_threads edges swaps).map fun r => r.1._edges

/-! ## The serial reference -/

/-- Modelled from the spec: one step of the "straightforward fully-internal serial
simulator" (`MultiEdgeSwapFullyInternal.h` is not among the sources): the swap is
performed iff neither swapped edge is a self-loop nor already present in the
current graph; the edge ids index the edge list. -/
def serial_swap (edges : List edge_t) (swap : SwapDescriptor) : List edge_t :=
  match edges[swap.eid_a]?, edges[swap.eid_b]? with
  | some a, some b =>
    let n := _swap_edges a b swap.direction
    if n.1.is_loop || n.2.is_loop || decide (n.1 ∈ edges) || decide (n.2 ∈ edges) then edges
    else (edges.set swap.eid_a n.1).set swap.eid_b n.2
  | _, _ => edges

/-- Modelled from the spec: the serial simulator "applies the swaps of S one
after another"; the result by edge id. -/
def serial_run (edges : List edge_t) (swaps : List SwapDescriptor) : List edge_t :=
  swaps.foldl serial_swap edges

/-- Modelled from the spec: the edge list the serial simulator produces, in the
lexicographic order in which the engine keeps `E`. -/
def serial_edges_after (edges : List edge_t) (swaps : List SwapDescriptor) : List edge_t :=
  sorter_sort edge_le (serial_run edges swaps)

/-! ## Concrete inputs of the scenarios -/

/-- The edge list `⟨E⟩` of the scenario "no-conflict". -/
def scenario_E : List edge_t := [⟨1, 3⟩, ⟨2, 4⟩, ⟨2, 4⟩, ⟨3, 3⟩, ⟨3, 6⟩, ⟨5, 6⟩]

/-- The swaps of the scenario "no-conflict". -/
def scenario_S : List SwapDescriptor := [⟨0, 1, true⟩, ⟨1, 2, false⟩, ⟨3, 5, true⟩]

/-- The edge list of the scenario "chain". -/
def chain_E : List edge_t :=
  [⟨1, 2⟩, ⟨1, 2⟩, ⟨1, 2⟩, ⟨1, 9⟩, ⟨2, 10⟩, ⟨3, 4⟩, ⟨5, 6⟩, ⟨7, 8⟩]

/-- The swaps of the scenario "chain". -/
def chain_S : List SwapDescriptor :=
  [⟨0, 5, false⟩, ⟨1, 6, false⟩, ⟨2, 7, false⟩, ⟨3, 4, false⟩]

/-- The edge list of the scenario "conflict-detected" (test `deletion`). -/
def deletion_E : List edge_t := [⟨1, 2⟩, ⟨1, 2⟩, ⟨1, 2⟩, ⟨1, 3⟩, ⟨2, 4⟩, ⟨5, 6⟩]

/-- The swaps of the scenario "conflict-detected" (test `deletion`). -/
def deletion_S : List SwapDescriptor := [⟨0, 5, true⟩, ⟨3, 4, false⟩]

/-- An edge list with a double edge `(1,2)`, of which the first swap of
`stale_S` removes one copy. -/
def stale_E : List edge_t := [⟨1, 2⟩, ⟨1, 2⟩, ⟨1, 9⟩, ⟨2, 10⟩, ⟨3, 4⟩, ⟨5, 6⟩]

/-- Three swaps: the second one creates `(1,2)` again, the third one reads the
edge id the second one wrote. -/
def stale_S : List SwapDescriptor := [⟨0, 4, false⟩, ⟨2, 3, false⟩, ⟨2, 5, false⟩]

/-- A state of `_perform_swaps` in front of a swap 0 whose source edges `(1,2)`
and `(1,3)` give the loop `(1,1)` under direction 0. -/
def loop_state : PerformState :=
  { _edge_state := ⟨[], [], [], none⟩
    _existence_info := ⟨[], [], [], none⟩
    edge_dependencies := []
    existence_successor := []
    existence_placeholder := []
    _swap_direction := [false]
    source_edges := fun k => if k = (0, 0) then ⟨1, 2⟩ else if k = (0, 1) then ⟨1, 3⟩
      else edge_t.invalid
    existence_information := EdgeExistenceInformation.start_initialization
    edge_updates := []
    debug := []
    forwarded := []
    answered := [] }

/-! ## Definitions of the proofs

The requests of a list of swaps, the facts about the messages of the
dependency-chain builder, the positional semantics of a run and the invariants
of the phases. -/

/-- The requests `push` produces for the swaps from swap id `n0` on. -/
def swap_requests : Nat → List SwapDescriptor → List EdgeLoadRequest
  | _, [] => []
  | n0, s :: ss =>
    ⟨s.eid_a, pack_swap_id_spos n0 0⟩ :: ⟨s.eid_b, pack_swap_id_spos n0 1⟩ ::
      swap_requests (n0 + 1) ss

/-- The edge id the swap side with key `k` requests. -/
def request_eid (swaps : List SwapDescriptor) (k : Nat) : Nat :=
  match swaps[k / 2]? with
  | none => 0
  | some s => if k % 2 = 0 then s.eid_a else s.eid_b

/-- The successor links of a request list: one per pair of neighbours that
name the same edge id. -/
def chain_links : List EdgeLoadRequest → List DependencyChainSuccessorMsg
  | [] => []
  | [_] => []
  | a :: b :: rest =>
    if a.eid = b.eid then ⟨a.sid, b.sid⟩ :: chain_links (b :: rest) else chain_links (b :: rest)

/-- The requests that are the first of their edge id, after a request for the
edge id `prev`. -/
def chain_heads (prev : Option Nat) : List EdgeLoadRequest → List EdgeLoadRequest
  | [] => []
  | a :: rest =>
    if prev = some a.eid then chain_heads prev rest else a :: chain_heads (some a.eid) rest

/-- The strict order of requests: by edge id, then by key. -/
def EdgeLoadRequest.lt (a b : EdgeLoadRequest) : Prop :=
  a.eid < b.eid ∨ (a.eid = b.eid ∧ a.sid < b.sid)

/-- The facts about the output of the dependency-chain builder that the later
phases rely on, for the key space `[0, N)` and the edge id `eid k` of a key. -/
structure ChainFacts (edges : List edge_t) (N : Nat) (eid : Nat → Nat)
    (depchain_edges : List DependencyChainEdgeMsg)
    (links : List DependencyChainSuccessorMsg) (valid : List Bool) : Prop where
  mem_edges : ∀ q e, (⟨q, e⟩ : DependencyChainEdgeMsg) ∈ depchain_edges ↔
    q < N ∧ (∀ t, t < N → eid t = eid q → q ≤ t) ∧ e = edges.getD (eid q) edge_t.invalid
  mem_links : ∀ p q, (⟨p, q⟩ : DependencyChainSuccessorMsg) ∈ links ↔
    p < N ∧ q < N ∧ eid p = eid q ∧ p < q ∧ ∀ t, t < N → eid t = eid p → t ≤ p ∨ q ≤ t
  valid_eq : valid = (List.range edges.length).map (fun j => decide (∀ t, t < N → eid t ≠ j))
  edges_nodup : (depchain_edges.map DependencyChainEdgeMsg.sid).Nodup
  links_nodup : (links.map DependencyChainSuccessorMsg.sid).Nodup
  successors_nodup : (links.map DependencyChainSuccessorMsg.successor).Nodup

/-- The records a merger still holds: the unread run and the queue. -/
def PQSorterMerger.content {α : Type} (m : PQSorterMerger α) : List α := m.cursor ++ m.pq

/-- One swap on the edge list by edge id: the two edges are replaced by the
swapped edges if the swap is performed, and stay otherwise. -/
def positional_swap (A : List edge_t) (swap : SwapDescriptor) (performed : Bool) : List edge_t :=
  let cur := (A.getD swap.eid_a edge_t.invalid, A.getD swap.eid_b edge_t.invalid)
  let out := if performed then _swap_edges cur.1 cur.2 swap.direction else cur
  (A.set swap.eid_a out.1).set swap.eid_b out.2

/-- The swaps applied one after another by edge id, each performed or not as
the flags say. -/
def positional_run (A : List edge_t) : List SwapDescriptor → List Bool → List edge_t
  | s :: ss, f :: fs => positional_run (positional_swap A s f) ss fs
  | _, _ => A

/-- The number of edge endpoints equal to `v`; a self-loop counts twice. -/
def degree (edges : List edge_t) (v : Int) : Nat :=
  (edges.map fun e => (if e.first = v then 1 else 0) + (if e.second = v then 1 else 0)).sum

/-- The inputs of a run and the messages of its dependency-chain builder. -/
structure RunCtx where
  edges : List edge_t
  swaps : List SwapDescriptor
  depchain_edges : List DependencyChainEdgeMsg
  links : List DependencyChainSuccessorMsg
  valid : List Bool

/-- The swap side `q` has received its edge when the swaps below `sid` are
done: it is the first side of its edge id, or its predecessor is done. -/
def RunCtx.has_value (c : RunCtx) (sid q : Nat) : Prop :=
  (∃ e, (⟨q, e⟩ : DependencyChainEdgeMsg) ∈ c.depchain_edges) ∨
    ∃ p, (⟨p, q⟩ : DependencyChainSuccessorMsg) ∈ c.links ∧ p < 2 * sid

/-- Well-formed inputs: every swap names two different edge ids in range, no
node id is the invalid sentinel, and the messages are those of the builder. -/
structure RunCtx.WF (c : RunCtx) : Prop where
  n_lt : c.swaps.length < 2 ^ 63
  facts : ChainFacts c.edges (2 * c.swaps.length) (request_eid c.swaps) c.depchain_edges
    c.links c.valid
  distinct : ∀ s ∈ c.swaps, s.eid_a ≠ s.eid_b
  range : ∀ s ∈ c.swaps, s.eid_a < c.edges.length ∧ s.eid_b < c.edges.length

/-- The unread successor messages when the keys below `k` are done. -/
structure LinkStream (c : RunCtx) (k : Nat) (deps : List DependencyChainSuccessorMsg) : Prop where
  sorted : deps.Pairwise (fun a b => a.sid < b.sid)
  mem : ∀ m, m ∈ deps ↔ m ∈ c.links ∧ k ≤ m.sid

/-- The body of the loop "forward edge state to successor swap" for one
successor message: the edge `e` goes to the swap side `successor`. -/
def deliver_edge (sid_in_batch_limit successor : Nat) (e : edge_t) (st : PerformState) :
    PerformState :=
  let st1 : PerformState :=
    if get_swap_id successor < sid_in_batch_limit then
      { st with
        source_edges :=
          slot_set st.source_edges (get_swap_id successor, get_swap_spos successor) e }
    else
      { st with
        _edge_state := st._edge_state.push_pq DependencyChainEdgeMsg.le ⟨successor, e⟩ }
  { st1 with forwarded := st1.forwarded ++ [⟨successor, e⟩] }

/-- The edge goes to the successor, if there is one. -/
def deliver_edge_opt (sid_in_batch_limit : Nat) (successor : Option Nat) (e : edge_t)
    (st : PerformState) : PerformState :=
  match successor with
  | none => st
  | some q => deliver_edge sid_in_batch_limit q e st

/-- The edge list by edge id after the swaps the state has done, performed or
not as its debug records say. -/
def ghost (c : RunCtx) (st : PerformState) : List edge_t :=
  positional_run c.edges (c.swaps.take st.debug.length) (st.debug.map SwapResult.performed)

/-- The edge of the edge id the key `q` requests. -/
def ghost_at (c : RunCtx) (st : PerformState) (q : Nat) : edge_t :=
  (ghost c st).getD (request_eid c.swaps q) edge_t.invalid

/-- The swaps below `sid` are done and the slots of the keys below `f` are
hydrated: every swap side from `sid` on that has received its edge holds the edge
of its edge id, in its slot (keys below `f`) or in the merger (keys from `f`
on). -/
structure PerfInv (c : RunCtx) (f sid : Nat) (st : PerformState) : Prop where
  deps : LinkStream c (2 * sid) st.edge_dependencies
  dirs : st._swap_direction = (c.swaps.drop sid).map SwapDescriptor.direction
  debug_len : st.debug.length = sid
  slot_hv : ∀ i s, s < 2 → 2 * sid ≤ 2 * i + s → 2 * i + s < f → c.has_value sid (2 * i + s) →
    st.source_edges (i, s) = ghost_at c st (2 * i + s)
  slot_inv : ∀ i s,
    ¬ (s < 2 ∧ 2 * sid ≤ 2 * i + s ∧ 2 * i + s < f ∧ c.has_value sid (2 * i + s)) →
    st.source_edges (i, s) = edge_t.invalid
  cur_sorted : st._edge_state.cursor.Sorted DependencyChainEdgeMsg.le
  pq_sorted : st._edge_state.pq.Sorted DependencyChainEdgeMsg.le
  keys_nodup : (st._edge_state.content.map DependencyChainEdgeMsg.sid).Nodup
  m_sound : ∀ x ∈ st._edge_state.content, f ≤ x.sid ∧ x.sid < 2 * c.swaps.length ∧
    c.has_value sid x.sid ∧ x.edge = ghost_at c st x.sid
  m_complete : ∀ q, f ≤ q → q < 2 * c.swaps.length → c.has_value sid q →
    ∃ x ∈ st._edge_state.content, x.sid = q
  updates : st.edge_updates =
    ((List.range (2 * sid)).filter
      (fun p => decide (p ∉ c.links.map DependencyChainSuccessorMsg.sid))).map (ghost_at c st)

/-- The slots after a delivery. -/
def deliver_slots (limit : Nat) (o : Option Nat) (e : edge_t) (slots : Nat × Nat → edge_t) :
    Nat × Nat → edge_t :=
  match o with
  | none => slots
  | some q =>
    if get_swap_id q < limit then slot_set slots (get_swap_id q, get_swap_spos q) e else slots

/-- The merger after a delivery. -/
def deliver_merger (limit : Nat) (o : Option Nat) (e : edge_t)
    (m : PQSorterMerger DependencyChainEdgeMsg) : PQSorterMerger DependencyChainEdgeMsg :=
  match o with
  | none => m
  | some q =>
    if get_swap_id q < limit then m else m.push_pq DependencyChainEdgeMsg.le ⟨q, e⟩

/-- The merger is in order and holds only keys from `f` on, below `n`. -/
structure MergerKeys (f n : Nat) (m : PQSorterMerger DependencyChainEdgeMsg) : Prop where
  cur_sorted : m.cursor.Sorted DependencyChainEdgeMsg.le
  pq_sorted : m.pq.Sorted DependencyChainEdgeMsg.le
  keys : ∀ x ∈ m.content, f ≤ x.sid ∧ x.sid < n

/-- The state of `_compute_conflicts` when the swaps below `sid` are done and the
keys below `f` are hydrated. -/
structure ConfInv (c : RunCtx) (f sid : Nat) (st : ConflictState) : Prop where
  deps : LinkStream c (2 * sid) st.dep
  sorter : st._edge_state.sorter = sorter_sort DependencyChainEdgeMsg.le c.depchain_edges
  keys : MergerKeys f (2 * c.swaps.length) st._edge_state

/-- The keys that have no successor: the last swap sides of their edge ids. -/
def last_keys (c : RunCtx) : List Nat :=
  (List.range (2 * c.swaps.length)).filter
    (fun p => decide (p ∉ c.links.map DependencyChainSuccessorMsg.sid))

/-- The inputs of a run with the messages its dependency-chain builder sends. -/
def run_ctx (num_threads : Nat) (edges : List edge_t) (swaps : List SwapDescriptor) : RunCtx :=
  let out := load_edges num_threads 0 edges
    (sorter_sort EdgeLoadRequest.le (swap_requests 0 swaps))
  { edges := edges
    swaps := swaps
    depchain_edges := out.depchain_edges
    links := out.dependency_output.map Prod.snd
    valid := out.next_valid_edges }

/-- The result of the run of the engine on the input of the test `noConflicts`,
with one worker thread. -/
def scenario_result : Engine × RunLog :=
  (run_swaps 1 scenario_E scenario_S).getD (Engine.init 1 [], RunLog.empty)

/-- The result of the run of the engine on the input of the test `test2`, with
two worker threads. -/
def chain_result : Engine × RunLog :=
  (run_swaps 2 chain_E chain_S).getD (Engine.init 2 [], RunLog.empty)

/-- Every edge the state of `_compute_conflicts` holds is canonical. -/
structure ConfCanon (st : ConflictState) : Prop where
  slots : ∀ k, ∀ e ∈ (st.edge_information k).forEach, e.canonical
  sorter : ∀ x ∈ st._edge_state.sorter, x.edge.canonical
  merger : ∀ x ∈ st._edge_state.content, x.edge.canonical
  requests : ∀ x ∈ st.existence_requests, x.edge.canonical
  forwarded : ∀ x ∈ st.forwarded, x.edge.canonical

/-- Every edge the state of `_perform_swaps` holds is canonical. -/
structure PerfCanon (st : PerformState) : Prop where
  slots : ∀ k, (st.source_edges k).canonical
  merger : ∀ x ∈ st._edge_state.content, x.edge.canonical
  successors : ∀ x ∈ st.existence_successor, x.edge.canonical
  updates : ∀ e ∈ st.edge_updates, e.canonical
  forwarded : ∀ x ∈ st.forwarded, x.edge.canonical
  answered : ∀ x ∈ st.answered, x.edge.canonical

/-- The result of the run of the engine on the input of the test `deletion`,
with three worker threads. -/
def deletion_result : Engine × RunLog :=
  (run_swaps 3 deletion_E deletion_S).getD (Engine.init 3 [], RunLog.empty)

/-! ## The asynchronous stream `AsyncStream` (`Utils/AsyncStream.h`)

The producing stream is the list of its unread elements; the two read iterators
of the consumer are the elements between them.  The producer thread and the
consumer are run as atomic steps; a step that would wait on the
condition variable is a step that cannot be taken. -/

/-- The member `std::vector::resize(n)` on a vector of buffers. -/
def vector_resize {α : Type} (v : List α) (n : Nat) (d : α) : List α :=
  v.take n ++ List.replicate (n - v.length) d

/-- The fields of `AsyncStream`. -/
structure AsyncStream (T : Type) where
  /-- the size of an element in bytes, `sizeof(T)` -/
  sizeof_T : Nat
  _buffers : List (List T)
  _producing_stream : List T
  _producing_buffer_index : Nat
  _producing_done : Bool
  _consume_buffer_index : Nat
  /-- the elements from `_consume_read_iterator` up to `_consume_end_iterator` -/
  _consume_range : List T
  _consume_acquired : Bool
  _consume_empty : Bool
  _consume_done : Bool
deriving DecidableEq, Repr

/-- The constant `buffer_size = (1<<20) / sizeof(T)`. -/
def AsyncStream.buffer_size {T : Type} (s : AsyncStream T) : Nat := (1 <<< 20) / s.sizeof_T

/-- The function `_next_buffer_index`. -/
def AsyncStream._next_buffer_index {T : Type} (s : AsyncStream T) (i : Nat) : Nat :=
  (i + 1) % s._buffers.length

/-- The member initialisers of the constructor, before the producer thread has
taken a step and before `acquire`. -/
def AsyncStream.create {T : Type} (sizeof_T : Nat) (stream : List T)
    (number_of_buffers : Nat) : AsyncStream T :=
  { sizeof_T := sizeof_T
    _buffers := List.replicate number_of_buffers []
    _producing_stream := stream
    _producing_buffer_index := 0
    _producing_done := false
    _consume_buffer_index := 0
    _consume_range := []
    _consume_acquired := false
    _consume_empty := false
    _consume_done := false }

/-- The first statement of `_producer_copy_to_buffers`: `_buffers.resize(buffer_size)`. -/
def AsyncStream.producer_resize {T : Type} (s : AsyncStream T) : AsyncStream T :=
  { s with _buffers := vector_resize s._buffers s.buffer_size [] }

/-- The block "fill buffer" of `_producer_copy_to_buffers`: up to `buffer_size`
elements of the producing stream are pushed to the back of the buffer
`_buffers[_producing_buffer_index]`. -/
def AsyncStream.producer_fill {T : Type} (s : AsyncStream T) : AsyncStream T :=
  { s with
    _buffers := s._buffers.set s._producing_buffer_index
      (s._buffers.getD s._producing_buffer_index [] ++ s._producing_stream.take s.buffer_size)
    _producing_stream := s._producing_stream.drop s.buffer_size }

/-- The locked block of `_producer_copy_to_buffers`: `none` while the producer
waits on the condition variable, else the state and whether the loop goes
on. -/
def AsyncStream.producer_advance {T : Type} (s : AsyncStream T) : Option (AsyncStream T × Bool) :=
  let next_idx := s._next_buffer_index s._producing_buffer_index
  if s._consume_buffer_index ≠ next_idx ∨ s._consume_done then
    let s1 := { s with _producing_buffer_index := next_idx }
    if s._consume_done then some (s1, false)
    else if s1._producing_stream.isEmpty then some ({ s1 with _producing_done := true }, false)
    else some (s1, true)
  else none

/-- The first part of `_consume_acquire_buffer`: a held buffer is given back. -/
def AsyncStream.consume_give_back {T : Type} (s : AsyncStream T) : AsyncStream T :=
  if s._consume_acquired then
    { s with _consume_buffer_index := s._next_buffer_index s._consume_buffer_index }
  else s

/-- The second part of `_consume_acquire_buffer`, from the wait on: `none` while
the consumer waits on the condition variable. -/
def AsyncStream.consume_take {T : Type} (s : AsyncStream T) : Option (AsyncStream T) :=
  if s._consume_buffer_index ≠ s._producing_buffer_index ∨ s._producing_done then
    some { s with
      _consume_empty := decide (s._consume_buffer_index = s._producing_buffer_index)
      _consume_acquired := true
      _consume_range := s._buffers.getD s._consume_buffer_index [] }
  else none

/-- The member `empty()`. -/
def AsyncStream.empty {T : Type} (s : AsyncStream T) : Bool := s._consume_empty

/-- The member `operator*`: `none` when the read iterator is the end iterator. -/
def AsyncStream.deref {T : Type} (s : AsyncStream T) : Option T := s._consume_range.head?

/-- The program counter of the producer thread. -/
inductive ProducerPc where
  | start
  | fill
  | advance
  | finished
deriving DecidableEq, Repr

/-- An `AsyncStream` with its producer thread. -/
structure AsyncSystem (T : Type) where
  stream : AsyncStream T
  pc : ProducerPc
deriving DecidableEq, Repr

/-- One step of the producer thread; `none` when it waits or has finished. -/
def AsyncSystem.producer_step {T : Type} (y : AsyncSystem T) : Option (AsyncSystem T) :=
  match y.pc with
  | ProducerPc.start => some ⟨y.stream.producer_resize, ProducerPc.fill⟩
  | ProducerPc.fill => some ⟨y.stream.producer_fill, ProducerPc.advance⟩
  | ProducerPc.advance =>
    match y.stream.producer_advance with
    | none => none
    | some (s, true) => some ⟨s, ProducerPc.fill⟩
    | some (s, false) => some ⟨s, ProducerPc.finished⟩
  | ProducerPc.finished => none

/-- The producer thread runs until it waits or has finished, for at most `fuel`
steps. -/
def AsyncSystem.producer_run {T : Type} : Nat → AsyncSystem T → AsyncSystem T
  | 0, y => y
  | fuel + 1, y =>
    match y.producer_step with
    | none => y
    | some y1 => producer_run fuel y1

/-- The function `_consume_acquire_buffer` in the schedule in which the producer
runs as far as it can while the consumer waits; `none` when the consumer waits
although the producer cannot go on. -/
def AsyncSystem._consume_acquire_buffer {T : Type} (fuel : Nat) (y : AsyncSystem T) :
    Option (AsyncSystem T) :=
  let y1 : AsyncSystem T := { y with stream := y.stream.consume_give_back }
  match y1.stream.consume_take with
  | some s => some { y1 with stream := s }
  | none =>
    let y2 := y1.producer_run fuel
    match y2.stream.consume_take with
    | some s => some { y2 with stream := s }
    | none => none

/-- The constructor with `auto_acquire = false`: the producer thread is
created and has not run yet. -/
def AsyncSystem.create {T : Type} (sizeof_T : Nat) (stream : List T)
    (number_of_buffers : Nat) : AsyncSystem T :=
  ⟨AsyncStream.create sizeof_T stream number_of_buffers, ProducerPc.start⟩

/-- The member `acquire()`. -/
def AsyncSystem.acquire {T : Type} (fuel : Nat) (y : AsyncSystem T) : Option (AsyncSystem T) :=
  y._consume_acquire_buffer fuel

/-- The member `operator++`; `none` when the consumer never leaves a wait or
increments the end iterator. -/
def AsyncSystem.advance {T : Type} (fuel : Nat) (y : AsyncSystem T) : Option (AsyncSystem T) :=
  match (if !y.stream._consume_acquired then y._consume_acquire_buffer fuel else some y) with
  | none => none
  | some y1 =>
    match y1.stream._consume_range with
    | [] => none
    | _ :: rest =>
      let y2 : AsyncSystem T := { y1 with stream := { y1.stream with _consume_range := rest } }
      if rest.isEmpty then y2._consume_acquire_buffer fuel else some y2

/-- The loop `for (; !s.empty(); ++s) out.push_back(*s)` of a reader, for at most
`n` elements: the elements read, and whether the reader has seen `empty()`;
`none` when it dereferences the end iterator or never leaves a wait. -/
def AsyncSystem.read {T : Type} : Nat → Nat → AsyncSystem T → Option (List T × Bool)
  | 0, _, _ => some ([], false)
  | n + 1, fuel, y =>
    if y.stream.empty then some ([], true)
    else
      match y.stream.deref with
      | none => none
      | some x =>
        match y.advance fuel with
        | none => none
        | some y1 =>
          match read n fuel y1 with
          | none => none
          | some (xs, e) => some (x :: xs, e)

/-- The `last_sid` of the spec's walk over the requests of one edge when the
request `r` is visited after the requests `visited`: the swap id of the request
visited before `r`, and the swap id of `r` itself for the first request. -/
def spec_last_sid (visited : List ExistenceRequestMsg) (r : ExistenceRequestMsg) : Nat :=
  match visited.getLast? with
  | none => r.swap_id
  | some v => v.swap_id

/-- The existence chain of the requests on one edge `X` after the words of the
spec, as the list of the `ExistSucc` messages in the order of the walk: a
visited request whose swap id differs from `last_sid` emits
`ExistSucc(sid, X, last_sid)` exactly when some request visited before it is a
target request (`is_source = false`). -/
def spec_existence_chain (X : edge_t) :
    List ExistenceRequestMsg → List ExistenceRequestMsg → List ExistenceSuccessorMsg
  | _, [] => []
  | visited, r :: rest =>
    (if r.swap_id ≠ spec_last_sid visited r ∧ (∃ v ∈ visited, v.forward_only = false) then
      [⟨r.swap_id, X, spec_last_sid visited r⟩]
    else []) ++ spec_existence_chain X (visited ++ [r]) rest

/-- The swap side with key `K` is out of reach of the conflict computer: no
message of the merger carries the key, no successor link leads to it and its
slot of `edge_information` is not set. -/
structure Unreached (K : Nat) (st : ConflictState) : Prop where
  merger : ∀ m ∈ st._edge_state.content, m.sid ≠ K
  links : ∀ d ∈ st.dep, d.successor ≠ K
  unset : (st.edge_information (get_swap_id K, get_swap_spos K)).is_set = false

/-- The values of the flag `exists` in `_process_existence_requests`: the loop
`while (!requestMerger.empty())` of `process_requests`, which for every visited
run of requests records its edge `current_edge` and the value of `exists` after
the loop "find edge in graph". -/
def exists_flags (num_threads : Nat) :
    Nat → List ExistenceRequestMsg → List edge_t → List (edge_t × Bool)
  | 0, _, _ => []
  | _ + 1, [], _ => []
  | fuel + 1, request :: rest, edges =>
    let current_edge := request.edge
    let found := find_edge current_edge edges false
    let chain := existence_chain num_threads current_edge (request :: rest) request.swap_id false
    (current_edge, found.1) :: exists_flags num_threads fuel chain.2.2.2 found.2

/-- The edge list of a run whose first swap is refused because of a loop. -/
def refused_E : List edge_t := [⟨1, 2⟩, ⟨1, 3⟩, ⟨2, 4⟩, ⟨3, 5⟩]

/-- Two swaps: the first one, of `(1,2)` and `(1,3)`, has the targets `(1,1)` and
`(2,3)` and is refused as a loop; the second one, of `(2,4)` and `(3,5)`, has the
targets `(2,3)` and `(4,5)`. -/
def refused_S : List SwapDescriptor := [⟨0, 1, false⟩, ⟨2, 3, false⟩]

/-- The state `loop_state` in front of the refused swap 0, with three existence
successor messages of that swap: for its target `(2,3)`, for its source `(1,2)`
and for the edge `(4,5)`, all for the successor 1. -/
def answer_state : PerformState :=
  { loop_state with
    existence_successor := [⟨0, ⟨1, 2⟩, 1⟩, ⟨0, ⟨2, 3⟩, 1⟩, ⟨0, ⟨4, 5⟩, 1⟩] }

/-- The result of the run of the engine on `stale_E` and `stale_S`, with one
worker thread: the swap sides 2 and 4 name the same edge id. -/
def stale_result : Engine × RunLog :=
  (run_swaps 1 stale_E stale_S).getD (Engine.init 1 [], RunLog.empty)

/-- The existence successor messages of a run of `_perform_swaps` when the swaps
below `k` are done: of the messages `init` handed to the swap performer, the
unread ones are in the order of their swap ids and belong to the swaps from `k`
on, below `n`, and for every message that has been read one answer has been
forwarded, to its successor. -/
structure DrainInv (init : List ExistenceSuccessorMsg) (n k : Nat) (st : PerformState) :
    Prop where
  sorted : st.existence_successor.Pairwise (fun a b => a.swap_id ≤ b.swap_id)
  keys : ∀ m ∈ st.existence_successor, k ≤ m.swap_id ∧ m.swap_id < n
  drained : ∃ drained, init = drained ++ st.existence_successor ∧
    st.answered.map ExistenceInfoMsg.swap_id = drained.map ExistenceSuccessorMsg.successor

/-- The swap sides `(swap_id, spos)` the hydration loops visit from `swap_id` on,
in the order of the loops `for (swap_id ...) for (spos = 0; spos < 2; ++spos)`. -/
def hydrate_sides : Nat → Nat → List (Nat × Nat)
  | 0, _ => []
  | n + 1, swap_id => (swap_id, 0) :: (swap_id, 1) :: hydrate_sides n (swap_id + 1)

/-- One row of the hydration loop of `_compute_conflicts`,
`for (int tid = 0; tid < _num_threads; ++tid, ++swap_id)` at the position `pos`:
the entry `(tid, pos, swap_id)` stands for the slot `(*edge_information[tid])[pos]`
that is filled for `swap_id`. -/
def hydration_row (num_threads pos : Nat) : Nat → Nat → Nat → List (Nat × Nat × Nat)
  | 0, _, _ => []
  | fuel + 1, tid, swap_id =>
    if tid < num_threads then
      (tid, pos, swap_id) :: hydration_row num_threads pos fuel (tid + 1) (swap_id + 1)
    else []

/-- The hydration loop of `_compute_conflicts`,
`for (swap_id = sid_in_batch_base, pos = 0; swap_id < sid_in_batch_limit; ++pos)`:
the slots it fills, as `(tid, pos, swap_id)`; `fuel` bounds the number of rows. -/
def hydration_slots (num_threads sid_in_batch_limit : Nat) :
    Nat → Nat → Nat → List (Nat × Nat × Nat)
  | 0, _, _ => []
  | fuel + 1, swap_id, pos =>
    if swap_id < sid_in_batch_limit then
      hydration_row num_threads pos num_threads 0 swap_id ++
        hydration_slots num_threads sid_in_batch_limit fuel (swap_id + num_threads) (pos + 1)
    else []

/-- The worker loop of the thread `tid`,
`for (i = 0; i < batch_size_per_thread && sid < loop_limit; ++i, sid += _num_threads)`
with `if (sid >= _num_swaps_in_run) continue`: the slots `my_edge_information[i]`
it reads, as `(tid, i, sid)`. -/
def worker_slots (num_threads batch_size_per_thread loop_limit num_swaps tid : Nat) :
    Nat → Nat → Nat → List (Nat × Nat × Nat)
  | 0, _, _ => []
  | fuel + 1, i, sid =>
    if i < batch_size_per_thread ∧ sid < loop_limit then
      if sid ≥ num_swaps then
        worker_slots num_threads batch_size_per_thread loop_limit num_swaps tid fuel (i + 1)
          (sid + num_threads)
      else
        (tid, i, sid) ::
          worker_slots num_threads batch_size_per_thread loop_limit num_swaps tid fuel (i + 1)
            (sid + num_threads)
    else []

/-- The slot `(successor_tid, successor_pos)` of an in-batch successor:
`_thread(get_swap_id(successor_sid))` and
`(get_swap_id(successor_sid) - sid_in_batch_base) / _num_threads`. -/
def successor_slot (num_threads sid_in_batch_base successor_sid : Nat) : Nat × Nat :=
  (_thread num_threads (get_swap_id successor_sid),
    (get_swap_id successor_sid - sid_in_batch_base) / num_threads)

/-- An edge list for a swap that names one edge id twice. -/
def twice_E : List edge_t := [⟨1, 2⟩, ⟨3, 4⟩, ⟨5, 6⟩]

/-- Two swaps; the second one names the edge id 1 on both of its sides. -/
def twice_S : List SwapDescriptor := [⟨0, 2, false⟩, ⟨1, 1, true⟩]

/-- Two edges that share the node 3, and a third edge. -/
def shared_E : List edge_t := [⟨1, 3⟩, ⟨2, 3⟩, ⟨4, 5⟩]

/-- Two swaps: the first one swaps the edges `(1,3)` and `(2,3)` under direction 1,
which gives `(1,3)` and `(2,3)` again; the second one reads the edge id 0 after
it. -/
def shared_S : List SwapDescriptor := [⟨0, 1, true⟩, ⟨0, 2, false⟩]

/-! ## The community assignment of LFR

The block "assign nodes to communities" of `LFR::_compute_community_assignments`
(`include/LFR/LFR_comassign.cpp`).  The vector `com_sizes` is the list of the
community sizes, the stream `_node_sorter` is the list of the values
`required_size` of its nodes, in the order of the stream.  The counters are
natural numbers; a counter is decremented below zero only in the last pass of a
loop, where its value is not read again. -/

/-- Modelled from the spec: the record `CommunityAssignment(community_id, degree,
node_id)` of `LFR.h`. -/
structure LFR.CommunityAssignment where
  community_id : Nat
  degree : Nat
  node_id : Nat
deriving DecidableEq, Repr

/-- The variables `slots_left`, `slots_empty`, `slots_deleted` and
`largest_illegal_com` of the block; a slot is the pair of a community and the
number of its free places. -/
structure LFR.SlotState where
  slots_left : List (Nat × Nat)
  slots_empty : Nat
  slots_deleted : Nat
  largest_illegal_com : Nat
deriving DecidableEq, Repr

/-- The loop `for(; largest_illegal_com<number_of_communities; ++largest_illegal_com)`
that stops at the first community with `com_sizes[largest_illegal_com] < required_size`. -/
def LFR.find_illegal (com_sizes : List Nat) (required_size : Nat) : Nat → Nat → Nat
  | 0, l => l
  | fuel + 1, l =>
    if l < com_sizes.length then
      if com_sizes.getD l 0 < required_size then l
      else LFR.find_illegal com_sizes required_size fuel (l + 1)
    else l

/-- The loop `while(1)` of the compaction, with the iterators `reader` and
`writer` as indices and `first` the index `begin`; the result is `slots_left` and
`slots_empty`.  The loop ends when `reader == begin`; `none` when the reader
starts below `begin`. -/
def LFR.compact_loop (first : Nat) :
    Nat → Nat → Nat → List (Nat × Nat) → Nat → Option (List (Nat × Nat) × Nat)
  | 0, _, _, _, _ => none
  | fuel + 1, reader, writer, slots, slots_empty =>
    let r := slots.getD reader (0, 0)
    let slots1 := if r.2 ≠ 0 then slots.set writer r else slots
    let writer1 := if r.2 ≠ 0 then writer - 1 else writer
    let empty1 := if r.2 ≠ 0 then slots_empty else slots_empty - 1
    if reader = first then some (slots1, empty1)
    else LFR.compact_loop first fuel (reader - 1) writer1 slots1 empty1

/-- The block "compact slots_left if there are too many empty slots". -/
def LFR.compact (com_sizes : List Nat) (s : LFR.SlotState) : Option LFR.SlotState :=
  let reader := min s.largest_illegal_com (com_sizes.length - 1)
  match LFR.compact_loop s.slots_deleted (reader + 1) reader reader s.slots_left
      s.slots_empty with
  | none => none
  | some r =>
    some { s with
      slots_left := r.1
      slots_empty := r.2
      slots_deleted := s.slots_deleted + s.slots_empty }

/-- Modelled from the spec: the loop "uniformly select legal community".  The
generator `stxxl::random_number32` is not among the sources; `randGen(k)` returns a
number in `[0, k)`, here `d % k` for the next entry `d` of the list of draws, and
has no result for `k = 0`.  The result is the assignment pushed, the state and the
unread draws; `none` when the draws end before a slot with a free place is
drawn. -/
def LFR.select_community (s : LFR.SlotState) (required_size nid : Nat) :
    List Nat → Option (LFR.CommunityAssignment × LFR.SlotState × List Nat)
  | [] => none
  | d :: draws =>
    if s.largest_illegal_com - s.slots_deleted = 0 then none
    else
      let i := d % (s.largest_illegal_com - s.slots_deleted) + s.slots_deleted
      let slot := s.slots_left.getD i (0, 0)
      if slot.2 ≠ 0 then
        some (⟨slot.1, required_size, nid⟩,
          { s with
            slots_left := s.slots_left.set i (slot.1, slot.2 - 1)
            slots_empty := if slot.2 - 1 = 0 then s.slots_empty + 1 else s.slots_empty },
          draws)
      else LFR.select_community s required_size nid draws

/-- The loop `for(node_t nid=0; !_node_sorter.empty(); ++nid, ++_node_sorter)` of
the block, from the node `nid` on: the assignments pushed, in push order. -/
def LFR.assign_nodes (com_sizes : List Nat) :
    List Nat → Nat → LFR.SlotState → List Nat → Option (List LFR.CommunityAssignment)
  | [], _, _, _ => some []
  | required_size :: nodes, nid, s, draws =>
    let s1 : LFR.SlotState :=
      { s with
        largest_illegal_com :=
          LFR.find_illegal com_sizes required_size com_sizes.length s.largest_illegal_com }
    match (if 2 * s1.slots_empty > s1.largest_illegal_com - s1.slots_deleted
        then LFR.compact com_sizes s1 else some s1) with
    | none => none
    | some s2 =>
      match LFR.select_community s2 required_size nid draws with
      | none => none
      | some r =>
        match LFR.assign_nodes com_sizes nodes (nid + 1) r.2.1 r.2.2 with
        | none => none
        | some rest => some (r.1 :: rest)

/-- The block "assign nodes to communities": every community starts with as many
free places as its size. -/
def LFR.assign_communities (com_sizes required_sizes draws : List Nat) :
    Option (List LFR.CommunityAssignment) :=
  LFR.assign_nodes com_sizes required_sizes 0
    ⟨(List.range com_sizes.length).map (fun c => (c, com_sizes.getD c 0)), 0, 0, 0⟩ draws

/-- The slots of the communities from `l` on that the block has not touched. -/
def LFR.fresh_slots (com_sizes : List Nat) (l : Nat) : List (Nat × Nat) :=
  (List.range' l (com_sizes.length - l)).map (fun c => (c, com_sizes.getD c 0))

/-- The state of the block between two nodes: `slots_left` is the deleted slots,
the slots `live` of the range `[slots_deleted, largest_illegal_com)` that is
sampled, and the untouched slots; `cnt c` is the number of nodes assigned to the
community `c` so far and `req` a bound on the values `required_size` to come. -/
structure LFR.SlotInv (com_sizes : List Nat) (s : LFR.SlotState) (live : List (Nat × Nat))
    (cnt : Nat → Nat) (req : Nat) : Prop where
  split : ∃ pre, s.slots_left = pre ++ live ++ LFR.fresh_slots com_sizes s.largest_illegal_com ∧
    pre.length = s.slots_deleted
  bound : s.slots_deleted + live.length = s.largest_illegal_com
  le_n : s.largest_illegal_com ≤ com_sizes.length
  live_ok : ∀ x ∈ live, x.1 < s.largest_illegal_com ∧ cnt x.1 + x.2 = com_sizes.getD x.1 0
  nodup : (live.map Prod.fst).Nodup
  dead : ∀ c, c < s.largest_illegal_com → c ∉ live.map Prod.fst → cnt c = com_sizes.getD c 0
  fresh : ∀ c, s.largest_illegal_com ≤ c → cnt c = 0
  empties : s.slots_empty = (live.filter (fun x => decide (x.2 = 0))).length
  legal : ∀ c, c < s.largest_illegal_com → req ≤ com_sizes.getD c 0

/-! ## Simple graphs

The edge an edge id holds under a list of flags, the cover of the existence
requests of `_compute_conflicts`, and the invariant of the existence dataflow of
`_perform_swaps`. -/

/-- The edge of the edge id the key `q` requests when the swaps below `k` are
done, each performed or not as the flags `fl` say. -/
def config_at (c : RunCtx) (fl : List Bool) (k q : Nat) : edge_t :=
  (positional_run c.edges (c.swaps.take k) fl).getD (request_eid c.swaps q) edge_t.invalid

/-- A simple graph in canonical form: no edge twice, no self-loop, every edge
canonical. -/
structure is_simple (A : List edge_t) : Prop where
  nodup : A.Nodup
  no_loop : ∀ e ∈ A, e.is_loop = false
  canon : ∀ e ∈ A, e.canonical

/-- The swap side `q` has received its configurations when the swap sides with
keys below `k` are done: it is the first side of its edge id, or its predecessor
has a key below `k`. -/
def RunCtx.key_value (c : RunCtx) (k q : Nat) : Prop :=
  (∃ e, (⟨q, e⟩ : DependencyChainEdgeMsg) ∈ c.depchain_edges) ∨
    ∃ p, (⟨p, q⟩ : DependencyChainSuccessorMsg) ∈ c.links ∧ p < k

/-- The direction bit of the swap `i`. -/
def RunCtx.direction (c : RunCtx) (i : Nat) : Bool :=
  (c.swaps.map SwapDescriptor.direction).getD i false

/-- The target edge of the swap side with key `t` under the flags `fl`: the
swapped edge of its side, computed from the edges the two edge ids of its swap
hold when the swap starts. -/
def target_at (c : RunCtx) (fl : List Bool) (t : Nat) : edge_t :=
  pair_get (_swap_edges (config_at c fl (t / 2) (2 * (t / 2)))
    (config_at c fl (t / 2) (2 * (t / 2) + 1)) (c.direction (t / 2))) (t % 2)

/-- The existence requests cover the swap side with key `t` under the flags
`fl`: its swap requests the edge the side holds, and requests its target edge as
a target. -/
structure KeyCover (c : RunCtx) (fl : List Bool) (t : Nat) (R : List ExistenceRequestMsg) :
    Prop where
  source : ∃ r ∈ R, r.edge = config_at c fl (t / 2) t ∧ r.swap_id = t / 2
  target : (⟨target_at c fl t, t / 2, false⟩ : ExistenceRequestMsg) ∈ R

/-- The state of `_compute_conflicts` when the swap sides with keys below `k`
are done and the keys below `f` are hydrated, against the flags `fl`: the
configurations of every side that has received them are strictly ascending, have
valid node ids and contain the edge the side holds when its swap starts, in its
slot (keys below `f`) or in the merger (keys from `f` on). -/
structure ConfCover (c : RunCtx) (fl : List Bool) (f k : Nat) (st : ConflictState) : Prop where
  slots : ∀ q, k ≤ q → q < f → c.key_value k q →
    (st.edge_information (q / 2, q % 2)).forEach.Pairwise (fun a b => a < b) ∧
      (∀ e ∈ (st.edge_information (q / 2, q % 2)).forEach, source_ready e = true) ∧
      config_at c fl (q / 2) q ∈ (st.edge_information (q / 2, q % 2)).forEach
  m_cover : ∀ q, f ≤ q → q < 2 * c.swaps.length → c.key_value k q →
    (⟨q, config_at c fl (q / 2) q⟩ : DependencyChainEdgeMsg) ∈ st._edge_state.content
  m_ready : ∀ x ∈ st._edge_state.content, source_ready x.edge = true
  m_nodup : st._edge_state.content.Nodup
  m_hv : ∀ x ∈ st._edge_state.content, c.key_value k x.sid
  requests : ∀ t, t < k → KeyCover c fl t st.existence_requests

/-- The swap `u` is informed about the edge `e`: it requests the edge, and a
swap from `u` on requests the edge as a target. -/
structure Informed (R : List ExistenceRequestMsg) (u : Nat) (e : edge_t) : Prop where
  requests : ∃ r ∈ R, r.edge = e ∧ r.swap_id = u
  target : ∃ r ∈ R, r.edge = e ∧ r.forward_only = false ∧ u ≤ r.swap_id

/-- The information "the edge `e` exists" has reached the swap `u` when the swaps
below `h` are hydrated: it is in the existence store of the swap (`u` below `h`)
or on its way in the merger `_existence_info`. -/
def Delivered (h : Nat) (st : PerformState) (u : Nat) (e : edge_t) : Prop :=
  (u < h → e ∈ (st.existence_information u).present) ∧
    (h ≤ u → (⟨u, e⟩ : ExistenceInfoMsg) ∈ st._existence_info.content)

/-- The existence dataflow of `_perform_swaps` when the swaps below `sid` are
done and the swaps below `h` are hydrated, for the existence requests `R` and the
existence successor messages `init`: the graph so far is simple, and every swap
from `sid` on that is informed about an edge of the graph, and is the next one to
request it, has the information that the edge exists. -/
structure ExInv (c : RunCtx) (R : List ExistenceRequestMsg) (init : List ExistenceSuccessorMsg)
    (h sid : Nat) (st : PerformState) : Prop where
  m_cur : st._existence_info.cursor.Sorted ExistenceInfoMsg.le
  m_pq : st._existence_info.pq.Sorted ExistenceInfoMsg.le
  m_keys : ∀ x ∈ st._existence_info.content, h ≤ x.swap_id
  s_sorted : st.existence_successor.Pairwise (fun a b => a.swap_id ≤ b.swap_id)
  s_all : ∀ m ∈ init, sid ≤ m.swap_id → m ∈ st.existence_successor
  complete : ∀ u e, sid ≤ u → Informed R u e →
    (∀ r ∈ R, r.edge = e → sid ≤ r.swap_id → u ≤ r.swap_id) → e ∈ ghost c st →
    Delivered h st u e
  simple : is_simple (ghost c st)

/-- A simple graph: a square with a diagonal and a separate edge. -/
def simple_E : List edge_t := [⟨0, 1⟩, ⟨0, 2⟩, ⟨1, 3⟩, ⟨2, 3⟩, ⟨4, 5⟩]

/-- Three swaps on `simple_E`: the first one would create the edges `(0,2)` and
`(1,3)`, which exist; the other two create new edges. -/
def simple_S : List SwapDescriptor := [⟨0, 3, false⟩, ⟨0, 4, false⟩, ⟨1, 2, true⟩]

/-- The result of the run of the engine on `simple_E` and `simple_S` with two
worker threads and one swap per thread and batch. -/
def simple_result : Engine × RunLog :=
  (run_swaps_with 1 2 simple_E simple_S).getD (Engine.init 2 [], RunLog.empty)

/-- An edge list with a negative node id. -/
def negative_E : List edge_t := [⟨-2, 5⟩, ⟨1, 7⟩]

/-- Two swaps of the same two edge ids: the second one reads the edges the first
one wrote. -/
def negative_S : List SwapDescriptor := [⟨0, 1, false⟩, ⟨0, 1, true⟩]

/-! ## The serial reference, swap by swap -/

/-- Modelled from the spec: the debug record of the serial reference for one swap
on the edge list `edges` (before `normalize`): the swapped edges, whether each of
them is present in the current graph, whether one of them is a self-loop, and
`performed` iff neither is the case. -/
def serial_decision (edges : List edge_t) (swap : SwapDescriptor) : SwapResult :=
  let new_edges := _swap_edges (edges.getD swap.eid_a edge_t.invalid)
    (edges.getD swap.eid_b edge_t.invalid) swap.direction
  let conflict_exists : Bool × Bool :=
    (decide (new_edges.1 ∈ edges), decide (new_edges.2 ∈ edges))
  let loop := new_edges.1.is_loop || new_edges.2.is_loop
  { performed := !(conflict_exists.1 || conflict_exists.2 || loop), loop := loop,
    edges := new_edges, conflictDetected := conflict_exists }

/-- Modelled from the spec: the debug vector of the serial reference, one
normalized record per swap, each decided on the edge list the swaps before it
have left. -/
def serial_records : List edge_t → List SwapDescriptor → List SwapResult
  | _, [] => []
  | edges, s :: ss => (serial_decision edges s).normalize :: serial_records (serial_swap edges s) ss

/-- The existence information of `_perform_swaps` is sound when the swaps below
`sid` are done, for the existence requests `R` and the existence successor
messages `init`: every edge recorded as present for a swap from `sid` on, in its
store or on its way in the merger `_existence_info`, is an edge of the graph, and
no swap from `sid` on below that swap requests it; the unread successor messages
are among `init`; and the debug records and the graph so far are those of the
serial reference. -/
structure ExSound (c : RunCtx) (R : List ExistenceRequestMsg) (init : List ExistenceSuccessorMsg)
    (sid : Nat) (st : PerformState) : Prop where
  store : ∀ u e, sid ≤ u → e ∈ (st.existence_information u).present →
    e ∈ ghost c st ∧ ∀ r ∈ R, r.edge = e → sid ≤ r.swap_id → u ≤ r.swap_id
  merger : ∀ x ∈ st._existence_info.content, x.edge ≠ edge_t.invalid → sid ≤ x.swap_id →
    x.edge ∈ ghost c st ∧ ∀ r ∈ R, r.edge = x.edge → sid ≤ r.swap_id → x.swap_id ≤ r.swap_id
  succ : ∀ m ∈ st.existence_successor, m ∈ init ∧ sid ≤ m.swap_id
  records : st.debug = serial_records c.edges (c.swaps.take sid)
  serial : ghost c st = serial_run c.edges (c.swaps.take sid)

end EdgeSwapParallelTFP


/-! # Theorems -/

namespace EdgeSwapParallelTFP

/-! ## The key codec -/

theorem pack_eq {swap_id spos : Nat} (h : swap_id < 2 ^ 63) (hs : spos < 2) :
    pack_swap_id_spos swap_id spos = 2 * swap_id + spos := by
  unfold pack_swap_id_spos swapid_bits
  have h1 : swap_id <<< 1 = 2 ^ 1 * swap_id := by rw [Nat.shiftLeft_eq]; ring
  rw [h1, ← Nat.mul_add_lt_is_or (by simpa using hs) swap_id]
  apply Nat.mod_eq_of_lt
  omega

theorem get_swap_id_pack {i s : Nat} (hs : s < 2) : get_swap_id (2 * i + s) = i := by
  unfold get_swap_id
  rw [Nat.shiftRight_eq_div_pow]
  omega

theorem get_swap_spos_pack {i s : Nat} (hs : s < 2) : get_swap_spos (2 * i + s) = s := by
  unfold get_swap_spos
  rw [Nat.and_one_is_mod]
  omega

theorem get_swap_id_eq (k : Nat) : get_swap_id k = k / 2 := by
  unfold get_swap_id
  rw [Nat.shiftRight_eq_div_pow]

theorem get_swap_spos_eq (k : Nat) : get_swap_spos k = k % 2 := by
  unfold get_swap_spos
  rw [Nat.and_one_is_mod]

/-! ## The order of edges -/

theorem edge_lt_iff (a b : edge_t) :
    a < b ↔ a.first < b.first ∨ (a.first = b.first ∧ a.second < b.second) := Iff.rfl

theorem edge_le_iff (a b : edge_t) :
    a ≤ b ↔ a.first < b.first ∨ (a.first = b.first ∧ a.second ≤ b.second) := by
  show ¬ (b < a) ↔ _
  rw [edge_lt_iff]
  omega

theorem edge_ext_iff (a b : edge_t) : a = b ↔ a.first = b.first ∧ a.second = b.second := by
  cases a; cases b; simp

theorem edge_le_refl (a : edge_t) : a ≤ a := by rw [edge_le_iff]; omega

theorem edge_le_total (a b : edge_t) : a ≤ b ∨ b ≤ a := by
  rw [edge_le_iff, edge_le_iff]; omega

theorem edge_le_trans {a b c : edge_t} (h1 : a ≤ b) (h2 : b ≤ c) : a ≤ c := by
  rw [edge_le_iff] at *; omega

theorem edge_le_antisymm {a b : edge_t} (h1 : a ≤ b) (h2 : b ≤ a) : a = b := by
  rw [edge_le_iff] at *; rw [edge_ext_iff]; omega

theorem edge_lt_iff_le_ne (a b : edge_t) : a < b ↔ a ≤ b ∧ a ≠ b := by
  rw [edge_le_iff, edge_lt_iff, Ne, edge_ext_iff]; omega

theorem edge_not_le (a b : edge_t) : ¬ a ≤ b ↔ b < a := by
  rw [edge_le_iff, edge_lt_iff]; omega

instance : IsTotal edge_t edge_le := ⟨edge_le_total⟩

instance : IsTrans edge_t edge_le := ⟨fun _ _ _ => edge_le_trans⟩

instance : IsTotal EdgeLoadRequest EdgeLoadRequest.le :=
  ⟨fun a b => by unfold EdgeLoadRequest.le; omega⟩

instance : IsTrans EdgeLoadRequest EdgeLoadRequest.le :=
  ⟨fun a b c => by unfold EdgeLoadRequest.le; omega⟩

instance : IsTotal DependencyChainEdgeMsg DependencyChainEdgeMsg.le :=
  ⟨fun a b => by
    unfold DependencyChainEdgeMsg.le
    rcases edge_le_total a.edge b.edge with h | h <;>
      rcases Nat.lt_trichotomy a.sid b.sid with h1 | h1 | h1 <;> simp [h, h1]⟩

instance : IsTrans DependencyChainEdgeMsg DependencyChainEdgeMsg.le :=
  ⟨fun a b c h1 h2 => by
    unfold DependencyChainEdgeMsg.le at *
    rcases h1 with h1 | ⟨h1, h1e⟩ <;> rcases h2 with h2 | ⟨h2, h2e⟩
    · left; omega
    · left; omega
    · left; omega
    · right; exact ⟨by omega, edge_le_trans h1e h2e⟩⟩

instance : IsTotal DependencyChainSuccessorMsg DependencyChainSuccessorMsg.le :=
  ⟨fun a b => by unfold DependencyChainSuccessorMsg.le; omega⟩

instance : IsTrans DependencyChainSuccessorMsg DependencyChainSuccessorMsg.le :=
  ⟨fun a b c => by unfold DependencyChainSuccessorMsg.le; omega⟩

instance : IsTotal ExistenceInfoMsg ExistenceInfoMsg.le :=
  ⟨fun a b => by
    unfold ExistenceInfoMsg.le
    rcases edge_le_total a.edge b.edge with h | h <;>
      rcases Nat.lt_trichotomy a.swap_id b.swap_id with h1 | h1 | h1 <;> simp [h, h1]⟩

instance : IsTrans ExistenceInfoMsg ExistenceInfoMsg.le :=
  ⟨fun a b c h1 h2 => by
    unfold ExistenceInfoMsg.le at *
    rcases h1 with h1 | ⟨h1, h1e⟩ <;> rcases h2 with h2 | ⟨h2, h2e⟩
    · left; omega
    · left; omega
    · left; omega
    · right; exact ⟨by omega, edge_le_trans h1e h2e⟩⟩

theorem ExistenceSuccessorMsg.le_iff_lex (a b : ExistenceSuccessorMsg) :
    ExistenceSuccessorMsg.le a b ↔
      a.swap_id < b.swap_id ∨ (a.swap_id = b.swap_id ∧
        (a.edge.first < b.edge.first ∨ (a.edge.first = b.edge.first ∧
          (a.edge.second < b.edge.second ∨ (a.edge.second = b.edge.second ∧
            a.successor ≤ b.successor))))) := by
  unfold ExistenceSuccessorMsg.le
  rw [edge_lt_iff, edge_ext_iff]
  constructor
  · rintro (h | ⟨h, (h2 | h2) | ⟨⟨h2, h3⟩, h4⟩⟩)
    · left; exact h
    · right; exact ⟨h, Or.inl h2⟩
    · right; exact ⟨h, Or.inr ⟨h2.1, Or.inl h2.2⟩⟩
    · right; exact ⟨h, Or.inr ⟨h2, Or.inr ⟨h3, h4⟩⟩⟩
  · rintro (h | ⟨h, h2 | ⟨h2, h3 | ⟨h3, h4⟩⟩⟩)
    · left; exact h
    · right; exact ⟨h, Or.inl (Or.inl h2)⟩
    · right; exact ⟨h, Or.inl (Or.inr ⟨h2, h3⟩)⟩
    · right; exact ⟨h, Or.inr ⟨⟨h2, h3⟩, h4⟩⟩

instance : IsTotal ExistenceSuccessorMsg ExistenceSuccessorMsg.le :=
  ⟨fun a b => by rw [ExistenceSuccessorMsg.le_iff_lex, ExistenceSuccessorMsg.le_iff_lex]; omega⟩

instance : IsTrans ExistenceSuccessorMsg ExistenceSuccessorMsg.le :=
  ⟨fun a b c => by
    rw [ExistenceSuccessorMsg.le_iff_lex, ExistenceSuccessorMsg.le_iff_lex, ExistenceSuccessorMsg.le_iff_lex]
    omega⟩

theorem bool_lt_iff (a b : Bool) : a < b ↔ (a = false ∧ b = true) := by
  cases a <;> cases b <;> decide

theorem ExistenceRequestMsg.le_iff_key (a b : ExistenceRequestMsg) :
    ExistenceRequestMsg.le a b ↔
      a.edge < b.edge ∨ (a.edge = b.edge ∧
        (b.swap_id < a.swap_id ∨ (a.swap_id = b.swap_id ∧
          (a.forward_only = true → b.forward_only = true)))) := by
  unfold ExistenceRequestMsg.le ExistenceRequestMsg.lt
  rw [bool_lt_iff, edge_lt_iff, edge_lt_iff, edge_ext_iff, edge_ext_iff]
  cases a.forward_only <;> cases b.forward_only <;> simp <;> omega

instance : IsTotal ExistenceRequestMsg ExistenceRequestMsg.le :=
  ⟨fun a b => by
    rw [ExistenceRequestMsg.le_iff_key, ExistenceRequestMsg.le_iff_key, edge_lt_iff, edge_lt_iff,
      edge_ext_iff, edge_ext_iff]
    cases a.forward_only <;> cases b.forward_only <;> simp <;> omega⟩

instance : IsTrans ExistenceRequestMsg ExistenceRequestMsg.le :=
  ⟨fun a b c => by
    rw [ExistenceRequestMsg.le_iff_key, ExistenceRequestMsg.le_iff_key, ExistenceRequestMsg.le_iff_key,
      edge_lt_iff, edge_lt_iff, edge_lt_iff, edge_ext_iff, edge_ext_iff, edge_ext_iff]
    cases a.forward_only <;> cases b.forward_only <;> cases c.forward_only <;> simp <;> omega⟩

instance : IsTotal Nat (fun a b : Nat => a ≤ b) := ⟨fun a b => Nat.le_total a b⟩

instance : IsTrans Nat (fun a b : Nat => a ≤ b) := ⟨fun _ _ _ => Nat.le_trans⟩

/-! ## Sorters -/

theorem sorter_sort_perm {α : Type} (le : α → α → Prop) [DecidableRel le] (l : List α) :
    (sorter_sort le l).Perm l := List.perm_insertionSort le l

theorem sorter_sort_sorted {α : Type} (le : α → α → Prop) [DecidableRel le] [IsTotal α le]
    [IsTrans α le] (l : List α) : (sorter_sort le l).Sorted le := List.sorted_insertionSort le l

theorem mem_sorter_sort {α : Type} (le : α → α → Prop) [DecidableRel le] (l : List α) (x : α) :
    x ∈ sorter_sort le l ↔ x ∈ l := (sorter_sort_perm le l).mem_iff

/-! ## Pushing the swaps -/

theorem foldl_push (swaps : List SwapDescriptor) :
    ∀ g : Engine, swaps.foldl push g =
      { g with
        _edge_swap_sorter := g._edge_swap_sorter ++ swap_requests g._num_swaps_in_run swaps
        _swap_direction := g._swap_direction ++ swaps.map SwapDescriptor.direction
        _num_swaps_in_run := g._num_swaps_in_run + swaps.length } := by
  induction swaps with
  | nil => intro g; simp [swap_requests]
  | cons s ss ih =>
    intro g
    rw [List.foldl_cons, ih]
    simp [push, swap_requests, Nat.add_assoc, Nat.add_comm 1]

theorem mem_swap_requests (swaps : List SwapDescriptor) :
    ∀ (n0 : Nat) (r : EdgeLoadRequest),
      r ∈ swap_requests n0 swaps ↔
        ∃ i s, swaps[i]? = some s ∧
          (r = ⟨s.eid_a, pack_swap_id_spos (n0 + i) 0⟩ ∨
            r = ⟨s.eid_b, pack_swap_id_spos (n0 + i) 1⟩) := by
  induction swaps with
  | nil => intro n0 r; simp [swap_requests]
  | cons s ss ih =>
    intro n0 r
    simp only [swap_requests, List.mem_cons, ih]
    constructor
    · rintro (h | h | ⟨i, s1, hs, h⟩)
      · exact ⟨0, s, by simp, Or.inl (by simpa using h)⟩
      · exact ⟨0, s, by simp, Or.inr (by simpa using h)⟩
      · refine ⟨i + 1, s1, by simpa using hs, ?_⟩
        rw [show n0 + (i + 1) = n0 + 1 + i by omega]
        exact h
    · rintro ⟨i, s1, hs, h⟩
      cases i with
      | zero =>
        simp only [List.getElem?_cons_zero, Option.some.injEq] at hs
        subst hs
        rcases h with h | h
        · left; simpa using h
        · right; left; simpa using h
      | succ i =>
        right; right
        refine ⟨i, s1, by simpa using hs, ?_⟩
        rw [show n0 + 1 + i = n0 + (i + 1) by omega]
        exact h

/-- The requests of a run: the request of the key `k` names the edge id
`request_eid swaps k`, for every key below twice the number of swaps. -/
theorem mem_swap_requests_zero (swaps : List SwapDescriptor) (hn : swaps.length < 2 ^ 63)
    (r : EdgeLoadRequest) :
    r ∈ swap_requests 0 swaps ↔ r.sid < 2 * swaps.length ∧ r.eid = request_eid swaps r.sid := by
  rw [mem_swap_requests]
  constructor
  · rintro ⟨i, s, hs, h⟩
    have hi : i < swaps.length := (List.getElem?_eq_some.mp hs).1
    rcases h with h | h
    · subst h
      simp only [Nat.zero_add]
      rw [pack_eq (by omega) (by omega)]
      refine ⟨by omega, ?_⟩
      unfold request_eid
      rw [show (2 * i + 0) / 2 = i by omega, hs]
      simp
    · subst h
      simp only [Nat.zero_add]
      rw [pack_eq (by omega) (by omega)]
      refine ⟨by omega, ?_⟩
      unfold request_eid
      rw [show (2 * i + 1) / 2 = i by omega, hs]
      simp only
      rw [if_neg (by omega)]
  · rintro ⟨h1, h2⟩
    have hi : r.sid / 2 < swaps.length := by omega
    refine ⟨r.sid / 2, swaps[r.sid / 2], List.getElem?_eq_getElem hi, ?_⟩
    unfold request_eid at h2
    rw [List.getElem?_eq_getElem hi] at h2
    simp only at h2
    simp only [Nat.zero_add]
    by_cases hpar : r.sid % 2 = 0
    · left
      rw [if_pos hpar] at h2
      rw [pack_eq (by omega) (by omega)]
      cases r
      simp only [EdgeLoadRequest.mk.injEq] at *
      omega
    · right
      rw [if_neg hpar] at h2
      rw [pack_eq (by omega) (by omega)]
      cases r
      simp only [EdgeLoadRequest.mk.injEq] at *
      omega

theorem swap_requests_sid_strict (swaps : List SwapDescriptor) :
    ∀ n0 : Nat, n0 + swaps.length < 2 ^ 63 →
      ((swap_requests n0 swaps).map EdgeLoadRequest.sid).Sorted (· < ·) ∧
        ∀ r ∈ swap_requests n0 swaps, 2 * n0 ≤ r.sid := by
  induction swaps with
  | nil => intro n0 _; simp [swap_requests]
  | cons s ss ih =>
    intro n0 h
    simp only [List.length_cons] at h
    obtain ⟨ih1, ih2⟩ := ih (n0 + 1) (by omega)
    simp only [swap_requests, List.map_cons, List.sorted_cons, List.mem_cons, List.mem_map,
      forall_eq_or_imp, forall_exists_index, and_imp, forall_apply_eq_imp_iff₂]
    rw [pack_eq (by omega) (by omega), pack_eq (by omega) (by omega)]
    refine ⟨⟨⟨by omega, ?_⟩, ?_, ih1⟩, by omega, by omega, ?_⟩
    · intro r hr; have := ih2 r hr; omega
    · intro r hr; have := ih2 r hr; omega
    · intro r hr; have := ih2 r hr; omega

theorem swap_requests_nodup_sid (swaps : List SwapDescriptor) (hn : swaps.length < 2 ^ 63) :
    ((swap_requests 0 swaps).map EdgeLoadRequest.sid).Nodup :=
  ((swap_requests_sid_strict swaps 0 (by omega)).1).nodup

/-! ## The dependency chains of a sorted request list -/

theorem use_edge_successors_spec (num_threads id : Nat) :
    ∀ (requests : List EdgeLoadRequest) (lastSid lastTid : Nat),
      (use_edge_successors num_threads id lastSid lastTid requests).1.map Prod.snd =
          chain_links (⟨id, lastSid⟩ :: requests.takeWhile (fun r => decide (r.eid = id))) ∧
        (use_edge_successors num_threads id lastSid lastTid requests).2 =
          requests.dropWhile (fun r => decide (r.eid = id)) := by
  intro requests
  induction requests with
  | nil => intro _ _; simp [use_edge_successors, chain_links]
  | cons r rs ih =>
    intro lastSid lastTid
    by_cases h : r.eid = id
    · obtain ⟨ih1, ih2⟩ := ih r.sid (_thread num_threads (get_swap_id r.sid))
      simp only [use_edge_successors, h, if_true, List.map_cons, List.takeWhile_cons,
        decide_True, List.dropWhile_cons, chain_links]
      refine ⟨?_, ih2⟩
      rw [ih1]
      cases r
      simp only at h
      subst h
      rfl
    · simp [use_edge_successors, h, chain_links]

theorem chain_links_append_of_ne (l1 : List EdgeLoadRequest) (a b : EdgeLoadRequest)
    (l2 : List EdgeLoadRequest) (h : a.eid ≠ b.eid) :
    chain_links (l1 ++ a :: b :: l2) = chain_links (l1 ++ [a]) ++ chain_links (b :: l2) := by
  induction l1 with
  | nil => simp [chain_links, h]
  | cons x l1 ih =>
    cases l1 with
    | nil =>
      simp only [List.nil_append] at ih
      simp only [List.cons_append, List.nil_append, chain_links]
      split <;> simp [ih, chain_links]
    | cons y l1 =>
      simp only [List.cons_append] at ih
      simp only [List.cons_append, chain_links]
      split <;> simp [ih]

theorem chain_links_singleton_append (l1 : List EdgeLoadRequest) (a : EdgeLoadRequest) :
    chain_links (l1 ++ [a]) ++ chain_links [] = chain_links (l1 ++ [a]) := by
  simp [chain_links]

theorem chain_heads_dropWhile (id : Nat) :
    ∀ requests : List EdgeLoadRequest,
      chain_heads (some id) requests =
        chain_heads (some id) (requests.dropWhile (fun r => decide (r.eid = id))) := by
  intro requests
  induction requests with
  | nil => rfl
  | cons r rs ih =>
    by_cases h : r.eid = id
    · simp only [chain_heads, h, if_true, List.dropWhile_cons, decide_True]
      exact ih
    · simp [List.dropWhile_cons, h]

theorem chain_heads_of_head_ne (prev : Option Nat) (r : EdgeLoadRequest)
    (rs : List EdgeLoadRequest) (h : prev ≠ some r.eid) :
    chain_heads prev (r :: rs) = chain_heads none (r :: rs) := by
  simp [chain_heads, h]

theorem dropWhile_eid_gt (id : Nat) :
    ∀ rs : List EdgeLoadRequest, (rs.map EdgeLoadRequest.eid).Sorted (· ≤ ·) →
      (∀ r ∈ rs, id ≤ r.eid) →
      ∀ t ∈ rs.dropWhile (fun r => decide (r.eid = id)), id < t.eid := by
  intro rs
  induction rs with
  | nil => intro _ _ t ht; simp at ht
  | cons x xs ih =>
    intro hs hge t ht
    simp only [List.map_cons, List.sorted_cons, List.mem_map, forall_exists_index, and_imp,
      forall_apply_eq_imp_iff₂] at hs
    by_cases h : x.eid = id
    · simp only [List.dropWhile_cons, h, decide_True, if_true] at ht
      exact ih hs.2 (fun r hr => hge r (List.mem_cons_of_mem _ hr)) t ht
    · simp only [List.dropWhile_cons, h, decide_False, Bool.false_eq_true, if_false,
        List.mem_cons] at ht
      have hx : id ≤ x.eid := hge x (List.mem_cons_self _ _)
      rcases ht with rfl | ht
      · omega
      · have := hs.1 t ht
        omega

theorem takeWhile_eid_eq (id : Nat) (rs : List EdgeLoadRequest) :
    ∀ t ∈ rs.takeWhile (fun r => decide (r.eid = id)), t.eid = id := by
  intro t ht
  have := List.mem_takeWhile_imp ht
  simpa using this

theorem chain_links_split (id : Nat) (r : EdgeLoadRequest) (rs : List EdgeLoadRequest)
    (hr : r.eid = id) :
    chain_links (r :: rs) =
      chain_links (r :: rs.takeWhile (fun r => decide (r.eid = id))) ++
        chain_links (rs.dropWhile (fun r => decide (r.eid = id))) := by
  induction rs generalizing r with
  | nil => simp [chain_links]
  | cons x xs ih =>
    by_cases h : x.eid = id
    · simp only [List.takeWhile_cons, h, decide_True, if_true, List.dropWhile_cons, chain_links,
        hr]
      simp only [if_true, List.cons_append, List.cons.injEq, true_and]
      exact ih x h
    · simp only [List.takeWhile_cons, h, decide_False, Bool.false_eq_true, if_false,
        List.dropWhile_cons, chain_links, hr]
      rw [if_neg (fun h1 => h h1.symm)]
      simp

theorem chain_heads_sublist :
    ∀ (requests : List EdgeLoadRequest) (prev : Option Nat),
      (chain_heads prev requests).Sublist requests := by
  intro requests
  induction requests with
  | nil => intro _; simp [chain_heads]
  | cons r rs ih =>
    intro prev
    simp only [chain_heads]
    split
    · exact (ih prev).trans (List.sublist_cons_self _ _)
    · exact (ih _).cons₂ _

theorem chain_heads_some_of_gt (id : Nat) (requests : List EdgeLoadRequest)
    (h : ∀ t ∈ requests, id < t.eid) :
    chain_heads (some id) requests = chain_heads none requests := by
  cases requests with
  | nil => rfl
  | cons r rs =>
    have := h r (List.mem_cons_self _ _)
    simp only [chain_heads]
    rw [if_neg (by simp; omega), if_neg (by simp)]

theorem load_edges_spec (num_threads : Nat) :
    ∀ (es : List edge_t) (id : Nat) (requests : List EdgeLoadRequest),
      (requests.map EdgeLoadRequest.eid).Sorted (· ≤ ·) →
      (∀ r ∈ requests, id ≤ r.eid ∧ r.eid < id + es.length) →
      (load_edges num_threads id es requests).dependency_output.map Prod.snd =
          chain_links requests ∧
        (load_edges num_threads id es requests).depchain_edges =
          (chain_heads none requests).map
            (fun r => ⟨r.sid, es.getD (r.eid - id) edge_t.invalid⟩) ∧
        (load_edges num_threads id es requests).next_valid_edges =
          (List.range es.length).map (fun j => decide (∀ r ∈ requests, r.eid ≠ id + j)) ∧
        (load_edges num_threads id es requests).requests = [] := by
  intro es
  induction es with
  | nil =>
    intro id requests _ hr
    cases requests with
    | nil => simp [load_edges, chain_links, chain_heads]
    | cons r rs =>
      have := hr r (List.mem_cons_self _ _)
      simp at this
      omega
  | cons e es ih =>
    intro id requests hs hr
    cases requests with
    | nil =>
      obtain ⟨h1, h2, h3, h4⟩ := ih (id + 1) [] (by simp) (by simp)
      simp only [load_edges, use_edge, List.nil_append, h1, h2, h3, h4, chain_links, chain_heads,
        List.map_nil, List.length_cons, true_and, and_true]
      simp [List.range_succ_eq_map]
    | cons r rs =>
      have hrr := hr r (List.mem_cons_self _ _)
      simp only [List.map_cons, List.sorted_cons, List.mem_map, forall_exists_index, and_imp,
        forall_apply_eq_imp_iff₂] at hs
      by_cases h : r.eid = id
      · -- the requests of this edge id
        obtain ⟨u1, u2⟩ := use_edge_successors_spec num_threads id rs r.sid
          (_thread num_threads (get_swap_id r.sid))
        have hgt : ∀ t ∈ rs.dropWhile (fun r => decide (r.eid = id)), id < t.eid :=
          dropWhile_eid_gt id rs hs.2 (fun t ht => (hr t (List.mem_cons_of_mem _ ht)).1)
        have hsub : (rs.dropWhile (fun r => decide (r.eid = id))).Sublist rs :=
          (List.dropWhile_suffix _).sublist
        obtain ⟨h1, h2, h3, h4⟩ := ih (id + 1) (rs.dropWhile (fun r => decide (r.eid = id)))
          (hs.2.sublist (hsub.map _))
          (fun t ht => ⟨hgt t ht, by
            have := (hr t (List.mem_cons_of_mem _ (hsub.subset ht))).2
            simp only [List.length_cons] at this
            omega⟩)
        have hreq : r = ⟨id, r.sid⟩ := by cases r; simp only at h; subst h; rfl
        simp only [load_edges, use_edge, h, if_true, u2, h1, h2, h3, h4, List.map_append, u1]
        refine ⟨?_, ?_, ?_, trivial⟩
        · rw [chain_links_split id r rs h, ← hreq]
        · simp only [chain_heads, if_neg (show (none : Option Nat) ≠ some r.eid by simp),
            List.map_cons, List.singleton_append, h]
          rw [chain_heads_dropWhile, chain_heads_some_of_gt id _ hgt]
          rw [if_neg (by simp)]
          simp only [List.map_cons, h, Nat.sub_self, List.getD_cons_zero, List.cons.injEq, true_and]
          apply List.map_congr_left
          intro t ht
          have := hgt t ((chain_heads_sublist _ _).subset ht)
          rw [show t.eid - id = (t.eid - (id + 1)) + 1 by omega]
          rfl
        · simp only [List.length_cons, List.range_succ_eq_map, List.map_cons, List.map_map,
            Nat.add_zero, List.singleton_append]
          congr 1
          · simp only [List.mem_cons, ne_eq, forall_eq_or_imp, h, not_true_eq_false, false_and,
              decide_False]
          · apply List.map_congr_left
            intro j _
            simp only [Function.comp, decide_eq_decide]
            constructor
            · intro hall t ht
              by_cases hte : t.eid = id
              · omega
              · have : t ∈ rs.dropWhile (fun r => decide (r.eid = id)) := by
                  rcases List.mem_cons.mp ht with rfl | ht
                  · exact absurd h hte
                  · have := List.takeWhile_append_dropWhile (fun r => decide (r.eid = id)) rs
                    rw [← this] at ht
                    rcases List.mem_append.mp ht with ht | ht
                    · exact absurd (takeWhile_eid_eq id rs t ht) hte
                    · exact ht
                have := hall t this
                omega
            · intro hall t ht
              have := hall t (List.mem_cons_of_mem _ (hsub.subset ht))
              omega
      · -- no request for this edge id
        have hgt : id < r.eid := by omega
        obtain ⟨h1, h2, h3, h4⟩ := ih (id + 1) (r :: rs)
          (by simp only [List.map_cons, List.sorted_cons, List.mem_map, forall_exists_index,
                and_imp, forall_apply_eq_imp_iff₂]; exact hs)
          (fun t ht => by
            have := hr t ht
            simp only [List.length_cons] at this
            rcases List.mem_cons.mp ht with rfl | ht
            · omega
            · have := hs.1 t ht
              omega)
        simp only [load_edges, use_edge, h, if_false, h1, h2, h3, h4, List.nil_append]
        refine ⟨trivial, ?_, ?_, trivial⟩
        · apply List.map_congr_left
          intro t ht
          have htm : t ∈ r :: rs := (chain_heads_sublist _ _).subset ht
          have : id < t.eid := by
            rcases List.mem_cons.mp htm with rfl | htm
            · exact hgt
            · have := hs.1 t htm
              omega
          rw [show t.eid - id = (t.eid - (id + 1)) + 1 by omega]
          rfl
        · simp only [List.length_cons, List.range_succ_eq_map, List.map_cons, List.map_map,
            Nat.add_zero, List.singleton_append]
          congr 1
          · simp only [List.mem_cons, ne_eq, forall_eq_or_imp, List.cons.injEq, and_true]
            symm
            rw [decide_eq_true_iff]
            refine ⟨h, ?_⟩
            intro t ht
            have := hs.1 t ht
            omega
          · apply List.map_congr_left
            intro j _
            simp only [Function.comp, decide_eq_decide]
            constructor
            · intro hall t ht
              have := hall t ht
              omega
            · intro hall t ht
              have := hall t ht
              omega

theorem chain_links_subset_tail (a : EdgeLoadRequest) (rest : List EdgeLoadRequest)
    (m : DependencyChainSuccessorMsg) (h : m ∈ chain_links rest) : m ∈ chain_links (a :: rest) := by
  cases rest with
  | nil => simp [chain_links] at h
  | cons b rest =>
    simp only [chain_links]
    split
    · exact List.mem_cons_of_mem _ h
    · exact h

theorem mem_chain_links_iff :
    ∀ (requests : List EdgeLoadRequest), requests.Pairwise EdgeLoadRequest.lt →
      ∀ p q : Nat, (⟨p, q⟩ : DependencyChainSuccessorMsg) ∈ chain_links requests ↔
        ∃ a ∈ requests, ∃ b ∈ requests, a.sid = p ∧ b.sid = q ∧ a.eid = b.eid ∧ p < q ∧
          ∀ t ∈ requests, t.eid = a.eid → t.sid ≤ p ∨ q ≤ t.sid := by
  intro requests
  induction requests with
  | nil => intro _ p q; simp [chain_links]
  | cons x rest ih =>
    intro hs p q
    rw [List.pairwise_cons] at hs
    obtain ⟨hx, hrest⟩ := hs
    cases rest with
    | nil =>
      simp only [chain_links, List.not_mem_nil, List.mem_singleton, exists_eq_left, false_iff,
        not_and, not_forall]
      rintro rfl rfl _ h
      omega
    | cons y rest =>
      have ihy := ih hrest p q
      have hxy := hx y (List.mem_cons_self _ _)
      rw [List.pairwise_cons] at hrest
      constructor
      · intro hm
        have hcase : (x.eid = y.eid ∧ p = x.sid ∧ q = y.sid) ∨
            (⟨p, q⟩ : DependencyChainSuccessorMsg) ∈ chain_links (y :: rest) := by
          simp only [chain_links] at hm
          split at hm
          · next he =>
            rcases List.mem_cons.mp hm with hm | hm
            · left
              simp only [DependencyChainSuccessorMsg.mk.injEq] at hm
              exact ⟨he, hm.1, hm.2⟩
            · right; exact hm
          · right; exact hm
        rcases hcase with ⟨he, rfl, rfl⟩ | hm
        · refine ⟨x, List.mem_cons_self _ _, y, List.mem_cons_of_mem _ (List.mem_cons_self _ _),
            rfl, rfl, he, ?_, ?_⟩
          · unfold EdgeLoadRequest.lt at hxy; omega
          · intro t ht hte
            rcases List.mem_cons.mp ht with rfl | ht
            · left; exact Nat.le_refl _
            · rcases List.mem_cons.mp ht with rfl | ht
              · right; exact Nat.le_refl _
              · have := hrest.1 t ht
                unfold EdgeLoadRequest.lt at this
                right; omega
        · obtain ⟨a, ha, b, hb, h1, h2, h3, h4, h5⟩ := ihy.mp hm
          refine ⟨a, List.mem_cons_of_mem _ ha, b, List.mem_cons_of_mem _ hb, h1, h2, h3, h4, ?_⟩
          intro t ht hte
          rcases List.mem_cons.mp ht with rfl | ht
          · have := hx a ha
            unfold EdgeLoadRequest.lt at this
            left; omega
          · exact h5 t ht hte
      · rintro ⟨a, ha0, b, hb, h1, h2, h3, h4, h5⟩
        rcases List.mem_cons.mp ha0 with rfl | ha2
        · -- the link starts at the first request: its target is the second one
          have hb1 : b ∈ y :: rest := by
            rcases List.mem_cons.mp hb with rfl | hb
            · omega
            · exact hb
          have hyb : y = b := by
            rcases List.mem_cons.mp hb1 with rfl | hb2
            · rfl
            · have h6 := hrest.1 b hb2
              unfold EdgeLoadRequest.lt at h6 hxy
              have h7 := h5 y (List.mem_cons_of_mem _ (List.mem_cons_self _ _)) (by omega)
              omega
          subst hyb
          simp only [chain_links, h3, if_true]
          rw [← h1, ← h2]
          exact List.mem_cons_self _ _
        · have hb1 : b ∈ y :: rest := by
            rcases List.mem_cons.mp hb with rfl | hb
            · have := hx a ha2
              unfold EdgeLoadRequest.lt at this
              omega
            · exact hb
          apply chain_links_subset_tail
          exact ihy.mpr ⟨a, ha2, b, hb1, h1, h2, h3, h4,
            fun t ht hte => h5 t (List.mem_cons_of_mem _ ht) hte⟩

theorem mem_chain_heads_iff :
    ∀ (requests : List EdgeLoadRequest), requests.Pairwise EdgeLoadRequest.lt →
      ∀ (prev : Option Nat), (∀ e, prev = some e → ∀ t ∈ requests, e ≤ t.eid) →
      ∀ r : EdgeLoadRequest, r ∈ chain_heads prev requests ↔
        r ∈ requests ∧ prev ≠ some r.eid ∧ ∀ t ∈ requests, t.eid = r.eid → r.sid ≤ t.sid := by
  intro requests
  induction requests with
  | nil => intro _ _ _ r; simp [chain_heads]
  | cons x rest ih =>
    intro hs prev hprev r
    rw [List.pairwise_cons] at hs
    obtain ⟨hx, hrest⟩ := hs
    by_cases hp : prev = some x.eid
    · simp only [chain_heads, hp, if_true]
      rw [ih hrest (some x.eid) (fun e he t ht => by
        simp only [Option.some.injEq] at he
        subst he
        have := hx t ht
        unfold EdgeLoadRequest.lt at this
        omega) r]
      constructor
      · rintro ⟨h1, h2, h3⟩
        refine ⟨List.mem_cons_of_mem _ h1, h2, ?_⟩
        intro t ht hte
        rcases List.mem_cons.mp ht with rfl | ht
        · simp only [ne_eq, Option.some.injEq] at h2
          omega
        · exact h3 t ht hte
      · rintro ⟨h1, h2, h3⟩
        rcases List.mem_cons.mp h1 with rfl | h1
        · exact absurd rfl h2
        · exact ⟨h1, h2, fun t ht hte => h3 t (List.mem_cons_of_mem _ ht) hte⟩
    · simp only [chain_heads, hp, if_false, List.mem_cons]
      rw [ih hrest (some x.eid) (fun e he t ht => by
        simp only [Option.some.injEq] at he
        subst he
        have := hx t ht
        unfold EdgeLoadRequest.lt at this
        omega) r]
      constructor
      · rintro (rfl | ⟨h1, h2, h3⟩)
        · refine ⟨Or.inl rfl, hp, ?_⟩
          intro t ht hte
          rcases ht with rfl | ht
          · exact Nat.le_refl _
          · have := hx t ht
            unfold EdgeLoadRequest.lt at this
            omega
        · refine ⟨Or.inr h1, ?_, ?_⟩
          · intro hpe
            have h4 := hprev r.eid hpe x (List.mem_cons_self _ _)
            have h5 := hx r h1
            unfold EdgeLoadRequest.lt at h5
            simp only [ne_eq, Option.some.injEq] at h2
            have : x.eid = r.eid := by omega
            exact h2 this
          · intro t ht hte
            rcases ht with rfl | ht
            · simp only [ne_eq, Option.some.injEq] at h2
              omega
            · exact h3 t ht hte
      · rintro ⟨h1, h2, h3⟩
        rcases h1 with rfl | h1
        · left; rfl
        · right
          refine ⟨h1, ?_, fun t ht hte => h3 t (Or.inr ht) hte⟩
          intro he
          simp only [Option.some.injEq] at he
          have h5 := hx r h1
          unfold EdgeLoadRequest.lt at h5
          have := h3 x (Or.inl rfl) he
          omega

theorem chain_links_sid_sublist :
    ∀ requests : List EdgeLoadRequest,
      ((chain_links requests).map DependencyChainSuccessorMsg.sid).Sublist
        (requests.map EdgeLoadRequest.sid) := by
  intro requests
  induction requests with
  | nil => simp [chain_links]
  | cons x rest ih =>
    cases rest with
    | nil => simp [chain_links]
    | cons y rest =>
      simp only [chain_links]
      split
      · simp only [List.map_cons]
        exact ih.cons₂ _
      · simp only [List.map_cons]
        exact ih.cons _

theorem chain_links_successor_sublist_tail :
    ∀ (rest : List EdgeLoadRequest) (x : EdgeLoadRequest),
      ((chain_links (x :: rest)).map DependencyChainSuccessorMsg.successor).Sublist
        (rest.map EdgeLoadRequest.sid) := by
  intro rest
  induction rest with
  | nil => intro x; simp [chain_links]
  | cons y rest ih =>
    intro x
    simp only [chain_links]
    split
    · simp only [List.map_cons]
      exact (ih y).cons₂ _
    · simp only [List.map_cons]
      exact (ih y).cons _

theorem chain_links_successor_sublist (requests : List EdgeLoadRequest) :
    ((chain_links requests).map DependencyChainSuccessorMsg.successor).Sublist
      (requests.map EdgeLoadRequest.sid) := by
  cases requests with
  | nil => simp [chain_links]
  | cons x rest =>
    simp only [List.map_cons]
    exact (chain_links_successor_sublist_tail rest x).cons _

theorem sorted_requests_pairwise_lt (requests : List EdgeLoadRequest)
    (hs : requests.Sorted EdgeLoadRequest.le)
    (hn : (requests.map EdgeLoadRequest.sid).Nodup) :
    requests.Pairwise EdgeLoadRequest.lt := by
  have h2 : requests.Pairwise (fun a b => a.sid ≠ b.sid) := by
    rw [List.Nodup, List.pairwise_map] at hn
    exact hn
  have h3 := List.Pairwise.and hs h2
  refine h3.imp ?_
  intro a b h
  unfold EdgeLoadRequest.le at h
  unfold EdgeLoadRequest.lt
  omega

theorem sorted_requests_eid (requests : List EdgeLoadRequest)
    (hs : requests.Sorted EdgeLoadRequest.le) :
    (requests.map EdgeLoadRequest.eid).Sorted (· ≤ ·) := by
  rw [List.Sorted, List.pairwise_map]
  refine List.Pairwise.imp ?_ hs
  intro a b h
  unfold EdgeLoadRequest.le at h
  omega

theorem load_edges_facts (num_threads : Nat) (edges : List edge_t) (swaps : List SwapDescriptor)
    (hn : swaps.length < 2 ^ 63)
    (hrange : ∀ s ∈ swaps, s.eid_a < edges.length ∧ s.eid_b < edges.length) :
    let out := load_edges num_threads 0 edges
      (sorter_sort EdgeLoadRequest.le (swap_requests 0 swaps))
    ChainFacts edges (2 * swaps.length) (request_eid swaps) out.depchain_edges
        (out.dependency_output.map Prod.snd) out.next_valid_edges ∧
      out.requests = [] := by
  intro out
  have hperm := sorter_sort_perm EdgeLoadRequest.le (swap_requests 0 swaps)
  have hsorted := sorter_sort_sorted EdgeLoadRequest.le (swap_requests 0 swaps)
  have hmem : ∀ r, r ∈ sorter_sort EdgeLoadRequest.le (swap_requests 0 swaps) ↔
      r.sid < 2 * swaps.length ∧ r.eid = request_eid swaps r.sid := fun r => by
    rw [hperm.mem_iff, mem_swap_requests_zero swaps hn]
  have hnodup : ((sorter_sort EdgeLoadRequest.le (swap_requests 0 swaps)).map
      EdgeLoadRequest.sid).Nodup :=
    (hperm.map _).nodup_iff.mpr (swap_requests_nodup_sid swaps hn)
  have hlt := sorted_requests_pairwise_lt _ hsorted hnodup
  have heid_lt : ∀ k, k < 2 * swaps.length → request_eid swaps k < edges.length := by
    intro k hk
    unfold request_eid
    have hi : k / 2 < swaps.length := by omega
    rw [List.getElem?_eq_getElem hi]
    have := hrange swaps[k / 2] (List.getElem_mem _)
    simp only
    split
    · exact this.1
    · exact this.2
  obtain ⟨h1, h2, h3, h4⟩ := load_edges_spec num_threads edges 0
    (sorter_sort EdgeLoadRequest.le (swap_requests 0 swaps)) (sorted_requests_eid _ hsorted)
    (fun r hr => by
      obtain ⟨hr1, hr2⟩ := (hmem r).mp hr
      have := heid_lt r.sid hr1
      omega)
  refine ⟨?_, h4⟩
  constructor
  · intro q e
    show _ ∈ out.depchain_edges ↔ _
    rw [show out.depchain_edges = _ from h2, List.mem_map]
    constructor
    · rintro ⟨r, hr, hre⟩
      obtain ⟨hr1, -, hr3⟩ := (mem_chain_heads_iff _ hlt none (by simp) r).mp hr
      obtain ⟨hr4, hr5⟩ := (hmem r).mp hr1
      simp only [DependencyChainEdgeMsg.mk.injEq, Nat.sub_zero] at hre
      obtain ⟨rfl, rfl⟩ := hre
      refine ⟨hr4, ?_, by rw [hr5]⟩
      intro t ht hte
      exact hr3 ⟨request_eid swaps t, t⟩ ((hmem _).mpr ⟨ht, rfl⟩) (by rw [hr5]; exact hte)
    · rintro ⟨hq, hmin, rfl⟩
      refine ⟨⟨request_eid swaps q, q⟩, ?_, by simp⟩
      refine (mem_chain_heads_iff _ hlt none (by simp) _).mpr ⟨(hmem _).mpr ⟨hq, rfl⟩, by simp, ?_⟩
      intro t ht hte
      obtain ⟨ht1, ht2⟩ := (hmem t).mp ht
      exact hmin t.sid ht1 (by rw [← ht2]; exact hte)
  · intro p q
    rw [h1, mem_chain_links_iff _ hlt]
    constructor
    · rintro ⟨a, ha, b, hb, rfl, rfl, h5, h6, h7⟩
      obtain ⟨ha1, ha2⟩ := (hmem a).mp ha
      obtain ⟨hb1, hb2⟩ := (hmem b).mp hb
      refine ⟨ha1, hb1, by rw [← ha2, ← hb2]; exact h5, h6, ?_⟩
      intro t ht hte
      exact h7 ⟨request_eid swaps t, t⟩ ((hmem _).mpr ⟨ht, rfl⟩) (by rw [ha2]; exact hte)
    · rintro ⟨hp, hq, h5, h6, h7⟩
      refine ⟨⟨request_eid swaps p, p⟩, (hmem _).mpr ⟨hp, rfl⟩, ⟨request_eid swaps q, q⟩,
        (hmem _).mpr ⟨hq, rfl⟩, rfl, rfl, h5, h6, ?_⟩
      intro t ht hte
      obtain ⟨ht1, ht2⟩ := (hmem t).mp ht
      exact h7 t.sid ht1 (by rw [← ht2]; exact hte)
  · show out.next_valid_edges = _
    rw [show out.next_valid_edges = _ from h3]
    apply List.map_congr_left
    intro j _
    simp only [Nat.zero_add, decide_eq_decide]
    constructor
    · intro hall t ht
      have := hall ⟨request_eid swaps t, t⟩ ((hmem _).mpr ⟨ht, rfl⟩)
      exact this
    · intro hall r hr
      obtain ⟨hr1, hr2⟩ := (hmem r).mp hr
      rw [hr2]
      exact hall r.sid hr1
  · show (out.depchain_edges.map _).Nodup
    rw [show out.depchain_edges = _ from h2, List.map_map]
    exact hnodup.sublist ((chain_heads_sublist _ _).map _)
  · rw [h1]
    exact hnodup.sublist (chain_links_sid_sublist _)
  · rw [h1]
    exact hnodup.sublist (chain_links_successor_sublist _)

/-! ## The PQ+sorter merger -/

namespace PQSorterMerger

variable {α : Type} (le : α → α → Prop) [DecidableRel le]

theorem peek_mem (m : PQSorterMerger α) (x : α) (h : m.peek le = some x) :
    x ∈ m.content ∧ m.in_window le x = true := by
  unfold peek at h
  unfold content
  split at h
  · simp at h
  · next c cs hc hp =>
    split at h
    · next hw => simp only [Option.some.injEq] at h; subst h; simp [hc, hw]
    · simp at h
  · next p ps hc hp =>
    split at h
    · next hw => simp only [Option.some.injEq] at h; subst h; simp [hp, hw]
    · simp at h
  · next c cs p ps hc hp =>
    split at h
    · split at h
      · next hw => simp only [Option.some.injEq] at h; subst h; simp [hc, hw]
      · simp at h
    · split at h
      · next hw => simp only [Option.some.injEq] at h; subst h; simp [hp, hw]
      · simp at h

/-- The front of the stream is a least record of the merger. -/
theorem peek_le [IsTotal α le] [IsTrans α le] (m : PQSorterMerger α)
    (hc : m.cursor.Sorted le) (hp : m.pq.Sorted le) (hrefl : ∀ a, le a a) (x : α)
    (h : m.peek le = some x) : ∀ y ∈ m.content, le x y := by
  unfold peek at h
  unfold content
  intro y hy
  split at h
  · next hc1 hp1 => simp [hc1, hp1] at hy
  · next c cs hc1 hp1 =>
    split at h
    · simp only [Option.some.injEq] at h; subst h
      rw [hc1] at hc hy
      rw [hp1] at hy
      simp only [List.append_nil, List.mem_cons] at hy
      rcases hy with rfl | hy
      · exact hrefl _
      · exact (List.sorted_cons.mp hc).1 y hy
    · simp at h
  · next p ps hc1 hp1 =>
    split at h
    · simp only [Option.some.injEq] at h; subst h
      rw [hp1] at hp hy
      rw [hc1] at hy
      simp only [List.nil_append, List.mem_cons] at hy
      rcases hy with rfl | hy
      · exact hrefl _
      · exact (List.sorted_cons.mp hp).1 y hy
    · simp at h
  · next c cs p ps hc1 hp1 =>
    rw [hc1] at hc hy
    rw [hp1] at hp hy
    have hcs := List.sorted_cons.mp hc
    have hps := List.sorted_cons.mp hp
    simp only [List.mem_append, List.mem_cons] at hy
    split at h
    · next hcp =>
      split at h
      · simp only [Option.some.injEq] at h; subst h
        rcases hy with (rfl | hy) | (rfl | hy)
        · exact hrefl _
        · exact hcs.1 y hy
        · exact hcp
        · exact IsTrans.trans _ _ _ hcp (hps.1 y hy)
      · simp at h
    · next hcp =>
      have hpc : le p c := (total_of le p c).resolve_right hcp
      split at h
      · simp only [Option.some.injEq] at h; subst h
        rcases hy with (rfl | hy) | (rfl | hy)
        · exact hpc
        · exact IsTrans.trans _ _ _ hpc (hcs.1 y hy)
        · exact hrefl _
        · exact hps.1 y hy
      · simp at h

/-- A record in the window below which no record is out of the window shows at
the front. -/
theorem peek_isSome [IsTotal α le] [IsTrans α le] (m : PQSorterMerger α)
    (hc : m.cursor.Sorted le) (hp : m.pq.Sorted le) (y : α) (hy : y ∈ m.content)
    (hwin : ∀ z ∈ m.content, le z y → m.in_window le z = true) :
    ∃ x, m.peek le = some x := by
  unfold content at hy hwin
  unfold peek
  split
  · next hc1 hp1 => simp [hc1, hp1] at hy
  · next c cs hc1 hp1 =>
    rw [hc1] at hc hy hwin
    rw [hp1] at hy hwin
    simp only [List.append_nil, List.mem_cons] at hy hwin
    have hcy : le c y := by
      rcases hy with hy | hy
      · subst hy; exact (total_of le _ _).elim id id
      · exact (List.sorted_cons.mp hc).1 y hy
    rw [if_pos (hwin c (Or.inl rfl) hcy)]
    exact ⟨c, rfl⟩
  · next p ps hc1 hp1 =>
    rw [hp1] at hp hy hwin
    rw [hc1] at hy hwin
    simp only [List.nil_append, List.mem_cons] at hy hwin
    have hpy : le p y := by
      rcases hy with hy | hy
      · subst hy; exact (total_of le _ _).elim id id
      · exact (List.sorted_cons.mp hp).1 y hy
    rw [if_pos (hwin p (Or.inl rfl) hpy)]
    exact ⟨p, rfl⟩
  · next c cs p ps hc1 hp1 =>
    rw [hc1] at hc hy hwin
    rw [hp1] at hp hy hwin
    have hcs := List.sorted_cons.mp hc
    have hps := List.sorted_cons.mp hp
    simp only [List.mem_append, List.mem_cons] at hy hwin
    have hcc : le c c := (total_of le c c).elim id id
    have hpp : le p p := (total_of le p p).elim id id
    split
    · next hcp =>
      have hcy : le c y := by
        rcases hy with (rfl | hy) | (rfl | hy)
        · exact hcc
        · exact hcs.1 y hy
        · exact hcp
        · exact IsTrans.trans _ _ _ hcp (hps.1 y hy)
      rw [if_pos (hwin c (Or.inl (Or.inl rfl)) hcy)]
      exact ⟨c, rfl⟩
    · next hcp =>
      have hpc : le p c := (total_of le p c).resolve_right hcp
      have hpy : le p y := by
        rcases hy with (rfl | hy) | (rfl | hy)
        · exact hpc
        · exact IsTrans.trans _ _ _ hpc (hcs.1 y hy)
        · exact hpp
        · exact hps.1 y hy
      rw [if_pos (hwin p (Or.inr (Or.inl rfl)) hpy)]
      exact ⟨p, rfl⟩

/-- Dropping the front removes the front record from the run or from the
queue. -/
theorem advance_cases (m : PQSorterMerger α) (x : α) (h : m.peek le = some x) :
    (∃ cs, m.cursor = x :: cs ∧ m.advance le = { m with cursor := cs }) ∨
      (∃ ps, m.pq = x :: ps ∧ m.advance le = { m with pq := ps }) := by
  unfold peek at h
  unfold advance
  split at h
  · simp at h
  · next c cs hc hp =>
    split at h
    · simp only [Option.some.injEq] at h; subst h
      left; exact ⟨cs, hc, by simp [hc, hp]⟩
    · simp at h
  · next p ps hc hp =>
    split at h
    · simp only [Option.some.injEq] at h; subst h
      right; exact ⟨ps, hp, by simp [hc, hp]⟩
    · simp at h
  · next c cs p ps hc hp =>
    split at h
    · next hcp =>
      split at h
      · simp only [Option.some.injEq] at h; subst h
        left; exact ⟨cs, hc, by simp [hc, hp, hcp]⟩
      · simp at h
    · next hcp =>
      split at h
      · simp only [Option.some.injEq] at h; subst h
        right; exact ⟨ps, hp, by simp [hc, hp, hcp]⟩
      · simp at h

theorem advance_perm (m : PQSorterMerger α) (x : α) (h : m.peek le = some x) :
    (x :: (m.advance le).content).Perm m.content := by
  rcases advance_cases le m x h with ⟨cs, hc, ha⟩ | ⟨ps, hp, ha⟩
  · rw [ha]; simp [content, hc]
  · rw [ha]
    simp only [content, hp]
    exact List.perm_middle.symm

theorem advance_sorted (m : PQSorterMerger α) (x : α) (h : m.peek le = some x)
    (hc : m.cursor.Sorted le) (hp : m.pq.Sorted le) :
    (m.advance le).cursor.Sorted le ∧ (m.advance le).pq.Sorted le := by
  rcases advance_cases le m x h with ⟨cs, hc1, ha⟩ | ⟨ps, hp1, ha⟩
  · rw [ha]; rw [hc1] at hc; exact ⟨hc.of_cons, hp⟩
  · rw [ha]; rw [hp1] at hp; exact ⟨hc, hp.of_cons⟩

theorem advance_limit (m : PQSorterMerger α) :
    (m.advance le).limit = m.limit ∧ (m.advance le).sorter = m.sorter := by
  unfold advance
  split
  · exact ⟨rfl, rfl⟩
  · exact ⟨rfl, rfl⟩
  · exact ⟨rfl, rfl⟩
  · split <;> exact ⟨rfl, rfl⟩

theorem advance_length (m : PQSorterMerger α) (x : α) (h : m.peek le = some x) :
    (m.advance le).cursor.length + (m.advance le).pq.length + 1 =
      m.cursor.length + m.pq.length := by
  rcases advance_cases le m x h with ⟨cs, hc1, ha⟩ | ⟨ps, hp1, ha⟩
  · rw [ha, hc1]; simp; omega
  · rw [ha, hp1]; simp; omega

theorem push_pq_perm (m : PQSorterMerger α) (x : α) :
    (m.push_pq le x).content.Perm (x :: m.content) := by
  simp only [content, push_pq]
  exact ((List.perm_orderedInsert le x m.pq).append_left m.cursor).trans List.perm_middle

theorem push_pq_sorted [IsTotal α le] [IsTrans α le] (m : PQSorterMerger α) (x : α)
    (hp : m.pq.Sorted le) : (m.push_pq le x).pq.Sorted le := by
  simp only [push_pq]
  exact hp.orderedInsert x m.pq

end PQSorterMerger

/-! ## The positional semantics of a run -/

theorem positional_run_snoc (A : List edge_t) :
    ∀ (ss : List SwapDescriptor) (fs : List Bool) (s : SwapDescriptor) (f : Bool),
      ss.length = fs.length →
      positional_run A (ss ++ [s]) (fs ++ [f]) = positional_swap (positional_run A ss fs) s f := by
  intro ss
  induction ss generalizing A with
  | nil =>
    intro fs s f h
    cases fs with
    | nil => rfl
    | cons _ _ => simp at h
  | cons x ss ih =>
    intro fs s f h
    cases fs with
    | nil => simp at h
    | cons y fs =>
      simp only [List.cons_append, positional_run]
      exact ih _ fs s f (by simpa using h)

theorem positional_swap_length (A : List edge_t) (s : SwapDescriptor) (f : Bool) :
    (positional_swap A s f).length = A.length := by
  simp [positional_swap]

theorem positional_run_length (A : List edge_t) :
    ∀ (ss : List SwapDescriptor) (fs : List Bool), (positional_run A ss fs).length = A.length := by
  intro ss
  induction ss generalizing A with
  | nil => intro fs; cases fs <;> rfl
  | cons x ss ih =>
    intro fs
    cases fs with
    | nil => rfl
    | cons y fs => simp only [positional_run]; rw [ih, positional_swap_length]

namespace RunCtx

variable {c : RunCtx}

theorem eid_distinct (h : c.WF) (i : Nat) (hi : i < c.swaps.length) :
    request_eid c.swaps (2 * i) ≠ request_eid c.swaps (2 * i + 1) := by
  unfold request_eid
  rw [show 2 * i / 2 = i by omega, show (2 * i + 1) / 2 = i by omega,
    List.getElem?_eq_getElem hi]
  simp only
  rw [if_pos (by omega), if_neg (by omega)]
  exact h.distinct _ (List.getElem_mem _)

theorem eid_lt (h : c.WF) (k : Nat) (hk : k < 2 * c.swaps.length) :
    request_eid c.swaps k < c.edges.length := by
  unfold request_eid
  have hi : k / 2 < c.swaps.length := by omega
  rw [List.getElem?_eq_getElem hi]
  have := h.range c.swaps[k / 2] (List.getElem_mem _)
  simp only
  split
  · exact this.1
  · exact this.2

theorem eid_even (i : Nat) (hi : i < c.swaps.length) :
    request_eid c.swaps (2 * i) = (c.swaps[i]).eid_a := by
  unfold request_eid
  rw [show 2 * i / 2 = i by omega, List.getElem?_eq_getElem hi]
  simp

theorem eid_odd (i : Nat) (hi : i < c.swaps.length) :
    request_eid c.swaps (2 * i + 1) = (c.swaps[i]).eid_b := by
  unfold request_eid
  rw [show (2 * i + 1) / 2 = i by omega, List.getElem?_eq_getElem hi]
  simp only
  rw [if_neg (by omega)]

/-- A link leads to a later swap. -/
theorem link_later (h : c.WF) {p q : Nat} (hl : (⟨p, q⟩ : DependencyChainSuccessorMsg) ∈ c.links) :
    2 * (p / 2) + 2 ≤ q ∧ q < 2 * c.swaps.length := by
  obtain ⟨hp, hq, he, hlt, -⟩ := (h.facts.mem_links p q).mp hl
  refine ⟨?_, hq⟩
  by_contra hcon
  have h1 : p = 2 * (p / 2) ∧ q = 2 * (p / 2) + 1 := by omega
  have hd := eid_distinct h (p / 2) (by omega)
  rw [h1.1, h1.2] at he
  exact hd he

theorem link_unique_successor (h : c.WF) {p q q2 : Nat}
    (h1 : (⟨p, q⟩ : DependencyChainSuccessorMsg) ∈ c.links)
    (h2 : (⟨p, q2⟩ : DependencyChainSuccessorMsg) ∈ c.links) : q = q2 := by
  have := List.inj_on_of_nodup_map h.facts.links_nodup h1 h2 rfl
  simpa using this

theorem link_unique_predecessor (h : c.WF) {p p2 q : Nat}
    (h1 : (⟨p, q⟩ : DependencyChainSuccessorMsg) ∈ c.links)
    (h2 : (⟨p2, q⟩ : DependencyChainSuccessorMsg) ∈ c.links) : p = p2 := by
  have := List.inj_on_of_nodup_map h.facts.successors_nodup h1 h2 rfl
  simpa using this

/-- Every swap side has received its edge when its swap starts. -/
theorem has_value_own (h : c.WF) (q : Nat) (hq : q < 2 * c.swaps.length) :
    c.has_value (q / 2) q := by
  by_cases hex : ∃ t, t < q ∧ request_eid c.swaps t = request_eid c.swaps q
  · right
    let P := fun t => t < q ∧ request_eid c.swaps t = request_eid c.swaps q
    obtain ⟨t0, ht0⟩ := hex
    have hspec : P (Nat.findGreatest P q) :=
      Nat.findGreatest_spec (P := P) (Nat.le_of_lt ht0.1) ht0
    have hgreat : ∀ k, Nat.findGreatest P q < k → k ≤ q → ¬ P k :=
      fun k hk1 hk2 => Nat.findGreatest_is_greatest hk1 hk2
    have hl : (⟨Nat.findGreatest P q, q⟩ : DependencyChainSuccessorMsg) ∈ c.links := by
      refine (h.facts.mem_links _ _).mpr ⟨by have := hspec.1; omega, hq, hspec.2, hspec.1, ?_⟩
      intro t ht hte
      by_contra hcon
      exact hgreat t (by omega) (by omega) ⟨by omega, by rw [hte, hspec.2]⟩
    refine ⟨_, hl, ?_⟩
    have := (link_later h hl).1
    omega
  · left
    refine ⟨_, (h.facts.mem_edges q _).mpr ⟨hq, ?_, rfl⟩⟩
    intro t _ hte
    by_contra hcon
    exact hex ⟨t, by omega, hte⟩

/-- The edge id of a side that has its edge is not touched by the running
swap. -/
theorem has_value_stable (h : c.WF) {sid q : Nat} (hv : c.has_value sid q)
    (hq : 2 * sid + 2 ≤ q) (hqn : q < 2 * c.swaps.length) (s : Nat) (hs : s < 2) :
    request_eid c.swaps q ≠ request_eid c.swaps (2 * sid + s) := by
  intro he
  rcases hv with ⟨e, hv⟩ | ⟨p, hv, hp⟩
  · obtain ⟨-, hmin, -⟩ := (h.facts.mem_edges q e).mp hv
    have := hmin (2 * sid + s) (by omega) he.symm
    omega
  · obtain ⟨-, -, he2, -, hbetween⟩ := (h.facts.mem_links p q).mp hv
    have := hbetween (2 * sid + s) (by omega) (by rw [← he, he2])
    omega

/-- The target of a link of the running swap has not received its edge yet. -/
theorem not_has_value_of_link (h : c.WF) {sid s q : Nat} (hs : s < 2)
    (hl : (⟨2 * sid + s, q⟩ : DependencyChainSuccessorMsg) ∈ c.links) : ¬ c.has_value sid q := by
  rintro (⟨e, hv⟩ | ⟨p, hv, hp⟩)
  · obtain ⟨-, hmin, -⟩ := (h.facts.mem_edges q e).mp hv
    obtain ⟨hp1, -, he, hlt, -⟩ := (h.facts.mem_links _ q).mp hl
    have := hmin (2 * sid + s) hp1 he
    omega
  · have := link_unique_predecessor h hv hl
    omega

theorem has_value_succ (sid q : Nat) :
    c.has_value (sid + 1) q ↔
      c.has_value sid q ∨ (⟨2 * sid, q⟩ : DependencyChainSuccessorMsg) ∈ c.links ∨
        (⟨2 * sid + 1, q⟩ : DependencyChainSuccessorMsg) ∈ c.links := by
  unfold has_value
  constructor
  · rintro (h | ⟨p, hl, hp⟩)
    · exact Or.inl (Or.inl h)
    · by_cases h1 : p < 2 * sid
      · exact Or.inl (Or.inr ⟨p, hl, h1⟩)
      · have : p = 2 * sid ∨ p = 2 * sid + 1 := by omega
        rcases this with rfl | rfl
        · exact Or.inr (Or.inl hl)
        · exact Or.inr (Or.inr hl)
  · rintro ((h | ⟨p, hl, hp⟩) | hl | hl)
    · exact Or.inl h
    · exact Or.inr ⟨p, hl, by omega⟩
    · exact Or.inr ⟨_, hl, by omega⟩
    · exact Or.inr ⟨_, hl, by omega⟩

/-- A side without a successor is the last one of its edge id. -/
theorem last_of_no_link (h : c.WF) {p : Nat} (hp : p < 2 * c.swaps.length)
    (hno : ∀ q, (⟨p, q⟩ : DependencyChainSuccessorMsg) ∉ c.links) :
    ∀ t, p < t → t < 2 * c.swaps.length → request_eid c.swaps t ≠ request_eid c.swaps p := by
  intro t ht htn hte
  have hex : ∃ k, p < k ∧ k < 2 * c.swaps.length ∧
      request_eid c.swaps k = request_eid c.swaps p := ⟨t, ht, htn, hte⟩
  classical
  have hspec := Nat.find_spec hex
  have hmin := fun k => Nat.find_min hex (m := k)
  apply hno (Nat.find hex)
  refine (h.facts.mem_links _ _).mpr ⟨hp, hspec.2.1, hspec.2.2.symm, hspec.1, ?_⟩
  intro k hk hke
  by_contra hcon
  exact hmin k (by omega) ⟨by omega, hk, hke⟩

end RunCtx

/-! ## The successor stream -/

theorem LinkStream.init (c : RunCtx) (h : c.WF) :
    LinkStream c 0 (sorter_sort DependencyChainSuccessorMsg.le c.links) := by
  constructor
  · have hs := sorter_sort_sorted DependencyChainSuccessorMsg.le c.links
    have hn : ((sorter_sort DependencyChainSuccessorMsg.le c.links).map
        DependencyChainSuccessorMsg.sid).Nodup :=
      ((sorter_sort_perm _ c.links).map _).nodup_iff.mpr h.facts.links_nodup
    rw [List.Nodup, List.pairwise_map] at hn
    refine (List.Pairwise.and hs hn).imp ?_
    intro a b hab
    have := hab.1
    unfold DependencyChainSuccessorMsg.le at this
    have := hab.2
    omega
  · intro m
    rw [mem_sorter_sort]
    simp

/-- The front of the stream is the link of the key `k`, if there is one. -/
theorem LinkStream.step {c : RunCtx} {k : Nat}
    {deps : List DependencyChainSuccessorMsg} (hs : LinkStream c k deps) :
    (∃ q rest, deps = ⟨k, q⟩ :: rest ∧ (⟨k, q⟩ : DependencyChainSuccessorMsg) ∈ c.links ∧
        LinkStream c (k + 1) rest) ∨
      ((∀ q, (⟨k, q⟩ : DependencyChainSuccessorMsg) ∉ c.links) ∧ LinkStream c (k + 1) deps) := by
  cases deps with
  | nil =>
    right
    refine ⟨?_, ⟨List.Pairwise.nil, ?_⟩⟩
    · intro q hq
      have := (hs.mem ⟨k, q⟩).mpr ⟨hq, Nat.le_refl _⟩
      simp at this
    · intro m
      have := hs.mem m
      simp only [List.not_mem_nil, false_iff, not_and, not_le] at this ⊢
      intro hm
      have := this hm
      omega
  | cons m rest =>
    have hm := (hs.mem m).mp (List.mem_cons_self _ _)
    have hsorted := List.pairwise_cons.mp hs.sorted
    by_cases hk : m.sid = k
    · left
      refine ⟨m.successor, rest, ?_, ?_, hsorted.2, ?_⟩
      · cases m; simp only at hk; subst hk; rfl
      · cases m; simp only at hk; subst hk; exact hm.1
      · intro x
        constructor
        · intro hx
          have h1 := (hs.mem x).mp (List.mem_cons_of_mem _ hx)
          have h2 := hsorted.1 x hx
          exact ⟨h1.1, by omega⟩
        · rintro ⟨hx1, hx2⟩
          have h1 := (hs.mem x).mpr ⟨hx1, by omega⟩
          rcases List.mem_cons.mp h1 with rfl | h1
          · omega
          · exact h1
    · right
      refine ⟨?_, hs.sorted, ?_⟩
      · intro q hq
        have h1 := (hs.mem ⟨k, q⟩).mpr ⟨hq, Nat.le_refl _⟩
        rcases List.mem_cons.mp h1 with h1 | h1
        · rw [← h1] at hk; exact hk rfl
        · have := hsorted.1 _ h1
          simp only at this
          omega
      · intro x
        constructor
        · intro hx
          have h1 := (hs.mem x).mp hx
          refine ⟨h1.1, ?_⟩
          rcases List.mem_cons.mp hx with rfl | hx
          · omega
          · have := hsorted.1 x hx
            omega
        · rintro ⟨hx1, hx2⟩
          exact (hs.mem x).mpr ⟨hx1, by omega⟩

theorem LinkStream.head_ge {c : RunCtx} {k : Nat} {m : DependencyChainSuccessorMsg}
    {rest : List DependencyChainSuccessorMsg} (hs : LinkStream c k (m :: rest)) : k ≤ m.sid :=
  ((hs.mem m).mp (List.mem_cons_self _ _)).2

/-! ## Forwarding the edge state -/

theorem forward_edge_state_stop (limit sid : Nat) (ne : edge_t × edge_t)
    (deps : List DependencyChainSuccessorMsg) (st : PerformState) (f : Bool × Bool)
    (h : ∀ m ∈ deps.head?, get_swap_id m.sid ≠ sid) :
    forward_edge_state limit sid ne deps st f = ({ st with edge_dependencies := deps }, f) := by
  cases deps with
  | nil => rfl
  | cons m rest =>
    have := h m (by simp)
    simp [forward_edge_state, this]

theorem forward_edge_state_spec {c : RunCtx} (h : c.WF) (limit sid : Nat) (ne : edge_t × edge_t)
    (st : PerformState) (hs : LinkStream c (2 * sid) st.edge_dependencies) :
    ∃ (o0 o1 : Option Nat) (rest : List DependencyChainSuccessorMsg),
      (∀ q, o0 = some q ↔ (⟨2 * sid, q⟩ : DependencyChainSuccessorMsg) ∈ c.links) ∧
      (∀ q, o1 = some q ↔ (⟨2 * sid + 1, q⟩ : DependencyChainSuccessorMsg) ∈ c.links) ∧
      LinkStream c (2 * sid + 2) rest ∧
      forward_edge_state limit sid ne st.edge_dependencies st (false, false) =
        ({ deliver_edge_opt limit o1 ne.2 (deliver_edge_opt limit o0 ne.1 st) with
            edge_dependencies := rest }, (o0.isSome, o1.isSome)) := by
  have hstop : ∀ rest : List DependencyChainSuccessorMsg, LinkStream c (2 * sid + 2) rest →
      ∀ m ∈ rest.head?, get_swap_id m.sid ≠ sid := by
    intro rest hr m hm
    cases rest with
    | nil => simp at hm
    | cons x rest =>
      simp only [List.head?_cons, Option.mem_def, Option.some.injEq] at hm
      subst hm
      have := hr.head_ge
      rw [get_swap_id_eq]
      omega
  have hid0 : get_swap_id (2 * sid) = sid := by rw [get_swap_id_eq]; omega
  have hid1 : get_swap_id (2 * sid + 1) = sid := by rw [get_swap_id_eq]; omega
  have hsp0 : get_swap_spos (2 * sid) = 0 := by rw [get_swap_spos_eq]; omega
  have hsp1 : get_swap_spos (2 * sid + 1) = 1 := by rw [get_swap_spos_eq]; omega
  rcases hs.step with ⟨q0, rest0, hd0, hl0, hs0⟩ | ⟨hno0, hs0⟩
  · rcases hs0.step with ⟨q1, rest1, hd1, hl1, hs1⟩ | ⟨hno1, hs1⟩
    · refine ⟨some q0, some q1, rest1, ?_, ?_, hs1, ?_⟩
      · intro q
        constructor
        · intro hq; simp only [Option.some.injEq] at hq; subst hq; exact hl0
        · intro hq; rw [RunCtx.link_unique_successor h hl0 hq]
      · intro q
        constructor
        · intro hq; simp only [Option.some.injEq] at hq; subst hq; exact hl1
        · intro hq; rw [RunCtx.link_unique_successor h hl1 hq]
      · rw [hd0, hd1]
        simp only [forward_edge_state, hid0, hid1, hsp0, hsp1, if_true, pair_get]
        rw [forward_edge_state_stop _ _ _ _ _ _ (hstop rest1 hs1)]
        simp [deliver_edge_opt, deliver_edge]
    · refine ⟨some q0, none, rest0, ?_, ?_, hs1, ?_⟩
      · intro q
        constructor
        · intro hq; simp only [Option.some.injEq] at hq; subst hq; exact hl0
        · intro hq; rw [RunCtx.link_unique_successor h hl0 hq]
      · intro q
        constructor
        · intro hq; simp at hq
        · intro hq; exact absurd hq (hno1 q)
      · rw [hd0]
        simp only [forward_edge_state, hid0, hsp0, if_true, pair_get]
        rw [forward_edge_state_stop _ _ _ _ _ _ (hstop rest0 hs1)]
        simp [deliver_edge_opt, deliver_edge]
  · rcases hs0.step with ⟨q1, rest1, hd1, hl1, hs1⟩ | ⟨hno1, hs1⟩
    · refine ⟨none, some q1, rest1, ?_, ?_, hs1, ?_⟩
      · intro q
        constructor
        · intro hq; simp at hq
        · intro hq; exact absurd hq (hno0 q)
      · intro q
        constructor
        · intro hq; simp only [Option.some.injEq] at hq; subst hq; exact hl1
        · intro hq; rw [RunCtx.link_unique_successor h hl1 hq]
      · rw [hd1]
        simp only [forward_edge_state, hid1, hsp1, if_true, pair_get]
        rw [forward_edge_state_stop _ _ _ _ _ _ (hstop rest1 hs1)]
        simp [deliver_edge_opt, deliver_edge]
    · refine ⟨none, none, st.edge_dependencies, ?_, ?_, hs1, ?_⟩
      · intro q
        constructor
        · intro hq; simp at hq
        · intro hq; exact absurd hq (hno0 q)
      · intro q
        constructor
        · intro hq; simp at hq
        · intro hq; exact absurd hq (hno1 q)
      · rw [forward_edge_state_stop _ _ _ _ _ _ (hstop _ hs1)]
        rfl

/-! ## Frames of the existence forwarding -/

theorem push_existence_info_frame (limit t : Nat) (e : edge_t) (b : Bool) (st : PerformState) :
    (push_existence_info limit t e b st).source_edges = st.source_edges ∧
      (push_existence_info limit t e b st)._edge_state = st._edge_state ∧
      (push_existence_info limit t e b st).edge_dependencies = st.edge_dependencies ∧
      (push_existence_info limit t e b st)._swap_direction = st._swap_direction ∧
      (push_existence_info limit t e b st).edge_updates = st.edge_updates ∧
      (push_existence_info limit t e b st).debug = st.debug ∧
      (push_existence_info limit t e b st).forwarded = st.forwarded ∧
      (push_existence_info limit t e b st).existence_placeholder = st.existence_placeholder := by
  unfold push_existence_info
  simp only
  split <;> exact ⟨rfl, rfl, rfl, rfl, rfl, rfl, rfl, rfl⟩

theorem forward_existence_frame (limit sid : Nat) (ce ne : edge_t × edge_t) :
    ∀ (succs : List ExistenceSuccessorMsg) (st : PerformState),
      (forward_existence limit sid ce ne succs st).source_edges = st.source_edges ∧
        (forward_existence limit sid ce ne succs st)._edge_state = st._edge_state ∧
        (forward_existence limit sid ce ne succs st).edge_dependencies = st.edge_dependencies ∧
        (forward_existence limit sid ce ne succs st)._swap_direction = st._swap_direction ∧
        (forward_existence limit sid ce ne succs st).edge_updates = st.edge_updates ∧
        (forward_existence limit sid ce ne succs st).debug = st.debug ∧
        (forward_existence limit sid ce ne succs st).forwarded = st.forwarded ∧
        (forward_existence limit sid ce ne succs st).existence_placeholder =
          st.existence_placeholder := by
  intro succs
  induction succs with
  | nil => intro st; exact ⟨rfl, rfl, rfl, rfl, rfl, rfl, rfl, rfl⟩
  | cons m rest ih =>
    intro st
    simp only [forward_existence]
    split
    · exact ⟨rfl, rfl, rfl, rfl, rfl, rfl, rfl, rfl⟩
    · obtain ⟨h1, h2, h3, h4, h5, h6, h7, h8⟩ := ih
        (if m.edge = ne.1 ∨ m.edge = ne.2 then
          push_existence_info limit m.successor m.edge true st
        else if m.edge = ce.1 ∨ m.edge = ce.2 then
          push_existence_info limit m.successor m.edge false st
        else push_existence_info limit m.successor m.edge
          (st.existence_information.exists sid m.edge) st)
      rw [h1, h2, h3, h4, h5, h6, h7, h8]
      split
      · exact push_existence_info_frame ..
      · split <;> exact push_existence_info_frame ..

/-! ## Deliveries -/

theorem deliver_edge_opt_frame (limit : Nat) (o : Option Nat) (e : edge_t) (st : PerformState) :
    (deliver_edge_opt limit o e st).edge_dependencies = st.edge_dependencies ∧
      (deliver_edge_opt limit o e st)._swap_direction = st._swap_direction ∧
      (deliver_edge_opt limit o e st).edge_updates = st.edge_updates ∧
      (deliver_edge_opt limit o e st).debug = st.debug ∧
      (deliver_edge_opt limit o e st).existence_successor = st.existence_successor ∧
      (deliver_edge_opt limit o e st).existence_information = st.existence_information ∧
      (deliver_edge_opt limit o e st)._existence_info = st._existence_info ∧
      (deliver_edge_opt limit o e st).existence_placeholder = st.existence_placeholder ∧
      (deliver_edge_opt limit o e st).answered = st.answered := by
  cases o with
  | none => exact ⟨rfl, rfl, rfl, rfl, rfl, rfl, rfl, rfl, rfl⟩
  | some q =>
    simp only [deliver_edge_opt, deliver_edge]
    split <;> exact ⟨rfl, rfl, rfl, rfl, rfl, rfl, rfl, rfl, rfl⟩

theorem deliver_edge_opt_slots (limit : Nat) (o : Option Nat) (e : edge_t) (st : PerformState)
    (k : Nat × Nat) :
    (deliver_edge_opt limit o e st).source_edges k =
      if (∃ q, o = some q ∧ q / 2 < limit ∧ k = (q / 2, q % 2)) then e else st.source_edges k := by
  cases o with
  | none => simp [deliver_edge_opt]
  | some q =>
    simp only [deliver_edge_opt, deliver_edge, get_swap_id_eq, get_swap_spos_eq,
      Option.some.injEq, exists_eq_left']
    by_cases hq : q / 2 < limit
    · simp only [hq, if_true, slot_set, true_and]
    · simp only [hq, if_false, false_and]

theorem deliver_edge_opt_merger (limit : Nat) (o : Option Nat) (e : edge_t) (st : PerformState) :
    (deliver_edge_opt limit o e st)._edge_state.cursor = st._edge_state.cursor ∧
      (deliver_edge_opt limit o e st)._edge_state.limit = st._edge_state.limit ∧
      (st._edge_state.pq.Sorted DependencyChainEdgeMsg.le →
        (deliver_edge_opt limit o e st)._edge_state.pq.Sorted DependencyChainEdgeMsg.le) ∧
      (deliver_edge_opt limit o e st)._edge_state.content.Perm
        ((match o with
          | none => []
          | some q => if q / 2 < limit then [] else [(⟨q, e⟩ : DependencyChainEdgeMsg)]) ++
          st._edge_state.content) := by
  cases o with
  | none => simp [deliver_edge_opt]
  | some q =>
    simp only [deliver_edge_opt, deliver_edge, get_swap_id_eq]
    by_cases hq : q / 2 < limit
    · simp [hq]
    · simp only [hq, if_false]
      refine ⟨rfl, rfl, fun hp => PQSorterMerger.push_pq_sorted _ _ _ hp, ?_⟩
      exact PQSorterMerger.push_pq_perm _ _ _

/-! ## The ghost edge list -/

theorem ghost_length (c : RunCtx) (st : PerformState) : (ghost c st).length = c.edges.length :=
  positional_run_length _ _ _

theorem ghost_congr (c : RunCtx) (st st2 : PerformState) (h : st2.debug = st.debug) :
    ghost c st2 = ghost c st := by
  unfold ghost; rw [h]

theorem positional_swap_getD (A : List edge_t) (s : SwapDescriptor) (f : Bool)
    (ha : s.eid_a < A.length) (hb : s.eid_b < A.length) (hab : s.eid_a ≠ s.eid_b) :
    let cur := (A.getD s.eid_a edge_t.invalid, A.getD s.eid_b edge_t.invalid)
    let out := if f then _swap_edges cur.1 cur.2 s.direction else cur
    (positional_swap A s f).getD s.eid_a edge_t.invalid = out.1 ∧
      (positional_swap A s f).getD s.eid_b edge_t.invalid = out.2 ∧
      ∀ x, x ≠ s.eid_a → x ≠ s.eid_b →
        (positional_swap A s f).getD x edge_t.invalid = A.getD x edge_t.invalid := by
  intro cur out
  unfold positional_swap
  simp only [List.getD_eq_getElem?_getD]
  refine ⟨?_, ?_, ?_⟩
  · rw [List.getElem?_set_ne (Ne.symm hab), List.getElem?_set_self ha]
    simp only [Option.getD_some, out, cur, List.getD_eq_getElem?_getD]
  · rw [List.getElem?_set_self (by simpa using hb)]
    simp only [Option.getD_some, out, cur, List.getD_eq_getElem?_getD]
  · intro x hxa hxb
    rw [List.getElem?_set_ne (Ne.symm hxb), List.getElem?_set_ne (Ne.symm hxa)]

/-! ## The invariant of the edge dataflow of `_perform_swaps` -/

theorem depchain_le_sid {a b : DependencyChainEdgeMsg} (h : DependencyChainEdgeMsg.le a b) :
    a.sid ≤ b.sid := by
  unfold DependencyChainEdgeMsg.le at h
  omega

theorem depchain_le_refl (a : DependencyChainEdgeMsg) : DependencyChainEdgeMsg.le a a :=
  (total_of DependencyChainEdgeMsg.le a a).elim id id

/-- The records below the key of the window limit are in the window. -/
theorem depchain_in_window (m : PQSorterMerger DependencyChainEdgeMsg) (k : Nat) (e : edge_t)
    (hl : m.limit = some ⟨k, e⟩) (x : DependencyChainEdgeMsg) (hx : x.sid < k) :
    m.in_window DependencyChainEdgeMsg.le x = true := by
  unfold PQSorterMerger.in_window
  rw [hl]
  simp only [decide_eq_true_eq]
  intro h
  have := depchain_le_sid h
  simp only at this
  omega

theorem hydrate_source_inv {c : RunCtx} (h : c.WF) {f sid : Nat} {st : PerformState}
    (hinv : PerfInv c f sid st) (hf : f < 2 * c.swaps.length) (hsf : 2 * sid ≤ f)
    (k : Nat) (e : edge_t) (hl : st._edge_state.limit = some ⟨k, e⟩) (hk : f < k) :
    PerfInv c (f + 1) sid (hydrate_source (f / 2) (f % 2) st) ∧
      (hydrate_source (f / 2) (f % 2) st)._edge_state.limit = some ⟨k, e⟩ ∧
      (hydrate_source (f / 2) (f % 2) st)._existence_info = st._existence_info ∧
      (hydrate_source (f / 2) (f % 2) st).existence_information = st.existence_information ∧
      (hydrate_source (f / 2) (f % 2) st).existence_successor = st.existence_successor ∧
      (hydrate_source (f / 2) (f % 2) st).existence_placeholder = st.existence_placeholder ∧
      (hydrate_source (f / 2) (f % 2) st).answered = st.answered ∧
      (hydrate_source (f / 2) (f % 2) st).forwarded = st.forwarded := by
  have hn := h.n_lt
  have hpack : pack_swap_id_spos (f / 2) (f % 2) = f := by
    rw [pack_eq (by omega) (by omega)]; omega
  -- the case in which nothing is read
  have hskip : ¬ c.has_value sid f → PerfInv c (f + 1) sid st := by
    intro hnv
    refine { hinv with slot_hv := ?_, slot_inv := ?_, m_sound := ?_, m_complete := ?_ }
    · intro i s hs h1 h2 hv
      by_cases he : 2 * i + s = f
      · rw [he] at hv; exact absurd hv hnv
      · exact hinv.slot_hv i s hs h1 (by omega) hv
    · intro i s hcond
      apply hinv.slot_inv
      rintro ⟨h1, h2, h3, h4⟩
      exact hcond ⟨h1, h2, by omega, h4⟩
    · intro x hx
      obtain ⟨h1, h2, h3, h4⟩ := hinv.m_sound x hx
      refine ⟨?_, h2, h3, h4⟩
      by_contra hcon
      have : x.sid = f := by omega
      rw [this] at h3
      exact hnv h3
    · intro q hq1 hq2 hv
      exact hinv.m_complete q (by omega) hq2 hv
  unfold hydrate_source
  rw [hpack]
  cases hpeek : st._edge_state.peek DependencyChainEdgeMsg.le with
  | none =>
    dsimp only
    refine ⟨hskip ?_, hl, rfl, rfl, rfl, rfl, rfl, rfl⟩
    intro hv
    obtain ⟨x, hx, hxs⟩ := hinv.m_complete f (Nat.le_refl _) hf hv
    obtain ⟨y, hy⟩ := PQSorterMerger.peek_isSome DependencyChainEdgeMsg.le st._edge_state
      hinv.cur_sorted hinv.pq_sorted x hx (fun z _ hz =>
        depchain_in_window _ k e hl z (by have := depchain_le_sid hz; omega))
    rw [hpeek] at hy
    simp at hy
  | some x =>
    dsimp only
    obtain ⟨hxm, -⟩ := PQSorterMerger.peek_mem _ _ _ hpeek
    obtain ⟨hx1, hx2, hx3, hx4⟩ := hinv.m_sound x hxm
    by_cases hxs : x.sid = f
    · rw [if_pos hxs]
      have hperm := PQSorterMerger.advance_perm _ _ _ hpeek
      have hsorted := PQSorterMerger.advance_sorted _ _ _ hpeek hinv.cur_sorted hinv.pq_sorted
      have hlim := PQSorterMerger.advance_limit DependencyChainEdgeMsg.le st._edge_state
      have hnd : ((x :: (st._edge_state.advance DependencyChainEdgeMsg.le).content).map
          DependencyChainEdgeMsg.sid).Nodup := (hperm.map _).nodup_iff.mpr hinv.keys_nodup
      rw [List.map_cons, List.nodup_cons] at hnd
      refine ⟨?_, by simp only; rw [hlim.1]; exact hl, rfl, rfl, rfl, rfl, rfl, rfl⟩
      have hg : ∀ q, ghost_at c { st with
          source_edges := slot_set st.source_edges (f / 2, f % 2) x.edge
          _edge_state := st._edge_state.advance DependencyChainEdgeMsg.le } q = ghost_at c st q :=
        fun q => rfl
      constructor
      · exact hinv.deps
      · exact hinv.dirs
      · exact hinv.debug_len
      · intro i s hs h1 h2 hv
        rw [hg]
        by_cases he : 2 * i + s = f
        · have hk : (i, s) = (f / 2, f % 2) := by
            simp only [Prod.mk.injEq]; omega
          simp only [slot_set, hk, if_true]
          rw [hx4, hxs, he]
        · have hk : (i, s) ≠ (f / 2, f % 2) := by
            simp only [ne_eq, Prod.mk.injEq]; omega
          simp only [slot_set, hk, if_false]
          exact hinv.slot_hv i s hs h1 (by omega) hv
      · intro i s hcond
        have hk : (i, s) ≠ (f / 2, f % 2) := by
          intro hk
          simp only [Prod.mk.injEq] at hk
          apply hcond
          have he : 2 * i + s = f := by omega
          refine ⟨by omega, by omega, by omega, ?_⟩
          rw [he, ← hxs]
          exact hx3
        simp only [slot_set, hk, if_false]
        apply hinv.slot_inv
        rintro ⟨h1, h2, h3, h4⟩
        exact hcond ⟨h1, h2, by omega, h4⟩
      · exact hsorted.1
      · exact hsorted.2
      · exact hnd.2
      · intro y hy
        obtain ⟨h1, h2, h3, h4⟩ := hinv.m_sound y (hperm.subset (List.mem_cons_of_mem _ hy))
        refine ⟨?_, h2, h3, by rw [hg]; exact h4⟩
        have : y.sid ≠ x.sid := fun he => hnd.1 (by rw [← he]; exact List.mem_map_of_mem _ hy)
        omega
      · intro q hq1 hq2 hv
        obtain ⟨y, hy, hys⟩ := hinv.m_complete q (by omega) hq2 hv
        have := hperm.symm.subset hy
        rcases List.mem_cons.mp this with rfl | hy2
        · omega
        · exact ⟨y, hy2, hys⟩
      · exact hinv.updates
    · rw [if_neg hxs]
      refine ⟨hskip ?_, hl, rfl, rfl, rfl, rfl, rfl, rfl⟩
      intro hv
      obtain ⟨y, hy, hys⟩ := hinv.m_complete f (Nat.le_refl _) hf hv
      have := depchain_le_sid (PQSorterMerger.peek_le DependencyChainEdgeMsg.le st._edge_state
        hinv.cur_sorted hinv.pq_sorted depchain_le_refl x hpeek y hy)
      omega

theorem forward_edge_state_frame (limit sid : Nat) (ne : edge_t × edge_t) :
    ∀ (deps : List DependencyChainSuccessorMsg) (st : PerformState) (f : Bool × Bool),
      (forward_edge_state limit sid ne deps st f).1.existence_successor = st.existence_successor ∧
      (forward_edge_state limit sid ne deps st f).1.existence_information =
        st.existence_information ∧
      (forward_edge_state limit sid ne deps st f).1._existence_info = st._existence_info ∧
      (forward_edge_state limit sid ne deps st f).1.existence_placeholder =
        st.existence_placeholder ∧
      (forward_edge_state limit sid ne deps st f).1.answered = st.answered ∧
      (forward_edge_state limit sid ne deps st f).1._swap_direction = st._swap_direction ∧
      (forward_edge_state limit sid ne deps st f).1.debug = st.debug ∧
      (forward_edge_state limit sid ne deps st f).1.edge_updates = st.edge_updates := by
  intro deps
  induction deps with
  | nil => intro st f; exact ⟨rfl, rfl, rfl, rfl, rfl, rfl, rfl, rfl⟩
  | cons msg rest ih =>
    intro st f
    simp only [forward_edge_state]
    split
    · obtain ⟨h1, h2, h3, h4, h5, h6, h7, h8⟩ := ih
        { (if get_swap_id msg.successor < limit then
            { st with
              source_edges := slot_set st.source_edges
                (get_swap_id msg.successor, get_swap_spos msg.successor)
                (pair_get ne (get_swap_spos msg.sid)) }
          else
            { st with
              _edge_state := st._edge_state.push_pq DependencyChainEdgeMsg.le
                ⟨msg.successor, pair_get ne (get_swap_spos msg.sid)⟩ }) with
          forwarded := (if get_swap_id msg.successor < limit then
            { st with
              source_edges := slot_set st.source_edges
                (get_swap_id msg.successor, get_swap_spos msg.successor)
                (pair_get ne (get_swap_spos msg.sid)) }
          else
            { st with
              _edge_state := st._edge_state.push_pq DependencyChainEdgeMsg.le
                ⟨msg.successor, pair_get ne (get_swap_spos msg.sid)⟩ }).forwarded ++
            [⟨msg.successor, pair_get ne (get_swap_spos msg.sid)⟩] }
        (if get_swap_spos msg.sid = 0 then (true, f.2) else (f.1, true))
      rw [h1, h2, h3, h4, h5, h6, h7, h8]
      split <;> exact ⟨rfl, rfl, rfl, rfl, rfl, rfl, rfl, rfl⟩
    · exact ⟨rfl, rfl, rfl, rfl, rfl, rfl, rfl, rfl⟩

theorem fx_source_edges (limit sid : Nat) (ce ne : edge_t × edge_t)
    (succs : List ExistenceSuccessorMsg) (st : PerformState) :
    (forward_existence limit sid ce ne succs st).source_edges = st.source_edges :=
  (forward_existence_frame limit sid ce ne succs st).1

theorem fx_edge_state (limit sid : Nat) (ce ne : edge_t × edge_t)
    (succs : List ExistenceSuccessorMsg) (st : PerformState) :
    (forward_existence limit sid ce ne succs st)._edge_state = st._edge_state :=
  (forward_existence_frame limit sid ce ne succs st).2.1

theorem fx_edge_dependencies (limit sid : Nat) (ce ne : edge_t × edge_t)
    (succs : List ExistenceSuccessorMsg) (st : PerformState) :
    (forward_existence limit sid ce ne succs st).edge_dependencies = st.edge_dependencies :=
  (forward_existence_frame limit sid ce ne succs st).2.2.1

theorem fx_swap_direction (limit sid : Nat) (ce ne : edge_t × edge_t)
    (succs : List ExistenceSuccessorMsg) (st : PerformState) :
    (forward_existence limit sid ce ne succs st)._swap_direction = st._swap_direction :=
  (forward_existence_frame limit sid ce ne succs st).2.2.2.1

theorem fx_edge_updates (limit sid : Nat) (ce ne : edge_t × edge_t)
    (succs : List ExistenceSuccessorMsg) (st : PerformState) :
    (forward_existence limit sid ce ne succs st).edge_updates = st.edge_updates :=
  (forward_existence_frame limit sid ce ne succs st).2.2.2.2.1

theorem fx_debug (limit sid : Nat) (ce ne : edge_t × edge_t)
    (succs : List ExistenceSuccessorMsg) (st : PerformState) :
    (forward_existence limit sid ce ne succs st).debug = st.debug :=
  (forward_existence_frame limit sid ce ne succs st).2.2.2.2.2.1

theorem fx_forwarded (limit sid : Nat) (ce ne : edge_t × edge_t)
    (succs : List ExistenceSuccessorMsg) (st : PerformState) :
    (forward_existence limit sid ce ne succs st).forwarded = st.forwarded :=
  (forward_existence_frame limit sid ce ne succs st).2.2.2.2.2.2.1

theorem fx_existence_placeholder (limit sid : Nat) (ce ne : edge_t × edge_t)
    (succs : List ExistenceSuccessorMsg) (st : PerformState) :
    (forward_existence limit sid ce ne succs st).existence_placeholder =
      st.existence_placeholder :=
  (forward_existence_frame limit sid ce ne succs st).2.2.2.2.2.2.2

theorem dl_edge_dependencies (limit : Nat) (o : Option Nat) (e : edge_t) (st : PerformState) :
    (deliver_edge_opt limit o e st).edge_dependencies = st.edge_dependencies :=
  (deliver_edge_opt_frame limit o e st).1

theorem dl_swap_direction (limit : Nat) (o : Option Nat) (e : edge_t) (st : PerformState) :
    (deliver_edge_opt limit o e st)._swap_direction = st._swap_direction :=
  (deliver_edge_opt_frame limit o e st).2.1

theorem dl_edge_updates (limit : Nat) (o : Option Nat) (e : edge_t) (st : PerformState) :
    (deliver_edge_opt limit o e st).edge_updates = st.edge_updates :=
  (deliver_edge_opt_frame limit o e st).2.2.1

theorem dl_debug (limit : Nat) (o : Option Nat) (e : edge_t) (st : PerformState) :
    (deliver_edge_opt limit o e st).debug = st.debug :=
  (deliver_edge_opt_frame limit o e st).2.2.2.1

theorem dl_existence_successor (limit : Nat) (o : Option Nat) (e : edge_t) (st : PerformState) :
    (deliver_edge_opt limit o e st).existence_successor = st.existence_successor :=
  (deliver_edge_opt_frame limit o e st).2.2.2.2.1

theorem dl_existence_information (limit : Nat) (o : Option Nat) (e : edge_t)
    (st : PerformState) :
    (deliver_edge_opt limit o e st).existence_information = st.existence_information :=
  (deliver_edge_opt_frame limit o e st).2.2.2.2.2.1

theorem dl_existence_info (limit : Nat) (o : Option Nat) (e : edge_t) (st : PerformState) :
    (deliver_edge_opt limit o e st)._existence_info = st._existence_info :=
  (deliver_edge_opt_frame limit o e st).2.2.2.2.2.2.1

theorem dl_existence_placeholder (limit : Nat) (o : Option Nat) (e : edge_t)
    (st : PerformState) :
    (deliver_edge_opt limit o e st).existence_placeholder = st.existence_placeholder :=
  (deliver_edge_opt_frame limit o e st).2.2.2.2.2.2.2.1

theorem dl_answered (limit : Nat) (o : Option Nat) (e : edge_t) (st : PerformState) :
    (deliver_edge_opt limit o e st).answered = st.answered :=
  (deliver_edge_opt_frame limit o e st).2.2.2.2.2.2.2.2

theorem dl_source_edges (limit : Nat) (o : Option Nat) (e : edge_t) (st : PerformState) :
    (deliver_edge_opt limit o e st).source_edges = deliver_slots limit o e st.source_edges := by
  cases o with
  | none => rfl
  | some q =>
    simp only [deliver_edge_opt, deliver_edge, deliver_slots]
    split <;> rfl

theorem dl_edge_state (limit : Nat) (o : Option Nat) (e : edge_t) (st : PerformState) :
    (deliver_edge_opt limit o e st)._edge_state = deliver_merger limit o e st._edge_state := by
  cases o with
  | none => rfl
  | some q =>
    simp only [deliver_edge_opt, deliver_edge, deliver_merger]
    split <;> rfl

theorem deliver_slots_apply (limit : Nat) (o : Option Nat) (e : edge_t)
    (slots : Nat × Nat → edge_t) (k : Nat × Nat) :
    deliver_slots limit o e slots k =
      if (∃ q, o = some q ∧ q / 2 < limit ∧ k = (q / 2, q % 2)) then e else slots k := by
  cases o with
  | none => simp [deliver_slots]
  | some q =>
    simp only [deliver_slots, get_swap_id_eq, get_swap_spos_eq, Option.some.injEq,
      exists_eq_left']
    by_cases hq : q / 2 < limit
    · simp only [hq, if_true, slot_set, true_and]
    · simp only [hq, if_false, false_and]

theorem deliver_merger_spec (limit : Nat) (o : Option Nat) (e : edge_t)
    (m : PQSorterMerger DependencyChainEdgeMsg) :
    (deliver_merger limit o e m).cursor = m.cursor ∧
      (deliver_merger limit o e m).limit = m.limit ∧
      (deliver_merger limit o e m).sorter = m.sorter ∧
      (m.pq.Sorted DependencyChainEdgeMsg.le →
        (deliver_merger limit o e m).pq.Sorted DependencyChainEdgeMsg.le) ∧
      (deliver_merger limit o e m).content.Perm
        ((match o with
          | none => []
          | some q => if q / 2 < limit then [] else [(⟨q, e⟩ : DependencyChainEdgeMsg)]) ++
          m.content) := by
  cases o with
  | none => simp [deliver_merger]
  | some q =>
    simp only [deliver_merger, get_swap_id_eq]
    by_cases hq : q / 2 < limit
    · simp [hq]
    · simp only [hq, if_false]
      refine ⟨rfl, rfl, rfl, fun hp => PQSorterMerger.push_pq_sorted _ _ _ hp, ?_⟩
      exact PQSorterMerger.push_pq_perm _ _ _

/-- The state a swap leaves, field by field, for the edge dataflow. -/
theorem perform_swap_fields {c : RunCtx} (h : c.WF) (limit sid : Nat) (st st2 : PerformState)
    (hs : LinkStream c (2 * sid) st.edge_dependencies)
    (hps : perform_swap limit sid st = some st2) :
    ∃ (direction : Bool) (directions : BoolStream) (o0 o1 : Option Nat),
      st._swap_direction = direction :: directions ∧
      (∀ q, o0 = some q ↔ (⟨2 * sid, q⟩ : DependencyChainSuccessorMsg) ∈ c.links) ∧
      (∀ q, o1 = some q ↔ (⟨2 * sid + 1, q⟩ : DependencyChainSuccessorMsg) ∈ c.links) ∧
      source_ready (st.source_edges (sid, 0)) = true ∧
      source_ready (st.source_edges (sid, 1)) = true ∧
      st.existence_information.wait_for_missing sid = true ∧
      LinkStream c (2 * sid + 2) st2.edge_dependencies ∧
      st2._swap_direction = directions ∧
      st2.debug = st.debug ++ [(swap_decision st.existence_information sid
        (st.source_edges (sid, 0), st.source_edges (sid, 1)) direction).normalize] ∧
      st2.source_edges =
        slot_set (slot_set (deliver_slots limit o1
          (swap_outcome (swap_decision st.existence_information sid
            (st.source_edges (sid, 0), st.source_edges (sid, 1)) direction)
            (st.source_edges (sid, 0), st.source_edges (sid, 1))).2
          (deliver_slots limit o0
            (swap_outcome (swap_decision st.existence_information sid
              (st.source_edges (sid, 0), st.source_edges (sid, 1)) direction)
              (st.source_edges (sid, 0), st.source_edges (sid, 1))).1 st.source_edges))
          (sid, 0) edge_t.invalid) (sid, 1) edge_t.invalid ∧
      st2._edge_state = deliver_merger limit o1
          (swap_outcome (swap_decision st.existence_information sid
            (st.source_edges (sid, 0), st.source_edges (sid, 1)) direction)
            (st.source_edges (sid, 0), st.source_edges (sid, 1))).2
          (deliver_merger limit o0
            (swap_outcome (swap_decision st.existence_information sid
              (st.source_edges (sid, 0), st.source_edges (sid, 1)) direction)
              (st.source_edges (sid, 0), st.source_edges (sid, 1))).1 st._edge_state) ∧
      st2.edge_updates = st.edge_updates ++
        (if o0.isSome then [] else [(swap_outcome (swap_decision st.existence_information sid
            (st.source_edges (sid, 0), st.source_edges (sid, 1)) direction)
            (st.source_edges (sid, 0), st.source_edges (sid, 1))).1]) ++
        (if o1.isSome then [] else [(swap_outcome (swap_decision st.existence_information sid
            (st.source_edges (sid, 0), st.source_edges (sid, 1)) direction)
            (st.source_edges (sid, 0), st.source_edges (sid, 1))).2]) := by
  unfold perform_swap at hps
  cases hd : st._swap_direction with
  | nil => rw [hd] at hps; simp at hps
  | cons direction directions =>
    rw [hd] at hps
    simp only at hps
    by_cases hr : (source_ready (st.source_edges (sid, 0)) &&
        source_ready (st.source_edges (sid, 1))) = true
    · by_cases hw : st.existence_information.wait_for_missing sid = true
      · simp only [hr, hw, Bool.not_true, Bool.false_eq_true, if_false,
          Option.some.injEq] at hps
        simp only [Bool.and_eq_true] at hr
        obtain ⟨o0, o1, rest, ho0, ho1, hrest, hfes⟩ := forward_edge_state_spec h limit sid
          (swap_outcome (swap_decision st.existence_information sid
            (st.source_edges (sid, 0), st.source_edges (sid, 1)) direction)
            (st.source_edges (sid, 0), st.source_edges (sid, 1)))
          { st with
            _swap_direction := directions
            debug := st.debug ++ [(swap_decision st.existence_information sid
              (st.source_edges (sid, 0), st.source_edges (sid, 1)) direction).normalize] } hs
        refine ⟨direction, directions, o0, o1, rfl, ho0, ho1, hr.1, hr.2, hw, ?_⟩
        simp only at hfes
        rw [hfes] at hps
        subst hps
        simp only [fx_source_edges, fx_edge_state, fx_edge_dependencies, fx_swap_direction,
          fx_edge_updates, fx_debug, dl_swap_direction, dl_debug, dl_edge_updates,
          dl_source_edges, dl_edge_state]
        refine ⟨hrest, trivial, trivial, trivial, trivial, ?_⟩
        cases o0 <;> cases o1 <;> simp
      · simp [hr, hw] at hps
    · simp [hr] at hps

theorem normalize_fields (r : SwapResult) :
    r.normalize.performed = r.performed ∧ r.normalize.loop = r.loop ∧
      r.normalize.conflictDetected = r.conflictDetected := by
  unfold SwapResult.normalize
  split <;> simp

theorem mem_links_sid_iff (c : RunCtx) (p : Nat) :
    p ∈ c.links.map DependencyChainSuccessorMsg.sid ↔
      ∃ q, (⟨p, q⟩ : DependencyChainSuccessorMsg) ∈ c.links := by
  rw [List.mem_map]
  constructor
  · rintro ⟨m, hm, rfl⟩; exact ⟨m.successor, hm⟩
  · rintro ⟨q, hq⟩; exact ⟨_, hq, rfl⟩

theorem link_eid {c : RunCtx} (h : c.WF) {p q : Nat}
    (hl : (⟨p, q⟩ : DependencyChainSuccessorMsg) ∈ c.links) :
    request_eid c.swaps q = request_eid c.swaps p :=
  ((h.facts.mem_links p q).mp hl).2.2.1.symm

theorem key_eq_iff (i s q : Nat) (hs : s < 2) : (i, s) = (q / 2, q % 2) ↔ q = 2 * i + s := by
  simp only [Prod.mk.injEq]
  omega

/-- The ghost edge list after a swap. -/
theorem ghost_step {c : RunCtx} (h : c.WF) {f sid : Nat} {st st2 : PerformState}
    (hinv : PerfInv c f sid st) (hf : 2 * sid + 2 ≤ f) (hsid : sid < c.swaps.length) (direction : Bool)
    (directions : BoolStream) (hd : st._swap_direction = direction :: directions)
    (hdebug : st2.debug = st.debug ++ [(swap_decision st.existence_information sid
      (st.source_edges (sid, 0), st.source_edges (sid, 1)) direction).normalize]) :
    let new := swap_outcome (swap_decision st.existence_information sid
      (st.source_edges (sid, 0), st.source_edges (sid, 1)) direction)
      (st.source_edges (sid, 0), st.source_edges (sid, 1))
    (∀ q, request_eid c.swaps q = request_eid c.swaps (2 * sid) → ghost_at c st2 q = new.1) ∧
    (∀ q, request_eid c.swaps q = request_eid c.swaps (2 * sid + 1) → ghost_at c st2 q = new.2) ∧
    (∀ q, request_eid c.swaps q ≠ request_eid c.swaps (2 * sid) →
      request_eid c.swaps q ≠ request_eid c.swaps (2 * sid + 1) →
      ghost_at c st2 q = ghost_at c st q) ∧
    directions = (c.swaps.drop (sid + 1)).map SwapDescriptor.direction := by
  intro new
  have hdrop : c.swaps.drop sid = c.swaps[sid] :: c.swaps.drop (sid + 1) :=
    List.drop_eq_getElem_cons hsid
  have hdirs := hinv.dirs
  rw [hd, hdrop, List.map_cons] at hdirs
  simp only [List.cons.injEq] at hdirs
  obtain ⟨hdir, hdirections⟩ := hdirs
  have ha := RunCtx.eid_even (c := c) sid hsid
  have hb := RunCtx.eid_odd (c := c) sid hsid
  have hrange := h.range c.swaps[sid] (List.getElem_mem _)
  have hdist := h.distinct c.swaps[sid] (List.getElem_mem _)
  have hv0 : c.has_value sid (2 * sid + 0) := by
    have := RunCtx.has_value_own h (2 * sid) (by omega)
    rw [show 2 * sid / 2 = sid by omega] at this
    exact this
  have hv1 : c.has_value sid (2 * sid + 1) := by
    have := RunCtx.has_value_own h (2 * sid + 1) (by omega)
    rw [show (2 * sid + 1) / 2 = sid by omega] at this
    exact this
  have hc0 := hinv.slot_hv sid 0 (by omega) (by omega) (by omega) hv0
  have hc1 := hinv.slot_hv sid 1 (by omega) (by omega) (by omega) hv1
  simp only [Nat.add_zero] at hc0
  have hg : ghost c st2 = positional_swap (ghost c st) c.swaps[sid]
      (swap_decision st.existence_information sid
        (st.source_edges (sid, 0), st.source_edges (sid, 1)) direction).performed := by
    unfold ghost
    rw [hdebug, List.length_append, List.length_singleton, hinv.debug_len, List.map_append,
      List.map_singleton, List.take_succ, List.getElem?_eq_getElem hsid, Option.toList_some,
      positional_run_snoc _ _ _ _ _ (by simp [hinv.debug_len, Nat.min_eq_left (Nat.le_of_lt hsid)]),
      (normalize_fields _).1]
  have hlen := ghost_length c st
  obtain ⟨g1, g2, g3⟩ := positional_swap_getD (ghost c st) c.swaps[sid]
    (swap_decision st.existence_information sid
      (st.source_edges (sid, 0), st.source_edges (sid, 1)) direction).performed
    (by rw [hlen]; exact hrange.1) (by rw [hlen]; exact hrange.2) hdist
  have hnew : new = (if (swap_decision st.existence_information sid
        (st.source_edges (sid, 0), st.source_edges (sid, 1)) direction).performed = true then
      _swap_edges ((ghost c st).getD c.swaps[sid].eid_a edge_t.invalid)
        ((ghost c st).getD c.swaps[sid].eid_b edge_t.invalid) c.swaps[sid].direction
      else ((ghost c st).getD c.swaps[sid].eid_a edge_t.invalid,
        (ghost c st).getD c.swaps[sid].eid_b edge_t.invalid)) := by
    have e0 : st.source_edges (sid, 0) = (ghost c st).getD c.swaps[sid].eid_a edge_t.invalid := by
      rw [hc0, ghost_at, ha]
    have e1 : st.source_edges (sid, 1) = (ghost c st).getD c.swaps[sid].eid_b edge_t.invalid := by
      rw [hc1, ghost_at, hb]
    show swap_outcome _ _ = _
    unfold swap_outcome
    cases hp : (swap_decision st.existence_information sid
        (st.source_edges (sid, 0), st.source_edges (sid, 1)) direction).performed
    · simp [e0, e1]
    · simp only [Bool.not_true, Bool.false_eq_true, if_false, if_true]
      simp only [swap_decision, e0, e1, hdir]
  refine ⟨?_, ?_, ?_, hdirections⟩
  · intro q hq
    rw [ghost_at, hq, ha, hg, g1, hnew]
  · intro q hq
    rw [ghost_at, hq, hb, hg, g2, hnew]
  · intro q hq0 hq1
    rw [ghost_at, hg, g3 _ (by rw [← ha]; exact hq0) (by rw [← hb]; exact hq1)]
    rfl

theorem mem_delivered (limit : Nat) (o : Option Nat) (e : edge_t) (x : DependencyChainEdgeMsg) :
    x ∈ (match o with
      | none => []
      | some q => if q / 2 < limit then [] else [(⟨q, e⟩ : DependencyChainEdgeMsg)]) ↔
      ∃ q, o = some q ∧ ¬ q / 2 < limit ∧ x = ⟨q, e⟩ := by
  cases o with
  | none => simp
  | some q =>
    by_cases hq : q / 2 < limit
    · simp [hq]
    · simp only [hq, if_false, List.mem_singleton, Option.some.injEq]
      constructor
      · intro hx
        exact ⟨q, rfl, hq, hx⟩
      · rintro ⟨q2, rfl, -, hx⟩
        exact hx

theorem perform_swap_inv {c : RunCtx} (h : c.WF) {limit sid : Nat} {st st2 : PerformState}
    (hinv : PerfInv c (2 * limit) sid st) (hsid : sid < limit) (hlim : limit ≤ c.swaps.length)
    (hps : perform_swap limit sid st = some st2) :
    PerfInv c (2 * limit) (sid + 1) st2 := by
  have hsn : sid < c.swaps.length := by omega
  obtain ⟨direction, directions, o0, o1, hd, ho0, ho1, -, -, -, hdeps, hdirs, hdebug, hslots,
    hmerger, hupd⟩ := perform_swap_fields h limit sid st st2 hinv.deps hps
  obtain ⟨hGa, hGb, hGo, hdirections⟩ :=
    ghost_step h hinv (by omega) hsn direction directions hd hdebug
  generalize swap_outcome (swap_decision st.existence_information sid
      (st.source_edges (sid, 0), st.source_edges (sid, 1)) direction)
      (st.source_edges (sid, 0), st.source_edges (sid, 1)) = new at *
  -- facts about the two links of the swap
  have hl0 : ∀ q, o0 = some q → 2 * sid + 2 ≤ q ∧ q < 2 * c.swaps.length ∧
      request_eid c.swaps q = request_eid c.swaps (2 * sid) ∧ ¬ c.has_value sid q := by
    intro q hq
    have hl := (ho0 q).mp hq
    have := RunCtx.link_later h hl
    refine ⟨by omega, this.2, link_eid h hl, ?_⟩
    exact RunCtx.not_has_value_of_link h (s := 0) (by omega) hl
  have hl1 : ∀ q, o1 = some q → 2 * sid + 2 ≤ q ∧ q < 2 * c.swaps.length ∧
      request_eid c.swaps q = request_eid c.swaps (2 * sid + 1) ∧ ¬ c.has_value sid q := by
    intro q hq
    have hl := (ho1 q).mp hq
    have := RunCtx.link_later h hl
    refine ⟨by omega, this.2, link_eid h hl, ?_⟩
    exact RunCtx.not_has_value_of_link h (s := 1) (by omega) hl
  have hne : ∀ q, o0 = some q → o1 = some q → False := by
    intro q h0 h1
    have := RunCtx.link_unique_predecessor h ((ho0 q).mp h0) ((ho1 q).mp h1)
    omega
  have hsucc : ∀ q, c.has_value (sid + 1) q ↔ c.has_value sid q ∨ o0 = some q ∨ o1 = some q := by
    intro q
    rw [RunCtx.has_value_succ, ho0, ho1]
  have hstable : ∀ q, c.has_value sid q → 2 * sid + 2 ≤ q → q < 2 * c.swaps.length →
      ghost_at c st2 q = ghost_at c st q := by
    intro q hv h1 h2
    apply hGo
    · exact RunCtx.has_value_stable h hv h1 h2 0 (by omega)
    · exact RunCtx.has_value_stable h hv h1 h2 1 (by omega)
  have hD : ∀ i s, s < 2 →
      deliver_slots limit o1 new.2 (deliver_slots limit o0 new.1 st.source_edges) (i, s) =
        if o1 = some (2 * i + s) ∧ i < limit then new.2
        else if o0 = some (2 * i + s) ∧ i < limit then new.1 else st.source_edges (i, s) := by
    intro i s hs
    rw [deliver_slots_apply, deliver_slots_apply]
    have e1 : (∃ q, o1 = some q ∧ q / 2 < limit ∧ (i, s) = (q / 2, q % 2)) ↔
        (o1 = some (2 * i + s) ∧ i < limit) := by
      constructor
      · rintro ⟨q, hq, hql, hk⟩
        have := (key_eq_iff i s q hs).mp hk
        subst this
        exact ⟨hq, by omega⟩
      · rintro ⟨hq, hl⟩
        exact ⟨_, hq, by omega, (key_eq_iff i s _ hs).mpr rfl⟩
    have e0 : (∃ q, o0 = some q ∧ q / 2 < limit ∧ (i, s) = (q / 2, q % 2)) ↔
        (o0 = some (2 * i + s) ∧ i < limit) := by
      constructor
      · rintro ⟨q, hq, hql, hk⟩
        have := (key_eq_iff i s q hs).mp hk
        subst this
        exact ⟨hq, by omega⟩
      · rintro ⟨hq, hl⟩
        exact ⟨_, hq, by omega, (key_eq_iff i s _ hs).mpr rfl⟩
    simp only [e1, e0]
  have hDbig : ∀ i s, ¬ s < 2 →
      deliver_slots limit o1 new.2 (deliver_slots limit o0 new.1 st.source_edges) (i, s) =
        st.source_edges (i, s) := by
    intro i s hs
    rw [deliver_slots_apply, deliver_slots_apply]
    have e1 : ¬ (∃ q, o1 = some q ∧ q / 2 < limit ∧ (i, s) = (q / 2, q % 2)) := by
      rintro ⟨q, -, -, hk⟩
      simp only [Prod.mk.injEq] at hk
      omega
    have e0 : ¬ (∃ q, o0 = some q ∧ q / 2 < limit ∧ (i, s) = (q / 2, q % 2)) := by
      rintro ⟨q, -, -, hk⟩
      simp only [Prod.mk.injEq] at hk
      omega
    rw [if_neg e1, if_neg e0]
  have hslot : ∀ i s, st2.source_edges (i, s) =
      if (i, s) = (sid, 1) then edge_t.invalid else if (i, s) = (sid, 0) then edge_t.invalid
      else deliver_slots limit o1 new.2 (deliver_slots limit o0 new.1 st.source_edges) (i, s) := by
    intro i s
    rw [hslots]
    rfl
  obtain ⟨m1c, -, -, m1s, m1p⟩ := deliver_merger_spec limit o0 new.1 st._edge_state
  obtain ⟨m2c, -, -, m2s, m2p⟩ := deliver_merger_spec limit o1 new.2
    (deliver_merger limit o0 new.1 st._edge_state)
  have hperm := m2p.trans (List.Perm.append_left _ m1p)
  rw [← hmerger] at hperm m2c m2s
  have hmem : ∀ x, x ∈ st2._edge_state.content ↔
      (∃ q, o1 = some q ∧ ¬ q / 2 < limit ∧ x = ⟨q, new.2⟩) ∨
      (∃ q, o0 = some q ∧ ¬ q / 2 < limit ∧ x = ⟨q, new.1⟩) ∨ x ∈ st._edge_state.content := by
    intro x
    rw [hperm.mem_iff, List.mem_append, List.mem_append]
    exact or_congr (mem_delivered limit o1 new.2 x) (or_congr_left (mem_delivered limit o0 new.1 x))
  refine
    { deps := hdeps
      dirs := by rw [hdirs, hdirections]
      debug_len := by rw [hdebug, List.length_append, hinv.debug_len]; rfl
      slot_hv := ?_
      slot_inv := ?_
      cur_sorted := by rw [m2c, m1c]; exact hinv.cur_sorted
      pq_sorted := m2s (m1s hinv.pq_sorted)
      keys_nodup := ?_
      m_sound := ?_
      m_complete := ?_
      updates := ?_ }
  · -- slot_hv
    intro i s hs h1 h2 hv
    have hi : sid + 1 ≤ i := by omega
    rw [hslot, if_neg (by simp only [Prod.mk.injEq]; omega),
      if_neg (by simp only [Prod.mk.injEq]; omega), hD i s hs]
    by_cases c1 : o1 = some (2 * i + s) ∧ i < limit
    · rw [if_pos c1]
      exact (hGb _ (hl1 _ c1.1).2.2.1).symm
    · rw [if_neg c1]
      by_cases c0 : o0 = some (2 * i + s) ∧ i < limit
      · rw [if_pos c0]
        exact (hGa _ (hl0 _ c0.1).2.2.1).symm
      · rw [if_neg c0]
        have hil : i < limit := by omega
        have hv0 : c.has_value sid (2 * i + s) := by
          rcases (hsucc _).mp hv with hv | hv | hv
          · exact hv
          · exact absurd ⟨hv, hil⟩ c0
          · exact absurd ⟨hv, hil⟩ c1
        rw [hinv.slot_hv i s hs (by omega) h2 hv0, hstable _ hv0 (by omega) (by omega)]
  · -- slot_inv
    intro i s hcond
    rw [hslot]
    by_cases k1 : (i, s) = (sid, 1)
    · rw [if_pos k1]
    rw [if_neg k1]
    by_cases k0 : (i, s) = (sid, 0)
    · rw [if_pos k0]
    rw [if_neg k0]
    simp only [Prod.mk.injEq] at k0 k1
    by_cases hs : s < 2
    · rw [hD i s hs]
      by_cases c1 : o1 = some (2 * i + s) ∧ i < limit
      · exfalso
        apply hcond
        have := hl1 _ c1.1
        exact ⟨hs, by omega, by omega, (hsucc _).mpr (Or.inr (Or.inr c1.1))⟩
      rw [if_neg c1]
      by_cases c0 : o0 = some (2 * i + s) ∧ i < limit
      · exfalso
        apply hcond
        have := hl0 _ c0.1
        exact ⟨hs, by omega, by omega, (hsucc _).mpr (Or.inr (Or.inl c0.1))⟩
      rw [if_neg c0]
      apply hinv.slot_inv
      rintro ⟨-, h1, h2, hv⟩
      apply hcond
      exact ⟨hs, by omega, h2, (hsucc _).mpr (Or.inl hv)⟩
    · rw [hDbig i s hs]
      apply hinv.slot_inv
      rintro ⟨hs2, -⟩
      exact hs hs2
  · -- keys_nodup
    rw [(hperm.map _).nodup_iff]
    have hold := hinv.keys_nodup
    have hnot : ∀ q, (o0 = some q ∨ o1 = some q) →
        q ∉ st._edge_state.content.map DependencyChainEdgeMsg.sid := by
      intro q hq hmemq
      obtain ⟨x, hx, rfl⟩ := List.mem_map.mp hmemq
      have hv := (hinv.m_sound x hx).2.2.1
      rcases hq with hq | hq
      · exact (hl0 _ hq).2.2.2 hv
      · exact (hl1 _ hq).2.2.2 hv
    cases o1 with
    | none =>
      cases o0 with
      | none => simpa using hold
      | some q0 =>
        by_cases hq0 : q0 / 2 < limit
        · simpa [hq0] using hold
        · simp only [hq0, if_false, List.nil_append, List.singleton_append, List.map_cons,
            List.nodup_cons]
          exact ⟨hnot q0 (Or.inl rfl), hold⟩
    | some q1 =>
      have hn1 := hnot q1 (Or.inr rfl)
      cases o0 with
      | none =>
        by_cases hq1 : q1 / 2 < limit
        · simpa [hq1] using hold
        · simp only [hq1, if_false, List.nil_append, List.singleton_append, List.map_cons,
            List.nodup_cons]
          exact ⟨hn1, hold⟩
      | some q0 =>
        have hn0 := hnot q0 (Or.inl rfl)
        have hq01 : q1 ≠ q0 := fun he => hne q0 rfl (by rw [he])
        by_cases hq1 : q1 / 2 < limit <;> by_cases hq0 : q0 / 2 < limit
        · simpa [hq1, hq0] using hold
        · simp only [hq1, hq0, if_true, if_false, List.nil_append, List.singleton_append,
            List.map_cons, List.nodup_cons]
          exact ⟨hn0, hold⟩
        · simp only [hq1, hq0, if_true, if_false, List.nil_append, List.singleton_append,
            List.map_cons, List.nodup_cons]
          exact ⟨hn1, hold⟩
        · simp only [hq1, hq0, if_false, List.singleton_append, List.map_cons,
            List.nodup_cons, List.mem_cons, not_or]
          exact ⟨⟨hq01, hn1⟩, hn0, hold⟩
  · -- m_sound
    intro x hx
    rcases (hmem x).mp hx with ⟨q, hq, hql, rfl⟩ | ⟨q, hq, hql, rfl⟩ | hx
    · have := hl1 _ hq
      exact ⟨by simp only; omega, this.2.1, (hsucc _).mpr (Or.inr (Or.inr hq)),
        (hGb _ this.2.2.1).symm⟩
    · have := hl0 _ hq
      exact ⟨by simp only; omega, this.2.1, (hsucc _).mpr (Or.inr (Or.inl hq)),
        (hGa _ this.2.2.1).symm⟩
    · obtain ⟨h1, h2, hv, he⟩ := hinv.m_sound x hx
      exact ⟨h1, h2, (hsucc _).mpr (Or.inl hv), by rw [he, hstable _ hv (by omega) h2]⟩
  · -- m_complete
    intro q h1 h2 hv
    rcases (hsucc _).mp hv with hv | hv | hv
    · obtain ⟨x, hx, hxq⟩ := hinv.m_complete q h1 h2 hv
      exact ⟨x, (hmem x).mpr (Or.inr (Or.inr hx)), hxq⟩
    · exact ⟨⟨q, new.1⟩, (hmem _).mpr (Or.inr (Or.inl ⟨q, hv, by omega, rfl⟩)), rfl⟩
    · exact ⟨⟨q, new.2⟩, (hmem _).mpr (Or.inl ⟨q, hv, by omega, rfl⟩), rfl⟩
  · -- updates
    have hr : List.range (2 * (sid + 1)) = List.range (2 * sid) ++ [2 * sid, 2 * sid + 1] := by
      rw [show 2 * (sid + 1) = 2 * sid + 1 + 1 by omega, List.range_succ, List.range_succ]
      simp
    rw [hupd, hr, List.filter_append, List.map_append, hinv.updates, List.append_assoc]
    congr 1
    · apply List.map_congr_left
      intro p hp
      rw [List.mem_filter, List.mem_range, decide_eq_true_eq, mem_links_sid_iff] at hp
      have hno : ∀ q, (⟨p, q⟩ : DependencyChainSuccessorMsg) ∉ c.links := fun q hq => hp.2 ⟨q, hq⟩
      have hlast := RunCtx.last_of_no_link h (by omega) hno
      symm
      apply hGo
      · exact (hlast _ (by omega) (by omega)).symm
      · exact (hlast _ (by omega) (by omega)).symm
    · have f0 : (2 * sid ∈ c.links.map DependencyChainSuccessorMsg.sid) ↔ o0.isSome = true := by
        rw [mem_links_sid_iff, Option.isSome_iff_exists]
        exact exists_congr fun q => (ho0 q).symm
      have f1 : (2 * sid + 1 ∈ c.links.map DependencyChainSuccessorMsg.sid) ↔
          o1.isSome = true := by
        rw [mem_links_sid_iff, Option.isSome_iff_exists]
        exact exists_congr fun q => (ho1 q).symm
      simp only [List.filter_cons, List.filter_nil, decide_eq_true_eq, f0, f1]
      cases h0 : o0.isSome <;> cases h1 : o1.isSome <;>
        simp [hGa _ rfl, hGb _ rfl]

/-! ## The loops of `_perform_swaps` -/

theorem PerfInv.of_fields {c : RunCtx} {f sid : Nat} {st st2 : PerformState}
    (hinv : PerfInv c f sid st)
    (h1 : st2.edge_dependencies = st.edge_dependencies)
    (h2 : st2._swap_direction = st._swap_direction) (h3 : st2.debug = st.debug)
    (h4 : st2.source_edges = st.source_edges)
    (h5 : st2._edge_state.cursor = st._edge_state.cursor)
    (h6 : st2._edge_state.pq = st._edge_state.pq)
    (h7 : st2.edge_updates = st.edge_updates) : PerfInv c f sid st2 := by
  have hg : ∀ q, ghost_at c st2 q = ghost_at c st q := by
    intro q; unfold ghost_at; rw [ghost_congr c st st2 h3]
  have hc : st2._edge_state.content = st._edge_state.content := by
    unfold PQSorterMerger.content; rw [h5, h6]
  constructor
  · rw [h1]; exact hinv.deps
  · rw [h2]; exact hinv.dirs
  · rw [h3]; exact hinv.debug_len
  · intro i s hs a b hv
    rw [h4, hg]; exact hinv.slot_hv i s hs a b hv
  · intro i s hcond
    rw [h4]; exact hinv.slot_inv i s hcond
  · rw [h5]; exact hinv.cur_sorted
  · rw [h6]; exact hinv.pq_sorted
  · rw [hc]; exact hinv.keys_nodup
  · intro x hx
    rw [hc] at hx
    rw [hg]; exact hinv.m_sound x hx
  · intro q a b hv
    rw [hc]; exact hinv.m_complete q a b hv
  · rw [h7, hinv.updates]
    exact List.map_congr_left fun q _ => (hg q).symm

theorem peek_none_of_content_nil {α : Type} (le : α → α → Prop) [DecidableRel le]
    (m : PQSorterMerger α) (h : m.content = []) : m.peek le = none := by
  unfold PQSorterMerger.content at h
  obtain ⟨h1, h2⟩ := List.append_eq_nil.mp h
  unfold PQSorterMerger.peek
  rw [h1, h2]

theorem hydrate_source_skip (id s : Nat) (st : PerformState) (h : st._edge_state.content = []) :
    hydrate_source id s st = st := by
  unfold hydrate_source
  rw [peek_none_of_content_nil _ _ h]

theorem perform_hydrate_inv {c : RunCtx} (h : c.WF) {limit sid : Nat}
    (hlim : limit ≤ c.swaps.length) (e : edge_t) :
    ∀ (n id : Nat) (st : PerformState), PerfInv c (2 * min id limit) sid st →
      sid ≤ min id limit → st._edge_state.limit = some ⟨2 * limit, e⟩ →
      (limit < id + n → limit = c.swaps.length) →
      PerfInv c (2 * min (id + n) limit) sid (perform_hydrate n id st) := by
  intro n
  induction n with
  | zero =>
    intro id st hinv _ _ _
    exact hinv
  | succ n ih =>
    intro id st hinv hsid hl hcover
    unfold perform_hydrate
    dsimp only
    generalize hydrate_existence id
      (st._existence_info.cursor.length + st._existence_info.pq.length)
      st._existence_info st.existence_information = hx
    obtain ⟨st1, hst1⟩ : ∃ st1 : PerformState,
        st1 = { st with _existence_info := hx.1, existence_information := hx.2 } := ⟨_, rfl⟩
    have hinv1 : PerfInv c (2 * min id limit) sid st1 := by
      rw [hst1]; exact hinv.of_fields rfl rfl rfl rfl rfl rfl rfl
    have hl1 : st1._edge_state.limit = some ⟨2 * limit, e⟩ := by
      rw [hst1]; exact hl
    rw [← hst1]
    have hn := h.n_lt
    by_cases hid : id < limit
    · have hm : min id limit = id := by omega
      rw [hm] at hinv1 hsid
      obtain ⟨ha, hla, -⟩ := hydrate_source_inv h hinv1 (by omega) (by omega) (2 * limit) e hl1
        (by omega)
      rw [show 2 * id / 2 = id by omega, show 2 * id % 2 = 0 by omega] at ha hla
      obtain ⟨hb, hlb, -⟩ := hydrate_source_inv h ha (by omega) (by omega) (2 * limit) e hla
        (by omega)
      rw [show (2 * id + 1) / 2 = id by omega, show (2 * id + 1) % 2 = 1 by omega] at hb hlb
      have := ih (id + 1) _ (by rw [show min (id + 1) limit = id + 1 by omega]; exact hb)
        (by omega) hlb (by omega)
      rw [show id + (n + 1) = id + 1 + n by omega]
      exact this
    · have hN : limit = c.swaps.length := hcover (by omega)
      have hm : min id limit = limit := by omega
      rw [hm] at hinv1 hsid
      have hnil : st1._edge_state.content = [] := by
        apply List.eq_nil_iff_forall_not_mem.mpr
        intro x hx
        have := hinv1.m_sound x hx
        omega
      rw [hydrate_source_skip id 0 st1 hnil, hydrate_source_skip id 1 st1 hnil]
      have := ih (id + 1) st1 (by rw [show min (id + 1) limit = limit by omega]; exact hinv1)
        (by omega) hl1 (by omega)
      rw [show id + (n + 1) = id + 1 + n by omega]
      exact this

theorem perform_workers_inv {c : RunCtx} (h : c.WF) {limit : Nat}
    (hlim : limit ≤ c.swaps.length) :
    ∀ (n sid : Nat) (st st2 : PerformState),
      PerfInv c (2 * limit) (min sid c.swaps.length) st →
      (∀ j, sid ≤ j → j < sid + n → j < c.swaps.length → j < limit) →
      perform_workers c.swaps.length limit n sid st = some st2 →
      PerfInv c (2 * limit) (min (sid + n) c.swaps.length) st2 := by
  intro n
  induction n with
  | zero =>
    intro sid st st2 hinv _ hw
    simp only [perform_workers, Option.some.injEq] at hw
    rw [← hw]
    exact hinv
  | succ n ih =>
    intro sid st st2 hinv hcover hw
    unfold perform_workers at hw
    rw [show sid + (n + 1) = sid + 1 + n by omega]
    by_cases hs : sid ≥ c.swaps.length
    · rw [if_pos hs] at hw
      apply ih (sid + 1) st st2 _ (fun j h1 h2 h3 => hcover j (by omega) (by omega) h3) hw
      rw [show min (sid + 1) c.swaps.length = min sid c.swaps.length by omega]
      exact hinv
    · rw [if_neg hs] at hw
      cases hp : perform_swap limit sid st with
      | none => rw [hp] at hw; simp at hw
      | some st1 =>
        rw [hp] at hw
        dsimp only at hw
        apply ih (sid + 1) st1 st2 _ (fun j h1 h2 h3 => hcover j (by omega) (by omega) h3) hw
        rw [show min sid c.swaps.length = sid by omega] at hinv
        rw [show min (sid + 1) c.swaps.length = sid + 1 by omega]
        exact perform_swap_inv h hinv (hcover sid (by omega) (by omega) (by omega)) hlim hp

theorem le_loop_limit (n t : Nat) : n ≤ loop_limit n t := by
  unfold loop_limit
  split <;> omega

theorem lt_of_lt_loop_limit {n t base : Nat} (ht : 0 < t) (hd : t ∣ base)
    (hb : base < loop_limit n t) : base < n := by
  unfold loop_limit at hb
  obtain ⟨k, rfl⟩ := hd
  have hdm := Nat.div_add_mod n t
  have hmod := Nat.mod_lt n ht
  by_contra hcon
  split at hb
  · next hr =>
    have hk : n / t < k := by
      by_contra hk
      have := Nat.mul_le_mul_left t (Nat.le_of_not_lt hk)
      omega
    have := Nat.mul_le_mul_left t (Nat.succ_le_of_lt hk)
    rw [Nat.mul_succ] at this
    omega
  · omega

theorem hydrate_count_ge (t base limit : Nat) (ht : 0 < t) :
    limit ≤ base + hydrate_count t base limit := by
  unfold hydrate_count
  have hdm := Nat.div_add_mod (limit - base + t - 1) t
  have hmod := Nat.mod_lt (limit - base + t - 1) ht
  rw [Nat.mul_comm] at hdm
  omega

theorem hydrate_count_full {t base b : Nat} (ht : 0 < t) :
    hydrate_count t base (base + b * t) = b * t := by
  unfold hydrate_count
  congr 1
  apply Nat.div_eq_of_lt_le
  · omega
  · rw [Nat.succ_mul]; omega

theorem perform_batches_inv {c : RunCtx} (h : c.WF) {t b : Nat} (ht : 0 < t) :
    ∀ (fuel base : Nat) (st st2 : PerformState), t ∣ base →
      PerfInv c (2 * min base c.swaps.length) (min base c.swaps.length) st →
      perform_batches t b c.swaps.length fuel base st = some st2 →
      PerfInv c (2 * c.swaps.length) c.swaps.length st2 := by
  have hn := h.n_lt
  have hll := le_loop_limit c.swaps.length t
  have hdone : ∀ (base : Nat) (st : PerformState),
      PerfInv c (2 * min base c.swaps.length) (min base c.swaps.length) st →
      ¬ base < loop_limit c.swaps.length t → PerfInv c (2 * c.swaps.length) c.swaps.length st := by
    intro base st hinv hb
    rw [show min base c.swaps.length = c.swaps.length by omega] at hinv
    exact hinv
  intro fuel
  induction fuel with
  | zero =>
    intro base st st2 _ hinv hp
    unfold perform_batches at hp
    by_cases hb : base < loop_limit c.swaps.length t
    · rw [if_pos hb] at hp; simp at hp
    · rw [if_neg hb] at hp
      simp only [Option.some.injEq] at hp
      rw [← hp]
      exact hdone base st hinv hb
  | succ fuel ih =>
    intro base st st2 hd hinv hp
    unfold perform_batches at hp
    by_cases hb : base < loop_limit c.swaps.length t
    · rw [if_pos hb] at hp
      dsimp only at hp
      have hbn : base < c.swaps.length := lt_of_lt_loop_limit ht hd hb
      generalize hlimit : min c.swaps.length (base + b * t) = limit at hp
      have hlim : limit ≤ c.swaps.length := by omega
      have hpack : pack_swap_id_spos limit 0 = 2 * limit := by
        rw [pack_eq (by omega) (by omega)]; omega
      rw [hpack] at hp
      generalize init_existence c.swaps.length (b * t) base st.existence_placeholder
        EdgeExistenceInformation.start_initialization = ix at hp
      obtain ⟨st1, hst1⟩ : ∃ st1 : PerformState, st1 = { st with
          existence_placeholder := ix.1
          existence_information := ix.2
          _edge_state := st._edge_state.start_batch ⟨2 * limit, ⟨-1, -1⟩⟩
          _existence_info := st._existence_info.start_batch ⟨limit, ⟨-1, -1⟩⟩ } := ⟨_, rfl⟩
      rw [← hst1] at hp
      have hinv1 : PerfInv c (2 * min base limit) base st1 := by
        rw [show min base c.swaps.length = base by omega] at hinv
        rw [show min base limit = base by omega, hst1]
        exact hinv.of_fields rfl rfl rfl rfl rfl rfl rfl
      have hl1 : st1._edge_state.limit = some ⟨2 * limit, ⟨-1, -1⟩⟩ := by
        rw [hst1]; rfl
      have hcnt : limit < base + hydrate_count t base limit → limit = c.swaps.length := by
        intro hlt
        by_contra hne
        have : limit = base + b * t := by omega
        rw [this, hydrate_count_full ht] at hlt
        omega
      have hinv2 := perform_hydrate_inv h hlim ⟨-1, -1⟩ (hydrate_count t base limit) base st1
        hinv1 (by omega) hl1 hcnt
      have hge := hydrate_count_ge t base limit ht
      rw [show min (base + hydrate_count t base limit) limit = limit by omega] at hinv2
      generalize perform_hydrate (hydrate_count t base limit) base st1 = st2a at hp hinv2
      cases hw : perform_workers c.swaps.length limit
          (min (loop_limit c.swaps.length t) (base + b * t) - base) base st2a with
      | none => rw [hw] at hp; simp at hp
      | some st3 =>
        rw [hw] at hp
        dsimp only at hp
        have hinv3 := perform_workers_inv h hlim _ base st2a st3
          (by rw [show min base c.swaps.length = base by omega]; exact hinv2)
          (fun j h1 h2 h3 => by omega) hw
        rw [show min (base + (min (loop_limit c.swaps.length t) (base + b * t) - base))
          c.swaps.length = limit by omega] at hinv3
        apply ih (base + b * t) _ st2 (Dvd.dvd.add hd (Dvd.intro_left b rfl)) _ hp
        rw [show min (base + b * t) c.swaps.length = limit by omega]
        exact hinv3.of_fields rfl rfl rfl rfl rfl rfl rfl
    · rw [if_neg hb] at hp
      simp only [Option.some.injEq] at hp
      rw [← hp]
      exact hdone base st hinv hb

/-! ## The merger of `_compute_conflicts` -/

theorem MergerKeys.advance {f n : Nat} {m : PQSorterMerger DependencyChainEdgeMsg}
    (hm : MergerKeys f n m) (x : DependencyChainEdgeMsg)
    (hp : m.peek DependencyChainEdgeMsg.le = some x) :
    MergerKeys f n (m.advance DependencyChainEdgeMsg.le) := by
  have hs := PQSorterMerger.advance_sorted _ _ _ hp hm.cur_sorted hm.pq_sorted
  have hperm := PQSorterMerger.advance_perm _ _ _ hp
  exact ⟨hs.1, hs.2, fun y hy => hm.keys y (hperm.subset (List.mem_cons_of_mem _ hy))⟩

theorem MergerKeys.push {f n : Nat} {m : PQSorterMerger DependencyChainEdgeMsg}
    (hm : MergerKeys f n m) (x : DependencyChainEdgeMsg) (hx : f ≤ x.sid ∧ x.sid < n) :
    MergerKeys f n (m.push_pq DependencyChainEdgeMsg.le x) := by
  refine ⟨hm.cur_sorted, PQSorterMerger.push_pq_sorted _ _ _ hm.pq_sorted, ?_⟩
  intro y hy
  rcases List.mem_cons.mp ((PQSorterMerger.push_pq_perm _ m x).subset hy) with rfl | hy
  · exact hx
  · exact hm.keys y hy

/-- No record of the key `f` is left once the front of the stream is not one. -/
theorem MergerKeys.next {f n k : Nat} {e : edge_t} {m : PQSorterMerger DependencyChainEdgeMsg}
    (hm : MergerKeys f n m) (hl : m.limit = some ⟨k, e⟩) (hk : f < k)
    (hp : ∀ x, m.peek DependencyChainEdgeMsg.le = some x → x.sid ≠ f) :
    MergerKeys (f + 1) n m := by
  refine ⟨hm.cur_sorted, hm.pq_sorted, ?_⟩
  intro y hy
  have hy1 := hm.keys y hy
  refine ⟨?_, hy1.2⟩
  by_contra hcon
  have hyf : y.sid = f := by omega
  obtain ⟨x, hx⟩ := PQSorterMerger.peek_isSome DependencyChainEdgeMsg.le m hm.cur_sorted
    hm.pq_sorted y hy (fun z _ hz =>
      depchain_in_window _ k e hl z (by have := depchain_le_sid hz; omega))
  have h1 := depchain_le_sid (PQSorterMerger.peek_le DependencyChainEdgeMsg.le m hm.cur_sorted
    hm.pq_sorted depchain_le_refl x hx y hy)
  have h2 := hm.keys x (PQSorterMerger.peek_mem _ _ _ hx).1
  exact hp x hx (by omega)

theorem hydrate_more_keys {f n k : Nat} {e : edge_t} (hk : f < k) :
    ∀ (fuel : Nat) (m : PQSorterMerger DependencyChainEdgeMsg), MergerKeys f n m →
      m.limit = some ⟨k, e⟩ → m.cursor.length + m.pq.length ≤ fuel →
      MergerKeys (f + 1) n (hydrate_more f fuel m).2 ∧
        (hydrate_more f fuel m).2.limit = some ⟨k, e⟩ ∧
        (hydrate_more f fuel m).2.sorter = m.sorter := by
  intro fuel
  induction fuel with
  | zero =>
    intro m hm hl hlen
    unfold hydrate_more
    refine ⟨⟨hm.cur_sorted, hm.pq_sorted, ?_⟩, hl, rfl⟩
    intro x hx
    have hc : m.cursor = [] := List.eq_nil_of_length_eq_zero (by omega)
    have hq : m.pq = [] := List.eq_nil_of_length_eq_zero (by omega)
    simp [PQSorterMerger.content, hc, hq] at hx
  | succ fuel ih =>
    intro m hm hl hlen
    unfold hydrate_more
    cases hp : m.peek DependencyChainEdgeMsg.le with
    | none =>
      dsimp only
      exact ⟨hm.next hl hk (fun x hx => by rw [hp] at hx; simp at hx), hl, rfl⟩
    | some x =>
      dsimp only
      by_cases hx : x.sid = f
      · rw [if_pos hx]
        dsimp only
        have hlen2 := PQSorterMerger.advance_length _ _ _ hp
        have hlim := PQSorterMerger.advance_limit DependencyChainEdgeMsg.le m
        obtain ⟨a1, a2, a3⟩ := ih _ (hm.advance x hp) (by rw [hlim.1]; exact hl) (by omega)
        exact ⟨a1, a2, by rw [a3, hlim.2]⟩
      · rw [if_neg hx]
        refine ⟨hm.next hl hk (fun y hy => ?_), hl, rfl⟩
        rw [hp] at hy
        simp only [Option.some.injEq] at hy
        rw [← hy]; exact hx

theorem hydrate_side_keys (n k swap_id spos : Nat) (e : edge_t) (st : ConflictState)
    (hid : swap_id < 2 ^ 63) (hs : spos < 2) (hk : 2 * swap_id + spos < k)
    (hm : MergerKeys (2 * swap_id + spos) n st._edge_state)
    (hl : st._edge_state.limit = some ⟨k, e⟩) :
    MergerKeys (2 * swap_id + spos + 1) n (hydrate_side swap_id spos st)._edge_state ∧
      (hydrate_side swap_id spos st)._edge_state.limit = some ⟨k, e⟩ ∧
      (hydrate_side swap_id spos st)._edge_state.sorter = st._edge_state.sorter ∧
      (hydrate_side swap_id spos st).dep = st.dep ∧
      (hydrate_side swap_id spos st)._swap_direction = st._swap_direction := by
  unfold hydrate_side
  rw [pack_eq hid hs]
  dsimp only
  refine ⟨?_, ?_, ?_, rfl, rfl⟩ <;>
  · cases hp : st._edge_state.peek DependencyChainEdgeMsg.le with
    | none =>
      dsimp only
      have := hydrate_more_keys hk _ _ hm hl (Nat.le_refl _)
      first | exact this.1 | exact this.2.1 | exact this.2.2
    | some x =>
      dsimp only
      by_cases hx : x.sid = 2 * swap_id + spos
      · rw [if_pos hx]
        dsimp only
        have hlim := PQSorterMerger.advance_limit DependencyChainEdgeMsg.le st._edge_state
        have := hydrate_more_keys hk _ _ (hm.advance x hp) (by rw [hlim.1]; exact hl)
          (Nat.le_refl _)
        first | exact this.1 | exact this.2.1 | (rw [this.2.2, hlim.2])
      · rw [if_neg hx]
        dsimp only
        have := hydrate_more_keys hk _ _ hm hl (Nat.le_refl _)
        first | exact this.1 | exact this.2.1 | exact this.2.2

theorem hydrate_side_skip (swap_id spos : Nat) (st : ConflictState)
    (h : st._edge_state.content = []) :
    (hydrate_side swap_id spos st)._edge_state = st._edge_state ∧
      (hydrate_side swap_id spos st).dep = st.dep ∧
      (hydrate_side swap_id spos st)._swap_direction = st._swap_direction := by
  unfold hydrate_side
  have hp := peek_none_of_content_nil DependencyChainEdgeMsg.le _ h
  unfold PQSorterMerger.content at h
  obtain ⟨h1, h2⟩ := List.append_eq_nil.mp h
  dsimp only
  rw [hp]
  dsimp only
  rw [h1, h2]
  exact ⟨rfl, rfl, rfl⟩

theorem ConfInv.of_merger {c : RunCtx} {f sid : Nat} {st st2 : ConflictState}
    (hinv : ConfInv c f sid st) (h1 : st2.dep = st.dep)
    (h2 : st2._edge_state.sorter = st._edge_state.sorter)
    (h3 : st2._edge_state.cursor = st._edge_state.cursor)
    (h4 : st2._edge_state.pq = st._edge_state.pq) : ConfInv c f sid st2 := by
  refine ⟨by rw [h1]; exact hinv.deps, by rw [h2]; exact hinv.sorter, ?_, ?_, ?_⟩
  · rw [h3]; exact hinv.keys.cur_sorted
  · rw [h4]; exact hinv.keys.pq_sorted
  · intro x hx
    apply hinv.keys.keys
    unfold PQSorterMerger.content at hx ⊢
    rw [← h3, ← h4]; exact hx

theorem hydrate_inv {c : RunCtx} (h : c.WF) {limit sid : Nat}
    (hlim : limit ≤ c.swaps.length) (e : edge_t) :
    ∀ (n id : Nat) (st : ConflictState), ConfInv c (2 * min id limit) sid st →
      st._edge_state.limit = some ⟨2 * limit, e⟩ →
      (limit < id + n → limit = c.swaps.length) →
      ConfInv c (2 * min (id + n) limit) sid (hydrate n id st) := by
  have hn := h.n_lt
  intro n
  induction n with
  | zero =>
    intro id st hinv _ _
    exact hinv
  | succ n ih =>
    intro id st hinv hl hcover
    unfold hydrate
    rw [show id + (n + 1) = id + 1 + n by omega]
    by_cases hid : id < limit
    · have hm : min id limit = id := by omega
      rw [hm] at hinv
      obtain ⟨a1, a2, a3, a4, -⟩ := hydrate_side_keys (2 * c.swaps.length) _ id 0 _ st
        (by omega) (by omega) (by omega) hinv.keys hl
      obtain ⟨b1, b2, b3, b4, -⟩ := hydrate_side_keys (2 * c.swaps.length) _ id 1 _
        (hydrate_side id 0 st) (by omega) (by omega) (by omega) a1 a2
      apply ih (id + 1) _ _ b2 (by omega)
      rw [show min (id + 1) limit = id + 1 by omega]
      exact ⟨by rw [b4, a4]; exact hinv.deps, by rw [b3, a3]; exact hinv.sorter, b1⟩
    · have hN : limit = c.swaps.length := hcover (by omega)
      have hm : min id limit = limit := by omega
      rw [hm] at hinv
      have hnil : st._edge_state.content = [] := by
        apply List.eq_nil_iff_forall_not_mem.mpr
        intro x hx
        have := hinv.keys.keys x hx
        omega
      obtain ⟨a1, a2, -⟩ := hydrate_side_skip id 0 st hnil
      obtain ⟨b1, b2, -⟩ := hydrate_side_skip id 1 (hydrate_side id 0 st) (by rw [a1]; exact hnil)
      apply ih (id + 1) _ _ (by rw [b1, a1]; exact hl) (by omega)
      rw [show min (id + 1) limit = limit by omega]
      exact hinv.of_merger (by rw [b2, a2]) (by rw [b1, a1]) (by rw [b1, a1]) (by rw [b1, a1])

theorem fetch_successor_spec {c : RunCtx} {sid s : Nat}
    {dep : List DependencyChainSuccessorMsg} (hsid : sid < 2 ^ 63) (hs : s < 2)
    (hd : LinkStream c (2 * sid + s) dep) :
    LinkStream c (2 * sid + s + 1) (fetch_successor sid s dep).2 ∧
      ((fetch_successor sid s dep).1 ≠ 0 →
        (⟨2 * sid + s, (fetch_successor sid s dep).1⟩ : DependencyChainSuccessorMsg) ∈ c.links) := by
  unfold fetch_successor
  rw [pack_eq hsid hs]
  rcases hd.step with ⟨q, rest, hdep, hl, hrest⟩ | ⟨hno, hrest⟩
  · rw [hdep]
    simp only [if_true]
    exact ⟨hrest, fun _ => hl⟩
  · cases dep with
    | nil => exact ⟨hrest, fun h0 => absurd rfl h0⟩
    | cons m rest =>
      have := ((hrest.mem m).mp (List.mem_cons_self _ _)).2
      dsimp only
      rw [if_neg (by omega)]
      exact ⟨hrest, fun h0 => absurd rfl h0⟩

theorem foldl_push_keys {f n succ : Nat} (hs : f ≤ succ ∧ succ < n) :
    ∀ (calls : List (edge_t × Bool)) (m : PQSorterMerger DependencyChainEdgeMsg),
      MergerKeys f n m →
      MergerKeys f n (calls.foldl
        (fun m c => m.push_pq DependencyChainEdgeMsg.le ⟨succ, c.1⟩) m) ∧
      (calls.foldl (fun m c => m.push_pq DependencyChainEdgeMsg.le ⟨succ, c.1⟩) m).sorter =
        m.sorter := by
  intro calls
  induction calls with
  | nil => intro m hm; exact ⟨hm, rfl⟩
  | cons x xs ih =>
    intro m hm
    rw [List.foldl_cons]
    obtain ⟨a, b⟩ := ih _ (hm.push ⟨succ, x.1⟩ hs)
    exact ⟨a, by rw [b]; rfl⟩

theorem conflicts_side_keys {f n : Nat} (limit sid succ : Nat) (sources dd : List edge_t)
    (st : ConflictState) (hm : MergerKeys f n st._edge_state)
    (hs : succ ≠ 0 → ¬ get_swap_id succ < limit → f ≤ succ ∧ succ < n) :
    MergerKeys f n (conflicts_side limit sid succ sources dd st)._edge_state ∧
      (conflicts_side limit sid succ sources dd st)._edge_state.sorter = st._edge_state.sorter ∧
      (conflicts_side limit sid succ sources dd st).dep = st.dep ∧
      (conflicts_side limit sid succ sources dd st)._swap_direction = st._swap_direction := by
  unfold conflicts_side
  dsimp only
  by_cases h1 : succ ≠ 0 ∧ ¬ get_swap_id succ < limit
  · have h2 : ¬ (succ ≠ 0 ∧ get_swap_id succ < limit) := fun h => h1.2 h.2
    rw [decide_eq_true h1, decide_eq_false h2]
    obtain ⟨a, b⟩ := foldl_push_keys (hs h1.1 h1.2) (forward_calls sources
      (if dd.length > 1 then sorter_sort edge_le dd else dd)) _ hm
    exact ⟨a, b, rfl, rfl⟩
  · rw [decide_eq_false h1]
    split
    · exact ⟨hm, rfl, rfl, rfl⟩
    · exact ⟨hm, rfl, rfl, rfl⟩

theorem conflicts_swap_inv {c : RunCtx} (h : c.WF) {limit sid : Nat} {st st2 : ConflictState}
    (hinv : ConfInv c (2 * limit) sid st) (hsid : sid < limit) (hlim : limit ≤ c.swaps.length)
    (hcs : conflicts_swap limit sid st = some st2) : ConfInv c (2 * limit) (sid + 1) st2 := by
  have hn := h.n_lt
  unfold conflicts_swap at hcs
  split at hcs
  · simp at hcs
  next direction directions hdir =>
  dsimp only at hcs
  split at hcs
  · simp at hcs
  split at hcs
  · simp at hcs
  simp only [Option.some.injEq] at hcs
  obtain ⟨hd0, hl0⟩ := fetch_successor_spec (s := 0) (by omega) (by omega) hinv.deps
  obtain ⟨hd1, hl1⟩ := fetch_successor_spec (s := 1) (by omega) (by omega) hd0
  have hkey : ∀ s q, s < 2 → (⟨2 * sid + s, q⟩ : DependencyChainSuccessorMsg) ∈ c.links →
      ¬ get_swap_id q < limit → 2 * limit ≤ q ∧ q < 2 * c.swaps.length := by
    intro s q hs hl hq
    have := RunCtx.link_later h hl
    rw [get_swap_id_eq] at hq
    omega
  rw [← hcs]
  obtain ⟨a1, a2, a3, -⟩ := conflicts_side_keys limit sid (fetch_successor sid 0 st.dep).1
    (st.edge_information (sid, 0)).forEach
    (cartesian_new_edges (st.edge_information (sid, 0)).forEach
      (st.edge_information (sid, 1)).forEach direction).1
    { st with _swap_direction := directions
              dep := (fetch_successor sid 1 (fetch_successor sid 0 st.dep).2).2 }
    hinv.keys (fun h0 hq => hkey 0 _ (by omega) (hl0 h0) hq)
  obtain ⟨b1, b2, b3, -⟩ := conflicts_side_keys limit sid
    (fetch_successor sid 1 (fetch_successor sid 0 st.dep).2).1
    ((conflicts_side limit sid (fetch_successor sid 0 st.dep).1
      (st.edge_information (sid, 0)).forEach
      (cartesian_new_edges (st.edge_information (sid, 0)).forEach
        (st.edge_information (sid, 1)).forEach direction).1
      { st with _swap_direction := directions
                dep := (fetch_successor sid 1 (fetch_successor sid 0 st.dep).2).2 }).edge_information
      (sid, 1)).forEach
    (cartesian_new_edges (st.edge_information (sid, 0)).forEach
      (st.edge_information (sid, 1)).forEach direction).2 _ a1
    (fun h0 hq => hkey 1 _ (by omega) (hl1 h0) hq)
  exact ⟨by rw [b3, a3]; exact hd1, by rw [b2, a2]; exact hinv.sorter, b1⟩

theorem conflicts_workers_inv {c : RunCtx} (h : c.WF) {limit : Nat}
    (hlim : limit ≤ c.swaps.length) :
    ∀ (n sid : Nat) (st st2 : ConflictState),
      ConfInv c (2 * limit) (min sid c.swaps.length) st →
      (∀ j, sid ≤ j → j < sid + n → j < c.swaps.length → j < limit) →
      conflicts_workers c.swaps.length limit n sid st = some st2 →
      ConfInv c (2 * limit) (min (sid + n) c.swaps.length) st2 := by
  intro n
  induction n with
  | zero =>
    intro sid st st2 hinv _ hw
    simp only [conflicts_workers, Option.some.injEq] at hw
    rw [← hw]
    exact hinv
  | succ n ih =>
    intro sid st st2 hinv hcover hw
    unfold conflicts_workers at hw
    rw [show sid + (n + 1) = sid + 1 + n by omega]
    by_cases hs : sid ≥ c.swaps.length
    · rw [if_pos hs] at hw
      apply ih (sid + 1) st st2 _ (fun j h1 h2 h3 => hcover j (by omega) (by omega) h3) hw
      rw [show min (sid + 1) c.swaps.length = min sid c.swaps.length by omega]
      exact hinv
    · rw [if_neg hs] at hw
      cases hp : conflicts_swap limit sid st with
      | none => rw [hp] at hw; simp at hw
      | some st1 =>
        rw [hp] at hw
        dsimp only at hw
        apply ih (sid + 1) st1 st2 _ (fun j h1 h2 h3 => hcover j (by omega) (by omega) h3) hw
        rw [show min sid c.swaps.length = sid by omega] at hinv
        rw [show min (sid + 1) c.swaps.length = sid + 1 by omega]
        exact conflicts_swap_inv h hinv (hcover sid (by omega) (by omega) (by omega)) hlim hp

theorem conflicts_batches_inv {c : RunCtx} (h : c.WF) {t b : Nat} (ht : 0 < t) :
    ∀ (fuel base : Nat) (st st2 : ConflictState), t ∣ base →
      ConfInv c (2 * min base c.swaps.length) (min base c.swaps.length) st →
      st._edge_state.limit = none →
      conflicts_batches t b c.swaps.length fuel base st = some st2 →
      ConfInv c (2 * c.swaps.length) c.swaps.length st2 ∧ st2._edge_state.limit = none := by
  have hn := h.n_lt
  have hll := le_loop_limit c.swaps.length t
  have hdone : ∀ (base : Nat) (st : ConflictState),
      ConfInv c (2 * min base c.swaps.length) (min base c.swaps.length) st →
      ¬ base < loop_limit c.swaps.length t → ConfInv c (2 * c.swaps.length) c.swaps.length st := by
    intro base st hinv hb
    rw [show min base c.swaps.length = c.swaps.length by omega] at hinv
    exact hinv
  intro fuel
  induction fuel with
  | zero =>
    intro base st st2 _ hinv hnone hp
    unfold conflicts_batches at hp
    by_cases hb : base < loop_limit c.swaps.length t
    · rw [if_pos hb] at hp; simp at hp
    · rw [if_neg hb] at hp
      simp only [Option.some.injEq] at hp
      rw [← hp]
      exact ⟨hdone base st hinv hb, hnone⟩
  | succ fuel ih =>
    intro base st st2 hd hinv hnone hp
    unfold conflicts_batches at hp
    by_cases hb : base < loop_limit c.swaps.length t
    · rw [if_pos hb] at hp
      dsimp only at hp
      have hbn : base < c.swaps.length := lt_of_lt_loop_limit ht hd hb
      generalize hlimit : min c.swaps.length (base + b * t) = limit at hp
      have hlim : limit ≤ c.swaps.length := by omega
      have hpack : pack_swap_id_spos limit 0 = 2 * limit := by
        rw [pack_eq (by omega) (by omega)]; omega
      rw [hpack] at hp
      obtain ⟨st1, hst1⟩ : ∃ st1 : ConflictState, st1 = { st with
          _edge_state := st._edge_state.start_batch ⟨2 * limit, ⟨-1, -1⟩⟩ } := ⟨_, rfl⟩
      rw [← hst1] at hp
      have hinv1 : ConfInv c (2 * min base limit) base st1 := by
        rw [show min base c.swaps.length = base by omega] at hinv
        rw [show min base limit = base by omega, hst1]
        exact hinv.of_merger rfl rfl rfl rfl
      have hl1 : st1._edge_state.limit = some ⟨2 * limit, ⟨-1, -1⟩⟩ := by
        rw [hst1]; rfl
      have hcnt : limit < base + hydrate_count t base limit → limit = c.swaps.length := by
        intro hlt
        by_contra hne
        have : limit = base + b * t := by omega
        rw [this, hydrate_count_full ht] at hlt
        omega
      have hinv2 := hydrate_inv h hlim ⟨-1, -1⟩ (hydrate_count t base limit) base st1
        hinv1 hl1 hcnt
      have hge := hydrate_count_ge t base limit ht
      rw [show min (base + hydrate_count t base limit) limit = limit by omega] at hinv2
      generalize hydrate (hydrate_count t base limit) base st1 = st2a at hp hinv2
      cases hw : conflicts_workers c.swaps.length limit
          (min (loop_limit c.swaps.length t) (base + b * t) - base) base st2a with
      | none => rw [hw] at hp; simp at hp
      | some st3 =>
        rw [hw] at hp
        dsimp only at hp
        have hinv3 := conflicts_workers_inv h hlim _ base st2a st3
          (by rw [show min base c.swaps.length = base by omega]; exact hinv2)
          (fun j h1 h2 h3 => by omega) hw
        rw [show min (base + (min (loop_limit c.swaps.length t) (base + b * t) - base))
          c.swaps.length = limit by omega] at hinv3
        apply ih (base + b * t) _ st2 (Dvd.dvd.add hd (Dvd.intro_left b rfl)) _ rfl hp
        rw [show min (base + b * t) c.swaps.length = limit by omega]
        exact hinv3.of_merger rfl rfl rfl rfl
    · rw [if_neg hb] at hp
      simp only [Option.some.injEq] at hp
      rw [← hp]
      exact ⟨hdone base st hinv hb, hnone⟩

/-- The conflict computer hands the merger of the dependency-chain builder back
as it got it: every configuration it pushed has been read. -/
theorem compute_conflicts_edge_state {c : RunCtx} (h : c.WF) {t b : Nat} (ht : 0 < t)
    (dirs : BoolStream) (r : ConflictResult)
    (hr : _compute_conflicts t b c.swaps.length
      (PQSorterMerger.finish_sorter_input DependencyChainEdgeMsg.le c.depchain_edges)
      (sorter_sort DependencyChainSuccessorMsg.le c.links) dirs = some r) :
    r.edge_state =
      PQSorterMerger.finish_sorter_input DependencyChainEdgeMsg.le c.depchain_edges := by
  unfold _compute_conflicts at hr
  dsimp only at hr
  split at hr
  · simp at hr
  next st1 hst1 =>
  simp only [Option.some.injEq] at hr
  rw [← hr]
  have hinit : ConfInv c (2 * min 0 c.swaps.length) (min 0 c.swaps.length)
      { _edge_state := PQSorterMerger.finish_sorter_input DependencyChainEdgeMsg.le
          c.depchain_edges
        dep := sorter_sort DependencyChainSuccessorMsg.le c.links
        _swap_direction := dirs
        edge_information := fun _ => edge_information_t.reset
        existence_requests := []
        forwarded := [] } := by
    rw [show min 0 c.swaps.length = 0 by omega]
    refine ⟨LinkStream.init c h, rfl, sorter_sort_sorted _ _, List.sorted_nil, ?_⟩
    intro x hx
    simp only [PQSorterMerger.content, PQSorterMerger.finish_sorter_input,
      List.append_nil] at hx
    rw [mem_sorter_sort] at hx
    have := ((h.facts.mem_edges x.sid x.edge).mp hx).1
    omega
  obtain ⟨hinv, hnone⟩ := conflicts_batches_inv h ht _ 0 _ st1 (Nat.dvd_zero t) hinit rfl hst1
  have hnil : st1._edge_state.content = [] := by
    apply List.eq_nil_iff_forall_not_mem.mpr
    intro x hx
    have := hinv.keys.keys x hx
    omega
  unfold PQSorterMerger.content at hnil
  obtain ⟨h1, h2⟩ := List.append_eq_nil.mp hnil
  simp only [PQSorterMerger.rewind_sorter, PQSorterMerger.finish_sorter_input, hinv.sorter, h2,
    hnone]

/-- The swap performer emits, for every last swap side of an edge id, the edge
the positional run leaves at that edge id. -/
theorem perform_swaps_updates {c : RunCtx} (h : c.WF) {t b : Nat} (ht : 0 < t)
    (xi : PQSorterMerger ExistenceInfoMsg) (es : List ExistenceSuccessorMsg) (ep : List Nat)
    (p : PerformResult)
    (hp : _perform_swaps t b c.swaps.length
      (PQSorterMerger.finish_sorter_input DependencyChainEdgeMsg.le c.depchain_edges) xi
      (sorter_sort DependencyChainSuccessorMsg.le c.links) es ep
      (c.swaps.map SwapDescriptor.direction) = some p) :
    p.debug.length = c.swaps.length ∧
      p.edge_update_merger = sorter_sort edge_le p.edge_updates ∧
      p.edge_updates = (last_keys c).map (fun q =>
        (positional_run c.edges c.swaps (p.debug.map SwapResult.performed)).getD
          (request_eid c.swaps q) edge_t.invalid) := by
  unfold _perform_swaps at hp
  dsimp only at hp
  split at hp
  · simp at hp
  next st1 hst1 =>
  simp only [Option.some.injEq] at hp
  rw [← hp]
  dsimp only
  have hinit : PerfInv c (2 * min 0 c.swaps.length) (min 0 c.swaps.length)
      { _edge_state := PQSorterMerger.finish_sorter_input DependencyChainEdgeMsg.le
          c.depchain_edges
        _existence_info := xi
        edge_dependencies := sorter_sort DependencyChainSuccessorMsg.le c.links
        existence_successor := es
        existence_placeholder := ep
        _swap_direction := c.swaps.map SwapDescriptor.direction
        source_edges := fun _ => edge_t.invalid
        existence_information := EdgeExistenceInformation.start_initialization
        edge_updates := []
        debug := []
        forwarded := []
        answered := [] } := by
    rw [show min 0 c.swaps.length = 0 by omega]
    have hcontent : ∀ x, x ∈ (PQSorterMerger.finish_sorter_input DependencyChainEdgeMsg.le
        c.depchain_edges).content ↔ x ∈ c.depchain_edges := by
      intro x
      simp only [PQSorterMerger.content, PQSorterMerger.finish_sorter_input, List.append_nil]
      exact mem_sorter_sort _ _ _
    constructor
    · exact LinkStream.init c h
    · rfl
    · rfl
    · intro i s _ _ h2 _
      omega
    · intro i s _
      rfl
    · exact sorter_sort_sorted _ _
    · exact List.sorted_nil
    · simp only [PQSorterMerger.content, PQSorterMerger.finish_sorter_input, List.append_nil]
      exact ((sorter_sort_perm _ c.depchain_edges).map _).nodup_iff.mpr h.facts.edges_nodup
    · intro x hx
      have hx1 := (hcontent x).mp hx
      obtain ⟨a1, -, a3⟩ := (h.facts.mem_edges x.sid x.edge).mp hx1
      exact ⟨Nat.zero_le _, a1, Or.inl ⟨x.edge, hx1⟩, a3⟩
    · intro q _ _ hv
      rcases hv with ⟨e, he⟩ | ⟨p, _, hp⟩
      · exact ⟨⟨q, e⟩, (hcontent _).mpr he, rfl⟩
      · omega
    · rfl
  have hfin := perform_batches_inv h ht _ 0 _ st1 (Nat.dvd_zero t) hinit hst1
  refine ⟨hfin.debug_len, rfl, ?_⟩
  rw [hfin.updates]
  unfold last_keys
  apply List.map_congr_left
  intro q _
  unfold ghost_at ghost
  rw [hfin.debug_len, List.take_length]

/-! ## The edge-update writer -/

theorem update_stream_perm :
    ∀ (l : List (edge_t × Bool)) (us : List edge_t),
      us.length = (l.filter fun x => !x.2).length →
      (EdgeVectorUpdateStream (l.map Prod.fst) (l.map Prod.snd) us).Perm
        ((l.filter fun x => x.2).map Prod.fst ++ us) := by
  intro l
  induction l with
  | nil =>
    intro us hus
    have : us = [] := List.eq_nil_of_length_eq_zero (by simpa using hus)
    subst this
    simp [EdgeVectorUpdateStream]
  | cons x l ih =>
    intro us hus
    obtain ⟨e, v⟩ := x
    cases v with
    | true =>
      simp only [List.map_cons, EdgeVectorUpdateStream, List.filter_cons, if_true,
        List.cons_append, List.perm_cons]
      apply ih
      simpa using hus
    | false =>
      cases us with
      | nil => simp at hus
      | cons u us =>
        simp only [List.map_cons, EdgeVectorUpdateStream, List.filter_cons, Bool.false_eq_true,
          if_false]
        refine (List.Perm.cons u (ih us ?_)).trans List.perm_middle.symm
        simpa using hus

theorem map_getD_range (A : List edge_t) :
    (List.range A.length).map (fun j => A.getD j edge_t.invalid) = A := by
  apply List.ext_getElem
  · simp
  · intro i h1 h2
    simp [List.getD_eq_getElem?_getD, List.getElem?_eq_getElem h2]

theorem positional_swap_getD_other (A : List edge_t) (s : SwapDescriptor) (f : Bool) (j : Nat)
    (ha : s.eid_a ≠ j) (hb : s.eid_b ≠ j) :
    (positional_swap A s f).getD j edge_t.invalid = A.getD j edge_t.invalid := by
  unfold positional_swap
  simp only [List.getD_eq_getElem?_getD]
  rw [List.getElem?_set_ne hb, List.getElem?_set_ne ha]

theorem positional_run_getD_other (j : Nat) :
    ∀ (ss : List SwapDescriptor) (fs : List Bool) (A : List edge_t),
      (∀ s ∈ ss, s.eid_a ≠ j ∧ s.eid_b ≠ j) →
      (positional_run A ss fs).getD j edge_t.invalid = A.getD j edge_t.invalid := by
  intro ss
  induction ss with
  | nil => intro fs A _; rfl
  | cons s ss ih =>
    intro fs A hs
    cases fs with
    | nil => rfl
    | cons f fs =>
      simp only [positional_run]
      rw [ih fs _ (fun x hx => hs x (List.mem_cons_of_mem _ hx))]
      exact positional_swap_getD_other A s f j (hs s (List.mem_cons_self _ _)).1
        (hs s (List.mem_cons_self _ _)).2

theorem mem_swaps_of_request_eid (swaps : List SwapDescriptor) (j : Nat)
    (h : ∀ t, t < 2 * swaps.length → request_eid swaps t ≠ j) :
    ∀ s ∈ swaps, s.eid_a ≠ j ∧ s.eid_b ≠ j := by
  intro s hs
  obtain ⟨i, hi, rfl⟩ := List.getElem_of_mem hs
  have h0 := h (2 * i) (by omega)
  have h1 := h (2 * i + 1) (by omega)
  unfold request_eid at h0 h1
  rw [show 2 * i / 2 = i by omega, List.getElem?_eq_getElem hi] at h0
  rw [show (2 * i + 1) / 2 = i by omega, List.getElem?_eq_getElem hi] at h1
  simp only at h0 h1
  rw [if_pos (by omega)] at h0
  rw [if_neg (by omega)] at h1
  exact ⟨h0, h1⟩

/-- The last swap sides of the edge ids stand, one each, for the edge ids that
some swap names. -/
theorem last_keys_eid_perm {c : RunCtx} (h : c.WF) :
    ((last_keys c).map (request_eid c.swaps)).Perm
      ((List.range c.edges.length).filter fun j =>
        !decide (∀ t, t < 2 * c.swaps.length → request_eid c.swaps t ≠ j)) := by
  have hmemk : ∀ p, p ∈ last_keys c ↔ p < 2 * c.swaps.length ∧
      ∀ q, (⟨p, q⟩ : DependencyChainSuccessorMsg) ∉ c.links := by
    intro p
    unfold last_keys
    rw [List.mem_filter, List.mem_range, decide_eq_true_eq, mem_links_sid_iff]
    simp only [not_exists]
  apply (List.perm_ext_iff_of_nodup ?_ ?_).mpr
  · intro j
    rw [List.mem_map, List.mem_filter, List.mem_range]
    simp only [Bool.not_eq_true', decide_eq_false_iff_not, not_forall, not_not]
    constructor
    · rintro ⟨p, hp, rfl⟩
      have hp1 := (hmemk p).mp hp
      exact ⟨RunCtx.eid_lt h p hp1.1, p, hp1.1, rfl⟩
    · rintro ⟨_, t, ht, hte⟩
      let P := fun k => k < 2 * c.swaps.length ∧ request_eid c.swaps k = j
      have hspec : P (Nat.findGreatest P (2 * c.swaps.length)) :=
        Nat.findGreatest_spec (P := P) (Nat.le_of_lt ht) ⟨ht, hte⟩
      refine ⟨Nat.findGreatest P (2 * c.swaps.length), (hmemk _).mpr ⟨hspec.1, ?_⟩, hspec.2⟩
      intro q hq
      obtain ⟨-, hq1, he, hlt, -⟩ := (h.facts.mem_links _ q).mp hq
      exact Nat.findGreatest_is_greatest (P := P) hlt (Nat.le_of_lt hq1)
        ⟨hq1, by rw [← he]; exact hspec.2⟩
  · apply List.Nodup.map_on
    · intro x hx y hy hxy
      have hx1 := (hmemk x).mp hx
      have hy1 := (hmemk y).mp hy
      rcases Nat.lt_trichotomy x y with hlt | heq | hgt
      · exact absurd hxy.symm (RunCtx.last_of_no_link h hx1.1 hx1.2 y hlt hy1.1)
      · exact heq
      · exact absurd hxy (RunCtx.last_of_no_link h hy1.1 hy1.2 x hgt hx1.1)
    · exact List.Nodup.filter _ (List.nodup_range _)
  · exact List.Nodup.filter _ (List.nodup_range _)

/-- Writing the sorted edge updates into the positions the swaps name gives the
edges of the positional run, in some order. -/
theorem update_stream_positional {c : RunCtx} (h : c.WF) (flags : List Bool) :
    (EdgeVectorUpdateStream c.edges c.valid (sorter_sort edge_le ((last_keys c).map (fun q =>
        (positional_run c.edges c.swaps flags).getD (request_eid c.swaps q)
          edge_t.invalid)))).Perm
      (positional_run c.edges c.swaps flags) := by
  generalize hG : positional_run c.edges c.swaps flags = G
  have hGlen : G.length = c.edges.length := by rw [← hG]; exact positional_run_length _ _ _
  have hl1 : ((List.range c.edges.length).map (fun j => (c.edges.getD j edge_t.invalid,
      decide (∀ t, t < 2 * c.swaps.length → request_eid c.swaps t ≠ j)))).map Prod.fst =
      c.edges := by
    rw [List.map_map]
    exact map_getD_range c.edges
  have hl2 : ((List.range c.edges.length).map (fun j => (c.edges.getD j edge_t.invalid,
      decide (∀ t, t < 2 * c.swaps.length → request_eid c.swaps t ≠ j)))).map Prod.snd =
      c.valid := by
    rw [List.map_map, h.facts.valid_eq]
    rfl
  have hkeys := last_keys_eid_perm h
  have hU : ((last_keys c).map (fun q => G.getD (request_eid c.swaps q) edge_t.invalid)).Perm
      (((List.range c.edges.length).filter fun j =>
        !decide (∀ t, t < 2 * c.swaps.length → request_eid c.swaps t ≠ j)).map
        (fun j => G.getD j edge_t.invalid)) := by
    have := hkeys.map (fun j => G.getD j edge_t.invalid)
    rw [List.map_map] at this
    exact this
  have hsort := sorter_sort_perm edge_le
    ((last_keys c).map (fun q => G.getD (request_eid c.swaps q) edge_t.invalid))
  have hlen : (sorter_sort edge_le ((last_keys c).map (fun q =>
      G.getD (request_eid c.swaps q) edge_t.invalid))).length =
      (((List.range c.edges.length).map (fun j => (c.edges.getD j edge_t.invalid,
        decide (∀ t, t < 2 * c.swaps.length → request_eid c.swaps t ≠ j)))).filter
        fun x => !x.2).length := by
    rw [hsort.length_eq, hU.length_eq, List.filter_map, List.length_map, List.length_map]
    rfl
  have hmain := update_stream_perm _ _ hlen
  rw [hl1, hl2] at hmain
  refine hmain.trans ?_
  have hkeep : (((List.range c.edges.length).map (fun j => (c.edges.getD j edge_t.invalid,
      decide (∀ t, t < 2 * c.swaps.length → request_eid c.swaps t ≠ j)))).filter
      fun x => x.2).map Prod.fst =
      ((List.range c.edges.length).filter fun j =>
        decide (∀ t, t < 2 * c.swaps.length → request_eid c.swaps t ≠ j)).map
        (fun j => G.getD j edge_t.invalid) := by
    rw [List.filter_map, List.map_map]
    apply List.map_congr_left
    intro j hj
    rw [List.mem_filter] at hj
    simp only [Function.comp_apply, decide_eq_true_eq] at hj ⊢
    rw [← hG]
    exact (positional_run_getD_other j c.swaps flags c.edges
      (mem_swaps_of_request_eid c.swaps j hj.2)).symm
  rw [hkeep]
  refine ((List.Perm.append_left _ (hsort.trans hU)).trans ?_)
  rw [← List.map_append]
  have hsplit := List.filter_append_perm
    (fun j => decide (∀ t, t < 2 * c.swaps.length → request_eid c.swaps t ≠ j))
    (List.range c.edges.length)
  have := hsplit.map (fun j => G.getD j edge_t.invalid)
  rw [← hGlen] at this
  rw [map_getD_range G] at this
  rw [← hGlen]
  exact this

/-! ## The run as a whole -/

theorem run_ctx_wf (num_threads : Nat) (edges : List edge_t) (swaps : List SwapDescriptor)
    (hn : swaps.length < 2 ^ 63)
    (hrange : ∀ s ∈ swaps, s.eid_a < edges.length ∧ s.eid_b < edges.length)
    (hdist : ∀ s ∈ swaps, s.eid_a ≠ s.eid_b) : (run_ctx num_threads edges swaps).WF :=
  { n_lt := hn
    facts := (load_edges_facts num_threads edges swaps hn hrange).1
    distinct := hdist
    range := hrange }

theorem run_swaps_with_nil (b t : Nat) (edges : List edge_t) :
    run_swaps_with b t edges [] = some (Engine.init t edges, RunLog.empty) := by
  rfl

/-- A run on at least one swap is one pass of the four phases and one pass that
writes the edge updates back. -/
theorem run_swaps_with_some (b t : Nat) (edges : List edge_t) (swaps : List SwapDescriptor)
    (hS : swaps ≠ []) (r : Engine × RunLog) (hr : run_swaps_with b t edges swaps = some r) :
    ∃ (cr : ConflictResult) (p : PerformResult),
      _compute_conflicts t b swaps.length
        (PQSorterMerger.finish_sorter_input DependencyChainEdgeMsg.le
          (run_ctx t edges swaps).depchain_edges)
        (sorter_sort DependencyChainSuccessorMsg.le (run_ctx t edges swaps).links)
        (swaps.map SwapDescriptor.direction) = some cr ∧
      _perform_swaps t b swaps.length cr.edge_state
        (_process_existence_requests t cr.existence_merger edges).existence_info
        (sorter_sort DependencyChainSuccessorMsg.le (run_ctx t edges swaps).links)
        (_process_existence_requests t cr.existence_merger edges).existence_successor
        (_process_existence_requests t cr.existence_merger edges).existence_placeholder
        (swaps.map SwapDescriptor.direction) = some p ∧
      r.1._edges = EdgeVectorUpdateStream edges (run_ctx t edges swaps).valid
        p.edge_update_merger ∧
      r.1._result = p.debug ∧
      r.2 = ⟨(run_ctx t edges swaps).depchain_edges ++ cr.forwarded ++ p.forwarded,
        cr.existence_requests,
        (_process_existence_requests t cr.existence_merger edges).pushed.existence_info
          ++ p.answered,
        p.edge_updates⟩ := by
  have hlen : 0 < swaps.length := List.length_pos.mpr hS
  have hne : (sorter_sort EdgeLoadRequest.le (swap_requests 0 swaps)).isEmpty = false := by
    cases swaps with
    | nil => exact absurd rfl hS
    | cons s ss =>
      have hm : (⟨s.eid_a, pack_swap_id_spos 0 0⟩ : EdgeLoadRequest) ∈
          sorter_sort EdgeLoadRequest.le (swap_requests 0 (s :: ss)) :=
        (mem_sorter_sort _ _ _).mpr (by simp [swap_requests])
      cases hs : sorter_sort EdgeLoadRequest.le (swap_requests 0 (s :: ss)) with
      | nil => rw [hs] at hm; simp at hm
      | cons _ _ => rfl
  unfold run_swaps_with at hr
  rw [foldl_push] at hr
  simp only [Engine.init, List.nil_append, Nat.zero_add] at hr
  unfold run_with at hr
  split at hr
  · simp at hr
  next g1 log1 h1 =>
  split at hr
  · simp at hr
  next g2 log2 h2 =>
  simp only [Option.some.injEq] at hr
  unfold process_swaps_with at h1
  simp only [_load_and_update_edges, Bool.not_false, if_true, hne] at h1
  rw [if_neg (by omega), if_pos (by omega)] at h1
  split at h1
  · simp at h1
  next cr hcr =>
  split at h1
  · simp at h1
  next p hp =>
  simp only [Option.some.injEq, Prod.mk.injEq, List.nil_append] at h1
  obtain ⟨hg1, hlog1⟩ := h1
  refine ⟨cr, p, hcr, hp, ?_⟩
  rw [← hg1] at h2
  unfold process_swaps_with at h2
  simp only [_load_and_update_edges, Bool.not_true, Bool.false_eq_true, and_false, if_false,
    gt_iff_lt, Nat.lt_irrefl, Option.some.injEq, Prod.mk.injEq] at h2
  obtain ⟨hg2, hlog2⟩ := h2
  rw [← hr, ← hg2, ← hlog2, ← hlog1]
  refine ⟨rfl, rfl, ?_⟩
  simp only [RunLog.append, RunLog.empty, List.append_nil]
  rfl

/-- The engine refines the positional run: the edge list it leaves is, in some
order, the edge list on which the swaps were applied one after another by edge
id, each performed or not as its debug record says. -/
theorem run_refines_positional (b t : Nat) (edges : List edge_t) (swaps : List SwapDescriptor)
    (ht : 0 < t) (hn : swaps.length < 2 ^ 63)
    (hrange : ∀ s ∈ swaps, s.eid_a < edges.length ∧ s.eid_b < edges.length)
    (hdist : ∀ s ∈ swaps, s.eid_a ≠ s.eid_b)
    (r : Engine × RunLog) (hr : run_swaps_with b t edges swaps = some r) :
    r.1._result.length = swaps.length ∧
      r.1._edges.Perm (positional_run edges swaps (r.1._result.map SwapResult.performed)) := by
  by_cases hS : swaps = []
  · subst hS
    rw [run_swaps_with_nil] at hr
    simp only [Option.some.injEq] at hr
    rw [← hr]
    exact ⟨rfl, List.Perm.refl _⟩
  · obtain ⟨cr, p, hcr, hp, he, hres, -⟩ := run_swaps_with_some b t edges swaps hS r hr
    have hwf := run_ctx_wf t edges swaps hn hrange hdist
    have hcs := compute_conflicts_edge_state hwf ht _ cr hcr
    rw [hcs] at hp
    obtain ⟨h1, h2, h3⟩ := perform_swaps_updates hwf ht _ _ _ p hp
    rw [hres, he, h2, h3]
    exact ⟨h1, update_stream_positional hwf _⟩

/-! ## Degrees -/

theorem degree_nil (v : Int) : degree [] v = 0 := rfl

theorem degree_cons (e : edge_t) (A : List edge_t) (v : Int) :
    degree (e :: A) v =
      (if e.first = v then 1 else 0) + (if e.second = v then 1 else 0) + degree A v := by
  simp [degree]

theorem degree_perm {A B : List edge_t} (h : A.Perm B) (v : Int) : degree A v = degree B v := by
  unfold degree
  exact (h.map _).sum_eq

theorem degree_set (v : Int) (x : edge_t) :
    ∀ (A : List edge_t) (i : Nat), i < A.length →
      degree (A.set i x) v + degree [A.getD i edge_t.invalid] v = degree A v + degree [x] v := by
  intro A
  induction A with
  | nil => intro i hi; simp at hi
  | cons a A ih =>
    intro i hi
    cases i with
    | zero =>
      simp only [List.set_cons_zero, List.getD_cons_zero, degree_cons, degree_nil]
      omega
    | succ i =>
      have := ih i (by simpa using hi)
      simp only [List.set_cons_succ, List.getD_cons_succ, degree_cons, degree_nil] at this ⊢
      omega

theorem normalized_degree (x y v : Int) :
    degree [edge_t.normalized x y] v = (if x = v then 1 else 0) + (if y = v then 1 else 0) := by
  unfold edge_t.normalized
  split
  · simp [degree]
  · simp [degree]; omega

/-- The four endpoints of the two edges a swap outputs are those of its two
source edges. -/
theorem swap_edges_degree (e0 e1 : edge_t) (direction : Bool) (v : Int) :
    degree [(_swap_edges e0 e1 direction).1, (_swap_edges e0 e1 direction).2] v =
      degree [e0, e1] v := by
  have h : ∀ a b : edge_t, degree [a, b] v = degree [a] v + degree [b] v := by
    intro a b; simp [degree]
  rw [h]
  unfold _swap_edges
  cases direction
  · simp only [Bool.false_eq_true, if_false, normalized_degree]
    simp only [degree_cons, degree_nil]
    omega
  · simp only [if_true, normalized_degree]
    simp only [degree_cons, degree_nil]
    omega

theorem positional_swap_degree (A : List edge_t) (s : SwapDescriptor) (f : Bool) (v : Int)
    (ha : s.eid_a < A.length) (hb : s.eid_b < A.length) (hab : s.eid_a ≠ s.eid_b) :
    degree (positional_swap A s f) v = degree A v := by
  unfold positional_swap
  dsimp only
  generalize hout : (if f = true then
      _swap_edges (A.getD s.eid_a edge_t.invalid) (A.getD s.eid_b edge_t.invalid) s.direction
    else (A.getD s.eid_a edge_t.invalid, A.getD s.eid_b edge_t.invalid)) = out
  have hw : degree [out.1, out.2] v =
      degree [A.getD s.eid_a edge_t.invalid, A.getD s.eid_b edge_t.invalid] v := by
    rw [← hout]
    cases f
    · rfl
    · exact swap_edges_degree _ _ _ v
  have h1 := degree_set v out.1 A s.eid_a ha
  have h2 := degree_set v out.2 (A.set s.eid_a out.1) s.eid_b (by simpa using hb)
  have h3 : (A.set s.eid_a out.1).getD s.eid_b edge_t.invalid = A.getD s.eid_b edge_t.invalid := by
    simp only [List.getD_eq_getElem?_getD]
    rw [List.getElem?_set_ne hab]
  rw [h3] at h2
  simp only [degree_cons, degree_nil] at hw h1 h2
  omega

theorem positional_run_degree (v : Int) :
    ∀ (ss : List SwapDescriptor) (fs : List Bool) (A : List edge_t),
      (∀ s ∈ ss, s.eid_a < A.length ∧ s.eid_b < A.length) → (∀ s ∈ ss, s.eid_a ≠ s.eid_b) →
      degree (positional_run A ss fs) v = degree A v := by
  intro ss
  induction ss with
  | nil => intro fs A _ _; rfl
  | cons s ss ih =>
    intro fs A hr hd
    cases fs with
    | nil => rfl
    | cons f fs =>
      simp only [positional_run]
      rw [ih fs _ (fun x hx => by
        rw [positional_swap_length]; exact hr x (List.mem_cons_of_mem _ hx))
        (fun x hx => hd x (List.mem_cons_of_mem _ hx))]
      exact positional_swap_degree A s f v (hr s (List.mem_cons_self _ _)).1
        (hr s (List.mem_cons_self _ _)).2 (hd s (List.mem_cons_self _ _))

/-- C3, degree preservation: after a run of the engine (any number of worker
threads, any batch size) every vertex `v` has as many edge endpoints in `_edges`
as in the input edge list, a self-loop counting twice; and the two edges a swap
hands on, as well as the two edges of its debug record, have the four endpoints
of its two source edges, whether or not the swap is performed. -/
theorem degree_preserved (b t : Nat) (edges : List edge_t) (swaps : List SwapDescriptor)
    (ht : 0 < t) (hn : swaps.length < 2 ^ 63)
    (hrange : ∀ s ∈ swaps, s.eid_a < edges.length ∧ s.eid_b < edges.length)
    (hdist : ∀ s ∈ swaps, s.eid_a ≠ s.eid_b)
    (r : Engine × RunLog) (hr : run_swaps_with b t edges swaps = some r) :
    (∀ v, degree r.1._edges v = degree edges v) ∧
      ∀ (x : EdgeExistenceInformation) (sid : Nat) (cur : edge_t × edge_t) (direction : Bool)
        (v : Int),
        degree [(swap_outcome (swap_decision x sid cur direction) cur).1,
          (swap_outcome (swap_decision x sid cur direction) cur).2] v
            = degree [cur.1, cur.2] v ∧
        degree [(swap_decision x sid cur direction).edges.1,
          (swap_decision x sid cur direction).edges.2] v = degree [cur.1, cur.2] v := by
  constructor
  · intro v
    obtain ⟨-, hperm⟩ := run_refines_positional b t edges swaps ht hn hrange hdist r hr
    rw [degree_perm hperm v]
    exact positional_run_degree v swaps _ edges hrange hdist
  · intro x sid cur direction v
    have h2 : degree [(swap_decision x sid cur direction).edges.1,
        (swap_decision x sid cur direction).edges.2] v = degree [cur.1, cur.2] v :=
      swap_edges_degree cur.1 cur.2 direction v
    refine ⟨?_, h2⟩
    unfold swap_outcome
    split
    · rfl
    · exact h2

/-- Witness for C3: the run on the input of the test `noConflicts` returns, and
its degrees are those of the input. -/
theorem degree_preserved_witness :
    run_swaps_with IntScale.Mi 1 scenario_E scenario_S = some scenario_result ∧
      ∀ v, degree scenario_result.1._edges v = degree scenario_E v :=
  ⟨by decide!,
    (degree_preserved IntScale.Mi 1 scenario_E scenario_S (by decide) (by decide) (by decide)
      (by decide) scenario_result (by decide!)).1⟩

/-- C4, edge-count preservation: after a run of the engine (any number of worker
threads, any batch size) whose swaps name edge ids in range, `_edges` has as many
edges as the input edge list. -/
theorem edge_count_preserved (b t : Nat) (edges : List edge_t) (swaps : List SwapDescriptor)
    (ht : 0 < t) (hn : swaps.length < 2 ^ 63)
    (hrange : ∀ s ∈ swaps, s.eid_a < edges.length ∧ s.eid_b < edges.length)
    (hdist : ∀ s ∈ swaps, s.eid_a ≠ s.eid_b)
    (r : Engine × RunLog) (hr : run_swaps_with b t edges swaps = some r) :
    r.1._edges.length = edges.length := by
  obtain ⟨-, hperm⟩ := run_refines_positional b t edges swaps ht hn hrange hdist r hr
  rw [hperm.length_eq, positional_run_length]

/-- Witness for C4: the run on the input of the test `test2` returns, and leaves
as many edges as it got. -/
theorem edge_count_preserved_witness :
    run_swaps_with IntScale.Mi 2 chain_E chain_S = some chain_result ∧
      chain_result.1._edges.length = chain_E.length :=
  ⟨by decide!,
    edge_count_preserved IntScale.Mi 2 chain_E chain_S (by decide) (by decide) (by decide)
      (by decide) chain_result (by decide!)⟩

/-! ## Canonical edges -/

theorem canonical_invalid : edge_t.invalid.canonical := by
  unfold edge_t.canonical edge_t.invalid
  exact le_refl _

theorem normalized_canonical (x y : Int) : (edge_t.normalized x y).canonical := by
  unfold edge_t.normalized edge_t.canonical
  split
  · assumption
  · simp only; omega

theorem swap_edges_canonical (e0 e1 : edge_t) (direction : Bool) :
    (_swap_edges e0 e1 direction).1.canonical ∧ (_swap_edges e0 e1 direction).2.canonical := by
  unfold _swap_edges
  split <;> exact ⟨normalized_canonical _ _, normalized_canonical _ _⟩

theorem mem_content_advance {m : PQSorterMerger DependencyChainEdgeMsg}
    {x y : DependencyChainEdgeMsg} (hp : m.peek DependencyChainEdgeMsg.le = some x)
    (hy : y ∈ (m.advance DependencyChainEdgeMsg.le).content) : y ∈ m.content :=
  (PQSorterMerger.advance_perm _ _ _ hp).subset (List.mem_cons_of_mem _ hy)

theorem hydrate_more_canon (s : Nat) :
    ∀ (fuel : Nat) (m : PQSorterMerger DependencyChainEdgeMsg),
      (∀ x ∈ m.content, x.edge.canonical) →
      (∀ e ∈ (hydrate_more s fuel m).1, e.canonical) ∧
        (∀ x ∈ (hydrate_more s fuel m).2.content, x.edge.canonical) ∧
        (hydrate_more s fuel m).2.sorter = m.sorter := by
  intro fuel
  induction fuel with
  | zero =>
    intro m hm
    unfold hydrate_more
    exact ⟨fun e he => by simp at he, hm, rfl⟩
  | succ fuel ih =>
    intro m hm
    unfold hydrate_more
    cases hp : m.peek DependencyChainEdgeMsg.le with
    | none => exact ⟨fun e he => by simp at he, hm, rfl⟩
    | some x =>
      dsimp only
      split
      · obtain ⟨a1, a2, a3⟩ := ih (m.advance DependencyChainEdgeMsg.le)
          (fun y hy => hm y (mem_content_advance hp hy))
        refine ⟨?_, a2, by rw [a3, (PQSorterMerger.advance_limit _ m).2]⟩
        intro e he
        rcases List.mem_cons.mp he with rfl | he
        · exact hm x (PQSorterMerger.peek_mem _ _ _ hp).1
        · exact a1 e he
      · exact ⟨fun e he => by simp at he, hm, rfl⟩

theorem slot_set_forEach {κ : Type} [DecidableEq κ] (f : κ → edge_information_t) (k : κ)
    (v : edge_information_t) (hf : ∀ j, ∀ e ∈ (f j).forEach, e.canonical)
    (hv : ∀ e ∈ v.forEach, e.canonical) :
    ∀ j, ∀ e ∈ (slot_set f k v j).forEach, e.canonical := by
  intro j e he
  unfold slot_set at he
  split at he
  · exact hv e he
  · exact hf j e he

theorem forEach_canon (edge : edge_t) (es : List edge_t) (b : Bool) (hedge : edge.canonical)
    (hes : ∀ e ∈ es, e.canonical) (i : Bool) :
    ∀ e ∈ (edge_information_t.forEach
      { is_set := i, edge := edge, edges := if b then none else some es }), e.canonical := by
  intro e he
  unfold edge_information_t.forEach at he
  cases b
  · simp only [Bool.false_eq_true, if_false, List.mem_cons] at he
    rcases he with rfl | he
    · exact hedge
    · exact hes e he
  · simp only [if_true, List.mem_singleton] at he
    rw [he]; exact hedge

theorem hydrate_side_canon (swap_id spos : Nat) (st : ConflictState) (h : ConfCanon st) :
    ConfCanon (hydrate_side swap_id spos st) := by
  unfold hydrate_side
  dsimp only
  cases hp : st._edge_state.peek DependencyChainEdgeMsg.le with
  | none =>
    dsimp only
    obtain ⟨a1, a2, a3⟩ := hydrate_more_canon (pack_swap_id_spos swap_id spos)
      (st._edge_state.cursor.length + st._edge_state.pq.length) st._edge_state h.merger
    exact ⟨slot_set_forEach _ _ _ h.slots (forEach_canon _ _ _ canonical_invalid a1 _),
      by rw [a3]; exact h.sorter, a2, h.requests, h.forwarded⟩
  | some x =>
    dsimp only
    have hx := h.merger x (PQSorterMerger.peek_mem _ _ _ hp).1
    by_cases hs : x.sid = pack_swap_id_spos swap_id spos
    · rw [if_pos hs]
      dsimp only
      obtain ⟨a1, a2, a3⟩ := hydrate_more_canon (pack_swap_id_spos swap_id spos)
        ((st._edge_state.advance DependencyChainEdgeMsg.le).cursor.length +
          (st._edge_state.advance DependencyChainEdgeMsg.le).pq.length)
        (st._edge_state.advance DependencyChainEdgeMsg.le)
        (fun y hy => h.merger y (mem_content_advance hp hy))
      exact ⟨slot_set_forEach _ _ _ h.slots (forEach_canon _ _ _ hx a1 _),
        by rw [a3, (PQSorterMerger.advance_limit _ _).2]; exact h.sorter, a2, h.requests,
        h.forwarded⟩
    · rw [if_neg hs]
      dsimp only
      obtain ⟨a1, a2, a3⟩ := hydrate_more_canon (pack_swap_id_spos swap_id spos)
        (st._edge_state.cursor.length + st._edge_state.pq.length) st._edge_state h.merger
      exact ⟨slot_set_forEach _ _ _ h.slots (forEach_canon _ _ _ canonical_invalid a1 _),
        by rw [a3]; exact h.sorter, a2, h.requests, h.forwarded⟩

theorem hydrate_canon :
    ∀ (n id : Nat) (st : ConflictState), ConfCanon st → ConfCanon (hydrate n id st) := by
  intro n
  induction n with
  | zero => intro id st h; exact h
  | succ n ih =>
    intro id st h
    unfold hydrate
    exact ih _ _ (hydrate_side_canon _ _ _ (hydrate_side_canon _ _ _ h))

theorem skip_duplicates_subset (last_e : edge_t) :
    ∀ (xs : List edge_t), ∀ e ∈ skip_duplicates last_e xs, e ∈ xs := by
  intro xs
  induction xs with
  | nil => intro e he; simp [skip_duplicates] at he
  | cons x xs ih =>
    intro e he
    unfold skip_duplicates at he
    split at he
    · exact List.mem_cons_of_mem _ (ih e he)
    · exact he

theorem forward_candidates_mem (e : edge_t) :
    ∀ (fuel : Nat) (new_it : List edge_t) (last_e : edge_t),
      (∀ c ∈ (forward_candidates e fuel new_it last_e).1, c.1 ∈ new_it) ∧
        (∀ x ∈ (forward_candidates e fuel new_it last_e).2.1, x ∈ new_it) := by
  intro fuel
  induction fuel with
  | zero =>
    intro new_it last_e
    unfold forward_candidates
    exact ⟨fun c hc => by simp at hc, fun x hx => hx⟩
  | succ fuel ih =>
    intro new_it last_e
    cases new_it with
    | nil =>
      unfold forward_candidates
      exact ⟨fun c hc => by simp at hc, fun x hx => hx⟩
    | cons x xs =>
      unfold forward_candidates
      split
      · obtain ⟨a1, a2⟩ := ih (skip_duplicates x xs) x
        dsimp only
        constructor
        · intro c hc
          rcases List.mem_cons.mp hc with rfl | hc
          · exact List.mem_cons_self _ _
          · exact List.mem_cons_of_mem _ (skip_duplicates_subset x xs _ (a1 c hc))
        · intro y hy
          exact List.mem_cons_of_mem _ (skip_duplicates_subset x xs _ (a2 y hy))
      · exact ⟨fun c hc => by simp at hc, fun y hy => hy⟩

theorem forward_sources_mem :
    ∀ (sources new_it : List edge_t),
      (∀ c ∈ (forward_sources sources new_it).1, c.1 ∈ sources ∨ c.1 ∈ new_it) ∧
        (∀ x ∈ (forward_sources sources new_it).2, x ∈ new_it) := by
  intro sources
  induction sources with
  | nil =>
    intro new_it
    unfold forward_sources
    exact ⟨fun c hc => by simp at hc, fun x hx => hx⟩
  | cons e es ih =>
    intro new_it
    unfold forward_sources
    dsimp only
    obtain ⟨a1, a2⟩ := forward_candidates_mem e new_it.length new_it edge_t.invalid
    obtain ⟨b1, b2⟩ := ih (forward_candidates e new_it.length new_it edge_t.invalid).2.1
    constructor
    · intro c hc
      rcases List.mem_append.mp hc with hc | hc
      · rcases List.mem_append.mp hc with hc | hc
        · exact Or.inr (a1 c hc)
        · split at hc
          · rw [List.mem_singleton.mp hc]
            exact Or.inl (List.mem_cons_self _ _)
          · simp at hc
      · rcases b1 c hc with h | h
        · exact Or.inl (List.mem_cons_of_mem _ h)
        · exact Or.inr (a2 _ h)
    · intro x hx
      exact a2 _ (b2 x hx)

theorem forward_rest_mem :
    ∀ (fuel : Nat) (xs : List edge_t), ∀ c ∈ forward_rest fuel xs, c.1 ∈ xs := by
  intro fuel
  induction fuel with
  | zero => intro xs c hc; simp [forward_rest] at hc
  | succ fuel ih =>
    intro xs c hc
    cases xs with
    | nil => simp [forward_rest] at hc
    | cons x xs =>
      unfold forward_rest at hc
      rcases List.mem_cons.mp hc with rfl | hc
      · exact List.mem_cons_self _ _
      · exact List.mem_cons_of_mem _ (skip_duplicates_subset x xs _ (ih _ c hc))

theorem forward_calls_mem (sources dd : List edge_t) :
    ∀ c ∈ forward_calls sources dd, c.1 ∈ sources ∨ c.1 ∈ dd := by
  intro c hc
  unfold forward_calls at hc
  obtain ⟨a1, a2⟩ := forward_sources_mem sources dd
  rcases List.mem_append.mp hc with hc | hc
  · exact a1 c hc
  · exact Or.inr (a2 _ (forward_rest_mem _ _ c hc))

theorem cartesian_new_edges_canon (c0 c1 : List edge_t) (direction : Bool) :
    (∀ e ∈ (cartesian_new_edges c0 c1 direction).1, e.canonical) ∧
      (∀ e ∈ (cartesian_new_edges c0 c1 direction).2, e.canonical) := by
  unfold cartesian_new_edges
  constructor
  · intro e he
    simp only [List.mem_map, List.mem_flatMap] at he
    obtain ⟨p, ⟨e1, -, e2, -, rfl⟩, rfl⟩ := he
    exact (swap_edges_canonical e1 e2 direction).1
  · intro e he
    simp only [List.mem_map, List.mem_flatMap] at he
    obtain ⟨p, ⟨e1, -, e2, -, rfl⟩, rfl⟩ := he
    exact (swap_edges_canonical e1 e2 direction).2

theorem foldl_push_canon (succ : Nat) :
    ∀ (calls : List (edge_t × Bool)) (m : PQSorterMerger DependencyChainEdgeMsg),
      (∀ c ∈ calls, c.1.canonical) → (∀ x ∈ m.content, x.edge.canonical) →
      (∀ x ∈ (calls.foldl
        (fun m c => m.push_pq DependencyChainEdgeMsg.le ⟨succ, c.1⟩) m).content,
          x.edge.canonical) ∧
      (calls.foldl (fun m c => m.push_pq DependencyChainEdgeMsg.le ⟨succ, c.1⟩) m).sorter =
        m.sorter := by
  intro calls
  induction calls with
  | nil => intro m _ hm; exact ⟨hm, rfl⟩
  | cons c cs ih =>
    intro m hc hm
    rw [List.foldl_cons]
    obtain ⟨a, b⟩ := ih (m.push_pq DependencyChainEdgeMsg.le ⟨succ, c.1⟩)
      (fun x hx => hc x (List.mem_cons_of_mem _ hx)) (by
        intro x hx
        rcases List.mem_cons.mp ((PQSorterMerger.push_pq_perm _ m _).subset hx) with rfl | hx
        · exact hc c (List.mem_cons_self _ _)
        · exact hm x hx)
    exact ⟨a, by rw [b]; rfl⟩

theorem successor_info_canon (old : edge_information_t) (calls : List (edge_t × Bool))
    (hold : ∀ e ∈ old.forEach, e.canonical) (hc : ∀ c ∈ calls, c.1.canonical) :
    ∀ e ∈ (edge_information_t.forEach
      { is_set := true
        edge := match calls with
          | [] => old.edge
          | c :: _ => c.1
        edges := if calls.length > 1 then some (calls.tail.map Prod.fst) else none }),
      e.canonical := by
  have hedge : old.edge.canonical := by
    apply hold
    unfold edge_information_t.forEach
    split <;> exact List.mem_cons_self _ _
  intro e he
  unfold edge_information_t.forEach at he
  cases calls with
  | nil =>
    simp only [List.length_nil, gt_iff_lt, Nat.not_lt_zero, if_false, List.mem_singleton] at he
    rw [he]; exact hedge
  | cons c cs =>
    have h1 := hc c (List.mem_cons_self _ _)
    dsimp only at he
    split at he
    · next heq =>
      rw [List.mem_singleton.mp he]; exact h1
    · next es heq =>
      rcases List.mem_cons.mp he with rfl | he
      · exact h1
      · split at heq
        · simp only [List.tail_cons, Option.some.injEq] at heq
          rw [← heq] at he
          obtain ⟨c2, hc2, rfl⟩ := List.mem_map.mp he
          exact hc c2 (List.mem_cons_of_mem _ hc2)
        · simp at heq

theorem conflicts_side_canon (limit sid succ : Nat) (sources dd : List edge_t)
    (st : ConflictState) (h : ConfCanon st) (hs : ∀ e ∈ sources, e.canonical)
    (hd : ∀ e ∈ dd, e.canonical) :
    ConfCanon (conflicts_side limit sid succ sources dd st) := by
  have hdd : ∀ e ∈ (if dd.length > 1 then sorter_sort edge_le dd else dd), e.canonical := by
    intro e he
    split at he
    · exact hd e ((mem_sorter_sort _ _ _).mp he)
    · exact hd e he
  have hcalls : ∀ c ∈ forward_calls sources
      (if dd.length > 1 then sorter_sort edge_le dd else dd), c.1.canonical := by
    intro c hc
    rcases forward_calls_mem _ _ c hc with h1 | h1
    · exact hs _ h1
    · exact hdd _ h1
  unfold conflicts_side
  dsimp only
  generalize forward_calls sources (if dd.length > 1 then sorter_sort edge_le dd else dd) = calls
    at hcalls
  have hreq : ∀ x ∈ st.existence_requests ++
      calls.map (fun c => (⟨c.1, sid, c.2⟩ : ExistenceRequestMsg)), x.edge.canonical := by
    intro x hx
    rcases List.mem_append.mp hx with hx | hx
    · exact h.requests x hx
    · obtain ⟨c, hc, rfl⟩ := List.mem_map.mp hx
      exact hcalls c hc
  have hfwd : ∀ x ∈ (if succ ≠ 0 then
      st.forwarded ++ calls.map (fun c => (⟨succ, c.1⟩ : DependencyChainEdgeMsg))
      else st.forwarded), x.edge.canonical := by
    intro x hx
    split at hx
    · rcases List.mem_append.mp hx with hx | hx
      · exact h.forwarded x hx
      · obtain ⟨c, hc, rfl⟩ := List.mem_map.mp hx
        exact hcalls c hc
    · exact h.forwarded x hx
  obtain ⟨hpush, hsorter⟩ := foldl_push_canon succ calls st._edge_state hcalls h.merger
  split
  · split
    · exact ⟨slot_set_forEach _ _ _ h.slots (successor_info_canon _ _ (h.slots _) hcalls),
        by rw [hsorter]; exact h.sorter, hpush, hreq, hfwd⟩
    · exact ⟨slot_set_forEach _ _ _ h.slots (successor_info_canon _ _ (h.slots _) hcalls),
        h.sorter, h.merger, hreq, hfwd⟩
  · split
    · exact ⟨h.slots, by rw [hsorter]; exact h.sorter, hpush, hreq, hfwd⟩
    · exact ⟨h.slots, h.sorter, h.merger, hreq, hfwd⟩

theorem conflicts_swap_canon (limit sid : Nat) (st st2 : ConflictState) (h : ConfCanon st)
    (hcs : conflicts_swap limit sid st = some st2) : ConfCanon st2 := by
  unfold conflicts_swap at hcs
  split at hcs
  · simp at hcs
  next direction directions hdir =>
  dsimp only at hcs
  split at hcs
  · simp at hcs
  split at hcs
  · simp at hcs
  simp only [Option.some.injEq] at hcs
  rw [← hcs]
  obtain ⟨c1, c2⟩ := cartesian_new_edges_canon (st.edge_information (sid, 0)).forEach
    (st.edge_information (sid, 1)).forEach direction
  have h1 := conflicts_side_canon limit sid (fetch_successor sid 0 st.dep).1
    (st.edge_information (sid, 0)).forEach
    (cartesian_new_edges (st.edge_information (sid, 0)).forEach
      (st.edge_information (sid, 1)).forEach direction).1
    { st with _swap_direction := directions
              dep := (fetch_successor sid 1 (fetch_successor sid 0 st.dep).2).2 }
    ⟨h.slots, h.sorter, h.merger, h.requests, h.forwarded⟩ (h.slots _) c1
  exact conflicts_side_canon limit sid _ _ _ _ h1 (h1.slots _) c2

theorem conflicts_workers_canon (num limit : Nat) :
    ∀ (n sid : Nat) (st st2 : ConflictState), ConfCanon st →
      conflicts_workers num limit n sid st = some st2 → ConfCanon st2 := by
  intro n
  induction n with
  | zero =>
    intro sid st st2 h hw
    simp only [conflicts_workers, Option.some.injEq] at hw
    rw [← hw]; exact h
  | succ n ih =>
    intro sid st st2 h hw
    unfold conflicts_workers at hw
    split at hw
    · exact ih _ _ _ h hw
    · cases hp : conflicts_swap limit sid st with
      | none => rw [hp] at hw; simp at hw
      | some st1 =>
        rw [hp] at hw
        exact ih _ _ _ (conflicts_swap_canon limit sid st st1 h hp) hw

theorem conflicts_batches_canon (t b num : Nat) :
    ∀ (fuel base : Nat) (st st2 : ConflictState), ConfCanon st →
      conflicts_batches t b num fuel base st = some st2 → ConfCanon st2 := by
  intro fuel
  induction fuel with
  | zero =>
    intro base st st2 h hp
    unfold conflicts_batches at hp
    split at hp
    · simp at hp
    · simp only [Option.some.injEq] at hp
      rw [← hp]; exact h
  | succ fuel ih =>
    intro base st st2 h hp
    unfold conflicts_batches at hp
    split at hp
    · dsimp only at hp
      split at hp
      · simp at hp
      next st3 hw =>
      have h1 : ConfCanon { st with _edge_state := (st._edge_state.start_batch
          ⟨pack_swap_id_spos (min num (base + b * t)) 0, ⟨-1, -1⟩⟩) } :=
        ⟨h.slots, h.sorter, h.merger, h.requests, h.forwarded⟩
      have h3 := conflicts_workers_canon num _ _ _ _ st3 (hydrate_canon _ _ _ h1) hw
      refine ih _ _ _ ?_ hp
      exact ⟨h3.slots, h3.sorter, h3.merger, h3.requests, h3.forwarded⟩
    · simp only [Option.some.injEq] at hp
      rw [← hp]; exact h

/-- The conflict computer sends canonical edges only. -/
theorem compute_conflicts_canon (t b num : Nat) (pushed : List DependencyChainEdgeMsg)
    (deps : List DependencyChainSuccessorMsg) (dirs : BoolStream) (cr : ConflictResult)
    (hpushed : ∀ x ∈ pushed, x.edge.canonical)
    (hcr : _compute_conflicts t b num
      (PQSorterMerger.finish_sorter_input DependencyChainEdgeMsg.le pushed) deps dirs = some cr) :
    (∀ x ∈ cr.forwarded, x.edge.canonical) ∧ (∀ x ∈ cr.existence_requests, x.edge.canonical) ∧
      (∀ x ∈ cr.existence_merger, x.edge.canonical) ∧
      (∀ x ∈ cr.edge_state.content, x.edge.canonical) := by
  unfold _compute_conflicts at hcr
  dsimp only at hcr
  split at hcr
  · simp at hcr
  next st1 hst1 =>
  simp only [Option.some.injEq] at hcr
  rw [← hcr]
  have hsorted : ∀ x ∈ sorter_sort DependencyChainEdgeMsg.le pushed, x.edge.canonical :=
    fun x hx => hpushed x ((mem_sorter_sort _ _ _).mp hx)
  have hinit : ConfCanon
      { _edge_state := PQSorterMerger.finish_sorter_input DependencyChainEdgeMsg.le pushed
        dep := deps
        _swap_direction := dirs
        edge_information := fun _ => edge_information_t.reset
        existence_requests := []
        forwarded := [] } := by
    refine ⟨?_, hsorted, ?_, fun x hx => by simp at hx, fun x hx => by simp at hx⟩
    · intro k e he
      simp only [edge_information_t.reset, edge_information_t.forEach, List.mem_singleton] at he
      rw [he]; exact canonical_invalid
    · intro x hx
      simp only [PQSorterMerger.content, PQSorterMerger.finish_sorter_input,
        List.append_nil] at hx
      exact hsorted x hx
  have hfin := conflicts_batches_canon t b num _ 0 _ st1 hinit hst1
  refine ⟨hfin.forwarded, hfin.requests, fun x hx =>
    hfin.requests x ((mem_sorter_sort _ _ _).mp hx), ?_⟩
  intro x hx
  simp only [PQSorterMerger.content, PQSorterMerger.rewind_sorter, List.mem_append] at hx
  rcases hx with hx | hx
  · exact hfin.sorter x hx
  · exact hfin.merger x (by
      simp only [PQSorterMerger.content, List.mem_append]; exact Or.inr hx)

/-! ## Canonical edges in the existence-request processor -/

theorem existence_chain_edges (t : Nat) (cur : edge_t) :
    ∀ (reqs : List ExistenceRequestMsg) (last : Nat) (found : Bool),
      (existence_chain t cur reqs last found).1.existence_info = [] ∧
        (∀ m ∈ (existence_chain t cur reqs last found).1.successor_output, m.2.edge = cur) ∧
        (∀ x ∈ (existence_chain t cur reqs last found).2.2.2, x ∈ reqs) := by
  intro reqs
  induction reqs with
  | nil =>
    intro last found
    unfold existence_chain
    exact ⟨rfl, fun m hm => by simp at hm, fun x hx => hx⟩
  | cons r rest ih =>
    intro last found
    unfold existence_chain
    split
    · exact ⟨rfl, fun m hm => by simp at hm, fun x hx => hx⟩
    · dsimp only
      obtain ⟨a1, a2, a3⟩ := ih r.swap_id (found || !r.forward_only)
      split
      · refine ⟨a1, ?_, fun x hx => List.mem_cons_of_mem _ (a3 x hx)⟩
        intro m hm
        rcases List.mem_cons.mp hm with rfl | hm
        · rfl
        · exact a2 m hm
      · exact ⟨a1, a2, fun x hx => List.mem_cons_of_mem _ (a3 x hx)⟩

theorem process_requests_canon (t : Nat) :
    ∀ (fuel : Nat) (reqs : List ExistenceRequestMsg) (edges : List edge_t),
      (∀ x ∈ reqs, x.edge.canonical) →
      (∀ m ∈ (process_requests t fuel reqs edges).existence_info, m.edge.canonical) ∧
        (∀ m ∈ (process_requests t fuel reqs edges).successor_output, m.2.edge.canonical) := by
  intro fuel
  induction fuel with
  | zero =>
    intro reqs edges _
    unfold process_requests
    exact ⟨fun m hm => by simp at hm, fun m hm => by simp at hm⟩
  | succ fuel ih =>
    intro reqs edges hreq
    cases reqs with
    | nil =>
      unfold process_requests
      exact ⟨fun m hm => by simp at hm, fun m hm => by simp at hm⟩
    | cons r rest =>
      unfold process_requests
      dsimp only
      have hr := hreq r (List.mem_cons_self _ _)
      obtain ⟨a1, a2, a3⟩ := existence_chain_edges t r.edge (r :: rest) r.swap_id false
      obtain ⟨b1, b2⟩ := ih (existence_chain t r.edge (r :: rest) r.swap_id false).2.2.2
        (find_edge r.edge edges false).2 (fun x hx => hreq x (a3 x hx))
      constructor
      · intro m hm
        rcases List.mem_append.mp hm with hm | hm
        · rcases List.mem_append.mp hm with hm | hm
          · rw [a1] at hm; simp at hm
          · split at hm
            · rw [List.mem_singleton.mp hm]; exact hr
            · simp at hm
        · exact b1 m hm
      · intro m hm
        rcases List.mem_append.mp hm with hm | hm
        · rcases List.mem_append.mp hm with hm | hm
          · rw [a2 m hm]; exact hr
          · split at hm <;> simp at hm
        · exact b2 m hm

/-- The existence-request processor sends canonical edges only. -/
theorem process_existence_requests_canon (t : Nat) (reqs : List ExistenceRequestMsg)
    (edges : List edge_t) (hreq : ∀ x ∈ reqs, x.edge.canonical) :
    (∀ m ∈ (_process_existence_requests t reqs edges).pushed.existence_info,
        m.edge.canonical) ∧
      (∀ m ∈ (_process_existence_requests t reqs edges).existence_successor,
        m.edge.canonical) := by
  obtain ⟨a, b⟩ := process_requests_canon t reqs.length reqs edges hreq
  unfold _process_existence_requests
  refine ⟨a, ?_⟩
  intro m hm
  dsimp only at hm
  obtain ⟨x, hx, rfl⟩ := List.mem_map.mp ((mem_sorter_sort _ _ _).mp hm)
  exact b x hx

/-! ## Canonical edges in the swap performer -/

theorem slot_set_canon {κ : Type} [DecidableEq κ] (f : κ → edge_t) (k : κ) (v : edge_t)
    (hf : ∀ j, (f j).canonical) (hv : v.canonical) : ∀ j, (slot_set f k v j).canonical := by
  intro j
  unfold slot_set
  split
  · exact hv
  · exact hf j

theorem hydrate_source_canon (id s : Nat) (st : PerformState) (h : PerfCanon st) :
    PerfCanon (hydrate_source id s st) := by
  unfold hydrate_source
  cases hp : st._edge_state.peek DependencyChainEdgeMsg.le with
  | none => exact h
  | some x =>
    dsimp only
    split
    · exact ⟨slot_set_canon _ _ _ h.slots (h.merger x (PQSorterMerger.peek_mem _ _ _ hp).1),
        fun y hy => h.merger y (mem_content_advance hp hy), h.successors, h.updates,
        h.forwarded, h.answered⟩
    · exact h

theorem perform_hydrate_canon :
    ∀ (n id : Nat) (st : PerformState), PerfCanon st → PerfCanon (perform_hydrate n id st) := by
  intro n
  induction n with
  | zero => intro id st h; exact h
  | succ n ih =>
    intro id st h
    unfold perform_hydrate
    dsimp only
    apply ih
    apply hydrate_source_canon
    apply hydrate_source_canon
    exact ⟨h.slots, h.merger, h.successors, h.updates, h.forwarded, h.answered⟩

theorem forward_edge_state_canon (limit sid : Nat) (ne : edge_t × edge_t)
    (h1 : ne.1.canonical) (h2 : ne.2.canonical) :
    ∀ (deps : List DependencyChainSuccessorMsg) (st : PerformState) (found : Bool × Bool),
      PerfCanon st → PerfCanon (forward_edge_state limit sid ne deps st found).1 := by
  intro deps
  induction deps with
  | nil =>
    intro st found h
    unfold forward_edge_state
    exact ⟨h.slots, h.merger, h.successors, h.updates, h.forwarded, h.answered⟩
  | cons msg rest ih =>
    intro st found h
    unfold forward_edge_state
    split
    · dsimp only
      have he : (pair_get ne (get_swap_spos msg.sid)).canonical := by
        unfold pair_get
        split
        · exact h1
        · exact h2
      apply ih
      have hf : ∀ x ∈ st.forwarded ++
          [(⟨msg.successor, pair_get ne (get_swap_spos msg.sid)⟩ : DependencyChainEdgeMsg)],
          x.edge.canonical := by
        intro x hx
        rcases List.mem_append.mp hx with hx | hx
        · exact h.forwarded x hx
        · rw [List.mem_singleton.mp hx]; exact he
      split
      · exact ⟨slot_set_canon _ _ _ h.slots he, h.merger, h.successors, h.updates, hf,
          h.answered⟩
      · refine ⟨h.slots, ?_, h.successors, h.updates, hf, h.answered⟩
        intro x hx
        rcases List.mem_cons.mp ((PQSorterMerger.push_pq_perm _ _ _).subset hx) with rfl | hx
        · exact he
        · exact h.merger x hx
    · exact ⟨h.slots, h.merger, h.successors, h.updates, h.forwarded, h.answered⟩

theorem push_existence_info_canon (limit target : Nat) (e : edge_t) (ex : Bool)
    (st : PerformState) (h : PerfCanon st) (he : e.canonical) :
    PerfCanon (push_existence_info limit target e ex st) ∧
      (push_existence_info limit target e ex st).existence_successor =
        st.existence_successor := by
  unfold push_existence_info
  dsimp only
  have he1 : (if (!ex) = true then edge_t.invalid else e).canonical := by
    split
    · exact canonical_invalid
    · exact he
  have ha : ∀ x ∈ st.answered ++
      [(⟨target, if (!ex) = true then edge_t.invalid else e⟩ : ExistenceInfoMsg)],
      x.edge.canonical := by
    intro x hx
    rcases List.mem_append.mp hx with hx | hx
    · exact h.answered x hx
    · rw [List.mem_singleton.mp hx]; exact he1
  split
  · exact ⟨⟨h.slots, h.merger, h.successors, h.updates, h.forwarded, ha⟩, rfl⟩
  · exact ⟨⟨h.slots, h.merger, h.successors, h.updates, h.forwarded, ha⟩, rfl⟩

theorem forward_existence_canon (limit sid : Nat) (cur ne : edge_t × edge_t) :
    ∀ (succs : List ExistenceSuccessorMsg) (st : PerformState), PerfCanon st →
      (∀ x ∈ succs, x.edge.canonical) →
      PerfCanon (forward_existence limit sid cur ne succs st) := by
  intro succs
  induction succs with
  | nil =>
    intro st h _
    unfold forward_existence
    exact ⟨h.slots, h.merger, fun x hx => by simp at hx, h.updates, h.forwarded, h.answered⟩
  | cons m rest ih =>
    intro st h hs
    unfold forward_existence
    have hm := hs m (List.mem_cons_self _ _)
    split
    · exact ⟨h.slots, h.merger, hs, h.updates, h.forwarded, h.answered⟩
    · dsimp only
      apply ih _ _ (fun x hx => hs x (List.mem_cons_of_mem _ hx))
      split
      · exact (push_existence_info_canon _ _ _ _ _ h hm).1
      · split
        · exact (push_existence_info_canon _ _ _ _ _ h hm).1
        · exact (push_existence_info_canon _ _ _ _ _ h hm).1

theorem perform_swap_canon (limit sid : Nat) (st st2 : PerformState) (h : PerfCanon st)
    (hps : perform_swap limit sid st = some st2) : PerfCanon st2 := by
  unfold perform_swap at hps
  split at hps
  · simp at hps
  next direction directions hdir =>
  dsimp only at hps
  split at hps
  · simp at hps
  split at hps
  · simp at hps
  simp only [Option.some.injEq] at hps
  rw [← hps]
  have hnew : (swap_outcome (swap_decision st.existence_information sid
      (st.source_edges (sid, 0), st.source_edges (sid, 1)) direction)
      (st.source_edges (sid, 0), st.source_edges (sid, 1))).1.canonical ∧
      (swap_outcome (swap_decision st.existence_information sid
      (st.source_edges (sid, 0), st.source_edges (sid, 1)) direction)
      (st.source_edges (sid, 0), st.source_edges (sid, 1))).2.canonical := by
    unfold swap_outcome
    split
    · exact ⟨h.slots _, h.slots _⟩
    · exact swap_edges_canonical _ _ _
  generalize swap_outcome (swap_decision st.existence_information sid
      (st.source_edges (sid, 0), st.source_edges (sid, 1)) direction)
      (st.source_edges (sid, 0), st.source_edges (sid, 1)) = ne at hnew ⊢
  have hf := forward_edge_state_canon limit sid ne hnew.1 hnew.2 st.edge_dependencies
    { st with _swap_direction := directions
              debug := st.debug ++ [(swap_decision st.existence_information sid
                (st.source_edges (sid, 0), st.source_edges (sid, 1)) direction).normalize] }
    (false, false) ⟨h.slots, h.merger, h.successors, h.updates, h.forwarded, h.answered⟩
  generalize forward_edge_state limit sid ne st.edge_dependencies
    { st with _swap_direction := directions
              debug := st.debug ++ [(swap_decision st.existence_information sid
                (st.source_edges (sid, 0), st.source_edges (sid, 1)) direction).normalize] }
    (false, false) = f at hf ⊢
  have hu : ∀ e ∈ f.1.edge_updates ++ (if (!f.2.1) = true then [ne.1] else []) ++
      (if (!f.2.2) = true then [ne.2] else []), e.canonical := by
    intro e he
    rcases List.mem_append.mp he with he | he
    · rcases List.mem_append.mp he with he | he
      · exact hf.updates e he
      · split at he
        · rw [List.mem_singleton.mp he]; exact hnew.1
        · simp at he
    · split at he
      · rw [List.mem_singleton.mp he]; exact hnew.2
      · simp at he
  have hx := forward_existence_canon limit sid
    (st.source_edges (sid, 0), st.source_edges (sid, 1)) ne f.1.existence_successor
    { f.1 with edge_updates := f.1.edge_updates ++ (if (!f.2.1) = true then [ne.1] else []) ++
      (if (!f.2.2) = true then [ne.2] else []) }
    ⟨hf.slots, hf.merger, hf.successors, hu, hf.forwarded, hf.answered⟩ hf.successors
  exact ⟨slot_set_canon _ _ _ (slot_set_canon _ _ _ hx.slots canonical_invalid)
    canonical_invalid, hx.merger, hx.successors, hx.updates, hx.forwarded, hx.answered⟩

theorem perform_workers_canon (num limit : Nat) :
    ∀ (n sid : Nat) (st st2 : PerformState), PerfCanon st →
      perform_workers num limit n sid st = some st2 → PerfCanon st2 := by
  intro n
  induction n with
  | zero =>
    intro sid st st2 h hw
    simp only [perform_workers, Option.some.injEq] at hw
    rw [← hw]; exact h
  | succ n ih =>
    intro sid st st2 h hw
    unfold perform_workers at hw
    split at hw
    · exact ih _ _ _ h hw
    · cases hp : perform_swap limit sid st with
      | none => rw [hp] at hw; simp at hw
      | some st1 =>
        rw [hp] at hw
        exact ih _ _ _ (perform_swap_canon limit sid st st1 h hp) hw

theorem perform_batches_canon (t b num : Nat) :
    ∀ (fuel base : Nat) (st st2 : PerformState), PerfCanon st →
      perform_batches t b num fuel base st = some st2 → PerfCanon st2 := by
  intro fuel
  induction fuel with
  | zero =>
    intro base st st2 h hp
    unfold perform_batches at hp
    split at hp
    · simp at hp
    · simp only [Option.some.injEq] at hp
      rw [← hp]; exact h
  | succ fuel ih =>
    intro base st st2 h hp
    unfold perform_batches at hp
    split at hp
    · dsimp only at hp
      split at hp
      · simp at hp
      next st3 hw =>
      have h3 : PerfCanon st3 := by
        refine perform_workers_canon num _ _ _ _ st3 ?_ hw
        apply perform_hydrate_canon
        exact ⟨h.slots, h.merger, h.successors, h.updates, h.forwarded, h.answered⟩
      refine ih _ _ _ ?_ hp
      exact ⟨h3.slots, h3.merger, h3.successors, h3.updates, h3.forwarded, h3.answered⟩
    · simp only [Option.some.injEq] at hp
      rw [← hp]; exact h

/-- The swap performer sends canonical edges only. -/
theorem perform_swaps_canon (t b num : Nat) (es : PQSorterMerger DependencyChainEdgeMsg)
    (xi : PQSorterMerger ExistenceInfoMsg) (deps : List DependencyChainSuccessorMsg)
    (succs : List ExistenceSuccessorMsg) (ep : List Nat) (dirs : BoolStream)
    (p : PerformResult) (hes : ∀ x ∈ es.content, x.edge.canonical)
    (hsuccs : ∀ x ∈ succs, x.edge.canonical)
    (hp : _perform_swaps t b num es xi deps succs ep dirs = some p) :
    (∀ e ∈ p.edge_updates, e.canonical) ∧ (∀ e ∈ p.edge_update_merger, e.canonical) ∧
      (∀ x ∈ p.forwarded, x.edge.canonical) ∧ (∀ x ∈ p.answered, x.edge.canonical) := by
  unfold _perform_swaps at hp
  dsimp only at hp
  split at hp
  · simp at hp
  next st1 hst1 =>
  simp only [Option.some.injEq] at hp
  rw [← hp]
  have hfin := perform_batches_canon t b num _ 0 _ st1
    ⟨fun _ => canonical_invalid, hes, hsuccs, fun e he => by simp at he,
      fun e he => by simp at he, fun e he => by simp at he⟩ hst1
  exact ⟨hfin.updates, fun e he => hfin.updates e ((mem_sorter_sort _ _ _).mp he),
    hfin.forwarded, hfin.answered⟩

theorem load_edges_mem (t : Nat) :
    ∀ (es : List edge_t) (id : Nat) (reqs : List EdgeLoadRequest),
      ∀ m ∈ (load_edges t id es reqs).depchain_edges, m.edge ∈ es := by
  intro es
  induction es with
  | nil =>
    intro id reqs m hm
    simp [load_edges] at hm
  | cons e es ih =>
    intro id reqs m hm
    unfold load_edges at hm
    dsimp only at hm
    rcases List.mem_append.mp hm with hm | hm
    · apply List.mem_cons.mpr
      left
      unfold use_edge at hm
      split at hm
      · simp at hm
      · split at hm
        · simp only [List.mem_singleton] at hm
          rw [hm]
        · simp at hm
    · exact List.mem_cons_of_mem _ (ih _ _ m hm)

theorem update_stream_mem :
    ∀ (es : List edge_t) (valid : List Bool) (us : List edge_t),
      ∀ e ∈ EdgeVectorUpdateStream es valid us, e ∈ es ∨ e ∈ us := by
  intro es
  induction es with
  | nil =>
    intro valid us e he
    simp [EdgeVectorUpdateStream] at he
  | cons x es ih =>
    intro valid us e he
    cases valid with
    | nil =>
      simp only [EdgeVectorUpdateStream, List.mem_cons] at he
      rcases he with rfl | he
      · exact Or.inl (List.mem_cons_self _ _)
      · rcases ih _ _ e he with h | h
        · exact Or.inl (List.mem_cons_of_mem _ h)
        · exact Or.inr h
    | cons v valid =>
      cases v with
      | true =>
        simp only [EdgeVectorUpdateStream, List.mem_cons] at he
        rcases he with rfl | he
        · exact Or.inl (List.mem_cons_self _ _)
        · rcases ih _ _ e he with h | h
          · exact Or.inl (List.mem_cons_of_mem _ h)
          · exact Or.inr h
      | false =>
        cases us with
        | nil =>
          simp only [EdgeVectorUpdateStream] at he
          rcases ih _ _ e he with h | h
          · exact Or.inl (List.mem_cons_of_mem _ h)
          · exact Or.inr h
        | cons u us =>
          simp only [EdgeVectorUpdateStream, List.mem_cons] at he
          rcases he with rfl | he
          · exact Or.inr (List.mem_cons_self _ _)
          · rcases ih _ _ e he with h | h
            · exact Or.inl (List.mem_cons_of_mem _ h)
            · exact Or.inr (List.mem_cons_of_mem _ h)

/-- C5, canonicalisation: if every edge of the input edge list satisfies
`first ≤ second`, then after a run of the engine (any number of worker threads,
any batch size) every edge carried by a message of the run, be it a
`DependencyChainEdgeMsg`, an `ExistenceRequestMsg`, an `ExistenceInfoMsg` or an
edge update, and every edge of `_edges` satisfies `first ≤ second`. -/
theorem canonical_preserved (b t : Nat) (edges : List edge_t) (swaps : List SwapDescriptor)
    (hE : ∀ e ∈ edges, e.canonical)
    (r : Engine × RunLog) (hr : run_swaps_with b t edges swaps = some r) :
    (∀ m ∈ r.2.depchain_edges, m.edge.canonical) ∧
      (∀ m ∈ r.2.existence_requests, m.edge.canonical) ∧
      (∀ m ∈ r.2.existence_info, m.edge.canonical) ∧
      (∀ e ∈ r.2.edge_updates, e.canonical) ∧
      ∀ e ∈ r.1._edges, e.canonical := by
  by_cases hS : swaps = []
  · subst hS
    rw [run_swaps_with_nil] at hr
    simp only [Option.some.injEq] at hr
    rw [← hr]
    exact ⟨fun m hm => by simp [RunLog.empty] at hm, fun m hm => by simp [RunLog.empty] at hm,
      fun m hm => by simp [RunLog.empty] at hm, fun m hm => by simp [RunLog.empty] at hm, hE⟩
  · obtain ⟨cr, p, hcr, hp, he, -, hlog⟩ := run_swaps_with_some b t edges swaps hS r hr
    have hload : ∀ m ∈ (run_ctx t edges swaps).depchain_edges, m.edge.canonical :=
      fun m hm => hE _ (load_edges_mem t edges 0 _ m hm)
    obtain ⟨c1, c2, c3, c4⟩ := compute_conflicts_canon t b swaps.length _ _ _ cr hload hcr
    obtain ⟨x1, x2⟩ := process_existence_requests_canon t cr.existence_merger edges c3
    obtain ⟨p1, p2, p3, p4⟩ := perform_swaps_canon t b swaps.length _ _ _ _ _ _ p c4 x2 hp
    rw [hlog, he]
    refine ⟨?_, c2, ?_, p1, ?_⟩
    · intro m hm
      rcases List.mem_append.mp hm with hm | hm
      · rcases List.mem_append.mp hm with hm | hm
        · exact hload m hm
        · exact c1 m hm
      · exact p3 m hm
    · intro m hm
      rcases List.mem_append.mp hm with hm | hm
      · exact x1 m hm
      · exact p4 m hm
    · intro e hmem
      rcases update_stream_mem _ _ _ e hmem with h | h
      · exact hE e h
      · exact p2 e h

/-- Witness for C5: the input of the test `deletion` is canonical, the run on it
returns, and every edge it leaves is canonical. -/
theorem canonical_preserved_witness :
    run_swaps_with IntScale.Mi 3 deletion_E deletion_S = some deletion_result ∧
      ∀ e ∈ deletion_result.1._edges, e.canonical :=
  ⟨by decide!,
    (canonical_preserved IntScale.Mi 3 deletion_E deletion_S (by decide) deletion_result
      (by decide!)).2.2.2.2⟩

/-! ## The swap definition -/

theorem normalized_eq_min_max (x y : Int) : edge_t.normalized x y = ⟨min x y, max x y⟩ := by
  unfold edge_t.normalized
  split
  · next h => simp [min_eq_left h, max_eq_right h]
  · next h =>
    have h1 : y ≤ x := le_of_lt (not_le.mp h)
    simp [min_eq_right h1, max_eq_left h1]

/-- C7: `_swap_edges a b 0` returns the canonical forms of `(a0,b0)` and `(a1,b1)`,
`_swap_edges a b 1` the canonical forms of `(a0,b1)` and `(a1,b0)`, the canonical
form of `(x,y)` being `(min x y, max x y)`; the two witnesses of the test
`noConflicts` evaluate as stated. -/
theorem swap_edges_definition (a b : edge_t) :
    _swap_edges a b false =
        (⟨min a.first b.first, max a.first b.first⟩,
          ⟨min a.second b.second, max a.second b.second⟩) ∧
      _swap_edges a b true =
        (⟨min a.first b.second, max a.first b.second⟩,
          ⟨min a.second b.first, max a.second b.first⟩) ∧
      _swap_edges ⟨1, 3⟩ ⟨2, 4⟩ true = (⟨1, 4⟩, ⟨2, 3⟩) ∧
      _swap_edges ⟨1, 2⟩ ⟨3, 4⟩ false = (⟨1, 3⟩, ⟨2, 4⟩) := by
  refine ⟨?_, ?_, by decide, by decide⟩
  · simp [_swap_edges, normalized_eq_min_max]
  · simp [_swap_edges, normalized_eq_min_max]

/-! ## The decision of the swap performer -/

theorem forward_edge_state_debug (limit sid : Nat) (ne : edge_t × edge_t) :
    ∀ (deps : List DependencyChainSuccessorMsg) (st : PerformState) (f : Bool × Bool),
      (forward_edge_state limit sid ne deps st f).1.debug = st.debug := by
  intro deps
  induction deps with
  | nil => intro st f; rfl
  | cons msg rest ih =>
    intro st f
    simp only [forward_edge_state]
    split
    · rw [ih]
      split <;> rfl
    · rfl

theorem push_existence_info_debug (limit t : Nat) (e : edge_t) (b : Bool) (st : PerformState) :
    (push_existence_info limit t e b st).debug = st.debug := by
  unfold push_existence_info
  simp only
  split <;> rfl

theorem forward_existence_debug (limit sid : Nat) (ce ne : edge_t × edge_t) :
    ∀ (succs : List ExistenceSuccessorMsg) (st : PerformState),
      (forward_existence limit sid ce ne succs st).debug = st.debug := by
  intro succs
  induction succs with
  | nil => intro st; rfl
  | cons m rest ih =>
    intro st
    simp only [forward_existence]
    split
    · rfl
    · rw [ih]
      split
      · exact push_existence_info_debug ..
      · split <;> exact push_existence_info_debug ..

theorem perform_swap_debug (sid_in_batch_limit sid : Nat) (st : PerformState)
    (direction : Bool) (directions : BoolStream)
    (hdir : st._swap_direction = direction :: directions)
    (h0 : source_ready (st.source_edges (sid, 0)) = true)
    (h1 : source_ready (st.source_edges (sid, 1)) = true)
    (hwait : st.existence_information.wait_for_missing sid = true) :
    ∃ st1, perform_swap sid_in_batch_limit sid st = some st1 ∧
      st1.debug = st.debug ++ [(swap_decision st.existence_information sid
        (st.source_edges (sid, 0), st.source_edges (sid, 1)) direction).normalize] := by
  unfold perform_swap
  rw [hdir]
  simp only [h0, h1, hwait, Bool.and_self, Bool.not_true, Bool.false_eq_true, if_false]
  refine ⟨_, rfl, ?_⟩
  simp only [forward_existence_debug, forward_edge_state_debug]

/-- C6: decision rule of the swap performer.  A swap whose waits are left writes
one debug record `r`, with `r.loop` iff one of the two edges of
`_swap_edges(src[0], src[1], direction)` is a self-loop, `r.conflictDetected[s]`
the answer of `exists(pos, new_edges[s])`, and
`r.performed = ¬loop ∧ ¬conflict[0] ∧ ¬conflict[1]`; a swap that would produce an
edge `(x,x)` reports `loop` and is not performed, and it is not an error: the
swap returns. -/
theorem perform_swap_decision_rule (sid_in_batch_limit sid : Nat) (st : PerformState)
    (direction : Bool) (directions : BoolStream)
    (hdir : st._swap_direction = direction :: directions)
    (hsrc : source_ready (st.source_edges (sid, 0)) = true ∧
      source_ready (st.source_edges (sid, 1)) = true)
    (hwait : st.existence_information.wait_for_missing sid = true) :
    ∃ st1 r, perform_swap sid_in_batch_limit sid st = some st1 ∧
      st1.debug = st.debug ++ [r] ∧
      r.loop = ((_swap_edges (st.source_edges (sid, 0)) (st.source_edges (sid, 1)) direction).1.is_loop
        || (_swap_edges (st.source_edges (sid, 0)) (st.source_edges (sid, 1)) direction).2.is_loop) ∧
      r.conflictDetected =
        (st.existence_information.exists sid
            (_swap_edges (st.source_edges (sid, 0)) (st.source_edges (sid, 1)) direction).1,
          st.existence_information.exists sid
            (_swap_edges (st.source_edges (sid, 0)) (st.source_edges (sid, 1)) direction).2) ∧
      r.performed = (!r.loop && !r.conflictDetected.1 && !r.conflictDetected.2) ∧
      (((_swap_edges (st.source_edges (sid, 0)) (st.source_edges (sid, 1)) direction).1.first =
          (_swap_edges (st.source_edges (sid, 0)) (st.source_edges (sid, 1)) direction).1.second ∨
        (_swap_edges (st.source_edges (sid, 0)) (st.source_edges (sid, 1)) direction).2.first =
          (_swap_edges (st.source_edges (sid, 0)) (st.source_edges (sid, 1)) direction).2.second) →
        r.loop = true ∧ r.performed = false) := by
  obtain ⟨st1, hst1, hdebug⟩ :=
    perform_swap_debug sid_in_batch_limit sid st direction directions hdir hsrc.1 hsrc.2 hwait
  obtain ⟨hp, hl, hc⟩ := normalize_fields (swap_decision st.existence_information sid
      (st.source_edges (sid, 0), st.source_edges (sid, 1)) direction)
  refine ⟨st1, _, hst1, hdebug, ?_⟩
  rw [hp, hl, hc]
  simp only [swap_decision, edge_t.is_loop]
  refine ⟨trivial, trivial, ?_, ?_⟩
  · cases (st.existence_information.exists sid _) <;>
      cases (st.existence_information.exists sid _) <;> simp
  · intro h
    rcases h with h | h <;> simp [h]

/-- Witness for C6: the swap of `(1,2)` and `(1,3)` under direction 0 gives the
loop `(1,1)`; it returns and reports `loop` and not `performed`. -/
theorem perform_swap_loop_reported :
    ∃ st1 r, perform_swap 1 0 loop_state = some st1 ∧ st1.debug = loop_state.debug ++ [r] ∧ r.loop = true ∧ r.performed = false := by
  obtain ⟨st1, r, h1, h2, _, _, _, h6⟩ := perform_swap_decision_rule 1 0 loop_state false [] rfl ⟨by decide, by decide⟩ (by decide)
  exact ⟨st1, r, h1, h2, h6 (Or.inl (by decide))⟩

/-! ## The scenarios -/

/-- C8: scenario "no-conflict": the run on `E = [(1,3),(2,4),(2,4),(3,3),(3,6),(5,6)]`
with `S = [(0,1,T),(1,2,F),(3,5,T)]` leaves `[(1,4),(2,3),(2,4),(3,3),(3,6),(5,6)]`,
for 1 to 16 worker threads. -/
theorem scenario_no_conflict :
    ∀ t : Fin 16, edges_after (t.val + 1) scenario_E scenario_S =
      some [⟨1, 4⟩, ⟨2, 3⟩, ⟨2, 4⟩, ⟨3, 3⟩, ⟨3, 6⟩, ⟨5, 6⟩] := by
  decide!

/-- C9: scenario "chain": the run on `E = [(1,2),(1,2),(1,2),(1,9),(2,10),(3,4),(5,6),(7,8)]`
with `S = [(0,5,F),(1,6,F),(2,7,F),(3,4,F)]` leaves
`[(1,2),(1,3),(1,5),(1,7),(2,4),(2,6),(2,8),(9,10)]`, for 1 to 16 worker threads. -/
theorem scenario_chain :
    ∀ t : Fin 16, edges_after (t.val + 1) chain_E chain_S =
      some [⟨1, 2⟩, ⟨1, 3⟩, ⟨1, 5⟩, ⟨1, 7⟩, ⟨2, 4⟩, ⟨2, 6⟩, ⟨2, 8⟩, ⟨9, 10⟩] := by
  decide!

/-- C10, as stated, fails: in the scenario "conflict-detected" (test `deletion`)
the run leaves `[(1,2),(1,2),(1,2),(1,6),(2,5),(3,4)]`, both swaps performed, and
not the edge list `[(1,2),(1,2),(1,3),(1,6),(2,4),(2,5)]`, for 1 to 16 worker
threads. -/
theorem scenario_deletion_diverges :
    (∀ t : Fin 16,
      edges_after (t.val + 1) deletion_E deletion_S =
        some [⟨1, 2⟩, ⟨1, 2⟩, ⟨1, 2⟩, ⟨1, 6⟩, ⟨2, 5⟩, ⟨3, 4⟩]) ∧
      ∀ t : Fin 16,
        edges_after (t.val + 1) deletion_E deletion_S ≠
          some [⟨1, 2⟩, ⟨1, 2⟩, ⟨1, 3⟩, ⟨1, 6⟩, ⟨2, 4⟩, ⟨2, 5⟩] := by
  decide!

/-- C1, as stated, fails: on the multigraph of the test `deletion` the edge list
the engine leaves is not the edge list of the serial simulator, not even up to
the order of the edges: the serial simulator refuses the second swap, which would
create a third copy of `(1,2)`; the engine, for which a source edge of a performed
swap does not exist any more, performs it. -/
theorem engine_differs_from_serial :
    serial_edges_after deletion_E deletion_S =
        [⟨1, 2⟩, ⟨1, 2⟩, ⟨1, 3⟩, ⟨1, 6⟩, ⟨2, 4⟩, ⟨2, 5⟩] ∧
      ∀ t : Fin 16, ∃ edges, edges_after (t.val + 1) deletion_E deletion_S = some edges ∧
        edges ≠ serial_edges_after deletion_E deletion_S ∧
        ¬ edges.Perm (serial_run deletion_E deletion_S) := by
  refine ⟨by decide!, fun t => ⟨[⟨1, 2⟩, ⟨1, 2⟩, ⟨1, 2⟩, ⟨1, 6⟩, ⟨2, 5⟩, ⟨3, 4⟩], ?_, by decide!, by decide!⟩⟩
  revert t
  decide!

/-- C2, as stated, fails: on the multigraph `stale_E` with the swaps `stale_S` the
debug vector reports the third swap as
performed with the edges `(1,5),(2,6)`, while the edges at its positions 2 and 5
after the first two swaps of the serial reference are `(1,9)` and `(5,6)`, which
swap to `(1,5),(6,9)`: the second swap, refused by the serial reference because
a copy of `(1,2)` is left, is performed by the engine. -/
theorem debug_record_differs_from_serial :
    (serial_run stale_E (stale_S.take 2))[2]? = some ⟨1, 9⟩ ∧
      (serial_run stale_E (stale_S.take 2))[5]? = some ⟨5, 6⟩ ∧
      _swap_edges ⟨1, 9⟩ ⟨5, 6⟩ false = (⟨1, 5⟩, ⟨6, 9⟩) ∧
      ∀ t : Fin 16,
        (run_swaps (t.val + 1) stale_E stale_S).map (fun r => r.1._result[2]?) =
          some (some ⟨true, false, (⟨1, 5⟩, ⟨2, 6⟩), (false, false)⟩) := by
  decide!

/-! ## The scenario "conflict-detected", swap by swap -/

/-- C11, as stated, fails: in the scenario "conflict-detected" (test `deletion`)
the first swap of the run is performed. -/
theorem scenario_deletion_first_swap_not_refused :
    (run_swaps 1 deletion_E deletion_S).map (fun r => r.1._result.map SwapResult.performed) =
        some [true, true] ∧
      (run_swaps 1 deletion_E deletion_S).map (fun r => r.1._result.map SwapResult.performed) ≠
        some [false, true] := by
  decide!

/-- C11, amended: in the scenario "conflict-detected" (test `deletion`) the first
swap, of the edges `(1,2)` and `(5,6)` under direction 1, is performed, for 1 to
16 worker threads: its debug record is `performed`, without loop and without
conflict, and holds the edges `(1,6)` and `(2,5)`. -/
theorem scenario_deletion_first_swap_performed :
    ∀ t : Fin 16,
      (run_swaps (t.val + 1) deletion_E deletion_S).map (fun r => r.1._result[0]?) =
        some (some ⟨true, false, (⟨1, 6⟩, ⟨2, 5⟩), (false, false)⟩) := by
  decide!

/-! ## The edges of a debug record -/

/-- C12, as stated, fails: the swap of `(1,2)` and `(1,3)` under direction 0 is
not performed (it gives the loop `(1,1)`), and its debug record holds the swapped
edges `(1,1)` and `(2,3)`, not its source edges. -/
theorem debug_record_of_refused_swap :
    (perform_swap 1 0 loop_state).map (fun st => st.debug) =
        some [⟨false, true, (⟨1, 1⟩, ⟨2, 3⟩), (false, false)⟩] ∧
      ((⟨1, 1⟩, ⟨2, 3⟩) : edge_t × edge_t) ≠ (loop_state.source_edges (0, 0),
        loop_state.source_edges (0, 1)) := by
  decide!

/-- C12, amended: the debug record of a swap is written before the step
`if (!perform_swap) new_edges = cur_edges`: for every swap, performed or not, the
edges of its debug record are the two swapped edges
`_swap_edges(cur_edges[0], cur_edges[1], direction)`, sorted among themselves. -/
theorem debug_record_holds_swapped_edges (sid_in_batch_limit sid : Nat)
    (st st1 : PerformState) (direction : Bool) (directions : BoolStream)
    (hdir : st._swap_direction = direction :: directions)
    (h : perform_swap sid_in_batch_limit sid st = some st1) :
    ∃ r, st1.debug = st.debug ++ [r] ∧
      r.edges =
        (if (_swap_edges (st.source_edges (sid, 0)) (st.source_edges (sid, 1)) direction).2 <
            (_swap_edges (st.source_edges (sid, 0)) (st.source_edges (sid, 1)) direction).1 then
          ((_swap_edges (st.source_edges (sid, 0)) (st.source_edges (sid, 1)) direction).2,
            (_swap_edges (st.source_edges (sid, 0)) (st.source_edges (sid, 1)) direction).1)
        else _swap_edges (st.source_edges (sid, 0)) (st.source_edges (sid, 1)) direction) := by
  have h0 : source_ready (st.source_edges (sid, 0)) = true := by
    by_contra hc
    simp [perform_swap, hdir, hc] at h
  have h1 : source_ready (st.source_edges (sid, 1)) = true := by
    by_contra hc
    simp [perform_swap, hdir, hc] at h
  have hw : st.existence_information.wait_for_missing sid = true := by
    by_contra hc
    simp [perform_swap, hdir, hc, h0, h1] at h
  obtain ⟨st2, hst2, hdebug⟩ :=
    perform_swap_debug sid_in_batch_limit sid st direction directions hdir h0 h1 hw
  rw [h] at hst2
  simp only [Option.some.injEq] at hst2
  subst hst2
  refine ⟨_, hdebug, ?_⟩
  unfold SwapResult.normalize swap_decision
  dsimp only
  split <;> rfl

/-- Witness for C12: the refused swap of `(1,2)` and `(1,3)` writes the swapped
edges. -/
theorem debug_record_holds_swapped_edges_witness :
    ∃ st1 r, perform_swap 1 0 loop_state = some st1 ∧
      st1.debug = loop_state.debug ++ [r] ∧ r.edges = (⟨1, 1⟩, ⟨2, 3⟩) := by
  have hsome : (perform_swap 1 0 loop_state).isSome = true := by decide!
  obtain ⟨st1, hst1⟩ := Option.isSome_iff_exists.mp hsome
  obtain ⟨r, hr, he⟩ := debug_record_holds_swapped_edges 1 0 loop_state st1 false [] rfl hst1
  exact ⟨st1, r, hst1, hr, by rw [he]; decide⟩

/-! ## The key codec -/

/-- C13, key codec round trip: for a swap id below `2^63` (one bit less than the
key width) and a side in `{0,1}`, `pack_swap_id_spos` is `(sid << 1) | side`, and
`get_swap_id` and `get_swap_spos` give the swap id and the side back; and every
64-bit key is the packing of its swap id and its side. -/
theorem key_codec_round_trip (sid side k : Nat) (hsid : sid < 2 ^ 63) (hside : side < 2)
    (hk : k < 2 ^ 64) :
    pack_swap_id_spos sid side = (sid <<< 1) ||| side ∧
      get_swap_id (pack_swap_id_spos sid side) = sid ∧
      get_swap_spos (pack_swap_id_spos sid side) = side ∧
      pack_swap_id_spos (get_swap_id k) (get_swap_spos k) = k := by
  have hor : (sid <<< 1) ||| side = 2 * sid + side := by
    have h1 : sid <<< 1 = 2 ^ 1 * sid := by rw [Nat.shiftLeft_eq]; ring
    rw [h1, ← Nat.mul_add_lt_is_or (by simpa using hside) sid]
  refine ⟨?_, ?_, ?_, ?_⟩
  · rw [pack_eq hsid hside, hor]
  · rw [pack_eq hsid hside, get_swap_id_pack hside]
  · rw [pack_eq hsid hside, get_swap_spos_pack hside]
  · rw [get_swap_id_eq, get_swap_spos_eq, pack_eq (by omega) (by omega)]
    omega

/-- Witness for C13: the largest swap id and the largest key. -/
theorem key_codec_round_trip_witness :
    pack_swap_id_spos (2 ^ 63 - 1) 1 = ((2 ^ 63 - 1) <<< 1) ||| 1 ∧
      get_swap_id (pack_swap_id_spos (2 ^ 63 - 1) 1) = 2 ^ 63 - 1 ∧
      get_swap_spos (pack_swap_id_spos (2 ^ 63 - 1) 1) = 1 ∧
      pack_swap_id_spos (get_swap_id (2 ^ 64 - 1)) (get_swap_spos (2 ^ 64 - 1)) = 2 ^ 64 - 1 :=
  key_codec_round_trip (2 ^ 63 - 1) 1 (2 ^ 64 - 1) (by norm_num) (by norm_num) (by norm_num)

/-! ## The order of the existence requests -/

/-- C14, existence-request order: `ExistenceRequestMsg::operator<` orders by edge
ascending, then by swap id descending, then by the flag, `false` before `true`;
and the sorter delivers the requests in that order: no request is below one
delivered before it. -/
theorem existence_request_order (a b : ExistenceRequestMsg)
    (pushed : List ExistenceRequestMsg) :
    (ExistenceRequestMsg.lt a b ↔
      a.edge < b.edge ∨ (a.edge = b.edge ∧ a.swap_id > b.swap_id) ∨
        (a.edge = b.edge ∧ a.swap_id = b.swap_id ∧ a.forward_only = false ∧
          b.forward_only = true)) ∧
      (sorter_sort ExistenceRequestMsg.le pushed).Pairwise
        (fun x y => ¬ ExistenceRequestMsg.lt y x) := by
  constructor
  · unfold ExistenceRequestMsg.lt
    rw [bool_lt_iff]
    constructor
    · rintro (h | ⟨h1, h2 | ⟨h2, h3⟩⟩)
      · exact Or.inl h
      · exact Or.inr (Or.inl ⟨h1, h2⟩)
      · exact Or.inr (Or.inr ⟨h1, h2, h3⟩)
    · rintro (h | ⟨h1, h2⟩ | ⟨h1, h2, h3⟩)
      · exact Or.inl h
      · exact Or.inr ⟨h1, Or.inl h2⟩
      · exact Or.inr ⟨h1, Or.inr ⟨h2, h3⟩⟩
  · exact sorter_sort_sorted ExistenceRequestMsg.le pushed

/-! ## The write-back state machine -/

theorem sorter_sort_eq_nil {α : Type} (le : α → α → Prop) [DecidableRel le] (l : List α) :
    sorter_sort le l = [] ↔ l = [] := by
  constructor
  · intro h
    have := (sorter_sort_perm le l).length_eq
    rw [h] at this
    exact List.eq_nil_of_length_eq_zero this.symm
  · intro h
    subst h
    rfl

theorem process_swaps_with_state (b : Nat) (g g1 : Engine) (log : RunLog)
    (h : process_swaps_with b g = some (g1, log)) :
    g1._num_swaps_in_run = 0 ∧
      (g1._needs_writeback = true ↔
        (¬ (g._num_swaps_in_run = 0 ∧ g._needs_writeback = false) ∧
          g._edge_swap_sorter ≠ [])) ∧
      (¬ (g._num_swaps_in_run = 0 ∧ g._needs_writeback = false) → g1._edge_swap_sorter = []) := by
  unfold process_swaps_with at h
  by_cases hearly : g._num_swaps_in_run = 0 ∧ g._needs_writeback = false
  · have hc : g._num_swaps_in_run = 0 ∧ (!g._needs_writeback) = true := by
      simpa using hearly
    rw [if_pos hc] at h
    simp only [Option.some.injEq, Prod.mk.injEq] at h
    rw [← h.1]
    refine ⟨hearly.1, ?_, fun hn => absurd hearly hn⟩
    constructor
    · intro hw
      rw [hearly.2] at hw
      exact absurd hw (by decide)
    · intro hw
      exact absurd hearly hw.1
  · have hc : ¬ (g._num_swaps_in_run = 0 ∧ (!g._needs_writeback) = true) := by
      simpa using hearly
    rw [if_neg hc] at h
    have hnw : (_load_and_update_edges g).engine._needs_writeback = true ↔
        g._edge_swap_sorter ≠ [] := by
      unfold _load_and_update_edges
      dsimp only
      rw [Bool.not_eq_true', List.isEmpty_eq_false, ne_eq, ne_eq, sorter_sort_eq_nil]
    dsimp only at h
    split at h
    · split at h
      · simp at h
      · split at h
        · simp at h
        · simp only [Option.some.injEq, Prod.mk.injEq] at h
          rw [← h.1]
          exact ⟨rfl, ⟨fun hw => ⟨hearly, hnw.mp hw⟩, fun hw => hnw.mpr hw.2⟩, fun _ => rfl⟩
    · simp only [Option.some.injEq, Prod.mk.injEq] at h
      rw [← h.1]
      exact ⟨rfl, ⟨fun hw => ⟨hearly, hnw.mp hw⟩, fun hw => hnw.mpr hw.2⟩, fun _ => rfl⟩

/-- C15, write-back state machine.  `process_swaps` gives the engine back
untouched when no swap is pending and `_needs_writeback` is false; after a call
of `process_swaps` no swap is pending, and `_needs_writeback` is true iff the
call loaded the edges and at least one edge request was in the request sorter;
after `run`, the two calls of `process_swaps`, no swap is pending,
`_needs_writeback` is false and a further call of `process_swaps` changes
nothing. -/
theorem writeback_state_machine (b : Nat) (g : Engine) :
    (g._num_swaps_in_run = 0 → g._needs_writeback = false →
        process_swaps_with b g = some (g, RunLog.empty)) ∧
      (∀ g1 log, process_swaps_with b g = some (g1, log) →
        g1._num_swaps_in_run = 0 ∧
        (g1._needs_writeback = true ↔
          (¬ (g._num_swaps_in_run = 0 ∧ g._needs_writeback = false) ∧
            g._edge_swap_sorter ≠ []))) ∧
      (∀ g2 log, run_with b g = some (g2, log) →
        g2._num_swaps_in_run = 0 ∧ g2._needs_writeback = false ∧
          process_swaps_with b g2 = some (g2, RunLog.empty)) := by
  have hnoop : ∀ g0 : Engine, g0._num_swaps_in_run = 0 → g0._needs_writeback = false →
      process_swaps_with b g0 = some (g0, RunLog.empty) := by
    intro g0 h1 h2
    unfold process_swaps_with
    rw [if_pos (by simp [h1, h2])]
  refine ⟨hnoop g, ?_, ?_⟩
  · intro g1 log h
    obtain ⟨a, c, -⟩ := process_swaps_with_state b g g1 log h
    exact ⟨a, c⟩
  · intro g2 log h
    unfold run_with at h
    split at h
    · simp at h
    next g1 log1 h1 =>
    split at h
    · simp at h
    next g2a log2 h2 =>
    simp only [Option.some.injEq, Prod.mk.injEq] at h
    rw [← h.1]
    obtain ⟨a1, c1, d1⟩ := process_swaps_with_state b g g1 log1 h1
    obtain ⟨a2, c2, d2⟩ := process_swaps_with_state b g1 g2a log2 h2
    have hn1 : g1._num_swaps_in_run = 0 := a1
    have hn2 : g2a._num_swaps_in_run = 0 := a2
    have hw2 : g2a._needs_writeback = false := by
      by_contra hcon
      have ht : g2a._needs_writeback = true := by simpa using hcon
      obtain ⟨hne, hsort⟩ := c2.mp ht
      -- the first call was no early return, or the second call would have been one
      have hw1 : g1._needs_writeback = true := by
        by_contra hw
        exact hne ⟨hn1, by simpa using hw⟩
      have := d1 (c1.mp hw1).1
      exact hsort this
    exact ⟨hn2, hw2, hnoop g2a hn2 hw2⟩

/-- Witness for C15: a fresh engine ignores `process_swaps`, and the engine the
run of the test `noConflicts` leaves has nothing pending. -/
theorem writeback_state_machine_witness :
    process_swaps_with IntScale.Mi (Engine.init 1 scenario_E) =
        some (Engine.init 1 scenario_E, RunLog.empty) ∧
      scenario_result.1._num_swaps_in_run = 0 ∧ scenario_result.1._needs_writeback = false ∧
      process_swaps_with IntScale.Mi scenario_result.1 = some (scenario_result.1, RunLog.empty) :=
  ⟨(writeback_state_machine IntScale.Mi (Engine.init 1 scenario_E)).1 rfl rfl,
    (writeback_state_machine IntScale.Mi
      (scenario_S.foldl push (Engine.init 1 scenario_E))).2.2
        scenario_result.1 scenario_result.2 (by decide!)⟩

/-! ## The asynchronous stream -/

theorem length_vector_resize {α : Type} (v : List α) (n : Nat) (d : α) :
    (vector_resize v n d).length = n := by
  unfold vector_resize
  rw [List.length_append, List.length_take, List.length_replicate]
  omega

theorem getD_vector_resize_replicate {α : Type} (k n i : Nat) (d : α) :
    (vector_resize (List.replicate k d) n d).getD i d = d := by
  unfold vector_resize
  rw [List.getD_eq_getElem?_getD]
  cases h : (List.take n (List.replicate k d) ++
      List.replicate (n - (List.replicate k d).length) d)[i]? with
  | none => rfl
  | some b =>
    have hb : b ∈ List.take n (List.replicate k d) ++
        List.replicate (n - (List.replicate k d).length) d := by
      rw [List.getElem?_eq_some_iff] at h
      obtain ⟨hi, rfl⟩ := h
      exact List.getElem_mem _
    rw [List.mem_append] at hb
    rcases hb with hb | hb
    · have := List.mem_of_mem_take hb
      rw [List.mem_replicate] at this
      rw [this.2]; rfl
    · rw [List.mem_replicate] at hb
      rw [hb.2]; rfl

theorem producer_run_finished {T : Type} (s : AsyncStream T) :
    ∀ fuel, AsyncSystem.producer_run fuel ⟨s, ProducerPc.finished⟩ = ⟨s, ProducerPc.finished⟩ := by
  intro fuel
  cases fuel <;> rfl

/-- The producer thread on the empty sequence: it resizes the ring, fills
nothing into buffer 0, hands buffer 0 over and is done. -/
theorem producer_run_empty_sequence {T : Type} (sizeof_T number_of_buffers fuel : Nat)
    (hbs : 2 ≤ (1 <<< 20) / sizeof_T) :
    ∃ buffers : List (List T),
      AsyncSystem.producer_run (fuel + 3)
        (AsyncSystem.create sizeof_T ([] : List T) number_of_buffers) =
        ⟨{ sizeof_T := sizeof_T
           _buffers := buffers
           _producing_stream := []
           _producing_buffer_index := 1
           _producing_done := true
           _consume_buffer_index := 0
           _consume_range := []
           _consume_acquired := false
           _consume_empty := false
           _consume_done := false }, ProducerPc.finished⟩ ∧
      buffers.length = (1 <<< 20) / sizeof_T ∧ buffers.getD 0 [] = [] := by
  have hlen : (vector_resize (List.replicate number_of_buffers ([] : List T))
      ((1 <<< 20) / sizeof_T) []).length = (1 <<< 20) / sizeof_T := length_vector_resize _ _ _
  have hget := getD_vector_resize_replicate number_of_buffers ((1 <<< 20) / sizeof_T) 0
    ([] : List T)
  refine ⟨(vector_resize (List.replicate number_of_buffers ([] : List T))
      ((1 <<< 20) / sizeof_T) []).set 0 [], ?_, ?_, ?_⟩
  · have h1 : AsyncSystem.producer_step
        (AsyncSystem.create sizeof_T ([] : List T) number_of_buffers) =
        some ⟨(AsyncStream.create sizeof_T ([] : List T) number_of_buffers).producer_resize,
          ProducerPc.fill⟩ := rfl
    have h2 : AsyncSystem.producer_step
        ⟨(AsyncStream.create sizeof_T ([] : List T) number_of_buffers).producer_resize,
          ProducerPc.fill⟩ =
        some ⟨((AsyncStream.create sizeof_T ([] : List T)
          number_of_buffers).producer_resize).producer_fill, ProducerPc.advance⟩ := rfl
    have h3 : ((AsyncStream.create sizeof_T ([] : List T)
        number_of_buffers).producer_resize).producer_fill =
        { sizeof_T := sizeof_T
          _buffers := (vector_resize (List.replicate number_of_buffers ([] : List T))
            ((1 <<< 20) / sizeof_T) []).set 0 []
          _producing_stream := []
          _producing_buffer_index := 0
          _producing_done := false
          _consume_buffer_index := 0
          _consume_range := []
          _consume_acquired := false
          _consume_empty := false
          _consume_done := false } := by
      simp only [AsyncStream.producer_fill, AsyncStream.producer_resize, AsyncStream.create,
        AsyncStream.buffer_size, List.take_nil, List.drop_nil, List.append_nil, hget]
    have h4 : AsyncStream.producer_advance
        ({ sizeof_T := sizeof_T
           _buffers := (vector_resize (List.replicate number_of_buffers ([] : List T))
             ((1 <<< 20) / sizeof_T) []).set 0 []
           _producing_stream := []
           _producing_buffer_index := 0
           _producing_done := false
           _consume_buffer_index := 0
           _consume_range := []
           _consume_acquired := false
           _consume_empty := false
           _consume_done := false } : AsyncStream T) =
        some ({ sizeof_T := sizeof_T
                _buffers := (vector_resize (List.replicate number_of_buffers ([] : List T))
                  ((1 <<< 20) / sizeof_T) []).set 0 []
                _producing_stream := []
                _producing_buffer_index := 1
                _producing_done := true
                _consume_buffer_index := 0
                _consume_range := []
                _consume_acquired := false
                _consume_empty := false
                _consume_done := false }, false) := by
      have hmod : (0 + 1) % ((1 <<< 20) / sizeof_T) = 1 := Nat.mod_eq_of_lt (by omega)
      unfold AsyncStream.producer_advance AsyncStream._next_buffer_index
      simp only [List.length_set, hlen, hmod]
      rw [if_pos (Or.inl (by decide))]
      rfl
    show AsyncSystem.producer_run (fuel + 2 + 1) _ = _
    unfold AsyncSystem.producer_run
    rw [h1]
    dsimp only
    show AsyncSystem.producer_run (fuel + 1 + 1) _ = _
    unfold AsyncSystem.producer_run
    rw [h2, h3]
    dsimp only
    unfold AsyncSystem.producer_run
    have h5 : AsyncSystem.producer_step
        (⟨{ sizeof_T := sizeof_T
            _buffers := (vector_resize (List.replicate number_of_buffers ([] : List T))
              ((1 <<< 20) / sizeof_T) []).set 0 []
            _producing_stream := []
            _producing_buffer_index := 0
            _producing_done := false
            _consume_buffer_index := 0
            _consume_range := []
            _consume_acquired := false
            _consume_empty := false
            _consume_done := false }, ProducerPc.advance⟩ : AsyncSystem T) =
        some ⟨{ sizeof_T := sizeof_T
                _buffers := (vector_resize (List.replicate number_of_buffers ([] : List T))
                  ((1 <<< 20) / sizeof_T) []).set 0 []
                _producing_stream := []
                _producing_buffer_index := 1
                _producing_done := true
                _consume_buffer_index := 0
                _consume_range := []
                _consume_acquired := false
                _consume_empty := false
                _consume_done := false }, ProducerPc.finished⟩ := by
      unfold AsyncSystem.producer_step
      dsimp only
      rw [h4]
    rw [h5]
    dsimp only
    exact producer_run_finished _ fuel
  · rw [List.length_set, hlen]
  · rw [List.getD_eq_getElem?_getD, List.getElem?_set_self (by rw [hlen]; omega)]
    rfl

/-- The consumer of a stream over the empty sequence gets a buffer that it is
told is not empty. -/
theorem acquire_of_empty_sequence {T : Type} (sizeof_T number_of_buffers fuel : Nat)
    (hbs : 2 ≤ (1 <<< 20) / sizeof_T) :
    ∃ y, (AsyncSystem.create sizeof_T ([] : List T) number_of_buffers).acquire (fuel + 3) =
        some y ∧
      y.stream.empty = false ∧ y.stream.deref = none ∧ y.stream._producing_done = true ∧
      y.stream._producing_stream = [] ∧ y.stream._buffers.length = (1 <<< 20) / sizeof_T := by
  obtain ⟨buffers, hrun, hlen, hget⟩ :=
    producer_run_empty_sequence (T := T) sizeof_T number_of_buffers fuel hbs
  unfold AsyncSystem.acquire AsyncSystem._consume_acquire_buffer
  dsimp only
  have h1 : (AsyncSystem.create sizeof_T ([] : List T)
      number_of_buffers).stream.consume_give_back.consume_take = none := rfl
  rw [h1]
  dsimp only
  have h2 : (⟨(AsyncSystem.create sizeof_T ([] : List T)
        number_of_buffers).stream.consume_give_back,
      (AsyncSystem.create sizeof_T ([] : List T) number_of_buffers).pc⟩ :
      AsyncSystem T) = AsyncSystem.create sizeof_T ([] : List T) number_of_buffers := rfl
  rw [h2, hrun]
  refine ⟨_, rfl, rfl, ?_, rfl, rfl, hlen⟩
  show List.head? (buffers.getD 0 []) = none
  rw [hget]
  rfl

/-- C17: `AsyncStream` is not transparent.  Over the empty sequence (elements of
8 bytes, 3 buffers) `acquire()` returns with `empty()` false although nothing is
left to read, `operator*` then stands on the end iterator, and a reader's loop
`for (; !s.empty(); ++s)` reads past the end.  Over a sequence long enough to
reuse a ring buffer (elements of `2^19` bytes, hence 2 elements per buffer and
a ring of 2 buffers; the sequence `0,…,5`) the reader gets `0,1,2,3,0,1,4,5`:
the buffer that is filled a second time still holds its first two elements. -/
theorem async_stream_not_transparent :
    (∃ y, (AsyncSystem.create 8 ([] : List Nat) 3).acquire 3 = some y ∧
      y.stream.empty = false ∧ y.stream.deref = none ∧ y.stream._producing_stream = [] ∧
      ∀ n fuel, AsyncSystem.read (n + 1) fuel y = none) ∧
    ((AsyncSystem.create (2 ^ 19) [0, 1, 2, 3, 4, 5] 3).acquire 8).bind (AsyncSystem.read 9 8) =
      some ([0, 1, 2, 3, 0, 1, 4, 5], true) := by
  constructor
  · obtain ⟨y, h1, h2, h3, -, h5, -⟩ :=
      acquire_of_empty_sequence (T := Nat) 8 3 0 (by decide)
    refine ⟨y, h1, h2, h3, h5, ?_⟩
    intro n fuel
    unfold AsyncSystem.read
    rw [h2, h3]
    rfl
  · decide!

/-- C18: the ring of an `AsyncStream` does not keep its `number_of_buffers`
buffers.  The constructor makes a ring of `number_of_buffers` buffers; the first
statement of the producer thread, `_buffers.resize(buffer_size)`, makes it a ring
of `buffer_size = (1<<20) / sizeof(T)` buffers, for elements of 16 bytes 65536
buffers, and from then on `_next_buffer_index(i) = (i + 1) mod 65536`; with 3
buffers asked for, the index after 2 is 3. -/
theorem async_stream_ring_resized {T : Type} (xs : List T) (number_of_buffers : Nat) :
    (AsyncSystem.create 16 xs number_of_buffers).stream._buffers.length = number_of_buffers ∧
      ∃ y, (AsyncSystem.create 16 xs number_of_buffers).producer_step = some y ∧
        y.stream._buffers.length = 65536 ∧
        (∀ i, y.stream._next_buffer_index i = (i + 1) % 65536) ∧
        y.stream._next_buffer_index 2 = 3 := by
  constructor
  · simp [AsyncSystem.create, AsyncStream.create]
  · have hlen : ((AsyncSystem.create 16 xs number_of_buffers).stream.producer_resize)._buffers.length
        = 65536 := by
      unfold AsyncStream.producer_resize
      dsimp only
      rw [length_vector_resize]
      show (1 <<< 20) / 16 = 65536
      decide
    refine ⟨⟨(AsyncSystem.create 16 xs number_of_buffers).stream.producer_resize,
      ProducerPc.fill⟩, rfl, hlen, ?_, ?_⟩
    · intro i
      unfold AsyncStream._next_buffer_index
      rw [hlen]
    · unfold AsyncStream._next_buffer_index
      rw [hlen]

theorem existence_chain_spec (t : Nat) (X : edge_t) :
    ∀ (reqs visited : List ExistenceRequestMsg) (last : Nat) (found : Bool),
      (∀ r, reqs.head? = some r → last = spec_last_sid visited r) →
      found = decide (∃ v ∈ visited, v.forward_only = false) →
      (existence_chain t X reqs last found).1.successor_output =
          (spec_existence_chain X visited (reqs.takeWhile fun r => decide (r.edge = X))).map
            (fun m => (_thread t m.swap_id, m)) ∧
        (existence_chain t X reqs last found).1.existence_placeholder_output =
          (spec_existence_chain X visited (reqs.takeWhile fun r => decide (r.edge = X))).map
            (fun m => (_thread t m.successor, m.successor)) ∧
        (existence_chain t X reqs last found).2.2.2 =
          reqs.dropWhile fun r => decide (r.edge = X) := by
  intro reqs
  induction reqs with
  | nil =>
    intro visited last found _ _
    exact ⟨rfl, rfl, rfl⟩
  | cons r rest ih =>
    intro visited last found hlast hfound
    unfold existence_chain
    by_cases hX : r.edge = X
    · have hlast1 : last = spec_last_sid visited r := hlast r rfl
      rw [if_neg (by simpa using hX)]
      dsimp only
      obtain ⟨a1, a2, a3⟩ := ih (visited ++ [r]) r.swap_id (found || !r.forward_only)
        (by
          intro r2 _
          simp [spec_last_sid])
        (by
          rw [hfound]
          cases hf : r.forward_only
          · simp only [Bool.not_false, Bool.or_true, List.mem_append, List.mem_singleton,
              true_eq_decide_iff]
            exact ⟨r, Or.inr rfl, hf⟩
          · simp only [Bool.not_true, Bool.or_false, List.mem_append, List.mem_singleton,
              decide_eq_decide]
            constructor
            · rintro ⟨v, hv, hvf⟩
              exact ⟨v, Or.inl hv, hvf⟩
            · rintro ⟨v, hv | hv, hvf⟩
              · exact ⟨v, hv, hvf⟩
              · rw [hv, hf] at hvf
                exact absurd hvf (by decide))
      have htake : (r :: rest).takeWhile (fun r => decide (r.edge = X)) =
          r :: rest.takeWhile (fun r => decide (r.edge = X)) := by
        rw [List.takeWhile_cons, if_pos (by simpa using hX)]
      have hdrop : (r :: rest).dropWhile (fun r => decide (r.edge = X)) =
          rest.dropWhile (fun r => decide (r.edge = X)) := by
        rw [List.dropWhile_cons, if_pos (by simpa using hX)]
      rw [htake, hdrop]
      unfold spec_existence_chain
      rw [← hlast1, List.map_append, List.map_append]
      by_cases hc : last ≠ r.swap_id ∧ found = true
      · have hc2 : r.swap_id ≠ last ∧ ∃ v ∈ visited, v.forward_only = false := by
          refine ⟨fun h => hc.1 h.symm, ?_⟩
          have := hc.2
          rw [hfound] at this
          simpa using this
        rw [if_pos hc, if_pos hc2]
        exact ⟨by rw [a1]; rfl, by rw [a2]; rfl, a3⟩
      · have hc2 : ¬ (r.swap_id ≠ last ∧ ∃ v ∈ visited, v.forward_only = false) := by
          rintro ⟨h1, h2⟩
          apply hc
          refine ⟨fun h => h1 h.symm, ?_⟩
          rw [hfound]
          simpa using h2
        rw [if_neg hc, if_neg hc2]
        exact ⟨by rw [a1]; rfl, by rw [a2]; rfl, a3⟩
    · rw [if_pos (by simpa using hX)]
      have htake : (r :: rest).takeWhile (fun r => decide (r.edge = X)) = [] := by
        rw [List.takeWhile_cons, if_neg (by simpa using hX)]
      have hdrop : (r :: rest).dropWhile (fun r => decide (r.edge = X)) = r :: rest := by
        rw [List.dropWhile_cons, if_neg (by simpa using hX)]
      rw [htake, hdrop]
      exact ⟨rfl, rfl, rfl⟩

theorem spec_existence_chain_mem (X : edge_t) :
    ∀ (run visited : List ExistenceRequestMsg), ∀ m ∈ spec_existence_chain X visited run,
      m.swap_id ≠ m.successor ∧ m.edge = X ∧ ∃ v ∈ visited ++ run, v.forward_only = false := by
  intro run
  induction run with
  | nil => intro visited m hm; simp [spec_existence_chain] at hm
  | cons r rest ih =>
    intro visited m hm
    unfold spec_existence_chain at hm
    rcases List.mem_append.mp hm with hm | hm
    · split at hm
      · next hc =>
        rw [List.mem_singleton.mp hm]
        obtain ⟨v, hv, hvf⟩ := hc.2
        exact ⟨hc.1, rfl, v, List.mem_append_left _ hv, hvf⟩
      · simp at hm
    · obtain ⟨a, b, v, hv, hvf⟩ := ih (visited ++ [r]) m hm
      refine ⟨a, b, v, ?_, hvf⟩
      simpa using hv

/-- C20, existence chain construction.  The walk of `_process_existence_requests`
over the requests on the edge of the first request, started as in the source with
`last_swap` the swap id of the first request and `foundTargetEdge = false`, pushes
exactly the `ExistSucc` messages of the spec's chain over the maximal run of
requests on that edge, each to the thread of its swap, and with each one
placeholder for its `last_sid`, to the thread of that swap; it leaves the rest of
the requests unread.  No message links a swap to itself, and none is pushed
unless a target request is in the run. -/
theorem existence_chain_construction (t : Nat) (request : ExistenceRequestMsg)
    (rest : List ExistenceRequestMsg) :
    (existence_chain t request.edge (request :: rest) request.swap_id false).1.successor_output =
        (spec_existence_chain request.edge []
          ((request :: rest).takeWhile fun r => decide (r.edge = request.edge))).map
          (fun m => (_thread t m.swap_id, m)) ∧
      (existence_chain t request.edge (request :: rest)
          request.swap_id false).1.existence_placeholder_output =
        (spec_existence_chain request.edge []
          ((request :: rest).takeWhile fun r => decide (r.edge = request.edge))).map
          (fun m => (_thread t m.successor, m.successor)) ∧
      (existence_chain t request.edge (request :: rest) request.swap_id false).2.2.2 =
        (request :: rest).dropWhile (fun r => decide (r.edge = request.edge)) ∧
      (∀ m ∈ (existence_chain t request.edge (request :: rest)
          request.swap_id false).1.successor_output,
        m.2.swap_id ≠ m.2.successor ∧ m.2.edge = request.edge ∧
          ∃ v ∈ (request :: rest).takeWhile (fun r => decide (r.edge = request.edge)),
            v.forward_only = false) := by
  obtain ⟨a1, a2, a3⟩ := existence_chain_spec t request.edge (request :: rest) []
    request.swap_id false
    (by
      intro r hr
      simp only [List.head?_cons, Option.some.injEq] at hr
      rw [← hr]
      rfl)
    (by simp)
  refine ⟨a1, a2, a3, ?_⟩
  intro m hm
  rw [a1] at hm
  obtain ⟨m2, hm2, rfl⟩ := List.mem_map.mp hm
  obtain ⟨b1, b2, v, hv, hvf⟩ := spec_existence_chain_mem request.edge _ [] m2 hm2
  exact ⟨b1, b2, v, by simpa using hv, hvf⟩

/-! ## The merge of the sources with the candidates -/

theorem edge_lt_of_le_of_lt {a b c : edge_t} (h1 : a ≤ b) (h2 : b < c) : a < c := by
  rw [edge_le_iff] at h1
  rw [edge_lt_iff] at *
  omega

theorem edge_lt_of_lt_of_le {a b c : edge_t} (h1 : a < b) (h2 : b ≤ c) : a < c := by
  rw [edge_le_iff] at h2
  rw [edge_lt_iff] at *
  omega

theorem edge_lt_irrefl (a : edge_t) : ¬ a < a := by
  rw [edge_lt_iff]; omega

theorem edge_le_of_lt {a b : edge_t} (h : a < b) : a ≤ b := ((edge_lt_iff_le_ne a b).mp h).1

theorem skip_duplicates_sorted (x : edge_t) :
    ∀ (xs : List edge_t), (x :: xs).Sorted edge_le →
      (∀ y ∈ skip_duplicates x xs, x < y ∧ y ∈ xs) ∧ (skip_duplicates x xs).Sorted edge_le ∧
        (∀ y ∈ xs, y = x ∨ y ∈ skip_duplicates x xs) ∧
        (skip_duplicates x xs).length ≤ xs.length := by
  intro xs
  induction xs with
  | nil =>
    intro _
    exact ⟨fun y hy => by simp [skip_duplicates] at hy, List.sorted_nil,
      fun y hy => by simp at hy, Nat.le_refl _⟩
  | cons y ys ih =>
    intro hs
    have hs1 := List.sorted_cons.mp hs
    have hs2 := List.sorted_cons.mp hs1.2
    unfold skip_duplicates
    by_cases hyx : y = x
    · rw [if_pos hyx]
      obtain ⟨a1, a2, a3, a4⟩ := ih (List.sorted_cons.mpr
        ⟨fun z hz => hs1.1 z (List.mem_cons_of_mem _ hz), hs2.2⟩)
      refine ⟨fun z hz => ⟨(a1 z hz).1, List.mem_cons_of_mem _ (a1 z hz).2⟩, a2, ?_,
        Nat.le_succ_of_le a4⟩
      intro z hz
      rcases List.mem_cons.mp hz with rfl | hz
      · exact Or.inl hyx
      · exact a3 z hz
    · rw [if_neg hyx]
      have hxy : x < y := (edge_lt_iff_le_ne x y).mpr
        ⟨hs1.1 y (List.mem_cons_self _ _), fun h => hyx h.symm⟩
      refine ⟨?_, hs1.2, fun z hz => Or.inr hz, Nat.le_refl _⟩
      intro z hz
      refine ⟨?_, hz⟩
      rcases List.mem_cons.mp hz with rfl | hz
      · exact hxy
      · exact edge_lt_of_lt_of_le hxy (hs2.1 z hz)

theorem forward_candidates_spec (e : edge_t) :
    ∀ (fuel : Nat) (L : List edge_t) (last : edge_t), L.Sorted edge_le → L.length ≤ fuel →
      (∀ c ∈ (forward_candidates e fuel L last).1, c.2 = false ∧ c.1 ∈ L ∧ c.1 ≤ e) ∧
        ((forward_candidates e fuel L last).1.map Prod.fst).Pairwise (fun a b => a < b) ∧
        (∀ x ∈ L, x ≤ e → (x, false) ∈ (forward_candidates e fuel L last).1) ∧
        (forward_candidates e fuel L last).2.1.Sorted edge_le ∧
        (∀ x, x ∈ (forward_candidates e fuel L last).2.1 ↔ x ∈ L ∧ e < x) ∧
        ((forward_candidates e fuel L last).2.2 = e ↔
          (e ∈ L ∨ ((∀ x ∈ L, e < x) ∧ last = e))) := by
  intro fuel
  induction fuel with
  | zero =>
    intro L last _ hlen
    have hL : L = [] := List.eq_nil_of_length_eq_zero (by omega)
    subst hL
    unfold forward_candidates
    refine ⟨fun c hc => by simp at hc, List.Pairwise.nil, fun x hx => by simp at hx,
      List.sorted_nil, fun x => by simp, ?_⟩
    simp
  | succ fuel ih =>
    intro L last hs hlen
    cases L with
    | nil =>
      unfold forward_candidates
      refine ⟨fun c hc => by simp at hc, List.Pairwise.nil, fun x hx => by simp at hx,
        List.sorted_nil, fun x => by simp, ?_⟩
      simp
    | cons x xs =>
      have hs1 := List.sorted_cons.mp hs
      unfold forward_candidates
      by_cases hxe : x ≤ e
      · rw [if_pos hxe]
        dsimp only
        obtain ⟨k1, k2, k3, k4⟩ := skip_duplicates_sorted x xs hs
        obtain ⟨a1, a2, a3, a4, a5, a6⟩ := ih (skip_duplicates x xs) x k2
          (by simp only [List.length_cons] at hlen; omega)
        refine ⟨?_, ?_, ?_, a4, ?_, ?_⟩
        · intro c hc
          rcases List.mem_cons.mp hc with rfl | hc
          · exact ⟨rfl, List.mem_cons_self _ _, hxe⟩
          · obtain ⟨b1, b2, b3⟩ := a1 c hc
            exact ⟨b1, List.mem_cons_of_mem _ (k1 _ b2).2, b3⟩
        · rw [List.map_cons, List.pairwise_cons]
          refine ⟨?_, a2⟩
          intro y hy
          obtain ⟨c, hc, rfl⟩ := List.mem_map.mp hy
          exact (k1 _ (a1 c hc).2.1).1
        · intro y hy hye
          rcases List.mem_cons.mp hy with rfl | hy
          · exact List.mem_cons_self _ _
          · rcases k3 y hy with rfl | hy2
            · exact List.mem_cons_self _ _
            · exact List.mem_cons_of_mem _ (a3 y hy2 hye)
        · intro y
          rw [a5 y]
          constructor
          · rintro ⟨h1, h2⟩
            exact ⟨List.mem_cons_of_mem _ (k1 y h1).2, h2⟩
          · rintro ⟨h1, h2⟩
            refine ⟨?_, h2⟩
            rcases List.mem_cons.mp h1 with rfl | h1
            · exact absurd (edge_lt_of_lt_of_le h2 hxe) (edge_lt_irrefl _)
            · rcases k3 y h1 with rfl | h3
              · exact absurd (edge_lt_of_lt_of_le h2 hxe) (edge_lt_irrefl _)
              · exact h3
        · rw [a6]
          constructor
          · rintro (h | ⟨-, h⟩)
            · exact Or.inl (List.mem_cons_of_mem _ (k1 e h).2)
            · exact Or.inl (by rw [h]; exact List.mem_cons_self _ _)
          · rintro (h | ⟨h, -⟩)
            · rcases List.mem_cons.mp h with rfl | h
              · exact Or.inr ⟨fun y hy => (k1 y hy).1, rfl⟩
              · rcases k3 e h with rfl | h3
                · exact Or.inr ⟨fun y hy => (k1 y hy).1, rfl⟩
                · exact Or.inl h3
            · exact absurd (edge_lt_of_lt_of_le (h x (List.mem_cons_self _ _)) hxe)
                (edge_lt_irrefl _)
      · rw [if_neg hxe]
        have hex : e < x := (edge_not_le x e).mp hxe
        have hall : ∀ y ∈ x :: xs, e < y := by
          intro y hy
          rcases List.mem_cons.mp hy with rfl | hy
          · exact hex
          · exact edge_lt_of_lt_of_le hex (hs1.1 y hy)
        refine ⟨fun c hc => by simp at hc, List.Pairwise.nil, ?_, hs, ?_, ?_⟩
        · intro y hy hye
          exact absurd (edge_lt_of_lt_of_le (hall y hy) hye) (edge_lt_irrefl _)
        · intro y
          exact ⟨fun h => ⟨h, hall y h⟩, fun h => h.1⟩
        · constructor
          · intro h
            exact Or.inr ⟨hall, h⟩
          · rintro (h | ⟨-, h⟩)
            · exact absurd (hall e h) (edge_lt_irrefl _)
            · exact h

theorem filter_source_of_all_false (l : List (edge_t × Bool)) (h : ∀ c ∈ l, c.2 = false) :
    l.filter (fun c => c.2) = [] ∧ l.filter (fun c => !c.2) = l := by
  constructor
  · rw [List.filter_eq_nil_iff]
    intro c hc
    simp [h c hc]
  · rw [List.filter_eq_self]
    intro c hc
    simp [h c hc]

theorem forward_sources_spec :
    ∀ (R L : List edge_t), R.Pairwise (fun a b => a < b) → (∀ e ∈ R, e ≠ edge_t.invalid) →
      L.Sorted edge_le →
      (((forward_sources R L).1.filter (fun c => c.2)).map Prod.fst
          = R.filter (fun e => decide (e ∉ L))) ∧
        (((forward_sources R L).1.filter (fun c => !c.2)).map Prod.fst).Pairwise
          (fun a b => a < b) ∧
        (∀ x, x ∈ ((forward_sources R L).1.filter (fun c => !c.2)).map Prod.fst ↔
          x ∈ L ∧ ∃ e ∈ R, x ≤ e) ∧
        (forward_sources R L).2.Sorted edge_le ∧
        (∀ x, x ∈ (forward_sources R L).2 ↔ x ∈ L ∧ ∀ e ∈ R, e < x) := by
  intro R
  induction R with
  | nil =>
    intro L _ _ hs
    unfold forward_sources
    refine ⟨rfl, List.Pairwise.nil, fun x => by simp, hs, fun x => by simp⟩
  | cons e es ih =>
    intro L hR hinv hs
    have hR1 := List.pairwise_cons.mp hR
    obtain ⟨a1, a2, a3, a4, a5, a6⟩ :=
      forward_candidates_spec e L.length L edge_t.invalid hs (Nat.le_refl _)
    obtain ⟨b1, b2, b3, b4, b5⟩ := ih (forward_candidates e L.length L edge_t.invalid).2.1
      hR1.2 (fun x hx => hinv x (List.mem_cons_of_mem _ hx)) a4
    obtain ⟨f1, f2⟩ := filter_source_of_all_false _ (fun c hc => (a1 c hc).1)
    have hne : e ≠ edge_t.invalid := hinv e (List.mem_cons_self _ _)
    have hlast : (forward_candidates e L.length L edge_t.invalid).2.2 = e ↔ e ∈ L := by
      rw [a6]
      constructor
      · rintro (h | ⟨-, h⟩)
        · exact h
        · exact absurd h.symm hne
      · exact fun h => Or.inl h
    unfold forward_sources
    dsimp only
    simp only [List.filter_append, List.map_append, f1, f2, List.map_nil, List.nil_append]
    refine ⟨?_, ?_, ?_, b4, ?_⟩
    · rw [b1, List.filter_cons]
      have hcongr : es.filter (fun x => decide
            (x ∉ (forward_candidates e L.length L edge_t.invalid).2.1))
          = es.filter (fun x => decide (x ∉ L)) := by
        apply List.filter_congr
        intro x hx
        have : x ∈ (forward_candidates e L.length L edge_t.invalid).2.1 ↔ x ∈ L := by
          rw [a5]
          exact ⟨fun h => h.1, fun h => ⟨h, hR1.1 x hx⟩⟩
        simp only [this]
      rw [hcongr]
      by_cases hmem : e ∈ L
      · have h1 : ¬ e ≠ (forward_candidates e L.length L edge_t.invalid).2.2 :=
          fun h => h (hlast.mpr hmem).symm
        rw [if_neg h1]
        simp [hmem]
      · have h1 : e ≠ (forward_candidates e L.length L edge_t.invalid).2.2 :=
          fun h => hmem (hlast.mp h.symm)
        rw [if_pos h1]
        simp [hmem]
    · have hown : ((if e ≠ (forward_candidates e L.length L edge_t.invalid).2.2
          then [(e, true)] else []).filter (fun c => !c.2)).map Prod.fst = [] := by
        split <;> rfl
      rw [hown, List.append_nil, List.pairwise_append]
      refine ⟨a2, b2, ?_⟩
      intro x hx y hy
      obtain ⟨c, hc, rfl⟩ := List.mem_map.mp hx
      have hy2 := ((a5 y).mp ((b3 y).mp hy).1).2
      exact edge_lt_of_le_of_lt (a1 c hc).2.2 hy2
    · intro x
      have hown : ((if e ≠ (forward_candidates e L.length L edge_t.invalid).2.2
          then [(e, true)] else []).filter (fun c => !c.2)).map Prod.fst = [] := by
        split <;> rfl
      rw [hown, List.append_nil, List.mem_append, b3, a5]
      constructor
      · rintro (h | ⟨⟨h1, _⟩, e2, h3, h4⟩)
        · obtain ⟨c, hc, rfl⟩ := List.mem_map.mp h
          exact ⟨(a1 c hc).2.1, e, List.mem_cons_self _ _, (a1 c hc).2.2⟩
        · exact ⟨h1, e2, List.mem_cons_of_mem _ h3, h4⟩
      · rintro ⟨h1, e2, h3, h4⟩
        by_cases hxe : x ≤ e
        · exact Or.inl (List.mem_map.mpr ⟨(x, false), a3 x h1 hxe, rfl⟩)
        · refine Or.inr ⟨⟨h1, (edge_not_le x e).mp hxe⟩, e2, ?_, h4⟩
          rcases List.mem_cons.mp h3 with rfl | h3
          · exact absurd h4 hxe
          · exact h3
    · intro x
      rw [b5, a5]
      constructor
      · rintro ⟨⟨h1, h2⟩, h3⟩
        refine ⟨h1, ?_⟩
        intro y hy
        rcases List.mem_cons.mp hy with rfl | hy
        · exact h2
        · exact h3 y hy
      · rintro ⟨h1, h2⟩
        exact ⟨⟨h1, h2 e (List.mem_cons_self _ _)⟩,
          fun y hy => h2 y (List.mem_cons_of_mem _ hy)⟩

theorem forward_rest_spec :
    ∀ (fuel : Nat) (L : List edge_t), L.Sorted edge_le → L.length ≤ fuel →
      (∀ c ∈ forward_rest fuel L, c.2 = false ∧ c.1 ∈ L) ∧
        ((forward_rest fuel L).map Prod.fst).Pairwise (fun a b => a < b) ∧
        (∀ x ∈ L, (x, false) ∈ forward_rest fuel L) := by
  intro fuel
  induction fuel with
  | zero =>
    intro L _ hlen
    have hL : L = [] := List.eq_nil_of_length_eq_zero (by omega)
    subst hL
    unfold forward_rest
    exact ⟨fun c hc => by simp at hc, List.Pairwise.nil, fun x hx => by simp at hx⟩
  | succ fuel ih =>
    intro L hs hlen
    cases L with
    | nil =>
      unfold forward_rest
      exact ⟨fun c hc => by simp at hc, List.Pairwise.nil, fun x hx => by simp at hx⟩
    | cons x xs =>
      unfold forward_rest
      obtain ⟨k1, k2, k3, k4⟩ := skip_duplicates_sorted x xs hs
      obtain ⟨a1, a2, a3⟩ := ih (skip_duplicates x xs) k2
        (by simp only [List.length_cons] at hlen; omega)
      refine ⟨?_, ?_, ?_⟩
      · intro c hc
        rcases List.mem_cons.mp hc with rfl | hc
        · exact ⟨rfl, List.mem_cons_self _ _⟩
        · exact ⟨(a1 c hc).1, List.mem_cons_of_mem _ (k1 _ (a1 c hc).2).2⟩
      · rw [List.map_cons, List.pairwise_cons]
        refine ⟨?_, a2⟩
        intro y hy
        obtain ⟨c, hc, rfl⟩ := List.mem_map.mp hy
        exact (k1 _ (a1 c hc).2).1
      · intro y hy
        rcases List.mem_cons.mp hy with rfl | hy
        · exact List.mem_cons_self _ _
        · rcases k3 y hy with rfl | hy2
          · exact List.mem_cons_self _ _
          · exact List.mem_cons_of_mem _ (a3 y hy2)

theorem forward_calls_spec (R L : List edge_t) (hR : R.Pairwise (fun a b => a < b))
    (hinv : ∀ e ∈ R, e ≠ edge_t.invalid) (hs : L.Sorted edge_le) :
    (((forward_calls R L).filter (fun c => c.2)).map Prod.fst
        = R.filter (fun e => decide (e ∉ L))) ∧
      (((forward_calls R L).filter (fun c => !c.2)).map Prod.fst).Pairwise
        (fun a b => a < b) ∧
      (∀ x, x ∈ ((forward_calls R L).filter (fun c => !c.2)).map Prod.fst ↔ x ∈ L) := by
  obtain ⟨b1, b2, b3, b4, b5⟩ := forward_sources_spec R L hR hinv hs
  obtain ⟨a1, a2, a3⟩ := forward_rest_spec (forward_sources R L).2.length
    (forward_sources R L).2 b4 (Nat.le_refl _)
  obtain ⟨f1, f2⟩ := filter_source_of_all_false _ (fun c hc => (a1 c hc).1)
  unfold forward_calls
  dsimp only
  simp only [List.filter_append, List.map_append, f1, f2, List.map_nil, List.append_nil]
  refine ⟨b1, ?_, ?_⟩
  · rw [List.pairwise_append]
    refine ⟨b2, a2, ?_⟩
    intro x hx y hy
    obtain ⟨c, hc, rfl⟩ := List.mem_map.mp hy
    obtain ⟨-, e, he, hxe⟩ := (b3 x).mp hx
    exact edge_lt_of_le_of_lt hxe (((b5 c.1).mp (a1 c hc).2).2 e he)
  · intro x
    rw [List.mem_append, b3]
    constructor
    · rintro (h | h)
      · exact h.1
      · obtain ⟨c, hc, rfl⟩ := List.mem_map.mp h
        exact ((b5 c.1).mp (a1 c hc).2).1
    · intro h
      by_cases hx : ∃ e ∈ R, x ≤ e
      · exact Or.inl ⟨h, hx⟩
      · refine Or.inr (List.mem_map.mpr ⟨(x, false), a3 x ((b5 x).mpr ⟨h, ?_⟩), rfl⟩)
        intro e he
        exact (edge_not_le x e).mp (fun hle => hx ⟨e, he, hle⟩)

theorem count_request (sid : Nat) (l : List (edge_t × Bool)) (e : edge_t) :
    (l.map (fun c => (⟨c.1, sid, c.2⟩ : ExistenceRequestMsg))).count ⟨e, sid, false⟩
        = ((l.filter (fun c => !c.2)).map Prod.fst).count e ∧
      (l.map (fun c => (⟨c.1, sid, c.2⟩ : ExistenceRequestMsg))).count ⟨e, sid, true⟩
        = ((l.filter (fun c => c.2)).map Prod.fst).count e := by
  induction l with
  | nil => exact ⟨rfl, rfl⟩
  | cons c cs ih =>
    obtain ⟨x, b⟩ := c
    cases b <;>
      simp only [List.count_cons, List.filter_cons, Bool.not_false, Bool.not_true, if_true,
        Bool.false_eq_true, if_false, List.map_cons, ih.1, ih.2, beq_iff_eq,
        ExistenceRequestMsg.mk.injEq, and_true, and_false, true_and, add_zero, and_self,
        Bool.true_eq_false]

theorem conflicts_side_requests (sid_in_batch_limit sid successor_sid : Nat)
    (sources dd_new : List edge_t) (st : ConflictState) :
    (conflicts_side sid_in_batch_limit sid successor_sid sources dd_new st).existence_requests
      = st.existence_requests ++
        (forward_calls sources
          (if dd_new.length > 1 then sorter_sort edge_le dd_new else dd_new)).map
          (fun c => (⟨c.1, sid, c.2⟩ : ExistenceRequestMsg)) := by
  unfold conflicts_side
  dsimp only
  split <;> split <;> rfl

theorem sorted_candidates (dd_new : List edge_t) :
    (if dd_new.length > 1 then sorter_sort edge_le dd_new else dd_new).Sorted edge_le ∧
      ∀ x, x ∈ (if dd_new.length > 1 then sorter_sort edge_le dd_new else dd_new) ↔
        x ∈ dd_new := by
  split
  · exact ⟨sorter_sort_sorted edge_le dd_new, mem_sorter_sort edge_le dd_new⟩
  · rename_i h
    refine ⟨?_, fun x => Iff.rfl⟩
    match dd_new, h with
    | [], _ => exact List.sorted_nil
    | [x], _ => exact List.sorted_singleton x
    | _ :: _ :: _, h => simp at h

/-- Claim C19: the existence requests one side of a swap emits in the conflict
computer. With the source configurations `sources` of the side strictly
ascending (the code asserts that they are sorted and unique) and none of them
the invalid edge, the side appends to the request buffer a list `new` of
requests of the swap `sid` in which every candidate edge of `dd_new` occurs
exactly once with `forward_only = false` (and no other edge does), every source
edge that is not a candidate occurs exactly once with `forward_only = true` (and
no other edge does); so no request with `forward_only = true` is emitted for a
source edge that is also a candidate. -/
theorem existence_requests_emitted (sid_in_batch_limit sid successor_sid : Nat)
    (sources dd_new : List edge_t) (st : ConflictState)
    (hsorted : sources.Pairwise (fun a b => a < b))
    (hvalid : ∀ e ∈ sources, e ≠ edge_t.invalid) :
    ∃ new : List ExistenceRequestMsg,
      (conflicts_side sid_in_batch_limit sid successor_sid sources dd_new st).existence_requests
          = st.existence_requests ++ new ∧
        (∀ q ∈ new, q.swap_id = sid) ∧
        (∀ e, new.count ⟨e, sid, false⟩ = if e ∈ dd_new then 1 else 0) ∧
        (∀ e, new.count ⟨e, sid, true⟩ = if e ∈ sources ∧ e ∉ dd_new then 1 else 0) ∧
        (∀ e, e ∈ sources → e ∈ dd_new → (⟨e, sid, true⟩ : ExistenceRequestMsg) ∉ new) := by
  obtain ⟨hs, hmem⟩ := sorted_candidates dd_new
  obtain ⟨c1, c2, c3⟩ := forward_calls_spec sources _ hsorted hvalid hs
  have hfalse : ∀ e, (List.map (fun c : edge_t × Bool => (⟨c.1, sid, c.2⟩ : ExistenceRequestMsg))
      (forward_calls sources
        (if dd_new.length > 1 then sorter_sort edge_le dd_new else dd_new))).count
        ⟨e, sid, false⟩ = if e ∈ dd_new then 1 else 0 := by
    intro e
    rw [(count_request sid _ e).1, List.count_eq_of_nodup
      (c2.imp (fun h => fun heq => edge_lt_irrefl _ (heq ▸ h)))]
    simp only [c3, hmem]
  have htrue : ∀ e, (List.map (fun c : edge_t × Bool => (⟨c.1, sid, c.2⟩ : ExistenceRequestMsg))
      (forward_calls sources
        (if dd_new.length > 1 then sorter_sort edge_le dd_new else dd_new))).count
        ⟨e, sid, true⟩ = if e ∈ sources ∧ e ∉ dd_new then 1 else 0 := by
    intro e
    have hnodup : sources.Nodup :=
      hsorted.imp (fun h => fun heq => edge_lt_irrefl _ (heq ▸ h))
    rw [(count_request sid _ e).2, c1, List.count_eq_of_nodup (hnodup.filter _)]
    simp only [List.mem_filter, decide_eq_true_eq, hmem]
  refine ⟨_, conflicts_side_requests _ _ _ _ _ _, ?_, hfalse, htrue, ?_⟩
  · intro q hq
    obtain ⟨c, -, rfl⟩ := List.mem_map.mp hq
    rfl
  · intro e he hc hin
    have h := htrue e
    rw [if_neg (fun h2 : e ∈ sources ∧ e ∉ dd_new => h2.2 hc)] at h
    exact (List.count_eq_zero.mp h) hin

theorem existence_requests_emitted_witness :
    ([⟨1, 2⟩, ⟨3, 4⟩] : List edge_t).Pairwise (fun a b => a < b) ∧
      (∀ e ∈ ([⟨1, 2⟩, ⟨3, 4⟩] : List edge_t), e ≠ edge_t.invalid) ∧
      ∃ new : List ExistenceRequestMsg,
        (conflicts_side 2 0 0 [⟨1, 2⟩, ⟨3, 4⟩] [⟨3, 4⟩, ⟨1, 5⟩, ⟨1, 5⟩, ⟨0, 7⟩]
            ⟨⟨[], [], [], none⟩, [], [], fun _ => edge_information_t.reset, [], []⟩).existence_requests
            = (⟨⟨[], [], [], none⟩, [], [], fun _ => edge_information_t.reset, [], []⟩ :
                ConflictState).existence_requests ++ new ∧
          (∀ q ∈ new, q.swap_id = 0) ∧
          (∀ e, new.count ⟨e, 0, false⟩
            = if e ∈ ([⟨3, 4⟩, ⟨1, 5⟩, ⟨1, 5⟩, ⟨0, 7⟩] : List edge_t) then 1 else 0) ∧
          (∀ e, new.count ⟨e, 0, true⟩
            = if e ∈ ([⟨1, 2⟩, ⟨3, 4⟩] : List edge_t) ∧
                e ∉ ([⟨3, 4⟩, ⟨1, 5⟩, ⟨1, 5⟩, ⟨0, 7⟩] : List edge_t) then 1 else 0) ∧
          (∀ e, e ∈ ([⟨1, 2⟩, ⟨3, 4⟩] : List edge_t) →
            e ∈ ([⟨3, 4⟩, ⟨1, 5⟩, ⟨1, 5⟩, ⟨0, 7⟩] : List edge_t) →
            (⟨e, 0, true⟩ : ExistenceRequestMsg) ∉ new) :=
  ⟨by decide, by decide,
    existence_requests_emitted 2 0 0 [⟨1, 2⟩, ⟨3, 4⟩] [⟨3, 4⟩, ⟨1, 5⟩, ⟨1, 5⟩, ⟨0, 7⟩]
      ⟨⟨[], [], [], none⟩, [], [], fun _ => edge_information_t.reset, [], []⟩
      (by decide) (by decide)⟩

theorem existence_requests_emitted_example :
    (conflicts_side 2 0 0 [⟨1, 2⟩, ⟨3, 4⟩] [⟨3, 4⟩, ⟨1, 5⟩, ⟨1, 5⟩, ⟨0, 7⟩]
        ⟨⟨[], [], [], none⟩, [], [], fun _ => edge_information_t.reset, [], []⟩).existence_requests
      = [⟨⟨0, 7⟩, 0, false⟩, ⟨⟨1, 2⟩, 0, true⟩, ⟨⟨1, 5⟩, 0, false⟩, ⟨⟨3, 4⟩, 0, false⟩] := by
  decide

/-! ## Requests for an edge id out of range -/

theorem use_edge_successors_requests (num_threads id : Nat) :
    ∀ (rs : List EdgeLoadRequest) (lastSid lastTid : Nat),
      (∀ d ∈ (use_edge_successors num_threads id lastSid lastTid rs).1,
          ∃ r ∈ rs, r.sid = d.2.successor ∧ r.eid = id) ∧
        (∀ r ∈ rs, r.eid ≠ id →
          r ∈ (use_edge_successors num_threads id lastSid lastTid rs).2) ∧
        (∀ r ∈ (use_edge_successors num_threads id lastSid lastTid rs).2, r ∈ rs) := by
  intro rs
  induction rs with
  | nil =>
    intro lastSid lastTid
    unfold use_edge_successors
    exact ⟨fun d hd => by simp at hd, fun r hr => by simp at hr, fun r hr => hr⟩
  | cons r rs ih =>
    intro lastSid lastTid
    unfold use_edge_successors
    by_cases h : r.eid = id
    · rw [if_pos h]
      dsimp only
      obtain ⟨a1, a2, a3⟩ := ih r.sid (_thread num_threads (get_swap_id r.sid))
      refine ⟨?_, ?_, fun q hq => List.mem_cons_of_mem _ (a3 q hq)⟩
      · intro d hd
        rcases List.mem_cons.mp hd with rfl | hd
        · exact ⟨r, List.mem_cons_self _ _, rfl, h⟩
        · obtain ⟨q, hq, hq2⟩ := a1 d hd
          exact ⟨q, List.mem_cons_of_mem _ hq, hq2⟩
      · intro q hq hne
        rcases List.mem_cons.mp hq with rfl | hq
        · exact absurd h hne
        · exact a2 q hq hne
    · rw [if_neg h]
      exact ⟨fun d hd => by simp at hd, fun q hq _ => hq, fun q hq => hq⟩

theorem use_edge_requests (num_threads : Nat) (requests : List EdgeLoadRequest)
    (cur_e : edge_t) (id : Nat) :
    (∀ m ∈ (use_edge num_threads requests cur_e id).depchain_edges,
        ∃ r ∈ requests, r.sid = m.sid ∧ r.eid = id) ∧
      (∀ d ∈ (use_edge num_threads requests cur_e id).dependency_output,
        ∃ r ∈ requests, r.sid = d.2.successor ∧ r.eid = id) ∧
      (∀ r ∈ requests, r.eid ≠ id → r ∈ (use_edge num_threads requests cur_e id).requests) ∧
      (∀ r ∈ (use_edge num_threads requests cur_e id).requests, r ∈ requests) := by
  unfold use_edge
  cases requests with
  | nil =>
    exact ⟨fun m hm => by simp at hm, fun d hd => by simp at hd, fun r hr => by simp at hr,
      fun r hr => hr⟩
  | cons r rs =>
    dsimp only
    by_cases h : r.eid = id
    · rw [if_pos h]
      dsimp only
      obtain ⟨a1, a2, a3⟩ := use_edge_successors_requests num_threads id rs r.sid
        (_thread num_threads (get_swap_id r.sid))
      refine ⟨?_, ?_, ?_, fun q hq => List.mem_cons_of_mem _ (a3 q hq)⟩
      · intro m hm
        rw [List.mem_singleton] at hm
        subst hm
        exact ⟨r, List.mem_cons_self _ _, rfl, h⟩
      · intro d hd
        obtain ⟨q, hq, hq2⟩ := a1 d hd
        exact ⟨q, List.mem_cons_of_mem _ hq, hq2⟩
      · intro q hq hne
        rcases List.mem_cons.mp hq with rfl | hq
        · exact absurd h hne
        · exact a2 q hq hne
    · rw [if_neg h]
      exact ⟨fun m hm => by simp at hm, fun d hd => by simp at hd, fun q hq _ => hq,
        fun q hq => hq⟩

theorem load_edges_requests (num_threads : Nat) :
    ∀ (edges : List edge_t) (id : Nat) (requests : List EdgeLoadRequest),
      (∀ m ∈ (load_edges num_threads id edges requests).depchain_edges,
          ∃ r ∈ requests, r.sid = m.sid ∧ r.eid < id + edges.length) ∧
        (∀ d ∈ (load_edges num_threads id edges requests).dependency_output,
          ∃ r ∈ requests, r.sid = d.2.successor ∧ r.eid < id + edges.length) ∧
        (∀ r ∈ requests, id + edges.length ≤ r.eid →
          r ∈ (load_edges num_threads id edges requests).requests) := by
  intro edges
  induction edges with
  | nil =>
    intro id requests
    unfold load_edges
    exact ⟨fun m hm => by simp at hm, fun d hd => by simp at hd, fun r hr _ => hr⟩
  | cons e es ih =>
    intro id requests
    unfold load_edges
    dsimp only
    obtain ⟨a1, a2, a3, hsub⟩ := use_edge_requests num_threads requests e id
    obtain ⟨b1, b2, b3⟩ := ih (id + 1) (use_edge num_threads requests e id).requests
    simp only [List.length_cons]
    refine ⟨?_, ?_, ?_⟩
    · intro m hm
      rcases List.mem_append.mp hm with hm | hm
      · obtain ⟨r, hr, h1, h2⟩ := a1 m hm
        exact ⟨r, hr, h1, by omega⟩
      · obtain ⟨r, hr, h1, h2⟩ := b1 m hm
        exact ⟨r, hsub r hr, h1, by omega⟩
    · intro d hd
      rcases List.mem_append.mp hd with hd | hd
      · obtain ⟨r, hr, h1, h2⟩ := a2 d hd
        exact ⟨r, hr, h1, by omega⟩
      · obtain ⟨r, hr, h1, h2⟩ := b2 d hd
        exact ⟨r, hsub r hr, h1, by omega⟩
    · intro r hr hle
      exact b3 r (a3 r hr (by omega)) (by omega)

/-! ## A swap side that receives no configuration -/

theorem unpack_key (K : Nat) (hK : K < 2 ^ 64) :
    pack_swap_id_spos (get_swap_id K) (get_swap_spos K) = K := by
  rw [get_swap_id_eq, get_swap_spos_eq,
    pack_eq (by omega : K / 2 < 2 ^ 63) (Nat.mod_lt _ (by decide))]
  omega

theorem key_of_slot (K s : Nat)
    (h : (get_swap_id s, get_swap_spos s) = (get_swap_id K, get_swap_spos K)) : s = K := by
  simp only [Prod.mk.injEq, get_swap_id_eq, get_swap_spos_eq] at h
  omega

theorem hydrate_more_unreached (K s : Nat) :
    ∀ (fuel : Nat) (m : PQSorterMerger DependencyChainEdgeMsg),
      (∀ x ∈ m.content, x.sid ≠ K) → ∀ x ∈ (hydrate_more s fuel m).2.content, x.sid ≠ K := by
  intro fuel
  induction fuel with
  | zero =>
    intro m hm
    unfold hydrate_more
    exact hm
  | succ fuel ih =>
    intro m hm
    unfold hydrate_more
    cases hp : m.peek DependencyChainEdgeMsg.le with
    | none => exact hm
    | some x =>
      dsimp only
      split
      · exact ih (m.advance DependencyChainEdgeMsg.le)
          (fun y hy => hm y (mem_content_advance hp hy))
      · exact hm

theorem slot_set_unset {κ : Type} [DecidableEq κ] (f : κ → edge_information_t) (k : κ)
    (v : edge_information_t) (j : κ) (hf : (f j).is_set = false)
    (hv : j = k → v.is_set = false) : (slot_set f k v j).is_set = false := by
  unfold slot_set
  split
  · next h => exact hv h
  · exact hf

theorem hydrate_side_unreached (K : Nat) (hK : K < 2 ^ 64) (swap_id spos : Nat)
    (st : ConflictState) (h : Unreached K st) : Unreached K (hydrate_side swap_id spos st) := by
  unfold hydrate_side
  dsimp only
  cases hp : st._edge_state.peek DependencyChainEdgeMsg.le with
  | none =>
    dsimp only
    exact ⟨hydrate_more_unreached K _ _ _ h.merger, h.links,
      slot_set_unset _ _ _ _ h.unset (fun _ => rfl)⟩
  | some x =>
    dsimp only
    by_cases hs : x.sid = pack_swap_id_spos swap_id spos
    · rw [if_pos hs]
      dsimp only
      refine ⟨hydrate_more_unreached K _ _ _
        (fun y hy => h.merger y (mem_content_advance hp hy)), h.links,
        slot_set_unset _ _ _ _ h.unset ?_⟩
      intro hk
      exfalso
      have hx := h.merger x (PQSorterMerger.peek_mem _ _ _ hp).1
      rw [hs] at hx
      simp only [Prod.mk.injEq] at hk
      rw [← hk.1, ← hk.2] at hx
      exact hx (unpack_key K hK)
    · rw [if_neg hs]
      dsimp only
      exact ⟨hydrate_more_unreached K _ _ _ h.merger, h.links,
        slot_set_unset _ _ _ _ h.unset (fun _ => rfl)⟩

theorem hydrate_unreached (K : Nat) (hK : K < 2 ^ 64) :
    ∀ (n swap_id : Nat) (st : ConflictState), Unreached K st →
      Unreached K (hydrate n swap_id st) := by
  intro n
  induction n with
  | zero => intro swap_id st h; exact h
  | succ n ih =>
    intro swap_id st h
    unfold hydrate
    exact ih _ _ (hydrate_side_unreached K hK _ _ _ (hydrate_side_unreached K hK _ _ _ h))

theorem fetch_successor_unreached (K sid spos : Nat) (dep : List DependencyChainSuccessorMsg)
    (h : ∀ d ∈ dep, d.successor ≠ K) :
    ((fetch_successor sid spos dep).1 ≠ 0 → (fetch_successor sid spos dep).1 ≠ K) ∧
      ∀ d ∈ (fetch_successor sid spos dep).2, d.successor ≠ K := by
  unfold fetch_successor
  cases dep with
  | nil => exact ⟨fun h0 => absurd rfl h0, fun d hd => by simp at hd⟩
  | cons msg rest =>
    dsimp only
    split
    · exact ⟨fun _ => h msg (List.mem_cons_self _ _),
        fun d hd => h d (List.mem_cons_of_mem _ hd)⟩
    · exact ⟨fun h0 => absurd rfl h0, h⟩

theorem foldl_push_unreached (K succ : Nat) (hs : succ ≠ K) :
    ∀ (calls : List (edge_t × Bool)) (m : PQSorterMerger DependencyChainEdgeMsg),
      (∀ x ∈ m.content, x.sid ≠ K) →
      ∀ x ∈ (calls.foldl
        (fun m c => m.push_pq DependencyChainEdgeMsg.le ⟨succ, c.1⟩) m).content, x.sid ≠ K := by
  intro calls
  induction calls with
  | nil => intro m hm; exact hm
  | cons c cs ih =>
    intro m hm
    rw [List.foldl_cons]
    apply ih
    intro x hx
    rcases List.mem_cons.mp ((PQSorterMerger.push_pq_perm _ m _).subset hx) with rfl | hx
    · exact hs
    · exact hm x hx

theorem conflicts_side_unreached (K limit sid succ : Nat) (sources dd : List edge_t)
    (st : ConflictState) (h : Unreached K st) (hs : succ ≠ 0 → succ ≠ K) :
    Unreached K (conflicts_side limit sid succ sources dd st) := by
  unfold conflicts_side
  dsimp only
  have hst2 : Unreached K
      (if decide (succ ≠ 0 ∧ ¬ get_swap_id succ < limit) = true then
        ({ st with
            existence_requests := st.existence_requests ++
              (forward_calls sources
                (if dd.length > 1 then sorter_sort edge_le dd else dd)).map
                fun c => ⟨c.1, sid, c.2⟩
            forwarded :=
              if succ ≠ 0 then st.forwarded ++
                (forward_calls sources
                  (if dd.length > 1 then sorter_sort edge_le dd else dd)).map
                  fun c => ⟨succ, c.1⟩
              else st.forwarded
            _edge_state := (forward_calls sources
                (if dd.length > 1 then sorter_sort edge_le dd else dd)).foldl
              (fun m c => m.push_pq DependencyChainEdgeMsg.le ⟨succ, c.1⟩) st._edge_state } :
          ConflictState)
      else
        { st with
            existence_requests := st.existence_requests ++
              (forward_calls sources
                (if dd.length > 1 then sorter_sort edge_le dd else dd)).map
                fun c => ⟨c.1, sid, c.2⟩
            forwarded :=
              if succ ≠ 0 then st.forwarded ++
                (forward_calls sources
                  (if dd.length > 1 then sorter_sort edge_le dd else dd)).map
                  fun c => ⟨succ, c.1⟩
              else st.forwarded }) := by
    split
    · next hc =>
      have hc2 := of_decide_eq_true hc
      exact ⟨foldl_push_unreached K succ (hs hc2.1) _ _ h.merger, h.links, h.unset⟩
    · exact ⟨h.merger, h.links, h.unset⟩
  split
  · next hc =>
    have hc2 := of_decide_eq_true hc
    exact ⟨hst2.merger, hst2.links, slot_set_unset _ _ _ _ hst2.unset
      (fun hk => absurd (key_of_slot K succ hk.symm) (hs hc2.1))⟩
  · exact hst2

theorem conflicts_swap_unreached (K limit sid : Nat) (st st1 : ConflictState)
    (h : Unreached K st) (hr : conflicts_swap limit sid st = some st1) :
    Unreached K st1 ∧ sid ≠ get_swap_id K := by
  unfold conflicts_swap at hr
  cases hd : st._swap_direction with
  | nil => rw [hd] at hr; simp at hr
  | cons direction directions =>
    rw [hd] at hr
    dsimp only at hr
    split at hr
    · simp at hr
    · next h0 =>
      split at hr
      · simp at hr
      · next h1 =>
        simp only [Option.some.injEq] at hr
        obtain ⟨a1, a2⟩ := fetch_successor_unreached K sid 0 st.dep h.links
        obtain ⟨b1, b2⟩ := fetch_successor_unreached K sid 1 _ a2
        constructor
        · rw [← hr]
          refine conflicts_side_unreached K _ _ _ _ _ _
            (conflicts_side_unreached K _ _ _ _ _ _ ⟨h.merger, b2, h.unset⟩ a1) b1
        · intro hsid
          have hu := h.unset
          rw [← hsid] at hu
          have hspos : get_swap_spos K = 0 ∨ get_swap_spos K = 1 := by
            rw [get_swap_spos_eq]; omega
          rcases hspos with hz | hz
          · rw [hz] at hu
            rw [hu] at h0
            exact h0 rfl
          · rw [hz] at hu
            rw [hu] at h1
            exact h1 rfl

theorem conflicts_workers_unreached (K num_swaps limit : Nat) (hK : get_swap_id K < num_swaps) :
    ∀ (n sid : Nat) (st st1 : ConflictState), Unreached K st →
      conflicts_workers num_swaps limit n sid st = some st1 →
      Unreached K st1 ∧ ¬ (sid ≤ get_swap_id K ∧ get_swap_id K < sid + n) := by
  intro n
  induction n with
  | zero =>
    intro sid st st1 h hr
    unfold conflicts_workers at hr
    simp only [Option.some.injEq] at hr
    rw [← hr]
    exact ⟨h, by omega⟩
  | succ n ih =>
    intro sid st st1 h hr
    unfold conflicts_workers at hr
    split at hr
    · obtain ⟨a1, a2⟩ := ih _ _ _ h hr
      exact ⟨a1, by omega⟩
    · cases hc : conflicts_swap limit sid st with
      | none => rw [hc] at hr; simp at hr
      | some st2 =>
        rw [hc] at hr
        dsimp only at hr
        obtain ⟨b1, b2⟩ := conflicts_swap_unreached K limit sid st st2 h hc
        obtain ⟨a1, a2⟩ := ih _ _ _ b1 hr
        exact ⟨a1, by omega⟩

theorem conflicts_batches_unreached (K num_threads batch_size_per_thread num_swaps : Nat)
    (hK64 : K < 2 ^ 64) (hK : get_swap_id K < num_swaps) :
    ∀ (fuel base : Nat) (st : ConflictState), Unreached K st → base ≤ get_swap_id K →
      conflicts_batches num_threads batch_size_per_thread num_swaps fuel base st = none := by
  intro fuel
  have hl := le_loop_limit num_swaps num_threads
  induction fuel with
  | zero =>
    intro base st h hb
    unfold conflicts_batches
    rw [if_pos (by omega)]
  | succ fuel ih =>
    intro base st h hb
    unfold conflicts_batches
    rw [if_pos (by omega)]
    dsimp only
    split
    · rfl
    · next st3 hw =>
      have h1 := hydrate_unreached K hK64
        (hydrate_count num_threads base
          (min num_swaps (base + batch_size_per_thread * num_threads))) base
        { st with _edge_state := (st._edge_state.start_batch
            (⟨pack_swap_id_spos (min num_swaps (base + batch_size_per_thread * num_threads)) 0,
              ⟨-1, -1⟩⟩ : DependencyChainEdgeMsg)) }
        ⟨h.merger, h.links, h.unset⟩
      obtain ⟨a1, a2⟩ := conflicts_workers_unreached K num_swaps _ hK _ _ _ _ h1 hw
      exact ih _ _ ⟨a1.merger, a1.links, a1.unset⟩ (by omega)

theorem compute_conflicts_unreached (K num_threads batch_size_per_thread num_swaps : Nat)
    (hK64 : K < 2 ^ 64) (hK : get_swap_id K < num_swaps)
    (edge_state : PQSorterMerger DependencyChainEdgeMsg)
    (dependencies : List DependencyChainSuccessorMsg) (swap_direction : BoolStream)
    (hm : ∀ m ∈ edge_state.content, m.sid ≠ K)
    (hd : ∀ d ∈ dependencies, d.successor ≠ K) :
    _compute_conflicts num_threads batch_size_per_thread num_swaps edge_state dependencies
      swap_direction = none := by
  unfold _compute_conflicts
  dsimp only
  rw [conflicts_batches_unreached K num_threads batch_size_per_thread num_swaps hK64 hK _ 0 _
    ⟨hm, hd, rfl⟩ (Nat.zero_le _)]

theorem out_of_range_key (edges : List edge_t) (swaps : List SwapDescriptor)
    (hbad : ∃ s ∈ swaps, edges.length ≤ s.eid_a ∨ edges.length ≤ s.eid_b) :
    ∃ K, K < 2 * swaps.length ∧ edges.length ≤ request_eid swaps K := by
  obtain ⟨s, hs, h⟩ := hbad
  obtain ⟨i, hi, hget⟩ := List.getElem_of_mem hs
  have hsome : swaps[i]? = some s := by rw [List.getElem?_eq_getElem hi, hget]
  rcases h with h | h
  · refine ⟨2 * i, by omega, ?_⟩
    unfold request_eid
    rw [show 2 * i / 2 = i by omega, hsome]
    simp only [Nat.mul_mod_right, if_true]
    exact h
  · refine ⟨2 * i + 1, by omega, ?_⟩
    unfold request_eid
    rw [show (2 * i + 1) / 2 = i by omega, hsome]
    dsimp only
    rw [if_neg (by omega : ¬ (2 * i + 1) % 2 = 0)]
    exact h

theorem load_misses_key (num_threads : Nat) (edges : List edge_t) (swaps : List SwapDescriptor)
    (hn : swaps.length < 2 ^ 63) (K : Nat) (hK : K < 2 * swaps.length)
    (hbad : edges.length ≤ request_eid swaps K) :
    (∀ m ∈ (run_ctx num_threads edges swaps).depchain_edges, m.sid ≠ K) ∧
      (∀ d ∈ (run_ctx num_threads edges swaps).links, d.successor ≠ K) ∧
      (⟨request_eid swaps K, K⟩ : EdgeLoadRequest) ∈
        (load_edges num_threads 0 edges
          (sorter_sort EdgeLoadRequest.le (swap_requests 0 swaps))).requests := by
  obtain ⟨a1, a2, a3⟩ := load_edges_requests num_threads edges 0
    (sorter_sort EdgeLoadRequest.le (swap_requests 0 swaps))
  have hmem : ∀ r ∈ sorter_sort EdgeLoadRequest.le (swap_requests 0 swaps),
      r.eid = request_eid swaps r.sid := fun r hr =>
    ((mem_swap_requests_zero swaps hn r).mp ((mem_sorter_sort _ _ _).mp hr)).2
  refine ⟨?_, ?_, ?_⟩
  · intro m hm hk
    obtain ⟨r, hr, h1, h2⟩ := a1 m hm
    have h3 := hmem r hr
    rw [h1, hk] at h3
    omega
  · intro d hd hk
    unfold run_ctx at hd
    dsimp only at hd
    obtain ⟨x, hx, rfl⟩ := List.mem_map.mp hd
    obtain ⟨r, hr, h1, h2⟩ := a2 x hx
    have h3 := hmem r hr
    rw [h1, hk] at h3
    omega
  · apply a3
    · exact (mem_sorter_sort _ _ _).mpr ((mem_swap_requests_zero swaps hn _).mpr ⟨hK, rfl⟩)
    · simpa using hbad

/-- Claim C16, the nearby statement that holds: the engine does not check the
edge ids of the swaps. When a swap names an edge id that is out of range, the
dependency-chain builder returns normally and leaves a request for an edge id
out of range unread, and the run never returns: a worker of the conflict
computer never leaves its wait for a configuration of that swap side. -/
theorem out_of_range_edge_id_never_returns (b t : Nat) (edges : List edge_t)
    (swaps : List SwapDescriptor) (hn : swaps.length < 2 ^ 63)
    (hbad : ∃ s ∈ swaps, edges.length ≤ s.eid_a ∨ edges.length ≤ s.eid_b) :
    (∃ r ∈ (_load_and_update_edges (swaps.foldl push (Engine.init t edges))).pushed.requests,
        edges.length ≤ r.eid) ∧
      run_swaps_with b t edges swaps = none := by
  obtain ⟨K, hK, hKbad⟩ := out_of_range_key edges swaps hbad
  obtain ⟨c1, c2, c3⟩ := load_misses_key t edges swaps hn K hK hKbad
  constructor
  · refine ⟨⟨request_eid swaps K, K⟩, ?_, hKbad⟩
    rw [foldl_push]
    simpa [_load_and_update_edges, Engine.init] using c3
  · cases hr : run_swaps_with b t edges swaps with
    | none => rfl
    | some r =>
      exfalso
      have hS : swaps ≠ [] := by
        intro h
        rw [h] at hK
        simp at hK
      obtain ⟨cr, p, hcr, -⟩ := run_swaps_with_some b t edges swaps hS r hr
      rw [compute_conflicts_unreached K t b swaps.length (by omega)
        (by rw [get_swap_id_eq]; omega) _ _ _ ?_ ?_] at hcr
      · simp at hcr
      · intro m hm
        simp only [PQSorterMerger.content, PQSorterMerger.finish_sorter_input,
          List.append_nil] at hm
        exact c1 m ((mem_sorter_sort _ _ _).mp hm)
      · intro d hd
        exact c2 d ((mem_sorter_sort _ _ _).mp hd)

theorem out_of_range_edge_id_never_returns_witness :
    ([⟨0, 2, false⟩] : List SwapDescriptor).length < 2 ^ 63 ∧
      (∃ s ∈ ([⟨0, 2, false⟩] : List SwapDescriptor),
        ([⟨1, 2⟩, ⟨3, 4⟩] : List edge_t).length ≤ s.eid_a ∨
          ([⟨1, 2⟩, ⟨3, 4⟩] : List edge_t).length ≤ s.eid_b) ∧
      (∃ r ∈ (_load_and_update_edges (([⟨0, 2, false⟩] : List SwapDescriptor).foldl push
          (Engine.init 1 [⟨1, 2⟩, ⟨3, 4⟩]))).pushed.requests,
        ([⟨1, 2⟩, ⟨3, 4⟩] : List edge_t).length ≤ r.eid) ∧
      run_swaps_with IntScale.Mi 1 [⟨1, 2⟩, ⟨3, 4⟩] [⟨0, 2, false⟩] = none :=
  ⟨by decide, ⟨⟨0, 2, false⟩, by decide, by decide⟩,
    out_of_range_edge_id_never_returns IntScale.Mi 1 [⟨1, 2⟩, ⟨3, 4⟩] [⟨0, 2, false⟩]
      (by decide) ⟨⟨0, 2, false⟩, by decide, by decide⟩⟩

/-- Claim C16 fails on the code: on the edges `(1,2), (3,4)` and the one swap of
the edge ids 0 and 2, the dependency-chain builder reports nothing. It returns
with the message for the edge id 0 and the validity bits of both edges, the
request for the edge id 2 is left unread, the conflict computer is started on
this output and never returns, and so the run never returns. -/
theorem out_of_range_edge_id_not_reported :
    (_load_and_update_edges (([⟨0, 2, false⟩] : List SwapDescriptor).foldl push
        (Engine.init 1 [⟨1, 2⟩, ⟨3, 4⟩]))).pushed
        = ⟨[⟨0, ⟨1, 2⟩⟩], [], [false, true], [⟨2, 1⟩]⟩ ∧
      _compute_conflicts 1 IntScale.Mi 1
        (_load_and_update_edges (([⟨0, 2, false⟩] : List SwapDescriptor).foldl push
          (Engine.init 1 [⟨1, 2⟩, ⟨3, 4⟩]))).edge_state
        (_load_and_update_edges (([⟨0, 2, false⟩] : List SwapDescriptor).foldl push
          (Engine.init 1 [⟨1, 2⟩, ⟨3, 4⟩]))).dependencies [false] = none ∧
      run_swaps 1 [⟨1, 2⟩, ⟨3, 4⟩] [⟨0, 2, false⟩] = none := by
  exact ⟨by decide, Option.isNone_iff_eq_none.mp (by decide!), by decide!⟩

/-! ## The candidates of a swap -/

theorem mem_cartesian_new_edges (c0 c1 : List edge_t) (direction : Bool) (x : edge_t) :
    (x ∈ (cartesian_new_edges c0 c1 direction).1 ↔
        ∃ e1 ∈ c0, ∃ e2 ∈ c1, x = (_swap_edges e1 e2 direction).1) ∧
      (x ∈ (cartesian_new_edges c0 c1 direction).2 ↔
        ∃ e1 ∈ c0, ∃ e2 ∈ c1, x = (_swap_edges e1 e2 direction).2) := by
  unfold cartesian_new_edges
  simp only [List.mem_map, List.mem_flatMap]
  constructor
  · constructor
    · rintro ⟨p, ⟨e1, h1, e2, h2, rfl⟩, rfl⟩
      exact ⟨e1, h1, e2, h2, rfl⟩
    · rintro ⟨e1, h1, e2, h2, rfl⟩
      exact ⟨_, ⟨e1, h1, e2, h2, rfl⟩, rfl⟩
  · constructor
    · rintro ⟨p, ⟨e1, h1, e2, h2, rfl⟩, rfl⟩
      exact ⟨e1, h1, e2, h2, rfl⟩
    · rintro ⟨e1, h1, e2, h2, rfl⟩
      exact ⟨_, ⟨e1, h1, e2, h2, rfl⟩, rfl⟩

theorem length_flatMap_map {α β γ : Type} (f : α → β → γ) (c1 : List β) :
    ∀ c0 : List α, (c0.flatMap fun a => c1.map fun b => f a b).length = c0.length * c1.length := by
  intro c0
  induction c0 with
  | nil => simp
  | cons a c0 ih =>
    rw [List.flatMap_cons, List.length_append, ih, List.length_map, List.length_cons]
    ring

theorem length_cartesian_new_edges (c0 c1 : List edge_t) (direction : Bool) :
    (cartesian_new_edges c0 c1 direction).1.length = c0.length * c1.length ∧
      (cartesian_new_edges c0 c1 direction).2.length = c0.length * c1.length := by
  unfold cartesian_new_edges
  simp only [List.length_map]
  exact ⟨length_flatMap_map _ _ _, length_flatMap_map _ _ _⟩

theorem length_sorted_candidates (dd_new : List edge_t) :
    (if dd_new.length > 1 then sorter_sort edge_le dd_new else dd_new).length
      = dd_new.length := by
  split
  · exact (sorter_sort_perm edge_le dd_new).length_eq
  · rfl

/-- Claim C30: the candidate lists of a swap with the source configurations `c0`
and `c1` and the direction `direction`, as `conflicts_side` has them after the
step "sort to support binary search and linear time deduplication": each of the
two lists is sorted ascending, has `|c0| * |c1|` entries, and holds exactly the
first (the second) outputs of `_swap_edges (e1, e2, direction)` for `e1` in `c0`
and `e2` in `c1`. -/
theorem candidates_are_cartesian_product (c0 c1 : List edge_t) (direction : Bool) :
    ((if (cartesian_new_edges c0 c1 direction).1.length > 1 then
          sorter_sort edge_le (cartesian_new_edges c0 c1 direction).1
        else (cartesian_new_edges c0 c1 direction).1).Sorted edge_le ∧
      (if (cartesian_new_edges c0 c1 direction).1.length > 1 then
          sorter_sort edge_le (cartesian_new_edges c0 c1 direction).1
        else (cartesian_new_edges c0 c1 direction).1).length = c0.length * c1.length ∧
      ∀ x, x ∈ (if (cartesian_new_edges c0 c1 direction).1.length > 1 then
          sorter_sort edge_le (cartesian_new_edges c0 c1 direction).1
        else (cartesian_new_edges c0 c1 direction).1) ↔
          ∃ e1 ∈ c0, ∃ e2 ∈ c1, x = (_swap_edges e1 e2 direction).1) ∧
    ((if (cartesian_new_edges c0 c1 direction).2.length > 1 then
          sorter_sort edge_le (cartesian_new_edges c0 c1 direction).2
        else (cartesian_new_edges c0 c1 direction).2).Sorted edge_le ∧
      (if (cartesian_new_edges c0 c1 direction).2.length > 1 then
          sorter_sort edge_le (cartesian_new_edges c0 c1 direction).2
        else (cartesian_new_edges c0 c1 direction).2).length = c0.length * c1.length ∧
      ∀ x, x ∈ (if (cartesian_new_edges c0 c1 direction).2.length > 1 then
          sorter_sort edge_le (cartesian_new_edges c0 c1 direction).2
        else (cartesian_new_edges c0 c1 direction).2) ↔
          ∃ e1 ∈ c0, ∃ e2 ∈ c1, x = (_swap_edges e1 e2 direction).2) := by
  obtain ⟨s1, m1⟩ := sorted_candidates (cartesian_new_edges c0 c1 direction).1
  obtain ⟨s2, m2⟩ := sorted_candidates (cartesian_new_edges c0 c1 direction).2
  obtain ⟨l1, l2⟩ := length_cartesian_new_edges c0 c1 direction
  refine ⟨⟨s1, ?_, ?_⟩, ⟨s2, ?_, ?_⟩⟩
  · rw [length_sorted_candidates, l1]
  · intro x
    rw [m1 x]
    exact (mem_cartesian_new_edges c0 c1 direction x).1
  · rw [length_sorted_candidates, l2]
  · intro x
    rw [m2 x]
    exact (mem_cartesian_new_edges c0 c1 direction x).2

/-! ## The validity bits of the dependency-chain builder -/

theorem use_edge_valid (num_threads : Nat) (requests : List EdgeLoadRequest) (cur_e : edge_t)
    (id : Nat) (hs : (requests.map EdgeLoadRequest.eid).Sorted (· ≤ ·))
    (hr : ∀ r ∈ requests, id ≤ r.eid) :
    (use_edge num_threads requests cur_e id).next_valid_edges
        = [decide (∀ r ∈ requests, r.eid ≠ id)] ∧
      ((use_edge num_threads requests cur_e id).requests.map EdgeLoadRequest.eid).Sorted
        (· ≤ ·) ∧
      (∀ r ∈ (use_edge num_threads requests cur_e id).requests, id + 1 ≤ r.eid) ∧
      (∀ j, 0 < j → ((∀ r ∈ (use_edge num_threads requests cur_e id).requests,
          r.eid ≠ id + j) ↔ ∀ r ∈ requests, r.eid ≠ id + j)) := by
  unfold use_edge
  cases requests with
  | nil => simp
  | cons r rs =>
    dsimp only
    simp only [List.map_cons, List.sorted_cons, List.mem_map, forall_exists_index, and_imp,
      forall_apply_eq_imp_iff₂] at hs
    by_cases h : r.eid = id
    · rw [if_pos h]
      dsimp only
      obtain ⟨-, u2⟩ := use_edge_successors_spec num_threads id rs r.sid
        (_thread num_threads (get_swap_id r.sid))
      rw [u2]
      have hgt : ∀ t ∈ rs.dropWhile (fun r => decide (r.eid = id)), id < t.eid :=
        dropWhile_eid_gt id rs hs.2 (fun t ht => hr t (List.mem_cons_of_mem _ ht))
      have hsub : (rs.dropWhile (fun r => decide (r.eid = id))).Sublist rs :=
        (List.dropWhile_suffix _).sublist
      refine ⟨?_, hs.2.sublist (hsub.map _), fun t ht => hgt t ht, ?_⟩
      · simp [h]
      · intro j hj
        constructor
        · intro hall t ht
          by_cases hte : t.eid = id
          · omega
          · have : t ∈ rs.dropWhile (fun r => decide (r.eid = id)) := by
              rcases List.mem_cons.mp ht with rfl | ht
              · exact absurd h hte
              · have := List.takeWhile_append_dropWhile (fun r => decide (r.eid = id)) rs
                rw [← this] at ht
                rcases List.mem_append.mp ht with ht | ht
                · exact absurd (takeWhile_eid_eq id rs t ht) hte
                · exact ht
            exact hall t this
        · intro hall t ht
          exact hall t (List.mem_cons_of_mem _ (hsub.subset ht))
    · rw [if_neg h]
      have hrr := hr r (List.mem_cons_self _ _)
      have hall : ∀ t ∈ r :: rs, id + 1 ≤ t.eid := by
        intro t ht
        rcases List.mem_cons.mp ht with rfl | ht
        · omega
        · have := hs.1 t ht
          omega
      refine ⟨?_, ?_, hall, fun j _ => Iff.rfl⟩
      · simp only [List.cons.injEq, and_true]
        symm
        rw [decide_eq_true_eq]
        intro t ht
        have := hall t ht
        omega
      · simp only [List.map_cons, List.sorted_cons, List.mem_map, forall_exists_index, and_imp,
          forall_apply_eq_imp_iff₂]
        exact hs

theorem load_edges_valid (num_threads : Nat) :
    ∀ (es : List edge_t) (id : Nat) (requests : List EdgeLoadRequest),
      (requests.map EdgeLoadRequest.eid).Sorted (· ≤ ·) →
      (∀ r ∈ requests, id ≤ r.eid) →
      (load_edges num_threads id es requests).next_valid_edges =
        (List.range es.length).map (fun j => decide (∀ r ∈ requests, r.eid ≠ id + j)) := by
  intro es
  induction es with
  | nil =>
    intro id requests _ _
    simp [load_edges]
  | cons e es ih =>
    intro id requests hs hr
    obtain ⟨a1, a2, a3, a4⟩ := use_edge_valid num_threads requests e id hs hr
    unfold load_edges
    dsimp only
    rw [a1, ih (id + 1) _ a2 a3]
    simp only [List.length_cons, List.range_succ_eq_map, List.map_cons, List.map_map,
      Nat.add_zero, List.singleton_append]
    congr 1
    apply List.map_congr_left
    intro j _
    simp only [Function.comp, decide_eq_decide]
    have := a4 (j + 1) (by omega)
    rw [show id + 1 + j = id + (j + 1) by omega]
    exact this

/-- Claim C28: the validity bit stream. For every state of the engine the
dependency-chain builder pushes exactly one bit per edge position of the edge
stream it reads (`_edges`, or `_edges` with the pending updates written back), in
position order, and the bit of the position `id` is false exactly when a request
of `_edge_swap_sorter` names the edge id `id`. -/
theorem validity_bit_stream (g : Engine) :
    (_load_and_update_edges g).pushed.next_valid_edges =
        (List.range (_load_and_update_edges g).engine._edges.length).map
          (fun id => decide (∀ r ∈ g._edge_swap_sorter, r.eid ≠ id)) ∧
      (_load_and_update_edges g).engine._valid_edges =
        (_load_and_update_edges g).pushed.next_valid_edges ∧
      (_load_and_update_edges g).pushed.next_valid_edges.length =
        (_load_and_update_edges g).engine._edges.length ∧
      ∀ id, id < (_load_and_update_edges g).engine._edges.length →
        ((_load_and_update_edges g).pushed.next_valid_edges.getD id true = false ↔
          ∃ r ∈ g._edge_swap_sorter, r.eid = id) := by
  have hsorted := sorter_sort_sorted EdgeLoadRequest.le g._edge_swap_sorter
  have h := fun es => load_edges_valid g.num_threads es 0
    (sorter_sort EdgeLoadRequest.le g._edge_swap_sorter) (sorted_requests_eid _ hsorted)
    (fun r _ => Nat.zero_le _)
  have hmain : (_load_and_update_edges g).pushed.next_valid_edges =
      (List.range (_load_and_update_edges g).engine._edges.length).map
        (fun id => decide (∀ r ∈ g._edge_swap_sorter, r.eid ≠ id)) := by
    unfold _load_and_update_edges
    dsimp only
    rw [h]
    apply List.map_congr_left
    intro j _
    simp only [Nat.zero_add, decide_eq_decide]
    constructor
    · intro hall r hr
      exact hall r ((mem_sorter_sort _ _ _).mpr hr)
    · intro hall r hr
      exact hall r ((mem_sorter_sort _ _ _).mp hr)
  refine ⟨hmain, rfl, ?_, ?_⟩
  · rw [hmain, List.length_map, List.length_range]
  · intro id hid
    rw [hmain, List.getD_eq_getElem?_getD, List.getElem?_map,
      List.getElem?_range hid]
    simp

/-! ## The output of the dependency-chain builder -/

theorem load_pushed_eq (t : Nat) (edges : List edge_t) (swaps : List SwapDescriptor) :
    (_load_and_update_edges (swaps.foldl push (Engine.init t edges))).pushed =
      load_edges t 0 edges (sorter_sort EdgeLoadRequest.le (swap_requests 0 swaps)) := by
  rw [foldl_push]
  simp [_load_and_update_edges, Engine.init]

theorem use_edge_successors_thread (num_threads id : Nat) :
    ∀ (rs : List EdgeLoadRequest) (lastSid lastTid : Nat),
      lastTid = _thread num_threads (get_swap_id lastSid) →
      ∀ d ∈ (use_edge_successors num_threads id lastSid lastTid rs).1,
        d.1 = _thread num_threads (get_swap_id d.2.sid) := by
  intro rs
  induction rs with
  | nil =>
    intro lastSid lastTid _ d hd
    simp [use_edge_successors] at hd
  | cons r rs ih =>
    intro lastSid lastTid hl d hd
    unfold use_edge_successors at hd
    split at hd
    · rcases List.mem_cons.mp hd with rfl | hd
      · exact hl
      · exact ih _ _ rfl d hd
    · simp at hd

theorem load_edges_thread (num_threads : Nat) :
    ∀ (es : List edge_t) (id : Nat) (requests : List EdgeLoadRequest),
      ∀ d ∈ (load_edges num_threads id es requests).dependency_output,
        d.1 = _thread num_threads (get_swap_id d.2.sid) := by
  intro es
  induction es with
  | nil => intro id requests d hd; simp [load_edges] at hd
  | cons e es ih =>
    intro id requests d hd
    unfold load_edges at hd
    dsimp only at hd
    rcases List.mem_append.mp hd with hd | hd
    · unfold use_edge at hd
      cases requests with
      | nil => simp at hd
      | cons r rs =>
        dsimp only at hd
        split at hd
        · exact use_edge_successors_thread num_threads id rs _ _ rfl d hd
        · simp at hd
    · exact ih _ _ d hd

/-- Claim C26: the output of the dependency-chain builder on the requests of the
swaps `swaps` (fewer than `2^63`, edge ids in range). With `request_eid swaps q`
the edge id the swap side `q` names: a message `DepChainEdge(q, e)` is pushed
exactly for the sides `q` that are the least side naming their edge id, with `e`
the edge at that id, and at most once per side; a link `DepChainSucc(p -> q)` is
pushed exactly for the sides `p < q` that name the same edge id with no side
naming it in between, into the sorter of the thread of the swap of `p`, and at
most once. So an edge id that no side names gets no message. -/
theorem dependency_chain_builder_output (t : Nat) (edges : List edge_t)
    (swaps : List SwapDescriptor) (hn : swaps.length < 2 ^ 63)
    (hrange : ∀ s ∈ swaps, s.eid_a < edges.length ∧ s.eid_b < edges.length) :
    (∀ q e, (⟨q, e⟩ : DependencyChainEdgeMsg) ∈
        (_load_and_update_edges (swaps.foldl push (Engine.init t edges))).pushed.depchain_edges ↔
        q < 2 * swaps.length ∧
          (∀ r, r < 2 * swaps.length → request_eid swaps r = request_eid swaps q → q ≤ r) ∧
          e = edges.getD (request_eid swaps q) edge_t.invalid) ∧
      ((_load_and_update_edges (swaps.foldl push (Engine.init t edges))).pushed.depchain_edges.map
        DependencyChainEdgeMsg.sid).Nodup ∧
      (∀ tid p q, (tid, (⟨p, q⟩ : DependencyChainSuccessorMsg)) ∈
        (_load_and_update_edges (swaps.foldl push (Engine.init t edges))).pushed.dependency_output ↔
        tid = _thread t (get_swap_id p) ∧ p < 2 * swaps.length ∧ q < 2 * swaps.length ∧
          request_eid swaps p = request_eid swaps q ∧ p < q ∧
          ∀ r, r < 2 * swaps.length → request_eid swaps r = request_eid swaps p →
            r ≤ p ∨ q ≤ r) ∧
      (_load_and_update_edges
        (swaps.foldl push (Engine.init t edges))).pushed.dependency_output.Nodup := by
  rw [load_pushed_eq]
  obtain ⟨F, -⟩ := load_edges_facts t edges swaps hn hrange
  refine ⟨F.mem_edges, F.edges_nodup, ?_, ?_⟩
  · intro tid p q
    rw [← F.mem_links p q]
    constructor
    · intro h
      exact ⟨load_edges_thread t edges 0 _ _ h, List.mem_map.mpr ⟨_, h, rfl⟩⟩
    · rintro ⟨h1, h2⟩
      obtain ⟨x, hx, hx2⟩ := List.mem_map.mp h2
      have hx1 := load_edges_thread t edges 0 _ x hx
      have : x = (tid, ⟨p, q⟩) := by
        apply Prod.ext
        · rw [hx1, hx2, h1]
        · exact hx2
      rw [← this]
      exact hx
  · have h1 := F.links_nodup
    rw [List.map_map] at h1
    exact List.Nodup.of_map _ h1

theorem dependency_chain_builder_output_witness :
    stale_S.length < 2 ^ 63 ∧
      (∀ s ∈ stale_S, s.eid_a < stale_E.length ∧ s.eid_b < stale_E.length) ∧
      (∀ q e, (⟨q, e⟩ : DependencyChainEdgeMsg) ∈
        (_load_and_update_edges (stale_S.foldl push (Engine.init 1 stale_E))).pushed.depchain_edges ↔
        q < 2 * stale_S.length ∧
          (∀ r, r < 2 * stale_S.length → request_eid stale_S r = request_eid stale_S q → q ≤ r) ∧
          e = stale_E.getD (request_eid stale_S q) edge_t.invalid) ∧
      ((_load_and_update_edges (stale_S.foldl push (Engine.init 1 stale_E))).pushed.depchain_edges.map
        DependencyChainEdgeMsg.sid).Nodup ∧
      (∀ tid p q, (tid, (⟨p, q⟩ : DependencyChainSuccessorMsg)) ∈
        (_load_and_update_edges (stale_S.foldl push (Engine.init 1 stale_E))).pushed.dependency_output ↔
        tid = _thread 1 (get_swap_id p) ∧ p < 2 * stale_S.length ∧ q < 2 * stale_S.length ∧
          request_eid stale_S p = request_eid stale_S q ∧ p < q ∧
          ∀ r, r < 2 * stale_S.length → request_eid stale_S r = request_eid stale_S p →
            r ≤ p ∨ q ≤ r) ∧
      (_load_and_update_edges
        (stale_S.foldl push (Engine.init 1 stale_E))).pushed.dependency_output.Nodup :=
  ⟨by decide, by decide,
    dependency_chain_builder_output 1 stale_E stale_S (by decide) (by decide)⟩

/-! ## The initial configuration of a swap side -/

theorem chain_first_or_link {edges : List edge_t} {N : Nat} {eid : Nat → Nat}
    {dep : List DependencyChainEdgeMsg} {links : List DependencyChainSuccessorMsg}
    {valid : List Bool} (F : ChainFacts edges N eid dep links valid) (q : Nat) (hq : q < N) :
    ((∀ r, r < N → eid r = eid q → q ≤ r) →
        (⟨q, edges.getD (eid q) edge_t.invalid⟩ : DependencyChainEdgeMsg) ∈ dep ∧
          q ∉ links.map DependencyChainSuccessorMsg.successor) ∧
      (¬ (∀ r, r < N → eid r = eid q → q ≤ r) →
        q ∉ dep.map DependencyChainEdgeMsg.sid ∧
          ∃ p, (⟨p, q⟩ : DependencyChainSuccessorMsg) ∈ links) := by
  constructor
  · intro hfirst
    refine ⟨(F.mem_edges q _).mpr ⟨hq, hfirst, rfl⟩, ?_⟩
    intro hmem
    obtain ⟨m, hm, hm2⟩ := List.mem_map.mp hmem
    obtain ⟨p, s⟩ := m
    simp only at hm2
    subst hm2
    obtain ⟨hp, -, he, hlt, -⟩ := (F.mem_links p s).mp hm
    have := hfirst p hp he
    omega
  · intro hnot
    constructor
    · intro hmem
      obtain ⟨m, hm, hm2⟩ := List.mem_map.mp hmem
      obtain ⟨s, e⟩ := m
      simp only at hm2
      subst hm2
      exact hnot ((F.mem_edges s e).mp hm).2.1
    · have hex : ∃ t, t < q ∧ eid t = eid q := by
        by_contra hcon
        apply hnot
        intro r _ hr
        by_contra hlt
        exact hcon ⟨r, by omega, hr⟩
      let P := fun t => t < q ∧ eid t = eid q
      obtain ⟨t0, ht0⟩ := hex
      have hspec : P (Nat.findGreatest P q) :=
        Nat.findGreatest_spec (P := P) (Nat.le_of_lt ht0.1) ht0
      have hgreat : ∀ k, Nat.findGreatest P q < k → k ≤ q → ¬ P k :=
        fun k hk1 hk2 => Nat.findGreatest_is_greatest hk1 hk2
      refine ⟨Nat.findGreatest P q, (F.mem_links _ _).mpr
        ⟨by have := hspec.1; omega, hq, hspec.2, hspec.1, ?_⟩⟩
      intro t ht hte
      by_contra hcon
      exact hgreat t (by omega) (by omega) ⟨by omega, by rw [hte, hspec.2]⟩

/-- Claim C27 fails on the code: on the edges and swaps of `stale_E`, `stale_S`
the swap sides 2 and 4 both name the edge id 2; the dependency-chain builder
pushes a `DepChainEdge` message for the sides 0, 2, 3, 1 and 5 and none for the
side 4, which is reached by the link `DepChainSucc(2 -> 4)` only. -/
theorem second_reference_gets_no_message :
    4 < 2 * stale_S.length ∧
      (_load_and_update_edges (stale_S.foldl push (Engine.init 1 stale_E))).pushed.depchain_edges
        = [⟨0, ⟨1, 2⟩⟩, ⟨2, ⟨1, 9⟩⟩, ⟨3, ⟨2, 10⟩⟩, ⟨1, ⟨3, 4⟩⟩, ⟨5, ⟨5, 6⟩⟩] ∧
      4 ∉ (_load_and_update_edges
        (stale_S.foldl push (Engine.init 1 stale_E))).pushed.depchain_edges.map
          DependencyChainEdgeMsg.sid ∧
      (_load_and_update_edges (stale_S.foldl push (Engine.init 1 stale_E))).pushed.dependency_output
        = [(0, ⟨2, 4⟩)] := by
  decide

/-- Claim C27, the nearby statement that holds: after the pass of the
dependency-chain builder over the edges (fewer than `2^63` swaps, edge ids in
range) every swap side `q` has exactly one source of its initial configuration:
either one `DepChainEdge` message addressed to it, when it is the least side
naming its edge id, or, when it is not, no such message and exactly one link
`DepChainSucc(p -> q)`, from the side `p < q` that names the same edge id with no
side naming it in between. -/
theorem one_initial_configuration (t : Nat) (edges : List edge_t)
    (swaps : List SwapDescriptor) (hn : swaps.length < 2 ^ 63)
    (hrange : ∀ s ∈ swaps, s.eid_a < edges.length ∧ s.eid_b < edges.length)
    (q : Nat) (hq : q < 2 * swaps.length) :
    ((_load_and_update_edges (swaps.foldl push (Engine.init t edges))).pushed.depchain_edges.map
          DependencyChainEdgeMsg.sid).count q +
        ((_load_and_update_edges (swaps.foldl push
          (Engine.init t edges))).pushed.dependency_output.map
            (fun d => d.2.successor)).count q = 1 ∧
      (((_load_and_update_edges (swaps.foldl push (Engine.init t edges))).pushed.depchain_edges.map
          DependencyChainEdgeMsg.sid).count q = 1 ↔
        ∀ r, r < 2 * swaps.length → request_eid swaps r = request_eid swaps q → q ≤ r) ∧
      (∀ tid p, (tid, (⟨p, q⟩ : DependencyChainSuccessorMsg)) ∈
          (_load_and_update_edges (swaps.foldl push
            (Engine.init t edges))).pushed.dependency_output →
        p < q ∧ request_eid swaps p = request_eid swaps q ∧
          ∀ r, r < 2 * swaps.length → request_eid swaps r = request_eid swaps p →
            r ≤ p ∨ q ≤ r) := by
  rw [load_pushed_eq]
  obtain ⟨F, -⟩ := load_edges_facts t edges swaps hn hrange
  obtain ⟨c1, c2⟩ := chain_first_or_link F q hq
  have hmap : (load_edges t 0 edges
      (sorter_sort EdgeLoadRequest.le (swap_requests 0 swaps))).dependency_output.map
        (fun d => d.2.successor) =
      ((load_edges t 0 edges
        (sorter_sort EdgeLoadRequest.le (swap_requests 0 swaps))).dependency_output.map
          Prod.snd).map DependencyChainSuccessorMsg.successor := by
    rw [List.map_map]
    rfl
  rw [hmap, List.count_eq_of_nodup F.edges_nodup, List.count_eq_of_nodup F.successors_nodup]
  by_cases hfirst : ∀ r, r < 2 * swaps.length → request_eid swaps r = request_eid swaps q → q ≤ r
  · obtain ⟨d1, d2⟩ := c1 hfirst
    have hm : q ∈ (load_edges t 0 edges
        (sorter_sort EdgeLoadRequest.le (swap_requests 0 swaps))).depchain_edges.map
          DependencyChainEdgeMsg.sid := List.mem_map.mpr ⟨_, d1, rfl⟩
    rw [if_pos hm, if_neg d2]
    refine ⟨rfl, ⟨fun _ => hfirst, fun _ => rfl⟩, ?_⟩
    intro tid p hp
    exact absurd (List.mem_map.mpr ⟨_, List.mem_map.mpr ⟨_, hp, rfl⟩, rfl⟩) d2
  · obtain ⟨d1, p0, d2⟩ := c2 hfirst
    have hm : q ∈ ((load_edges t 0 edges
        (sorter_sort EdgeLoadRequest.le (swap_requests 0 swaps))).dependency_output.map
          Prod.snd).map DependencyChainSuccessorMsg.successor :=
      List.mem_map.mpr ⟨_, d2, rfl⟩
    rw [if_neg d1, if_pos hm]
    refine ⟨rfl, ⟨fun h => absurd h (by decide), fun h => absurd h hfirst⟩, ?_⟩
    intro tid p hp
    obtain ⟨-, -, h3, h4, h5⟩ := (F.mem_links p q).mp (List.mem_map.mpr ⟨_, hp, rfl⟩)
    exact ⟨h4, h3, h5⟩

theorem one_initial_configuration_witness :
    stale_S.length < 2 ^ 63 ∧
      (∀ s ∈ stale_S, s.eid_a < stale_E.length ∧ s.eid_b < stale_E.length) ∧
      4 < 2 * stale_S.length ∧
      (((_load_and_update_edges (stale_S.foldl push (Engine.init 1 stale_E))).pushed.depchain_edges.map
            DependencyChainEdgeMsg.sid).count 4 +
          ((_load_and_update_edges (stale_S.foldl push
            (Engine.init 1 stale_E))).pushed.dependency_output.map
              (fun d => d.2.successor)).count 4 = 1 ∧
        (((_load_and_update_edges (stale_S.foldl push (Engine.init 1 stale_E))).pushed.depchain_edges.map
            DependencyChainEdgeMsg.sid).count 4 = 1 ↔
          ∀ r, r < 2 * stale_S.length → request_eid stale_S r = request_eid stale_S 4 → 4 ≤ r) ∧
        (∀ tid p, (tid, (⟨p, 4⟩ : DependencyChainSuccessorMsg)) ∈
            (_load_and_update_edges (stale_S.foldl push
              (Engine.init 1 stale_E))).pushed.dependency_output →
          p < 4 ∧ request_eid stale_S p = request_eid stale_S 4 ∧
            ∀ r, r < 2 * stale_S.length → request_eid stale_S r = request_eid stale_S p →
              r ≤ p ∨ 4 ≤ r)) :=
  ⟨by decide, by decide, by decide,
    one_initial_configuration 1 stale_E stale_S (by decide) (by decide) 4 (by decide)⟩

/-! ## Successors are later -/

theorem use_edge_successors_lt (num_threads id : Nat) :
    ∀ (rs : List EdgeLoadRequest) (lastSid lastTid : Nat),
      rs.Pairwise EdgeLoadRequest.lt → (∀ r ∈ rs, r.eid = id → lastSid < r.sid) →
      ∀ d ∈ (use_edge_successors num_threads id lastSid lastTid rs).1,
        d.2.sid < d.2.successor := by
  intro rs
  induction rs with
  | nil =>
    intro lastSid lastTid _ _ d hd
    simp [use_edge_successors] at hd
  | cons r rs ih =>
    intro lastSid lastTid hp hl d hd
    rw [List.pairwise_cons] at hp
    unfold use_edge_successors at hd
    split at hd
    · next h =>
      rcases List.mem_cons.mp hd with rfl | hd
      · exact hl r (List.mem_cons_self _ _) h
      · refine ih _ _ hp.2 ?_ d hd
        intro r2 hr2 he
        have := hp.1 r2 hr2
        unfold EdgeLoadRequest.lt at this
        omega
    · simp at hd

theorem load_edges_lt (num_threads : Nat) :
    ∀ (es : List edge_t) (id : Nat) (requests : List EdgeLoadRequest),
      requests.Pairwise EdgeLoadRequest.lt →
      ∀ d ∈ (load_edges num_threads id es requests).dependency_output,
        d.2.sid < d.2.successor := by
  intro es
  induction es with
  | nil => intro id requests _ d hd; simp [load_edges] at hd
  | cons e es ih =>
    intro id requests hp d hd
    unfold load_edges at hd
    dsimp only at hd
    rcases List.mem_append.mp hd with hd | hd
    · unfold use_edge at hd
      cases requests with
      | nil => simp at hd
      | cons r rs =>
        dsimp only at hd
        rw [List.pairwise_cons] at hp
        split at hd
        · next h =>
          refine use_edge_successors_lt num_threads id rs _ _ hp.2 ?_ d hd
          intro r2 hr2 he
          have := hp.1 r2 hr2
          unfold EdgeLoadRequest.lt at this
          omega
        · simp at hd
    · refine ih _ _ ?_ d hd
      have hsub : ∀ r ∈ (use_edge num_threads requests e id).requests, r ∈ requests :=
        (use_edge_requests num_threads requests e id).2.2.2
      unfold use_edge
      cases requests with
      | nil => exact List.Pairwise.nil
      | cons r rs =>
        dsimp only
        split
        · rw [(use_edge_successors_spec num_threads id rs r.sid
            (_thread num_threads (get_swap_id r.sid))).2]
          exact (List.pairwise_cons.mp hp).2.sublist (List.dropWhile_suffix _).sublist
        · exact hp

theorem existence_chain_lt (t : Nat) (X : edge_t) :
    ∀ (reqs : List ExistenceRequestMsg) (last : Nat) (found : Bool),
      reqs.Pairwise ExistenceRequestMsg.le → (∀ r ∈ reqs, r.edge = X → r.swap_id ≤ last) →
      ∀ m ∈ (existence_chain t X reqs last found).1.successor_output,
        m.2.swap_id < m.2.successor := by
  intro reqs
  induction reqs with
  | nil =>
    intro last found _ _ m hm
    simp [existence_chain] at hm
  | cons r rest ih =>
    intro last found hp hl m hm
    rw [List.pairwise_cons] at hp
    unfold existence_chain at hm
    by_cases hX : r.edge = X
    · rw [if_neg (by simpa using hX)] at hm
      dsimp only at hm
      have hrec : ∀ m ∈ (existence_chain t X rest r.swap_id
          (found || !r.forward_only)).1.successor_output, m.2.swap_id < m.2.successor := by
        refine ih _ _ hp.2 ?_
        intro r2 hr2 he
        have h1 := hp.1 r2 hr2
        unfold ExistenceRequestMsg.le ExistenceRequestMsg.lt at h1
        by_contra hcon
        apply h1
        right
        exact ⟨by rw [he, hX], Or.inl (by omega)⟩
      split at hm
      · next hc =>
        rcases List.mem_cons.mp hm with rfl | hm
        · have := hl r (List.mem_cons_self _ _) hX
          have := hc.1
          show r.swap_id < last
          omega
        · exact hrec m hm
      · exact hrec m hm
    · rw [if_pos (by simpa using hX)] at hm
      simp at hm

theorem process_requests_lt (t : Nat) :
    ∀ (fuel : Nat) (reqs : List ExistenceRequestMsg) (edges : List edge_t),
      reqs.Pairwise ExistenceRequestMsg.le →
      ∀ m ∈ (process_requests t fuel reqs edges).successor_output,
        m.2.swap_id < m.2.successor := by
  intro fuel
  induction fuel with
  | zero => intro reqs edges _ m hm; simp [process_requests] at hm
  | succ fuel ih =>
    intro reqs edges hp m hm
    cases reqs with
    | nil => simp [process_requests] at hm
    | cons request rest =>
      unfold process_requests at hm
      dsimp only at hm
      rcases List.mem_append.mp hm with hm | hm
      · rcases List.mem_append.mp hm with hm | hm
        · refine existence_chain_lt t request.edge _ _ _ hp ?_ m hm
          intro r hr he
          rcases List.mem_cons.mp hr with rfl | hr
          · exact Nat.le_refl _
          · have h1 := (List.pairwise_cons.mp hp).1 r hr
            unfold ExistenceRequestMsg.le ExistenceRequestMsg.lt at h1
            by_contra hcon
            apply h1
            right
            exact ⟨he, Or.inl (by omega)⟩
        · split at hm <;> simp at hm
      · refine ih _ _ ?_ m hm
        rw [(existence_chain_spec t request.edge (request :: rest) [] request.swap_id false
          (by
            intro r hr
            simp only [List.head?_cons, Option.some.injEq] at hr
            rw [← hr]
            rfl)
          (by simp)).2.2]
        exact hp.sublist (List.dropWhile_suffix _).sublist

/-- Claim C29: successors are strictly greater. On swap requests sorted by
`(eid, ssid)`, no two of them of the same swap side, every link
`DepChainSucc(sender, successor)` that the dependency-chain builder pushes has a
successor key greater than the sender key; on existence requests in the order of
the request merger, every message `ExistSucc(sid, X, successor)` that the
existence-request processor pushes has `successor > sid`. -/
theorem successors_strictly_greater (t : Nat) (edges edges2 : List edge_t)
    (requests : List EdgeLoadRequest) (reqs : List ExistenceRequestMsg)
    (hsorted : requests.Sorted EdgeLoadRequest.le)
    (hsides : (requests.map EdgeLoadRequest.sid).Nodup)
    (hmerger : reqs.Sorted ExistenceRequestMsg.le) :
    (∀ d ∈ (load_edges t 0 edges requests).dependency_output, d.2.sid < d.2.successor) ∧
      (∀ m ∈ (_process_existence_requests t reqs edges2).pushed.successor_output,
        m.2.swap_id < m.2.successor) ∧
      (∀ m ∈ (_process_existence_requests t reqs edges2).existence_successor,
        m.swap_id < m.successor) := by
  have h2 := process_requests_lt t reqs.length reqs edges2 hmerger
  refine ⟨load_edges_lt t edges 0 requests (sorted_requests_pairwise_lt _ hsorted hsides),
    h2, ?_⟩
  intro m hm
  unfold _process_existence_requests at hm
  dsimp only at hm
  obtain ⟨x, hx, rfl⟩ := List.mem_map.mp ((mem_sorter_sort _ _ _).mp hm)
  exact h2 x hx

theorem successors_strictly_greater_witness :
    ([⟨0, 0⟩, ⟨2, 2⟩, ⟨2, 4⟩, ⟨3, 3⟩, ⟨4, 1⟩, ⟨5, 5⟩] : List EdgeLoadRequest).Sorted
        EdgeLoadRequest.le ∧
      (([⟨0, 0⟩, ⟨2, 2⟩, ⟨2, 4⟩, ⟨3, 3⟩, ⟨4, 1⟩, ⟨5, 5⟩] : List EdgeLoadRequest).map
        EdgeLoadRequest.sid).Nodup ∧
      ([⟨⟨1, 5⟩, 2, false⟩, ⟨⟨1, 5⟩, 0, false⟩, ⟨⟨2, 3⟩, 1, true⟩] :
        List ExistenceRequestMsg).Sorted ExistenceRequestMsg.le ∧
      (∀ d ∈ (load_edges 1 0 stale_E
          [⟨0, 0⟩, ⟨2, 2⟩, ⟨2, 4⟩, ⟨3, 3⟩, ⟨4, 1⟩, ⟨5, 5⟩]).dependency_output,
        d.2.sid < d.2.successor) ∧
      (∀ m ∈ (_process_existence_requests 1
          [⟨⟨1, 5⟩, 2, false⟩, ⟨⟨1, 5⟩, 0, false⟩, ⟨⟨2, 3⟩, 1, true⟩]
          stale_E).pushed.successor_output,
        m.2.swap_id < m.2.successor) ∧
      (∀ m ∈ (_process_existence_requests 1
          [⟨⟨1, 5⟩, 2, false⟩, ⟨⟨1, 5⟩, 0, false⟩, ⟨⟨2, 3⟩, 1, true⟩]
          stale_E).existence_successor,
        m.swap_id < m.successor) :=
  ⟨by decide, by decide, by decide,
    successors_strictly_greater 1 stale_E stale_E
      [⟨0, 0⟩, ⟨2, 2⟩, ⟨2, 4⟩, ⟨3, 3⟩, ⟨4, 1⟩, ⟨5, 5⟩]
      [⟨⟨1, 5⟩, 2, false⟩, ⟨⟨1, 5⟩, 0, false⟩, ⟨⟨2, 3⟩, 1, true⟩]
      (by decide) (by decide) (by decide)⟩

theorem successors_example :
    (load_edges 1 0 stale_E
        [⟨0, 0⟩, ⟨2, 2⟩, ⟨2, 4⟩, ⟨3, 3⟩, ⟨4, 1⟩, ⟨5, 5⟩]).dependency_output = [(0, ⟨2, 4⟩)] ∧
      (_process_existence_requests 1
        [⟨⟨1, 5⟩, 2, false⟩, ⟨⟨1, 5⟩, 0, false⟩, ⟨⟨2, 3⟩, 1, true⟩]
        stale_E).pushed.successor_output = [(0, ⟨0, ⟨1, 5⟩, 2⟩)] := by
  decide

/-! ## The merge join of the requests with the edges -/

theorem find_edge_spec (X : edge_t) :
    ∀ (rest : List edge_t) (ex : Bool), rest.Sorted edge_le →
      (find_edge X rest ex).1 = (if ∀ e ∈ rest, X < e then ex else decide (X ∈ rest)) ∧
        ∃ dropped, rest = dropped ++ (find_edge X rest ex).2 ∧ (∀ d ∈ dropped, d ≤ X) ∧
          ∀ e ∈ (find_edge X rest ex).2, X < e := by
  intro rest
  induction rest with
  | nil =>
    intro ex _
    unfold find_edge
    exact ⟨by simp, [], rfl, fun d hd => by simp at hd, fun e he => by simp at he⟩
  | cons e rest ih =>
    intro ex hs
    have hs1 := List.sorted_cons.mp hs
    unfold find_edge
    by_cases hgt : X < e
    · rw [if_pos hgt]
      have hall : ∀ y ∈ e :: rest, X < y := by
        intro y hy
        rcases List.mem_cons.mp hy with rfl | hy
        · exact hgt
        · exact edge_lt_of_lt_of_le hgt (hs1.1 y hy)
      exact ⟨by rw [if_pos hall], [], rfl, fun d hd => by simp at hd, hall⟩
    · rw [if_neg hgt]
      have hle : e ≤ X := (edge_not_le e X).not.mp (by
        intro h
        exact hgt ((edge_not_le e X).mp h))
      obtain ⟨a1, dropped, a2, a3, a4⟩ := ih (decide (e = X)) hs1.2
      refine ⟨?_, e :: dropped, by rw [List.cons_append, ← a2], ?_, a4⟩
      · rw [if_neg (show ¬ ∀ y ∈ e :: rest, X < y from
          fun h => hgt (h e (List.mem_cons_self _ _))), a1]
        by_cases hall : ∀ y ∈ rest, X < y
        · rw [if_pos hall]
          rw [decide_eq_decide]
          constructor
          · intro h
            rw [h]
            exact List.mem_cons_self _ _
          · intro h
            rcases List.mem_cons.mp h with h | h
            · exact h.symm
            · exact absurd (hall X h) (edge_lt_irrefl X)
        · rw [if_neg hall, decide_eq_decide]
          constructor
          · exact fun h => List.mem_cons_of_mem _ h
          · intro h
            rcases List.mem_cons.mp h with h | h
            · push_neg at hall
              obtain ⟨y, hy, hny⟩ := hall
              have hyX : y ≤ X := (edge_not_le y X).not.mp (by
                intro h2
                exact hny ((edge_not_le y X).mp h2))
              have hXy : X ≤ y := by rw [h]; exact hs1.1 y hy
              rw [edge_le_antisymm hXy hyX]
              exact hy
            · exact h
      · intro d hd
        rcases List.mem_cons.mp hd with rfl | hd
        · exact hle
        · exact a3 d hd

theorem dropWhile_edge_gt (X : edge_t) :
    ∀ reqs : List ExistenceRequestMsg,
      (reqs.map ExistenceRequestMsg.edge).Sorted edge_le → (∀ r ∈ reqs, X ≤ r.edge) →
      ∀ r ∈ reqs.dropWhile (fun r => decide (r.edge = X)), X < r.edge := by
  intro reqs
  induction reqs with
  | nil => intro _ _ r hr; simp at hr
  | cons q qs ih =>
    intro hs hl r hr
    simp only [List.map_cons, List.sorted_cons, List.mem_map, forall_exists_index, and_imp,
      forall_apply_eq_imp_iff₂] at hs
    rw [List.dropWhile_cons] at hr
    split at hr
    · exact ih hs.2 (fun y hy => hl y (List.mem_cons_of_mem _ hy)) r hr
    · next hne =>
      have hq : X < q.edge := (edge_lt_iff_le_ne X q.edge).mpr
        ⟨hl q (List.mem_cons_self _ _), fun h => hne (by simp [h])⟩
      rcases List.mem_cons.mp hr with rfl | hr
      · exact hq
      · exact edge_lt_of_lt_of_le hq (hs.1 r hr)

theorem existence_chain_rest (t : Nat) (request : ExistenceRequestMsg)
    (rest : List ExistenceRequestMsg) :
    (existence_chain t request.edge (request :: rest) request.swap_id false).2.2.2 =
      rest.dropWhile (fun r => decide (r.edge = request.edge)) := by
  rw [(existence_chain_spec t request.edge (request :: rest) [] request.swap_id false
    (by
      intro r hr
      simp only [List.head?_cons, Option.some.injEq] at hr
      rw [← hr]
      rfl)
    (by simp)).2.2]
  rw [List.dropWhile_cons, if_pos (by simp)]

theorem mem_requests_group (X : edge_t) (rest : List ExistenceRequestMsg)
    (r : ExistenceRequestMsg) (hr : r ∈ rest) :
    r.edge = X ∨ r ∈ rest.dropWhile (fun r => decide (r.edge = X)) := by
  have h := List.takeWhile_append_dropWhile (fun r => decide (r.edge = X)) rest
  rw [← h] at hr
  rcases List.mem_append.mp hr with hr | hr
  · left
    simpa using List.mem_takeWhile_imp hr
  · exact Or.inr hr

/-- The state of the merge join in front of a run of requests: the edges read so
far are less than the edge of every request that is left. -/
theorem exists_flags_spec (t : Nat) (E : List edge_t) (hE : E.Sorted edge_le) :
    ∀ (fuel : Nat) (reqs : List ExistenceRequestMsg) (consumed rest : List edge_t),
      reqs.length ≤ fuel → (reqs.map ExistenceRequestMsg.edge).Sorted edge_le →
      E = consumed ++ rest → (∀ c ∈ consumed, ∀ r ∈ reqs, c < r.edge) →
      (∀ p ∈ exists_flags t fuel reqs rest, p.2 = decide (p.1 ∈ E)) ∧
        (∀ X, X ∈ (exists_flags t fuel reqs rest).map Prod.fst ↔ ∃ r ∈ reqs, r.edge = X) ∧
        ((exists_flags t fuel reqs rest).map Prod.fst).Pairwise (fun a b => a < b) := by
  intro fuel
  induction fuel with
  | zero =>
    intro reqs consumed rest hlen _ _ _
    have : reqs = [] := List.eq_nil_of_length_eq_zero (by omega)
    subst this
    unfold exists_flags
    exact ⟨fun p hp => by simp at hp, fun X => by simp, List.Pairwise.nil⟩
  | succ fuel ih =>
    intro reqs consumed rest hlen hs hsplit hcons
    cases reqs with
    | nil =>
      unfold exists_flags
      exact ⟨fun p hp => by simp at hp, fun X => by simp, List.Pairwise.nil⟩
    | cons request tail =>
      have hs0 := hs
      simp only [List.map_cons, List.sorted_cons, List.mem_map, forall_exists_index, and_imp,
        forall_apply_eq_imp_iff₂] at hs
      have hrest : rest.Sorted edge_le := by
        rw [hsplit] at hE
        exact hE.sublist (List.sublist_append_right _ _)
      obtain ⟨f1, dropped, f2, f3, f4⟩ := find_edge_spec request.edge rest false hrest
      have hgt := dropWhile_edge_gt request.edge tail hs.2 hs.1
      have hsub : (tail.dropWhile (fun r => decide (r.edge = request.edge))).Sublist tail :=
        (List.dropWhile_suffix _).sublist
      obtain ⟨i1, i2, i3⟩ := ih (tail.dropWhile (fun r => decide (r.edge = request.edge)))
        (consumed ++ dropped) (find_edge request.edge rest false).2
        (by
          have := hsub.length_le
          simp only [List.length_cons] at hlen
          omega)
        (hs.2.sublist (hsub.map _))
        (by rw [List.append_assoc, ← f2]; exact hsplit)
        (by
          intro c hc r hr
          rcases List.mem_append.mp hc with hc | hc
          · exact hcons c hc r (List.mem_cons_of_mem _ (hsub.subset hr))
          · exact edge_lt_of_le_of_lt (f3 c hc) (hgt r hr))
      have hflag : (find_edge request.edge rest false).1 = decide (request.edge ∈ E) := by
        rw [f1]
        have hmem : request.edge ∈ E ↔ request.edge ∈ rest := by
          rw [hsplit, List.mem_append]
          constructor
          · rintro (h | h)
            · exact absurd (hcons _ h request (List.mem_cons_self _ _)) (edge_lt_irrefl _)
            · exact h
          · exact fun h => Or.inr h
        by_cases hall : ∀ e ∈ rest, request.edge < e
        · rw [if_pos hall]
          symm
          rw [decide_eq_false_iff_not, hmem]
          exact fun h => edge_lt_irrefl _ (hall _ h)
        · rw [if_neg hall, decide_eq_decide, hmem]
      unfold exists_flags
      dsimp only
      rw [existence_chain_rest]
      refine ⟨?_, ?_, ?_⟩
      · intro p hp
        rcases List.mem_cons.mp hp with rfl | hp
        · exact hflag
        · exact i1 p hp
      · intro X
        rw [List.map_cons, List.mem_cons, i2 X]
        constructor
        · rintro (h | ⟨r, hr, h⟩)
          · exact ⟨request, List.mem_cons_self _ _, h.symm⟩
          · exact ⟨r, List.mem_cons_of_mem _ (hsub.subset hr), h⟩
        · rintro ⟨r, hr, h⟩
          rcases List.mem_cons.mp hr with rfl | hr
          · exact Or.inl h.symm
          · rcases mem_requests_group request.edge tail r hr with h2 | h2
            · exact Or.inl (by rw [← h, h2])
            · exact Or.inr ⟨r, h2, h⟩
      · rw [List.map_cons, List.pairwise_cons]
        refine ⟨?_, i3⟩
        intro X hX
        obtain ⟨r, hr, h⟩ := (i2 X).mp hX
        rw [← h]
        exact hgt r hr

/-- Claim C22: the merge-join membership test. When the edge list `E` is sorted
ascending and the requests come sorted by their edge, the runs of requests are
visited in strictly ascending edge order, every requested edge is visited, and
for every visited edge `X` the flag `exists`, computed by advancing `E` past all
edges that are not greater than `X`, is true exactly when `X` occurs in `E`. -/
theorem merge_join_membership (t : Nat) (E : List edge_t) (reqs : List ExistenceRequestMsg)
    (hE : E.Sorted edge_le) (hreqs : (reqs.map ExistenceRequestMsg.edge).Sorted edge_le) :
    (∀ p ∈ exists_flags t reqs.length reqs E, (p.2 = true ↔ p.1 ∈ E)) ∧
      (∀ X, X ∈ (exists_flags t reqs.length reqs E).map Prod.fst ↔ ∃ r ∈ reqs, r.edge = X) ∧
      ((exists_flags t reqs.length reqs E).map Prod.fst).Pairwise (fun a b => a < b) := by
  obtain ⟨a1, a2, a3⟩ := exists_flags_spec t E hE reqs.length reqs [] E (Nat.le_refl _) hreqs
    rfl (fun c hc => by simp at hc)
  refine ⟨?_, a2, a3⟩
  intro p hp
  rw [a1 p hp, decide_eq_true_eq]

theorem merge_join_membership_witness :
    ([⟨1, 2⟩, ⟨1, 2⟩, ⟨1, 9⟩, ⟨2, 10⟩] : List edge_t).Sorted edge_le ∧
      (([⟨⟨1, 2⟩, 1, false⟩, ⟨⟨1, 2⟩, 0, true⟩, ⟨⟨1, 5⟩, 0, false⟩, ⟨⟨3, 4⟩, 1, false⟩] :
        List ExistenceRequestMsg).map ExistenceRequestMsg.edge).Sorted edge_le ∧
      (∀ p ∈ exists_flags 1
          ([⟨⟨1, 2⟩, 1, false⟩, ⟨⟨1, 2⟩, 0, true⟩, ⟨⟨1, 5⟩, 0, false⟩, ⟨⟨3, 4⟩, 1, false⟩] :
            List ExistenceRequestMsg).length
          [⟨⟨1, 2⟩, 1, false⟩, ⟨⟨1, 2⟩, 0, true⟩, ⟨⟨1, 5⟩, 0, false⟩, ⟨⟨3, 4⟩, 1, false⟩]
          [⟨1, 2⟩, ⟨1, 2⟩, ⟨1, 9⟩, ⟨2, 10⟩],
        (p.2 = true ↔ p.1 ∈ ([⟨1, 2⟩, ⟨1, 2⟩, ⟨1, 9⟩, ⟨2, 10⟩] : List edge_t))) ∧
      (∀ X, X ∈ (exists_flags 1
          ([⟨⟨1, 2⟩, 1, false⟩, ⟨⟨1, 2⟩, 0, true⟩, ⟨⟨1, 5⟩, 0, false⟩, ⟨⟨3, 4⟩, 1, false⟩] :
            List ExistenceRequestMsg).length
          [⟨⟨1, 2⟩, 1, false⟩, ⟨⟨1, 2⟩, 0, true⟩, ⟨⟨1, 5⟩, 0, false⟩, ⟨⟨3, 4⟩, 1, false⟩]
          [⟨1, 2⟩, ⟨1, 2⟩, ⟨1, 9⟩, ⟨2, 10⟩]).map Prod.fst ↔
        ∃ r ∈ ([⟨⟨1, 2⟩, 1, false⟩, ⟨⟨1, 2⟩, 0, true⟩, ⟨⟨1, 5⟩, 0, false⟩,
          ⟨⟨3, 4⟩, 1, false⟩] : List ExistenceRequestMsg), r.edge = X) ∧
      ((exists_flags 1
          ([⟨⟨1, 2⟩, 1, false⟩, ⟨⟨1, 2⟩, 0, true⟩, ⟨⟨1, 5⟩, 0, false⟩, ⟨⟨3, 4⟩, 1, false⟩] :
            List ExistenceRequestMsg).length
          [⟨⟨1, 2⟩, 1, false⟩, ⟨⟨1, 2⟩, 0, true⟩, ⟨⟨1, 5⟩, 0, false⟩, ⟨⟨3, 4⟩, 1, false⟩]
          [⟨1, 2⟩, ⟨1, 2⟩, ⟨1, 9⟩, ⟨2, 10⟩]).map Prod.fst).Pairwise (fun a b => a < b) :=
  ⟨by decide, by decide,
    merge_join_membership 1 [⟨1, 2⟩, ⟨1, 2⟩, ⟨1, 9⟩, ⟨2, 10⟩]
      [⟨⟨1, 2⟩, 1, false⟩, ⟨⟨1, 2⟩, 0, true⟩, ⟨⟨1, 5⟩, 0, false⟩, ⟨⟨3, 4⟩, 1, false⟩]
      (by decide) (by decide)⟩

theorem merge_join_example :
    exists_flags 1 4
        [⟨⟨1, 2⟩, 1, false⟩, ⟨⟨1, 2⟩, 0, true⟩, ⟨⟨1, 5⟩, 0, false⟩, ⟨⟨3, 4⟩, 1, false⟩]
        [⟨1, 2⟩, ⟨1, 2⟩, ⟨1, 9⟩, ⟨2, 10⟩]
      = [(⟨1, 2⟩, true), (⟨1, 5⟩, false), (⟨3, 4⟩, false)] := by
  decide

/-! ## The initial existence information -/

theorem existence_chain_placeholders (t : Nat) (X : edge_t) :
    ∀ (reqs : List ExistenceRequestMsg) (last : Nat) (found : Bool),
      (existence_chain t X reqs last found).1.existence_info = [] ∧
        (existence_chain t X reqs last found).1.existence_placeholder_output.map Prod.snd =
          (existence_chain t X reqs last found).1.successor_output.map
            (fun m => m.2.successor) := by
  intro reqs
  induction reqs with
  | nil => intro last found; exact ⟨rfl, rfl⟩
  | cons r rest ih =>
    intro last found
    unfold existence_chain
    split
    · exact ⟨rfl, rfl⟩
    · dsimp only
      obtain ⟨a1, a2⟩ := ih r.swap_id (found || !r.forward_only)
      split
      · exact ⟨a1, by simp only [List.map_cons, a2]⟩
      · exact ⟨a1, a2⟩

theorem process_requests_placeholders (t : Nat) :
    ∀ (fuel : Nat) (reqs : List ExistenceRequestMsg) (edges : List edge_t),
      ((process_requests t fuel reqs edges).existence_placeholder_output.map Prod.snd).Perm
        ((process_requests t fuel reqs edges).successor_output.map (fun m => m.2.successor) ++
          (process_requests t fuel reqs edges).existence_info.map ExistenceInfoMsg.swap_id) := by
  intro fuel
  induction fuel with
  | zero => intro reqs edges; unfold process_requests; exact List.Perm.refl _
  | succ fuel ih =>
    intro reqs edges
    cases reqs with
    | nil => unfold process_requests; exact List.Perm.refl _
    | cons request rest =>
      unfold process_requests
      dsimp only
      obtain ⟨a1, a2⟩ := existence_chain_placeholders t request.edge (request :: rest)
        request.swap_id false
      have hrec := ih (existence_chain t request.edge (request :: rest)
        request.swap_id false).2.2.2 (find_edge request.edge edges false).2
      simp only [List.map_append, a1, a2, List.nil_append, List.map_nil]
      split
      · simp only [List.map_cons, List.map_nil, List.append_assoc, List.nil_append,
          List.singleton_append]
        refine List.Perm.append_left _ ?_
        refine (List.Perm.cons _ hrec).trans ?_
        exact List.perm_middle.symm
      · simp only [List.map_nil, List.append_nil, List.nil_append, List.append_assoc]
        exact List.Perm.append_left _ hrec

theorem existence_chain_last (t : Nat) (X : edge_t) :
    ∀ (reqs : List ExistenceRequestMsg) (last : Nat) (found : Bool),
      reqs.Pairwise ExistenceRequestMsg.le → (∀ r ∈ reqs, r.edge = X → r.swap_id ≤ last) →
      (∀ r ∈ reqs.takeWhile (fun r => decide (r.edge = X)),
          (existence_chain t X reqs last found).2.1 ≤ r.swap_id) ∧
        ((existence_chain t X reqs last found).2.1 = last ∨
          ∃ r ∈ reqs.takeWhile (fun r => decide (r.edge = X)),
            r.swap_id = (existence_chain t X reqs last found).2.1) ∧
        (existence_chain t X reqs last found).2.2.1 =
          (found || (reqs.takeWhile (fun r => decide (r.edge = X))).any
            (fun r => !r.forward_only)) := by
  intro reqs
  induction reqs with
  | nil =>
    intro last found _ _
    unfold existence_chain
    exact ⟨fun r hr => by simp at hr, Or.inl rfl, by simp⟩
  | cons r rest ih =>
    intro last found hp hl
    rw [List.pairwise_cons] at hp
    unfold existence_chain
    by_cases hX : r.edge = X
    · rw [if_neg (by simpa using hX)]
      dsimp only
      have hrec := ih r.swap_id (found || !r.forward_only) hp.2 (by
        intro r2 hr2 he
        have h1 := hp.1 r2 hr2
        unfold ExistenceRequestMsg.le ExistenceRequestMsg.lt at h1
        by_contra hcon
        apply h1
        right
        exact ⟨by rw [he, hX], Or.inl (by omega)⟩)
      have hsame : (if last ≠ r.swap_id ∧ found = true then
          ((⟨(existence_chain t X rest r.swap_id (found || !r.forward_only)).1.existence_info,
            (_thread t r.swap_id, ⟨r.swap_id, X, last⟩) ::
              (existence_chain t X rest r.swap_id
                (found || !r.forward_only)).1.successor_output,
            (_thread t last, last) ::
              (existence_chain t X rest r.swap_id
                (found || !r.forward_only)).1.existence_placeholder_output⟩ : ExistenceOutput),
            (existence_chain t X rest r.swap_id (found || !r.forward_only)).2)
          else existence_chain t X rest r.swap_id (found || !r.forward_only)).2
          = (existence_chain t X rest r.swap_id (found || !r.forward_only)).2 := by
        split <;> rfl
      rw [hsame]
      obtain ⟨a1, a2, a3⟩ := hrec
      rw [List.takeWhile_cons, if_pos (by simpa using hX)]
      refine ⟨?_, ?_, ?_⟩
      · intro r2 hr2
        rcases List.mem_cons.mp hr2 with rfl | hr2
        · rcases a2 with a2 | ⟨r3, hr3, a2⟩
          · rw [a2]
          · rw [← a2]
            have h1 := hp.1 r3 ((List.takeWhile_sublist _).subset hr3)
            have h3 : r3.edge = X := by simpa using List.mem_takeWhile_imp hr3
            unfold ExistenceRequestMsg.le ExistenceRequestMsg.lt at h1
            by_contra hcon
            apply h1
            right
            exact ⟨by rw [h3, hX], Or.inl (by omega)⟩
        · exact a1 r2 hr2
      · right
        rcases a2 with a2 | ⟨r3, hr3, a2⟩
        · exact ⟨r, List.mem_cons_self _ _, a2.symm⟩
        · exact ⟨r3, List.mem_cons_of_mem _ hr3, a2⟩
      · rw [a3, List.any_cons, Bool.or_assoc]
    · rw [if_pos (by simpa using hX)]
      rw [List.takeWhile_cons, if_neg (by simpa using hX)]
      exact ⟨fun r hr => by simp at hr, Or.inl rfl, by simp⟩

theorem mem_takeWhile_edge (X : edge_t) :
    ∀ (reqs : List ExistenceRequestMsg),
      (∀ r ∈ reqs.dropWhile (fun r => decide (r.edge = X)), r.edge ≠ X) →
      ∀ r, r ∈ reqs.takeWhile (fun r => decide (r.edge = X)) ↔ r ∈ reqs ∧ r.edge = X := by
  intro reqs hd r
  constructor
  · intro h
    exact ⟨(List.takeWhile_sublist _).subset h, by simpa using List.mem_takeWhile_imp h⟩
  · rintro ⟨h1, h2⟩
    have h := List.takeWhile_append_dropWhile (fun r => decide (r.edge = X)) reqs
    rw [← h] at h1
    rcases List.mem_append.mp h1 with h1 | h1
    · exact h1
    · exact absurd h2 (hd r h1)

theorem sorted_requests_edge (reqs : List ExistenceRequestMsg)
    (hs : reqs.Pairwise ExistenceRequestMsg.le) :
    (reqs.map ExistenceRequestMsg.edge).Sorted edge_le := by
  rw [List.Sorted, List.pairwise_map]
  refine List.Pairwise.imp ?_ hs
  intro a b h
  rw [ExistenceRequestMsg.le_iff_key] at h
  rcases h with h | h
  · exact edge_le_of_lt h
  · show a.edge ≤ b.edge
    rw [h.1]
    exact edge_le_refl _

theorem process_requests_info (t : Nat) (E : List edge_t) (hE : E.Sorted edge_le) :
    ∀ (fuel : Nat) (reqs : List ExistenceRequestMsg) (consumed rest : List edge_t),
      reqs.length ≤ fuel → reqs.Pairwise ExistenceRequestMsg.le →
      E = consumed ++ rest → (∀ c ∈ consumed, ∀ r ∈ reqs, c < r.edge) →
      (∀ s X, (⟨s, X⟩ : ExistenceInfoMsg) ∈ (process_requests t fuel reqs rest).existence_info ↔
          X ∈ E ∧ (∃ r ∈ reqs, r.edge = X ∧ r.forward_only = false) ∧
            (∃ r ∈ reqs, r.edge = X ∧ r.swap_id = s) ∧
            ∀ r ∈ reqs, r.edge = X → s ≤ r.swap_id) ∧
        ((process_requests t fuel reqs rest).existence_info.map
          ExistenceInfoMsg.edge).Pairwise (fun a b => a < b) := by
  intro fuel
  induction fuel with
  | zero =>
    intro reqs consumed rest hlen _ _ _
    have : reqs = [] := List.eq_nil_of_length_eq_zero (by omega)
    subst this
    unfold process_requests
    exact ⟨fun s X => by simp, List.Pairwise.nil⟩
  | succ fuel ih =>
    intro reqs consumed rest hlen hp hsplit hcons
    cases reqs with
    | nil =>
      unfold process_requests
      exact ⟨fun s X => by simp, List.Pairwise.nil⟩
    | cons request tail =>
      have hs := sorted_requests_edge _ hp
      simp only [List.map_cons, List.sorted_cons, List.mem_map, forall_exists_index, and_imp,
        forall_apply_eq_imp_iff₂] at hs
      have hrest : rest.Sorted edge_le := by
        rw [hsplit] at hE
        exact hE.sublist (List.sublist_append_right _ _)
      obtain ⟨f1, dropped, f2, f3, f4⟩ := find_edge_spec request.edge rest false hrest
      have hgt := dropWhile_edge_gt request.edge tail hs.2 hs.1
      have hsub : (tail.dropWhile (fun r => decide (r.edge = request.edge))).Sublist tail :=
        (List.dropWhile_suffix _).sublist
      obtain ⟨i1, i2⟩ := ih (tail.dropWhile (fun r => decide (r.edge = request.edge)))
        (consumed ++ dropped) (find_edge request.edge rest false).2
        (by
          have := hsub.length_le
          simp only [List.length_cons] at hlen
          omega)
        ((List.pairwise_cons.mp hp).2.sublist hsub)
        (by rw [List.append_assoc, ← f2]; exact hsplit)
        (by
          intro c hc r hr
          rcases List.mem_append.mp hc with hc | hc
          · exact hcons c hc r (List.mem_cons_of_mem _ (hsub.subset hr))
          · exact edge_lt_of_le_of_lt (f3 c hc) (hgt r hr))
      have hflag : (find_edge request.edge rest false).1 = decide (request.edge ∈ E) := by
        rw [f1]
        have hmem : request.edge ∈ E ↔ request.edge ∈ rest := by
          rw [hsplit, List.mem_append]
          constructor
          · rintro (h | h)
            · exact absurd (hcons _ h request (List.mem_cons_self _ _)) (edge_lt_irrefl _)
            · exact h
          · exact fun h => Or.inr h
        by_cases hall : ∀ e ∈ rest, request.edge < e
        · rw [if_pos hall]
          symm
          rw [decide_eq_false_iff_not, hmem]
          exact fun h => edge_lt_irrefl _ (hall _ h)
        · rw [if_neg hall, decide_eq_decide, hmem]
      -- the run of requests on the edge of the first request
      have hgroup : ∀ r, r ∈ (request :: tail).takeWhile
          (fun r => decide (r.edge = request.edge)) ↔
          r ∈ request :: tail ∧ r.edge = request.edge := by
        apply mem_takeWhile_edge
        intro r hr
        rw [List.dropWhile_cons, if_pos (by simp)] at hr
        intro h
        have := hgt r hr
        rw [h] at this
        exact edge_lt_irrefl _ this
      obtain ⟨c1, c2, c3⟩ := existence_chain_last t request.edge (request :: tail)
        request.swap_id false hp (by
          intro r hr he
          rcases List.mem_cons.mp hr with rfl | hr
          · exact Nat.le_refl _
          · have h1 := (List.pairwise_cons.mp hp).1 r hr
            unfold ExistenceRequestMsg.le ExistenceRequestMsg.lt at h1
            by_contra hcon
            apply h1
            right
            exact ⟨he, Or.inl (by omega)⟩)
      have c2b : ∃ r ∈ request :: tail, r.edge = request.edge ∧
          r.swap_id = (existence_chain t request.edge (request :: tail)
            request.swap_id false).2.1 := by
        rcases c2 with c2 | ⟨r, hr, c2⟩
        · exact ⟨request, List.mem_cons_self _ _, rfl, c2.symm⟩
        · exact ⟨r, ((hgroup r).mp hr).1, ((hgroup r).mp hr).2, c2⟩
      have c3b : (existence_chain t request.edge (request :: tail)
          request.swap_id false).2.2.1 = true ↔
          ∃ r ∈ request :: tail, r.edge = request.edge ∧ r.forward_only = false := by
        rw [c3, Bool.false_or, List.any_eq_true]
        constructor
        · rintro ⟨r, hr, h⟩
          exact ⟨r, ((hgroup r).mp hr).1, ((hgroup r).mp hr).2, by simpa using h⟩
        · rintro ⟨r, hr, h1, h2⟩
          exact ⟨r, (hgroup r).mpr ⟨hr, h1⟩, by simp [h2]⟩
      have hrecmem : ∀ m ∈ (process_requests t fuel
          (tail.dropWhile (fun r => decide (r.edge = request.edge)))
          (find_edge request.edge rest false).2).existence_info, request.edge < m.edge := by
        intro m hm
        obtain ⟨s, X⟩ := m
        obtain ⟨-, -, ⟨r, hr, h1, -⟩, -⟩ := (i1 s X).mp hm
        show request.edge < X
        rw [← h1]
        exact hgt r hr
      unfold process_requests
      dsimp only
      rw [existence_chain_rest, (existence_chain_placeholders t request.edge (request :: tail)
        request.swap_id false).1, List.nil_append]
      constructor
      · intro s X
        rw [List.mem_append]
        constructor
        · rintro (h | h)
          · split at h
            · next hc =>
              rw [Bool.and_eq_true] at hc
              simp only [List.mem_singleton, ExistenceInfoMsg.mk.injEq] at h
              obtain ⟨rfl, rfl⟩ := h
              refine ⟨?_, c3b.mp hc.1, c2b, ?_⟩
              · rw [hflag] at hc
                exact of_decide_eq_true hc.2
              · intro r hr he
                exact c1 r ((hgroup r).mpr ⟨hr, he⟩)
            · simp at h
          · obtain ⟨h1, ⟨r1, hr1, h2⟩, ⟨r2, hr2, h3⟩, h4⟩ := (i1 s X).mp h
            have hX : request.edge < X := by rw [← h2.1]; exact hgt r1 hr1
            refine ⟨h1, ⟨r1, List.mem_cons_of_mem _ (hsub.subset hr1), h2⟩,
              ⟨r2, List.mem_cons_of_mem _ (hsub.subset hr2), h3⟩, ?_⟩
            intro r hr he
            rcases List.mem_cons.mp hr with rfl | hr
            · rw [he] at hX
              exact absurd hX (edge_lt_irrefl _)
            · rcases mem_requests_group request.edge tail r hr with h5 | h5
              · rw [← he, h5] at hX
                exact absurd hX (edge_lt_irrefl _)
              · exact h4 r h5 he
        · rintro ⟨h1, ⟨r1, hr1, h2, h2b⟩, ⟨r2, hr2, h3, h3b⟩, h4⟩
          by_cases hX : X = request.edge
          · left
            subst hX
            obtain ⟨r3, hr3, h5, h6⟩ := c2b
            have hs1 : s = (existence_chain t request.edge (request :: tail)
                request.swap_id false).2.1 := by
              have e1 := h4 r3 hr3 h5
              have e2 := c1 r2 ((hgroup r2).mpr ⟨hr2, h3⟩)
              omega
            rw [if_pos (by
              rw [Bool.and_eq_true]
              exact ⟨c3b.mpr ⟨r1, hr1, h2, h2b⟩, by rw [hflag]; exact decide_eq_true h1⟩)]
            rw [hs1]
            exact List.mem_singleton_self _
          · right
            have hin : ∀ r ∈ request :: tail, r.edge = X →
                r ∈ tail.dropWhile (fun r => decide (r.edge = request.edge)) := by
              intro r hr he
              rcases List.mem_cons.mp hr with rfl | hr
              · exact absurd he.symm hX
              · rcases mem_requests_group request.edge tail r hr with h5 | h5
                · exact absurd (by rw [← he, h5]) hX
                · exact h5
            exact (i1 s X).mpr ⟨h1, ⟨r1, hin r1 hr1 h2, h2, h2b⟩, ⟨r2, hin r2 hr2 h3, h3, h3b⟩,
              fun r hr he => h4 r (List.mem_cons_of_mem _ (hsub.subset hr)) he⟩
      · rw [List.map_append, List.pairwise_append]
        refine ⟨?_, i2, ?_⟩
        · split
          · exact List.pairwise_singleton _ _
          · exact List.Pairwise.nil
        · intro a ha b hb
          obtain ⟨m, hm, rfl⟩ := List.mem_map.mp hb
          have ha2 : a = request.edge := by
            split at ha
            · simpa using ha
            · simp at ha
          rw [ha2]
          exact hrecmem m hm

/-- Claim C21: the initial existence information. On an edge list `E` sorted
ascending and existence requests in the order of the request merger, the
existence-request processor pushes `ExistInfo(s, X)` exactly when `X` is in `E`,
some request for `X` is a target request (`forward_only = false`), and `s` is the
least swap id of the requests for `X`; it pushes at most one `ExistInfo` per edge
(the edges of the pushed messages are strictly ascending); and the placeholders it
pushes are one for every `ExistInfo(s, X)`, for the swap `s`, and one for every
`ExistSucc`, for its successor. -/
theorem initial_existence_information (t : Nat) (E : List edge_t)
    (reqs : List ExistenceRequestMsg) (hE : E.Sorted edge_le)
    (hreqs : reqs.Sorted ExistenceRequestMsg.le) :
    (∀ s X, (⟨s, X⟩ : ExistenceInfoMsg) ∈
        (_process_existence_requests t reqs E).pushed.existence_info ↔
        X ∈ E ∧ (∃ r ∈ reqs, r.edge = X ∧ r.forward_only = false) ∧
          (∃ r ∈ reqs, r.edge = X ∧ r.swap_id = s) ∧
          ∀ r ∈ reqs, r.edge = X → s ≤ r.swap_id) ∧
      ((_process_existence_requests t reqs E).pushed.existence_info.map
        ExistenceInfoMsg.edge).Pairwise (fun a b => a < b) ∧
      ((_process_existence_requests t reqs E).pushed.existence_placeholder_output.map
        Prod.snd).Perm
        ((_process_existence_requests t reqs E).pushed.existence_info.map
            ExistenceInfoMsg.swap_id ++
          (_process_existence_requests t reqs E).pushed.successor_output.map
            (fun m => m.2.successor)) := by
  obtain ⟨a1, a2⟩ := process_requests_info t E hE reqs.length reqs [] E (Nat.le_refl _) hreqs
    rfl (fun c hc => by simp at hc)
  exact ⟨a1, a2, (process_requests_placeholders t reqs.length reqs E).trans List.perm_append_comm⟩

theorem initial_existence_information_witness :
    ([⟨1, 2⟩, ⟨1, 2⟩, ⟨1, 9⟩, ⟨2, 10⟩] : List edge_t).Sorted edge_le ∧
      ([⟨⟨1, 2⟩, 1, false⟩, ⟨⟨1, 2⟩, 0, true⟩, ⟨⟨1, 5⟩, 0, false⟩, ⟨⟨1, 9⟩, 1, true⟩] :
        List ExistenceRequestMsg).Sorted ExistenceRequestMsg.le ∧
      (∀ s X, (⟨s, X⟩ : ExistenceInfoMsg) ∈
          (_process_existence_requests 1
            [⟨⟨1, 2⟩, 1, false⟩, ⟨⟨1, 2⟩, 0, true⟩, ⟨⟨1, 5⟩, 0, false⟩, ⟨⟨1, 9⟩, 1, true⟩]
            [⟨1, 2⟩, ⟨1, 2⟩, ⟨1, 9⟩, ⟨2, 10⟩]).pushed.existence_info ↔
          X ∈ ([⟨1, 2⟩, ⟨1, 2⟩, ⟨1, 9⟩, ⟨2, 10⟩] : List edge_t) ∧
            (∃ r ∈ ([⟨⟨1, 2⟩, 1, false⟩, ⟨⟨1, 2⟩, 0, true⟩, ⟨⟨1, 5⟩, 0, false⟩,
              ⟨⟨1, 9⟩, 1, true⟩] : List ExistenceRequestMsg),
              r.edge = X ∧ r.forward_only = false) ∧
            (∃ r ∈ ([⟨⟨1, 2⟩, 1, false⟩, ⟨⟨1, 2⟩, 0, true⟩, ⟨⟨1, 5⟩, 0, false⟩,
              ⟨⟨1, 9⟩, 1, true⟩] : List ExistenceRequestMsg), r.edge = X ∧ r.swap_id = s) ∧
            ∀ r ∈ ([⟨⟨1, 2⟩, 1, false⟩, ⟨⟨1, 2⟩, 0, true⟩, ⟨⟨1, 5⟩, 0, false⟩,
              ⟨⟨1, 9⟩, 1, true⟩] : List ExistenceRequestMsg), r.edge = X → s ≤ r.swap_id) ∧
        ((_process_existence_requests 1
            [⟨⟨1, 2⟩, 1, false⟩, ⟨⟨1, 2⟩, 0, true⟩, ⟨⟨1, 5⟩, 0, false⟩, ⟨⟨1, 9⟩, 1, true⟩]
            [⟨1, 2⟩, ⟨1, 2⟩, ⟨1, 9⟩, ⟨2, 10⟩]).pushed.existence_info.map
          ExistenceInfoMsg.edge).Pairwise (fun a b => a < b) ∧
        ((_process_existence_requests 1
            [⟨⟨1, 2⟩, 1, false⟩, ⟨⟨1, 2⟩, 0, true⟩, ⟨⟨1, 5⟩, 0, false⟩, ⟨⟨1, 9⟩, 1, true⟩]
            [⟨1, 2⟩, ⟨1, 2⟩, ⟨1, 9⟩, ⟨2, 10⟩]).pushed.existence_placeholder_output.map
          Prod.snd).Perm
          ((_process_existence_requests 1
              [⟨⟨1, 2⟩, 1, false⟩, ⟨⟨1, 2⟩, 0, true⟩, ⟨⟨1, 5⟩, 0, false⟩, ⟨⟨1, 9⟩, 1, true⟩]
              [⟨1, 2⟩, ⟨1, 2⟩, ⟨1, 9⟩, ⟨2, 10⟩]).pushed.existence_info.map
              ExistenceInfoMsg.swap_id ++
            (_process_existence_requests 1
              [⟨⟨1, 2⟩, 1, false⟩, ⟨⟨1, 2⟩, 0, true⟩, ⟨⟨1, 5⟩, 0, false⟩, ⟨⟨1, 9⟩, 1, true⟩]
              [⟨1, 2⟩, ⟨1, 2⟩, ⟨1, 9⟩, ⟨2, 10⟩]).pushed.successor_output.map
              (fun m => m.2.successor)) :=
  ⟨by decide, by decide,
    initial_existence_information 1 [⟨1, 2⟩, ⟨1, 2⟩, ⟨1, 9⟩, ⟨2, 10⟩]
      [⟨⟨1, 2⟩, 1, false⟩, ⟨⟨1, 2⟩, 0, true⟩, ⟨⟨1, 5⟩, 0, false⟩, ⟨⟨1, 9⟩, 1, true⟩]
      (by decide) (by decide)⟩

theorem initial_existence_information_example :
    (_process_existence_requests 1
        [⟨⟨1, 2⟩, 1, false⟩, ⟨⟨1, 2⟩, 0, true⟩, ⟨⟨1, 5⟩, 0, false⟩, ⟨⟨1, 9⟩, 1, true⟩]
        [⟨1, 2⟩, ⟨1, 2⟩, ⟨1, 9⟩, ⟨2, 10⟩]).pushed
      = ⟨[⟨0, ⟨1, 2⟩⟩], [(0, ⟨0, ⟨1, 2⟩, 1⟩)], [(0, 1), (0, 0)]⟩ := by
  decide

/-! ## The answers of the existence forwarding -/

theorem push_existence_info_answer (limit target : Nat) (e : edge_t) (ex : Bool)
    (st : PerformState) :
    (push_existence_info limit target e ex st).answered =
        st.answered ++ [⟨target, if ex then e else edge_t.invalid⟩] ∧
      (push_existence_info limit target e ex st).existence_successor =
        st.existence_successor ∧
      ∀ sid, target ≠ sid →
        (push_existence_info limit target e ex st).existence_information sid =
          st.existence_information sid := by
  unfold push_existence_info
  dsimp only
  refine ⟨?_, ?_, ?_⟩
  · cases ex <;> split <;> rfl
  · split <;> rfl
  · intro sid hne
    split
    · dsimp only
      split
      · unfold EdgeExistenceInformation.push_exists slot_set
        rw [if_neg (fun h => hne h.symm)]
      · unfold EdgeExistenceInformation.push_missing slot_set
        rw [if_neg (fun h => hne h.symm)]
    · rfl

theorem forward_existence_answers (limit sid : Nat) (cur new : edge_t × edge_t) :
    ∀ (succs : List ExistenceSuccessorMsg) (st : PerformState),
      (∀ m ∈ succs, m.swap_id ≤ sid → m.successor ≠ sid) →
      ∃ drained,
        succs = drained ++ (forward_existence limit sid cur new succs st).existence_successor ∧
          (∀ m ∈ drained, m.swap_id ≤ sid) ∧
          (∀ m, (forward_existence limit sid cur new succs st).existence_successor.head? = some m →
            sid < m.swap_id) ∧
          (forward_existence limit sid cur new succs st).answered =
            st.answered ++ drained.map (fun m => ⟨m.successor,
              if (if m.edge = new.1 ∨ m.edge = new.2 then true
                  else if m.edge = cur.1 ∨ m.edge = cur.2 then false
                  else st.existence_information.exists sid m.edge) then m.edge
              else edge_t.invalid⟩) ∧
          (forward_existence limit sid cur new succs st).existence_information sid =
            st.existence_information sid := by
  intro succs
  induction succs with
  | nil =>
    intro st _
    unfold forward_existence
    exact ⟨[], rfl, fun m hm => by simp at hm, fun m hm => by simp at hm, by simp, rfl⟩
  | cons succ rest ih =>
    intro st hs
    unfold forward_existence
    by_cases hgt : succ.swap_id > sid
    · rw [if_pos hgt]
      refine ⟨[], rfl, fun m hm => by simp at hm, ?_, by simp, rfl⟩
      intro m hm
      simp only [List.head?_cons, Option.some.injEq] at hm
      rw [← hm]
      exact hgt
    · rw [if_neg hgt]
      dsimp only
      have hne : succ.successor ≠ sid := hs succ (List.mem_cons_self _ _) (by omega)
      have hstep : ∀ ex : Bool, ∃ drained,
          succ :: rest = drained ++ (forward_existence limit sid cur new rest
            (push_existence_info limit succ.successor succ.edge ex st)).existence_successor ∧
          (∀ m ∈ drained, m.swap_id ≤ sid) ∧
          (∀ m, (forward_existence limit sid cur new rest
            (push_existence_info limit succ.successor succ.edge ex st)).existence_successor.head?
              = some m → sid < m.swap_id) ∧
          (forward_existence limit sid cur new rest
            (push_existence_info limit succ.successor succ.edge ex st)).answered =
            st.answered ++ [⟨succ.successor, if ex then succ.edge else edge_t.invalid⟩] ++
              (drained.tail).map (fun m => ⟨m.successor,
                if (if m.edge = new.1 ∨ m.edge = new.2 then true
                    else if m.edge = cur.1 ∨ m.edge = cur.2 then false
                    else st.existence_information.exists sid m.edge) then m.edge
                else edge_t.invalid⟩) ∧
          drained.head? = some succ ∧
          (forward_existence limit sid cur new rest
            (push_existence_info limit succ.successor succ.edge ex st)).existence_information sid
            = st.existence_information sid := by
        intro ex
        obtain ⟨p1, p2, p3⟩ := push_existence_info_answer limit succ.successor succ.edge ex st
        obtain ⟨drained, d1, d2, d3, d4, d5⟩ := ih
          (push_existence_info limit succ.successor succ.edge ex st)
          (fun m hm => hs m (List.mem_cons_of_mem _ hm))
        refine ⟨succ :: drained, by rw [List.cons_append, ← d1], ?_, d3, ?_, rfl, ?_⟩
        · intro m hm
          rcases List.mem_cons.mp hm with rfl | hm
          · omega
          · exact d2 m hm
        · rw [d4, p1, List.tail_cons]
          congr 1
          apply List.map_congr_left
          intro m _
          have : (push_existence_info limit succ.successor succ.edge ex
              st).existence_information.exists sid m.edge =
              st.existence_information.exists sid m.edge := by
            unfold EdgeExistenceInformation.exists
            rw [p3 sid hne]
          rw [this]
        · rw [d5, p3 sid hne]
      have hfinish : ∀ (ex : Bool),
          ex = (if succ.edge = new.1 ∨ succ.edge = new.2 then true
            else if succ.edge = cur.1 ∨ succ.edge = cur.2 then false
            else st.existence_information.exists sid succ.edge) →
          ∃ drained,
            succ :: rest = drained ++ (forward_existence limit sid cur new rest
              (push_existence_info limit succ.successor succ.edge ex st)).existence_successor ∧
            (∀ m ∈ drained, m.swap_id ≤ sid) ∧
            (∀ m, (forward_existence limit sid cur new rest
              (push_existence_info limit succ.successor succ.edge ex
                st)).existence_successor.head? = some m → sid < m.swap_id) ∧
            (forward_existence limit sid cur new rest
              (push_existence_info limit succ.successor succ.edge ex st)).answered =
              st.answered ++ drained.map (fun m => ⟨m.successor,
                if (if m.edge = new.1 ∨ m.edge = new.2 then true
                    else if m.edge = cur.1 ∨ m.edge = cur.2 then false
                    else st.existence_information.exists sid m.edge) then m.edge
                else edge_t.invalid⟩) ∧
            (forward_existence limit sid cur new rest
              (push_existence_info limit succ.successor succ.edge ex
                st)).existence_information sid = st.existence_information sid := by
        intro ex hex
        obtain ⟨drained, d1, d2, d3, d4, d5, d6⟩ := hstep ex
        refine ⟨drained, d1, d2, d3, ?_, d6⟩
        cases drained with
        | nil => simp at d5
        | cons x xs =>
          simp only [List.head?_cons, Option.some.injEq] at d5
          subst d5
          rw [d4, List.tail_cons, List.map_cons, List.append_assoc, List.singleton_append, hex]
      split
      · next h1 => exact hfinish true (by rw [if_pos h1])
      · next h1 =>
        split
        · next h2 => exact hfinish false (by rw [if_neg h1, if_pos h2])
        · next h2 => exact hfinish _ (by rw [if_neg h1, if_neg h2])

theorem perform_swap_answers (limit sid : Nat) (st st2 : PerformState) (direction : Bool)
    (directions : BoolStream) (hdir : st._swap_direction = direction :: directions)
    (h : perform_swap limit sid st = some st2)
    (hsucc : ∀ m ∈ st.existence_successor, m.swap_id ≤ sid → m.successor ≠ sid) :
    ∃ drained,
      st.existence_successor = drained ++ st2.existence_successor ∧
        (∀ m ∈ drained, m.swap_id ≤ sid) ∧
        (∀ m, st2.existence_successor.head? = some m → sid < m.swap_id) ∧
        st2.answered = st.answered ++ drained.map (fun m => ⟨m.successor,
          if (if m.edge = (swap_outcome (swap_decision st.existence_information sid
                  (st.source_edges (sid, 0), st.source_edges (sid, 1)) direction)
                  (st.source_edges (sid, 0), st.source_edges (sid, 1))).1 ∨
                m.edge = (swap_outcome (swap_decision st.existence_information sid
                  (st.source_edges (sid, 0), st.source_edges (sid, 1)) direction)
                  (st.source_edges (sid, 0), st.source_edges (sid, 1))).2 then true
              else if m.edge = st.source_edges (sid, 0) ∨ m.edge = st.source_edges (sid, 1)
                then false
              else st.existence_information.exists sid m.edge) then m.edge
          else edge_t.invalid⟩) := by
  unfold perform_swap at h
  rw [hdir] at h
  dsimp only at h
  split at h
  · simp at h
  split at h
  · simp at h
  simp only [Option.some.injEq] at h
  obtain ⟨f1, f2, -, -, f5, -, -, -⟩ := forward_edge_state_frame limit sid
    (swap_outcome (swap_decision st.existence_information sid
      (st.source_edges (sid, 0), st.source_edges (sid, 1)) direction)
      (st.source_edges (sid, 0), st.source_edges (sid, 1)))
    st.edge_dependencies
    { st with _swap_direction := directions
              debug := st.debug ++ [(swap_decision st.existence_information sid
                (st.source_edges (sid, 0), st.source_edges (sid, 1)) direction).normalize] }
    (false, false)
  generalize forward_edge_state limit sid _ st.edge_dependencies _ (false, false) = f
    at h f1 f2 f5
  generalize hs1 : ({ f.1 with
    edge_updates := f.1.edge_updates
      ++ (if !f.2.1 then [(swap_outcome (swap_decision st.existence_information sid
          (st.source_edges (sid, 0), st.source_edges (sid, 1)) direction)
          (st.source_edges (sid, 0), st.source_edges (sid, 1))).1] else [])
      ++ (if !f.2.2 then [(swap_outcome (swap_decision st.existence_information sid
          (st.source_edges (sid, 0), st.source_edges (sid, 1)) direction)
          (st.source_edges (sid, 0), st.source_edges (sid, 1))).2] else []) } :
    PerformState) = st1 at h
  have e2 : st1.answered = st.answered := by rw [← hs1]; exact f5
  have e3 : st1.existence_information = st.existence_information := by rw [← hs1]; exact f2
  obtain ⟨drained, d1, d2, d3, d4, -⟩ := forward_existence_answers limit sid
    (st.source_edges (sid, 0), st.source_edges (sid, 1))
    (swap_outcome (swap_decision st.existence_information sid
      (st.source_edges (sid, 0), st.source_edges (sid, 1)) direction)
      (st.source_edges (sid, 0), st.source_edges (sid, 1)))
    f.1.existence_successor st1 (by rw [f1]; exact hsucc)
  rw [e2, e3] at d4
  rw [← h]
  dsimp only
  exact ⟨drained, f1.symm.trans d1, d2, d3, d4⟩

/-- Claim C24 fails on the code: in the run of `refused_S` on `refused_E` the swap
0 has the target edges `(1,1)` and `(2,3)` and is refused as a loop; it drains
`ExistSucc(0, (2,3), 1)`, a query for one of its target edges, and the answer it
forwards to the swap 1 is the invalid edge ("missing"), the answer of its
existence store, not "exists". The swap 1 is then performed and creates
`(2,3)`. -/
theorem refused_target_answered_by_store :
    (run_swaps 1 refused_E refused_S).map (fun r =>
        (r.1._result,
          (_process_existence_requests 1
            (sorter_sort ExistenceRequestMsg.le r.2.existence_requests)
            refused_E).existence_successor,
          r.2.existence_info)) =
      some ([⟨false, true, (⟨1, 1⟩, ⟨2, 3⟩), (false, false)⟩,
          ⟨true, false, (⟨2, 3⟩, ⟨4, 5⟩), (false, false)⟩],
        [⟨0, ⟨2, 3⟩, 1⟩], [⟨1, edge_t.invalid⟩]) := by
  decide!

/-- Claim C24, the nearby statement that holds: the existence forwarding rule. A
swap `sid` that returns drains the front of the existence successor messages,
those of swaps up to `sid`; when none of them names `sid` itself as successor, it
forwards for each drained `ExistSucc(.., X, succ)` one answer to `succ`, the edge
`X` for "exists" and the invalid edge for "missing". With the targets
`_swap_edges(src[0], src[1], direction)` and the decision `performed` of the
swap: if the swap is performed, the answer is "exists" for a target edge and
"missing" for a source edge that is no target edge; if the swap is not performed,
the answer is "exists" for a source edge; for every other edge, the target edges
of a swap that is not performed included, it is the answer `exists(pos, X)` of the
existence store. -/
theorem existence_forwarding_rule (sid_in_batch_limit sid : Nat) (st st2 : PerformState)
    (direction : Bool) (directions : BoolStream)
    (hdir : st._swap_direction = direction :: directions)
    (h : perform_swap sid_in_batch_limit sid st = some st2)
    (hsucc : ∀ m ∈ st.existence_successor, m.swap_id ≤ sid → m.successor ≠ sid) :
    ∃ (drained : List ExistenceSuccessorMsg) (answer : ExistenceSuccessorMsg → Bool),
      st.existence_successor = drained ++ st2.existence_successor ∧
        (∀ m ∈ drained, m.swap_id ≤ sid) ∧
        (∀ m, st2.existence_successor.head? = some m → sid < m.swap_id) ∧
        st2.answered = st.answered ++ drained.map (fun m =>
          ⟨m.successor, if answer m then m.edge else edge_t.invalid⟩) ∧
        ∀ m : ExistenceSuccessorMsg,
          ((swap_decision st.existence_information sid
              (st.source_edges (sid, 0), st.source_edges (sid, 1)) direction).performed = true →
            (m.edge = (_swap_edges (st.source_edges (sid, 0)) (st.source_edges (sid, 1))
                direction).1 ∨
              m.edge = (_swap_edges (st.source_edges (sid, 0)) (st.source_edges (sid, 1))
                direction).2) → answer m = true) ∧
          ((swap_decision st.existence_information sid
              (st.source_edges (sid, 0), st.source_edges (sid, 1)) direction).performed = true →
            ¬ (m.edge = (_swap_edges (st.source_edges (sid, 0)) (st.source_edges (sid, 1))
                direction).1 ∨
              m.edge = (_swap_edges (st.source_edges (sid, 0)) (st.source_edges (sid, 1))
                direction).2) →
            (m.edge = st.source_edges (sid, 0) ∨ m.edge = st.source_edges (sid, 1)) →
            answer m = false) ∧
          ((swap_decision st.existence_information sid
              (st.source_edges (sid, 0), st.source_edges (sid, 1)) direction).performed = false →
            (m.edge = st.source_edges (sid, 0) ∨ m.edge = st.source_edges (sid, 1)) →
            answer m = true) ∧
          (¬ (m.edge = st.source_edges (sid, 0) ∨ m.edge = st.source_edges (sid, 1)) →
            ((swap_decision st.existence_information sid
                (st.source_edges (sid, 0), st.source_edges (sid, 1)) direction).performed = false ∨
              ¬ (m.edge = (_swap_edges (st.source_edges (sid, 0)) (st.source_edges (sid, 1))
                  direction).1 ∨
                m.edge = (_swap_edges (st.source_edges (sid, 0)) (st.source_edges (sid, 1))
                  direction).2)) →
            answer m = st.existence_information.exists sid m.edge) := by
  obtain ⟨drained, d1, d2, d3, d4⟩ :=
    perform_swap_answers sid_in_batch_limit sid st st2 direction directions hdir h hsucc
  refine ⟨drained, _, d1, d2, d3, d4, ?_⟩
  intro m
  have hedges : (swap_decision st.existence_information sid
      (st.source_edges (sid, 0), st.source_edges (sid, 1)) direction).edges =
      _swap_edges (st.source_edges (sid, 0)) (st.source_edges (sid, 1)) direction := rfl
  cases hp : (swap_decision st.existence_information sid
      (st.source_edges (sid, 0), st.source_edges (sid, 1)) direction).performed
  · -- the swap is not performed: its outcome is its source edges
    have hout : swap_outcome (swap_decision st.existence_information sid
        (st.source_edges (sid, 0), st.source_edges (sid, 1)) direction)
        (st.source_edges (sid, 0), st.source_edges (sid, 1)) =
        (st.source_edges (sid, 0), st.source_edges (sid, 1)) := by
      unfold swap_outcome
      rw [hp]
      rfl
    rw [hout]
    dsimp only
    refine ⟨fun hc => absurd hc (by simp), fun hc => absurd hc (by simp), ?_, ?_⟩
    · intro _ hsrc
      rw [if_pos hsrc]
    · intro hsrc _
      rw [if_neg hsrc, if_neg hsrc]
  · -- the swap is performed: its outcome is its target edges
    have hout : swap_outcome (swap_decision st.existence_information sid
        (st.source_edges (sid, 0), st.source_edges (sid, 1)) direction)
        (st.source_edges (sid, 0), st.source_edges (sid, 1)) =
        _swap_edges (st.source_edges (sid, 0)) (st.source_edges (sid, 1)) direction := by
      unfold swap_outcome
      rw [hp]
      exact hedges
    rw [hout]
    refine ⟨?_, ?_, fun hc => absurd hc (by simp), ?_⟩
    · intro _ ht
      rw [if_pos ht]
    · intro _ ht hsrc
      rw [if_neg ht, if_pos hsrc]
    · intro hsrc ht
      rcases ht with ht | ht
      · exact absurd ht (by simp)
      · rw [if_neg ht, if_neg hsrc]

theorem existence_forwarding_rule_witness :
    answer_state._swap_direction = false :: [] ∧
      (∀ m ∈ answer_state.existence_successor, m.swap_id ≤ 0 → m.successor ≠ 0) ∧
      ∃ st2, perform_swap 1 0 answer_state = some st2 ∧
        st2.existence_successor = [] ∧
        st2.answered = [⟨1, ⟨1, 2⟩⟩, ⟨1, edge_t.invalid⟩, ⟨1, edge_t.invalid⟩] := by
  have hsome : (perform_swap 1 0 answer_state).isSome = true := by decide!
  obtain ⟨st2, hst2⟩ := Option.isSome_iff_exists.mp hsome
  have hs : ∀ m ∈ answer_state.existence_successor, m.swap_id ≤ 0 → m.successor ≠ 0 := by
    decide
  obtain ⟨drained, answer, d1, d2, d3, d4, d5⟩ :=
    existence_forwarding_rule 1 0 answer_state st2 false [] rfl hst2 hs
  have hperf : (swap_decision answer_state.existence_information 0
      (answer_state.source_edges (0, 0), answer_state.source_edges (0, 1)) false).performed
      = false := by decide
  -- every message is of the swap 0, so all three are drained
  have hrest : st2.existence_successor = [] := by
    cases hr : st2.existence_successor with
    | nil => rfl
    | cons m ms =>
      exfalso
      have hm : m ∈ answer_state.existence_successor := by
        rw [d1, hr]
        exact List.mem_append_right _ (List.mem_cons_self _ _)
      have h0 : m.swap_id = 0 := by
        have hall : ∀ x ∈ answer_state.existence_successor, x.swap_id = 0 := by decide
        exact hall m hm
      have := d3 m (by rw [hr]; rfl)
      omega
  rw [hrest, List.append_nil] at d1
  refine ⟨rfl, hs, st2, hst2, hrest, ?_⟩
  rw [d4, ← d1]
  have a1 := (d5 ⟨0, ⟨1, 2⟩, 1⟩).2.2.1 hperf (Or.inl rfl)
  have a2 := (d5 ⟨0, ⟨2, 3⟩, 1⟩).2.2.2 (by decide) (Or.inl hperf)
  have a3 := (d5 ⟨0, ⟨4, 5⟩, 1⟩).2.2.2 (by decide) (Or.inl hperf)
  have e2 : answer_state.existence_information.exists 0 (⟨2, 3⟩ : edge_t) = false := by decide
  have e3 : answer_state.existence_information.exists 0 (⟨4, 5⟩ : edge_t) = false := by decide
  show answer_state.answered ++ [⟨0, ⟨1, 2⟩, 1⟩, ⟨0, ⟨2, 3⟩, 1⟩, ⟨0, ⟨4, 5⟩, 1⟩].map
    (fun m : ExistenceSuccessorMsg =>
      (⟨m.successor, if answer m then m.edge else edge_t.invalid⟩ : ExistenceInfoMsg)) = _
  simp only [List.map_cons, List.map_nil, a1, a2, a3, e2, e3, if_true]
  rfl

/-! ## One write per edge id -/

theorem forward_edge_state_drained (limit sid : Nat) (new : edge_t × edge_t) :
    ∀ (deps : List DependencyChainSuccessorMsg) (st : PerformState) (found : Bool × Bool),
      ∃ drained,
        deps = drained ++ (forward_edge_state limit sid new deps st found).1.edge_dependencies ∧
          (∀ m ∈ drained, get_swap_id m.sid = sid) ∧
          (∀ m, (forward_edge_state limit sid new deps st found).1.edge_dependencies.head?
            = some m → get_swap_id m.sid ≠ sid) ∧
          (forward_edge_state limit sid new deps st found).1.forwarded =
            st.forwarded ++ drained.map (fun m =>
              ⟨m.successor, pair_get new (get_swap_spos m.sid)⟩) ∧
          (forward_edge_state limit sid new deps st found).2.1 =
            (found.1 || drained.any (fun m => decide (get_swap_spos m.sid = 0))) ∧
          (forward_edge_state limit sid new deps st found).2.2 =
            (found.2 || drained.any (fun m => !decide (get_swap_spos m.sid = 0))) := by
  intro deps
  induction deps with
  | nil =>
    intro st found
    unfold forward_edge_state
    exact ⟨[], rfl, fun m hm => by simp at hm, fun m hm => by simp at hm, by simp, by simp,
      by simp⟩
  | cons msg rest ih =>
    intro st found
    unfold forward_edge_state
    by_cases hsid : get_swap_id msg.sid = sid
    · rw [if_pos hsid]
      dsimp only
      have hstep : ∀ st1 : PerformState, st1.forwarded = st.forwarded →
          ∃ drained,
            msg :: rest = drained ++ (forward_edge_state limit sid new rest
              { st1 with forwarded := st1.forwarded ++
                [⟨msg.successor, pair_get new (get_swap_spos msg.sid)⟩] }
              (if get_swap_spos msg.sid = 0 then (true, found.2)
                else (found.1, true))).1.edge_dependencies ∧
            (∀ m ∈ drained, get_swap_id m.sid = sid) ∧
            (∀ m, (forward_edge_state limit sid new rest
              { st1 with forwarded := st1.forwarded ++
                [⟨msg.successor, pair_get new (get_swap_spos msg.sid)⟩] }
              (if get_swap_spos msg.sid = 0 then (true, found.2)
                else (found.1, true))).1.edge_dependencies.head? = some m →
              get_swap_id m.sid ≠ sid) ∧
            (forward_edge_state limit sid new rest
              { st1 with forwarded := st1.forwarded ++
                [⟨msg.successor, pair_get new (get_swap_spos msg.sid)⟩] }
              (if get_swap_spos msg.sid = 0 then (true, found.2)
                else (found.1, true))).1.forwarded =
              st.forwarded ++ drained.map (fun m =>
                ⟨m.successor, pair_get new (get_swap_spos m.sid)⟩) ∧
            (forward_edge_state limit sid new rest
              { st1 with forwarded := st1.forwarded ++
                [⟨msg.successor, pair_get new (get_swap_spos msg.sid)⟩] }
              (if get_swap_spos msg.sid = 0 then (true, found.2)
                else (found.1, true))).2.1 =
              (found.1 || drained.any (fun m => decide (get_swap_spos m.sid = 0))) ∧
            (forward_edge_state limit sid new rest
              { st1 with forwarded := st1.forwarded ++
                [⟨msg.successor, pair_get new (get_swap_spos msg.sid)⟩] }
              (if get_swap_spos msg.sid = 0 then (true, found.2)
                else (found.1, true))).2.2 =
              (found.2 || drained.any (fun m => !decide (get_swap_spos m.sid = 0))) := by
        intro st1 hst1
        obtain ⟨drained, d1, d2, d3, d4, d5, d6⟩ := ih
          { st1 with forwarded := st1.forwarded ++
            [⟨msg.successor, pair_get new (get_swap_spos msg.sid)⟩] }
          (if get_swap_spos msg.sid = 0 then (true, found.2) else (found.1, true))
        refine ⟨msg :: drained, by rw [List.cons_append, ← d1], ?_, d3, ?_, ?_, ?_⟩
        · intro m hm
          rcases List.mem_cons.mp hm with rfl | hm
          · exact hsid
          · exact d2 m hm
        · rw [d4]
          dsimp only
          rw [hst1, List.map_cons, List.append_assoc, List.singleton_append]
        · rw [d5, List.any_cons]
          by_cases h0 : get_swap_spos msg.sid = 0
          · simp [h0]
          · simp [h0]
        · rw [d6, List.any_cons]
          by_cases h0 : get_swap_spos msg.sid = 0
          · simp [h0]
          · simp [h0]
      split
      · exact hstep _ rfl
      · exact hstep _ rfl
    · rw [if_neg hsid]
      refine ⟨[], rfl, fun m hm => by simp at hm, ?_, by simp, by simp, by simp⟩
      intro m hm
      simp only [List.head?_cons, Option.some.injEq] at hm
      rw [← hm]
      exact hsid

theorem perform_swap_writes (limit sid : Nat) (st st2 : PerformState) (direction : Bool)
    (directions : BoolStream) (hdir : st._swap_direction = direction :: directions)
    (h : perform_swap limit sid st = some st2) :
    ∃ drained,
      st.edge_dependencies = drained ++ st2.edge_dependencies ∧
        (∀ m ∈ drained, get_swap_id m.sid = sid) ∧
        (∀ m, st2.edge_dependencies.head? = some m → get_swap_id m.sid ≠ sid) ∧
        st2.forwarded = st.forwarded ++ drained.map (fun m =>
          ⟨m.successor, pair_get (swap_outcome (swap_decision st.existence_information sid
            (st.source_edges (sid, 0), st.source_edges (sid, 1)) direction)
            (st.source_edges (sid, 0), st.source_edges (sid, 1))) (get_swap_spos m.sid)⟩) ∧
        st2.edge_updates = st.edge_updates ++
          (if drained.any (fun m => decide (get_swap_spos m.sid = 0)) then []
            else [(swap_outcome (swap_decision st.existence_information sid
              (st.source_edges (sid, 0), st.source_edges (sid, 1)) direction)
              (st.source_edges (sid, 0), st.source_edges (sid, 1))).1]) ++
          (if drained.any (fun m => !decide (get_swap_spos m.sid = 0)) then []
            else [(swap_outcome (swap_decision st.existence_information sid
              (st.source_edges (sid, 0), st.source_edges (sid, 1)) direction)
              (st.source_edges (sid, 0), st.source_edges (sid, 1))).2]) := by
  unfold perform_swap at h
  rw [hdir] at h
  dsimp only at h
  split at h
  · simp at h
  split at h
  · simp at h
  simp only [Option.some.injEq] at h
  obtain ⟨drained, d1, d2, d3, d4, d5, d6⟩ := forward_edge_state_drained limit sid
    (swap_outcome (swap_decision st.existence_information sid
      (st.source_edges (sid, 0), st.source_edges (sid, 1)) direction)
      (st.source_edges (sid, 0), st.source_edges (sid, 1)))
    st.edge_dependencies
    { st with _swap_direction := directions
              debug := st.debug ++ [(swap_decision st.existence_information sid
                (st.source_edges (sid, 0), st.source_edges (sid, 1)) direction).normalize] }
    (false, false)
  obtain ⟨-, -, -, -, -, -, -, f8⟩ := forward_edge_state_frame limit sid
    (swap_outcome (swap_decision st.existence_information sid
      (st.source_edges (sid, 0), st.source_edges (sid, 1)) direction)
      (st.source_edges (sid, 0), st.source_edges (sid, 1)))
    st.edge_dependencies
    { st with _swap_direction := directions
              debug := st.debug ++ [(swap_decision st.existence_information sid
                (st.source_edges (sid, 0), st.source_edges (sid, 1)) direction).normalize] }
    (false, false)
  generalize forward_edge_state limit sid _ st.edge_dependencies _ (false, false) = f
    at h d1 d3 d4 d5 d6 f8
  generalize hs1 : ({ f.1 with
    edge_updates := f.1.edge_updates
      ++ (if !f.2.1 then [(swap_outcome (swap_decision st.existence_information sid
          (st.source_edges (sid, 0), st.source_edges (sid, 1)) direction)
          (st.source_edges (sid, 0), st.source_edges (sid, 1))).1] else [])
      ++ (if !f.2.2 then [(swap_outcome (swap_decision st.existence_information sid
          (st.source_edges (sid, 0), st.source_edges (sid, 1)) direction)
          (st.source_edges (sid, 0), st.source_edges (sid, 1))).2] else []) } :
    PerformState) = st1 at h
  obtain ⟨-, -, g3, -, g5, -, g7, -⟩ := forward_existence_frame limit sid
    (st.source_edges (sid, 0), st.source_edges (sid, 1))
    (swap_outcome (swap_decision st.existence_information sid
      (st.source_edges (sid, 0), st.source_edges (sid, 1)) direction)
      (st.source_edges (sid, 0), st.source_edges (sid, 1)))
    f.1.existence_successor st1
  rw [← h]
  dsimp only
  rw [g3, g5, g7, ← hs1]
  dsimp only
  dsimp only at d4 f8
  refine ⟨drained, d1, d2, d3, d4, ?_⟩
  rw [f8, d5, d6]
  simp only [Bool.false_or]
  congr 1
  · congr 1
    cases drained.any (fun m => decide (get_swap_spos m.sid = 0)) <;> rfl
  · cases drained.any (fun m => !decide (get_swap_spos m.sid = 0)) <;> rfl

theorem length_filter_not_map {α : Type} (d : α → Bool) (l : List α) :
    ((l.map d).filter (fun v => !v)).length = (l.filter (fun j => !d j)).length := by
  induction l with
  | nil => rfl
  | cons a l ih =>
    simp only [List.map_cons, List.filter_cons]
    cases d a <;> simp [ih]

theorem run_edge_updates_count (b t : Nat) (edges : List edge_t) (swaps : List SwapDescriptor)
    (ht : 0 < t) (hn : swaps.length < 2 ^ 63)
    (hrange : ∀ s ∈ swaps, s.eid_a < edges.length ∧ s.eid_b < edges.length)
    (hdist : ∀ s ∈ swaps, s.eid_a ≠ s.eid_b)
    (r : Engine × RunLog) (hr : run_swaps_with b t edges swaps = some r) :
    r.2.edge_updates.length =
        ((_load_and_update_edges (swaps.foldl push
          (Engine.init t edges))).pushed.next_valid_edges.filter (fun v => !v)).length ∧
      r.2.edge_updates.length =
        ((List.range edges.length).filter (fun j =>
          decide (∃ q, q < 2 * swaps.length ∧ request_eid swaps q = j))).length := by
  have hvalid := load_edges_valid t edges 0
    (sorter_sort EdgeLoadRequest.le (swap_requests 0 swaps))
    (sorted_requests_eid _ (sorter_sort_sorted EdgeLoadRequest.le _)) (fun r _ => Nat.zero_le _)
  have hcount : ((load_edges t 0 edges (sorter_sort EdgeLoadRequest.le
      (swap_requests 0 swaps))).next_valid_edges.filter (fun v => !v)).length =
      ((List.range edges.length).filter (fun j =>
        decide (∃ q, q < 2 * swaps.length ∧ request_eid swaps q = j))).length := by
    rw [hvalid, length_filter_not_map]
    congr 1
    apply List.filter_congr
    intro j _
    rw [Bool.eq_iff_iff]
    simp only [Bool.not_eq_true', decide_eq_false_iff_not, decide_eq_true_eq, Nat.zero_add]
    constructor
    · intro hne
      push_neg at hne
      obtain ⟨x, hx, hxe⟩ := hne
      obtain ⟨h1, h2⟩ := (mem_swap_requests_zero swaps hn x).mp
        ((mem_sorter_sort _ _ _).mp hx)
      exact ⟨x.sid, h1, by rw [← h2, hxe]⟩
    · rintro ⟨q, hq, hqe⟩ hall
      exact hall ⟨request_eid swaps q, q⟩
        ((mem_sorter_sort _ _ _).mpr ((mem_swap_requests_zero swaps hn _).mpr ⟨hq, rfl⟩)) hqe
  rw [load_pushed_eq, hcount]
  refine ⟨?_, ?_⟩ <;>
  · by_cases hS : swaps = []
    · subst hS
      rw [run_swaps_with_nil] at hr
      simp only [Option.some.injEq] at hr
      rw [← hr]
      simp [RunLog.empty]
    · obtain ⟨cr, p, hcr, hp, -, -, hlog⟩ := run_swaps_with_some b t edges swaps hS r hr
      have hwf := run_ctx_wf t edges swaps hn hrange hdist
      have hcs := compute_conflicts_edge_state hwf ht _ cr hcr
      rw [hcs] at hp
      obtain ⟨-, -, h3⟩ := perform_swaps_updates hwf ht _ _ _ p hp
      rw [hlog]
      show p.edge_updates.length = _
      rw [h3, List.length_map]
      have hlen := (last_keys_eid_perm hwf).length_eq
      rw [List.length_map] at hlen
      rw [hlen]
      show ((List.range edges.length).filter (fun j =>
        !decide (∀ q, q < 2 * swaps.length → request_eid swaps q ≠ j))).length = _
      congr 1
      apply List.filter_congr
      intro j _
      rw [Bool.eq_iff_iff]
      simp only [Bool.not_eq_true', decide_eq_false_iff_not, decide_eq_true_eq]
      push_neg
      rfl

/-- Claim C25: each edge id touched by a run is written exactly once. In the swap
performer a swap that returns drains the successor links of its two sides; a side
of which a link was drained forwards its resulting edge `new_edges[side]` to the
successor of the link and pushes no edge update, and a side without a link pushes
exactly one edge update, `new_edges[side]`, and forwards nothing. For a run that
returns (at least one worker thread, fewer than `2^63` swaps, edge ids in range,
the two edge ids of a swap different) the number of edge updates is the number
of positions the dependency-chain builder marked invalid, which is the number of
edge ids that some swap side names. -/
theorem one_write_per_edge_id (b t : Nat) (edges : List edge_t) (swaps : List SwapDescriptor)
    (ht : 0 < t) (hn : swaps.length < 2 ^ 63)
    (hrange : ∀ s ∈ swaps, s.eid_a < edges.length ∧ s.eid_b < edges.length)
    (hdist : ∀ s ∈ swaps, s.eid_a ≠ s.eid_b)
    (r : Engine × RunLog) (hr : run_swaps_with b t edges swaps = some r) :
    (r.2.edge_updates.length =
        ((_load_and_update_edges (swaps.foldl push
          (Engine.init t edges))).pushed.next_valid_edges.filter (fun v => !v)).length ∧
      r.2.edge_updates.length =
        ((List.range edges.length).filter (fun j =>
          decide (∃ q, q < 2 * swaps.length ∧ request_eid swaps q = j))).length) ∧
      ∀ (sid_in_batch_limit sid : Nat) (st st2 : PerformState) (direction : Bool)
        (directions : BoolStream), st._swap_direction = direction :: directions →
        perform_swap sid_in_batch_limit sid st = some st2 →
        ∃ drained,
          st.edge_dependencies = drained ++ st2.edge_dependencies ∧
            (∀ m ∈ drained, get_swap_id m.sid = sid) ∧
            (∀ m, st2.edge_dependencies.head? = some m → get_swap_id m.sid ≠ sid) ∧
            st2.forwarded = st.forwarded ++ drained.map (fun m =>
              ⟨m.successor, pair_get (swap_outcome (swap_decision st.existence_information sid
                (st.source_edges (sid, 0), st.source_edges (sid, 1)) direction)
                (st.source_edges (sid, 0), st.source_edges (sid, 1)))
                (get_swap_spos m.sid)⟩) ∧
            st2.edge_updates = st.edge_updates ++
              (if drained.any (fun m => decide (get_swap_spos m.sid = 0)) then []
                else [(swap_outcome (swap_decision st.existence_information sid
                  (st.source_edges (sid, 0), st.source_edges (sid, 1)) direction)
                  (st.source_edges (sid, 0), st.source_edges (sid, 1))).1]) ++
              (if drained.any (fun m => !decide (get_swap_spos m.sid = 0)) then []
                else [(swap_outcome (swap_decision st.existence_information sid
                  (st.source_edges (sid, 0), st.source_edges (sid, 1)) direction)
                  (st.source_edges (sid, 0), st.source_edges (sid, 1))).2]) :=
  ⟨run_edge_updates_count b t edges swaps ht hn hrange hdist r hr,
    fun limit sid st st2 direction directions hdir h =>
      perform_swap_writes limit sid st st2 direction directions hdir h⟩

theorem one_write_per_edge_id_witness :
    run_swaps_with IntScale.Mi 1 stale_E stale_S = some stale_result ∧
      (stale_result.2.edge_updates.length =
          ((_load_and_update_edges (stale_S.foldl push
            (Engine.init 1 stale_E))).pushed.next_valid_edges.filter (fun v => !v)).length ∧
        stale_result.2.edge_updates.length =
          ((List.range stale_E.length).filter (fun j =>
            decide (∃ q, q < 2 * stale_S.length ∧ request_eid stale_S q = j))).length) :=
  ⟨by decide!,
    (one_write_per_edge_id IntScale.Mi 1 stale_E stale_S (by decide) (by decide) (by decide)
      (by decide) stale_result (by decide!)).1⟩

theorem stale_run_updates :
    stale_result.2.edge_updates = [⟨1, 3⟩, ⟨2, 4⟩, ⟨9, 10⟩, ⟨1, 5⟩, ⟨2, 6⟩] ∧
      (_load_and_update_edges (stale_S.foldl push
        (Engine.init 1 stale_E))).pushed.next_valid_edges
        = [false, true, false, false, false, false] := by
  decide!

/-! ## The swap ids of the existence requests -/

theorem hydrate_side_requests (swap_id spos : Nat) (st : ConflictState) :
    (hydrate_side swap_id spos st).existence_requests = st.existence_requests := by
  unfold hydrate_side
  rfl

theorem hydrate_requests :
    ∀ (n swap_id : Nat) (st : ConflictState),
      (hydrate n swap_id st).existence_requests = st.existence_requests := by
  intro n
  induction n with
  | zero => intro swap_id st; rfl
  | succ n ih =>
    intro swap_id st
    unfold hydrate
    rw [ih, hydrate_side_requests, hydrate_side_requests]

theorem conflicts_swap_below (num limit sid : Nat) (st st2 : ConflictState)
    (hsid : sid < num) (h : ∀ q ∈ st.existence_requests, q.swap_id < num)
    (hcs : conflicts_swap limit sid st = some st2) :
    ∀ q ∈ st2.existence_requests, q.swap_id < num := by
  unfold conflicts_swap at hcs
  split at hcs
  · simp at hcs
  next direction directions hdir =>
  dsimp only at hcs
  split at hcs
  · simp at hcs
  split at hcs
  · simp at hcs
  simp only [Option.some.injEq] at hcs
  rw [← hcs, conflicts_side_requests, conflicts_side_requests]
  intro q hq
  rcases List.mem_append.mp hq with hq | hq
  · rcases List.mem_append.mp hq with hq | hq
    · exact h q hq
    · obtain ⟨c, -, rfl⟩ := List.mem_map.mp hq
      exact hsid
  · obtain ⟨c, -, rfl⟩ := List.mem_map.mp hq
    exact hsid

theorem conflicts_workers_below (num limit : Nat) :
    ∀ (n sid : Nat) (st st2 : ConflictState),
      (∀ q ∈ st.existence_requests, q.swap_id < num) →
      conflicts_workers num limit n sid st = some st2 →
      ∀ q ∈ st2.existence_requests, q.swap_id < num := by
  intro n
  induction n with
  | zero =>
    intro sid st st2 h hw
    simp only [conflicts_workers, Option.some.injEq] at hw
    rw [← hw]; exact h
  | succ n ih =>
    intro sid st st2 h hw
    unfold conflicts_workers at hw
    split at hw
    · exact ih _ _ _ h hw
    · next hlt =>
      cases hp : conflicts_swap limit sid st with
      | none => rw [hp] at hw; simp at hw
      | some st1 =>
        rw [hp] at hw
        exact ih _ _ _ (conflicts_swap_below num limit sid st st1 (by omega) h hp) hw

theorem conflicts_batches_below (t b num : Nat) :
    ∀ (fuel base : Nat) (st st2 : ConflictState),
      (∀ q ∈ st.existence_requests, q.swap_id < num) →
      conflicts_batches t b num fuel base st = some st2 →
      ∀ q ∈ st2.existence_requests, q.swap_id < num := by
  intro fuel
  induction fuel with
  | zero =>
    intro base st st2 h hp
    unfold conflicts_batches at hp
    split at hp
    · simp at hp
    · simp only [Option.some.injEq] at hp
      rw [← hp]; exact h
  | succ fuel ih =>
    intro base st st2 h hp
    unfold conflicts_batches at hp
    split at hp
    · dsimp only at hp
      split at hp
      · simp at hp
      next st3 hw =>
      have h3 := conflicts_workers_below num _ _ _ _ st3
        (by rw [hydrate_requests]; exact h) hw
      refine ih _ _ _ ?_ hp
      exact h3
    · simp only [Option.some.injEq] at hp
      rw [← hp]; exact h

theorem compute_conflicts_requests (t b num : Nat)
    (es : PQSorterMerger DependencyChainEdgeMsg) (deps : List DependencyChainSuccessorMsg)
    (dirs : BoolStream) (cr : ConflictResult)
    (hcr : _compute_conflicts t b num es deps dirs = some cr) :
    cr.existence_merger = sorter_sort ExistenceRequestMsg.le cr.existence_requests ∧
      ∀ q ∈ cr.existence_requests, q.swap_id < num := by
  unfold _compute_conflicts at hcr
  dsimp only at hcr
  split at hcr
  · simp at hcr
  next st1 hst1 =>
  simp only [Option.some.injEq] at hcr
  rw [← hcr]
  exact ⟨rfl, conflicts_batches_below t b num _ 0 _ st1 (fun q hq => by simp at hq) hst1⟩

theorem existence_chain_ids (t : Nat) (X : edge_t) :
    ∀ (reqs : List ExistenceRequestMsg) (last : Nat) (found : Bool),
      ∀ m ∈ (existence_chain t X reqs last found).1.successor_output,
        ∃ r ∈ reqs, r.swap_id = m.2.swap_id := by
  intro reqs
  induction reqs with
  | nil => intro last found m hm; simp [existence_chain] at hm
  | cons r rest ih =>
    intro last found m hm
    unfold existence_chain at hm
    split at hm
    · simp at hm
    · dsimp only at hm
      have hrec : ∀ m ∈ (existence_chain t X rest r.swap_id
          (found || !r.forward_only)).1.successor_output,
          ∃ q ∈ r :: rest, q.swap_id = m.2.swap_id := by
        intro m hm
        obtain ⟨q, hq, h⟩ := ih _ _ m hm
        exact ⟨q, List.mem_cons_of_mem _ hq, h⟩
      split at hm
      · rcases List.mem_cons.mp hm with rfl | hm
        · exact ⟨r, List.mem_cons_self _ _, rfl⟩
        · exact hrec m hm
      · exact hrec m hm

theorem process_requests_ids (t : Nat) :
    ∀ (fuel : Nat) (reqs : List ExistenceRequestMsg) (edges : List edge_t),
      ∀ m ∈ (process_requests t fuel reqs edges).successor_output,
        ∃ r ∈ reqs, r.swap_id = m.2.swap_id := by
  intro fuel
  induction fuel with
  | zero => intro reqs edges m hm; simp [process_requests] at hm
  | succ fuel ih =>
    intro reqs edges m hm
    cases reqs with
    | nil => simp [process_requests] at hm
    | cons request rest =>
      unfold process_requests at hm
      dsimp only at hm
      rcases List.mem_append.mp hm with hm | hm
      · rcases List.mem_append.mp hm with hm | hm
        · exact existence_chain_ids t request.edge _ _ _ m hm
        · split at hm <;> simp at hm
      · rw [existence_chain_rest] at hm
        obtain ⟨q, hq, h⟩ := ih _ _ m hm
        exact ⟨q, List.mem_cons_of_mem _ ((List.dropWhile_suffix _).sublist.subset hq), h⟩

/-! ## One answer per existence successor message -/

theorem forward_existence_targets (limit sid : Nat) (cur new : edge_t × edge_t) :
    ∀ (succs : List ExistenceSuccessorMsg) (st : PerformState),
      ∃ drained,
        succs = drained ++ (forward_existence limit sid cur new succs st).existence_successor ∧
          (∀ m ∈ drained, m.swap_id ≤ sid) ∧
          (∀ m, (forward_existence limit sid cur new succs st).existence_successor.head? = some m →
            sid < m.swap_id) ∧
          (forward_existence limit sid cur new succs st).answered.map ExistenceInfoMsg.swap_id =
            st.answered.map ExistenceInfoMsg.swap_id ++
              drained.map ExistenceSuccessorMsg.successor := by
  intro succs
  induction succs with
  | nil =>
    intro st
    unfold forward_existence
    exact ⟨[], rfl, fun m hm => by simp at hm, fun m hm => by simp at hm, by simp⟩
  | cons succ rest ih =>
    intro st
    unfold forward_existence
    by_cases hgt : succ.swap_id > sid
    · rw [if_pos hgt]
      refine ⟨[], rfl, fun m hm => by simp at hm, ?_, by simp⟩
      intro m hm
      simp only [List.head?_cons, Option.some.injEq] at hm
      rw [← hm]
      exact hgt
    · rw [if_neg hgt]
      dsimp only
      have hstep : ∀ ex : Bool, ∃ drained,
          succ :: rest = drained ++ (forward_existence limit sid cur new rest
            (push_existence_info limit succ.successor succ.edge ex st)).existence_successor ∧
          (∀ m ∈ drained, m.swap_id ≤ sid) ∧
          (∀ m, (forward_existence limit sid cur new rest
            (push_existence_info limit succ.successor succ.edge ex st)).existence_successor.head?
              = some m → sid < m.swap_id) ∧
          (forward_existence limit sid cur new rest
            (push_existence_info limit succ.successor succ.edge ex st)).answered.map
              ExistenceInfoMsg.swap_id =
            st.answered.map ExistenceInfoMsg.swap_id ++
              drained.map ExistenceSuccessorMsg.successor := by
        intro ex
        obtain ⟨p1, -, -⟩ := push_existence_info_answer limit succ.successor succ.edge ex st
        obtain ⟨drained, d1, d2, d3, d4⟩ := ih
          (push_existence_info limit succ.successor succ.edge ex st)
        refine ⟨succ :: drained, by rw [List.cons_append, ← d1], ?_, d3, ?_⟩
        · intro m hm
          rcases List.mem_cons.mp hm with rfl | hm
          · omega
          · exact d2 m hm
        · rw [d4, p1, List.map_append, List.map_cons, List.map_nil, List.map_cons,
            List.append_assoc, List.singleton_append]
      split
      · exact hstep true
      · split
        · exact hstep false
        · exact hstep _

theorem drain_inv_of_done {init : List ExistenceSuccessorMsg} {n k : Nat} {st : PerformState}
    (h : DrainInv init n k st) (k2 : Nat) (hk : n ≤ k ∨ k2 ≤ k) : DrainInv init n k2 st := by
  refine ⟨h.sorted, ?_, h.drained⟩
  intro m hm
  have := h.keys m hm
  omega

theorem perform_swap_drain (init : List ExistenceSuccessorMsg) (n limit sid : Nat)
    (st st2 : PerformState) (h : DrainInv init n sid st)
    (hps : perform_swap limit sid st = some st2) : DrainInv init n (sid + 1) st2 := by
  unfold perform_swap at hps
  split at hps
  · simp at hps
  next direction directions hdir =>
  dsimp only at hps
  split at hps
  · simp at hps
  split at hps
  · simp at hps
  simp only [Option.some.injEq] at hps
  obtain ⟨f1, -, -, -, f5, -, -, -⟩ := forward_edge_state_frame limit sid
    (swap_outcome (swap_decision st.existence_information sid
      (st.source_edges (sid, 0), st.source_edges (sid, 1)) direction)
      (st.source_edges (sid, 0), st.source_edges (sid, 1)))
    st.edge_dependencies
    { st with _swap_direction := directions
              debug := st.debug ++ [(swap_decision st.existence_information sid
                (st.source_edges (sid, 0), st.source_edges (sid, 1)) direction).normalize] }
    (false, false)
  generalize forward_edge_state limit sid _ st.edge_dependencies _ (false, false) = f
    at hps f1 f5
  generalize hs1 : ({ f.1 with
    edge_updates := f.1.edge_updates
      ++ (if !f.2.1 then [(swap_outcome (swap_decision st.existence_information sid
          (st.source_edges (sid, 0), st.source_edges (sid, 1)) direction)
          (st.source_edges (sid, 0), st.source_edges (sid, 1))).1] else [])
      ++ (if !f.2.2 then [(swap_outcome (swap_decision st.existence_information sid
          (st.source_edges (sid, 0), st.source_edges (sid, 1)) direction)
          (st.source_edges (sid, 0), st.source_edges (sid, 1))).2] else []) } :
    PerformState) = st1 at hps
  have e2 : st1.answered = st.answered := by rw [← hs1]; exact f5
  obtain ⟨drained, d1, d2, d3, d4⟩ := forward_existence_targets limit sid
    (st.source_edges (sid, 0), st.source_edges (sid, 1))
    (swap_outcome (swap_decision st.existence_information sid
      (st.source_edges (sid, 0), st.source_edges (sid, 1)) direction)
      (st.source_edges (sid, 0), st.source_edges (sid, 1)))
    f.1.existence_successor st1
  rw [e2] at d4
  generalize forward_existence limit sid _ _ f.1.existence_successor st1 = fe
    at hps d1 d3 d4
  dsimp only at f1
  rw [f1] at d1
  have hsorted := h.sorted
  rw [d1, List.pairwise_append] at hsorted
  obtain ⟨old, ho1, ho2⟩ := h.drained
  rw [← hps]
  refine ⟨hsorted.2.1, ?_, old ++ drained, ?_, ?_⟩
  · intro m hm
    dsimp only at hm
    have hk := h.keys m (by
      rw [d1]
      exact List.mem_append_right _ hm)
    refine ⟨?_, hk.2⟩
    cases hl : fe.existence_successor with
    | nil => rw [hl] at hm; simp at hm
    | cons x xs =>
      have hx := d3 x (by rw [hl]; rfl)
      rw [hl] at hm hsorted
      rcases List.mem_cons.mp hm with rfl | hm
      · omega
      · have := (List.pairwise_cons.mp hsorted.2.1).1 m hm
        omega
  · dsimp only
    rw [List.append_assoc, ← d1]
    exact ho1
  · dsimp only
    rw [d4, ho2, List.map_append]

theorem hydrate_source_drain (swap_id spos : Nat) (st : PerformState) :
    (hydrate_source swap_id spos st).existence_successor = st.existence_successor ∧
      (hydrate_source swap_id spos st).answered = st.answered := by
  unfold hydrate_source
  split
  · exact ⟨rfl, rfl⟩
  · split
    · exact ⟨rfl, rfl⟩
    · exact ⟨rfl, rfl⟩

theorem perform_hydrate_drain :
    ∀ (n id : Nat) (st : PerformState),
      (perform_hydrate n id st).existence_successor = st.existence_successor ∧
        (perform_hydrate n id st).answered = st.answered := by
  intro n
  induction n with
  | zero => intro id st; exact ⟨rfl, rfl⟩
  | succ n ih =>
    intro id st
    unfold perform_hydrate
    dsimp only
    obtain ⟨a1, a2⟩ := ih (id + 1) (hydrate_source id 1 (hydrate_source id 0
      { st with
        _existence_info := (hydrate_existence id
          (st._existence_info.cursor.length + st._existence_info.pq.length)
          st._existence_info st.existence_information).1
        existence_information := (hydrate_existence id
          (st._existence_info.cursor.length + st._existence_info.pq.length)
          st._existence_info st.existence_information).2 }))
    rw [a1, a2, (hydrate_source_drain id 1 _).1, (hydrate_source_drain id 1 _).2,
      (hydrate_source_drain id 0 _).1, (hydrate_source_drain id 0 _).2]
    exact ⟨rfl, rfl⟩

theorem perform_workers_drain (init : List ExistenceSuccessorMsg) (num limit : Nat) :
    ∀ (n sid : Nat) (st st2 : PerformState), DrainInv init num sid st →
      perform_workers num limit n sid st = some st2 → DrainInv init num (sid + n) st2 := by
  intro n
  induction n with
  | zero =>
    intro sid st st2 h hw
    simp only [perform_workers, Option.some.injEq] at hw
    rw [← hw]; exact h
  | succ n ih =>
    intro sid st st2 h hw
    unfold perform_workers at hw
    rw [show sid + (n + 1) = sid + 1 + n by omega]
    split at hw
    · next hge => exact ih _ _ _ (drain_inv_of_done h (sid + 1) (Or.inl hge)) hw
    · cases hp : perform_swap limit sid st with
      | none => rw [hp] at hw; simp at hw
      | some st1 =>
        rw [hp] at hw
        exact ih _ _ _ (perform_swap_drain init num limit sid st st1 h hp) hw

theorem perform_batches_drain (init : List ExistenceSuccessorMsg) (t b num : Nat) :
    ∀ (fuel base : Nat) (st st2 : PerformState), DrainInv init num base st →
      perform_batches t b num fuel base st = some st2 →
      st2.answered.map ExistenceInfoMsg.swap_id =
        init.map ExistenceSuccessorMsg.successor := by
  have hll := le_loop_limit num t
  have hdone : ∀ (base : Nat) (st : PerformState), DrainInv init num base st →
      ¬ base < loop_limit num t →
      st.answered.map ExistenceInfoMsg.swap_id = init.map ExistenceSuccessorMsg.successor := by
    intro base st h hb
    have hnil : st.existence_successor = [] := by
      cases hl : st.existence_successor with
      | nil => rfl
      | cons m ms =>
        have := h.keys m (by rw [hl]; exact List.mem_cons_self _ _)
        omega
    obtain ⟨drained, d1, d2⟩ := h.drained
    rw [hnil, List.append_nil] at d1
    rw [d2, d1]
  intro fuel
  induction fuel with
  | zero =>
    intro base st st2 h hp
    unfold perform_batches at hp
    split at hp
    · simp at hp
    · next hb =>
      simp only [Option.some.injEq] at hp
      rw [← hp]
      exact hdone base st h hb
  | succ fuel ih =>
    intro base st st2 h hp
    unfold perform_batches at hp
    split at hp
    · next hb =>
      dsimp only at hp
      split at hp
      · simp at hp
      next st3 hw =>
      have h1 := perform_workers_drain init num _ _ _ _ st3 (by
        obtain ⟨a1, a2⟩ := perform_hydrate_drain
          (hydrate_count t base (min num (base + b * t))) base
          { st with
            existence_placeholder := (init_existence num (b * t) base st.existence_placeholder
              EdgeExistenceInformation.start_initialization).1
            existence_information := (init_existence num (b * t) base st.existence_placeholder
              EdgeExistenceInformation.start_initialization).2
            _edge_state := (st._edge_state.start_batch
              ⟨pack_swap_id_spos (min num (base + b * t)) 0, ⟨-1, -1⟩⟩)
            _existence_info := (st._existence_info.start_batch
              ⟨min num (base + b * t), ⟨-1, -1⟩⟩) }
        refine ⟨?_, ?_, ?_⟩
        · rw [a1]; exact h.sorted
        · rw [a1]; exact h.keys
        · rw [a1, a2]; exact h.drained) hw
      refine ih _ _ _ ?_ hp
      have h2 := drain_inv_of_done h1 (base + b * t) (by omega)
      exact ⟨h2.sorted, h2.keys, h2.drained⟩
    · next hb =>
      simp only [Option.some.injEq] at hp
      rw [← hp]
      exact hdone base st h hb

theorem perform_swaps_answers (t b num : Nat) (es : PQSorterMerger DependencyChainEdgeMsg)
    (xi : PQSorterMerger ExistenceInfoMsg) (deps : List DependencyChainSuccessorMsg)
    (succs : List ExistenceSuccessorMsg) (ep : List Nat) (dirs : BoolStream)
    (p : PerformResult)
    (hsorted : succs.Pairwise (fun a b => a.swap_id ≤ b.swap_id))
    (hkeys : ∀ m ∈ succs, m.swap_id < num)
    (hp : _perform_swaps t b num es xi deps succs ep dirs = some p) :
    p.answered.map ExistenceInfoMsg.swap_id = succs.map ExistenceSuccessorMsg.successor := by
  unfold _perform_swaps at hp
  dsimp only at hp
  split at hp
  · simp at hp
  next st1 hst1 =>
  simp only [Option.some.injEq] at hp
  rw [← hp]
  refine perform_batches_drain succs t b num _ 0 _ st1 ?_ hst1
  exact ⟨hsorted, fun m hm => ⟨Nat.zero_le _, hkeys m hm⟩, [], rfl, rfl⟩

theorem perform_swap_released (limit sid : Nat) (st st2 : PerformState)
    (h : perform_swap limit sid st = some st2) :
    (st.existence_information sid).expected ≤ (st.existence_information sid).arrived := by
  unfold perform_swap at h
  split at h
  · simp at h
  dsimp only at h
  split at h
  · simp at h
  split at h
  · simp at h
  next hw =>
  unfold EdgeExistenceInformation.wait_for_missing at hw
  by_contra hcon
  exact hw (by simp [hcon])

theorem run_existence_deliveries (b t : Nat) (edges : List edge_t) (swaps : List SwapDescriptor)
    (r : Engine × RunLog) (hr : run_swaps_with b t edges swaps = some r) :
    r.2.existence_info.map ExistenceInfoMsg.swap_id =
        (_process_existence_requests t
          (sorter_sort ExistenceRequestMsg.le r.2.existence_requests)
          edges).pushed.existence_info.map ExistenceInfoMsg.swap_id ++
        (_process_existence_requests t
          (sorter_sort ExistenceRequestMsg.le r.2.existence_requests)
          edges).existence_successor.map ExistenceSuccessorMsg.successor := by
  by_cases hS : swaps = []
  · subst hS
    rw [run_swaps_with_nil] at hr
    simp only [Option.some.injEq] at hr
    rw [← hr]
    rfl
  · obtain ⟨cr, p, hcr, hp, -, -, hlog⟩ := run_swaps_with_some b t edges swaps hS r hr
    obtain ⟨hm, hids⟩ := compute_conflicts_requests t b swaps.length _ _ _ cr hcr
    have hreq : r.2.existence_requests = cr.existence_requests := by rw [hlog]
    have hinfo : r.2.existence_info =
        (_process_existence_requests t cr.existence_merger edges).pushed.existence_info ++
          p.answered := by rw [hlog]
    rw [hreq, ← hm, hinfo, List.map_append]
    congr 1
    refine perform_swaps_answers t b swaps.length _ _ _ _ _ _ p ?_ ?_ hp
    · unfold _process_existence_requests
      dsimp only
      refine List.Pairwise.imp ?_ (sorter_sort_sorted ExistenceSuccessorMsg.le _)
      intro a c hac
      unfold ExistenceSuccessorMsg.le at hac
      omega
    · intro m hmem
      unfold _process_existence_requests at hmem
      dsimp only at hmem
      obtain ⟨x, hx, rfl⟩ := List.mem_map.mp ((mem_sorter_sort _ _ _).mp hmem)
      obtain ⟨q, hq, hqe⟩ := process_requests_ids t _ _ _ x hx
      rw [← hqe]
      rw [hm] at hq
      exact hids q ((mem_sorter_sort _ _ _).mp hq)

theorem placeholders_perm (t : Nat) (reqs : List ExistenceRequestMsg) (edges : List edge_t) :
    (_process_existence_requests t reqs edges).existence_placeholder.Perm
      ((_process_existence_requests t reqs edges).pushed.existence_info.map
          ExistenceInfoMsg.swap_id ++
        (_process_existence_requests t reqs edges).existence_successor.map
          ExistenceSuccessorMsg.successor) := by
  unfold _process_existence_requests
  dsimp only
  refine (sorter_sort_perm _ _).trans ?_
  refine (process_requests_placeholders t reqs.length reqs edges).trans ?_
  refine List.perm_append_comm.trans (List.Perm.append_left _ ?_)
  have h := (sorter_sort_perm ExistenceSuccessorMsg.le
    ((process_requests t reqs.length reqs edges).successor_output.map Prod.snd)).map
      ExistenceSuccessorMsg.successor
  rw [List.map_map] at h
  exact h.symm

/-- Claim C23: placeholders exactly count deliveries. For a run of the engine
that returns, with the existence requests of its conflict computer: the existence
messages of the run are the `ExistInfo` messages of the existence-request
processor followed by one answer for every `ExistSucc` message of the processor,
addressed to its successor, in the order of the messages; so for every swap `s`
the number of placeholders the processor pushes for `s` is the number of
`ExistInfo(s, .)` plus the number of `ExistSucc` naming `s` as successor, and is
the number of existence messages addressed to `s` in the run. A swap passes its
barrier `wait_for_missing` only when as many messages as it has placeholders have
arrived. -/
theorem placeholders_count_deliveries (b t : Nat) (edges : List edge_t)
    (swaps : List SwapDescriptor) (r : Engine × RunLog)
    (hr : run_swaps_with b t edges swaps = some r) :
    r.2.existence_info.map ExistenceInfoMsg.swap_id =
        (_process_existence_requests t
          (sorter_sort ExistenceRequestMsg.le r.2.existence_requests)
          edges).pushed.existence_info.map ExistenceInfoMsg.swap_id ++
        (_process_existence_requests t
          (sorter_sort ExistenceRequestMsg.le r.2.existence_requests)
          edges).existence_successor.map ExistenceSuccessorMsg.successor ∧
      (∀ s, (_process_existence_requests t
          (sorter_sort ExistenceRequestMsg.le r.2.existence_requests)
          edges).existence_placeholder.count s =
        ((_process_existence_requests t
          (sorter_sort ExistenceRequestMsg.le r.2.existence_requests)
          edges).pushed.existence_info.map ExistenceInfoMsg.swap_id).count s +
        ((_process_existence_requests t
          (sorter_sort ExistenceRequestMsg.le r.2.existence_requests)
          edges).existence_successor.map ExistenceSuccessorMsg.successor).count s) ∧
      (∀ s, (_process_existence_requests t
          (sorter_sort ExistenceRequestMsg.le r.2.existence_requests)
          edges).existence_placeholder.count s =
        (r.2.existence_info.map ExistenceInfoMsg.swap_id).count s) ∧
      ∀ (sid_in_batch_limit sid : Nat) (st st2 : PerformState),
        perform_swap sid_in_batch_limit sid st = some st2 →
        (st.existence_information sid).expected ≤ (st.existence_information sid).arrived := by
  have h1 := run_existence_deliveries b t edges swaps r hr
  have h2 := placeholders_perm t (sorter_sort ExistenceRequestMsg.le r.2.existence_requests)
    edges
  refine ⟨h1, ?_, ?_, fun limit sid st st2 h => perform_swap_released limit sid st st2 h⟩
  · intro s
    rw [h2.count_eq, List.count_append]
  · intro s
    rw [h2.count_eq, h1]

theorem placeholders_count_deliveries_witness :
    run_swaps_with IntScale.Mi 1 stale_E stale_S = some stale_result ∧
      stale_result.2.existence_info.map ExistenceInfoMsg.swap_id =
        (_process_existence_requests 1
          (sorter_sort ExistenceRequestMsg.le stale_result.2.existence_requests)
          stale_E).pushed.existence_info.map ExistenceInfoMsg.swap_id ++
        (_process_existence_requests 1
          (sorter_sort ExistenceRequestMsg.le stale_result.2.existence_requests)
          stale_E).existence_successor.map ExistenceSuccessorMsg.successor ∧
      ∀ s, (_process_existence_requests 1
          (sorter_sort ExistenceRequestMsg.le stale_result.2.existence_requests)
          stale_E).existence_placeholder.count s =
        (stale_result.2.existence_info.map ExistenceInfoMsg.swap_id).count s :=
  ⟨by decide!,
    (placeholders_count_deliveries IntScale.Mi 1 stale_E stale_S stale_result (by decide!)).1,
    (placeholders_count_deliveries IntScale.Mi 1 stale_E stale_S stale_result
      (by decide!)).2.2.1⟩

theorem stale_run_placeholders :
    (_process_existence_requests 1
        (sorter_sort ExistenceRequestMsg.le stale_result.2.existence_requests)
        stale_E).existence_placeholder = [0, 1] ∧
      (_process_existence_requests 1
        (sorter_sort ExistenceRequestMsg.le stale_result.2.existence_requests)
        stale_E).existence_successor = [⟨0, ⟨1, 2⟩, 1⟩] ∧
      stale_result.2.existence_info = [⟨0, ⟨1, 2⟩⟩, ⟨1, edge_t.invalid⟩] := by
  decide!

/-! ## The order of the composite key -/

theorem hydrate_eq_foldl :
    ∀ (n swap_id : Nat) (st : ConflictState),
      hydrate n swap_id st =
        (hydrate_sides n swap_id).foldl (fun s k => hydrate_side k.1 k.2 s) st := by
  intro n
  induction n with
  | zero => intro swap_id st; rfl
  | succ n ih =>
    intro swap_id st
    show hydrate n (swap_id + 1) (hydrate_side swap_id 1 (hydrate_side swap_id 0 st)) = _
    rw [ih]
    rfl

theorem hydrate_sides_bounds :
    ∀ (n swap_id : Nat), ∀ k ∈ hydrate_sides n swap_id,
      swap_id ≤ k.1 ∧ k.1 < swap_id + n ∧ k.2 < 2 := by
  intro n
  induction n with
  | zero => intro swap_id k hk; simp [hydrate_sides] at hk
  | succ n ih =>
    intro swap_id k hk
    simp only [hydrate_sides, List.mem_cons] at hk
    rcases hk with rfl | rfl | hk
    · simp
    · simp
    · have := ih (swap_id + 1) k hk
      omega

theorem hydrate_sides_keys_ascending :
    ∀ (n swap_id : Nat), swap_id + n ≤ 2 ^ 63 →
      ((hydrate_sides n swap_id).map (fun k => pack_swap_id_spos k.1 k.2)).Pairwise
        (fun a b => a < b) := by
  intro n
  induction n with
  | zero => intro swap_id _; simp [hydrate_sides]
  | succ n ih =>
    intro swap_id h
    simp only [hydrate_sides, List.map_cons, List.pairwise_cons, List.mem_cons, List.mem_map]
    have hb := hydrate_sides_bounds n (swap_id + 1)
    have h0 : pack_swap_id_spos swap_id 0 = 2 * swap_id + 0 := pack_eq (by omega) (by omega)
    have h1 : pack_swap_id_spos swap_id 1 = 2 * swap_id + 1 := pack_eq (by omega) (by omega)
    refine ⟨?_, ?_, ih (swap_id + 1) (by omega)⟩
    · rintro a (rfl | ⟨k, hk, rfl⟩)
      · rw [h0, h1]; omega
      · have := hb k hk
        rw [h0, pack_eq (by omega) this.2.2]; omega
    · rintro a ⟨k, hk, rfl⟩
      have := hb k hk
      rw [h1, pack_eq (by omega) this.2.2]; omega

/-- C36, the composite key is order-preserving: for swap ids below `2^63` (one
bit less than the key width) and sides in `{0,1}`, `pack(s, i) < pack(s2, i2)`
holds iff `(s, i)` is lexicographically smaller than `(s2, i2)`; the hydration
loop is the fold of its body over the swap sides in ascending swap id, side 0
before side 1, and the keys of these swap sides are strictly ascending. -/
theorem composite_key_order_preserving (s s2 i i2 : Nat) (hs : s < 2 ^ 63) (hs2 : s2 < 2 ^ 63)
    (hi : i < 2) (hi2 : i2 < 2) :
    (pack_swap_id_spos s i < pack_swap_id_spos s2 i2 ↔ s < s2 ∨ (s = s2 ∧ i < i2)) ∧
      (∀ (n swap_id : Nat) (st : ConflictState),
        hydrate n swap_id st =
          (hydrate_sides n swap_id).foldl (fun x k => hydrate_side k.1 k.2 x) st) ∧
      ∀ (n swap_id : Nat), swap_id + n ≤ 2 ^ 63 →
        ((hydrate_sides n swap_id).map (fun k => pack_swap_id_spos k.1 k.2)).Pairwise
          (fun a b => a < b) := by
  refine ⟨?_, hydrate_eq_foldl, hydrate_sides_keys_ascending⟩
  rw [pack_eq hs hi, pack_eq hs2 hi2]
  omega

/-- Witness for C36: the sides of the two largest swap ids. -/
theorem composite_key_order_preserving_witness :
    (pack_swap_id_spos (2 ^ 63 - 2) 1 < pack_swap_id_spos (2 ^ 63 - 1) 0 ↔
        2 ^ 63 - 2 < 2 ^ 63 - 1 ∨ (2 ^ 63 - 2 = 2 ^ 63 - 1 ∧ 1 < 0)) ∧
      ((hydrate_sides 2 (2 ^ 63 - 2)).map (fun k => pack_swap_id_spos k.1 k.2)).Pairwise
        (fun a b => a < b) :=
  ⟨(composite_key_order_preserving (2 ^ 63 - 2) (2 ^ 63 - 1) 1 0 (by norm_num) (by norm_num)
      (by norm_num) (by norm_num)).1,
    (composite_key_order_preserving (2 ^ 63 - 2) (2 ^ 63 - 1) 1 0 (by norm_num) (by norm_num)
      (by norm_num) (by norm_num)).2.2 2 (2 ^ 63 - 2) (by norm_num)⟩

/-- The keys of the swap sides of the swaps 5 and 6, in the order of the
hydration. -/
theorem composite_key_example :
    (hydrate_sides 2 5).map (fun k => pack_swap_id_spos k.1 k.2) = [10, 11, 12, 13] := by
  decide

/-! ## The comparison of existence requests is a strict total order -/

/-- C37, `ExistenceRequestMsg::operator<` is a strict total order on the triples
`(edge, swap_id, forward_only)`: it is irreflexive and transitive, and of two
messages that differ in the edge, the swap id or the flag exactly one is below
the other. -/
theorem existence_request_strict_total_order :
    (∀ a : ExistenceRequestMsg, ¬ ExistenceRequestMsg.lt a a) ∧
      (∀ a b c : ExistenceRequestMsg, ExistenceRequestMsg.lt a b → ExistenceRequestMsg.lt b c →
        ExistenceRequestMsg.lt a c) ∧
      ∀ a b : ExistenceRequestMsg,
        (a.edge ≠ b.edge ∨ a.swap_id ≠ b.swap_id ∨ a.forward_only ≠ b.forward_only) →
        ((ExistenceRequestMsg.lt a b ∧ ¬ ExistenceRequestMsg.lt b a) ∨
          (ExistenceRequestMsg.lt b a ∧ ¬ ExistenceRequestMsg.lt a b)) := by
  refine ⟨?_, ?_, ?_⟩
  · intro a
    unfold ExistenceRequestMsg.lt
    rw [bool_lt_iff, edge_lt_iff]
    cases a.forward_only <;> simp
  · intro a b c
    unfold ExistenceRequestMsg.lt
    rw [bool_lt_iff, bool_lt_iff, bool_lt_iff, edge_lt_iff, edge_lt_iff, edge_lt_iff,
      edge_ext_iff, edge_ext_iff, edge_ext_iff]
    cases a.forward_only <;> cases b.forward_only <;> cases c.forward_only <;> simp <;> omega
  · intro a b
    unfold ExistenceRequestMsg.lt
    rw [bool_lt_iff, bool_lt_iff, edge_lt_iff, edge_lt_iff, Ne, Ne, edge_ext_iff, edge_ext_iff]
    cases a.forward_only <;> cases b.forward_only <;> simp <;> omega

/-! ## Slot addressing in a batch -/

theorem hydration_row_spec (num_threads pos : Nat) :
    ∀ (fuel tid swap_id : Nat) (x : Nat × Nat × Nat),
      x ∈ hydration_row num_threads pos fuel tid swap_id ↔
        ∃ j, j < fuel ∧ tid + j < num_threads ∧ x = (tid + j, pos, swap_id + j) := by
  intro fuel
  induction fuel with
  | zero => intro tid swap_id x; simp [hydration_row]
  | succ fuel ih =>
    intro tid swap_id x
    unfold hydration_row
    by_cases ht : tid < num_threads
    · rw [if_pos ht, List.mem_cons, ih]
      constructor
      · rintro (rfl | ⟨j, hj, hj2, rfl⟩)
        · exact ⟨0, by omega, by omega, rfl⟩
        · exact ⟨j + 1, by omega, by omega, by
            rw [show tid + (j + 1) = tid + 1 + j by omega,
              show swap_id + (j + 1) = swap_id + 1 + j by omega]⟩
      · rintro ⟨j, hj, hj2, rfl⟩
        rcases j with _ | j
        · exact Or.inl rfl
        · exact Or.inr ⟨j, by omega, by omega, by
            rw [show tid + (j + 1) = tid + 1 + j by omega,
              show swap_id + (j + 1) = swap_id + 1 + j by omega]⟩
    · rw [if_neg ht]
      simp only [List.not_mem_nil, false_iff]
      rintro ⟨j, _, hj2, _⟩
      omega

theorem hydration_slots_spec (num_threads sid_in_batch_limit : Nat) :
    ∀ (fuel swap_id pos : Nat) (x : Nat × Nat × Nat),
      x ∈ hydration_slots num_threads sid_in_batch_limit fuel swap_id pos ↔
        ∃ r j, r < fuel ∧ swap_id + r * num_threads < sid_in_batch_limit ∧ j < num_threads ∧
          x = (j, pos + r, swap_id + r * num_threads + j) := by
  intro fuel
  induction fuel with
  | zero => intro swap_id pos x; simp [hydration_slots]
  | succ fuel ih =>
    intro swap_id pos x
    unfold hydration_slots
    by_cases hs : swap_id < sid_in_batch_limit
    · rw [if_pos hs, List.mem_append, hydration_row_spec, ih]
      constructor
      · rintro (⟨j, hj, _, rfl⟩ | ⟨r, j, hr, hr2, hj, rfl⟩)
        · exact ⟨0, j, by omega, by simpa using hs, hj, by simp⟩
        · refine ⟨r + 1, j, by omega, ?_, hj, ?_⟩
          · rw [Nat.add_mul]; omega
          · rw [Nat.add_mul, show pos + (r + 1) = pos + 1 + r by omega]
            simp only [Nat.one_mul, Prod.mk.injEq, true_and]
            omega
      · rintro ⟨r, j, hr, hr2, hj, rfl⟩
        rcases r with _ | r
        · exact Or.inl ⟨j, hj, by omega, by simp⟩
        · refine Or.inr ⟨r, j, by omega, ?_, hj, ?_⟩
          · rw [Nat.add_mul] at hr2; omega
          · rw [Nat.add_mul, show pos + (r + 1) = pos + 1 + r by omega]
            simp only [Nat.one_mul, Prod.mk.injEq, true_and]
            omega
    · rw [if_neg hs]
      simp only [List.not_mem_nil, false_iff]
      rintro ⟨r, j, _, hr2, _, _⟩
      have : 0 ≤ r * num_threads := Nat.zero_le _
      omega

theorem worker_slots_spec (num_threads batch_size_per_thread loop_limit num_swaps tid : Nat) :
    ∀ (fuel i sid : Nat) (x : Nat × Nat × Nat),
      x ∈ worker_slots num_threads batch_size_per_thread loop_limit num_swaps tid fuel i sid ↔
        ∃ r, r < fuel ∧ i + r < batch_size_per_thread ∧ sid + r * num_threads < loop_limit ∧
          sid + r * num_threads < num_swaps ∧ x = (tid, i + r, sid + r * num_threads) := by
  intro fuel
  induction fuel with
  | zero => intro i sid x; simp [worker_slots]
  | succ fuel ih =>
    intro i sid x
    unfold worker_slots
    have key : ∀ r, sid + num_threads + r * num_threads = sid + (r + 1) * num_threads := by
      intro r; rw [Nat.add_mul]; omega
    by_cases hc : i < batch_size_per_thread ∧ sid < loop_limit
    · rw [if_pos hc]
      have step : (∃ r, r < fuel ∧ i + 1 + r < batch_size_per_thread ∧
            sid + num_threads + r * num_threads < loop_limit ∧
            sid + num_threads + r * num_threads < num_swaps ∧
            x = (tid, i + 1 + r, sid + num_threads + r * num_threads)) ↔
          ∃ r, 0 < r ∧ r < fuel + 1 ∧ i + r < batch_size_per_thread ∧
            sid + r * num_threads < loop_limit ∧ sid + r * num_threads < num_swaps ∧
            x = (tid, i + r, sid + r * num_threads) := by
        constructor
        · rintro ⟨r, h1, h2, h3, h4, h5⟩
          rw [key] at h3 h4 h5
          exact ⟨r + 1, by omega, by omega, by omega, h3, h4, by
            rw [h5, show i + 1 + r = i + (r + 1) by omega]⟩
        · rintro ⟨r, h0, h1, h2, h3, h4, h5⟩
          obtain ⟨r, rfl⟩ : ∃ q, r = q + 1 := ⟨r - 1, by omega⟩
          refine ⟨r, by omega, by omega, ?_, ?_, ?_⟩
          · rw [key]; exact h3
          · rw [key]; exact h4
          · rw [key, h5, show i + 1 + r = i + (r + 1) by omega]
      by_cases hn : sid ≥ num_swaps
      · rw [if_pos hn, ih, step]
        constructor
        · rintro ⟨r, _, h⟩
          exact ⟨r, h⟩
        · rintro ⟨r, h1, h2, h3, h4, h5⟩
          refine ⟨r, ?_, h1, h2, h3, h4, h5⟩
          rcases r with _ | r
          · simp at h4; omega
          · omega
      · rw [if_neg hn, List.mem_cons, ih, step]
        constructor
        · rintro (rfl | ⟨r, _, h⟩)
          · exact ⟨0, by omega, by omega, by simpa using hc.2, by simpa using hn, by simp⟩
          · exact ⟨r, h⟩
        · rintro ⟨r, h1, h2, h3, h4, h5⟩
          rcases r with _ | r
          · left; simpa using h5
          · exact Or.inr ⟨r + 1, by omega, h1, h2, h3, h4, h5⟩
    · rw [if_neg hc]
      simp only [List.not_mem_nil, false_iff]
      rintro ⟨r, _, h2, h3, _, _⟩
      have : 0 ≤ r * num_threads := Nat.zero_le _
      omega

theorem batch_offset {T base s : Nat} (hbase : T ∣ base) (hlo : base ≤ s) :
    s % T = (s - base) % T ∧ s = base + (s - base) / T * T + s % T := by
  obtain ⟨k, rfl⟩ := hbase
  have h1 : s % T = (s - T * k) % T := by
    conv_lhs => rw [show s = (s - T * k) + T * k by omega]
    rw [Nat.add_mul_mod_self_left]
  refine ⟨h1, ?_⟩
  rw [h1]
  have := Nat.div_add_mod (s - T * k) T
  rw [Nat.mul_comm ((s - T * k) / T) T]
  omega

/-- C35, batch slot addressing: in a batch with base `sid_in_batch_base`, a
multiple of the number `T` of threads, and limit
`min(_num_swaps_in_run, base + batch_size_per_thread * T)`, every swap id `s` with
`base <= s < limit` is handled by the worker loop of the thread `s mod T` at the
iteration `i = (s - base) / T`, and `i < batch_size_per_thread`; the hydration
loop fills the slot `(tid, pos)` for the swap `base + pos * T + tid` and fills
the slot `(s mod T, (s - base) / T)` for `s`; the in-batch successor forwarding
addresses the same slot; and the map `s -> (s mod T, (s - base) / T)` is
injective on the swap ids from the base on. -/
theorem batch_slot_addressing (T batch_size_per_thread num_swaps base s : Nat) (hT : 0 < T)
    (hbase : T ∣ base) (hlo : base ≤ s)
    (hhi : s < min num_swaps (base + batch_size_per_thread * T)) :
    (s - base) / T < batch_size_per_thread ∧
      (s % T, (s - base) / T, s) ∈
        worker_slots T batch_size_per_thread (loop_limit num_swaps T) num_swaps (s % T)
          batch_size_per_thread 0 (base + s % T) ∧
      (∀ tid, ∀ x ∈ worker_slots T batch_size_per_thread (loop_limit num_swaps T) num_swaps tid
          batch_size_per_thread 0 (base + tid),
        x.1 = tid ∧ x.2.1 < batch_size_per_thread ∧ x.2.2 = base + x.2.1 * T + tid) ∧
      (s % T, (s - base) / T, s) ∈
        hydration_slots T (min num_swaps (base + batch_size_per_thread * T))
          batch_size_per_thread base 0 ∧
      (∀ x ∈ hydration_slots T (min num_swaps (base + batch_size_per_thread * T))
          batch_size_per_thread base 0,
        x.1 < T ∧ x.2.1 < batch_size_per_thread ∧ x.2.2 = base + x.2.1 * T + x.1) ∧
      (∀ spos, spos < 2 → s < 2 ^ 63 →
        successor_slot T base (pack_swap_id_spos s spos) = (s % T, (s - base) / T)) ∧
      ∀ s2, base ≤ s2 → (s % T, (s - base) / T) = (s2 % T, (s2 - base) / T) → s = s2 := by
  obtain ⟨hmod, hs⟩ := batch_offset hbase hlo
  have hlt : s % T < T := Nat.mod_lt _ hT
  have hi : (s - base) / T < batch_size_per_thread := by
    rw [Nat.div_lt_iff_lt_mul hT]
    omega
  have hrow : base + (s - base) / T * T ≤ s := by omega
  refine ⟨hi, ?_, ?_, ?_, ?_, ?_, ?_⟩
  · rw [worker_slots_spec]
    refine ⟨(s - base) / T, hi, by omega, ?_, by omega, ?_⟩
    · have := le_loop_limit num_swaps T
      omega
    · simp only [Nat.zero_add, Prod.mk.injEq, true_and]
      omega
  · intro tid x hx
    rw [worker_slots_spec] at hx
    obtain ⟨r, _, h2, _, _, rfl⟩ := hx
    simp only [Nat.zero_add]
    exact ⟨trivial, by omega, by omega⟩
  · rw [hydration_slots_spec]
    refine ⟨(s - base) / T, s % T, hi, by omega, hlt, ?_⟩
    simp only [Nat.zero_add, Prod.mk.injEq, true_and]
    omega
  · intro x hx
    rw [hydration_slots_spec] at hx
    obtain ⟨r, j, hr, _, hj, rfl⟩ := hx
    simp only [Nat.zero_add]
    exact ⟨hj, hr, trivial⟩
  · intro spos hspos hs63
    unfold successor_slot _thread
    rw [pack_eq hs63 hspos, get_swap_id_pack hspos]
  · intro s2 hlo2 heq
    obtain ⟨_, hs2⟩ := batch_offset hbase hlo2
    simp only [Prod.mk.injEq] at heq
    rw [hs, hs2, heq.1, heq.2]

/-- Witness for C35: the swap 11 in the batch `[8, 14)` of 4 threads with 2 slots
per thread (14 swaps in the run). -/
theorem batch_slot_addressing_witness :
    (11 - 8) / 4 < 2 ∧
      (11 % 4, (11 - 8) / 4, 11) ∈ worker_slots 4 2 (loop_limit 14 4) 14 (11 % 4) 2 0 (8 + 11 % 4) ∧
      (11 % 4, (11 - 8) / 4, 11) ∈ hydration_slots 4 (min 14 (8 + 2 * 4)) 2 8 0 ∧
      successor_slot 4 8 (pack_swap_id_spos 11 1) = (11 % 4, (11 - 8) / 4) :=
  ⟨(batch_slot_addressing 4 2 14 8 11 (by decide) (by decide) (by decide) (by decide)).1,
    (batch_slot_addressing 4 2 14 8 11 (by decide) (by decide) (by decide) (by decide)).2.1,
    (batch_slot_addressing 4 2 14 8 11 (by decide) (by decide) (by decide) (by decide)).2.2.2.1,
    (batch_slot_addressing 4 2 14 8 11 (by decide) (by decide) (by decide)
      (by decide)).2.2.2.2.2.1 1 (by decide) (by norm_num)⟩

/-- The slots of the batch `[8, 14)` of 4 threads: the hydration fills two rows,
the worker of thread 3 reads one slot, as the swap 15 is not in the run. -/
theorem batch_slot_example :
    hydration_slots 4 (min 14 (8 + 2 * 4)) 2 8 0 =
        [(0, 0, 8), (1, 0, 9), (2, 0, 10), (3, 0, 11), (0, 1, 12), (1, 1, 13), (2, 1, 14),
          (3, 1, 15)] ∧
      worker_slots 4 2 (loop_limit 14 4) 14 3 2 0 (8 + 3) = [(3, 0, 11)] ∧
      worker_slots 4 2 (loop_limit 14 4) 14 1 2 0 (8 + 1) = [(1, 0, 9), (1, 1, 13)] := by
  decide

/-! ## The assertion on the successor of a swap side -/

theorem request_eid_even (swaps : List SwapDescriptor) (i : Nat) (hi : i < swaps.length) :
    request_eid swaps (2 * i) = (swaps[i]).eid_a := by
  unfold request_eid
  rw [show 2 * i / 2 = i by omega, List.getElem?_eq_getElem hi]
  simp

theorem request_eid_odd (swaps : List SwapDescriptor) (i : Nat) (hi : i < swaps.length) :
    request_eid swaps (2 * i + 1) = (swaps[i]).eid_b := by
  unfold request_eid
  rw [show (2 * i + 1) / 2 = i by omega, List.getElem?_eq_getElem hi]
  simp only
  rw [if_neg (by omega)]

theorem mem_dependencies (t : Nat) (edges : List edge_t) (swaps : List SwapDescriptor)
    (hn : swaps.length < 2 ^ 63)
    (hrange : ∀ s ∈ swaps, s.eid_a < edges.length ∧ s.eid_b < edges.length) (p q : Nat) :
    (⟨p, q⟩ : DependencyChainSuccessorMsg) ∈
        (_load_and_update_edges (swaps.foldl push (Engine.init t edges))).dependencies ↔
      p < 2 * swaps.length ∧ q < 2 * swaps.length ∧
        request_eid swaps p = request_eid swaps q ∧ p < q ∧
        ∀ r, r < 2 * swaps.length → request_eid swaps r = request_eid swaps p →
          r ≤ p ∨ q ≤ r := by
  obtain ⟨F, -⟩ := load_edges_facts t edges swaps hn hrange
  rw [← F.mem_links p q, ← load_pushed_eq]
  show _ ∈ sorter_sort DependencyChainSuccessorMsg.le _ ↔ _
  rw [mem_sorter_sort]
  exact Iff.rfl

/-- C34, validity of the successor assertion: on the requests of the swaps
`swaps` (fewer than `2^63`, edge ids in range) the assertion of the conflict
computer, `get_swap_id(msg.successor) > sid` for the message `msg` of the swap
side `(sid, spos)`, holds for every `DepChainSucc` message of the builder iff no
swap names the same edge id on both of its sides; for a swap `i` with
`eid_a = eid_b` the builder emits the link from side 0 to side 1 of the swap `i`,
into the sorter of the thread of `i`, and the swap id of its successor is `i`. -/
theorem successor_assertion_validity (t : Nat) (edges : List edge_t)
    (swaps : List SwapDescriptor) (hn : swaps.length < 2 ^ 63)
    (hrange : ∀ s ∈ swaps, s.eid_a < edges.length ∧ s.eid_b < edges.length) :
    ((∀ m ∈ (_load_and_update_edges (swaps.foldl push (Engine.init t edges))).dependencies,
        get_swap_id m.successor > get_swap_id m.sid) ↔ ∀ s ∈ swaps, s.eid_a ≠ s.eid_b) ∧
      ∀ (i : Nat) (hi : i < swaps.length), (swaps.get ⟨i, hi⟩).eid_a = (swaps.get ⟨i, hi⟩).eid_b →
        (⟨pack_swap_id_spos i 0, pack_swap_id_spos i 1⟩ : DependencyChainSuccessorMsg) ∈
            (_load_and_update_edges (swaps.foldl push (Engine.init t edges))).dependencies ∧
          (_thread t i, (⟨pack_swap_id_spos i 0, pack_swap_id_spos i 1⟩ :
              DependencyChainSuccessorMsg)) ∈
            (_load_and_update_edges
              (swaps.foldl push (Engine.init t edges))).pushed.dependency_output ∧
          get_swap_id (pack_swap_id_spos i 1) = i ∧ get_swap_id (pack_swap_id_spos i 0) = i := by
  have hself : ∀ (i : Nat) (hi : i < swaps.length),
      (swaps.get ⟨i, hi⟩).eid_a = (swaps.get ⟨i, hi⟩).eid_b →
      (⟨2 * i + 0, 2 * i + 1⟩ : DependencyChainSuccessorMsg) ∈
        (_load_and_update_edges (swaps.foldl push (Engine.init t edges))).dependencies := by
    intro i hi he
    rw [mem_dependencies t edges swaps hn hrange]
    refine ⟨by omega, by omega, ?_, by omega, fun r _ _ => by omega⟩
    rw [Nat.add_zero, request_eid_even swaps i hi, request_eid_odd swaps i hi]
    exact he
  constructor
  · constructor
    · intro h s hs heq
      obtain ⟨i, hi, rfl⟩ := List.getElem_of_mem hs
      have := h _ (hself i hi heq)
      simp only [get_swap_id_eq] at this
      omega
    · rintro h ⟨p, q⟩ hm
      obtain ⟨hp, hq, he, hlt, -⟩ := (mem_dependencies t edges swaps hn hrange p q).mp hm
      simp only [get_swap_id_eq]
      by_contra hcon
      have h1 : p = 2 * (p / 2) ∧ q = 2 * (p / 2) + 1 := by omega
      have hi : p / 2 < swaps.length := by omega
      rw [h1.1, h1.2, request_eid_even swaps _ hi, request_eid_odd swaps _ hi] at he
      exact h _ (List.getElem_mem _) he
  · intro i hi he
    have h0 : pack_swap_id_spos i 0 = 2 * i + 0 := pack_eq (by omega) (by omega)
    have h1 : pack_swap_id_spos i 1 = 2 * i + 1 := pack_eq (by omega) (by omega)
    have hm := hself i hi he
    rw [h0, h1]
    refine ⟨hm, ?_, get_swap_id_pack (by omega), get_swap_id_pack (by omega)⟩
    have hm2 : (⟨2 * i + 0, 2 * i + 1⟩ : DependencyChainSuccessorMsg) ∈
        (_load_and_update_edges (swaps.foldl push
          (Engine.init t edges))).pushed.dependency_output.map Prod.snd := by
      have := hm
      change _ ∈ sorter_sort DependencyChainSuccessorMsg.le _ at this
      rwa [mem_sorter_sort] at this
    obtain ⟨x, hx, hx2⟩ := List.mem_map.mp hm2
    have hx1 : x.1 = _thread t (get_swap_id x.2.sid) := by
      have := hx
      rw [load_pushed_eq] at this
      exact load_edges_thread t edges 0 _ x this
    have : x = (_thread t i, ⟨2 * i + 0, 2 * i + 1⟩) := by
      apply Prod.ext
      · rw [hx1, hx2]
        show _thread t (get_swap_id (2 * i + 0)) = _
        rw [get_swap_id_pack (by omega)]
      · exact hx2
    rw [← this]
    exact hx

/-- Witness for C34: the second swap of `twice_S` names the edge id 1 twice and
gets the link from its side 0 to its side 1. -/
theorem successor_assertion_validity_witness :
    twice_S.length < 2 ^ 63 ∧
      (∀ s ∈ twice_S, s.eid_a < twice_E.length ∧ s.eid_b < twice_E.length) ∧
      (⟨pack_swap_id_spos 1 0, pack_swap_id_spos 1 1⟩ : DependencyChainSuccessorMsg) ∈
        (_load_and_update_edges (twice_S.foldl push (Engine.init 1 twice_E))).dependencies ∧
      ¬ ∀ m ∈ (_load_and_update_edges (twice_S.foldl push (Engine.init 1 twice_E))).dependencies,
        get_swap_id m.successor > get_swap_id m.sid :=
  ⟨by decide, by decide,
    ((successor_assertion_validity 1 twice_E twice_S (by decide) (by decide)).2 1 (by decide)
      (by decide)).1,
    fun h => absurd ((successor_assertion_validity 1 twice_E twice_S (by decide)
      (by decide)).1.mp h) (by decide)⟩

/-- The links the builder emits for `twice_S`: one, from the key 2 to the key 3,
both of the swap 1. -/
theorem successor_assertion_example :
    (_load_and_update_edges (twice_S.foldl push (Engine.init 1 twice_E))).dependencies =
      [⟨2, 3⟩] := by
  decide

/-! ## The configurations forwarded to a successor -/

theorem forward_sources_sorted :
    ∀ (R L : List edge_t), R.Pairwise (fun a b => a < b) → (∀ e ∈ R, e ≠ edge_t.invalid) →
      L.Sorted edge_le →
      ((forward_sources R L).1.map Prod.fst).Pairwise (fun a b => a < b) ∧
        (∀ e ∈ R, e ∈ (forward_sources R L).1.map Prod.fst) ∧
        (∀ x ∈ (forward_sources R L).1.map Prod.fst, ∃ e ∈ R, x ≤ e) := by
  intro R
  induction R with
  | nil =>
    intro L _ _ _
    unfold forward_sources
    exact ⟨List.Pairwise.nil, fun e he => by simp at he, fun x hx => by simp at hx⟩
  | cons e es ih =>
    intro L hR hinv hs
    obtain ⟨hR1, hR2⟩ := List.pairwise_cons.mp hR
    obtain ⟨c1, c2, c3, c4, c5, c6⟩ :=
      forward_candidates_spec e L.length L edge_t.invalid hs (Nat.le_refl _)
    obtain ⟨i1, i2, i3⟩ := ih (forward_candidates e L.length L edge_t.invalid).2.1 hR2
      (fun x hx => hinv x (List.mem_cons_of_mem _ hx)) c4
    have hmem := (forward_sources_mem es (forward_candidates e L.length L edge_t.invalid).2.1).1
    have hne : e ≠ edge_t.invalid := hinv e (List.mem_cons_self _ _)
    have hlast : (forward_candidates e L.length L edge_t.invalid).2.2 = e ↔ e ∈ L := by
      rw [c6]
      constructor
      · rintro (h | ⟨_, h⟩)
        · exact h
        · exact absurd h.symm hne
      · exact Or.inl
    have hrest : ∀ y ∈ (forward_sources es
        (forward_candidates e L.length L edge_t.invalid).2.1).1.map Prod.fst, e < y := by
      intro y hy
      obtain ⟨c, hc, rfl⟩ := List.mem_map.mp hy
      rcases hmem c hc with h | h
      · exact hR1 _ h
      · exact ((c5 _).mp h).2
    have hown : ∀ y ∈ (if e ≠ (forward_candidates e L.length L edge_t.invalid).2.2
        then [(e, true)] else []).map Prod.fst, y = e ∧ e ∉ L := by
      intro y hy
      split at hy
      · next h =>
        simp only [List.map_cons, List.map_nil, List.mem_singleton] at hy
        exact ⟨hy, fun hl => h (hlast.mpr hl).symm⟩
      · simp at hy
    unfold forward_sources
    dsimp only
    rw [List.map_append, List.map_append]
    refine ⟨?_, ?_, ?_⟩
    · rw [List.pairwise_append, List.pairwise_append]
      refine ⟨⟨c2, ?_, ?_⟩, i1, ?_⟩
      · split
        · simp
        · simp
      · intro x hx y hy
        obtain ⟨c, hc, rfl⟩ := List.mem_map.mp hx
        obtain ⟨rfl, hy2⟩ := hown y hy
        refine (edge_lt_iff_le_ne _ _).mpr ⟨(c1 c hc).2.2, fun heq => hy2 ?_⟩
        rw [← heq]
        exact (c1 c hc).2.1
      · intro x hx y hy
        have hxe : x ≤ e := by
          rcases List.mem_append.mp hx with hx | hx
          · obtain ⟨c, hc, rfl⟩ := List.mem_map.mp hx
            exact (c1 c hc).2.2
          · rw [(hown x hx).1]
            exact edge_le_refl e
        exact edge_lt_of_le_of_lt hxe (hrest y hy)
    · intro x hx
      rcases List.mem_cons.mp hx with rfl | hx
      · by_cases hl : x ∈ L
        · exact List.mem_append_left _ (List.mem_append_left _
            (List.mem_map.mpr ⟨(x, false), c3 x hl (edge_le_refl x), rfl⟩))
        · refine List.mem_append_left _ (List.mem_append_right _ ?_)
          rw [if_pos (fun h => hl (hlast.mp h.symm))]
          simp
      · exact List.mem_append_right _ (i2 x hx)
    · intro x hx
      rcases List.mem_append.mp hx with hx | hx
      · refine ⟨e, List.mem_cons_self _ _, ?_⟩
        rcases List.mem_append.mp hx with hx | hx
        · obtain ⟨c, hc, rfl⟩ := List.mem_map.mp hx
          exact (c1 c hc).2.2
        · rw [(hown x hx).1]
          exact edge_le_refl e
      · obtain ⟨e2, he2, hle⟩ := i3 x hx
        exact ⟨e2, List.mem_cons_of_mem _ he2, hle⟩

theorem forward_calls_sorted (R L : List edge_t) (hR : R.Pairwise (fun a b => a < b))
    (hinv : ∀ e ∈ R, e ≠ edge_t.invalid) (hs : L.Sorted edge_le) :
    ((forward_calls R L).map Prod.fst).Pairwise (fun a b => a < b) ∧
      ∀ x, x ∈ (forward_calls R L).map Prod.fst ↔ x ∈ R ∨ x ∈ L := by
  obtain ⟨s1, s2, s3⟩ := forward_sources_sorted R L hR hinv hs
  obtain ⟨-, -, -, b4, b5⟩ := forward_sources_spec R L hR hinv hs
  obtain ⟨a1, a2, -⟩ := forward_rest_spec (forward_sources R L).2.length
    (forward_sources R L).2 b4 (Nat.le_refl _)
  obtain ⟨-, -, f3⟩ := forward_calls_spec R L hR hinv hs
  constructor
  · unfold forward_calls
    dsimp only
    rw [List.map_append, List.pairwise_append]
    refine ⟨s1, a2, ?_⟩
    intro x hx y hy
    obtain ⟨c, hc, rfl⟩ := List.mem_map.mp hy
    obtain ⟨e, he, hxe⟩ := s3 x hx
    exact edge_lt_of_le_of_lt hxe (((b5 c.1).mp (a1 c hc).2).2 e he)
  · intro x
    constructor
    · intro hx
      obtain ⟨c, hc, rfl⟩ := List.mem_map.mp hx
      exact forward_calls_mem R L c hc
    · rintro (hx | hx)
      · unfold forward_calls
        dsimp only
        rw [List.map_append]
        exact List.mem_append_left _ (s2 x hx)
      · obtain ⟨c, hc, rfl⟩ := List.mem_map.mp ((f3 x).mpr hx)
        exact List.mem_map.mpr ⟨c, (List.mem_filter.mp hc).1, rfl⟩

theorem conflicts_side_forwarded (sid_in_batch_limit sid successor_sid : Nat)
    (sources dd_new : List edge_t) (st : ConflictState) :
    (conflicts_side sid_in_batch_limit sid successor_sid sources dd_new st).forwarded =
      if successor_sid ≠ 0 then
        st.forwarded ++ (forward_calls sources
          (if dd_new.length > 1 then sorter_sort edge_le dd_new else dd_new)).map
          (fun c => (⟨successor_sid, c.1⟩ : DependencyChainEdgeMsg))
      else st.forwarded := by
  unfold conflicts_side
  dsimp only
  split <;> split <;> rfl

theorem conflicts_side_slot (sid_in_batch_limit sid successor_sid : Nat)
    (sources dd_new : List edge_t) (st : ConflictState) (hs : successor_sid ≠ 0)
    (hb : get_swap_id successor_sid < sid_in_batch_limit)
    (hne : forward_calls sources
      (if dd_new.length > 1 then sorter_sort edge_le dd_new else dd_new) ≠ []) :
    ((conflicts_side sid_in_batch_limit sid successor_sid sources dd_new st).edge_information
        (get_swap_id successor_sid, get_swap_spos successor_sid)).is_set = true ∧
      ((conflicts_side sid_in_batch_limit sid successor_sid sources dd_new st).edge_information
        (get_swap_id successor_sid, get_swap_spos successor_sid)).forEach =
        (forward_calls sources
          (if dd_new.length > 1 then sorter_sort edge_le dd_new else dd_new)).map Prod.fst ∧
      ((conflicts_side sid_in_batch_limit sid successor_sid sources dd_new st).edge_information
        (get_swap_id successor_sid, get_swap_spos successor_sid)).num_edges =
        (forward_calls sources
          (if dd_new.length > 1 then sorter_sort edge_le dd_new else dd_new)).length := by
  unfold conflicts_side
  dsimp only
  rw [if_pos (show decide (successor_sid ≠ 0 ∧ get_swap_id successor_sid < sid_in_batch_limit)
    = true from decide_eq_true ⟨hs, hb⟩)]
  dsimp only
  unfold slot_set
  rw [if_pos rfl]
  generalize forward_calls sources
    (if dd_new.length > 1 then sorter_sort edge_le dd_new else dd_new) = calls at hne ⊢
  match calls, hne with
  | [c], _ =>
    refine ⟨rfl, ?_, ?_⟩
    · simp [edge_information_t.forEach]
    · simp [edge_information_t.num_edges]
  | c :: c2 :: cs, _ =>
    refine ⟨rfl, ?_, ?_⟩
    · simp [edge_information_t.forEach]
    · simp [edge_information_t.num_edges]

/-- C32, forwarded configuration lists stay sorted and duplicate-free: if the
source configurations of a side are strictly ascending (and none is the invalid
edge, the initial value of `last_e`), then the edges passed to `forward_edge` for
the side are strictly ascending and are, as a set, the union of the source
configurations and the candidates of the side; these are the configurations
forwarded to the successor; and for a successor in the batch the list stored in
its slot (the primary edge followed by the buffered range) is this sequence, so
it is strictly ascending, `num_edges` is the number of forwarded edges, and the
buffered range is sorted and without duplicates. -/
theorem forwarded_configurations_sorted (sid_in_batch_limit sid successor_sid : Nat)
    (sources dd_new : List edge_t) (st : ConflictState)
    (hsorted : sources.Pairwise (fun a b => a < b))
    (hvalid : ∀ e ∈ sources, e ≠ edge_t.invalid) :
    ((forward_calls sources
        (if dd_new.length > 1 then sorter_sort edge_le dd_new else dd_new)).map
        Prod.fst).Pairwise (fun a b => a < b) ∧
      (∀ x, x ∈ (forward_calls sources
          (if dd_new.length > 1 then sorter_sort edge_le dd_new else dd_new)).map Prod.fst ↔
        x ∈ sources ∨ x ∈ dd_new) ∧
      (successor_sid ≠ 0 →
        (conflicts_side sid_in_batch_limit sid successor_sid sources dd_new st).forwarded =
          st.forwarded ++ (forward_calls sources
            (if dd_new.length > 1 then sorter_sort edge_le dd_new else dd_new)).map
            (fun c => (⟨successor_sid, c.1⟩ : DependencyChainEdgeMsg))) ∧
      (successor_sid ≠ 0 → get_swap_id successor_sid < sid_in_batch_limit → sources ≠ [] →
        ((conflicts_side sid_in_batch_limit sid successor_sid sources dd_new st).edge_information
            (get_swap_id successor_sid, get_swap_spos successor_sid)).is_set = true ∧
          ((conflicts_side sid_in_batch_limit sid successor_sid sources dd_new
            st).edge_information
            (get_swap_id successor_sid, get_swap_spos successor_sid)).forEach =
            (forward_calls sources
              (if dd_new.length > 1 then sorter_sort edge_le dd_new else dd_new)).map Prod.fst ∧
          ((conflicts_side sid_in_batch_limit sid successor_sid sources dd_new
            st).edge_information
            (get_swap_id successor_sid, get_swap_spos successor_sid)).forEach.Pairwise
            (fun a b => a < b) ∧
          ((conflicts_side sid_in_batch_limit sid successor_sid sources dd_new
            st).edge_information
            (get_swap_id successor_sid, get_swap_spos successor_sid)).num_edges =
            (forward_calls sources
              (if dd_new.length > 1 then sorter_sort edge_le dd_new else dd_new)).length ∧
          ∀ es, ((conflicts_side sid_in_batch_limit sid successor_sid sources dd_new
            st).edge_information
            (get_swap_id successor_sid, get_swap_spos successor_sid)).edges = some es →
            es.Sorted edge_le ∧ es.Nodup) := by
  obtain ⟨hs, hmem⟩ := sorted_candidates dd_new
  obtain ⟨h1, h2⟩ := forward_calls_sorted sources _ hsorted hvalid hs
  refine ⟨h1, fun x => by rw [h2, hmem], ?_, ?_⟩
  · intro hne
    rw [conflicts_side_forwarded, if_pos hne]
  · intro hne hb hsrc
    have hcalls : forward_calls sources
        (if dd_new.length > 1 then sorter_sort edge_le dd_new else dd_new) ≠ [] := by
      obtain ⟨e, he⟩ := List.exists_mem_of_ne_nil _ hsrc
      intro hnil
      have := (h2 e).mpr (Or.inl he)
      rw [hnil] at this
      simp at this
    obtain ⟨s1, s2, s3⟩ := conflicts_side_slot sid_in_batch_limit sid successor_sid sources
      dd_new st hne hb hcalls
    have hp : ((conflicts_side sid_in_batch_limit sid successor_sid sources dd_new
        st).edge_information
        (get_swap_id successor_sid, get_swap_spos successor_sid)).forEach.Pairwise
        (fun a b => a < b) := by rw [s2]; exact h1
    refine ⟨s1, s2, hp, s3, ?_⟩
    intro es hes
    unfold edge_information_t.forEach at hp
    rw [hes] at hp
    have hp2 := (List.pairwise_cons.mp hp).2
    exact ⟨hp2.imp (fun h => edge_le_of_lt h),
      hp2.imp (fun h => fun heq => edge_lt_irrefl _ (heq ▸ h))⟩

/-- Witness for C32: a side with the configurations `(1,2), (3,4)` and the
candidates `(3,4), (1,5), (1,5), (0,7)`, whose successor is the side 1 of the
swap 1 in the batch. -/
theorem forwarded_configurations_sorted_witness :
    ([⟨1, 2⟩, ⟨3, 4⟩] : List edge_t).Pairwise (fun a b => a < b) ∧
      (∀ e ∈ ([⟨1, 2⟩, ⟨3, 4⟩] : List edge_t), e ≠ edge_t.invalid) ∧
      ((forward_calls [⟨1, 2⟩, ⟨3, 4⟩]
        (if ([⟨3, 4⟩, ⟨1, 5⟩, ⟨1, 5⟩, ⟨0, 7⟩] : List edge_t).length > 1
          then sorter_sort edge_le [⟨3, 4⟩, ⟨1, 5⟩, ⟨1, 5⟩, ⟨0, 7⟩]
          else [⟨3, 4⟩, ⟨1, 5⟩, ⟨1, 5⟩, ⟨0, 7⟩])).map Prod.fst).Pairwise (fun a b => a < b) :=
  ⟨by decide, by decide,
    (forwarded_configurations_sorted 2 0 3 [⟨1, 2⟩, ⟨3, 4⟩] [⟨3, 4⟩, ⟨1, 5⟩, ⟨1, 5⟩, ⟨0, 7⟩]
      ⟨⟨[], [], [], none⟩, [], [], fun _ => edge_information_t.reset, [], []⟩
      (by decide) (by decide)).1⟩

/-- The slot of the successor in the example of C32. -/
theorem forwarded_configurations_example :
    ((conflicts_side 2 0 3 [⟨1, 2⟩, ⟨3, 4⟩] [⟨3, 4⟩, ⟨1, 5⟩, ⟨1, 5⟩, ⟨0, 7⟩]
        ⟨⟨[], [], [], none⟩, [], [], fun _ => edge_information_t.reset, [], []⟩).edge_information
        (1, 1)) = ⟨true, ⟨0, 7⟩, some [⟨1, 2⟩, ⟨1, 5⟩, ⟨3, 4⟩]⟩ := by
  decide

/-! ## The size of the state set after a swap -/

/-- C38, counterexample: on `shared_E` the swap 0 of `shared_S` swaps `(1,3)` and
`(2,3)` to `(1,3)` and `(2,3)`; its side 0 has the successor side 0 of the swap 1
(key 2), and the conflict computer forwards one configuration to it, the edge
`(1,3)`: the original state and the swapped state are the same edge. -/
theorem one_state_forwarded :
    _swap_edges ⟨1, 3⟩ ⟨2, 3⟩ true = (⟨1, 3⟩, ⟨2, 3⟩) ∧
      (_load_and_update_edges (shared_S.foldl push (Engine.init 1 shared_E))).dependencies =
        [⟨0, 2⟩] ∧
      (_compute_conflicts 1 IntScale.Mi 2
        (_load_and_update_edges (shared_S.foldl push (Engine.init 1 shared_E))).edge_state
        (_load_and_update_edges (shared_S.foldl push (Engine.init 1 shared_E))).dependencies
        [true, false]).map ConflictResult.forwarded = some [⟨2, ⟨1, 3⟩⟩] := by
  decide!

/-- C38, amended: for a side of a swap that has a successor, with source
configurations strictly ascending and none the invalid edge, the configurations
forwarded to the successor are, without repetition, the source configurations
(the original states) and the candidates (the swapped states) of the side; they
are at least two iff the side has two different edges among its source
configurations and candidates, and one configuration is forwarded when every
candidate equals the only source configuration. -/
theorem states_forwarded_after_swap (sid_in_batch_limit sid successor_sid : Nat)
    (sources dd_new : List edge_t) (st : ConflictState)
    (hsorted : sources.Pairwise (fun a b => a < b))
    (hvalid : ∀ e ∈ sources, e ≠ edge_t.invalid) (hsucc : successor_sid ≠ 0) :
    ∃ new : List DependencyChainEdgeMsg,
      (conflicts_side sid_in_batch_limit sid successor_sid sources dd_new st).forwarded =
          st.forwarded ++ new ∧
        new.Nodup ∧
        (∀ m, m ∈ new ↔ m.sid = successor_sid ∧ (m.edge ∈ sources ∨ m.edge ∈ dd_new)) ∧
        (2 ≤ new.length ↔
          ∃ a b, (a ∈ sources ∨ a ∈ dd_new) ∧ (b ∈ sources ∨ b ∈ dd_new) ∧ a ≠ b) ∧
        (∀ e, sources = [e] → (∀ x ∈ dd_new, x = e) → new = [⟨successor_sid, e⟩]) := by
  obtain ⟨hs, hmem⟩ := sorted_candidates dd_new
  obtain ⟨h1, h2⟩ := forward_calls_sorted sources _ hsorted hvalid hs
  have hnodup : ((forward_calls sources
      (if dd_new.length > 1 then sorter_sort edge_le dd_new else dd_new)).map Prod.fst).Nodup :=
    h1.imp (fun h => fun heq => edge_lt_irrefl _ (heq ▸ h))
  have hmem2 : ∀ x, x ∈ (forward_calls sources
      (if dd_new.length > 1 then sorter_sort edge_le dd_new else dd_new)).map Prod.fst ↔
      x ∈ sources ∨ x ∈ dd_new := fun x => by rw [h2, hmem]
  have hconf := conflicts_side_forwarded sid_in_batch_limit sid successor_sid sources dd_new st
  rw [if_pos hsucc] at hconf
  generalize (forward_calls sources
    (if dd_new.length > 1 then sorter_sort edge_le dd_new else dd_new)) = calls
    at hnodup hmem2 hconf
  have hmap : calls.map (fun c => (⟨successor_sid, c.1⟩ : DependencyChainEdgeMsg)) =
      (calls.map Prod.fst).map (fun e => (⟨successor_sid, e⟩ : DependencyChainEdgeMsg)) := by
    rw [List.map_map]; rfl
  refine ⟨(calls.map Prod.fst).map (fun e => (⟨successor_sid, e⟩ : DependencyChainEdgeMsg)),
    ?_, ?_, ?_, ?_, ?_⟩
  · rw [← hmap]
    exact hconf
  · exact hnodup.map (fun a b h => by simpa using h)
  · intro m
    rw [List.mem_map]
    constructor
    · rintro ⟨e, he, rfl⟩
      exact ⟨rfl, (hmem2 e).mp he⟩
    · rintro ⟨hm1, hm2⟩
      refine ⟨m.edge, (hmem2 _).mpr hm2, ?_⟩
      rw [← hm1]
  · rw [List.length_map]
    constructor
    · intro hlen
      match hc : calls.map Prod.fst, hlen with
      | a :: b :: rest, _ =>
        rw [hc] at hnodup
        refine ⟨a, b, (hmem2 a).mp (by rw [hc]; simp), (hmem2 b).mp (by rw [hc]; simp), ?_⟩
        intro hab
        simp [hab] at hnodup
    · rintro ⟨a, b, ha, hb, hab⟩
      have ha2 := (hmem2 a).mpr ha
      have hb2 := (hmem2 b).mpr hb
      match hc : calls.map Prod.fst with
      | [] => rw [hc] at ha2; simp at ha2
      | [x] =>
        rw [hc] at ha2 hb2
        simp only [List.mem_singleton] at ha2 hb2
        exact absurd (ha2.trans hb2.symm) hab
      | _ :: _ :: _ => simp
  · intro e hsrc hall
    have hset : ∀ x, x ∈ calls.map Prod.fst ↔ x = e := by
      intro x
      rw [hmem2, hsrc]
      constructor
      · rintro (h | h)
        · simpa using h
        · exact hall x h
      · intro h
        left; simp [h]
    match hc : calls.map Prod.fst with
    | [] =>
      have := (hset e).mpr rfl
      rw [hc] at this
      simp at this
    | [x] =>
      have := (hset x).mp (by rw [hc]; simp)
      rw [this]
      rfl
    | a :: b :: rest =>
      rw [hc] at hnodup
      have ha := (hset a).mp (by rw [hc]; simp)
      have hb := (hset b).mp (by rw [hc]; simp)
      simp [ha, hb] at hnodup

/-- Witness for C38: the side 0 of the swap 0 of `shared_S`, with the
configuration `(1,3)` and the candidate `(1,3)`, and the successor key 2. -/
theorem states_forwarded_after_swap_witness :
    ([⟨1, 3⟩] : List edge_t).Pairwise (fun a b => a < b) ∧
      (∀ e ∈ ([⟨1, 3⟩] : List edge_t), e ≠ edge_t.invalid) ∧
      ∃ new : List DependencyChainEdgeMsg,
        (conflicts_side 2 0 2 [⟨1, 3⟩] [⟨1, 3⟩]
            ⟨⟨[], [], [], none⟩, [], [], fun _ => edge_information_t.reset, [], []⟩).forwarded =
            (⟨⟨[], [], [], none⟩, [], [], fun _ => edge_information_t.reset, [], []⟩ :
              ConflictState).forwarded ++ new ∧
          new.Nodup ∧
          (∀ m, m ∈ new ↔ m.sid = 2 ∧
            (m.edge ∈ ([⟨1, 3⟩] : List edge_t) ∨ m.edge ∈ ([⟨1, 3⟩] : List edge_t))) ∧
          (2 ≤ new.length ↔
            ∃ a b, (a ∈ ([⟨1, 3⟩] : List edge_t) ∨ a ∈ ([⟨1, 3⟩] : List edge_t)) ∧
              (b ∈ ([⟨1, 3⟩] : List edge_t) ∨ b ∈ ([⟨1, 3⟩] : List edge_t)) ∧ a ≠ b) ∧
          (∀ e, ([⟨1, 3⟩] : List edge_t) = [e] → (∀ x ∈ ([⟨1, 3⟩] : List edge_t), x = e) →
            new = [⟨2, e⟩]) :=
  ⟨by decide, by decide,
    states_forwarded_after_swap 2 0 2 [⟨1, 3⟩] [⟨1, 3⟩]
      ⟨⟨[], [], [], none⟩, [], [], fun _ => edge_information_t.reset, [], []⟩
      (by decide) (by decide) (by decide)⟩

/-! ## Messages pushed across a batch boundary -/

theorem forward_edge_state_fold (limit sid : Nat) (ne : edge_t × edge_t) :
    ∀ (deps : List DependencyChainSuccessorMsg) (st : PerformState) (found : Bool × Bool),
      (forward_edge_state limit sid ne deps st found).1 =
        { (deps.takeWhile (fun m => decide (get_swap_id m.sid = sid))).foldl
            (fun s m => deliver_edge limit m.successor (pair_get ne (get_swap_spos m.sid)) s)
            st with
          edge_dependencies := deps.dropWhile (fun m => decide (get_swap_id m.sid = sid)) } := by
  intro deps
  induction deps with
  | nil => intro st found; rfl
  | cons msg rest ih =>
    intro st found
    unfold forward_edge_state
    by_cases h : get_swap_id msg.sid = sid
    · rw [if_pos h]
      dsimp only
      rw [List.takeWhile_cons_of_pos (by simpa using h),
        List.dropWhile_cons_of_pos (by simpa using h), List.foldl_cons]
      exact ih _ _
    · rw [if_neg h, List.takeWhile_cons_of_neg (by simpa using h),
        List.dropWhile_cons_of_neg (by simpa using h)]
      rfl

theorem depchain_beyond_limit (limit successor : Nat) (e : edge_t) (hlimit : limit < 2 ^ 63)
    (hs : ¬ get_swap_id successor < limit) :
    limit ≤ get_swap_id successor ∧
      (0 ≤ e.first →
        ¬ DependencyChainEdgeMsg.le ⟨successor, e⟩ ⟨pack_swap_id_spos limit 0, ⟨-1, -1⟩⟩ ∧
          DependencyChainEdgeMsg.le ⟨pack_swap_id_spos limit 0, ⟨-1, -1⟩⟩ ⟨successor, e⟩) := by
  refine ⟨by omega, fun he => ?_⟩
  rw [get_swap_id_eq] at hs
  unfold DependencyChainEdgeMsg.le
  rw [pack_eq hlimit (by omega)]
  dsimp only
  rw [edge_le_iff, edge_le_iff]
  dsimp only
  omega

theorem existence_beyond_limit (limit target : Nat) (e : edge_t) (hs : ¬ target < limit) :
    limit ≤ target ∧
      (0 ≤ e.first →
        ¬ ExistenceInfoMsg.le ⟨target, e⟩ ⟨limit, ⟨-1, -1⟩⟩ ∧
          ExistenceInfoMsg.le ⟨limit, ⟨-1, -1⟩⟩ ⟨target, e⟩) := by
  refine ⟨by omega, fun he => ?_⟩
  unfold ExistenceInfoMsg.le
  dsimp only
  rw [edge_le_iff, edge_le_iff]
  dsimp only
  omega

theorem conflicts_side_in_batch (limit sid successor : Nat) (sources dd_new : List edge_t)
    (st : ConflictState) (hb : get_swap_id successor < limit) :
    (conflicts_side limit sid successor sources dd_new st)._edge_state = st._edge_state := by
  unfold conflicts_side
  dsimp only
  rw [if_neg (show ¬ decide (successor ≠ 0 ∧ ¬ get_swap_id successor < limit) = true by
    simp only [decide_eq_true_eq]; exact fun h => h.2 hb)]
  split <;> rfl

theorem conflicts_side_other_batch (limit sid successor : Nat) (sources dd_new : List edge_t)
    (st : ConflictState) (hs : successor ≠ 0) (hb : ¬ get_swap_id successor < limit) :
    (conflicts_side limit sid successor sources dd_new st)._edge_state =
        (forward_calls sources
          (if dd_new.length > 1 then sorter_sort edge_le dd_new else dd_new)).foldl
          (fun m c => m.push_pq DependencyChainEdgeMsg.le ⟨successor, c.1⟩) st._edge_state ∧
      (conflicts_side limit sid successor sources dd_new st).edge_information =
        st.edge_information := by
  unfold conflicts_side
  dsimp only
  rw [if_pos (show decide (successor ≠ 0 ∧ ¬ get_swap_id successor < limit) = true from
    decide_eq_true ⟨hs, hb⟩),
    if_neg (show ¬ decide (successor ≠ 0 ∧ get_swap_id successor < limit) = true by
      simp only [decide_eq_true_eq]; exact fun h => hb h.2)]
  exact ⟨rfl, rfl⟩

theorem conflicts_side_no_successor (limit sid : Nat) (sources dd_new : List edge_t)
    (st : ConflictState) :
    (conflicts_side limit sid 0 sources dd_new st)._edge_state = st._edge_state ∧
      (conflicts_side limit sid 0 sources dd_new st).edge_information = st.edge_information := by
  unfold conflicts_side
  dsimp only
  rw [if_neg (show ¬ decide ((0 : Nat) ≠ 0 ∧ ¬ get_swap_id 0 < limit) = true by simp),
    if_neg (show ¬ decide ((0 : Nat) ≠ 0 ∧ get_swap_id 0 < limit) = true by simp)]
  exact ⟨rfl, rfl⟩

/-- C31, amended: cross-batch pushes of edges with non-negative first node id
lie beyond the window, for a batch with the limit
`sid_in_batch_limit < 2^63`.  In the conflict computer a side without a successor
pushes nothing; a side whose successor has a swap id below the limit leaves the
merger as it is and writes the forwarded configurations into the slot of the
successor; otherwise the merger receives the forwarded configurations through
`push_pq` and no slot is written.  In the swap performer the loop "forward edge
state" treats every link it drains in the same way, and `push_existence_info`
writes an answer (an edge, or the invalid edge for "missing") for a swap below
the limit into the existence store and pushes any other answer through `push_pq`.
Every message pushed through `push_pq` has a destination swap id not below the
limit, and when the first node id of its edge is not negative (as for the
invalid edge) it compares strictly greater than the limit message of
`start_batch`, `(pack(limit, 0), (-1,-1))` for `_edge_state` and
`(limit, (-1,-1))` for `_existence_info`, and so lies outside the window. -/
theorem cross_batch_pushes_beyond_window (sid_in_batch_limit : Nat)
    (hlimit : sid_in_batch_limit < 2 ^ 63) :
    (∀ (sid successor_sid : Nat) (sources dd_new : List edge_t) (st : ConflictState),
      (successor_sid = 0 →
        (conflicts_side sid_in_batch_limit sid successor_sid sources dd_new st)._edge_state =
            st._edge_state ∧
          (conflicts_side sid_in_batch_limit sid successor_sid sources dd_new
            st).edge_information = st.edge_information) ∧
      (successor_sid ≠ 0 → get_swap_id successor_sid < sid_in_batch_limit →
        (conflicts_side sid_in_batch_limit sid successor_sid sources dd_new st)._edge_state =
            st._edge_state ∧
          (forward_calls sources
              (if dd_new.length > 1 then sorter_sort edge_le dd_new else dd_new) ≠ [] →
            ((conflicts_side sid_in_batch_limit sid successor_sid sources dd_new
              st).edge_information
              (get_swap_id successor_sid, get_swap_spos successor_sid)).forEach =
              (forward_calls sources
                (if dd_new.length > 1 then sorter_sort edge_le dd_new else dd_new)).map
                Prod.fst)) ∧
      (successor_sid ≠ 0 → ¬ get_swap_id successor_sid < sid_in_batch_limit →
        (conflicts_side sid_in_batch_limit sid successor_sid sources dd_new st)._edge_state =
            (forward_calls sources
              (if dd_new.length > 1 then sorter_sort edge_le dd_new else dd_new)).foldl
              (fun m c => m.push_pq DependencyChainEdgeMsg.le ⟨successor_sid, c.1⟩)
              st._edge_state ∧
          (conflicts_side sid_in_batch_limit sid successor_sid sources dd_new
            st).edge_information = st.edge_information ∧
          sid_in_batch_limit ≤ get_swap_id successor_sid ∧
          ∀ e : edge_t, 0 ≤ e.first →
            ¬ DependencyChainEdgeMsg.le ⟨successor_sid, e⟩
                ⟨pack_swap_id_spos sid_in_batch_limit 0, ⟨-1, -1⟩⟩ ∧
              (st._edge_state.start_batch
                ⟨pack_swap_id_spos sid_in_batch_limit 0, ⟨-1, -1⟩⟩).in_window
                DependencyChainEdgeMsg.le ⟨successor_sid, e⟩ = false)) ∧
    (∀ (sid : Nat) (new_edges : edge_t × edge_t) (deps : List DependencyChainSuccessorMsg)
        (st : PerformState) (found : Bool × Bool),
      (forward_edge_state sid_in_batch_limit sid new_edges deps st found).1 =
        { (deps.takeWhile (fun m => decide (get_swap_id m.sid = sid))).foldl
            (fun s m => deliver_edge sid_in_batch_limit m.successor
              (pair_get new_edges (get_swap_spos m.sid)) s) st with
          edge_dependencies := deps.dropWhile (fun m => decide (get_swap_id m.sid = sid)) }) ∧
    (∀ (successor : Nat) (e : edge_t) (st : PerformState),
      (get_swap_id successor < sid_in_batch_limit →
        (deliver_edge sid_in_batch_limit successor e st)._edge_state = st._edge_state ∧
          (deliver_edge sid_in_batch_limit successor e st).source_edges
            (get_swap_id successor, get_swap_spos successor) = e) ∧
      (¬ get_swap_id successor < sid_in_batch_limit →
        (deliver_edge sid_in_batch_limit successor e st)._edge_state =
            st._edge_state.push_pq DependencyChainEdgeMsg.le ⟨successor, e⟩ ∧
          (deliver_edge sid_in_batch_limit successor e st).source_edges = st.source_edges ∧
          sid_in_batch_limit ≤ get_swap_id successor ∧
          (0 ≤ e.first →
            ¬ DependencyChainEdgeMsg.le ⟨successor, e⟩
                ⟨pack_swap_id_spos sid_in_batch_limit 0, ⟨-1, -1⟩⟩ ∧
              (st._edge_state.start_batch
                ⟨pack_swap_id_spos sid_in_batch_limit 0, ⟨-1, -1⟩⟩).in_window
                DependencyChainEdgeMsg.le ⟨successor, e⟩ = false))) ∧
    ∀ (target_sid : Nat) (e : edge_t) (ex : Bool) (st : PerformState),
      (target_sid < sid_in_batch_limit →
        (push_existence_info sid_in_batch_limit target_sid e ex st)._existence_info =
            st._existence_info ∧
          (push_existence_info sid_in_batch_limit target_sid e ex st).existence_information =
            if ex then st.existence_information.push_exists target_sid e
            else st.existence_information.push_missing target_sid) ∧
      (¬ target_sid < sid_in_batch_limit →
        (push_existence_info sid_in_batch_limit target_sid e ex st)._existence_info =
            st._existence_info.push_pq ExistenceInfoMsg.le
              ⟨target_sid, if ex then e else edge_t.invalid⟩ ∧
          (push_existence_info sid_in_batch_limit target_sid e ex st).existence_information =
            st.existence_information ∧
          sid_in_batch_limit ≤ target_sid ∧
          ((ex = true → 0 ≤ e.first) →
            ¬ ExistenceInfoMsg.le ⟨target_sid, if ex then e else edge_t.invalid⟩
                ⟨sid_in_batch_limit, ⟨-1, -1⟩⟩ ∧
              (st._existence_info.start_batch ⟨sid_in_batch_limit, ⟨-1, -1⟩⟩).in_window
                ExistenceInfoMsg.le ⟨target_sid, if ex then e else edge_t.invalid⟩ = false)) := by
  refine ⟨?_, ?_, ?_, ?_⟩
  · intro sid successor_sid sources dd_new st
    refine ⟨?_, ?_, ?_⟩
    · rintro rfl
      exact conflicts_side_no_successor _ _ _ _ _
    · intro hs hb
      refine ⟨conflicts_side_in_batch _ _ _ _ _ _ hb, fun hne => ?_⟩
      exact (conflicts_side_slot sid_in_batch_limit sid successor_sid sources dd_new st hs hb
        hne).2.1
    · intro hs hb
      obtain ⟨h1, h2⟩ := conflicts_side_other_batch sid_in_batch_limit sid successor_sid sources
        dd_new st hs hb
      refine ⟨h1, h2, by omega, fun e he => ?_⟩
      obtain ⟨-, h3⟩ := depchain_beyond_limit sid_in_batch_limit successor_sid e hlimit hb
      refine ⟨(h3 he).1, ?_⟩
      unfold PQSorterMerger.in_window PQSorterMerger.start_batch
      simp only [decide_eq_false_iff_not, not_not]
      exact (h3 he).2
  · intro sid new_edges deps st found
    exact forward_edge_state_fold _ _ _ _ _ _
  · intro successor e st
    constructor
    · intro hb
      unfold deliver_edge
      dsimp only
      rw [if_pos hb]
      refine ⟨rfl, ?_⟩
      show slot_set _ _ _ _ = e
      unfold slot_set
      rw [if_pos rfl]
    · intro hb
      obtain ⟨h0, h3⟩ := depchain_beyond_limit sid_in_batch_limit successor e hlimit hb
      unfold deliver_edge
      dsimp only
      rw [if_neg hb]
      refine ⟨rfl, rfl, h0, fun he => ⟨(h3 he).1, ?_⟩⟩
      unfold PQSorterMerger.in_window PQSorterMerger.start_batch
      simp only [decide_eq_false_iff_not, not_not]
      exact (h3 he).2
  · intro target_sid e ex st
    constructor
    · intro hb
      unfold push_existence_info
      dsimp only
      rw [if_pos hb]
      refine ⟨rfl, ?_⟩
      cases ex <;> rfl
    · intro hb
      have he1 : (if !ex then edge_t.invalid else e) = if ex then e else edge_t.invalid := by
        cases ex <;> rfl
      unfold push_existence_info
      dsimp only
      rw [if_neg hb, he1]
      refine ⟨rfl, rfl, by omega, fun he => ?_⟩
      have hfirst : 0 ≤ (if ex then e else edge_t.invalid).first := by
        cases ex
        · show (0 : Int) ≤ edge_t.invalid.first
          decide
        · exact he rfl
      obtain ⟨-, h3⟩ := existence_beyond_limit sid_in_batch_limit target_sid
        (if ex then e else edge_t.invalid) hb
      refine ⟨(h3 hfirst).1, ?_⟩
      unfold PQSorterMerger.in_window PQSorterMerger.start_batch
      simp only [decide_eq_false_iff_not, not_not]
      exact (h3 hfirst).2

/-- Witness for C31, amended: a batch with the limit 1; the answer "missing" for the
swap 1 is pushed through `push_pq` and lies beyond the limit message. -/
theorem cross_batch_pushes_beyond_window_witness :
    (1 : Nat) < 2 ^ 63 ∧
      (push_existence_info 1 1 ⟨2, 3⟩ false loop_state)._existence_info =
        loop_state._existence_info.push_pq ExistenceInfoMsg.le ⟨1, edge_t.invalid⟩ ∧
      ¬ ExistenceInfoMsg.le ⟨1, edge_t.invalid⟩ ⟨1, ⟨-1, -1⟩⟩ :=
  ⟨by norm_num,
    (((cross_batch_pushes_beyond_window 1 (by norm_num)).2.2.2 1 ⟨2, 3⟩ false loop_state).2
      (by decide)).1,
    ((((cross_batch_pushes_beyond_window 1 (by norm_num)).2.2.2 1 ⟨2, 3⟩ false loop_state).2
      (by decide)).2.2.2 (by decide)).1⟩

/-- In the batch with the limit 1 the swap 0 forwards an edge to the key 2 of the
swap 1 through `push_pq`, and to the key 1 of the swap 0 into the slot. -/
theorem cross_batch_example :
    (deliver_edge 1 2 ⟨3, 4⟩ loop_state)._edge_state.pq = [⟨2, ⟨3, 4⟩⟩] ∧
      (deliver_edge 1 1 ⟨3, 4⟩ loop_state)._edge_state.pq = [] ∧
      (deliver_edge 1 1 ⟨3, 4⟩ loop_state).source_edges (0, 1) = ⟨3, 4⟩ := by
  decide

/-! ## The community assignment of LFR -/

theorem find_illegal_spec (com_sizes : List Nat) (required_size : Nat) :
    ∀ (fuel l : Nat), com_sizes.length ≤ l + fuel →
      l ≤ LFR.find_illegal com_sizes required_size fuel l ∧
        (l ≤ com_sizes.length → LFR.find_illegal com_sizes required_size fuel l ≤ com_sizes.length) ∧
        (∀ c, l ≤ c → c < LFR.find_illegal com_sizes required_size fuel l →
          required_size ≤ com_sizes.getD c 0) ∧
        (LFR.find_illegal com_sizes required_size fuel l < com_sizes.length →
          com_sizes.getD (LFR.find_illegal com_sizes required_size fuel l) 0 < required_size) := by
  intro fuel
  induction fuel with
  | zero =>
    intro l hl
    unfold LFR.find_illegal
    exact ⟨Nat.le_refl _, fun h => h, fun c h1 h2 => by omega, fun h => by omega⟩
  | succ fuel ih =>
    intro l hl
    unfold LFR.find_illegal
    by_cases h1 : l < com_sizes.length
    · rw [if_pos h1]
      by_cases h2 : com_sizes.getD l 0 < required_size
      · rw [if_pos h2]
        exact ⟨Nat.le_refl _, fun h => h, fun c h3 h4 => by omega, fun _ => h2⟩
      · rw [if_neg h2]
        obtain ⟨a1, a2, a3, a4⟩ := ih (l + 1) (by omega)
        refine ⟨by omega, fun _ => a2 (by omega), ?_, a4⟩
        intro c hc1 hc2
        by_cases hcl : c = l
        · subst hcl; omega
        · exact a3 c (by omega) hc2
    · rw [if_neg h1]
      exact ⟨Nat.le_refl _, fun h => h, fun c h3 h4 => by omega, fun h => by omega⟩

theorem compact_loop_spec (first : Nat) :
    ∀ (k reader writer : Nat) (slots : List (Nat × Nat)) (slots_empty fuel : Nat),
      reader + 1 = first + (k + 1) → reader ≤ writer → writer < slots.length → k + 1 ≤ fuel →
      LFR.compact_loop first fuel reader writer slots slots_empty =
        some (slots.take (writer + 1 -
              (((slots.take (reader + 1)).drop first).filter
                (fun x => decide (x.2 ≠ 0))).length) ++
            ((slots.take (reader + 1)).drop first).filter (fun x => decide (x.2 ≠ 0)) ++
            slots.drop (writer + 1),
          slots_empty - (((slots.take (reader + 1)).drop first).filter
            (fun x => decide (x.2 = 0))).length) := by
  intro k
  induction k with
  | zero =>
    intro reader writer slots slots_empty fuel hk hrw hw hfuel
    obtain ⟨fuel, rfl⟩ : ∃ f, fuel = f + 1 := ⟨fuel - 1, by omega⟩
    have hr : reader = first := by omega
    subst hr
    have hseg : (slots.take (reader + 1)).drop reader = [slots.getD reader (0, 0)] := by
      rw [List.drop_take, show reader + 1 - reader = 1 by omega, List.getD_eq_getElem _ _
        (by omega : reader < slots.length)]
      rw [List.take_one, List.head?_drop, List.getElem?_eq_getElem (by omega)]
      rfl
    unfold LFR.compact_loop
    rw [hseg]
    dsimp only
    rw [if_pos rfl]
    by_cases hne : (slots.getD reader (0, 0)).2 ≠ 0
    · rw [if_pos hne, if_pos hne]
      simp only [List.filter_cons, List.filter_nil, decide_eq_true hne, if_true,
        List.length_singleton, decide_eq_false (show ¬ (slots.getD reader (0, 0)).2 = 0 from hne),
        Bool.false_eq_true, if_false, List.length_nil, Nat.sub_zero]
      rw [List.set_eq_take_cons_drop _ hw, show writer + 1 - 1 = writer by omega]
      simp
    · rw [if_neg hne, if_neg hne]
      have h0 : (slots.getD reader (0, 0)).2 = 0 := by omega
      simp only [List.filter_cons, List.filter_nil, decide_eq_true h0, if_true,
        List.length_singleton, decide_eq_false hne, Bool.false_eq_true, if_false,
        List.length_nil, Nat.sub_zero, List.append_nil, List.take_append_drop]
  | succ k ih =>
    intro reader writer slots slots_empty fuel hk hrw hw hfuel
    obtain ⟨fuel, rfl⟩ : ∃ f, fuel = f + 1 := ⟨fuel - 1, by omega⟩
    have hr : reader ≠ first := by omega
    obtain ⟨reader, rfl⟩ : ∃ q, reader = q + 1 := ⟨reader - 1, by omega⟩
    have hrl : reader + 1 < slots.length := by omega
    have hseg : (slots.take (reader + 1 + 1)).drop first =
        (slots.take (reader + 1)).drop first ++ [slots.getD (reader + 1) (0, 0)] := by
      rw [List.take_succ, List.getElem?_eq_getElem hrl, List.getD_eq_getElem _ _ hrl]
      rw [List.drop_append_of_le_length (by rw [List.length_take]; omega)]
      rfl
    unfold LFR.compact_loop
    rw [hseg]
    dsimp only
    rw [if_neg hr, show reader + 1 - 1 = reader by omega]
    by_cases hne : (slots.getD (reader + 1) (0, 0)).2 ≠ 0
    · rw [if_pos hne, if_pos hne, if_pos hne]
      have hw1 : writer - 1 < (slots.set writer (slots.getD (reader + 1) (0, 0))).length := by
        rw [List.length_set]; omega
      rw [ih reader (writer - 1) _ slots_empty fuel (by omega) (by omega) hw1 (by omega)]
      have htake : (slots.set writer (slots.getD (reader + 1) (0, 0))).take (reader + 1) =
          slots.take (reader + 1) := by
        rw [List.set_eq_take_cons_drop _ hw, List.take_append_of_le_length
          (by rw [List.length_take]; omega), List.take_take]
        congr 1
        omega
      rw [htake]
      simp only [List.filter_append, List.filter_cons, List.filter_nil, decide_eq_true hne,
        if_true, List.length_append, List.length_singleton,
        decide_eq_false (show ¬ (slots.getD (reader + 1) (0, 0)).2 = 0 from hne),
        Bool.false_eq_true, if_false, List.length_nil, Nat.add_zero, List.append_nil]
      have hlen : (((slots.take (reader + 1)).drop first).filter
          (fun x => decide (x.2 ≠ 0))).length ≤ reader + 1 - first := by
        refine (List.length_filter_le _ _).trans ?_
        rw [List.length_drop, List.length_take]
        omega
      generalize ((slots.take (reader + 1)).drop first).filter
        (fun x => decide (x.2 ≠ 0)) = F at hlen ⊢
      rw [show writer - 1 + 1 = writer by omega, show writer + 1 - (F.length + 1) =
        writer - F.length by omega]
      congr 1
      rw [List.set_eq_take_cons_drop _ hw]
      rw [List.take_append_of_le_length (by rw [List.length_take]; omega), List.take_take,
        show min (writer - F.length) writer = writer - F.length by omega]
      rw [List.drop_append_of_le_length (by rw [List.length_take]; omega)]
      rw [List.drop_eq_nil_of_le (by rw [List.length_take]; omega)]
      simp
    · rw [if_neg hne, if_neg hne, if_neg hne]
      have h0 : (slots.getD (reader + 1) (0, 0)).2 = 0 := by omega
      rw [ih reader writer slots (slots_empty - 1) fuel (by omega) (by omega) hw (by omega)]
      simp only [List.filter_append, List.filter_cons, List.filter_nil, decide_eq_true h0,
        if_true, List.length_append, List.length_singleton, decide_eq_false hne,
        Bool.false_eq_true, if_false, List.length_nil, Nat.add_zero, List.append_nil]
      rw [Nat.sub_sub, Nat.add_comm 1]

theorem fresh_slots_split (com_sizes : List Nat) (l l2 : Nat) (h1 : l ≤ l2)
    (h2 : l2 ≤ com_sizes.length) :
    LFR.fresh_slots com_sizes l =
      (List.range' l (l2 - l)).map (fun c => (c, com_sizes.getD c 0)) ++
        LFR.fresh_slots com_sizes l2 := by
  unfold LFR.fresh_slots
  rw [← List.map_append]
  congr 1
  have := List.range'_append l (l2 - l) (com_sizes.length - l2) 1
  rw [show l + 1 * (l2 - l) = l2 by omega,
    show com_sizes.length - l2 + (l2 - l) = com_sizes.length - l by omega] at this
  exact this.symm

theorem fresh_slots_length (com_sizes : List Nat) (l : Nat) :
    (LFR.fresh_slots com_sizes l).length = com_sizes.length - l := by
  unfold LFR.fresh_slots
  rw [List.length_map, List.length_range']

theorem getD_pos (com_sizes : List Nat) (hpos : ∀ x ∈ com_sizes, 0 < x) (c : Nat)
    (hc : c < com_sizes.length) : 0 < com_sizes.getD c 0 := by
  rw [List.getD_eq_getElem _ _ hc]
  exact hpos _ (List.getElem_mem _)

theorem slot_inv_advance (com_sizes : List Nat) (hpos : ∀ x ∈ com_sizes, 0 < x)
    (s : LFR.SlotState) (live : List (Nat × Nat)) (cnt : Nat → Nat) (req required_size : Nat)
    (h : LFR.SlotInv com_sizes s live cnt req) (hreq : required_size ≤ req) :
    LFR.SlotInv com_sizes
      { s with
        largest_illegal_com :=
          LFR.find_illegal com_sizes required_size com_sizes.length s.largest_illegal_com }
      (live ++ (List.range' s.largest_illegal_com
        (LFR.find_illegal com_sizes required_size com_sizes.length s.largest_illegal_com -
          s.largest_illegal_com)).map (fun c => (c, com_sizes.getD c 0)))
      cnt required_size := by
  obtain ⟨a1, a2, a3, a4⟩ := find_illegal_spec com_sizes required_size com_sizes.length
    s.largest_illegal_com (by omega)
  have a2 := a2 h.le_n
  generalize LFR.find_illegal com_sizes required_size com_sizes.length s.largest_illegal_com = l2
    at a1 a2 a3 a4 ⊢
  obtain ⟨pre, hpre, hlen⟩ := h.split
  have hnew : ∀ x ∈ (List.range' s.largest_illegal_com (l2 - s.largest_illegal_com)).map
      (fun c => (c, com_sizes.getD c 0)),
      s.largest_illegal_com ≤ x.1 ∧ x.1 < l2 ∧ x.2 = com_sizes.getD x.1 0 := by
    intro x hx
    obtain ⟨c, hc, rfl⟩ := List.mem_map.mp hx
    rw [List.mem_range'_1] at hc
    exact ⟨hc.1, by omega, rfl⟩
  refine ⟨⟨pre, ?_, hlen⟩, ?_, a2, ?_, ?_, ?_, ?_, ?_, ?_⟩
  · show s.slots_left = _
    rw [hpre, fresh_slots_split com_sizes _ l2 a1 a2]
    simp only [List.append_assoc]
  · show s.slots_deleted + _ = l2
    rw [List.length_append, List.length_map, List.length_range']
    have := h.bound
    omega
  · intro x hx
    show x.1 < l2 ∧ _
    rcases List.mem_append.mp hx with hx | hx
    · have := h.live_ok x hx
      exact ⟨by omega, this.2⟩
    · obtain ⟨b1, b2, b3⟩ := hnew x hx
      refine ⟨b2, ?_⟩
      rw [h.fresh x.1 b1, b3]
      omega
  · rw [List.map_append, List.map_map]
    rw [List.nodup_append]
    refine ⟨h.nodup, ?_, ?_⟩
    · have : (List.map (Prod.fst ∘ fun c => (c, com_sizes.getD c 0))
          (List.range' s.largest_illegal_com (l2 - s.largest_illegal_com))) =
          List.range' s.largest_illegal_com (l2 - s.largest_illegal_com) := by
        conv_rhs => rw [← List.map_id (List.range' _ _)]
        rfl
      rw [this]
      exact List.nodup_range' _ _
    · intro c hc1 hc2
      obtain ⟨x, hx, rfl⟩ := List.mem_map.mp hc1
      obtain ⟨y, hy, hy2⟩ := List.mem_map.mp hc2
      rw [List.mem_range'_1] at hy
      have := (h.live_ok x hx).1
      simp only [Function.comp] at hy2
      omega
  · intro c hc hnot
    show cnt c = _
    rw [List.map_append, List.mem_append, not_or] at hnot
    by_cases hcl : c < s.largest_illegal_com
    · exact h.dead c hcl hnot.1
    · exfalso
      apply hnot.2
      rw [List.map_map]
      refine List.mem_map.mpr ⟨c, ?_, rfl⟩
      rw [List.mem_range'_1]
      exact ⟨by omega, by simp only at hc; omega⟩
  · intro c hc
    exact h.fresh c (by simp only at hc; omega)
  · show s.slots_empty = _
    rw [List.filter_append, List.length_append, h.empties]
    have : ((List.range' s.largest_illegal_com (l2 - s.largest_illegal_com)).map
        (fun c => (c, com_sizes.getD c 0))).filter (fun x => decide (x.2 = 0)) = [] := by
      rw [List.filter_eq_nil_iff]
      intro x hx
      obtain ⟨b1, b2, b3⟩ := hnew x hx
      have := getD_pos com_sizes hpos x.1 (by omega)
      simp only [decide_eq_true_eq]
      omega
    rw [this]
    rfl
  · intro c hc
    by_cases hcl : c < s.largest_illegal_com
    · exact hreq.trans (h.legal c hcl)
    · exact a3 c (by omega) hc

theorem filter_partition_length {α : Type} (p : α → Prop) [DecidablePred p] (l : List α) :
    (l.filter (fun x => decide (¬ p x))).length + (l.filter (fun x => decide (p x))).length =
      l.length := by
  induction l with
  | nil => rfl
  | cons x xs ih =>
    by_cases h : p x
    · simp only [List.filter_cons, h, not_true_eq_false, decide_False, Bool.false_eq_true,
        if_false, decide_True, if_true, List.length_cons]
      omega
    · simp only [List.filter_cons, h, not_false_eq_true, decide_True, if_true, decide_False,
        Bool.false_eq_true, if_false, List.length_cons]
      omega

theorem slot_inv_compact (com_sizes : List Nat) (hpos : ∀ x ∈ com_sizes, 0 < x)
    (s : LFR.SlotState) (live : List (Nat × Nat)) (cnt : Nat → Nat) (req : Nat)
    (h : LFR.SlotInv com_sizes s live cnt req)
    (hfull : 2 * s.slots_empty > s.largest_illegal_com - s.slots_deleted) :
    ∃ s2, LFR.compact com_sizes s = some s2 ∧
      LFR.SlotInv com_sizes s2 (live.filter (fun x => decide (x.2 ≠ 0))) cnt req ∧
      s2.slots_empty = 0 ∧ s2.largest_illegal_com = s.largest_illegal_com ∧
      s2.slots_deleted = s.slots_deleted + s.slots_empty := by
  obtain ⟨pre, hpre, hlen⟩ := h.split
  have hb := h.bound
  have hn := h.le_n
  have he := h.empties
  have hpart := filter_partition_length (fun x : Nat × Nat => x.2 = 0) live
  have hlive_pos : 0 < live.length := by
    have := List.length_filter_le (fun x : Nat × Nat => decide (x.2 = 0)) live
    omega
  have hslen : s.slots_left.length = com_sizes.length := by
    rw [hpre, List.length_append, List.length_append, fresh_slots_length, hlen]
    omega
  -- the segment the loop reads and the slots behind it
  have hseg : ∃ extra : List (Nat × Nat),
      (s.slots_left.take (min s.largest_illegal_com (com_sizes.length - 1) + 1)).drop
          s.slots_deleted = live ++ extra ∧
        (∀ x ∈ extra, x.2 ≠ 0) ∧
        extra ++ s.slots_left.drop (min s.largest_illegal_com (com_sizes.length - 1) + 1) =
          LFR.fresh_slots com_sizes s.largest_illegal_com ∧
        min s.largest_illegal_com (com_sizes.length - 1) + 1 =
          s.largest_illegal_com + extra.length := by
    by_cases hl : s.largest_illegal_com < com_sizes.length
    · have hmin : min s.largest_illegal_com (com_sizes.length - 1) = s.largest_illegal_com := by
        omega
      have hf := fresh_slots_split com_sizes s.largest_illegal_com (s.largest_illegal_com + 1)
        (by omega) (by omega)
      rw [show s.largest_illegal_com + 1 - s.largest_illegal_com = 1 by omega] at hf
      simp only [List.range'_one, List.map_cons, List.map_nil, List.singleton_append] at hf
      refine ⟨[(s.largest_illegal_com, com_sizes.getD s.largest_illegal_com 0)], ?_, ?_, ?_, ?_⟩
      · rw [hmin, hpre, hf, List.drop_take]
        rw [List.append_assoc, ← hlen, List.drop_left]
        rw [show s.largest_illegal_com + 1 - pre.length = live.length + 1 by omega]
        rw [List.take_append_eq_append_take, List.take_of_length_le (by omega)]
        simp
      · intro x hx
        rw [List.mem_singleton] at hx
        rw [hx]
        have := getD_pos com_sizes hpos s.largest_illegal_com hl
        simp only
        omega
      · rw [hmin, hf]
        conv_lhs => rw [hpre, hf]
        have happ : pre ++ live ++ (s.largest_illegal_com,
            com_sizes.getD s.largest_illegal_com 0) ::
              LFR.fresh_slots com_sizes (s.largest_illegal_com + 1) =
            (pre ++ live ++ [(s.largest_illegal_com,
              com_sizes.getD s.largest_illegal_com 0)]) ++
              LFR.fresh_slots com_sizes (s.largest_illegal_com + 1) := by simp
        have hl2 : (pre ++ live ++ [(s.largest_illegal_com,
            com_sizes.getD s.largest_illegal_com 0)]).length = s.largest_illegal_com + 1 := by
          simp only [List.length_append, List.length_singleton]
          omega
        rw [happ, ← hl2, List.drop_left]
        rfl
      · rw [hmin]; simp
    · have hmin : min s.largest_illegal_com (com_sizes.length - 1) + 1 =
          s.largest_illegal_com := by omega
      have hf : LFR.fresh_slots com_sizes s.largest_illegal_com = [] := by
        unfold LFR.fresh_slots
        rw [show com_sizes.length - s.largest_illegal_com = 0 by omega]
        rfl
      refine ⟨[], ?_, fun x hx => by simp at hx, ?_, by rw [hmin]; simp⟩
      · rw [hmin, hpre, hf, List.append_nil, List.append_nil, List.drop_take, ← hlen,
          List.drop_left, List.take_of_length_le (by omega)]
      · rw [hmin, hf, List.nil_append, List.drop_eq_nil_iff]
        omega
  obtain ⟨extra, hs1, hs2, hs3, hs4⟩ := hseg
  have hR : min s.largest_illegal_com (com_sizes.length - 1) < s.slots_left.length := by
    rw [hslen]; omega
  have hloop := compact_loop_spec s.slots_deleted
    (min s.largest_illegal_com (com_sizes.length - 1) - s.slots_deleted)
    (min s.largest_illegal_com (com_sizes.length - 1))
    (min s.largest_illegal_com (com_sizes.length - 1)) s.slots_left s.slots_empty
    (min s.largest_illegal_com (com_sizes.length - 1) + 1) (by omega) (Nat.le_refl _) hR
    (by omega)
  rw [hs1] at hloop
  have hfe : (live ++ extra).filter (fun x => decide (x.2 = 0)) =
      live.filter (fun x => decide (x.2 = 0)) := by
    rw [List.filter_append]
    have : extra.filter (fun x => decide (x.2 = 0)) = [] := by
      rw [List.filter_eq_nil_iff]
      intro x hx
      simpa using hs2 x hx
    rw [this, List.append_nil]
  have hfn : (live ++ extra).filter (fun x => decide (x.2 ≠ 0)) =
      live.filter (fun x => decide (x.2 ≠ 0)) ++ extra := by
    rw [List.filter_append]
    congr 1
    rw [List.filter_eq_self]
    intro x hx
    simpa using hs2 x hx
  rw [hfe, hfn, ← he, Nat.sub_self] at hloop
  have hpart2 : (live.filter (fun x => decide (x.2 ≠ 0))).length + s.slots_empty =
      live.length := by
    rw [he]; exact hpart
  have hidx : min s.largest_illegal_com (com_sizes.length - 1) + 1 -
      (live.filter (fun x => decide (x.2 ≠ 0)) ++ extra).length =
      s.slots_deleted + s.slots_empty := by
    rw [List.length_append, hs4]
    omega
  rw [hidx, List.append_assoc, List.append_assoc, hs3] at hloop
  refine ⟨{ s with
      slots_left := List.take (s.slots_deleted + s.slots_empty) s.slots_left ++
        (List.filter (fun x => decide (x.2 ≠ 0)) live ++
          LFR.fresh_slots com_sizes s.largest_illegal_com)
      slots_empty := 0
      slots_deleted := s.slots_deleted + s.slots_empty }, ?_, ?_, rfl, rfl, rfl⟩
  · unfold LFR.compact
    dsimp only
    rw [hloop]
  refine ⟨⟨s.slots_left.take (s.slots_deleted + s.slots_empty), ?_, ?_⟩, ?_, hn, ?_, ?_, ?_,
    h.fresh, ?_, h.legal⟩
  · show _ ++ _ = _
    rw [List.append_assoc]
  · show (List.take _ _).length = s.slots_deleted + s.slots_empty
    rw [List.length_take, hslen]
    omega
  · show s.slots_deleted + s.slots_empty + _ = s.largest_illegal_com
    omega
  · intro x hx
    exact h.live_ok x (List.mem_filter.mp hx).1
  · exact (((List.filter_sublist live).map Prod.fst).nodup h.nodup)
  · intro c hc hnot
    by_cases hin : c ∈ live.map Prod.fst
    · obtain ⟨x, hx, rfl⟩ := List.mem_map.mp hin
      have hx0 : x.2 = 0 := by
        by_contra hne
        exact hnot (List.mem_map.mpr ⟨x, List.mem_filter.mpr ⟨hx, by simpa using hne⟩, rfl⟩)
      have := (h.live_ok x hx).2
      omega
    · exact h.dead c hc hin
  · show 0 = _
    symm
    rw [List.length_eq_zero, List.filter_eq_nil_iff]
    intro x hx
    have := (List.mem_filter.mp hx).2
    simpa using this

theorem split_at_index {α : Type} (l : List α) (j : Nat) (hj : j < l.length) :
    ∃ l1 x l2, l = l1 ++ x :: l2 ∧ l1.length = j :=
  ⟨l.take j, l[j], l.drop (j + 1), by rw [← List.drop_eq_getElem_cons hj,
    List.take_append_drop], by rw [List.length_take]; omega⟩

theorem getD_middle {α : Type} (a b : List α) (x d : α) :
    (a ++ x :: b).getD a.length d = x := by
  rw [List.getD_append_right _ _ _ _ (Nat.le_refl _), Nat.sub_self]
  rfl

theorem set_middle {α : Type} (a b : List α) (x v : α) :
    (a ++ x :: b).set a.length v = a ++ v :: b := by
  rw [List.set_append_right _ _ (Nat.le_refl _), Nat.sub_self]
  rfl

theorem slot_inv_select (com_sizes : List Nat) (s : LFR.SlotState) (live : List (Nat × Nat))
    (cnt : Nat → Nat) (req required_size nid : Nat)
    (h : LFR.SlotInv com_sizes s live cnt req) (hreq : required_size ≤ req) :
    ∀ (draws : List Nat) (r : LFR.CommunityAssignment × LFR.SlotState × List Nat),
      LFR.select_community s required_size nid draws = some r →
      ∃ live2, LFR.SlotInv com_sizes r.2.1 live2
          (fun c => if c = r.1.community_id then cnt c + 1 else cnt c) req ∧
        r.1.community_id < s.largest_illegal_com ∧
        required_size ≤ com_sizes.getD r.1.community_id 0 ∧
        r.1.degree = required_size ∧ r.1.node_id = nid ∧
        (∃ x ∈ live, x.1 = r.1.community_id ∧ x.2 ≠ 0) := by
  intro draws
  induction draws with
  | nil => intro r hr; simp [LFR.select_community] at hr
  | cons d draws ih =>
    intro r hr
    unfold LFR.select_community at hr
    by_cases h0 : s.largest_illegal_com - s.slots_deleted = 0
    · rw [if_pos h0] at hr
      simp at hr
    rw [if_neg h0] at hr
    dsimp only at hr
    by_cases hne : (s.slots_left.getD
        (d % (s.largest_illegal_com - s.slots_deleted) + s.slots_deleted) (0, 0)).2 ≠ 0
    · rw [if_pos hne] at hr
      obtain ⟨pre, hpre, hlen⟩ := h.split
      have hb := h.bound
      have hj : d % (s.largest_illegal_com - s.slots_deleted) < live.length := by
        have := Nat.mod_lt d (Nat.pos_of_ne_zero h0)
        omega
      obtain ⟨l1, x, l2, rfl, hl1⟩ := split_at_index live _ hj
      have hidx : d % (s.largest_illegal_com - s.slots_deleted) + s.slots_deleted =
          (pre ++ l1).length := by
        rw [List.length_append]; omega
      have hslots : s.slots_left =
          (pre ++ l1) ++ x :: (l2 ++ LFR.fresh_slots com_sizes s.largest_illegal_com) := by
        rw [hpre]; simp
      rw [hidx, hslots, getD_middle, set_middle] at hr
      rw [hidx, hslots, getD_middle] at hne
      simp only [Option.some.injEq] at hr
      subst hr
      have hnd := h.nodup
      rw [List.map_append, List.map_cons, List.nodup_append] at hnd
      obtain ⟨hnd1, hnd2, hnd3⟩ := hnd
      have hx1 : x.1 ∉ l1.map Prod.fst := fun hin => hnd3 hin (List.mem_cons_self _ _)
      have hx2 : x.1 ∉ l2.map Prod.fst := (List.nodup_cons.mp hnd2).1
      have hxok := h.live_ok x (by simp)
      have hmap : (l1 ++ (x.1, x.2 - 1) :: l2).map Prod.fst = (l1 ++ x :: l2).map Prod.fst := by
        simp
      refine ⟨l1 ++ (x.1, x.2 - 1) :: l2, ⟨⟨pre, ?_, hlen⟩, ?_, h.le_n, ?_, ?_, ?_, ?_, ?_,
        h.legal⟩, hxok.1, hreq.trans (h.legal _ hxok.1), rfl, rfl, ⟨x, by simp, rfl, hne⟩⟩
      · show _ ++ _ = _
        simp
      · show s.slots_deleted + _ = s.largest_illegal_com
        rw [← hb]
        simp
      · intro y hy
        show y.1 < s.largest_illegal_com ∧ _
        dsimp only
        rcases List.mem_append.mp hy with hy | hy
        · have := h.live_ok y (List.mem_append_left _ hy)
          have hyx : y.1 ≠ x.1 := fun heq => hx1 (heq ▸ List.mem_map_of_mem _ hy)
          rw [if_neg hyx]
          exact this
        · rcases List.mem_cons.mp hy with rfl | hy
          · dsimp only
            rw [if_pos rfl]
            refine ⟨hxok.1, ?_⟩
            have := hxok.2
            omega
          · have := h.live_ok y (List.mem_append_right _ (List.mem_cons_of_mem _ hy))
            have hyx : y.1 ≠ x.1 := fun heq => hx2 (heq ▸ List.mem_map_of_mem _ hy)
            rw [if_neg hyx]
            exact this
      · rw [hmap]; exact h.nodup
      · intro c hc hnot
        rw [hmap] at hnot
        dsimp only
        have hcx : c ≠ x.1 := by
          rintro rfl
          exact hnot (by simp)
        rw [if_neg hcx]
        exact h.dead c hc hnot
      · intro c hc
        dsimp only
        have hcx : c ≠ x.1 := by
          have := hxok.1
          simp only at hc
          omega
        rw [if_neg hcx]
        exact h.fresh c hc
      · show (if x.2 - 1 = 0 then s.slots_empty + 1 else s.slots_empty) = _
        rw [h.empties]
        have e0 : decide (x.2 = 0) = false := decide_eq_false hne
        simp only [List.filter_append, List.filter_cons, List.length_append, e0,
          Bool.false_eq_true, if_false]
        by_cases h1 : x.2 - 1 = 0
        · rw [if_pos h1]
          simp only [decide_eq_true h1, if_true, List.length_cons]
          omega
        · rw [if_neg h1]
          simp only [decide_eq_false h1, Bool.false_eq_true, if_false]
    · rw [if_neg hne] at hr
      exact ih r hr

theorem slot_inv_cnt_le (com_sizes : List Nat) (s : LFR.SlotState) (live : List (Nat × Nat))
    (cnt : Nat → Nat) (req : Nat) (h : LFR.SlotInv com_sizes s live cnt req) (c : Nat) :
    cnt c ≤ com_sizes.getD c 0 := by
  by_cases hc : c < s.largest_illegal_com
  · by_cases hin : c ∈ live.map Prod.fst
    · obtain ⟨x, hx, rfl⟩ := List.mem_map.mp hin
      have := (h.live_ok x hx).2
      omega
    · rw [h.dead c hc hin]
  · rw [h.fresh c (by omega)]
    exact Nat.zero_le _

theorem assign_nodes_spec (com_sizes : List Nat) (hpos : ∀ x ∈ com_sizes, 0 < x) :
    ∀ (nodes : List Nat) (nid : Nat) (s : LFR.SlotState) (draws : List Nat)
      (live : List (Nat × Nat)) (cnt : Nat → Nat) (req : Nat)
      (A : List LFR.CommunityAssignment),
      LFR.SlotInv com_sizes s live cnt req → (∀ r ∈ nodes, r ≤ req) →
      nodes.Pairwise (fun a b => b ≤ a) →
      LFR.assign_nodes com_sizes nodes nid s draws = some A →
      A.map LFR.CommunityAssignment.degree = nodes ∧
        A.map LFR.CommunityAssignment.node_id = List.range' nid nodes.length ∧
        (∀ a ∈ A, a.community_id < com_sizes.length ∧
          a.degree ≤ com_sizes.getD a.community_id 0) ∧
        ∀ c, cnt c + A.countP (fun a => decide (a.community_id = c)) ≤ com_sizes.getD c 0 := by
  intro nodes
  induction nodes with
  | nil =>
    intro nid s draws live cnt req A h _ _ hA
    simp only [LFR.assign_nodes, Option.some.injEq] at hA
    subst hA
    refine ⟨rfl, rfl, fun a ha => by simp at ha, fun c => ?_⟩
    simpa using slot_inv_cnt_le com_sizes s live cnt req h c
  | cons required_size nodes ih =>
    intro nid s draws live cnt req A h hle hpw hA
    obtain ⟨hpw1, hpw2⟩ := List.pairwise_cons.mp hpw
    have hreq : required_size ≤ req := hle _ (List.mem_cons_self _ _)
    have h1 := slot_inv_advance com_sizes hpos s live cnt req required_size h hreq
    unfold LFR.assign_nodes at hA
    dsimp only at hA
    have hstep : ∃ s2 live2,
        (if 2 * s.slots_empty >
            LFR.find_illegal com_sizes required_size com_sizes.length s.largest_illegal_com -
              s.slots_deleted
          then LFR.compact com_sizes { s with
            largest_illegal_com :=
              LFR.find_illegal com_sizes required_size com_sizes.length s.largest_illegal_com }
          else some { s with
            largest_illegal_com :=
              LFR.find_illegal com_sizes required_size com_sizes.length
                s.largest_illegal_com }) = some s2 ∧
        LFR.SlotInv com_sizes s2 live2 cnt required_size := by
      by_cases hc : 2 * s.slots_empty >
          LFR.find_illegal com_sizes required_size com_sizes.length s.largest_illegal_com -
            s.slots_deleted
      · rw [if_pos hc]
        obtain ⟨s2, e1, e2, -⟩ := slot_inv_compact com_sizes hpos _ _ cnt required_size h1 hc
        exact ⟨s2, _, e1, e2⟩
      · rw [if_neg hc]
        exact ⟨_, _, rfl, h1⟩
    obtain ⟨s2, live2, e1, h2⟩ := hstep
    rw [e1] at hA
    dsimp only at hA
    cases hsel : LFR.select_community s2 required_size nid draws with
    | none => rw [hsel] at hA; simp at hA
    | some r =>
      rw [hsel] at hA
      dsimp only at hA
      obtain ⟨live3, h3, b1, b2, b3, b4, -⟩ := slot_inv_select com_sizes s2 live2 cnt
        required_size required_size nid h2 (Nat.le_refl _) draws r hsel
      cases hrest : LFR.assign_nodes com_sizes nodes (nid + 1) r.2.1 r.2.2 with
      | none => rw [hrest] at hA; simp at hA
      | some rest =>
        rw [hrest] at hA
        simp only [Option.some.injEq] at hA
        subst hA
        obtain ⟨c1, c2, c3, c4⟩ := ih (nid + 1) r.2.1 r.2.2 live3 _ required_size rest h3
          hpw1 hpw2 hrest
        refine ⟨?_, ?_, ?_, ?_⟩
        · rw [List.map_cons, c1, b3]
        · rw [List.map_cons, c2, b4, List.length_cons, List.range'_succ]
        · intro a ha
          rcases List.mem_cons.mp ha with rfl | ha
          · exact ⟨by have := h2.le_n; omega, by rw [b3]; exact b2⟩
          · exact c3 a ha
        · intro c
          have := c4 c
          rw [List.countP_cons]
          by_cases hc : c = r.1.community_id
          · rw [if_pos hc] at this
            rw [if_pos (by simpa using hc.symm)]
            omega
          · rw [if_neg hc] at this
            rw [if_neg (by simpa using fun h => hc h.symm)]
            omega

theorem slot_inv_init (com_sizes : List Nat) (req : Nat) :
    LFR.SlotInv com_sizes
      ⟨(List.range com_sizes.length).map (fun c => (c, com_sizes.getD c 0)), 0, 0, 0⟩ []
      (fun _ => 0) req := by
  refine ⟨⟨[], ?_, rfl⟩, rfl, Nat.zero_le _, fun x hx => by simp at hx, List.nodup_nil,
    fun c hc => by simp at hc, fun c _ => rfl, rfl, fun c hc => by simp at hc⟩
  show List.map _ (List.range com_sizes.length) = _
  unfold LFR.fresh_slots
  rw [List.range_eq_range']
  rfl

theorem sum_eq_sum_getD (l : List Nat) :
    l.sum = ∑ i in Finset.range l.length, l.getD i 0 := by
  induction l with
  | nil => rfl
  | cons x xs ih =>
    rw [List.sum_cons, List.length_cons, Finset.sum_range_succ', ih]
    simp only [List.getD_cons_succ, List.getD_cons_zero]
    omega

theorem length_eq_sum_countP (n : Nat) (A : List LFR.CommunityAssignment)
    (h : ∀ a ∈ A, a.community_id < n) :
    A.length = ∑ c in Finset.range n, A.countP (fun a => decide (a.community_id = c)) := by
  induction A with
  | nil => simp
  | cons a A ih =>
    have h1 := ih (fun x hx => h x (List.mem_cons_of_mem _ hx))
    have h2 := h a (List.mem_cons_self _ _)
    simp only [List.countP_cons, List.length_cons, Finset.sum_add_distrib, decide_eq_true_eq]
    rw [← h1, Finset.sum_ite_eq, if_pos (Finset.mem_range.mpr h2)]

/-- C39, counterexample: the community sizes `[1,1,1,1,1,1,0]` are sorted
descending and sum up to the six nodes, every node requires the internal degree
1.  After four nodes the compaction starts its reader at the community 6 of size
0, the first one that is too small, counts it as an empty slot and moves the slots
of the communities 4 and 5 one place too far: the sampled range `[4, 6)` holds the
community 4 twice.  With the draws `0, 1, 2, 3, 0, 1` the community 4 of size 1
receives the nodes 4 and 5 and the community 5 receives no node. -/
theorem zero_size_community_breaks_assignment :
    LFR.assign_communities [1, 1, 1, 1, 1, 1, 0] [1, 1, 1, 1, 1, 1] [0, 1, 2, 3, 0, 1] =
        some [⟨0, 1, 0⟩, ⟨1, 1, 1⟩, ⟨2, 1, 2⟩, ⟨3, 1, 3⟩, ⟨4, 1, 4⟩, ⟨4, 1, 5⟩] ∧
      ([1, 1, 1, 1, 1, 1, 0] : List Nat).Pairwise (fun a b => b ≤ a) ∧
      ([1, 1, 1, 1, 1, 1, 0] : List Nat).sum = ([1, 1, 1, 1, 1, 1] : List Nat).length ∧
      ([1, 1, 1, 1, 1, 1] : List Nat).Pairwise (fun a b => b ≤ a) ∧
      LFR.compact [1, 1, 1, 1, 1, 1, 0]
          ⟨[(0, 0), (1, 0), (2, 0), (3, 0), (4, 1), (5, 1), (6, 0)], 4, 0, 6⟩ =
        some ⟨[(0, 0), (1, 0), (2, 0), (3, 0), (4, 1), (4, 1), (5, 1)], 0, 4, 6⟩ := by
  decide

/-- C39, amended: for community sizes that are all positive (the block asserts
`com_sizes[c]`) and sum up to the number of nodes, and nodes visited in
non-increasing required internal degree, every run of the block that returns
pushes one assignment per node, in the order of the nodes and with the required
degree of the node, to a community whose size is at least this degree, and every
community receives exactly as many nodes as its size.  The compaction keeps the
state of the block: between two nodes `slots_left` is the deleted slots, the
sampled range and the untouched slots of the communities from
`largest_illegal_com` on, the sampled range holds no community twice and only
communities below `largest_illegal_com`, and the compaction replaces the sampled
range by its slots with a free place, in their order. -/
theorem community_assignment_valid (com_sizes required_sizes draws : List Nat)
    (A : List LFR.CommunityAssignment) (hpos : ∀ x ∈ com_sizes, 0 < x)
    (hsum : com_sizes.sum = required_sizes.length)
    (hdesc : required_sizes.Pairwise (fun a b => b ≤ a))
    (hA : LFR.assign_communities com_sizes required_sizes draws = some A) :
    A.map LFR.CommunityAssignment.degree = required_sizes ∧
      A.map LFR.CommunityAssignment.node_id = List.range required_sizes.length ∧
      (∀ a ∈ A, a.community_id < com_sizes.length ∧
        a.degree ≤ com_sizes.getD a.community_id 0) ∧
      (∀ c, c < com_sizes.length →
        A.countP (fun a => decide (a.community_id = c)) = com_sizes.getD c 0) ∧
      ∀ (s : LFR.SlotState) (live : List (Nat × Nat)) (cnt : Nat → Nat) (req : Nat),
        LFR.SlotInv com_sizes s live cnt req →
        2 * s.slots_empty > s.largest_illegal_com - s.slots_deleted →
        ∃ s2, LFR.compact com_sizes s = some s2 ∧
          LFR.SlotInv com_sizes s2 (live.filter (fun x => decide (x.2 ≠ 0))) cnt req ∧
          s2.slots_empty = 0 ∧ s2.largest_illegal_com = s.largest_illegal_com ∧
          s2.slots_deleted = s.slots_deleted + s.slots_empty := by
  have hle : ∀ r ∈ required_sizes, r ≤ required_sizes.headD 0 := by
    cases required_sizes with
    | nil => intro r hr; simp at hr
    | cons x xs =>
      intro r hr
      rcases List.mem_cons.mp hr with rfl | hr
      · exact Nat.le_refl _
      · exact (List.pairwise_cons.mp hdesc).1 r hr
  obtain ⟨c1, c2, c3, c4⟩ := assign_nodes_spec com_sizes hpos required_sizes 0 _ draws []
    (fun _ => 0) (required_sizes.headD 0) A (slot_inv_init com_sizes _) hle hdesc hA
  refine ⟨c1, by rw [c2, List.range_eq_range'], c3, ?_,
    fun s live cnt req h hfull => slot_inv_compact com_sizes hpos s live cnt req h hfull⟩
  have hlen : A.length = required_sizes.length := by
    rw [← c1, List.length_map]
  have hsums : ∑ c in Finset.range com_sizes.length,
      A.countP (fun a => decide (a.community_id = c)) =
      ∑ c in Finset.range com_sizes.length, com_sizes.getD c 0 := by
    rw [← length_eq_sum_countP com_sizes.length A (fun a ha => (c3 a ha).1), hlen, ← hsum,
      sum_eq_sum_getD]
  have hterm : ∀ c ∈ Finset.range com_sizes.length,
      A.countP (fun a => decide (a.community_id = c)) ≤ com_sizes.getD c 0 := by
    intro c _
    have := c4 c
    omega
  intro c hc
  exact (Finset.sum_eq_sum_iff_of_le hterm).mp hsums c (Finset.mem_range.mpr hc)

/-- Witness for C39: the community sizes `[3,2,1]` and six nodes; the compaction
runs in front of the last node. -/
theorem community_assignment_valid_witness :
    (∀ x ∈ ([3, 2, 1] : List Nat), 0 < x) ∧
      ([3, 2, 1] : List Nat).sum = ([2, 2, 1, 1, 1, 1] : List Nat).length ∧
      ([2, 2, 1, 1, 1, 1] : List Nat).Pairwise (fun a b => b ≤ a) ∧
      LFR.assign_communities [3, 2, 1] [2, 2, 1, 1, 1, 1] [0, 1, 0, 5, 1, 1, 2, 3, 0] =
        some [⟨0, 2, 0⟩, ⟨1, 2, 1⟩, ⟨0, 1, 2⟩, ⟨2, 1, 3⟩, ⟨1, 1, 4⟩, ⟨0, 1, 5⟩] ∧
      ∀ c, c < ([3, 2, 1] : List Nat).length →
        ([⟨0, 2, 0⟩, ⟨1, 2, 1⟩, ⟨0, 1, 2⟩, ⟨2, 1, 3⟩, ⟨1, 1, 4⟩, ⟨0, 1, 5⟩] :
          List LFR.CommunityAssignment).countP (fun a => decide (a.community_id = c)) =
          ([3, 2, 1] : List Nat).getD c 0 :=
  ⟨by decide, by decide, by decide, by decide,
    (community_assignment_valid [3, 2, 1] [2, 2, 1, 1, 1, 1] [0, 1, 0, 5, 1, 1, 2, 3, 0]
      [⟨0, 2, 0⟩, ⟨1, 2, 1⟩, ⟨0, 1, 2⟩, ⟨2, 1, 3⟩, ⟨1, 1, 4⟩, ⟨0, 1, 5⟩]
      (by decide) (by decide) (by decide) (by decide)).2.2.2.1⟩

/-! ## Simple graphs under one swap -/

theorem positional_run_take_succ :
    ∀ (S : List SwapDescriptor) (A : List edge_t) (fl : List Bool) (k : Nat)
      (hk : k < S.length) (hf : k < fl.length),
      positional_run A (S.take (k + 1)) fl =
        positional_swap (positional_run A (S.take k) fl) S[k] fl[k] := by
  intro S
  induction S with
  | nil => intro A fl k hk; simp at hk
  | cons s ss ih =>
    intro A fl k hk hf
    cases fl with
    | nil => simp at hf
    | cons f fs =>
      cases k with
      | zero => simp [positional_run]
      | succ k =>
        simp only [List.take_succ_cons, positional_run, List.getElem_cons_succ]
        exact ih _ fs k (by simpa using hk) (by simpa using hf)

theorem positional_run_flags_append :
    ∀ (ss : List SwapDescriptor) (A : List edge_t) (fs extra : List Bool),
      ss.length ≤ fs.length → positional_run A ss (fs ++ extra) = positional_run A ss fs := by
  intro ss
  induction ss with
  | nil => intro A fs extra _; cases fs <;> cases extra <;> rfl
  | cons s ss ih =>
    intro A fs extra h
    cases fs with
    | nil => simp at h
    | cons f fs =>
      simp only [List.cons_append, positional_run]
      exact ih _ fs extra (by simpa using h)

theorem positional_swap_false (A : List edge_t) (s : SwapDescriptor) :
    positional_swap A s false = A := by
  unfold positional_swap
  apply List.ext_getElem?
  intro i
  simp only [Bool.false_eq_true, if_false, List.getElem?_set, List.length_set,
    List.getD_eq_getElem?_getD]
  by_cases hb : s.eid_b = i
  · subst hb
    rw [if_pos rfl]
    by_cases hl : s.eid_b < A.length
    · rw [if_pos hl, List.getElem?_eq_getElem hl]; rfl
    · rw [if_neg hl, List.getElem?_eq_none (by omega)]
  · rw [if_neg hb]
    by_cases ha : s.eid_a = i
    · subst ha
      rw [if_pos rfl]
      by_cases hl : s.eid_a < A.length
      · rw [if_pos hl, List.getElem?_eq_getElem hl]; rfl
      · rw [if_neg hl, List.getElem?_eq_none (by omega)]
    · rw [if_neg ha]

theorem nodup_set_set (A : List edge_t) (a b : Nat) (x y : edge_t) (hA : A.Nodup)
    (hx : x ∉ A) (hy : y ∉ A) (hxy : x ≠ y) : ((A.set a x).set b y).Nodup :=
  (hA.set hx).set (fun h => (List.mem_or_eq_of_mem_set h).elim hy (fun e => hxy e.symm))

/-- An edge of the list after two writes that is none of the written edges is an
edge of the list at another position. -/
theorem mem_set_set_other (A : List edge_t) (a b : Nat) (x y e : edge_t)
    (he : e ∈ (A.set a x).set b y) (hx : e ≠ x) (hy : e ≠ y) :
    ∃ (j : Nat) (hj : j < A.length), j ≠ a ∧ j ≠ b ∧ A[j] = e := by
  obtain ⟨j, hj, hje⟩ := List.getElem_of_mem he
  rw [List.getElem_set] at hje
  have hj2 : j < A.length := by simpa using hj
  by_cases hb : b = j
  · rw [if_pos hb] at hje; exact absurd hje.symm hy
  · rw [if_neg hb, List.getElem_set] at hje
    by_cases ha : a = j
    · rw [if_pos ha] at hje; exact absurd hje.symm hx
    · rw [if_neg ha] at hje
      exact ⟨j, hj2, fun h => ha h.symm, fun h => hb h.symm, hje⟩

theorem mem_set_set (A : List edge_t) (a b : Nat) (x y e : edge_t)
    (he : e ∈ (A.set a x).set b y) : e ∈ A ∨ e = x ∨ e = y := by
  rcases List.mem_or_eq_of_mem_set he with h | h
  · rcases List.mem_or_eq_of_mem_set h with h | h
    · exact Or.inl h
    · exact Or.inr (Or.inl h)
  · exact Or.inr (Or.inr h)

/-- The two edges a swap of two different loop-free canonical edges produces
are different. -/
theorem swap_edges_ne (e0 e1 : edge_t) (d : Bool) (h0 : e0.canonical) (h1 : e1.canonical)
    (hl0 : e0.first ≠ e0.second) (hl1 : e1.first ≠ e1.second) (hne : e0 ≠ e1) :
    (_swap_edges e0 e1 d).1 ≠ (_swap_edges e0 e1 d).2 := by
  obtain ⟨a0, a1⟩ := e0
  obtain ⟨b0, b1⟩ := e1
  unfold edge_t.canonical at h0 h1
  simp only [ne_eq, edge_t.mk.injEq, not_and] at hne hl0 hl1 h0 h1
  unfold _swap_edges edge_t.normalized
  cases d <;> simp only [Bool.false_eq_true, if_false, if_true] <;> split_ifs <;>
    simp only [ne_eq, edge_t.mk.injEq, not_and] <;> omega

theorem source_ready_iff (e : edge_t) :
    source_ready e = true ↔ e.first ≠ INVALID_NODE ∧ e.second ≠ INVALID_NODE := by
  unfold source_ready
  simp

theorem swap_edges_ready (e0 e1 : edge_t) (d : Bool) (h0 : source_ready e0 = true)
    (h1 : source_ready e1 = true) :
    source_ready (_swap_edges e0 e1 d).1 = true ∧ source_ready (_swap_edges e0 e1 d).2 = true := by
  rw [source_ready_iff] at h0 h1 ⊢
  rw [source_ready_iff]
  unfold _swap_edges edge_t.normalized
  cases d <;> simp only [Bool.false_eq_true, if_false, if_true] <;> split_ifs <;>
    simp only [ne_eq] <;> tauto

theorem ready_ne_invalid (e : edge_t) (h : source_ready e = true) : e ≠ edge_t.invalid := by
  rw [source_ready_iff] at h
  intro he
  rw [he] at h
  exact h.1 rfl

theorem loop_free_ne_invalid (e : edge_t) (h : e.is_loop = false) : e ≠ edge_t.invalid := by
  intro he
  rw [he] at h
  simp [edge_t.is_loop, edge_t.invalid] at h

/-- One performed swap keeps a simple graph simple when the two new edges are
not in the graph and are no loops. -/
theorem is_simple_swap (A : List edge_t) (s : SwapDescriptor) (hA : is_simple A)
    (ha : s.eid_a < A.length) (hb : s.eid_b < A.length) (hab : s.eid_a ≠ s.eid_b)
    (h0 : (_swap_edges (A.getD s.eid_a edge_t.invalid) (A.getD s.eid_b edge_t.invalid)
      s.direction).1 ∉ A)
    (h1 : (_swap_edges (A.getD s.eid_a edge_t.invalid) (A.getD s.eid_b edge_t.invalid)
      s.direction).2 ∉ A)
    (hl0 : (_swap_edges (A.getD s.eid_a edge_t.invalid) (A.getD s.eid_b edge_t.invalid)
      s.direction).1.is_loop = false)
    (hl1 : (_swap_edges (A.getD s.eid_a edge_t.invalid) (A.getD s.eid_b edge_t.invalid)
      s.direction).2.is_loop = false) :
    is_simple (positional_swap A s true) := by
  have ea : A.getD s.eid_a edge_t.invalid = A[s.eid_a] := List.getD_eq_getElem _ _ ha
  have eb : A.getD s.eid_b edge_t.invalid = A[s.eid_b] := List.getD_eq_getElem _ _ hb
  have ma : A[s.eid_a] ∈ A := List.getElem_mem _
  have mb : A[s.eid_b] ∈ A := List.getElem_mem _
  have hne : A[s.eid_a] ≠ A[s.eid_b] := by
    intro h
    exact hab ((List.Nodup.getElem_inj_iff hA.nodup).mp h)
  have hla : A[s.eid_a].first ≠ A[s.eid_a].second := by
    have := hA.no_loop _ ma
    simpa [edge_t.is_loop] using this
  have hlb : A[s.eid_b].first ≠ A[s.eid_b].second := by
    have := hA.no_loop _ mb
    simpa [edge_t.is_loop] using this
  have hd := swap_edges_ne A[s.eid_a] A[s.eid_b] s.direction (hA.canon _ ma) (hA.canon _ mb)
    hla hlb hne
  have hc := swap_edges_canonical A[s.eid_a] A[s.eid_b] s.direction
  unfold positional_swap
  simp only [if_true]
  rw [ea, eb] at h0 h1 hl0 hl1 ⊢
  refine ⟨nodup_set_set A _ _ _ _ hA.nodup h0 h1 hd, ?_, ?_⟩
  · intro e he
    rcases mem_set_set _ _ _ _ _ _ he with h | h | h
    · exact hA.no_loop e h
    · rw [h]; exact hl0
    · rw [h]; exact hl1
  · intro e he
    rcases mem_set_set _ _ _ _ _ _ he with h | h | h
    · exact hA.canon e h
    · rw [h]; exact hc.1
    · rw [h]; exact hc.2

/-! ## The edge of an edge id under given flags -/

theorem positional_run_nil (A : List edge_t) (fl : List Bool) : positional_run A [] fl = A := by
  cases fl <;> rfl

theorem config_at_zero (c : RunCtx) (fl : List Bool) (q : Nat) :
    config_at c fl 0 q = c.edges.getD (request_eid c.swaps q) edge_t.invalid := by
  unfold config_at
  rw [List.take_zero, positional_run_nil]

theorem config_at_succ {c : RunCtx} (h : c.WF) (fl : List Bool) (k : Nat)
    (hk : k < c.swaps.length) (hf : k < fl.length) :
    let cur := (config_at c fl k (2 * k), config_at c fl k (2 * k + 1))
    let out := if fl[k] then _swap_edges cur.1 cur.2 c.swaps[k].direction else cur
    (∀ q, request_eid c.swaps q = request_eid c.swaps (2 * k) →
        config_at c fl (k + 1) q = out.1) ∧
      (∀ q, request_eid c.swaps q = request_eid c.swaps (2 * k + 1) →
        config_at c fl (k + 1) q = out.2) ∧
      (∀ q, request_eid c.swaps q ≠ request_eid c.swaps (2 * k) →
        request_eid c.swaps q ≠ request_eid c.swaps (2 * k + 1) →
        config_at c fl (k + 1) q = config_at c fl k q) := by
  intro cur out
  have ha := RunCtx.eid_even (c := c) k hk
  have hb := RunCtx.eid_odd (c := c) k hk
  have hrange := h.range c.swaps[k] (List.getElem_mem _)
  have hdist := h.distinct c.swaps[k] (List.getElem_mem _)
  have hlen := positional_run_length c.edges (c.swaps.take k) fl
  obtain ⟨g1, g2, g3⟩ := positional_swap_getD (positional_run c.edges (c.swaps.take k) fl)
    c.swaps[k] fl[k] (by rw [hlen]; exact hrange.1) (by rw [hlen]; exact hrange.2) hdist
  have hout : out = (if fl[k] = true then
      _swap_edges ((positional_run c.edges (c.swaps.take k) fl).getD c.swaps[k].eid_a
          edge_t.invalid)
        ((positional_run c.edges (c.swaps.take k) fl).getD c.swaps[k].eid_b edge_t.invalid)
        c.swaps[k].direction
      else ((positional_run c.edges (c.swaps.take k) fl).getD c.swaps[k].eid_a edge_t.invalid,
        (positional_run c.edges (c.swaps.take k) fl).getD c.swaps[k].eid_b edge_t.invalid)) := by
    show (if fl[k] = true then _ else _) = _
    simp only [cur, config_at, ha, hb]
  refine ⟨?_, ?_, ?_⟩
  · intro q hq
    rw [config_at, hq, ha, positional_run_take_succ _ _ _ _ hk hf, g1, hout]
  · intro q hq
    rw [config_at, hq, hb, positional_run_take_succ _ _ _ _ hk hf, g2, hout]
  · intro q hq0 hq1
    rw [config_at, positional_run_take_succ _ _ _ _ hk hf,
      g3 _ (by rw [← ha]; exact hq0) (by rw [← hb]; exact hq1)]
    rfl

theorem config_at_ghost (c : RunCtx) (st : PerformState) (extra : List Bool) (q : Nat)
    (_hlen : st.debug.length ≤ c.swaps.length) :
    config_at c (st.debug.map SwapResult.performed ++ extra) st.debug.length q =
      ghost_at c st q := by
  unfold config_at ghost_at ghost
  rw [positional_run_flags_append _ _ _ _ (by simp)]

/-- Every configuration of a requested edge id has valid node ids when the
requested edges of the input have. -/
theorem config_at_ready {c : RunCtx} (h : c.WF) (fl : List Bool)
    (hfl : c.swaps.length ≤ fl.length)
    (hready : ∀ q, q < 2 * c.swaps.length →
      source_ready (c.edges.getD (request_eid c.swaps q) edge_t.invalid) = true) :
    ∀ k, k ≤ c.swaps.length → ∀ q, q < 2 * c.swaps.length →
      source_ready (config_at c fl k q) = true := by
  intro k
  induction k with
  | zero =>
    intro _ q hq
    rw [config_at_zero]
    exact hready q hq
  | succ k ih =>
    intro hk q hq
    obtain ⟨g1, g2, g3⟩ := config_at_succ h fl k (by omega) (by omega)
    have r0 := ih (by omega) (2 * k) (by omega)
    have r1 := ih (by omega) (2 * k + 1) (by omega)
    have rs := swap_edges_ready _ _ c.swaps[k].direction r0 r1
    by_cases e0 : request_eid c.swaps q = request_eid c.swaps (2 * k)
    · rw [g1 q e0]
      split
      · exact rs.1
      · exact r0
    · by_cases e1 : request_eid c.swaps q = request_eid c.swaps (2 * k + 1)
      · rw [g2 q e1]
        split
        · exact rs.2
        · exact r1
      · rw [g3 q e0 e1]
        exact ih (by omega) q hq

/-! ## The existence chain links every requester of an edge to the next one -/

theorem spec_chain_emits (X : edge_t) :
    ∀ (pre visited : List ExistenceRequestMsg) (r : ExistenceRequestMsg)
      (post : List ExistenceRequestMsg),
      r.swap_id ≠ spec_last_sid (visited ++ pre) r →
      (∃ v ∈ visited ++ pre, v.forward_only = false) →
      (⟨r.swap_id, X, spec_last_sid (visited ++ pre) r⟩ : ExistenceSuccessorMsg) ∈
        spec_existence_chain X visited (pre ++ r :: post) := by
  intro pre
  induction pre with
  | nil =>
    intro visited r post h1 h2
    rw [List.append_nil] at h1 h2 ⊢
    rw [List.nil_append]
    unfold spec_existence_chain
    rw [if_pos ⟨h1, h2⟩]
    exact List.mem_append_left _ (List.mem_singleton.mpr rfl)
  | cons p ps ih =>
    intro visited r post h1 h2
    rw [List.cons_append]
    unfold spec_existence_chain
    apply List.mem_append_right
    have e : visited ++ p :: ps = (visited ++ [p]) ++ ps := by simp
    rw [e] at h1 h2 ⊢
    exact ih (visited ++ [p]) r post h1 h2

theorem spec_last_sid_concat (ys : List ExistenceRequestMsg) (l r : ExistenceRequestMsg) :
    spec_last_sid (ys ++ [l]) r = l.swap_id := by
  unfold spec_last_sid
  simp

/-- In the walk over the requests on one edge, in descending order of their swap
ids, the swap `p` gets a message for the next requester `u` above it when a
target request of a swap from `u` on is among the requests. -/
theorem chain_link_mem (X : edge_t) (run : List ExistenceRequestMsg)
    (hdesc : run.Pairwise (fun a b => b.swap_id ≤ a.swap_id)) (p u : Nat)
    (hp : ∃ r ∈ run, r.swap_id = p) (hu : ∃ r ∈ run, r.swap_id = u) (hpu : p < u)
    (hbetween : ∀ r ∈ run, p < r.swap_id → u ≤ r.swap_id)
    (htgt : ∃ v ∈ run, v.forward_only = false ∧ u ≤ v.swap_id) :
    (⟨p, X, u⟩ : ExistenceSuccessorMsg) ∈ spec_existence_chain X [] run := by
  obtain ⟨rp, hrp, hrpid⟩ := hp
  obtain ⟨ru, hru, hruid⟩ := hu
  obtain ⟨v, hv, hvf, hvu⟩ := htgt
  have hsplit := List.takeWhile_append_dropWhile (fun r => decide (p < r.swap_id)) run
  generalize hpre : run.takeWhile (fun r => decide (p < r.swap_id)) = pre at hsplit
  generalize hrest : run.dropWhile (fun r => decide (p < r.swap_id)) = rest at hsplit
  have hpre_gt : ∀ x ∈ pre, p < x.swap_id := by
    intro x hx
    rw [← hpre] at hx
    simpa using List.mem_takeWhile_imp hx
  rw [← hsplit] at hrp hru hv hdesc
  obtain ⟨hd1, hd2, hd3⟩ := List.pairwise_append.mp hdesc
  have hrp2 : rp ∈ rest := by
    rcases List.mem_append.mp hrp with h | h
    · have := hpre_gt rp h; omega
    · exact h
  cases rest with
  | nil => simp at hrp2
  | cons r0 post =>
    have hr0 : ¬ p < r0.swap_id := by
      have := List.head_dropWhile_not (fun r => decide (p < r.swap_id)) run
        (by rw [hrest]; simp)
      simp only [hrest, List.head_cons, decide_eq_false_iff_not] at this
      exact this
    have hrest_le : ∀ x ∈ r0 :: post, x.swap_id ≤ p := by
      intro x hx
      rcases List.mem_cons.mp hx with rfl | hx
      · omega
      · have := (List.pairwise_cons.mp hd2).1 x hx
        omega
    have hr0p : r0.swap_id = p := by
      have h1 : p ≤ r0.swap_id := by
        rcases List.mem_cons.mp hrp2 with h | h
        · rw [← h, hrpid]
        · have := (List.pairwise_cons.mp hd2).1 rp h
          omega
      omega
    have hru2 : ru ∈ pre := by
      rcases List.mem_append.mp hru with h | h
      · exact h
      · have := hrest_le ru h; omega
    have hv2 : v ∈ pre := by
      rcases List.mem_append.mp hv with h | h
      · exact h
      · have := hrest_le v h; omega
    rcases List.eq_nil_or_concat pre with hnil | ⟨ys, l, hl⟩
    · rw [hnil] at hru2; simp at hru2
    · rw [List.concat_eq_append] at hl
      have hlmem : l ∈ pre := by rw [hl]; simp
      have hl1 : u ≤ l.swap_id :=
        hbetween l (by rw [← hsplit]; exact List.mem_append_left _ hlmem) (hpre_gt l hlmem)
      have hl2 : l.swap_id ≤ u := by
        rw [hl] at hru2 hd1
        rcases List.mem_append.mp hru2 with h | h
        · have := (List.pairwise_append.mp hd1).2.2 ru h l (by simp)
          omega
        · simp only [List.mem_singleton] at h
          rw [h] at hruid
          omega
      have hlast : spec_last_sid ([] ++ pre) r0 = u := by
        rw [List.nil_append, hl, spec_last_sid_concat]
        omega
      have := spec_chain_emits X pre [] r0 post (by rw [hlast]; omega)
        ⟨v, by simpa using hv2, hvf⟩
      rw [hlast, hr0p] at this
      rw [← hsplit]
      exact this

theorem requests_group_desc (X : edge_t) (reqs : List ExistenceRequestMsg)
    (hp : reqs.Pairwise ExistenceRequestMsg.le) :
    (reqs.takeWhile (fun r => decide (r.edge = X))).Pairwise
      (fun a b => b.swap_id ≤ a.swap_id) := by
  have h1 := hp.sublist (List.takeWhile_sublist (fun r => decide (r.edge = X)))
  have h2 : ∀ r ∈ reqs.takeWhile (fun r => decide (r.edge = X)), r.edge = X := by
    intro r hr
    simpa using List.mem_takeWhile_imp hr
  generalize reqs.takeWhile (fun r => decide (r.edge = X)) = g at h1 h2
  induction g with
  | nil => exact List.Pairwise.nil
  | cons a g ih =>
    rw [List.pairwise_cons] at h1 ⊢
    refine ⟨?_, ih h1.2 (fun r hr => h2 r (List.mem_cons_of_mem _ hr))⟩
    intro b hb
    have hab := h1.1 b hb
    rw [ExistenceRequestMsg.le_iff_key, h2 a (List.mem_cons_self _ _),
      h2 b (List.mem_cons_of_mem _ hb)] at hab
    rcases hab with h | h
    · exact absurd h (edge_lt_irrefl X)
    · rcases h.2 with h | h
      · omega
      · omega

/-- The existence-request processor links every requester of an edge to the next
requester above it, if a target request of a swap from that one on exists. -/
theorem process_requests_successors (t : Nat) :
    ∀ (fuel : Nat) (reqs : List ExistenceRequestMsg) (edges : List edge_t),
      reqs.length ≤ fuel → reqs.Pairwise ExistenceRequestMsg.le →
      ∀ (X : edge_t) (p u : Nat),
        (∃ r ∈ reqs, r.edge = X ∧ r.swap_id = p) → (∃ r ∈ reqs, r.edge = X ∧ r.swap_id = u) →
        p < u → (∀ r ∈ reqs, r.edge = X → p < r.swap_id → u ≤ r.swap_id) →
        (∃ v ∈ reqs, v.edge = X ∧ v.forward_only = false ∧ u ≤ v.swap_id) →
        (⟨p, X, u⟩ : ExistenceSuccessorMsg) ∈
          (process_requests t fuel reqs edges).successor_output.map Prod.snd := by
  intro fuel
  induction fuel with
  | zero =>
    intro reqs edges hlen _ X p u hp
    have : reqs = [] := List.eq_nil_of_length_eq_zero (by omega)
    subst this
    obtain ⟨r, hr, -⟩ := hp
    simp at hr
  | succ fuel ih =>
    intro reqs edges hlen hpw X p u hp hu hpu hbetween htgt
    cases reqs with
    | nil =>
      obtain ⟨r, hr, -⟩ := hp
      simp at hr
    | cons request rest =>
      obtain ⟨a1, -, a3⟩ := existence_chain_spec t request.edge (request :: rest) []
        request.swap_id false
        (by
          intro r hr
          simp only [List.head?_cons, Option.some.injEq] at hr
          rw [← hr]
          rfl)
        (by simp)
      have hdrop : ∀ r ∈ (request :: rest).dropWhile (fun r => decide (r.edge = request.edge)),
          r.edge ≠ request.edge := by
        intro r hr he
        have hs := sorted_requests_edge _ hpw
        have hle : ∀ r ∈ request :: rest, request.edge ≤ r.edge := by
          intro r hr
          rcases List.mem_cons.mp hr with rfl | hr
          · exact edge_le_refl _
          · have := hs
            simp only [List.map_cons, List.sorted_cons, List.mem_map, forall_exists_index,
              and_imp, forall_apply_eq_imp_iff₂] at this
            exact this.1 r hr
        have := dropWhile_edge_gt request.edge (request :: rest) hs hle r hr
        rw [he] at this
        exact edge_lt_irrefl _ this
      unfold process_requests
      dsimp only
      rw [List.map_append, List.map_append]
      by_cases hX : X = request.edge
      · subst hX
        apply List.mem_append_left
        apply List.mem_append_left
        rw [a1, List.map_map]
        have hmem := mem_takeWhile_edge request.edge (request :: rest) hdrop
        have hgoal := chain_link_mem request.edge
          ((request :: rest).takeWhile (fun r => decide (r.edge = request.edge)))
          (requests_group_desc request.edge _ hpw) p u
          (by obtain ⟨r, hr, he, hid⟩ := hp; exact ⟨r, (hmem r).mpr ⟨hr, he⟩, hid⟩)
          (by obtain ⟨r, hr, he, hid⟩ := hu; exact ⟨r, (hmem r).mpr ⟨hr, he⟩, hid⟩)
          hpu
          (fun r hr => hbetween r ((hmem r).mp hr).1 ((hmem r).mp hr).2)
          (by obtain ⟨v, hv, he, hvf, hvu⟩ := htgt; exact ⟨v, (hmem v).mpr ⟨hv, he⟩, hvf, hvu⟩)
        exact List.mem_map.mpr ⟨_, hgoal, rfl⟩
      · apply List.mem_append_right
        rw [a3]
        have hin : ∀ r ∈ request :: rest, r.edge = X →
            r ∈ (request :: rest).dropWhile (fun r => decide (r.edge = request.edge)) := by
          intro r hr he
          rcases mem_requests_group request.edge (request :: rest) r hr with h | h
          · exact absurd (he.symm.trans h) hX
          · exact h
        have hsub := (List.dropWhile_suffix
          (fun r : ExistenceRequestMsg => decide (r.edge = request.edge))
          (l := request :: rest)).sublist
        have hlen2 : ((request :: rest).dropWhile
            (fun r => decide (r.edge = request.edge))).length ≤ fuel := by
          rw [List.dropWhile_cons, if_pos (by simp)]
          have := (List.dropWhile_suffix
            (fun r : ExistenceRequestMsg => decide (r.edge = request.edge))
            (l := rest)).sublist.length_le
          simp only [List.length_cons] at hlen
          omega
        refine ih _ _ hlen2 (hpw.sublist hsub) X p u ?_ ?_ hpu ?_ ?_
        · obtain ⟨r, hr, he, hid⟩ := hp; exact ⟨r, hin r hr he, he, hid⟩
        · obtain ⟨r, hr, he, hid⟩ := hu; exact ⟨r, hin r hr he, he, hid⟩
        · intro r hr; exact hbetween r (hsub.subset hr)
        · obtain ⟨v, hv, he, hvf, hvu⟩ := htgt; exact ⟨v, hin v hv he, he, hvf, hvu⟩

/-! ## The configurations the conflict computer holds cover every run -/

theorem key_value_succ (c : RunCtx) (k q : Nat) :
    c.key_value (k + 1) q ↔
      c.key_value k q ∨ (⟨k, q⟩ : DependencyChainSuccessorMsg) ∈ c.links := by
  unfold RunCtx.key_value
  constructor
  · rintro (h | ⟨p, hl, hp⟩)
    · exact Or.inl (Or.inl h)
    · by_cases h1 : p < k
      · exact Or.inl (Or.inr ⟨p, hl, h1⟩)
      · have : p = k := by omega
        subst this
        exact Or.inr hl
  · rintro ((h | ⟨p, hl, hp⟩) | hl)
    · exact Or.inl h
    · exact Or.inr ⟨p, hl, by omega⟩
    · exact Or.inr ⟨_, hl, by omega⟩

theorem key_value_mono (c : RunCtx) {k k2 q : Nat} (hk : k ≤ k2) (h : c.key_value k q) :
    c.key_value k2 q := by
  rcases h with h | ⟨p, hl, hp⟩
  · exact Or.inl h
  · exact Or.inr ⟨p, hl, by omega⟩

theorem key_value_own {c : RunCtx} (h : c.WF) (q : Nat) (hq : q < 2 * c.swaps.length) :
    c.key_value (2 * (q / 2)) q :=
  RunCtx.has_value_own h q hq

/-- The target of a link of the key `k` has not received its configurations
when the keys below `k` are done. -/
theorem not_key_value_of_link {c : RunCtx} (h : c.WF) {k q : Nat}
    (hl : (⟨k, q⟩ : DependencyChainSuccessorMsg) ∈ c.links) : ¬ c.key_value k q := by
  rintro (⟨e, hv⟩ | ⟨p, hv, hp⟩)
  · obtain ⟨-, hmin, -⟩ := (h.facts.mem_edges q e).mp hv
    obtain ⟨hp1, -, he, hlt, -⟩ := (h.facts.mem_links _ q).mp hl
    have := hmin k hp1 he
    omega
  · have := RunCtx.link_unique_predecessor h hv hl
    omega

theorem config_at_stable {c : RunCtx} (h : c.WF) (fl : List Bool)
    (hfl : c.swaps.length ≤ fl.length) (q k : Nat) :
    ∀ (d : Nat), k + d ≤ c.swaps.length →
      (∀ t, 2 * k ≤ t → t < 2 * (k + d) → request_eid c.swaps t ≠ request_eid c.swaps q) →
      config_at c fl (k + d) q = config_at c fl k q := by
  intro d
  induction d with
  | zero => intro _ _; rfl
  | succ d ih =>
    intro hle hne
    obtain ⟨-, -, g3⟩ := config_at_succ h fl (k + d) (by omega) (by omega)
    rw [show k + (d + 1) = k + d + 1 by omega,
      g3 q (Ne.symm (hne _ (by omega) (by omega))) (Ne.symm (hne _ (by omega) (by omega)))]
    exact ih (by omega) (fun t h1 h2 => hne t h1 (by omega))

/-- The edge a swap side holds when its swap starts is the edge its predecessor
leaves: the target edge of the predecessor if its swap is performed, the edge
the predecessor holds otherwise. -/
theorem config_at_link {c : RunCtx} (h : c.WF) (fl : List Bool)
    (hfl : c.swaps.length ≤ fl.length) {p q : Nat}
    (hl : (⟨p, q⟩ : DependencyChainSuccessorMsg) ∈ c.links) :
    config_at c fl (q / 2) q =
      if fl.getD (p / 2) false then target_at c fl p else config_at c fl (p / 2) p := by
  obtain ⟨hp, hq, he, hlt, hbetween⟩ := (h.facts.mem_links p q).mp hl
  have hlater := (RunCtx.link_later h hl).1
  have hpn : p / 2 < c.swaps.length := by omega
  obtain ⟨g1, g2, -⟩ := config_at_succ h fl (p / 2) hpn (by omega)
  have hstab := config_at_stable h fl hfl q (p / 2 + 1) (q / 2 - (p / 2 + 1)) (by omega)
    (by
      intro t h1 h2 hte
      have := hbetween t (by omega) (by rw [hte, he])
      omega)
  rw [show p / 2 + 1 + (q / 2 - (p / 2 + 1)) = q / 2 by omega] at hstab
  rw [hstab]
  have hgd : fl.getD (p / 2) false = fl[p / 2] := List.getD_eq_getElem _ _ (by omega)
  have hdir : c.direction (p / 2) = c.swaps[p / 2].direction := by
    unfold RunCtx.direction
    rw [List.getD_eq_getElem _ _ (by simpa using hpn)]
    simp
  rw [hgd]
  unfold target_at
  rw [hdir]
  rcases Nat.mod_two_eq_zero_or_one p with hpar | hpar
  · have hp2 : p = 2 * (p / 2) := by omega
    rw [g1 q (by rw [← he, ← hp2]), hpar]
    split
    · rfl
    · dsimp only
      rw [← hp2]
  · have hp2 : p = 2 * (p / 2) + 1 := by omega
    rw [g2 q (by rw [← he, ← hp2]), hpar]
    split
    · rfl
    · dsimp only
      rw [← hp2]

/-! ## Reading the configurations of a swap side from the merger -/

theorem depchain_le_edge {a b : DependencyChainEdgeMsg} (h : DependencyChainEdgeMsg.le a b)
    (hs : a.sid = b.sid) : a.edge ≤ b.edge := by
  unfold DependencyChainEdgeMsg.le at h
  rcases h with h | h
  · omega
  · exact h.2

/-- No record of the key `s` is in a merger whose front is not one. -/
theorem no_record_of_front {s k : Nat} {e0 : edge_t} (hk : s < k)
    (m : PQSorterMerger DependencyChainEdgeMsg)
    (hc : m.cursor.Sorted DependencyChainEdgeMsg.le) (hq : m.pq.Sorted DependencyChainEdgeMsg.le)
    (hkeys : ∀ x ∈ m.content, s ≤ x.sid) (hl : m.limit = some ⟨k, e0⟩)
    (hp : ∀ x, m.peek DependencyChainEdgeMsg.le = some x → x.sid ≠ s) :
    ∀ y ∈ m.content, y.sid ≠ s := by
  intro y hy hys
  obtain ⟨x, hx⟩ := PQSorterMerger.peek_isSome DependencyChainEdgeMsg.le m hc hq y hy
    (fun z _ hz => depchain_in_window _ k e0 hl z (by have := depchain_le_sid hz; omega))
  have h1 := depchain_le_sid (PQSorterMerger.peek_le DependencyChainEdgeMsg.le m hc hq
    depchain_le_refl x hx y hy)
  have h2 := hkeys x (PQSorterMerger.peek_mem _ _ _ hx).1
  exact hp x hx (by omega)

theorem hydrate_more_read {s k : Nat} {e0 : edge_t} (hk : s < k) :
    ∀ (fuel : Nat) (m : PQSorterMerger DependencyChainEdgeMsg),
      m.cursor.Sorted DependencyChainEdgeMsg.le → m.pq.Sorted DependencyChainEdgeMsg.le →
      (∀ x ∈ m.content, s ≤ x.sid) → m.content.Nodup → m.limit = some ⟨k, e0⟩ →
      m.cursor.length + m.pq.length ≤ fuel →
      (∀ e, e ∈ (hydrate_more s fuel m).1 ↔ (⟨s, e⟩ : DependencyChainEdgeMsg) ∈ m.content) ∧
        (hydrate_more s fuel m).1.Pairwise (fun a b => a < b) ∧
        (∀ x ∈ m.content, x.sid ≠ s → x ∈ (hydrate_more s fuel m).2.content) ∧
        (∀ x ∈ (hydrate_more s fuel m).2.content, x ∈ m.content) ∧
        (hydrate_more s fuel m).2.content.Nodup := by
  intro fuel
  induction fuel with
  | zero =>
    intro m _ _ _ hnd _ hlen
    unfold hydrate_more
    have hc : m.cursor = [] := List.eq_nil_of_length_eq_zero (by omega)
    have hq : m.pq = [] := List.eq_nil_of_length_eq_zero (by omega)
    have hcont : m.content = [] := by simp [PQSorterMerger.content, hc, hq]
    refine ⟨fun e => by simp [hcont], List.Pairwise.nil, fun x hx _ => hx, fun x hx => hx, hnd⟩
  | succ fuel ih =>
    intro m hc hq hkeys hnd hl hlen
    have hnone : (∀ x, m.peek DependencyChainEdgeMsg.le = some x → x.sid ≠ s) →
        (∀ e, e ∈ ([] : List edge_t) ↔ (⟨s, e⟩ : DependencyChainEdgeMsg) ∈ m.content) ∧
        ([] : List edge_t).Pairwise (fun a b => a < b) ∧
        (∀ x ∈ m.content, x.sid ≠ s → x ∈ m.content) ∧
        (∀ x ∈ m.content, x ∈ m.content) ∧ m.content.Nodup := by
      intro hp
      have hno := no_record_of_front hk m hc hq hkeys hl hp
      refine ⟨fun e => ?_, List.Pairwise.nil, fun x hx _ => hx, fun x hx => hx, hnd⟩
      constructor
      · intro h; simp at h
      · intro h; exact absurd rfl (hno _ h)
    unfold hydrate_more
    cases hp : m.peek DependencyChainEdgeMsg.le with
    | none =>
      dsimp only
      exact hnone (fun x hx => by rw [hp] at hx; simp at hx)
    | some x =>
      dsimp only
      by_cases hx : x.sid = s
      · rw [if_pos hx]
        dsimp only
        have hperm := PQSorterMerger.advance_perm _ _ _ hp
        have hs := PQSorterMerger.advance_sorted _ _ _ hp hc hq
        have hlim := PQSorterMerger.advance_limit DependencyChainEdgeMsg.le m
        have hlen2 := PQSorterMerger.advance_length _ _ _ hp
        have hnd2 : (x :: (m.advance DependencyChainEdgeMsg.le).content).Nodup :=
          hperm.nodup_iff.mpr hnd
        obtain ⟨hxn, hnd3⟩ := List.nodup_cons.mp hnd2
        obtain ⟨a1, a2, a3, a4, a5⟩ := ih (m.advance DependencyChainEdgeMsg.le) hs.1 hs.2
          (fun y hy => hkeys y (hperm.subset (List.mem_cons_of_mem _ hy))) hnd3
          (by rw [hlim.1]; exact hl) (by omega)
        have hxeq : x = ⟨s, x.edge⟩ := by cases x; simp only at hx; subst hx; rfl
        refine ⟨?_, ?_, ?_, ?_, a5⟩
        · intro e
          rw [List.mem_cons, a1 e, ← hperm.mem_iff, List.mem_cons]
          constructor
          · rintro (h | h)
            · left; rw [h]; exact hxeq.symm
            · exact Or.inr h
          · rintro (h | h)
            · left; rw [← h]
            · exact Or.inr h
        · rw [List.pairwise_cons]
          refine ⟨?_, a2⟩
          intro e he
          have hmem := (a1 e).mp he
          have hle := PQSorterMerger.peek_le DependencyChainEdgeMsg.le m hc hq depchain_le_refl
            x hp ⟨s, e⟩ (hperm.subset (List.mem_cons_of_mem _ hmem))
          have hle2 := depchain_le_edge hle hx
          refine (edge_lt_iff_le_ne _ _).mpr ⟨hle2, ?_⟩
          intro heq
          apply hxn
          rw [hxeq, heq]
          exact hmem
        · intro y hy hys
          apply a3 y _ hys
          rcases List.mem_cons.mp (hperm.symm.subset hy) with h | h
          · rw [h] at hys; exact absurd hx hys
          · exact h
        · intro y hy
          exact hperm.subset (List.mem_cons_of_mem _ (a4 y hy))
      · rw [if_neg hx]
        refine hnone (fun y hy => ?_)
        rw [hp] at hy
        simp only [Option.some.injEq] at hy
        rw [← hy]; exact hx

theorem forEach_hydrated (b : Bool) (edge : edge_t) (more : List edge_t) :
    edge_information_t.forEach ⟨b, edge, if more.isEmpty then none else some more⟩ =
      edge :: more := by
  unfold edge_information_t.forEach
  cases more with
  | nil => rfl
  | cons x xs => rfl

theorem hydrate_side_frame (swap_id spos : Nat) (st : ConflictState) :
    (∀ k, k ≠ (swap_id, spos) →
        (hydrate_side swap_id spos st).edge_information k = st.edge_information k) ∧
      (hydrate_side swap_id spos st).existence_requests = st.existence_requests ∧
      (hydrate_side swap_id spos st).dep = st.dep ∧
      (hydrate_side swap_id spos st)._swap_direction = st._swap_direction := by
  unfold hydrate_side
  dsimp only
  refine ⟨?_, rfl, rfl, rfl⟩
  intro k hk
  unfold slot_set
  rw [if_neg hk]

/-- The hydration of a swap side reads every record of its key: the slot holds
their edges in ascending order, and the records of the other keys stay. -/
theorem hydrate_side_read (k swap_id spos : Nat) (e0 : edge_t) (st : ConflictState)
    (hid : swap_id < 2 ^ 63) (hs : spos < 2) (hk : 2 * swap_id + spos < k)
    (hc : st._edge_state.cursor.Sorted DependencyChainEdgeMsg.le)
    (hq : st._edge_state.pq.Sorted DependencyChainEdgeMsg.le)
    (hkeys : ∀ x ∈ st._edge_state.content, 2 * swap_id + spos ≤ x.sid)
    (hnd : st._edge_state.content.Nodup)
    (hl : st._edge_state.limit = some ⟨k, e0⟩) :
    (∀ x ∈ st._edge_state.content, x.sid ≠ 2 * swap_id + spos →
        x ∈ (hydrate_side swap_id spos st)._edge_state.content) ∧
      (∀ x ∈ (hydrate_side swap_id spos st)._edge_state.content, x ∈ st._edge_state.content) ∧
      (hydrate_side swap_id spos st)._edge_state.content.Nodup ∧
      ((∃ e, (⟨2 * swap_id + spos, e⟩ : DependencyChainEdgeMsg) ∈ st._edge_state.content) →
        (∀ e, e ∈ ((hydrate_side swap_id spos st).edge_information (swap_id, spos)).forEach ↔
          (⟨2 * swap_id + spos, e⟩ : DependencyChainEdgeMsg) ∈ st._edge_state.content) ∧
        ((hydrate_side swap_id spos st).edge_information (swap_id, spos)).forEach.Pairwise
          (fun a b => a < b)) := by
  unfold hydrate_side
  rw [pack_eq hid hs]
  dsimp only
  have hslot : ∀ (f : Nat × Nat → edge_information_t) (v : edge_information_t),
      slot_set f (swap_id, spos) v (swap_id, spos) = v := by
    intro f v; unfold slot_set; rw [if_pos rfl]
  rw [hslot]
  have hA := hydrate_more_read hk (st._edge_state.cursor.length + st._edge_state.pq.length)
    st._edge_state hc hq hkeys hnd hl (Nat.le_refl _)
  have hnone : (∀ x, st._edge_state.peek DependencyChainEdgeMsg.le = some x →
      x.sid ≠ 2 * swap_id + spos) →
      ¬ ∃ e, (⟨2 * swap_id + spos, e⟩ : DependencyChainEdgeMsg) ∈ st._edge_state.content := by
    intro hp ⟨e, he⟩
    exact no_record_of_front hk _ hc hq hkeys hl hp _ he rfl
  cases hp : st._edge_state.peek DependencyChainEdgeMsg.le with
  | none =>
    dsimp only
    obtain ⟨-, -, a3, a4, a5⟩ := hA
    exact ⟨a3, a4, a5, fun hex =>
      absurd hex (hnone (fun x hx => by rw [hp] at hx; simp at hx))⟩
  | some x =>
    dsimp only
    by_cases hx : x.sid = 2 * swap_id + spos
    · rw [if_pos hx]
      dsimp only
      have hperm := PQSorterMerger.advance_perm _ _ _ hp
      have hs2 := PQSorterMerger.advance_sorted _ _ _ hp hc hq
      have hlim := PQSorterMerger.advance_limit DependencyChainEdgeMsg.le st._edge_state
      have hnd2 : (x :: (st._edge_state.advance DependencyChainEdgeMsg.le).content).Nodup :=
        hperm.nodup_iff.mpr hnd
      obtain ⟨hxn, hnd3⟩ := List.nodup_cons.mp hnd2
      obtain ⟨a1, a2, a3, a4, a5⟩ := hydrate_more_read hk
        ((st._edge_state.advance DependencyChainEdgeMsg.le).cursor.length +
          (st._edge_state.advance DependencyChainEdgeMsg.le).pq.length)
        (st._edge_state.advance DependencyChainEdgeMsg.le) hs2.1 hs2.2
        (fun y hy => hkeys y (hperm.subset (List.mem_cons_of_mem _ hy))) hnd3
        (by rw [hlim.1]; exact hl) (Nat.le_refl _)
      have hxeq : x = ⟨2 * swap_id + spos, x.edge⟩ := by
        cases x; simp only at hx; subst hx; rfl
      refine ⟨?_, ?_, a5, fun _ => ?_⟩
      · intro y hy hys
        apply a3 y _ hys
        rcases List.mem_cons.mp (hperm.symm.subset hy) with h | h
        · rw [h] at hys; exact absurd hx hys
        · exact h
      · intro y hy
        exact hperm.subset (List.mem_cons_of_mem _ (a4 y hy))
      · rw [forEach_hydrated]
        constructor
        · intro e
          rw [List.mem_cons, a1 e, ← hperm.mem_iff, List.mem_cons]
          constructor
          · rintro (h | h)
            · left; rw [h]; exact hxeq.symm
            · exact Or.inr h
          · rintro (h | h)
            · left; rw [← h]
            · exact Or.inr h
        · rw [List.pairwise_cons]
          refine ⟨?_, a2⟩
          intro e he
          have hmem := (a1 e).mp he
          have hle := PQSorterMerger.peek_le DependencyChainEdgeMsg.le st._edge_state hc hq
            depchain_le_refl x hp ⟨2 * swap_id + spos, e⟩
            (hperm.subset (List.mem_cons_of_mem _ hmem))
          have hle2 := depchain_le_edge hle hx
          refine (edge_lt_iff_le_ne _ _).mpr ⟨hle2, ?_⟩
          intro heq
          apply hxn
          rw [hxeq, heq]
          exact hmem
    · rw [if_neg hx]
      dsimp only
      obtain ⟨-, -, a3, a4, a5⟩ := hA
      refine ⟨a3, a4, a5, fun hex => absurd hex (hnone (fun y hy => ?_))⟩
      rw [hp] at hy
      simp only [Option.some.injEq] at hy
      rw [← hy]; exact hx

/-! ## The hydration of `_compute_conflicts` keeps the cover -/

theorem ConfCover.cover_of_fields {c : RunCtx} {fl : List Bool} {f k : Nat} {st st2 : ConflictState}
    (hcov : ConfCover c fl f k st)
    (h1 : ∀ q, q < f → st2.edge_information (q / 2, q % 2) = st.edge_information (q / 2, q % 2))
    (h2 : st2._edge_state.content = st._edge_state.content)
    (h3 : st2.existence_requests = st.existence_requests) : ConfCover c fl f k st2 := by
  constructor
  · intro q hk hf hv
    rw [h1 q hf]
    exact hcov.slots q hk hf hv
  · intro q hf hq hv
    rw [h2]
    exact hcov.m_cover q hf hq hv
  · rw [h2]; exact hcov.m_ready
  · rw [h2]; exact hcov.m_nodup
  · rw [h2]; exact hcov.m_hv
  · rw [h3]; exact hcov.requests

theorem hydrate_side_cover {c : RunCtx} (fl : List Bool) {k : Nat}
    (id s lim : Nat) (e0 : edge_t) (st : ConflictState)
    (hid : id < c.swaps.length) (hn : c.swaps.length < 2 ^ 63) (hs : s < 2)
    (hlim : 2 * id + s < lim)
    (hm : MergerKeys (2 * id + s) (2 * c.swaps.length) st._edge_state)
    (hl : st._edge_state.limit = some ⟨lim, e0⟩)
    (hcov : ConfCover c fl (2 * id + s) k st) :
    ConfCover c fl (2 * id + s + 1) k (hydrate_side id s st) := by
  obtain ⟨r1, r2, r3, r4⟩ := hydrate_side_read lim id s e0 st (by omega) hs hlim hm.cur_sorted
    hm.pq_sorted (fun x hx => (hm.keys x hx).1) hcov.m_nodup hl
  obtain ⟨f1, f2, -, -⟩ := hydrate_side_frame id s st
  constructor
  · intro q hk hf hv
    by_cases hq : q = 2 * id + s
    · have hkey : (q / 2, q % 2) = (id, s) := by
        rw [hq]; simp only [Prod.mk.injEq]; omega
      rw [hkey]
      have hmem := hcov.m_cover q (by omega) (by omega) hv
      rw [hq] at hmem
      obtain ⟨b1, b2⟩ := r4 ⟨_, hmem⟩
      refine ⟨b2, ?_, ?_⟩
      · intro e he
        exact hcov.m_ready _ ((b1 e).mp he)
      · rw [hq]
        exact (b1 _).mpr hmem
    · rw [f1 _ (by simp only [ne_eq, Prod.mk.injEq]; omega)]
      exact hcov.slots q hk (by omega) hv
  · intro q hf hq hv
    exact r1 _ (hcov.m_cover q (by omega) hq hv) (by simp only; omega)
  · intro x hx
    exact hcov.m_ready x (r2 x hx)
  · exact r3
  · intro x hx
    exact hcov.m_hv x (r2 x hx)
  · rw [f2]; exact hcov.requests

theorem hydrate_cover {c : RunCtx} (h : c.WF) (fl : List Bool) {limit sid : Nat}
    (hlim : limit ≤ c.swaps.length) (e : edge_t) :
    ∀ (n id : Nat) (st : ConflictState), ConfInv c (2 * min id limit) sid st →
      ConfCover c fl (2 * min id limit) (2 * sid) st →
      st._edge_state.limit = some ⟨2 * limit, e⟩ →
      (limit < id + n → limit = c.swaps.length) →
      ConfCover c fl (2 * min (id + n) limit) (2 * sid) (hydrate n id st) := by
  have hn := h.n_lt
  intro n
  induction n with
  | zero =>
    intro id st _ hcov _ _
    exact hcov
  | succ n ih =>
    intro id st hinv hcov hl hcover
    unfold hydrate
    rw [show id + (n + 1) = id + 1 + n by omega]
    by_cases hid : id < limit
    · have hm : min id limit = id := by omega
      rw [hm] at hinv hcov
      obtain ⟨a1, a2, a3, a4, -⟩ := hydrate_side_keys (2 * c.swaps.length) _ id 0 _ st
        (by omega) (by omega) (by omega) hinv.keys hl
      obtain ⟨b1, b2, b3, b4, -⟩ := hydrate_side_keys (2 * c.swaps.length) _ id 1 _
        (hydrate_side id 0 st) (by omega) (by omega) (by omega) a1 a2
      have c1 := hydrate_side_cover fl id 0 (2 * limit) e st (by omega) hn (by omega) (by omega)
        hinv.keys hl hcov
      have c2 := hydrate_side_cover fl id 1 (2 * limit) e (hydrate_side id 0 st) (by omega) hn
        (by omega) (by omega) a1 a2 c1
      apply ih (id + 1) _ _ _ b2 (by omega)
      · rw [show min (id + 1) limit = id + 1 by omega]
        exact ⟨by rw [b4, a4]; exact hinv.deps, by rw [b3, a3]; exact hinv.sorter, b1⟩
      · rw [show min (id + 1) limit = id + 1 by omega]
        exact c2
    · have hN : limit = c.swaps.length := hcover (by omega)
      have hm : min id limit = limit := by omega
      rw [hm] at hinv hcov
      have hnil : st._edge_state.content = [] := by
        apply List.eq_nil_iff_forall_not_mem.mpr
        intro x hx
        have := hinv.keys.keys x hx
        omega
      obtain ⟨a1, a2, -⟩ := hydrate_side_skip id 0 st hnil
      obtain ⟨b1, b2, -⟩ := hydrate_side_skip id 1 (hydrate_side id 0 st) (by rw [a1]; exact hnil)
      obtain ⟨f1, f2, -, -⟩ := hydrate_side_frame id 0 st
      obtain ⟨g1, g2, -, -⟩ := hydrate_side_frame id 1 (hydrate_side id 0 st)
      apply ih (id + 1) _ _ _ (by rw [b1, a1]; exact hl) (by omega)
      · rw [show min (id + 1) limit = limit by omega]
        exact hinv.of_merger (by rw [b2, a2]) (by rw [b1, a1]) (by rw [b1, a1]) (by rw [b1, a1])
      · rw [show min (id + 1) limit = limit by omega]
        refine hcov.cover_of_fields ?_ (by rw [b1, a1]) (by rw [g2, f2])
        intro q hq
        rw [g1 _ (by simp only [ne_eq, Prod.mk.injEq]; omega),
          f1 _ (by simp only [ne_eq, Prod.mk.injEq]; omega)]

/-! ## One side of a swap in `_compute_conflicts` keeps the cover -/

theorem foldl_push_content (succ : Nat) :
    ∀ (calls : List (edge_t × Bool)) (m : PQSorterMerger DependencyChainEdgeMsg),
      (calls.foldl (fun m c => m.push_pq DependencyChainEdgeMsg.le ⟨succ, c.1⟩) m).content.Perm
        (calls.map (fun c => (⟨succ, c.1⟩ : DependencyChainEdgeMsg)) ++ m.content) := by
  intro calls
  induction calls with
  | nil => intro m; exact List.Perm.refl _
  | cons x xs ih =>
    intro m
    rw [List.foldl_cons, List.map_cons, List.cons_append]
    refine (ih _).trans ?_
    refine (List.Perm.append_left _ (PQSorterMerger.push_pq_perm _ m ⟨succ, x.1⟩)).trans ?_
    exact List.perm_middle

theorem conflicts_side_other_slots (limit sid succ : Nat) (sources dd_new : List edge_t)
    (st : ConflictState) (k : Nat × Nat)
    (hk : succ ≠ 0 → get_swap_id succ < limit → k ≠ (get_swap_id succ, get_swap_spos succ)) :
    (conflicts_side limit sid succ sources dd_new st).edge_information k =
      st.edge_information k := by
  unfold conflicts_side
  dsimp only
  by_cases h1 : succ ≠ 0 ∧ get_swap_id succ < limit
  · rw [if_pos (decide_eq_true h1)]
    dsimp only
    unfold slot_set
    rw [if_neg (hk h1.1 h1.2)]
    split <;> rfl
  · rw [if_neg (by simpa using h1)]
    split <;> rfl

theorem pairwise_lt_nodup (l : List edge_t) (h : l.Pairwise (fun a b => a < b)) : l.Nodup :=
  h.imp (by intro a b hab heq; subst heq; exact edge_lt_irrefl _ hab)

theorem conflicts_side_cover {c : RunCtx} (h : c.WF) (fl : List Bool)
    (hfl : c.swaps.length ≤ fl.length) {limit sid s : Nat} (hs : s < 2) (hsid : sid < limit)
    (hlim : limit ≤ c.swaps.length) (st : ConflictState) (succ : Nat)
    (hsucc : (succ = 0 ∧ ∀ q, (⟨2 * sid + s, q⟩ : DependencyChainSuccessorMsg) ∉ c.links) ∨
      (⟨2 * sid + s, succ⟩ : DependencyChainSuccessorMsg) ∈ c.links)
    (dd_new : List edge_t) (htgt : target_at c fl (2 * sid + s) ∈ dd_new)
    (hrd : ∀ e ∈ dd_new, source_ready e = true)
    (hcov : ConfCover c fl (2 * limit) (2 * sid + s) st) :
    ConfCover c fl (2 * limit) (2 * sid + s + 1)
      (conflicts_side limit sid succ (st.edge_information (sid, s)).forEach dd_new st) := by
  have hn := h.n_lt
  have hkv : c.key_value (2 * sid + s) (2 * sid + s) := by
    have := key_value_own h (2 * sid + s) (by omega)
    rw [show (2 * sid + s) / 2 = sid by omega] at this
    exact key_value_mono c (by omega) this
  have hslot := hcov.slots (2 * sid + s) (Nat.le_refl _) (by omega) hkv
  rw [show (2 * sid + s) / 2 = sid by omega, show (2 * sid + s) % 2 = s by omega] at hslot
  obtain ⟨hsorted, hready, hmem⟩ := hslot
  generalize hsrc : (st.edge_information (sid, s)).forEach = sources at *
  obtain ⟨hds, hdm⟩ := sorted_candidates dd_new
  have hvalid : ∀ e ∈ sources, e ≠ edge_t.invalid := fun e he => ready_ne_invalid e (hready e he)
  obtain ⟨p1, p2⟩ := forward_calls_sorted sources _ hsorted hvalid hds
  obtain ⟨-, -, p3⟩ := forward_calls_spec sources _ hsorted hvalid hds
  have hreq := conflicts_side_requests limit sid succ sources dd_new st
  have hothers := conflicts_side_other_slots limit sid succ sources dd_new st
  have hcalls_ready : ∀ x ∈ (forward_calls sources
      (if dd_new.length > 1 then sorter_sort edge_le dd_new else dd_new)).map Prod.fst,
      source_ready x = true := by
    intro x hx
    rcases (p2 x).mp hx with h1 | h1
    · exact hready x h1
    · exact hrd x ((hdm x).mp h1)
  have hcalls_ne : forward_calls sources
      (if dd_new.length > 1 then sorter_sort edge_le dd_new else dd_new) ≠ [] := by
    intro hnil
    have := (p2 _).mpr (Or.inl hmem)
    rw [hnil] at this
    simp at this
  -- the value of the successor
  have hval : ∀ q, (⟨2 * sid + s, q⟩ : DependencyChainSuccessorMsg) ∈ c.links →
      config_at c fl (q / 2) q ∈ (forward_calls sources
        (if dd_new.length > 1 then sorter_sort edge_le dd_new else dd_new)).map Prod.fst := by
    intro q hl
    rw [config_at_link h fl hfl hl, show (2 * sid + s) / 2 = sid by omega]
    by_cases hf : fl.getD sid false = true
    · rw [if_pos hf]
      exact (p2 _).mpr (Or.inr ((hdm _).mpr htgt))
    · rw [if_neg hf]
      exact (p2 _).mpr (Or.inl hmem)
  have hsucc_eq : ∀ q, (⟨2 * sid + s, q⟩ : DependencyChainSuccessorMsg) ∈ c.links →
      (⟨2 * sid + s, succ⟩ : DependencyChainSuccessorMsg) ∈ c.links ∧ succ = q ∧ succ ≠ 0 := by
    intro q hl
    rcases hsucc with ⟨-, hno⟩ | hl2
    · exact absurd hl (hno q)
    · have := RunCtx.link_unique_successor h hl hl2
      have := (RunCtx.link_later h hl).1
      exact ⟨hl2, by omega, by omega⟩
  -- the merger
  have hmerger : (∀ x ∈ st._edge_state.content,
        x ∈ (conflicts_side limit sid succ sources dd_new st)._edge_state.content) ∧
      (∀ x ∈ (conflicts_side limit sid succ sources dd_new st)._edge_state.content,
        x ∈ st._edge_state.content ∨
          ((⟨2 * sid + s, succ⟩ : DependencyChainSuccessorMsg) ∈ c.links ∧ x.sid = succ ∧
            x.edge ∈ (forward_calls sources
              (if dd_new.length > 1 then sorter_sort edge_le dd_new else dd_new)).map
              Prod.fst)) ∧
      (conflicts_side limit sid succ sources dd_new st)._edge_state.content.Nodup ∧
      ((⟨2 * sid + s, succ⟩ : DependencyChainSuccessorMsg) ∈ c.links →
        ¬ get_swap_id succ < limit →
        ∀ e ∈ (forward_calls sources
          (if dd_new.length > 1 then sorter_sort edge_le dd_new else dd_new)).map Prod.fst,
          (⟨succ, e⟩ : DependencyChainEdgeMsg) ∈
            (conflicts_side limit sid succ sources dd_new st)._edge_state.content) := by
    by_cases hin : get_swap_id succ < limit
    · rw [conflicts_side_in_batch limit sid succ sources dd_new st hin]
      exact ⟨fun x hx => hx, fun x hx => Or.inl hx, hcov.m_nodup, fun _ hno => absurd hin hno⟩
    · rcases hsucc with ⟨h0, -⟩ | hl
      · subst h0
        rw [(conflicts_side_no_successor limit sid sources dd_new st).1]
        refine ⟨fun x hx => hx, fun x hx => Or.inl hx, hcov.m_nodup, fun hl _ => ?_⟩
        have := (RunCtx.link_later h hl).1
        omega
      · have hne0 : succ ≠ 0 := by
          have := (RunCtx.link_later h hl).1
          omega
        rw [(conflicts_side_other_batch limit sid succ sources dd_new st hne0 hin).1]
        have hperm := foldl_push_content succ (forward_calls sources
          (if dd_new.length > 1 then sorter_sort edge_le dd_new else dd_new)) st._edge_state
        refine ⟨?_, ?_, ?_, ?_⟩
        · intro x hx
          exact hperm.symm.subset (List.mem_append_right _ hx)
        · intro x hx
          rcases List.mem_append.mp (hperm.subset hx) with h1 | h1
          · obtain ⟨cc, hcc, rfl⟩ := List.mem_map.mp h1
            exact Or.inr ⟨hl, rfl, List.mem_map.mpr ⟨cc, hcc, rfl⟩⟩
          · exact Or.inl h1
        · rw [hperm.nodup_iff, List.nodup_append]
          refine ⟨?_, hcov.m_nodup, ?_⟩
          · have e1 : (forward_calls sources
                (if dd_new.length > 1 then sorter_sort edge_le dd_new else dd_new)).map
                (fun cc => (⟨succ, cc.1⟩ : DependencyChainEdgeMsg)) =
                ((forward_calls sources
                  (if dd_new.length > 1 then sorter_sort edge_le dd_new else dd_new)).map
                  Prod.fst).map (fun e => (⟨succ, e⟩ : DependencyChainEdgeMsg)) := by
              rw [List.map_map]; rfl
            rw [e1]
            refine (pairwise_lt_nodup _ p1).map ?_
            intro a b hab
            simpa using hab
          · intro x hx1 hx2
            obtain ⟨cc, -, rfl⟩ := List.mem_map.mp hx1
            exact not_key_value_of_link h hl (hcov.m_hv _ hx2)
        · intro _ _ e he
          obtain ⟨cc, hcc, rfl⟩ := List.mem_map.mp he
          exact hperm.symm.subset (List.mem_append_left _ (List.mem_map.mpr ⟨cc, hcc, rfl⟩))
  obtain ⟨m1, m2, m3, m4⟩ := hmerger
  constructor
  · intro q hk hf hv
    rcases (key_value_succ c _ q).mp hv with hv | hl
    · rw [hothers]
      · exact hcov.slots q (by omega) hf hv
      · intro h0 hb heq
        rcases hsucc with ⟨h00, -⟩ | hl
        · exact h0 h00
        · rw [get_swap_id_eq, get_swap_spos_eq] at heq
          simp only [Prod.mk.injEq] at heq
          have : q = succ := by omega
          rw [this] at hv
          exact not_key_value_of_link h hl hv
    · obtain ⟨hl2, hq, hne0⟩ := hsucc_eq q hl
      subst hq
      have hb : get_swap_id succ < limit := by rw [get_swap_id_eq]; omega
      obtain ⟨-, s2, -⟩ := conflicts_side_slot limit sid succ sources dd_new st hne0 hb hcalls_ne
      rw [get_swap_id_eq, get_swap_spos_eq] at s2
      rw [s2]
      exact ⟨p1, hcalls_ready, hval succ hl⟩
  · intro q hf hq hv
    rcases (key_value_succ c _ q).mp hv with hv | hl
    · exact m1 _ (hcov.m_cover q hf hq hv)
    · obtain ⟨hl2, hq2, hne0⟩ := hsucc_eq q hl
      subst hq2
      exact m4 hl (by rw [get_swap_id_eq]; omega) _ (hval succ hl)
  · intro x hx
    rcases m2 x hx with h1 | ⟨-, -, h1⟩
    · exact hcov.m_ready x h1
    · exact hcalls_ready _ h1
  · exact m3
  · intro x hx
    rcases m2 x hx with h1 | ⟨hl, h1, -⟩
    · exact key_value_mono c (by omega) (hcov.m_hv x h1)
    · rw [h1]
      exact (key_value_succ c _ _).mpr (Or.inr hl)
  · intro t ht
    rw [hreq]
    by_cases htk : t < 2 * sid + s
    · obtain ⟨⟨r, hr, hr1, hr2⟩, k2⟩ := hcov.requests t htk
      exact ⟨⟨r, List.mem_append_left _ hr, hr1, hr2⟩, List.mem_append_left _ k2⟩
    · have ht2 : t = 2 * sid + s := by omega
      subst ht2
      have hdiv : (2 * sid + s) / 2 = sid := by omega
      constructor
      · rw [hdiv]
        obtain ⟨cc, hcc, hce⟩ := List.mem_map.mp ((p2 _).mpr (Or.inl hmem))
        exact ⟨⟨cc.1, sid, cc.2⟩, List.mem_append_right _ (List.mem_map.mpr ⟨cc, hcc, rfl⟩),
          hce, rfl⟩
      · rw [hdiv]
        obtain ⟨cc, hcc, hce⟩ := List.mem_map.mp ((p3 _).mpr ((hdm _).mpr htgt))
        have hflag : cc.2 = false := by
          have := (List.mem_filter.mp hcc).2
          simpa using this
        apply List.mem_append_right
        refine List.mem_map.mpr ⟨cc, (List.mem_filter.mp hcc).1, ?_⟩
        rw [hce, hflag]

/-! ## One swap of `_compute_conflicts` keeps the cover -/

theorem fetch_successor_cases {c : RunCtx} {sid s : Nat}
    {dep : List DependencyChainSuccessorMsg} (hsid : sid < 2 ^ 63) (hs : s < 2)
    (hd : LinkStream c (2 * sid + s) dep) :
    ((fetch_successor sid s dep).1 = 0 ∧
        ∀ q, (⟨2 * sid + s, q⟩ : DependencyChainSuccessorMsg) ∉ c.links) ∨
      (⟨2 * sid + s, (fetch_successor sid s dep).1⟩ : DependencyChainSuccessorMsg) ∈ c.links := by
  unfold fetch_successor
  rw [pack_eq hsid hs]
  rcases hd.step with ⟨q, rest, hdep, hl, -⟩ | ⟨hno, hrest⟩
  · right
    rw [hdep]
    simp only [if_true]
    exact hl
  · left
    cases dep with
    | nil => exact ⟨rfl, hno⟩
    | cons m rest =>
      have := ((hrest.mem m).mp (List.mem_cons_self _ _)).2
      dsimp only
      rw [if_neg (by omega)]
      exact ⟨rfl, hno⟩

theorem direction_eq (c : RunCtx) (i : Nat) (hi : i < c.swaps.length) :
    c.direction i = c.swaps[i].direction := by
  unfold RunCtx.direction
  rw [List.getD_eq_getElem _ _ (by simpa using hi)]
  simp

theorem target_at_even (c : RunCtx) (fl : List Bool) (i : Nat) :
    target_at c fl (2 * i) = (_swap_edges (config_at c fl i (2 * i))
      (config_at c fl i (2 * i + 1)) (c.direction i)).1 := by
  unfold target_at
  rw [show 2 * i / 2 = i by omega, show 2 * i % 2 = 0 by omega]
  rfl

theorem target_at_odd (c : RunCtx) (fl : List Bool) (i : Nat) :
    target_at c fl (2 * i + 1) = (_swap_edges (config_at c fl i (2 * i))
      (config_at c fl i (2 * i + 1)) (c.direction i)).2 := by
  unfold target_at
  rw [show (2 * i + 1) / 2 = i by omega, show (2 * i + 1) % 2 = 1 by omega]
  rfl

theorem conflicts_side_dirs (limit sid succ : Nat) (sources dd_new : List edge_t)
    (st : ConflictState) :
    (conflicts_side limit sid succ sources dd_new st)._swap_direction = st._swap_direction := by
  unfold conflicts_side
  dsimp only
  split <;> split <;> rfl

theorem conflicts_swap_cover {c : RunCtx} (h : c.WF) (fl : List Bool)
    (hfl : c.swaps.length ≤ fl.length) {limit sid : Nat} {st st2 : ConflictState}
    (hinv : ConfInv c (2 * limit) sid st)
    (hdirs : st._swap_direction = (c.swaps.drop sid).map SwapDescriptor.direction)
    (hcov : ConfCover c fl (2 * limit) (2 * sid) st) (hsid : sid < limit)
    (hlim : limit ≤ c.swaps.length)
    (hcs : conflicts_swap limit sid st = some st2) :
    ConfCover c fl (2 * limit) (2 * (sid + 1)) st2 ∧
      st2._swap_direction = (c.swaps.drop (sid + 1)).map SwapDescriptor.direction := by
  have hn := h.n_lt
  have hsn : sid < c.swaps.length := by omega
  unfold conflicts_swap at hcs
  split at hcs
  · simp at hcs
  next direction directions hdir =>
  dsimp only at hcs
  split at hcs
  · simp at hcs
  split at hcs
  · simp at hcs
  simp only [Option.some.injEq] at hcs
  have hdrop : c.swaps.drop sid = c.swaps[sid] :: c.swaps.drop (sid + 1) :=
    List.drop_eq_getElem_cons hsn
  rw [hdir, hdrop, List.map_cons] at hdirs
  simp only [List.cons.injEq] at hdirs
  obtain ⟨hdirection, hdirections⟩ := hdirs
  have hdc : c.direction sid = direction := by rw [direction_eq c sid hsn, hdirection]
  have hf0 := fetch_successor_cases (s := 0) (by omega) (by omega) hinv.deps
  obtain ⟨hd0, -⟩ := fetch_successor_spec (s := 0) (by omega) (by omega) hinv.deps
  have hf1 := fetch_successor_cases (s := 1) (by omega) (by omega) hd0
  -- the sources of the two sides
  have hkv0 : c.key_value (2 * sid) (2 * sid + 0) := by
    have := key_value_own h (2 * sid) (by omega)
    rw [show 2 * sid / 2 = sid by omega] at this
    exact this
  have hkv1 : c.key_value (2 * sid) (2 * sid + 1) := by
    have := key_value_own h (2 * sid + 1) (by omega)
    rw [show (2 * sid + 1) / 2 = sid by omega] at this
    exact this
  have hs0 := hcov.slots (2 * sid + 0) (by omega) (by omega) hkv0
  have hs1 := hcov.slots (2 * sid + 1) (by omega) (by omega) hkv1
  rw [show (2 * sid + 0) / 2 = sid by omega, show (2 * sid + 0) % 2 = 0 by omega,
    Nat.add_zero] at hs0
  rw [show (2 * sid + 1) / 2 = sid by omega, show (2 * sid + 1) % 2 = 1 by omega] at hs1
  obtain ⟨-, hr0, hm0⟩ := hs0
  obtain ⟨-, hr1, hm1⟩ := hs1
  have hcart := mem_cartesian_new_edges (st.edge_information (sid, 0)).forEach
    (st.edge_information (sid, 1)).forEach direction
  have ht0 : target_at c fl (2 * sid + 0) ∈ (cartesian_new_edges
      (st.edge_information (sid, 0)).forEach (st.edge_information (sid, 1)).forEach
      direction).1 := by
    rw [Nat.add_zero, target_at_even, hdc]
    exact (hcart _).1.mpr ⟨_, hm0, _, hm1, rfl⟩
  have ht1 : target_at c fl (2 * sid + 1) ∈ (cartesian_new_edges
      (st.edge_information (sid, 0)).forEach (st.edge_information (sid, 1)).forEach
      direction).2 := by
    rw [target_at_odd, hdc]
    exact (hcart _).2.mpr ⟨_, hm0, _, hm1, rfl⟩
  have hrd0 : ∀ e ∈ (cartesian_new_edges (st.edge_information (sid, 0)).forEach
      (st.edge_information (sid, 1)).forEach direction).1, source_ready e = true := by
    intro e he
    obtain ⟨e1, h1, e2, h2, rfl⟩ := (hcart e).1.mp he
    exact (swap_edges_ready e1 e2 direction (hr0 e1 h1) (hr1 e2 h2)).1
  have hrd1 : ∀ e ∈ (cartesian_new_edges (st.edge_information (sid, 0)).forEach
      (st.edge_information (sid, 1)).forEach direction).2, source_ready e = true := by
    intro e he
    obtain ⟨e1, h1, e2, h2, rfl⟩ := (hcart e).2.mp he
    exact (swap_edges_ready e1 e2 direction (hr0 e1 h1) (hr1 e2 h2)).2
  have hcov0 : ConfCover c fl (2 * limit) (2 * sid + 0)
      { st with _swap_direction := directions
                dep := (fetch_successor sid 1 (fetch_successor sid 0 st.dep).2).2 } :=
    hcov.cover_of_fields (fun _ _ => rfl) rfl rfl
  have c1 := conflicts_side_cover h fl hfl (s := 0) (by omega) hsid hlim
    { st with _swap_direction := directions
              dep := (fetch_successor sid 1 (fetch_successor sid 0 st.dep).2).2 }
    (fetch_successor sid 0 st.dep).1 hf0 _ ht0 hrd0 hcov0
  have c2 := conflicts_side_cover h fl hfl (s := 1) (by omega) hsid hlim _
    (fetch_successor sid 1 (fetch_successor sid 0 st.dep).2).1 hf1 _ ht1 hrd1 c1
  rw [show 2 * sid + 1 + 1 = 2 * (sid + 1) by omega] at c2
  rw [← hcs]
  refine ⟨c2, ?_⟩
  rw [conflicts_side_dirs, conflicts_side_dirs]
  exact hdirections

/-! ## The loops of `_compute_conflicts` keep the cover -/

theorem hydrate_dirs : ∀ (n id : Nat) (st : ConflictState),
    (hydrate n id st)._swap_direction = st._swap_direction := by
  intro n
  induction n with
  | zero => intro id st; rfl
  | succ n ih =>
    intro id st
    unfold hydrate
    rw [ih, (hydrate_side_frame id 1 _).2.2.2, (hydrate_side_frame id 0 _).2.2.2]

theorem conflicts_workers_cover {c : RunCtx} (h : c.WF) (fl : List Bool)
    (hfl : c.swaps.length ≤ fl.length) {limit : Nat} (hlim : limit ≤ c.swaps.length) :
    ∀ (n sid : Nat) (st st2 : ConflictState),
      ConfInv c (2 * limit) (min sid c.swaps.length) st →
      st._swap_direction =
        (c.swaps.drop (min sid c.swaps.length)).map SwapDescriptor.direction →
      ConfCover c fl (2 * limit) (2 * min sid c.swaps.length) st →
      (∀ j, sid ≤ j → j < sid + n → j < c.swaps.length → j < limit) →
      conflicts_workers c.swaps.length limit n sid st = some st2 →
      ConfCover c fl (2 * limit) (2 * min (sid + n) c.swaps.length) st2 ∧
        st2._swap_direction =
          (c.swaps.drop (min (sid + n) c.swaps.length)).map SwapDescriptor.direction := by
  intro n
  induction n with
  | zero =>
    intro sid st st2 _ hdirs hcov _ hw
    simp only [conflicts_workers, Option.some.injEq] at hw
    rw [← hw]
    exact ⟨hcov, hdirs⟩
  | succ n ih =>
    intro sid st st2 hinv hdirs hcov hcover hw
    unfold conflicts_workers at hw
    rw [show sid + (n + 1) = sid + 1 + n by omega]
    by_cases hs : sid ≥ c.swaps.length
    · rw [if_pos hs] at hw
      have e : min (sid + 1) c.swaps.length = min sid c.swaps.length := by omega
      apply ih (sid + 1) st st2 _ _ _ (fun j h1 h2 h3 => hcover j (by omega) (by omega) h3) hw
      · rw [e]; exact hinv
      · rw [e]; exact hdirs
      · rw [e]; exact hcov
    · rw [if_neg hs] at hw
      cases hp : conflicts_swap limit sid st with
      | none => rw [hp] at hw; simp at hw
      | some st1 =>
        rw [hp] at hw
        dsimp only at hw
        have e0 : min sid c.swaps.length = sid := by omega
        have e1 : min (sid + 1) c.swaps.length = sid + 1 := by omega
        rw [e0] at hinv hdirs hcov
        have hsl := hcover sid (by omega) (by omega) (by omega)
        obtain ⟨c1, d1⟩ := conflicts_swap_cover h fl hfl hinv hdirs hcov hsl hlim hp
        apply ih (sid + 1) st1 st2 _ _ _ (fun j h1 h2 h3 => hcover j (by omega) (by omega) h3) hw
        · rw [e1]; exact conflicts_swap_inv h hinv hsl hlim hp
        · rw [e1]; exact d1
        · rw [e1]; exact c1

theorem conflicts_batches_cover {c : RunCtx} (h : c.WF) (fl : List Bool)
    (hfl : c.swaps.length ≤ fl.length) {t b : Nat} (ht : 0 < t) :
    ∀ (fuel base : Nat) (st st2 : ConflictState), t ∣ base →
      ConfInv c (2 * min base c.swaps.length) (min base c.swaps.length) st →
      st._swap_direction =
        (c.swaps.drop (min base c.swaps.length)).map SwapDescriptor.direction →
      ConfCover c fl (2 * min base c.swaps.length) (2 * min base c.swaps.length) st →
      st._edge_state.limit = none →
      conflicts_batches t b c.swaps.length fuel base st = some st2 →
      ConfCover c fl (2 * c.swaps.length) (2 * c.swaps.length) st2 := by
  have hn := h.n_lt
  have hll := le_loop_limit c.swaps.length t
  have hdone : ∀ (base : Nat) (st : ConflictState),
      ConfCover c fl (2 * min base c.swaps.length) (2 * min base c.swaps.length) st →
      ¬ base < loop_limit c.swaps.length t →
      ConfCover c fl (2 * c.swaps.length) (2 * c.swaps.length) st := by
    intro base st hcov hb
    rw [show min base c.swaps.length = c.swaps.length by omega] at hcov
    exact hcov
  intro fuel
  induction fuel with
  | zero =>
    intro base st st2 _ _ _ hcov _ hp
    unfold conflicts_batches at hp
    by_cases hb : base < loop_limit c.swaps.length t
    · rw [if_pos hb] at hp; simp at hp
    · rw [if_neg hb] at hp
      simp only [Option.some.injEq] at hp
      rw [← hp]
      exact hdone base st hcov hb
  | succ fuel ih =>
    intro base st st2 hd hinv hdirs hcov hnone hp
    unfold conflicts_batches at hp
    by_cases hb : base < loop_limit c.swaps.length t
    · rw [if_pos hb] at hp
      dsimp only at hp
      have hbn : base < c.swaps.length := lt_of_lt_loop_limit ht hd hb
      generalize hlimit : min c.swaps.length (base + b * t) = limit at hp
      have hlim : limit ≤ c.swaps.length := by omega
      have hpack : pack_swap_id_spos limit 0 = 2 * limit := by
        rw [pack_eq (by omega) (by omega)]; omega
      rw [hpack] at hp
      obtain ⟨st1, hst1⟩ : ∃ st1 : ConflictState, st1 = { st with
          _edge_state := st._edge_state.start_batch ⟨2 * limit, ⟨-1, -1⟩⟩ } := ⟨_, rfl⟩
      rw [← hst1] at hp
      have eb : min base c.swaps.length = base := by omega
      rw [eb] at hinv hdirs hcov
      have hinv1 : ConfInv c (2 * min base limit) base st1 := by
        rw [show min base limit = base by omega, hst1]
        exact hinv.of_merger rfl rfl rfl rfl
      have hcov1 : ConfCover c fl (2 * min base limit) (2 * base) st1 := by
        rw [show min base limit = base by omega, hst1]
        exact hcov.cover_of_fields (fun _ _ => rfl) rfl rfl
      have hdirs1 : st1._swap_direction = (c.swaps.drop base).map SwapDescriptor.direction := by
        rw [hst1]; exact hdirs
      have hl1 : st1._edge_state.limit = some ⟨2 * limit, ⟨-1, -1⟩⟩ := by
        rw [hst1]; rfl
      have hcnt : limit < base + hydrate_count t base limit → limit = c.swaps.length := by
        intro hlt
        by_contra hne
        have : limit = base + b * t := by omega
        rw [this, hydrate_count_full ht] at hlt
        omega
      have hinv2 := hydrate_inv h hlim ⟨-1, -1⟩ (hydrate_count t base limit) base st1
        hinv1 hl1 hcnt
      have hcov2 := hydrate_cover h fl hlim ⟨-1, -1⟩ (hydrate_count t base limit) base st1
        hinv1 hcov1 hl1 hcnt
      have hdirs2 := hydrate_dirs (hydrate_count t base limit) base st1
      rw [hdirs1] at hdirs2
      have hge := hydrate_count_ge t base limit ht
      rw [show min (base + hydrate_count t base limit) limit = limit by omega] at hinv2 hcov2
      generalize hydrate (hydrate_count t base limit) base st1 = st2a at hp hinv2 hcov2 hdirs2
      cases hw : conflicts_workers c.swaps.length limit
          (min (loop_limit c.swaps.length t) (base + b * t) - base) base st2a with
      | none => rw [hw] at hp; simp at hp
      | some st3 =>
        rw [hw] at hp
        dsimp only at hp
        have hinv3 := conflicts_workers_inv h hlim _ base st2a st3
          (by rw [eb]; exact hinv2) (fun j h1 h2 h3 => by omega) hw
        obtain ⟨hcov3, hdirs3⟩ := conflicts_workers_cover h fl hfl hlim _ base st2a st3
          (by rw [eb]; exact hinv2) (by rw [eb]; exact hdirs2) (by rw [eb]; exact hcov2)
          (fun j h1 h2 h3 => by omega) hw
        have el : min (base + (min (loop_limit c.swaps.length t) (base + b * t) - base))
            c.swaps.length = limit := by omega
        rw [el] at hinv3 hcov3 hdirs3
        have en : min (base + b * t) c.swaps.length = limit := by omega
        apply ih (base + b * t) _ st2 (Dvd.dvd.add hd (Dvd.intro_left b rfl)) _ _ _ rfl hp
        · rw [en]; exact hinv3.of_merger rfl rfl rfl rfl
        · rw [en]; exact hdirs3
        · rw [en]; exact hcov3.cover_of_fields (fun _ _ => rfl) rfl rfl
    · rw [if_neg hb] at hp
      simp only [Option.some.injEq] at hp
      rw [← hp]
      exact hdone base st hcov hb

/-- The existence requests of the conflict computer cover every run: under
every list of flags, every swap requests the edges its two sides hold when it
starts, and requests its two target edges as targets. -/
theorem compute_conflicts_cover {c : RunCtx} (h : c.WF) {t b : Nat} (ht : 0 < t)
    (fl : List Bool) (hfl : c.swaps.length ≤ fl.length)
    (hready : ∀ q, q < 2 * c.swaps.length →
      source_ready (c.edges.getD (request_eid c.swaps q) edge_t.invalid) = true)
    (cr : ConflictResult)
    (hcr : _compute_conflicts t b c.swaps.length
      (PQSorterMerger.finish_sorter_input DependencyChainEdgeMsg.le c.depchain_edges)
      (sorter_sort DependencyChainSuccessorMsg.le c.links)
      (c.swaps.map SwapDescriptor.direction) = some cr) :
    ∀ k, k < 2 * c.swaps.length → KeyCover c fl k cr.existence_requests := by
  unfold _compute_conflicts at hcr
  dsimp only at hcr
  split at hcr
  · simp at hcr
  next st1 hst1 =>
  simp only [Option.some.injEq] at hcr
  rw [← hcr]
  have hinit : ConfInv c (2 * min 0 c.swaps.length) (min 0 c.swaps.length)
      { _edge_state := PQSorterMerger.finish_sorter_input DependencyChainEdgeMsg.le
          c.depchain_edges
        dep := sorter_sort DependencyChainSuccessorMsg.le c.links
        _swap_direction := c.swaps.map SwapDescriptor.direction
        edge_information := fun _ => edge_information_t.reset
        existence_requests := []
        forwarded := [] } := by
    rw [show min 0 c.swaps.length = 0 by omega]
    refine ⟨LinkStream.init c h, rfl, sorter_sort_sorted _ _, List.sorted_nil, ?_⟩
    intro x hx
    simp only [PQSorterMerger.content, PQSorterMerger.finish_sorter_input,
      List.append_nil] at hx
    rw [mem_sorter_sort] at hx
    have := ((h.facts.mem_edges x.sid x.edge).mp hx).1
    omega
  have hcont : (PQSorterMerger.finish_sorter_input DependencyChainEdgeMsg.le
      c.depchain_edges).content = sorter_sort DependencyChainEdgeMsg.le c.depchain_edges := by
    simp [PQSorterMerger.content, PQSorterMerger.finish_sorter_input]
  have hcinit : ConfCover c fl (2 * min 0 c.swaps.length) (2 * min 0 c.swaps.length)
      { _edge_state := PQSorterMerger.finish_sorter_input DependencyChainEdgeMsg.le
          c.depchain_edges
        dep := sorter_sort DependencyChainSuccessorMsg.le c.links
        _swap_direction := c.swaps.map SwapDescriptor.direction
        edge_information := fun _ => edge_information_t.reset
        existence_requests := []
        forwarded := [] } := by
    rw [show min 0 c.swaps.length = 0 by omega]
    constructor
    · intro q _ hq; omega
    · intro q _ hq hv
      rcases hv with ⟨e, hv⟩ | ⟨p, _, hp⟩
      · show _ ∈ (PQSorterMerger.finish_sorter_input DependencyChainEdgeMsg.le
          c.depchain_edges).content
        rw [hcont, mem_sorter_sort]
        obtain ⟨-, hmin, he⟩ := (h.facts.mem_edges q e).mp hv
        have hstab := config_at_stable h fl hfl q 0 (q / 2) (by omega)
          (by
            intro x _ hx hxe
            have := hmin x (by omega) hxe
            omega)
        rw [Nat.zero_add] at hstab
        rw [hstab, config_at_zero, ← he]
        exact hv
      · omega
    · intro x hx
      change x ∈ (PQSorterMerger.finish_sorter_input DependencyChainEdgeMsg.le
          c.depchain_edges).content at hx
      rw [hcont, mem_sorter_sort] at hx
      obtain ⟨hq, -, he⟩ := (h.facts.mem_edges x.sid x.edge).mp hx
      rw [he]
      exact hready _ hq
    · show (PQSorterMerger.finish_sorter_input DependencyChainEdgeMsg.le
          c.depchain_edges).content.Nodup
      rw [hcont]
      exact (sorter_sort_perm _ _).nodup_iff.mpr (List.Nodup.of_map _ h.facts.edges_nodup)
    · intro x hx
      change x ∈ (PQSorterMerger.finish_sorter_input DependencyChainEdgeMsg.le
          c.depchain_edges).content at hx
      rw [hcont, mem_sorter_sort] at hx
      exact Or.inl ⟨x.edge, hx⟩
    · intro k hk; omega
  have := conflicts_batches_cover h fl hfl ht _ 0 _ st1 (Nat.dvd_zero t) hinit
    (by rw [show min 0 c.swaps.length = 0 by omega]; rfl) hcinit rfl hst1
  exact this.requests

/-! ## Forwarding the existence information keeps what has been delivered -/

theorem push_existence_info_effects (limit target : Nat) (e : edge_t) (ex : Bool)
    (st : PerformState) :
    (∀ u x, x ∈ (st.existence_information u).present →
        x ∈ ((push_existence_info limit target e ex st).existence_information u).present) ∧
      (∀ m ∈ st._existence_info.content,
        m ∈ (push_existence_info limit target e ex st)._existence_info.content) ∧
      (push_existence_info limit target e ex st)._existence_info.cursor =
        st._existence_info.cursor ∧
      (st._existence_info.pq.Sorted ExistenceInfoMsg.le →
        (push_existence_info limit target e ex st)._existence_info.pq.Sorted
          ExistenceInfoMsg.le) ∧
      (∀ m ∈ (push_existence_info limit target e ex st)._existence_info.content,
        m ∈ st._existence_info.content ∨ limit ≤ m.swap_id) ∧
      (ex = true → Delivered limit (push_existence_info limit target e ex st) target e) := by
  unfold push_existence_info
  dsimp only
  by_cases ht : target < limit
  · rw [if_pos ht]
    dsimp only
    refine ⟨?_, fun m hm => hm, rfl, fun hs => hs, fun m hm => Or.inl hm, ?_⟩
    · intro u x hx
      cases ex
      · simp only [Bool.false_eq_true, if_false]
        unfold EdgeExistenceInformation.push_missing slot_set
        split
        · next hu => rw [hu] at hx; exact hx
        · exact hx
      · simp only [if_true]
        unfold EdgeExistenceInformation.push_exists slot_set
        split
        · next hu => rw [hu] at hx; exact List.mem_cons_of_mem _ hx
        · exact hx
    · intro hex
      subst hex
      refine ⟨fun _ => ?_, fun hle => by omega⟩
      simp only [if_true, Bool.not_true, Bool.false_eq_true, if_false]
      unfold EdgeExistenceInformation.push_exists slot_set
      rw [if_pos rfl]
      exact List.mem_cons_self _ _
  · rw [if_neg ht]
    dsimp only
    have hperm := PQSorterMerger.push_pq_perm ExistenceInfoMsg.le st._existence_info
      ⟨target, if (!ex) = true then edge_t.invalid else e⟩
    refine ⟨fun u x hx => hx, ?_, rfl, ?_, ?_, ?_⟩
    · intro m hm
      exact hperm.symm.subset (List.mem_cons_of_mem _ hm)
    · intro hs
      exact PQSorterMerger.push_pq_sorted _ _ _ hs
    · intro m hm
      rcases List.mem_cons.mp (hperm.subset hm) with h1 | h1
      · right; rw [h1]; simp only; omega
      · exact Or.inl h1
    · intro hex
      subst hex
      refine ⟨fun hlt => by omega, fun _ => ?_⟩
      simp only [Bool.not_true, Bool.false_eq_true, if_false] at hperm ⊢
      exact hperm.symm.subset (List.mem_cons_self _ _)

theorem delivered_mono {h : Nat} {st st2 : PerformState} {u : Nat} {e : edge_t}
    (h1 : ∀ u x, x ∈ (st.existence_information u).present →
      x ∈ (st2.existence_information u).present)
    (h2 : ∀ m ∈ st._existence_info.content, m ∈ st2._existence_info.content)
    (hd : Delivered h st u e) : Delivered h st2 u e :=
  ⟨fun hu => h1 u e (hd.1 hu), fun hu => h2 _ (hd.2 hu)⟩

/-- The loop "forward existence information" of a swap: nothing that has been
delivered is lost; every message of the swap is read, and the answer "exists" it
forwards for an edge puts the edge into the store of the successor or into the
merger. -/
theorem forward_existence_delivers (limit sid : Nat) (cur new : edge_t × edge_t) :
    ∀ (succs : List ExistenceSuccessorMsg) (st : PerformState),
      succs.Pairwise (fun a b => a.swap_id ≤ b.swap_id) →
      (∀ u x, x ∈ (st.existence_information u).present →
          x ∈ ((forward_existence limit sid cur new succs st).existence_information u).present) ∧
        (∀ m ∈ st._existence_info.content,
          m ∈ (forward_existence limit sid cur new succs st)._existence_info.content) ∧
        (forward_existence limit sid cur new succs st)._existence_info.cursor =
          st._existence_info.cursor ∧
        (st._existence_info.pq.Sorted ExistenceInfoMsg.le →
          (forward_existence limit sid cur new succs st)._existence_info.pq.Sorted
            ExistenceInfoMsg.le) ∧
        (∀ m ∈ (forward_existence limit sid cur new succs st)._existence_info.content,
          m ∈ st._existence_info.content ∨ limit ≤ m.swap_id) ∧
        (∀ m ∈ succs, m.swap_id ≤ sid →
          ((m.edge = new.1 ∨ m.edge = new.2) ∨ (m.edge ≠ cur.1 ∧ m.edge ≠ cur.2 ∧
            m.edge ∈ (st.existence_information sid).present)) →
          Delivered limit (forward_existence limit sid cur new succs st) m.successor m.edge) ∧
        (forward_existence limit sid cur new succs st).debug = st.debug := by
  intro succs
  induction succs with
  | nil =>
    intro st _
    unfold forward_existence
    exact ⟨fun u x hx => hx, fun m hm => hm, rfl, fun hs => hs, fun m hm => Or.inl hm,
      fun m hm => by simp at hm, rfl⟩
  | cons succ rest ih =>
    intro st hpw
    rw [List.pairwise_cons] at hpw
    unfold forward_existence
    by_cases hgt : succ.swap_id > sid
    · rw [if_pos hgt]
      refine ⟨fun u x hx => hx, fun m hm => hm, rfl, fun hs => hs, fun m hm => Or.inl hm,
        ?_, rfl⟩
      intro m hm hle
      rcases List.mem_cons.mp hm with rfl | hm
      · omega
      · have := hpw.1 m hm
        omega
    · rw [if_neg hgt]
      dsimp only
      have hstep : ∀ ex : Bool,
          (((succ.edge = new.1 ∨ succ.edge = new.2) ∨ (succ.edge ≠ cur.1 ∧ succ.edge ≠ cur.2 ∧
            succ.edge ∈ (st.existence_information sid).present)) → ex = true) →
          (∀ u x, x ∈ (st.existence_information u).present →
            x ∈ ((forward_existence limit sid cur new rest
              (push_existence_info limit succ.successor succ.edge ex
                st)).existence_information u).present) ∧
          (∀ m ∈ st._existence_info.content,
            m ∈ (forward_existence limit sid cur new rest
              (push_existence_info limit succ.successor succ.edge ex
                st))._existence_info.content) ∧
          (forward_existence limit sid cur new rest
            (push_existence_info limit succ.successor succ.edge ex
              st))._existence_info.cursor = st._existence_info.cursor ∧
          (st._existence_info.pq.Sorted ExistenceInfoMsg.le →
            (forward_existence limit sid cur new rest
              (push_existence_info limit succ.successor succ.edge ex
                st))._existence_info.pq.Sorted ExistenceInfoMsg.le) ∧
          (∀ m ∈ (forward_existence limit sid cur new rest
              (push_existence_info limit succ.successor succ.edge ex
                st))._existence_info.content,
            m ∈ st._existence_info.content ∨ limit ≤ m.swap_id) ∧
          (∀ m ∈ succ :: rest, m.swap_id ≤ sid →
            ((m.edge = new.1 ∨ m.edge = new.2) ∨ (m.edge ≠ cur.1 ∧ m.edge ≠ cur.2 ∧
              m.edge ∈ (st.existence_information sid).present)) →
            Delivered limit (forward_existence limit sid cur new rest
              (push_existence_info limit succ.successor succ.edge ex st)) m.successor m.edge) ∧
          (forward_existence limit sid cur new rest
            (push_existence_info limit succ.successor succ.edge ex st)).debug = st.debug := by
        intro ex hex
        obtain ⟨p1, p2, p3, p4, p5, p6⟩ :=
          push_existence_info_effects limit succ.successor succ.edge ex st
        obtain ⟨a1, a2, a3, a4, a5, a6, a7⟩ := ih
          (push_existence_info limit succ.successor succ.edge ex st) hpw.2
        refine ⟨fun u x hx => a1 u x (p1 u x hx), fun m hm => a2 m (p2 m hm), by rw [a3, p3],
          fun hs => a4 (p4 hs), ?_, ?_, ?_⟩
        · intro m hm
          rcases a5 m hm with h1 | h1
          · exact p5 m h1
          · exact Or.inr h1
        · intro m hm hle hcond
          rcases List.mem_cons.mp hm with rfl | hm
          · exact delivered_mono a1 a2 (p6 (hex hcond))
          · apply a6 m hm hle
            rcases hcond with h1 | ⟨h1, h2, h3⟩
            · exact Or.inl h1
            · exact Or.inr ⟨h1, h2, p1 _ _ h3⟩
        · rw [a7]
          exact (push_existence_info_debug limit succ.successor succ.edge ex st)
      by_cases h1 : succ.edge = new.1 ∨ succ.edge = new.2
      · rw [if_pos h1]
        exact hstep true (fun _ => rfl)
      · rw [if_neg h1]
        by_cases h2 : succ.edge = cur.1 ∨ succ.edge = cur.2
        · rw [if_pos h2]
          refine hstep false ?_
          rintro (h3 | ⟨h3, h4, -⟩)
          · exact absurd h3 h1
          · rcases h2 with h2 | h2
            · exact absurd h2 h3
            · exact absurd h2 h4
        · rw [if_neg h2]
          refine hstep _ ?_
          rintro (h3 | ⟨-, -, h5⟩)
          · exact absurd h3 h1
          · unfold EdgeExistenceInformation.exists
            exact decide_eq_true h5

/-! ## The hydration of the existence store -/

theorem exinfo_le_sid {a b : ExistenceInfoMsg} (h : ExistenceInfoMsg.le a b) :
    a.swap_id ≤ b.swap_id := by
  unfold ExistenceInfoMsg.le at h
  omega

theorem exinfo_le_refl (a : ExistenceInfoMsg) : ExistenceInfoMsg.le a a :=
  (total_of ExistenceInfoMsg.le a a).elim id id

theorem exinfo_in_window (m : PQSorterMerger ExistenceInfoMsg) (k : Nat) (e : edge_t)
    (hl : m.limit = some ⟨k, e⟩) (x : ExistenceInfoMsg) (hx : x.swap_id < k) :
    m.in_window ExistenceInfoMsg.le x = true := by
  unfold PQSorterMerger.in_window
  rw [hl]
  simp only [decide_eq_true_eq]
  intro h
  have := exinfo_le_sid h
  simp only at this
  omega

theorem store_push_mono (x : EdgeExistenceInformation) (u : Nat) (msg : ExistenceInfoMsg) :
    ∀ v e, e ∈ (x v).present →
      e ∈ ((if msg.edge = edge_t.invalid then x.push_missing u
        else x.push_exists u msg.edge) v).present := by
  intro v e he
  split
  · unfold EdgeExistenceInformation.push_missing slot_set
    split
    · next hv => rw [hv] at he; exact he
    · exact he
  · unfold EdgeExistenceInformation.push_exists slot_set
    split
    · next hv => rw [hv] at he; exact List.mem_cons_of_mem _ he
    · exact he

theorem hydrate_existence_frame (u : Nat) :
    ∀ (fuel : Nat) (m : PQSorterMerger ExistenceInfoMsg) (x : EdgeExistenceInformation),
      (m.cursor.Sorted ExistenceInfoMsg.le → m.pq.Sorted ExistenceInfoMsg.le →
        (hydrate_existence u fuel m x).1.cursor.Sorted ExistenceInfoMsg.le ∧
          (hydrate_existence u fuel m x).1.pq.Sorted ExistenceInfoMsg.le) ∧
        (hydrate_existence u fuel m x).1.limit = m.limit ∧
        (∀ y ∈ (hydrate_existence u fuel m x).1.content, y ∈ m.content) ∧
        (∀ v e, e ∈ (x v).present → e ∈ ((hydrate_existence u fuel m x).2 v).present) := by
  intro fuel
  induction fuel with
  | zero =>
    intro m x
    unfold hydrate_existence
    exact ⟨fun h1 h2 => ⟨h1, h2⟩, rfl, fun y hy => hy, fun v e he => he⟩
  | succ fuel ih =>
    intro m x
    unfold hydrate_existence
    cases hp : m.peek ExistenceInfoMsg.le with
    | none => exact ⟨fun h1 h2 => ⟨h1, h2⟩, rfl, fun y hy => hy, fun v e he => he⟩
    | some msg =>
      dsimp only
      by_cases hm : msg.swap_id = u
      · rw [if_pos hm]
        obtain ⟨a1, a2, a3, a4⟩ := ih (m.advance ExistenceInfoMsg.le)
          (if msg.edge = edge_t.invalid then x.push_missing u else x.push_exists u msg.edge)
        have hperm := PQSorterMerger.advance_perm _ _ _ hp
        refine ⟨?_, ?_, ?_, ?_⟩
        · intro h1 h2
          have hs := PQSorterMerger.advance_sorted _ _ _ hp h1 h2
          exact a1 hs.1 hs.2
        · rw [a2]; exact (PQSorterMerger.advance_limit ExistenceInfoMsg.le m).1
        · intro y hy
          exact hperm.subset (List.mem_cons_of_mem _ (a3 y hy))
        · intro v e he
          exact a4 v e (store_push_mono x u msg v e he)
      · rw [if_neg hm]
        exact ⟨fun h1 h2 => ⟨h1, h2⟩, rfl, fun y hy => hy, fun v e he => he⟩

/-- The hydration of a swap reads every message for the swap: the edges that
exist are put into its store, and the messages for the other swaps stay. -/
theorem hydrate_existence_read {u k : Nat} (e0 : edge_t) (hk : u < k) :
    ∀ (fuel : Nat) (m : PQSorterMerger ExistenceInfoMsg) (x : EdgeExistenceInformation),
      m.cursor.Sorted ExistenceInfoMsg.le → m.pq.Sorted ExistenceInfoMsg.le →
      (∀ y ∈ m.content, u ≤ y.swap_id) → m.limit = some ⟨k, e0⟩ →
      m.cursor.length + m.pq.length ≤ fuel →
      (∀ y ∈ (hydrate_existence u fuel m x).1.content, u + 1 ≤ y.swap_id) ∧
        (∀ y ∈ m.content, y.swap_id ≠ u → y ∈ (hydrate_existence u fuel m x).1.content) ∧
        (∀ y ∈ m.content, y.swap_id = u → y.edge ≠ edge_t.invalid →
          y.edge ∈ ((hydrate_existence u fuel m x).2 u).present) := by
  intro fuel
  induction fuel with
  | zero =>
    intro m x _ _ _ _ hlen
    have hc : m.cursor = [] := List.eq_nil_of_length_eq_zero (by omega)
    have hq : m.pq = [] := List.eq_nil_of_length_eq_zero (by omega)
    have hcont : m.content = [] := by simp [PQSorterMerger.content, hc, hq]
    unfold hydrate_existence
    rw [hcont]
    exact ⟨fun y hy => by simp at hy, fun y hy => by simp at hy, fun y hy => by simp at hy⟩
  | succ fuel ih =>
    intro m x hc hq hkeys hl hlen
    have hnone : (∀ msg, m.peek ExistenceInfoMsg.le = some msg → msg.swap_id ≠ u) →
        (∀ y ∈ m.content, u + 1 ≤ y.swap_id) ∧
        (∀ y ∈ m.content, y.swap_id ≠ u → y ∈ m.content) ∧
        (∀ y ∈ m.content, y.swap_id = u → y.edge ≠ edge_t.invalid →
          y.edge ∈ (x u).present) := by
      intro hp
      have hno : ∀ y ∈ m.content, y.swap_id ≠ u := by
        intro y hy hys
        obtain ⟨msg, hmsg⟩ := PQSorterMerger.peek_isSome ExistenceInfoMsg.le m hc hq y hy
          (fun z _ hz => exinfo_in_window _ k e0 hl z (by have := exinfo_le_sid hz; omega))
        have h1 := exinfo_le_sid (PQSorterMerger.peek_le ExistenceInfoMsg.le m hc hq
          exinfo_le_refl msg hmsg y hy)
        have h2 := hkeys msg (PQSorterMerger.peek_mem _ _ _ hmsg).1
        exact hp msg hmsg (by omega)
      refine ⟨fun y hy => ?_, fun y hy _ => hy, fun y hy hys => absurd hys (hno y hy)⟩
      have := hkeys y hy
      have := hno y hy
      omega
    unfold hydrate_existence
    cases hp : m.peek ExistenceInfoMsg.le with
    | none =>
      dsimp only
      exact hnone (fun msg hmsg => by rw [hp] at hmsg; simp at hmsg)
    | some msg =>
      dsimp only
      by_cases hm : msg.swap_id = u
      · rw [if_pos hm]
        have hperm := PQSorterMerger.advance_perm _ _ _ hp
        have hs := PQSorterMerger.advance_sorted _ _ _ hp hc hq
        have hlim := PQSorterMerger.advance_limit ExistenceInfoMsg.le m
        have hlen2 := PQSorterMerger.advance_length _ _ _ hp
        obtain ⟨a1, a2, a3⟩ := ih (m.advance ExistenceInfoMsg.le)
          (if msg.edge = edge_t.invalid then x.push_missing u else x.push_exists u msg.edge)
          hs.1 hs.2 (fun y hy => hkeys y (hperm.subset (List.mem_cons_of_mem _ hy)))
          (by rw [hlim.1]; exact hl) (by omega)
        obtain ⟨-, -, -, f4⟩ := hydrate_existence_frame u fuel (m.advance ExistenceInfoMsg.le)
          (if msg.edge = edge_t.invalid then x.push_missing u else x.push_exists u msg.edge)
        refine ⟨a1, ?_, ?_⟩
        · intro y hy hys
          apply a2 y _ hys
          rcases List.mem_cons.mp (hperm.symm.subset hy) with h | h
          · rw [h] at hys; exact absurd hm hys
          · exact h
        · intro y hy hys hye
          rcases List.mem_cons.mp (hperm.symm.subset hy) with h | h
          · apply f4
            rw [← h, if_neg hye]
            unfold EdgeExistenceInformation.push_exists slot_set
            rw [if_pos rfl]
            exact List.mem_cons_self _ _
          · exact a3 y h hys hye
      · rw [if_neg hm]
        refine hnone (fun y hy => ?_)
        rw [hp] at hy
        simp only [Option.some.injEq] at hy
        rw [← hy]; exact hm

theorem hydrate_source_existence (id s : Nat) (st : PerformState) :
    (hydrate_source id s st)._existence_info = st._existence_info ∧
      (hydrate_source id s st).existence_information = st.existence_information ∧
      (hydrate_source id s st).existence_successor = st.existence_successor ∧
      (hydrate_source id s st).debug = st.debug := by
  unfold hydrate_source
  split
  · exact ⟨rfl, rfl, rfl, rfl⟩
  · split <;> exact ⟨rfl, rfl, rfl, rfl⟩

theorem delivered_congr {h : Nat} {st st2 : PerformState} {u : Nat} {e : edge_t}
    (h1 : st2.existence_information = st.existence_information)
    (h2 : st2._existence_info.content = st._existence_info.content)
    (hd : Delivered h st u e) : Delivered h st2 u e := by
  unfold Delivered
  rw [h1, h2]
  exact hd

theorem ExInv.ex_of_fields {c : RunCtx} {R : List ExistenceRequestMsg}
    {init : List ExistenceSuccessorMsg} {h sid : Nat} {st st2 : PerformState}
    (hinv : ExInv c R init h sid st)
    (h1 : st2._existence_info.cursor = st._existence_info.cursor)
    (h2 : st2._existence_info.pq = st._existence_info.pq)
    (h3 : ∀ u, sid ≤ u → u < h →
      (st2.existence_information u).present = (st.existence_information u).present)
    (h4 : st2.existence_successor = st.existence_successor)
    (h5 : st2.debug = st.debug) : ExInv c R init h sid st2 := by
  have hc : st2._existence_info.content = st._existence_info.content := by
    unfold PQSorterMerger.content; rw [h1, h2]
  have hg : ghost c st2 = ghost c st := ghost_congr c st st2 h5
  constructor
  · rw [h1]; exact hinv.m_cur
  · rw [h2]; exact hinv.m_pq
  · rw [hc]; exact hinv.m_keys
  · rw [h4]; exact hinv.s_sorted
  · rw [h4]; exact hinv.s_all
  · intro u e hu hI hN he
    rw [hg] at he
    have hd := hinv.complete u e hu hI hN he
    refine ⟨fun hlt => ?_, fun hle => ?_⟩
    · rw [h3 u hu hlt]
      exact hd.1 hlt
    · rw [hc]
      exact hd.2 hle
  · rw [hg]; exact hinv.simple

theorem perform_hydrate_ex {c : RunCtx} {R : List ExistenceRequestMsg}
    {init : List ExistenceSuccessorMsg} (hRn : ∀ r ∈ R, r.swap_id < c.swaps.length)
    {limit sid : Nat} (hlim : limit ≤ c.swaps.length) (e0 : edge_t) :
    ∀ (n id : Nat) (st : PerformState), ExInv c R init (min id limit) sid st →
      st._existence_info.limit = some ⟨limit, e0⟩ →
      (limit < id + n → limit = c.swaps.length) →
      ExInv c R init (min (id + n) limit) sid (perform_hydrate n id st) := by
  intro n
  induction n with
  | zero =>
    intro id st hinv _ _
    exact hinv
  | succ n ih =>
    intro id st hinv hl hcover
    unfold perform_hydrate
    dsimp only
    obtain ⟨f1, f2, f3, f4⟩ := hydrate_existence_frame id
      (st._existence_info.cursor.length + st._existence_info.pq.length)
      st._existence_info st.existence_information
    have hread := fun (hid : id < limit) => hydrate_existence_read e0 hid
      (st._existence_info.cursor.length + st._existence_info.pq.length)
      st._existence_info st.existence_information hinv.m_cur hinv.m_pq
    generalize hydrate_existence id
      (st._existence_info.cursor.length + st._existence_info.pq.length)
      st._existence_info st.existence_information = hx at f1 f2 f3 f4 hread
    obtain ⟨st1, hst1⟩ : ∃ st1 : PerformState,
        st1 = { st with _existence_info := hx.1, existence_information := hx.2 } := ⟨_, rfl⟩
    rw [← hst1]
    obtain ⟨g1, g2, g3, g4⟩ := hydrate_source_existence id 0 st1
    obtain ⟨k1, k2, k3, k4⟩ := hydrate_source_existence id 1 (hydrate_source id 0 st1)
    have e1 : (hydrate_source id 1 (hydrate_source id 0 st1))._existence_info = hx.1 := by
      rw [k1, g1, hst1]
    have e2 : (hydrate_source id 1 (hydrate_source id 0 st1)).existence_information = hx.2 := by
      rw [k2, g2, hst1]
    have e3 : (hydrate_source id 1 (hydrate_source id 0 st1)).existence_successor =
        st.existence_successor := by
      rw [k3, g3, hst1]
    have e4 : (hydrate_source id 1 (hydrate_source id 0 st1)).debug = st.debug := by
      rw [k4, g4, hst1]
    have hg : ghost c (hydrate_source id 1 (hydrate_source id 0 st1)) = ghost c st :=
      ghost_congr c st _ e4
    have hsorted := f1 hinv.m_cur hinv.m_pq
    rw [show id + (n + 1) = id + 1 + n by omega]
    apply ih (id + 1) _ _ (by rw [e1, f2]; exact hl) (by omega)
    by_cases hid : id < limit
    · have hm : min id limit = id := by omega
      have hm1 : min (id + 1) limit = id + 1 := by omega
      rw [hm] at hinv
      rw [hm1]
      obtain ⟨r1, r2, r3⟩ := hread hid (fun y hy => by
        have := hinv.m_keys y hy
        omega) hl (Nat.le_refl _)
      constructor
      · rw [e1]; exact hsorted.1
      · rw [e1]; exact hsorted.2
      · rw [e1]; exact r1
      · rw [e3]; exact hinv.s_sorted
      · rw [e3]; exact hinv.s_all
      · intro u e hu hI hN he
        rw [hg] at he
        have hd := hinv.complete u e hu hI hN he
        unfold Delivered
        rw [e1, e2]
        refine ⟨fun hlt => ?_, fun hle => ?_⟩
        · by_cases hui : u = id
          · subst hui
            have hmem := hd.2 (Nat.le_refl _)
            exact r3 _ hmem rfl (loop_free_ne_invalid e (hinv.simple.no_loop e he))
          · exact f4 u e (hd.1 (by omega))
        · exact r2 _ (hd.2 (by omega)) (by simp only; omega)
      · rw [hg]; exact hinv.simple
    · have hN : limit = c.swaps.length := hcover (by omega)
      have hm : min id limit = limit := by omega
      have hm1 : min (id + 1) limit = limit := by omega
      rw [hm] at hinv
      rw [hm1]
      constructor
      · rw [e1]; exact hsorted.1
      · rw [e1]; exact hsorted.2
      · rw [e1]; intro y hy; exact hinv.m_keys y (f3 y hy)
      · rw [e3]; exact hinv.s_sorted
      · rw [e3]; exact hinv.s_all
      · intro u e hu hI hN2 he
        rw [hg] at he
        have hd := hinv.complete u e hu hI hN2 he
        obtain ⟨r, hr, -, hru⟩ := hI.requests
        have hun := hRn r hr
        unfold Delivered
        rw [e2]
        exact ⟨fun hlt => f4 u e (hd.1 hlt), fun hle => by omega⟩
      · rw [hg]; exact hinv.simple

/-! ## One swap of `_perform_swaps` keeps the graph simple -/

theorem perform_swap_existence (limit sid : Nat) (st st2 : PerformState) (direction : Bool)
    (directions : BoolStream) (hdir : st._swap_direction = direction :: directions)
    (h : perform_swap limit sid st = some st2) :
    ∃ st1 : PerformState,
      st1.existence_information = st.existence_information ∧
      st1._existence_info = st._existence_info ∧
      st1.existence_successor = st.existence_successor ∧
      st2.existence_information = (forward_existence limit sid
        (st.source_edges (sid, 0), st.source_edges (sid, 1))
        (swap_outcome (swap_decision st.existence_information sid
          (st.source_edges (sid, 0), st.source_edges (sid, 1)) direction)
          (st.source_edges (sid, 0), st.source_edges (sid, 1)))
        st1.existence_successor st1).existence_information ∧
      st2._existence_info = (forward_existence limit sid
        (st.source_edges (sid, 0), st.source_edges (sid, 1))
        (swap_outcome (swap_decision st.existence_information sid
          (st.source_edges (sid, 0), st.source_edges (sid, 1)) direction)
          (st.source_edges (sid, 0), st.source_edges (sid, 1)))
        st1.existence_successor st1)._existence_info ∧
      st2.existence_successor = (forward_existence limit sid
        (st.source_edges (sid, 0), st.source_edges (sid, 1))
        (swap_outcome (swap_decision st.existence_information sid
          (st.source_edges (sid, 0), st.source_edges (sid, 1)) direction)
          (st.source_edges (sid, 0), st.source_edges (sid, 1)))
        st1.existence_successor st1).existence_successor := by
  unfold perform_swap at h
  rw [hdir] at h
  dsimp only at h
  split at h
  · simp at h
  split at h
  · simp at h
  simp only [Option.some.injEq] at h
  obtain ⟨f1, f2, f3, -, -, -, -, -⟩ := forward_edge_state_frame limit sid
    (swap_outcome (swap_decision st.existence_information sid
      (st.source_edges (sid, 0), st.source_edges (sid, 1)) direction)
      (st.source_edges (sid, 0), st.source_edges (sid, 1)))
    st.edge_dependencies
    { st with _swap_direction := directions
              debug := st.debug ++ [(swap_decision st.existence_information sid
                (st.source_edges (sid, 0), st.source_edges (sid, 1)) direction).normalize] }
    (false, false)
  generalize forward_edge_state limit sid _ st.edge_dependencies _ (false, false) = f
    at h f1 f2 f3
  generalize hs1 : ({ f.1 with
    edge_updates := f.1.edge_updates
      ++ (if !f.2.1 then [(swap_outcome (swap_decision st.existence_information sid
          (st.source_edges (sid, 0), st.source_edges (sid, 1)) direction)
          (st.source_edges (sid, 0), st.source_edges (sid, 1))).1] else [])
      ++ (if !f.2.2 then [(swap_outcome (swap_decision st.existence_information sid
          (st.source_edges (sid, 0), st.source_edges (sid, 1)) direction)
          (st.source_edges (sid, 0), st.source_edges (sid, 1))).2] else []) } :
    PerformState) = st1 at h
  refine ⟨st1, ?_, ?_, ?_, ?_, ?_, ?_⟩
  · rw [← hs1]; exact f2
  · rw [← hs1]; exact f3
  · rw [← hs1]; exact f1
  · rw [← h, ← hs1]
  · rw [← h, ← hs1]
  · rw [← h, ← hs1]

theorem ghost_succ (c : RunCtx) (st st2 : PerformState) (sid : Nat)
    (hlen : st.debug.length = sid) (hsid : sid < c.swaps.length) (r : SwapResult)
    (hdebug : st2.debug = st.debug ++ [r]) :
    ghost c st2 = positional_swap (ghost c st) c.swaps[sid] r.performed := by
  unfold ghost
  rw [hdebug, List.length_append, List.length_singleton, hlen, List.map_append,
    List.map_singleton, List.take_succ, List.getElem?_eq_getElem hsid, Option.toList_some,
    positional_run_snoc _ _ _ _ _ (by simp [hlen, Nat.min_eq_left (Nat.le_of_lt hsid)])]

theorem swap_decision_performed (x : EdgeExistenceInformation) (sid : Nat)
    (cur : edge_t × edge_t) (d : Bool)
    (hp : (swap_decision x sid cur d).performed = true) :
    (_swap_edges cur.1 cur.2 d).1 ∉ (x sid).present ∧
      (_swap_edges cur.1 cur.2 d).2 ∉ (x sid).present ∧
      (_swap_edges cur.1 cur.2 d).1.is_loop = false ∧
      (_swap_edges cur.1 cur.2 d).2.is_loop = false := by
  unfold swap_decision EdgeExistenceInformation.exists at hp
  simp only [Bool.not_eq_true', Bool.or_eq_false_iff, decide_eq_false_iff_not] at hp
  exact ⟨hp.1.1, hp.1.2, hp.2.1, hp.2.2⟩

theorem swap_outcome_eq (x : EdgeExistenceInformation) (sid : Nat) (cur : edge_t × edge_t)
    (d : Bool) :
    swap_outcome (swap_decision x sid cur d) cur =
      if (swap_decision x sid cur d).performed = true then _swap_edges cur.1 cur.2 d
      else cur := by
  unfold swap_outcome
  cases hp : (swap_decision x sid cur d).performed
  · simp
  · simp [swap_decision]

/-- One swap of `_perform_swaps` keeps the existence dataflow complete and the
graph simple: a performed swap has found none of its target edges in its
existence store, so none of them is in the graph. -/
theorem perform_swap_ex {c : RunCtx} (h : c.WF) {R : List ExistenceRequestMsg}
    {init : List ExistenceSuccessorMsg}
    (hcover : ∀ fl : List Bool, c.swaps.length ≤ fl.length →
      ∀ k, k < 2 * c.swaps.length → KeyCover c fl k R)
    (hlinks : ∀ (X : edge_t) (p u : Nat), (∃ r ∈ R, r.edge = X ∧ r.swap_id = p) →
      (∃ r ∈ R, r.edge = X ∧ r.swap_id = u) → p < u →
      (∀ r ∈ R, r.edge = X → p < r.swap_id → u ≤ r.swap_id) →
      (∃ v ∈ R, v.edge = X ∧ v.forward_only = false ∧ u ≤ v.swap_id) →
      (⟨p, X, u⟩ : ExistenceSuccessorMsg) ∈ init)
    {limit sid : Nat} {st st2 : PerformState}
    (hinv : PerfInv c (2 * limit) sid st) (hex : ExInv c R init limit sid st)
    (hsid : sid < limit) (hlim : limit ≤ c.swaps.length)
    (hps : perform_swap limit sid st = some st2) : ExInv c R init limit (sid + 1) st2 := by
  have hsn : sid < c.swaps.length := by omega
  obtain ⟨direction, directions, o0, o1, hd, -, -, -, -, -, -, -, hdebug, -⟩ :=
    perform_swap_fields h limit sid st st2 hinv.deps hps
  obtain ⟨st1, x1, x2, x3, x4, x5, x6⟩ :=
    perform_swap_existence limit sid st st2 direction directions hd hps
  -- the direction of the swap
  have hdrop : c.swaps.drop sid = c.swaps[sid] :: c.swaps.drop (sid + 1) :=
    List.drop_eq_getElem_cons hsn
  have hdirs := hinv.dirs
  rw [hd, hdrop, List.map_cons] at hdirs
  simp only [List.cons.injEq] at hdirs
  have hdirection : direction = c.swaps[sid].direction := hdirs.1
  -- the source edges of the swap
  have ha := RunCtx.eid_even (c := c) sid hsn
  have hb := RunCtx.eid_odd (c := c) sid hsn
  have hrange := h.range c.swaps[sid] (List.getElem_mem _)
  have hdist := h.distinct c.swaps[sid] (List.getElem_mem _)
  have hv0 : c.has_value sid (2 * sid + 0) := by
    have := RunCtx.has_value_own h (2 * sid) (by omega)
    rw [show 2 * sid / 2 = sid by omega] at this
    exact this
  have hv1 : c.has_value sid (2 * sid + 1) := by
    have := RunCtx.has_value_own h (2 * sid + 1) (by omega)
    rw [show (2 * sid + 1) / 2 = sid by omega] at this
    exact this
  have hc0 := hinv.slot_hv sid 0 (by omega) (by omega) (by omega) hv0
  have hc1 := hinv.slot_hv sid 1 (by omega) (by omega) (by omega) hv1
  simp only [Nat.add_zero] at hc0
  have hlenG := ghost_length c st
  have e0 : st.source_edges (sid, 0) = (ghost c st).getD c.swaps[sid].eid_a edge_t.invalid := by
    rw [hc0, ghost_at, ha]
  have e1 : st.source_edges (sid, 1) = (ghost c st).getD c.swaps[sid].eid_b edge_t.invalid := by
    rw [hc1, ghost_at, hb]
  -- the graph after the swap
  have hg := ghost_succ c st st2 sid hinv.debug_len hsn _ hdebug
  rw [(normalize_fields _).1] at hg
  -- the requests of the swap
  have hfl : c.swaps.length ≤
      (st.debug.map SwapResult.performed ++ List.replicate c.swaps.length false).length := by
    simp
  have hcfg : ∀ q, config_at c
      (st.debug.map SwapResult.performed ++ List.replicate c.swaps.length false) sid q =
      ghost_at c st q := by
    intro q
    have := config_at_ghost c st (List.replicate c.swaps.length false) q
      (by rw [hinv.debug_len]; omega)
    rw [hinv.debug_len] at this
    exact this
  obtain ⟨ks0, kt0⟩ := hcover _ hfl (2 * sid) (by omega)
  obtain ⟨ks1, kt1⟩ := hcover _ hfl (2 * sid + 1) (by omega)
  rw [show 2 * sid / 2 = sid by omega, hcfg, ← hc0] at ks0
  rw [show (2 * sid + 1) / 2 = sid by omega, hcfg, ← hc1] at ks1
  rw [show 2 * sid / 2 = sid by omega, target_at_even, hcfg, hcfg, ← hc0, ← hc1,
    direction_eq c sid hsn, ← hdirection] at kt0
  rw [show (2 * sid + 1) / 2 = sid by omega, target_at_odd, hcfg, hcfg, ← hc0, ← hc1,
    direction_eq c sid hsn, ← hdirection] at kt1
  -- the decision
  have hperf := swap_decision_performed st.existence_information sid
    (st.source_edges (sid, 0), st.source_edges (sid, 1)) direction
  have hout := swap_outcome_eq st.existence_information sid
    (st.source_edges (sid, 0), st.source_edges (sid, 1)) direction
  have hg2 : ghost c st2 = ((ghost c st).set c.swaps[sid].eid_a
      (swap_outcome (swap_decision st.existence_information sid
        (st.source_edges (sid, 0), st.source_edges (sid, 1)) direction)
        (st.source_edges (sid, 0), st.source_edges (sid, 1))).1).set c.swaps[sid].eid_b
      (swap_outcome (swap_decision st.existence_information sid
        (st.source_edges (sid, 0), st.source_edges (sid, 1)) direction)
        (st.source_edges (sid, 0), st.source_edges (sid, 1))).2 := by
    rw [hg, hout]
    unfold positional_swap
    simp only
    rw [← e0, ← e1, ← hdirection]
  dsimp only at hperf hout
  generalize st.source_edges (sid, 0) = s0 at *
  generalize st.source_edges (sid, 1) = s1 at *
  generalize swap_decision st.existence_information sid (s0, s1) direction = res at *
  generalize swap_outcome res (s0, s1) = new at *
  have hla : c.swaps[sid].eid_a < (ghost c st).length := by rw [hlenG]; exact hrange.1
  have hlb : c.swaps[sid].eid_b < (ghost c st).length := by rw [hlenG]; exact hrange.2
  -- the swap requests its new edges
  have hreq_new : ∀ x, x = new.1 ∨ x = new.2 → ∃ r ∈ R, r.edge = x ∧ r.swap_id = sid := by
    intro x hx
    rw [hout] at hx
    by_cases hp : res.performed = true
    · rw [if_pos hp] at hx
      rcases hx with rfl | rfl
      · exact ⟨_, kt0, rfl, rfl⟩
      · exact ⟨_, kt1, rfl, rfl⟩
    · rw [if_neg hp] at hx
      rcases hx with rfl | rfl
      · exact ks0
      · exact ks1
  -- what the swap knows about an edge it requests
  have hknows : ∀ e, (∃ r ∈ R, r.edge = e ∧ r.swap_id = sid) →
      (∃ r ∈ R, r.edge = e ∧ r.forward_only = false ∧ sid ≤ r.swap_id) → e ∈ ghost c st →
      e ∈ (st.existence_information sid).present := by
    intro e h1 h2 he
    exact (hex.complete sid e (Nat.le_refl _) ⟨h1, h2⟩ (fun r _ _ hle => hle) he).1 hsid
  -- the graph stays simple
  have hsimple : is_simple (ghost c st2) := by
    rw [hg]
    by_cases hp : res.performed = true
    · rw [hp]
      obtain ⟨p1, p2, p3, p4⟩ := hperf hp
      apply is_simple_swap _ _ hex.simple hla hlb hdist
      · rw [← e0, ← e1, ← hdirection]
        intro hmem
        exact p1 (hknows _ ⟨_, kt0, rfl, rfl⟩ ⟨_, kt0, rfl, rfl, Nat.le_refl _⟩ hmem)
      · rw [← e0, ← e1, ← hdirection]
        intro hmem
        exact p2 (hknows _ ⟨_, kt1, rfl, rfl⟩ ⟨_, kt1, rfl, rfl, Nat.le_refl _⟩ hmem)
      · rw [← e0, ← e1, ← hdirection]; exact p3
      · rw [← e0, ← e1, ← hdirection]; exact p4
    · rw [Bool.not_eq_true] at hp
      rw [hp, positional_swap_false]
      exact hex.simple
  -- the forwarding of the swap
  obtain ⟨d1, d2, d3, d4, d5, d6, -⟩ := forward_existence_delivers limit sid (s0, s1) new
    st1.existence_successor st1 (by rw [x3]; exact hex.s_sorted)
  obtain ⟨drained, t1, t2, -, -⟩ := forward_existence_targets limit sid (s0, s1) new
    st1.existence_successor st1
  generalize forward_existence limit sid (s0, s1) new st1.existence_successor st1 = fe at *
  rw [← x4, x1] at d1
  rw [← x5, x2] at d2 d3 d4 d5
  rw [x3, x1] at d6
  rw [← x6, x3] at t1
  have hmono : ∀ u e, Delivered limit st u e → Delivered limit st2 u e :=
    fun u e hd => delivered_mono d1 d2 hd
  constructor
  · rw [d3]; exact hex.m_cur
  · exact d4 hex.m_pq
  · intro x hx
    rcases d5 x hx with h1 | h1
    · exact hex.m_keys x h1
    · exact h1
  · have := hex.s_sorted
    rw [t1] at this
    exact (List.pairwise_append.mp this).2.1
  · intro m hm hle
    have := hex.s_all m hm (by omega)
    rw [t1] at this
    rcases List.mem_append.mp this with h1 | h1
    · have := t2 m h1
      omega
    · exact h1
  · intro u e hu hI hN he
    by_cases hreq : ∃ r ∈ R, r.edge = e ∧ r.swap_id = sid
    · -- the swap forwards what it knows to the next requester
      have hlink : (⟨sid, e, u⟩ : ExistenceSuccessorMsg) ∈ init := by
        refine hlinks e sid u hreq hI.requests (by omega) ?_ hI.target
        intro r hr hre hlt
        exact hN r hr hre (by omega)
      have hmem := hex.s_all _ hlink (Nat.le_refl _)
      have hdel := d6 _ hmem (Nat.le_refl _)
      dsimp only at hdel
      have hfed : Delivered limit fe u e → Delivered limit st2 u e := by
        intro hd
        unfold Delivered
        rw [x4, x5]
        exact hd
      apply hfed
      apply hdel
      by_cases hn : e = new.1 ∨ e = new.2
      · exact Or.inl hn
      · right
        rw [not_or] at hn
        rw [hg2] at he
        obtain ⟨j, hj, hja, hjb, hje⟩ := mem_set_set_other _ _ _ _ _ _ he hn.1 hn.2
        have hnd := hex.simple.nodup
        have hmemG : e ∈ ghost c st := by rw [← hje]; exact List.getElem_mem _
        refine ⟨?_, ?_, ?_⟩
        · intro hes
          rw [hes, e0, List.getD_eq_getElem _ _ hla] at hje
          exact hja ((List.Nodup.getElem_inj_iff hnd).mp hje)
        · intro hes
          rw [hes, e1, List.getD_eq_getElem _ _ hlb] at hje
          exact hjb ((List.Nodup.getElem_inj_iff hnd).mp hje)
        · obtain ⟨v, hv, hve, hvf, hvu⟩ := hI.target
          exact hknows e hreq ⟨v, hv, hve, hvf, by omega⟩ hmemG
    · -- the swap does not touch the edge
      apply hmono
      apply hex.complete u e (by omega) hI
      · intro r hr hre hle
        apply hN r hr hre
        by_contra hcon
        exact hreq ⟨r, hr, hre, by omega⟩
      · rw [hg2] at he
        rcases mem_set_set _ _ _ _ _ _ he with h1 | h1 | h1
        · exact h1
        · exact absurd (hreq_new e (Or.inl h1)) hreq
        · exact absurd (hreq_new e (Or.inr h1)) hreq
  · exact hsimple

/-! ## The loops of `_perform_swaps` keep the graph simple -/

theorem perform_workers_ex {c : RunCtx} (h : c.WF) {R : List ExistenceRequestMsg}
    {init : List ExistenceSuccessorMsg}
    (hcover : ∀ fl : List Bool, c.swaps.length ≤ fl.length →
      ∀ k, k < 2 * c.swaps.length → KeyCover c fl k R)
    (hlinks : ∀ (X : edge_t) (p u : Nat), (∃ r ∈ R, r.edge = X ∧ r.swap_id = p) →
      (∃ r ∈ R, r.edge = X ∧ r.swap_id = u) → p < u →
      (∀ r ∈ R, r.edge = X → p < r.swap_id → u ≤ r.swap_id) →
      (∃ v ∈ R, v.edge = X ∧ v.forward_only = false ∧ u ≤ v.swap_id) →
      (⟨p, X, u⟩ : ExistenceSuccessorMsg) ∈ init)
    {limit : Nat} (hlim : limit ≤ c.swaps.length) :
    ∀ (n sid : Nat) (st st2 : PerformState),
      PerfInv c (2 * limit) (min sid c.swaps.length) st →
      ExInv c R init limit (min sid c.swaps.length) st →
      (∀ j, sid ≤ j → j < sid + n → j < c.swaps.length → j < limit) →
      perform_workers c.swaps.length limit n sid st = some st2 →
      ExInv c R init limit (min (sid + n) c.swaps.length) st2 := by
  intro n
  induction n with
  | zero =>
    intro sid st st2 _ hex _ hw
    simp only [perform_workers, Option.some.injEq] at hw
    rw [← hw]
    exact hex
  | succ n ih =>
    intro sid st st2 hinv hex hcov hw
    unfold perform_workers at hw
    rw [show sid + (n + 1) = sid + 1 + n by omega]
    by_cases hs : sid ≥ c.swaps.length
    · rw [if_pos hs] at hw
      have e : min (sid + 1) c.swaps.length = min sid c.swaps.length := by omega
      apply ih (sid + 1) st st2 _ _ (fun j h1 h2 h3 => hcov j (by omega) (by omega) h3) hw
      · rw [e]; exact hinv
      · rw [e]; exact hex
    · rw [if_neg hs] at hw
      cases hp : perform_swap limit sid st with
      | none => rw [hp] at hw; simp at hw
      | some st1 =>
        rw [hp] at hw
        dsimp only at hw
        have e0 : min sid c.swaps.length = sid := by omega
        have e1 : min (sid + 1) c.swaps.length = sid + 1 := by omega
        rw [e0] at hinv hex
        have hsl := hcov sid (by omega) (by omega) (by omega)
        apply ih (sid + 1) st1 st2 _ _ (fun j h1 h2 h3 => hcov j (by omega) (by omega) h3) hw
        · rw [e1]; exact perform_swap_inv h hinv hsl hlim hp
        · rw [e1]; exact perform_swap_ex h hcover hlinks hinv hex hsl hlim hp

theorem perform_batches_ex {c : RunCtx} (h : c.WF) {R : List ExistenceRequestMsg}
    {init : List ExistenceSuccessorMsg} (hRn : ∀ r ∈ R, r.swap_id < c.swaps.length)
    (hcover : ∀ fl : List Bool, c.swaps.length ≤ fl.length →
      ∀ k, k < 2 * c.swaps.length → KeyCover c fl k R)
    (hlinks : ∀ (X : edge_t) (p u : Nat), (∃ r ∈ R, r.edge = X ∧ r.swap_id = p) →
      (∃ r ∈ R, r.edge = X ∧ r.swap_id = u) → p < u →
      (∀ r ∈ R, r.edge = X → p < r.swap_id → u ≤ r.swap_id) →
      (∃ v ∈ R, v.edge = X ∧ v.forward_only = false ∧ u ≤ v.swap_id) →
      (⟨p, X, u⟩ : ExistenceSuccessorMsg) ∈ init)
    {t b : Nat} (ht : 0 < t) :
    ∀ (fuel base : Nat) (st st2 : PerformState), t ∣ base →
      PerfInv c (2 * min base c.swaps.length) (min base c.swaps.length) st →
      ExInv c R init (min base c.swaps.length) (min base c.swaps.length) st →
      perform_batches t b c.swaps.length fuel base st = some st2 →
      ExInv c R init c.swaps.length c.swaps.length st2 := by
  have hn := h.n_lt
  have hll := le_loop_limit c.swaps.length t
  have hdone : ∀ (base : Nat) (st : PerformState),
      ExInv c R init (min base c.swaps.length) (min base c.swaps.length) st →
      ¬ base < loop_limit c.swaps.length t → ExInv c R init c.swaps.length c.swaps.length st := by
    intro base st hex hb
    rw [show min base c.swaps.length = c.swaps.length by omega] at hex
    exact hex
  intro fuel
  induction fuel with
  | zero =>
    intro base st st2 _ _ hex hp
    unfold perform_batches at hp
    by_cases hb : base < loop_limit c.swaps.length t
    · rw [if_pos hb] at hp; simp at hp
    · rw [if_neg hb] at hp
      simp only [Option.some.injEq] at hp
      rw [← hp]
      exact hdone base st hex hb
  | succ fuel ih =>
    intro base st st2 hd hinv hex hp
    unfold perform_batches at hp
    by_cases hb : base < loop_limit c.swaps.length t
    · rw [if_pos hb] at hp
      dsimp only at hp
      have hbn : base < c.swaps.length := lt_of_lt_loop_limit ht hd hb
      generalize hlimit : min c.swaps.length (base + b * t) = limit at hp
      have hlim : limit ≤ c.swaps.length := by omega
      have hpack : pack_swap_id_spos limit 0 = 2 * limit := by
        rw [pack_eq (by omega) (by omega)]; omega
      rw [hpack] at hp
      generalize init_existence c.swaps.length (b * t) base st.existence_placeholder
        EdgeExistenceInformation.start_initialization = ix at hp
      obtain ⟨st1, hst1⟩ : ∃ st1 : PerformState, st1 = { st with
          existence_placeholder := ix.1
          existence_information := ix.2
          _edge_state := st._edge_state.start_batch ⟨2 * limit, ⟨-1, -1⟩⟩
          _existence_info := st._existence_info.start_batch ⟨limit, ⟨-1, -1⟩⟩ } := ⟨_, rfl⟩
      rw [← hst1] at hp
      have eb : min base c.swaps.length = base := by omega
      rw [eb] at hinv hex
      have hinv1 : PerfInv c (2 * min base limit) base st1 := by
        rw [show min base limit = base by omega, hst1]
        exact hinv.of_fields rfl rfl rfl rfl rfl rfl rfl
      have hex1 : ExInv c R init (min base limit) base st1 := by
        rw [show min base limit = base by omega, hst1]
        exact hex.ex_of_fields rfl rfl (fun u h1 h2 => by omega) rfl rfl
      have hl1 : st1._edge_state.limit = some ⟨2 * limit, ⟨-1, -1⟩⟩ := by
        rw [hst1]; rfl
      have hl1x : st1._existence_info.limit = some ⟨limit, ⟨-1, -1⟩⟩ := by
        rw [hst1]; rfl
      have hcnt : limit < base + hydrate_count t base limit → limit = c.swaps.length := by
        intro hlt
        by_contra hne
        have : limit = base + b * t := by omega
        rw [this, hydrate_count_full ht] at hlt
        omega
      have hinv2 := perform_hydrate_inv h hlim ⟨-1, -1⟩ (hydrate_count t base limit) base st1
        hinv1 (by omega) hl1 hcnt
      have hex2 := perform_hydrate_ex hRn hlim ⟨-1, -1⟩ (hydrate_count t base limit) base st1
        hex1 hl1x hcnt
      have hge := hydrate_count_ge t base limit ht
      rw [show min (base + hydrate_count t base limit) limit = limit by omega] at hinv2 hex2
      generalize perform_hydrate (hydrate_count t base limit) base st1 = st2a at hp hinv2 hex2
      cases hw : perform_workers c.swaps.length limit
          (min (loop_limit c.swaps.length t) (base + b * t) - base) base st2a with
      | none => rw [hw] at hp; simp at hp
      | some st3 =>
        rw [hw] at hp
        dsimp only at hp
        have hinv3 := perform_workers_inv h hlim _ base st2a st3
          (by rw [eb]; exact hinv2) (fun j h1 h2 h3 => by omega) hw
        have hex3 := perform_workers_ex h hcover hlinks hlim _ base st2a st3
          (by rw [eb]; exact hinv2) (by rw [eb]; exact hex2) (fun j h1 h2 h3 => by omega) hw
        have el : min (base + (min (loop_limit c.swaps.length t) (base + b * t) - base))
            c.swaps.length = limit := by omega
        rw [el] at hinv3 hex3
        have en : min (base + b * t) c.swaps.length = limit := by omega
        apply ih (base + b * t) _ st2 (Dvd.dvd.add hd (Dvd.intro_left b rfl)) _ _ hp
        · rw [en]; exact hinv3.of_fields rfl rfl rfl rfl rfl rfl rfl
        · rw [en]; exact hex3.ex_of_fields rfl rfl (fun u _ _ => rfl) rfl rfl
    · rw [if_neg hb] at hp
      simp only [Option.some.injEq] at hp
      rw [← hp]
      exact hdone base st hex hb

/-! ## The requested edges of a run that returns have valid node ids -/

theorem perf_inv_initial {c : RunCtx} (h : c.WF) (xi : PQSorterMerger ExistenceInfoMsg)
    (es : List ExistenceSuccessorMsg) (ep : List Nat) :
    PerfInv c (2 * min 0 c.swaps.length) (min 0 c.swaps.length)
      { _edge_state := PQSorterMerger.finish_sorter_input DependencyChainEdgeMsg.le
          c.depchain_edges
        _existence_info := xi
        edge_dependencies := sorter_sort DependencyChainSuccessorMsg.le c.links
        existence_successor := es
        existence_placeholder := ep
        _swap_direction := c.swaps.map SwapDescriptor.direction
        source_edges := fun _ => edge_t.invalid
        existence_information := EdgeExistenceInformation.start_initialization
        edge_updates := []
        debug := []
        forwarded := []
        answered := [] } := by
  rw [show min 0 c.swaps.length = 0 by omega]
  have hcontent : ∀ x, x ∈ (PQSorterMerger.finish_sorter_input DependencyChainEdgeMsg.le
      c.depchain_edges).content ↔ x ∈ c.depchain_edges := by
    intro x
    simp only [PQSorterMerger.content, PQSorterMerger.finish_sorter_input, List.append_nil]
    exact mem_sorter_sort _ _ _
  constructor
  · exact LinkStream.init c h
  · rfl
  · rfl
  · intro i s _ _ h2 _
    omega
  · intro i s _
    rfl
  · exact sorter_sort_sorted _ _
  · exact List.sorted_nil
  · simp only [PQSorterMerger.content, PQSorterMerger.finish_sorter_input, List.append_nil]
    exact ((sorter_sort_perm _ c.depchain_edges).map _).nodup_iff.mpr h.facts.edges_nodup
  · intro x hx
    have hx1 := (hcontent x).mp hx
    obtain ⟨a1, -, a3⟩ := (h.facts.mem_edges x.sid x.edge).mp hx1
    exact ⟨Nat.zero_le _, a1, Or.inl ⟨x.edge, hx1⟩, a3⟩
  · intro q _ _ hv
    rcases hv with ⟨e, he⟩ | ⟨p, _, hp⟩
    · exact ⟨⟨q, e⟩, (hcontent _).mpr he, rfl⟩
    · omega
  · rfl

/-- A swap that leaves its waits has read two edges with valid node ids; the
first swap side of an edge id reads the edge of the input. -/
theorem perform_swap_ready {c : RunCtx} (h : c.WF) {limit sid : Nat} {st st2 : PerformState}
    (hinv : PerfInv c (2 * limit) sid st) (hsid : sid < limit) (hlim : limit ≤ c.swaps.length)
    (hps : perform_swap limit sid st = some st2)
    (hK : ∀ x ∈ c.depchain_edges, x.sid < 2 * sid → source_ready x.edge = true) :
    ∀ x ∈ c.depchain_edges, x.sid < 2 * (sid + 1) → source_ready x.edge = true := by
  have hsn : sid < c.swaps.length := by omega
  obtain ⟨direction, directions, o0, o1, hd, -, -, r0, r1, -⟩ :=
    perform_swap_fields h limit sid st st2 hinv.deps hps
  intro x hx hlt
  by_cases hold : x.sid < 2 * sid
  · exact hK x hx hold
  · obtain ⟨hq, hmin, he⟩ := (h.facts.mem_edges x.sid x.edge).mp hx
    have hv : c.has_value sid x.sid := Or.inl ⟨x.edge, by cases x; exact hx⟩
    have hfl : c.swaps.length ≤
        (st.debug.map SwapResult.performed ++ List.replicate c.swaps.length false).length := by
      simp
    have hcfg := config_at_ghost c st (List.replicate c.swaps.length false) x.sid
      (by rw [hinv.debug_len]; omega)
    rw [hinv.debug_len] at hcfg
    have hstab := config_at_stable h _ hfl x.sid 0 sid (by omega)
      (by
        intro t _ ht hte
        have := hmin t (by omega) hte
        omega)
    rw [Nat.zero_add, config_at_zero, hcfg] at hstab
    have hs : x.sid = 2 * sid + 0 ∨ x.sid = 2 * sid + 1 := by omega
    rcases hs with hs | hs
    · have hslot := hinv.slot_hv sid 0 (by omega) (by omega) (by omega) (by rw [← hs]; exact hv)
      rw [← hs, hstab, ← he] at hslot
      rw [← hslot]
      exact r0
    · have hslot := hinv.slot_hv sid 1 (by omega) (by omega) (by omega) (by rw [← hs]; exact hv)
      rw [← hs, hstab, ← he] at hslot
      rw [← hslot]
      exact r1

theorem perform_workers_ready {c : RunCtx} (h : c.WF) {limit : Nat}
    (hlim : limit ≤ c.swaps.length) :
    ∀ (n sid : Nat) (st st2 : PerformState),
      PerfInv c (2 * limit) (min sid c.swaps.length) st →
      (∀ x ∈ c.depchain_edges, x.sid < 2 * min sid c.swaps.length →
        source_ready x.edge = true) →
      (∀ j, sid ≤ j → j < sid + n → j < c.swaps.length → j < limit) →
      perform_workers c.swaps.length limit n sid st = some st2 →
      ∀ x ∈ c.depchain_edges, x.sid < 2 * min (sid + n) c.swaps.length →
        source_ready x.edge = true := by
  intro n
  induction n with
  | zero =>
    intro sid st st2 _ hK _ _
    exact hK
  | succ n ih =>
    intro sid st st2 hinv hK hcov hw
    unfold perform_workers at hw
    rw [show sid + (n + 1) = sid + 1 + n by omega]
    by_cases hs : sid ≥ c.swaps.length
    · rw [if_pos hs] at hw
      have e : min (sid + 1) c.swaps.length = min sid c.swaps.length := by omega
      apply ih (sid + 1) st st2 _ _ (fun j h1 h2 h3 => hcov j (by omega) (by omega) h3) hw
      · rw [e]; exact hinv
      · rw [e]; exact hK
    · rw [if_neg hs] at hw
      cases hp : perform_swap limit sid st with
      | none => rw [hp] at hw; simp at hw
      | some st1 =>
        rw [hp] at hw
        dsimp only at hw
        have e0 : min sid c.swaps.length = sid := by omega
        have e1 : min (sid + 1) c.swaps.length = sid + 1 := by omega
        rw [e0] at hinv hK
        have hsl := hcov sid (by omega) (by omega) (by omega)
        apply ih (sid + 1) st1 st2 _ _ (fun j h1 h2 h3 => hcov j (by omega) (by omega) h3) hw
        · rw [e1]; exact perform_swap_inv h hinv hsl hlim hp
        · rw [e1]; exact perform_swap_ready h hinv hsl hlim hp hK

theorem perform_batches_ready {c : RunCtx} (h : c.WF) {t b : Nat} (ht : 0 < t) :
    ∀ (fuel base : Nat) (st st2 : PerformState), t ∣ base →
      PerfInv c (2 * min base c.swaps.length) (min base c.swaps.length) st →
      (∀ x ∈ c.depchain_edges, x.sid < 2 * min base c.swaps.length →
        source_ready x.edge = true) →
      perform_batches t b c.swaps.length fuel base st = some st2 →
      ∀ x ∈ c.depchain_edges, source_ready x.edge = true := by
  have hn := h.n_lt
  have hll := le_loop_limit c.swaps.length t
  have hdone : ∀ (base : Nat),
      (∀ x ∈ c.depchain_edges, x.sid < 2 * min base c.swaps.length →
        source_ready x.edge = true) →
      ¬ base < loop_limit c.swaps.length t →
      ∀ x ∈ c.depchain_edges, source_ready x.edge = true := by
    intro base hK hb x hx
    rw [show min base c.swaps.length = c.swaps.length by omega] at hK
    exact hK x hx ((h.facts.mem_edges x.sid x.edge).mp hx).1
  intro fuel
  induction fuel with
  | zero =>
    intro base st st2 _ _ hK hp
    unfold perform_batches at hp
    by_cases hb : base < loop_limit c.swaps.length t
    · rw [if_pos hb] at hp; simp at hp
    · exact hdone base hK hb
  | succ fuel ih =>
    intro base st st2 hd hinv hK hp
    unfold perform_batches at hp
    by_cases hb : base < loop_limit c.swaps.length t
    · rw [if_pos hb] at hp
      dsimp only at hp
      have hbn : base < c.swaps.length := lt_of_lt_loop_limit ht hd hb
      generalize hlimit : min c.swaps.length (base + b * t) = limit at hp
      have hlim : limit ≤ c.swaps.length := by omega
      have hpack : pack_swap_id_spos limit 0 = 2 * limit := by
        rw [pack_eq (by omega) (by omega)]; omega
      rw [hpack] at hp
      generalize init_existence c.swaps.length (b * t) base st.existence_placeholder
        EdgeExistenceInformation.start_initialization = ix at hp
      obtain ⟨st1, hst1⟩ : ∃ st1 : PerformState, st1 = { st with
          existence_placeholder := ix.1
          existence_information := ix.2
          _edge_state := st._edge_state.start_batch ⟨2 * limit, ⟨-1, -1⟩⟩
          _existence_info := st._existence_info.start_batch ⟨limit, ⟨-1, -1⟩⟩ } := ⟨_, rfl⟩
      rw [← hst1] at hp
      have eb : min base c.swaps.length = base := by omega
      rw [eb] at hinv hK
      have hinv1 : PerfInv c (2 * min base limit) base st1 := by
        rw [show min base limit = base by omega, hst1]
        exact hinv.of_fields rfl rfl rfl rfl rfl rfl rfl
      have hl1 : st1._edge_state.limit = some ⟨2 * limit, ⟨-1, -1⟩⟩ := by
        rw [hst1]; rfl
      have hcnt : limit < base + hydrate_count t base limit → limit = c.swaps.length := by
        intro hlt
        by_contra hne
        have : limit = base + b * t := by omega
        rw [this, hydrate_count_full ht] at hlt
        omega
      have hinv2 := perform_hydrate_inv h hlim ⟨-1, -1⟩ (hydrate_count t base limit) base st1
        hinv1 (by omega) hl1 hcnt
      have hge := hydrate_count_ge t base limit ht
      rw [show min (base + hydrate_count t base limit) limit = limit by omega] at hinv2
      generalize perform_hydrate (hydrate_count t base limit) base st1 = st2a at hp hinv2
      cases hw : perform_workers c.swaps.length limit
          (min (loop_limit c.swaps.length t) (base + b * t) - base) base st2a with
      | none => rw [hw] at hp; simp at hp
      | some st3 =>
        rw [hw] at hp
        dsimp only at hp
        have hinv3 := perform_workers_inv h hlim _ base st2a st3
          (by rw [eb]; exact hinv2) (fun j h1 h2 h3 => by omega) hw
        have hK3 := perform_workers_ready h hlim _ base st2a st3
          (by rw [eb]; exact hinv2) (by rw [eb]; exact hK) (fun j h1 h2 h3 => by omega) hw
        have el : min (base + (min (loop_limit c.swaps.length t) (base + b * t) - base))
            c.swaps.length = limit := by omega
        rw [el] at hinv3 hK3
        have en : min (base + b * t) c.swaps.length = limit := by omega
        apply ih (base + b * t) _ st2 (Dvd.dvd.add hd (Dvd.intro_left b rfl)) _ _ hp
        · rw [en]; exact hinv3.of_fields rfl rfl rfl rfl rfl rfl rfl
        · rw [en]; exact hK3
    · exact hdone base hK hb

/-- In a run of `_perform_swaps` that returns, every requested edge of the input
has valid node ids: the first swap side of its edge id has left the wait for
it. -/
theorem perform_swaps_ready {c : RunCtx} (h : c.WF) {t b : Nat} (ht : 0 < t)
    (xi : PQSorterMerger ExistenceInfoMsg) (es : List ExistenceSuccessorMsg) (ep : List Nat)
    (p : PerformResult)
    (hp : _perform_swaps t b c.swaps.length
      (PQSorterMerger.finish_sorter_input DependencyChainEdgeMsg.le c.depchain_edges) xi
      (sorter_sort DependencyChainSuccessorMsg.le c.links) es ep
      (c.swaps.map SwapDescriptor.direction) = some p) :
    ∀ q, q < 2 * c.swaps.length →
      source_ready (c.edges.getD (request_eid c.swaps q) edge_t.invalid) = true := by
  unfold _perform_swaps at hp
  dsimp only at hp
  split at hp
  · simp at hp
  next st1 hst1 =>
  have hall := perform_batches_ready h ht _ 0 _ st1 (Nat.dvd_zero t) (perf_inv_initial h xi es ep)
    (fun x _ hx => by omega) hst1
  intro q hq
  have hex : ∃ k, k < 2 * c.swaps.length ∧ request_eid c.swaps k = request_eid c.swaps q :=
    ⟨q, hq, rfl⟩
  classical
  have hspec := Nat.find_spec hex
  have hmin := fun k => Nat.find_min hex (m := k)
  have hmem : (⟨Nat.find hex, c.edges.getD (request_eid c.swaps q) edge_t.invalid⟩ :
      DependencyChainEdgeMsg) ∈ c.depchain_edges := by
    refine (h.facts.mem_edges _ _).mpr ⟨hspec.1, ?_, by rw [hspec.2]⟩
    intro k hk hke
    by_contra hcon
    exact hmin k (by omega) ⟨hk, by rw [hke, hspec.2]⟩
  exact hall _ hmem

/-! ## Simple graphs stay simple -/

theorem exsucc_le_sid {a b : ExistenceSuccessorMsg} (h : ExistenceSuccessorMsg.le a b) :
    a.swap_id ≤ b.swap_id := by
  unfold ExistenceSuccessorMsg.le at h
  omega

/-- The swap performer, run on the messages of the conflict computer and of the
existence-request processor for a simple graph, leaves a simple graph. -/
theorem perform_swaps_simple {c : RunCtx} (h : c.WF) {t b : Nat} (ht : 0 < t)
    (R : List ExistenceRequestMsg) (hRn : ∀ r ∈ R, r.swap_id < c.swaps.length)
    (hcover : ∀ fl : List Bool, c.swaps.length ≤ fl.length →
      ∀ k, k < 2 * c.swaps.length → KeyCover c fl k R)
    (hE : c.edges.Sorted edge_le) (hsimple : is_simple c.edges) (p : PerformResult)
    (hp : _perform_swaps t b c.swaps.length
      (PQSorterMerger.finish_sorter_input DependencyChainEdgeMsg.le c.depchain_edges)
      (_process_existence_requests t (sorter_sort ExistenceRequestMsg.le R)
        c.edges).existence_info
      (sorter_sort DependencyChainSuccessorMsg.le c.links)
      (_process_existence_requests t (sorter_sort ExistenceRequestMsg.le R)
        c.edges).existence_successor
      (_process_existence_requests t (sorter_sort ExistenceRequestMsg.le R)
        c.edges).existence_placeholder
      (c.swaps.map SwapDescriptor.direction) = some p) :
    is_simple (positional_run c.edges c.swaps (p.debug.map SwapResult.performed)) := by
  have hsorted := sorter_sort_sorted ExistenceRequestMsg.le R
  have hmemR := mem_sorter_sort ExistenceRequestMsg.le R
  -- the messages of the existence-request processor
  have hlinks : ∀ (X : edge_t) (p u : Nat), (∃ r ∈ R, r.edge = X ∧ r.swap_id = p) →
      (∃ r ∈ R, r.edge = X ∧ r.swap_id = u) → p < u →
      (∀ r ∈ R, r.edge = X → p < r.swap_id → u ≤ r.swap_id) →
      (∃ v ∈ R, v.edge = X ∧ v.forward_only = false ∧ u ≤ v.swap_id) →
      (⟨p, X, u⟩ : ExistenceSuccessorMsg) ∈
        (_process_existence_requests t (sorter_sort ExistenceRequestMsg.le R)
          c.edges).existence_successor := by
    intro X p u h1 h2 hpu h3 h4
    unfold _process_existence_requests
    dsimp only
    rw [mem_sorter_sort]
    apply process_requests_successors t _ _ _ (Nat.le_refl _) hsorted X p u _ _ hpu
    · intro r hr; exact h3 r ((hmemR r).mp hr)
    · obtain ⟨v, hv, hv2⟩ := h4; exact ⟨v, (hmemR v).mpr hv, hv2⟩
    · obtain ⟨r, hr, hr2⟩ := h1; exact ⟨r, (hmemR r).mpr hr, hr2⟩
    · obtain ⟨r, hr, hr2⟩ := h2; exact ⟨r, (hmemR r).mpr hr, hr2⟩
  have hinfo := (process_requests_info t c.edges hE (sorter_sort ExistenceRequestMsg.le R).length
    (sorter_sort ExistenceRequestMsg.le R) [] c.edges (Nat.le_refl _) hsorted rfl
    (fun x hx => by simp at hx)).1
  generalize hx : _process_existence_requests t (sorter_sort ExistenceRequestMsg.le R)
    c.edges = x at hp hlinks
  have hxi : x.existence_info = PQSorterMerger.finish_sorter_input ExistenceInfoMsg.le
      (process_requests t (sorter_sort ExistenceRequestMsg.le R).length
        (sorter_sort ExistenceRequestMsg.le R) c.edges).existence_info := by
    rw [← hx]; rfl
  have hxs : x.existence_successor.Pairwise (fun a b => a.swap_id ≤ b.swap_id) := by
    rw [← hx]
    unfold _process_existence_requests
    dsimp only
    exact (sorter_sort_sorted ExistenceSuccessorMsg.le _).imp exsucc_le_sid
  have hinit : ExInv c R x.existence_successor (min 0 c.swaps.length) (min 0 c.swaps.length)
      { _edge_state := PQSorterMerger.finish_sorter_input DependencyChainEdgeMsg.le
          c.depchain_edges
        _existence_info := x.existence_info
        edge_dependencies := sorter_sort DependencyChainSuccessorMsg.le c.links
        existence_successor := x.existence_successor
        existence_placeholder := x.existence_placeholder
        _swap_direction := c.swaps.map SwapDescriptor.direction
        source_edges := fun _ => edge_t.invalid
        existence_information := EdgeExistenceInformation.start_initialization
        edge_updates := []
        debug := []
        forwarded := []
        answered := [] } := by
    rw [show min 0 c.swaps.length = 0 by omega]
    constructor
    · show x.existence_info.cursor.Sorted _
      rw [hxi]
      exact sorter_sort_sorted _ _
    · show x.existence_info.pq.Sorted _
      rw [hxi]
      exact List.sorted_nil
    · intro y _; exact Nat.zero_le _
    · exact hxs
    · intro m hm _; exact hm
    · intro u e _ hI hN he
      refine ⟨fun hlt => by omega, fun _ => ?_⟩
      show _ ∈ x.existence_info.content
      rw [hxi]
      simp only [PQSorterMerger.content, PQSorterMerger.finish_sorter_input, List.append_nil]
      rw [mem_sorter_sort]
      apply (hinfo u e).mpr
      obtain ⟨r, hr, hre, hru⟩ := hI.requests
      obtain ⟨v, hv, hve, hvf, -⟩ := hI.target
      refine ⟨he, ⟨v, (hmemR v).mpr hv, hve, hvf⟩, ⟨r, (hmemR r).mpr hr, hre, hru⟩, ?_⟩
      intro r2 hr2 hr2e
      exact hN r2 ((hmemR r2).mp hr2) hr2e (Nat.zero_le _)
    · exact hsimple
  unfold _perform_swaps at hp
  dsimp only at hp
  split at hp
  · simp at hp
  next st1 hst1 =>
  simp only [Option.some.injEq] at hp
  rw [← hp]
  dsimp only
  have hpinit := perf_inv_initial h x.existence_info x.existence_successor
    x.existence_placeholder
  have hfin := perform_batches_inv h ht _ 0 _ st1 (Nat.dvd_zero t) hpinit hst1
  have hexfin := perform_batches_ex h hRn hcover hlinks ht _ 0 _ st1 (Nat.dvd_zero t) hpinit
    hinit hst1
  have := hexfin.simple
  unfold ghost at this
  rw [hfin.debug_len, List.take_length] at this
  exact this

/-- C33, simple graphs stay simple: for every run of the engine (any number of
worker threads, any batch size) that returns, on an edge list that is canonical,
sorted, free of self-loops and free of duplicate edges, with fewer than `2^63`
swaps whose two edge ids are distinct and in range, the edge list `_edges` after
the run contains no duplicate edge and no self-loop. -/
theorem simple_graphs_stay_simple (b t : Nat) (edges : List edge_t)
    (swaps : List SwapDescriptor) (ht : 0 < t) (hn : swaps.length < 2 ^ 63)
    (hcanon : ∀ e ∈ edges, e.canonical) (hsorted : edges.Sorted edge_le)
    (hloop : ∀ e ∈ edges, e.is_loop = false) (hnodup : edges.Nodup)
    (hrange : ∀ s ∈ swaps, s.eid_a < edges.length ∧ s.eid_b < edges.length)
    (hdist : ∀ s ∈ swaps, s.eid_a ≠ s.eid_b)
    (r : Engine × RunLog) (hr : run_swaps_with b t edges swaps = some r) :
    r.1._edges.Nodup ∧ ∀ e ∈ r.1._edges, e.is_loop = false := by
  by_cases hS : swaps = []
  · subst hS
    rw [run_swaps_with_nil] at hr
    simp only [Option.some.injEq] at hr
    rw [← hr]
    exact ⟨hnodup, hloop⟩
  · obtain ⟨cr, p, hcr, hp, -, hres, -⟩ := run_swaps_with_some b t edges swaps hS r hr
    obtain ⟨-, hperm⟩ := run_refines_positional b t edges swaps ht hn hrange hdist r hr
    have hwf := run_ctx_wf t edges swaps hn hrange hdist
    have hcs := compute_conflicts_edge_state hwf ht _ cr hcr
    obtain ⟨hmerger, hRn⟩ := compute_conflicts_requests t b swaps.length _ _ _ cr hcr
    rw [hcs, hmerger] at hp
    have hready := perform_swaps_ready hwf ht _ _ _ p hp
    have hsimple := perform_swaps_simple hwf ht cr.existence_requests hRn
      (fun fl hfl => compute_conflicts_cover hwf ht fl hfl hready cr hcr) hsorted
      ⟨hnodup, hloop, hcanon⟩ p hp
    rw [hres] at hperm
    have hs2 : is_simple (positional_run edges swaps (p.debug.map SwapResult.performed)) :=
      hsimple
    exact ⟨hperm.nodup_iff.mpr hs2.nodup, fun e he => hs2.no_loop e (hperm.subset he)⟩

/-- Witness for C33: `simple_E` is a simple graph in canonical form, sorted; the
run of three swaps on it with two worker threads and one swap per thread and
batch returns and leaves a simple graph. -/
theorem simple_graphs_stay_simple_witness :
    run_swaps_with 1 2 simple_E simple_S = some simple_result ∧
      simple_result.1._edges.Nodup ∧ ∀ e ∈ simple_result.1._edges, e.is_loop = false :=
  ⟨by decide!,
    simple_graphs_stay_simple 1 2 simple_E simple_S (by decide) (by decide) (by decide)
      (by decide) (by decide) (by decide) (by decide) (by decide) simple_result (by decide!)⟩

/-- The run of the witness: the first swap is refused, for both of its target
edges exist; the other two are performed. -/
theorem simple_graphs_example :
    simple_result.1._result.map SwapResult.performed = [false, true, true] ∧
      simple_result.1._edges = [⟨0, 3⟩, ⟨0, 4⟩, ⟨1, 2⟩, ⟨1, 5⟩, ⟨2, 3⟩] := by
  decide!

/-! ## A cross-batch push with a negative node id -/

/-- C31, as stated, fails: node ids are signed.  In a batch with the limit 4 the
answer "exists" for the edge `(-2,5)` and the swap 4, and the edge `(-2,5)` for
the first side of the swap 4, go through `push_pq`; both messages are not greater
than the limit messages `(4, (-1,-1))` and `(pack(4, 0), (-1,-1))` of
`start_batch`, and lie in the window.  The run on `negative_E` with one swap per
batch sends such a message: the first swap forwards the edge `(-2,1)` to the
first side of the second swap, with the key `pack(1, 0)` of the limit message of
its batch. -/
theorem negative_node_push_in_window :
    (push_existence_info 4 4 ⟨-2, 5⟩ true loop_state)._existence_info.pq = [⟨4, ⟨-2, 5⟩⟩] ∧
      ExistenceInfoMsg.le ⟨4, ⟨-2, 5⟩⟩ ⟨4, ⟨-1, -1⟩⟩ ∧
      (loop_state._existence_info.start_batch ⟨4, ⟨-1, -1⟩⟩).in_window ExistenceInfoMsg.le
        ⟨4, ⟨-2, 5⟩⟩ = true ∧
      (deliver_edge 4 (pack_swap_id_spos 4 0) ⟨-2, 5⟩ loop_state)._edge_state.pq =
        [⟨pack_swap_id_spos 4 0, ⟨-2, 5⟩⟩] ∧
      DependencyChainEdgeMsg.le ⟨pack_swap_id_spos 4 0, ⟨-2, 5⟩⟩
        ⟨pack_swap_id_spos 4 0, ⟨-1, -1⟩⟩ ∧
      (loop_state._edge_state.start_batch ⟨pack_swap_id_spos 4 0, ⟨-1, -1⟩⟩).in_window
        DependencyChainEdgeMsg.le ⟨pack_swap_id_spos 4 0, ⟨-2, 5⟩⟩ = true ∧
      (run_swaps_with 1 1 negative_E negative_S).map
          (fun r => decide ((⟨pack_swap_id_spos 1 0, ⟨-2, 1⟩⟩ : DependencyChainEdgeMsg) ∈
            r.2.depchain_edges)) = some true ∧
      DependencyChainEdgeMsg.le ⟨pack_swap_id_spos 1 0, ⟨-2, 1⟩⟩
        ⟨pack_swap_id_spos 1 0, ⟨-1, -1⟩⟩ := by
  decide!

/-! ## The scenario "conflict-detected", as the engine runs it -/

/-- C10, amended: in the scenario "conflict-detected" (test `deletion`) the run
performs both swaps, for 1 to 16 worker threads: the first swap turns `(1,2)` and
`(5,6)` into `(1,6)` and `(2,5)`, the second one turns `(1,3)` and `(2,4)` into
`(1,2)` and `(3,4)` and finds no conflict, and the run leaves
`[(1,2),(1,2),(1,2),(1,6),(2,5),(3,4)]`. -/
theorem scenario_deletion_result :
    ∀ t : Fin 16,
      (run_swaps (t.val + 1) deletion_E deletion_S).map (fun r => (r.1._edges, r.1._result)) =
        some ([⟨1, 2⟩, ⟨1, 2⟩, ⟨1, 2⟩, ⟨1, 6⟩, ⟨2, 5⟩, ⟨3, 4⟩],
          [⟨true, false, (⟨1, 6⟩, ⟨2, 5⟩), (false, false)⟩,
            ⟨true, false, (⟨1, 2⟩, ⟨3, 4⟩), (false, false)⟩]) := by
  decide!

/-! ## The existence chain links a requester of an edge to the next one only -/

/-- In the walk over the requests on one edge, in descending order of their swap
ids, every message names as successor the requester next above its swap: no
request of the walk has a swap id between the two. -/
theorem spec_chain_sound (X : edge_t) :
    ∀ (run visited : List ExistenceRequestMsg),
      (visited ++ run).Pairwise (fun a b => b.swap_id ≤ a.swap_id) →
      ∀ m ∈ spec_existence_chain X visited run, ∀ r ∈ visited ++ run,
        m.swap_id < r.swap_id → m.successor ≤ r.swap_id := by
  intro run
  induction run with
  | nil => intro visited _ m hm; simp [spec_existence_chain] at hm
  | cons r0 rest ih =>
    intro visited hpw m hm r hr hlt
    unfold spec_existence_chain at hm
    rcases List.mem_append.mp hm with hm | hm
    · split at hm
      · next hc =>
        rw [List.mem_singleton.mp hm] at hlt ⊢
        dsimp only at hlt ⊢
        obtain ⟨h1, h2, h3⟩ := List.pairwise_append.mp hpw
        have hrv : r ∈ visited := by
          rcases List.mem_append.mp hr with h | h
          · exact h
          · rcases List.mem_cons.mp h with rfl | h
            · omega
            · have := (List.pairwise_cons.mp h2).1 r h
              omega
        rcases List.eq_nil_or_concat visited with hnil | ⟨ys, l, hl⟩
        · rw [hnil] at hrv; simp at hrv
        · rw [List.concat_eq_append] at hl
          rw [hl, spec_last_sid_concat]
          rw [hl] at hrv h1
          rcases List.mem_append.mp hrv with h | h
          · exact (List.pairwise_append.mp h1).2.2 r h l (by simp)
          · simp only [List.mem_singleton] at h
            rw [h]
      · simp at hm
    · have e : visited ++ r0 :: rest = (visited ++ [r0]) ++ rest := by simp
      rw [e] at hpw hr
      exact ih (visited ++ [r0]) hpw m hm r hr hlt

/-- The existence-request processor links a requester of an edge to the next
requester above it only: no request on the edge of a message has a swap id
between the swap and the successor of the message. -/
theorem process_requests_links_sound (t : Nat) :
    ∀ (fuel : Nat) (reqs : List ExistenceRequestMsg) (edges : List edge_t),
      reqs.Pairwise ExistenceRequestMsg.le →
      ∀ m ∈ (process_requests t fuel reqs edges).successor_output,
        (∃ r ∈ reqs, r.edge = m.2.edge) ∧
          ∀ r ∈ reqs, r.edge = m.2.edge → m.2.swap_id < r.swap_id →
            m.2.successor ≤ r.swap_id := by
  intro fuel
  induction fuel with
  | zero => intro reqs edges _ m hm; simp [process_requests] at hm
  | succ fuel ih =>
    intro reqs edges hpw m hm
    cases reqs with
    | nil => simp [process_requests] at hm
    | cons request rest =>
      obtain ⟨a1, -, a3⟩ := existence_chain_spec t request.edge (request :: rest) []
        request.swap_id false
        (by
          intro r hr
          simp only [List.head?_cons, Option.some.injEq] at hr
          rw [← hr]
          rfl)
        (by simp)
      have hs := sorted_requests_edge _ hpw
      have hle : ∀ r ∈ request :: rest, request.edge ≤ r.edge := by
        intro r hr
        rcases List.mem_cons.mp hr with rfl | hr
        · exact edge_le_refl _
        · have := hs
          simp only [List.map_cons, List.sorted_cons, List.mem_map, forall_exists_index,
            and_imp, forall_apply_eq_imp_iff₂] at this
          exact this.1 r hr
      have hgt := dropWhile_edge_gt request.edge (request :: rest) hs hle
      have hdrop : ∀ r ∈ (request :: rest).dropWhile (fun r => decide (r.edge = request.edge)),
          r.edge ≠ request.edge := by
        intro r hr he
        have := hgt r hr
        rw [he] at this
        exact edge_lt_irrefl _ this
      have hmem := mem_takeWhile_edge request.edge (request :: rest) hdrop
      have hsub := (List.dropWhile_suffix
        (fun r : ExistenceRequestMsg => decide (r.edge = request.edge))
        (l := request :: rest)).sublist
      unfold process_requests at hm
      dsimp only at hm
      rcases List.mem_append.mp hm with hm | hm
      · rcases List.mem_append.mp hm with hm | hm
        · rw [a1] at hm
          obtain ⟨x, hx, rfl⟩ := List.mem_map.mp hm
          dsimp only
          have hxe := (spec_existence_chain_mem request.edge _ [] x hx).2.1
          refine ⟨⟨request, List.mem_cons_self _ _, hxe.symm⟩, ?_⟩
          intro r hr he hlt
          rw [hxe] at he
          exact spec_chain_sound request.edge _ []
            (by rw [List.nil_append]; exact requests_group_desc request.edge _ hpw) x hx r
            (by rw [List.nil_append]; exact (hmem r).mpr ⟨hr, he⟩) hlt
        · split at hm <;> simp at hm
      · rw [a3] at hm
        obtain ⟨⟨q, hq, hqe⟩, h2⟩ := ih _ _ (hpw.sublist hsub) m hm
        refine ⟨⟨q, hsub.subset hq, hqe⟩, ?_⟩
        intro r hr he hlt
        rcases mem_requests_group request.edge (request :: rest) r hr with h | h
        · exfalso
          apply hdrop q hq
          rw [hqe, ← he, h]
        · exact h2 r h he hlt

/-! ## The serial reference and the positional run -/

theorem serial_swap_length (A : List edge_t) (s : SwapDescriptor) :
    (serial_swap A s).length = A.length := by
  unfold serial_swap
  split
  · dsimp only
    split
    · rfl
    · simp
  · rfl

theorem serial_run_length (ss : List SwapDescriptor) :
    ∀ A : List edge_t, (serial_run A ss).length = A.length := by
  induction ss with
  | nil => intro A; rfl
  | cons s ss ih =>
    intro A
    show (serial_run (serial_swap A s) ss).length = A.length
    rw [ih, serial_swap_length]

theorem serial_run_snoc (A : List edge_t) (ss : List SwapDescriptor) (s : SwapDescriptor) :
    serial_run A (ss ++ [s]) = serial_swap (serial_run A ss) s := by
  unfold serial_run
  rw [List.foldl_append]
  rfl

theorem serial_records_snoc (ss : List SwapDescriptor) (s : SwapDescriptor) :
    ∀ A : List edge_t, serial_records A (ss ++ [s]) =
      serial_records A ss ++ [(serial_decision (serial_run A ss) s).normalize] := by
  induction ss with
  | nil => intro A; rfl
  | cons s0 ss ih =>
    intro A
    show (serial_decision A s0).normalize :: serial_records (serial_swap A s0) (ss ++ [s]) = _
    rw [ih]
    rfl

theorem serial_records_length (ss : List SwapDescriptor) :
    ∀ A : List edge_t, (serial_records A ss).length = ss.length := by
  induction ss with
  | nil => intro A; rfl
  | cons s ss ih =>
    intro A
    show (serial_records (serial_swap A s) ss).length + 1 = ss.length + 1
    rw [ih]

/-- One step of the serial reference is the positional swap under the flag
`performed` of its record. -/
theorem serial_swap_positional (A : List edge_t) (s : SwapDescriptor)
    (ha : s.eid_a < A.length) (hb : s.eid_b < A.length) :
    serial_swap A s = positional_swap A s (serial_decision A s).performed := by
  unfold serial_swap
  rw [List.getElem?_eq_getElem ha, List.getElem?_eq_getElem hb]
  dsimp only
  have ea : A.getD s.eid_a edge_t.invalid = A[s.eid_a] := List.getD_eq_getElem _ _ ha
  have eb : A.getD s.eid_b edge_t.invalid = A[s.eid_b] := List.getD_eq_getElem _ _ hb
  cases hp : (serial_decision A s).performed
  · rw [positional_swap_false]
    unfold serial_decision at hp
    rw [ea, eb] at hp
    simp only [Bool.not_eq_false'] at hp
    rw [if_pos]
    simp only [Bool.or_eq_true] at hp ⊢
    tauto
  · unfold serial_decision at hp
    rw [ea, eb] at hp
    simp only [Bool.not_eq_true'] at hp
    rw [if_neg]
    · unfold positional_swap
      simp only [if_true]
      rw [ea, eb]
    · simp only [Bool.or_eq_false_iff] at hp
      simp only [Bool.or_eq_true, not_or, Bool.not_eq_true]
      tauto

/-- The positional run under the flags of the serial reference is the serial
run. -/
theorem positional_run_serial (ss : List SwapDescriptor) :
    ∀ A : List edge_t, (∀ s ∈ ss, s.eid_a < A.length ∧ s.eid_b < A.length) →
      positional_run A ss ((serial_records A ss).map SwapResult.performed) =
        serial_run A ss := by
  induction ss with
  | nil => intro A _; rfl
  | cons s ss ih =>
    intro A h
    have hs := h s (List.mem_cons_self _ _)
    show positional_run (positional_swap A s (serial_decision A s).normalize.performed) ss
      ((serial_records (serial_swap A s) ss).map SwapResult.performed) =
        serial_run (serial_swap A s) ss
    rw [(normalize_fields _).1, ← serial_swap_positional A s hs.1 hs.2]
    apply ih
    intro x hx
    rw [serial_swap_length]
    exact h x (List.mem_cons_of_mem _ hx)

/-! ## What the existence store and the merger hold comes from an answer "exists" -/

theorem push_existence_info_sound (P : Nat → edge_t → Prop) (limit target : Nat) (e : edge_t)
    (ex : Bool) (st : PerformState) (hex : ex = true → P target e)
    (hstore : ∀ u x, x ∈ (st.existence_information u).present → P u x)
    (hmerger : ∀ y ∈ st._existence_info.content, y.edge ≠ edge_t.invalid → P y.swap_id y.edge) :
    (∀ u x, x ∈ ((push_existence_info limit target e ex st).existence_information u).present →
        P u x) ∧
      ∀ y ∈ (push_existence_info limit target e ex st)._existence_info.content,
        y.edge ≠ edge_t.invalid → P y.swap_id y.edge := by
  unfold push_existence_info
  dsimp only
  by_cases ht : target < limit
  · rw [if_pos ht]
    dsimp only
    refine ⟨?_, hmerger⟩
    intro u x hx
    cases ex
    · simp only [Bool.false_eq_true, if_false] at hx
      unfold EdgeExistenceInformation.push_missing slot_set at hx
      split at hx
      · next hu => rw [hu]; exact hstore _ _ hx
      · exact hstore _ _ hx
    · simp only [if_true, Bool.not_true, Bool.false_eq_true, if_false] at hx
      unfold EdgeExistenceInformation.push_exists slot_set at hx
      split at hx
      · next hu =>
        rw [hu]
        rcases List.mem_cons.mp hx with h | h
        · rw [h]; exact hex rfl
        · exact hstore _ _ h
      · exact hstore _ _ hx
  · rw [if_neg ht]
    dsimp only
    have hperm := PQSorterMerger.push_pq_perm ExistenceInfoMsg.le st._existence_info
      ⟨target, if (!ex) = true then edge_t.invalid else e⟩
    refine ⟨hstore, ?_⟩
    intro y hy hye
    rcases List.mem_cons.mp (hperm.subset hy) with h | h
    · rw [h] at hye ⊢
      dsimp only at hye ⊢
      cases ex
      · simp at hye
      · simp only [Bool.not_true, Bool.false_eq_true, if_false]
        exact hex rfl
    · exact hmerger y h hye

/-- The loop "forward existence information" of the swap `sid` keeps a property
`P` of the edges recorded as present, if the property holds of the answers
"exists" of the swap: for an edge the swap holds after its decision, and for an
edge it does not hold and finds in its own store. -/
theorem forward_existence_sound (P : Nat → edge_t → Prop) (limit sid : Nat)
    (cur new : edge_t × edge_t) :
    ∀ (succs : List ExistenceSuccessorMsg) (st : PerformState),
      (∀ m ∈ succs, m.swap_id ≤ sid → (m.edge = new.1 ∨ m.edge = new.2) →
        P m.successor m.edge) →
      (∀ m ∈ succs, m.swap_id ≤ sid → ¬ (m.edge = cur.1 ∨ m.edge = cur.2) → P sid m.edge →
        P m.successor m.edge) →
      (∀ u x, x ∈ (st.existence_information u).present → P u x) →
      (∀ y ∈ st._existence_info.content, y.edge ≠ edge_t.invalid → P y.swap_id y.edge) →
      (∀ u x, x ∈ ((forward_existence limit sid cur new succs st).existence_information
          u).present → P u x) ∧
        ∀ y ∈ (forward_existence limit sid cur new succs st)._existence_info.content,
          y.edge ≠ edge_t.invalid → P y.swap_id y.edge := by
  intro succs
  induction succs with
  | nil =>
    intro st _ _ hstore hmerger
    unfold forward_existence
    exact ⟨hstore, hmerger⟩
  | cons succ rest ih =>
    intro st h1 h2 hstore hmerger
    unfold forward_existence
    by_cases hgt : succ.swap_id > sid
    · rw [if_pos hgt]
      exact ⟨hstore, hmerger⟩
    · rw [if_neg hgt]
      dsimp only
      have hstep : ∀ ex : Bool, (ex = true → P succ.successor succ.edge) →
          (∀ u x, x ∈ ((forward_existence limit sid cur new rest
              (push_existence_info limit succ.successor succ.edge ex
                st)).existence_information u).present → P u x) ∧
            ∀ y ∈ (forward_existence limit sid cur new rest
              (push_existence_info limit succ.successor succ.edge ex
                st))._existence_info.content,
              y.edge ≠ edge_t.invalid → P y.swap_id y.edge := by
        intro ex hex
        obtain ⟨p1, p2⟩ := push_existence_info_sound P limit succ.successor succ.edge ex st hex
          hstore hmerger
        exact ih _ (fun m hm => h1 m (List.mem_cons_of_mem _ hm))
          (fun m hm => h2 m (List.mem_cons_of_mem _ hm)) p1 p2
      by_cases hn : succ.edge = new.1 ∨ succ.edge = new.2
      · rw [if_pos hn]
        exact hstep true (fun _ => h1 succ (List.mem_cons_self _ _) (by omega) hn)
      · rw [if_neg hn]
        by_cases hc : succ.edge = cur.1 ∨ succ.edge = cur.2
        · rw [if_pos hc]
          exact hstep false (fun h => by simp at h)
        · rw [if_neg hc]
          refine hstep _ (fun h => ?_)
          unfold EdgeExistenceInformation.exists at h
          exact h2 succ (List.mem_cons_self _ _) (by omega) hc
            (hstore sid succ.edge (of_decide_eq_true h))

/-- The hydration of the existence store of a swap keeps a property `P` of the
edges recorded as present: what it puts into the store was in the merger. -/
theorem hydrate_existence_sound (P : Nat → edge_t → Prop) (u : Nat) :
    ∀ (fuel : Nat) (m : PQSorterMerger ExistenceInfoMsg) (x : EdgeExistenceInformation),
      (∀ v e, e ∈ (x v).present → P v e) →
      (∀ y ∈ m.content, y.edge ≠ edge_t.invalid → P y.swap_id y.edge) →
      ∀ v e, e ∈ ((hydrate_existence u fuel m x).2 v).present → P v e := by
  intro fuel
  induction fuel with
  | zero =>
    intro m x hstore _
    unfold hydrate_existence
    exact hstore
  | succ fuel ih =>
    intro m x hstore hmerger
    unfold hydrate_existence
    cases hp : m.peek ExistenceInfoMsg.le with
    | none => exact hstore
    | some msg =>
      dsimp only
      by_cases hm : msg.swap_id = u
      · rw [if_pos hm]
        have hperm := PQSorterMerger.advance_perm _ _ _ hp
        apply ih
        · intro v e he
          by_cases hinv : msg.edge = edge_t.invalid
          · rw [if_pos hinv] at he
            unfold EdgeExistenceInformation.push_missing slot_set at he
            split at he
            · next hv => rw [hv]; exact hstore _ _ he
            · exact hstore _ _ he
          · rw [if_neg hinv] at he
            unfold EdgeExistenceInformation.push_exists slot_set at he
            split at he
            · next hv =>
              rw [hv]
              rcases List.mem_cons.mp he with h | h
              · rw [h, ← hm]
                exact hmerger msg (PQSorterMerger.peek_mem _ _ _ hp).1 hinv
              · exact hstore _ _ h
            · exact hstore _ _ he
        · intro y hy
          exact hmerger y (hperm.subset (List.mem_cons_of_mem _ hy))
      · rw [if_neg hm]
        exact hstore

/-- The first parallel region of a batch leaves every position of the existence
store without a present edge. -/
theorem init_existence_present (num : Nat) :
    ∀ (n s : Nat) (pl : List Nat) (x : EdgeExistenceInformation),
      (∀ u, (x u).present = []) → ∀ u, ((init_existence num n s pl x).2 u).present = [] := by
  intro n
  induction n with
  | zero => intro s pl x hx; exact hx
  | succ n ih =>
    intro s pl x hx
    unfold init_existence
    split
    · apply ih
      intro u
      unfold EdgeExistenceInformation.add_possible_info slot_set
      split
      · rfl
      · exact hx u
    · exact hx

/-! ## The hydration keeps the existence information sound -/

theorem ExSound.sound_of_fields {c : RunCtx} {R : List ExistenceRequestMsg}
    {init : List ExistenceSuccessorMsg} {sid : Nat} {st st2 : PerformState}
    (hinv : ExSound c R init sid st)
    (h1 : ∀ u e, sid ≤ u → e ∈ (st2.existence_information u).present →
      e ∈ ghost c st ∧ ∀ r ∈ R, r.edge = e → sid ≤ r.swap_id → u ≤ r.swap_id)
    (h2 : ∀ x ∈ st2._existence_info.content, x ∈ st._existence_info.content)
    (h4 : st2.existence_successor = st.existence_successor)
    (h5 : st2.debug = st.debug) : ExSound c R init sid st2 := by
  have hg : ghost c st2 = ghost c st := ghost_congr c st st2 h5
  constructor
  · intro u e hu he
    rw [hg]
    exact h1 u e hu he
  · intro x hx hxe hxs
    rw [hg]
    exact hinv.merger x (h2 x hx) hxe hxs
  · rw [h4]; exact hinv.succ
  · rw [h5]; exact hinv.records
  · rw [hg]; exact hinv.serial

theorem perform_hydrate_sound {c : RunCtx} {R : List ExistenceRequestMsg}
    {init : List ExistenceSuccessorMsg} {sid : Nat} :
    ∀ (n id : Nat) (st : PerformState), ExSound c R init sid st →
      ExSound c R init sid (perform_hydrate n id st) := by
  intro n
  induction n with
  | zero =>
    intro id st hinv
    exact hinv
  | succ n ih =>
    intro id st hinv
    unfold perform_hydrate
    dsimp only
    obtain ⟨-, -, f3, -⟩ := hydrate_existence_frame id
      (st._existence_info.cursor.length + st._existence_info.pq.length)
      st._existence_info st.existence_information
    have hs := hydrate_existence_sound
      (fun v e => sid ≤ v → e ∈ ghost c st ∧ ∀ r ∈ R, r.edge = e → sid ≤ r.swap_id →
        v ≤ r.swap_id) id
      (st._existence_info.cursor.length + st._existence_info.pq.length)
      st._existence_info st.existence_information
      (fun v e he hv => hinv.store v e hv he)
      (fun y hy hye hys => hinv.merger y hy hye hys)
    generalize hydrate_existence id
      (st._existence_info.cursor.length + st._existence_info.pq.length)
      st._existence_info st.existence_information = hx at f3 hs
    obtain ⟨st1, hst1⟩ : ∃ st1 : PerformState,
        st1 = { st with _existence_info := hx.1, existence_information := hx.2 } := ⟨_, rfl⟩
    rw [← hst1]
    obtain ⟨g1, g2, g3, g4⟩ := hydrate_source_existence id 0 st1
    obtain ⟨k1, k2, k3, k4⟩ := hydrate_source_existence id 1 (hydrate_source id 0 st1)
    apply ih
    apply hinv.sound_of_fields
    · intro u e hu he
      rw [k2, g2, hst1] at he
      exact hs u e he hu
    · intro x hxm
      rw [k1, g1, hst1] at hxm
      exact f3 x hxm
    · rw [k3, g3, hst1]
    · rw [k4, g4, hst1]

/-! ## One swap of `_perform_swaps` decides as the serial reference -/

theorem mem_set_set_of_ne (A : List edge_t) (a b : Nat) (x y e : edge_t) (he : e ∈ A)
    (ha : ∀ h : a < A.length, A[a] ≠ e) (hb : ∀ h : b < A.length, A[b] ≠ e) :
    e ∈ (A.set a x).set b y := by
  obtain ⟨j, hj, hje⟩ := List.getElem_of_mem he
  have hja : a ≠ j := by
    rintro rfl
    exact ha hj hje
  have hjb : b ≠ j := by
    rintro rfl
    exact hb hj hje
  have hj2 : j < ((A.set a x).set b y).length := by simpa using hj
  have : ((A.set a x).set b y)[j] = e := by
    rw [List.getElem_set_ne hjb, List.getElem_set_ne hja, hje]
  rw [← this]
  exact List.getElem_mem _

theorem mem_set_set_left (A : List edge_t) (a b : Nat) (x y : edge_t) (ha : a < A.length)
    (hab : a ≠ b) : x ∈ (A.set a x).set b y := by
  have ha2 : a < ((A.set a x).set b y).length := by simpa using ha
  have : ((A.set a x).set b y)[a] = x := by
    rw [List.getElem_set_ne (Ne.symm hab), List.getElem_set_self]
  exact List.mem_iff_getElem.mpr ⟨a, ha2, this⟩

theorem mem_set_set_right (A : List edge_t) (a b : Nat) (x y : edge_t) (hb : b < A.length) :
    y ∈ (A.set a x).set b y := by
  have hb2 : b < ((A.set a x).set b y).length := by simpa using hb
  have : ((A.set a x).set b y)[b] = y := by
    rw [List.getElem_set_self]
  exact List.mem_iff_getElem.mpr ⟨b, hb2, this⟩

/-- One swap of `_perform_swaps` on a simple graph keeps the existence
information sound, and its debug record is the record of the serial reference:
what its store holds is in the graph, and what is in the graph and may be a
target of it is in its store. -/
theorem perform_swap_sound {c : RunCtx} (h : c.WF) {R : List ExistenceRequestMsg}
    {init : List ExistenceSuccessorMsg}
    (hcover : ∀ fl : List Bool, c.swaps.length ≤ fl.length →
      ∀ k, k < 2 * c.swaps.length → KeyCover c fl k R)
    (hsound : ∀ m ∈ init, m.swap_id < m.successor ∧
      ∀ r ∈ R, r.edge = m.edge → m.swap_id < r.swap_id → m.successor ≤ r.swap_id)
    {limit sid : Nat} {st st2 : PerformState}
    (hinv : PerfInv c (2 * limit) sid st) (hex : ExInv c R init limit sid st)
    (hso : ExSound c R init sid st)
    (hsid : sid < limit) (hlim : limit ≤ c.swaps.length)
    (hps : perform_swap limit sid st = some st2) : ExSound c R init (sid + 1) st2 := by
  have hsn : sid < c.swaps.length := by omega
  obtain ⟨direction, directions, o0, o1, hd, -, -, -, -, -, -, -, hdebug, -⟩ :=
    perform_swap_fields h limit sid st st2 hinv.deps hps
  obtain ⟨st1, x1, x2, x3, x4, x5, x6⟩ :=
    perform_swap_existence limit sid st st2 direction directions hd hps
  -- the direction of the swap
  have hdrop : c.swaps.drop sid = c.swaps[sid] :: c.swaps.drop (sid + 1) :=
    List.drop_eq_getElem_cons hsn
  have hdirs := hinv.dirs
  rw [hd, hdrop, List.map_cons] at hdirs
  simp only [List.cons.injEq] at hdirs
  have hdirection : direction = c.swaps[sid].direction := hdirs.1
  -- the source edges of the swap
  have ha := RunCtx.eid_even (c := c) sid hsn
  have hb := RunCtx.eid_odd (c := c) sid hsn
  have hrange := h.range c.swaps[sid] (List.getElem_mem _)
  have hdist := h.distinct c.swaps[sid] (List.getElem_mem _)
  have hv0 : c.has_value sid (2 * sid + 0) := by
    have := RunCtx.has_value_own h (2 * sid) (by omega)
    rw [show 2 * sid / 2 = sid by omega] at this
    exact this
  have hv1 : c.has_value sid (2 * sid + 1) := by
    have := RunCtx.has_value_own h (2 * sid + 1) (by omega)
    rw [show (2 * sid + 1) / 2 = sid by omega] at this
    exact this
  have hc0 := hinv.slot_hv sid 0 (by omega) (by omega) (by omega) hv0
  have hc1 := hinv.slot_hv sid 1 (by omega) (by omega) (by omega) hv1
  simp only [Nat.add_zero] at hc0
  have hlenG := ghost_length c st
  have e0 : st.source_edges (sid, 0) = (ghost c st).getD c.swaps[sid].eid_a edge_t.invalid := by
    rw [hc0, ghost_at, ha]
  have e1 : st.source_edges (sid, 1) = (ghost c st).getD c.swaps[sid].eid_b edge_t.invalid := by
    rw [hc1, ghost_at, hb]
  have hla : c.swaps[sid].eid_a < (ghost c st).length := by rw [hlenG]; exact hrange.1
  have hlb : c.swaps[sid].eid_b < (ghost c st).length := by rw [hlenG]; exact hrange.2
  -- the graph after the swap
  have hg := ghost_succ c st st2 sid hinv.debug_len hsn _ hdebug
  rw [(normalize_fields _).1] at hg
  -- the requests of the swap
  have hfl : c.swaps.length ≤
      (st.debug.map SwapResult.performed ++ List.replicate c.swaps.length false).length := by
    simp
  have hcfg : ∀ q, config_at c
      (st.debug.map SwapResult.performed ++ List.replicate c.swaps.length false) sid q =
      ghost_at c st q := by
    intro q
    have := config_at_ghost c st (List.replicate c.swaps.length false) q
      (by rw [hinv.debug_len]; omega)
    rw [hinv.debug_len] at this
    exact this
  obtain ⟨ks0, kt0⟩ := hcover _ hfl (2 * sid) (by omega)
  obtain ⟨ks1, kt1⟩ := hcover _ hfl (2 * sid + 1) (by omega)
  rw [show 2 * sid / 2 = sid by omega, hcfg, ← hc0] at ks0
  rw [show (2 * sid + 1) / 2 = sid by omega, hcfg, ← hc1] at ks1
  rw [show 2 * sid / 2 = sid by omega, target_at_even, hcfg, hcfg, ← hc0, ← hc1,
    direction_eq c sid hsn, ← hdirection] at kt0
  rw [show (2 * sid + 1) / 2 = sid by omega, target_at_odd, hcfg, hcfg, ← hc0, ← hc1,
    direction_eq c sid hsn, ← hdirection] at kt1
  -- what the swap knows about an edge it requests
  have hknows : ∀ e, (∃ r ∈ R, r.edge = e ∧ r.swap_id = sid) →
      (∃ r ∈ R, r.edge = e ∧ r.forward_only = false ∧ sid ≤ r.swap_id) → e ∈ ghost c st →
      e ∈ (st.existence_information sid).present := by
    intro e h1 h2 he
    exact (hex.complete sid e (Nat.le_refl _) ⟨h1, h2⟩ (fun r _ _ hle => hle) he).1 hsid
  -- the decision is the decision of the serial reference
  have hres : swap_decision st.existence_information sid
      (st.source_edges (sid, 0), st.source_edges (sid, 1)) direction =
      serial_decision (ghost c st) c.swaps[sid] := by
    unfold swap_decision serial_decision EdgeExistenceInformation.exists
    dsimp only
    rw [← e0, ← e1, ← hdirection]
    have i0 : decide ((_swap_edges (st.source_edges (sid, 0)) (st.source_edges (sid, 1))
        direction).1 ∈ (st.existence_information sid).present) =
        decide ((_swap_edges (st.source_edges (sid, 0)) (st.source_edges (sid, 1))
          direction).1 ∈ ghost c st) := by
      apply decide_eq_decide.mpr
      exact ⟨fun hm => (hso.store sid _ (Nat.le_refl _) hm).1,
        fun hm => hknows _ ⟨_, kt0, rfl, rfl⟩ ⟨_, kt0, rfl, rfl, Nat.le_refl _⟩ hm⟩
    have i1 : decide ((_swap_edges (st.source_edges (sid, 0)) (st.source_edges (sid, 1))
        direction).2 ∈ (st.existence_information sid).present) =
        decide ((_swap_edges (st.source_edges (sid, 0)) (st.source_edges (sid, 1))
          direction).2 ∈ ghost c st) := by
      apply decide_eq_decide.mpr
      exact ⟨fun hm => (hso.store sid _ (Nat.le_refl _) hm).1,
        fun hm => hknows _ ⟨_, kt1, rfl, rfl⟩ ⟨_, kt1, rfl, rfl, Nat.le_refl _⟩ hm⟩
    rw [i0, i1]
  have hout := swap_outcome_eq st.existence_information sid
    (st.source_edges (sid, 0), st.source_edges (sid, 1)) direction
  have hg2 : ghost c st2 = ((ghost c st).set c.swaps[sid].eid_a
      (swap_outcome (swap_decision st.existence_information sid
        (st.source_edges (sid, 0), st.source_edges (sid, 1)) direction)
        (st.source_edges (sid, 0), st.source_edges (sid, 1))).1).set c.swaps[sid].eid_b
      (swap_outcome (swap_decision st.existence_information sid
        (st.source_edges (sid, 0), st.source_edges (sid, 1)) direction)
        (st.source_edges (sid, 0), st.source_edges (sid, 1))).2 := by
    rw [hg, hout]
    unfold positional_swap
    simp only
    rw [← e0, ← e1, ← hdirection]
  have htake : c.swaps.take (sid + 1) = c.swaps.take sid ++ [c.swaps[sid]] := by
    rw [List.take_succ, List.getElem?_eq_getElem hsn, Option.toList_some]
  have hserial : ghost c st2 = serial_run c.edges (c.swaps.take (sid + 1)) := by
    rw [hg, hres, htake, serial_run_snoc, ← hso.serial]
    exact (serial_swap_positional _ _ hla hlb).symm
  have hrecords : st2.debug = serial_records c.edges (c.swaps.take (sid + 1)) := by
    rw [hdebug, hres, htake, serial_records_snoc, ← hso.serial, ← hso.records]
  rw [List.getD_eq_getElem _ _ hla] at e0
  rw [List.getD_eq_getElem _ _ hlb] at e1
  dsimp only at hout
  generalize st.source_edges (sid, 0) = s0 at *
  generalize st.source_edges (sid, 1) = s1 at *
  generalize swap_decision st.existence_information sid (s0, s1) direction = res at *
  generalize swap_outcome res (s0, s1) = new at *
  -- an edge of the graph that the swap does not hold stays
  have hstay : ∀ e, e ∈ ghost c st → e ≠ s0 → e ≠ s1 → e ∈ ghost c st2 := by
    intro e he h0 h1
    rw [hg2]
    apply mem_set_set_of_ne _ _ _ _ _ _ he
    · intro _ hae; rw [← e0] at hae; exact h0 hae.symm
    · intro _ hbe; rw [← e1] at hbe; exact h1 hbe.symm
  have hnew : ∀ e, e = new.1 ∨ e = new.2 → e ∈ ghost c st2 := by
    intro e he
    rw [hg2]
    rcases he with rfl | rfl
    · exact mem_set_set_left _ _ _ _ _ hla hdist
    · exact mem_set_set_right _ _ _ _ _ hlb
  -- an edge no request of the swap names is not held by the swap
  have hnoreq : ∀ e, (∀ r ∈ R, r.edge = e → r.swap_id ≠ sid) → e ≠ s0 ∧ e ≠ s1 := by
    intro e hN
    constructor
    · rintro rfl
      obtain ⟨r, hr, hre, hrs⟩ := ks0
      exact hN r hr hre hrs
    · rintro rfl
      obtain ⟨r, hr, hre, hrs⟩ := ks1
      exact hN r hr hre hrs
  -- the property of the recorded edges
  have hold : ∀ u e, sid ≤ u →
      (e ∈ ghost c st ∧ ∀ r ∈ R, r.edge = e → sid ≤ r.swap_id → u ≤ r.swap_id) →
      (u = sid → e ∈ ghost c st) ∧ (sid < u → e ∈ ghost c st2 ∧
        ∀ r ∈ R, r.edge = e → sid + 1 ≤ r.swap_id → u ≤ r.swap_id) := by
    intro u e _ hs
    refine ⟨fun _ => hs.1, fun hlt => ?_⟩
    obtain ⟨n0, n1⟩ := hnoreq e (fun r hr hre hrs => by
      have := hs.2 r hr hre (by omega)
      omega)
    exact ⟨hstay e hs.1 n0 n1, fun r hr hre hle => hs.2 r hr hre (by omega)⟩
  have hdrained : ∀ m ∈ st.existence_successor, m.swap_id ≤ sid →
      m.swap_id = sid ∧ sid < m.successor ∧
        ∀ r ∈ R, r.edge = m.edge → sid + 1 ≤ r.swap_id → m.successor ≤ r.swap_id := by
    intro m hm hle
    obtain ⟨hmi, hms⟩ := hso.succ m hm
    obtain ⟨g1, g2⟩ := hsound m hmi
    have : m.swap_id = sid := by omega
    rw [this] at g1 g2
    exact ⟨this, g1, fun r hr hre hlt => g2 r hr hre (by omega)⟩
  obtain ⟨q1, q2⟩ := forward_existence_sound
    (fun v e => (v = sid → e ∈ ghost c st) ∧ (sid < v → e ∈ ghost c st2 ∧
      ∀ r ∈ R, r.edge = e → sid + 1 ≤ r.swap_id → v ≤ r.swap_id))
    limit sid (s0, s1) new st1.existence_successor st1
    (by
      intro m hm hle hn
      rw [x3] at hm
      obtain ⟨-, g1, g2⟩ := hdrained m hm hle
      exact ⟨fun hc => by omega, fun _ => ⟨hnew _ hn, g2⟩⟩)
    (by
      intro m hm hle hc hP
      rw [x3] at hm
      obtain ⟨-, g1, g2⟩ := hdrained m hm hle
      rw [not_or] at hc
      exact ⟨fun hc => by omega, fun _ => ⟨hstay _ (hP.1 rfl) hc.1 hc.2, g2⟩⟩)
    (by
      intro u e he
      rw [x1] at he
      by_cases hu : sid ≤ u
      · exact hold u e hu (hso.store u e hu he)
      · exact ⟨fun hc => by omega, fun hc => by omega⟩)
    (by
      intro y hy hye
      rw [x2] at hy
      have hk := hex.m_keys y hy
      exact hold y.swap_id y.edge (by omega) (hso.merger y hy hye (by omega)))
  obtain ⟨drained, t1, -, t3, -⟩ := forward_existence_targets limit sid (s0, s1) new
    st1.existence_successor st1
  generalize forward_existence limit sid (s0, s1) new st1.existence_successor st1 = fe at *
  rw [← x4] at q1
  rw [← x5] at q2
  rw [← x6, x3] at t1
  rw [← x6] at t3
  constructor
  · intro u e hu he
    exact (q1 u e he).2 (by omega)
  · intro x hx hxe hxs
    exact (q2 x hx hxe).2 (by omega)
  · intro m hm
    have hmem : m ∈ st.existence_successor := by
      rw [t1]; exact List.mem_append_right _ hm
    refine ⟨(hso.succ m hmem).1, ?_⟩
    have hpw := hex.s_sorted
    rw [t1] at hpw
    have hpw2 := (List.pairwise_append.mp hpw).2.1
    cases hrem : st2.existence_successor with
    | nil => rw [hrem] at hm; simp at hm
    | cons hd tl =>
      rw [hrem] at hm hpw2 t3
      have hhd := t3 hd rfl
      rcases List.mem_cons.mp hm with rfl | hm
      · omega
      · have := (List.pairwise_cons.mp hpw2).1 m hm
        omega
  · exact hrecords
  · exact hserial

/-! ## The loops of `_perform_swaps` decide as the serial reference -/

theorem perform_workers_sound {c : RunCtx} (h : c.WF) {R : List ExistenceRequestMsg}
    {init : List ExistenceSuccessorMsg}
    (hcover : ∀ fl : List Bool, c.swaps.length ≤ fl.length →
      ∀ k, k < 2 * c.swaps.length → KeyCover c fl k R)
    (hlinks : ∀ (X : edge_t) (p u : Nat), (∃ r ∈ R, r.edge = X ∧ r.swap_id = p) →
      (∃ r ∈ R, r.edge = X ∧ r.swap_id = u) → p < u →
      (∀ r ∈ R, r.edge = X → p < r.swap_id → u ≤ r.swap_id) →
      (∃ v ∈ R, v.edge = X ∧ v.forward_only = false ∧ u ≤ v.swap_id) →
      (⟨p, X, u⟩ : ExistenceSuccessorMsg) ∈ init)
    (hsound : ∀ m ∈ init, m.swap_id < m.successor ∧
      ∀ r ∈ R, r.edge = m.edge → m.swap_id < r.swap_id → m.successor ≤ r.swap_id)
    {limit : Nat} (hlim : limit ≤ c.swaps.length) :
    ∀ (n sid : Nat) (st st2 : PerformState),
      PerfInv c (2 * limit) (min sid c.swaps.length) st →
      ExInv c R init limit (min sid c.swaps.length) st →
      ExSound c R init (min sid c.swaps.length) st →
      (∀ j, sid ≤ j → j < sid + n → j < c.swaps.length → j < limit) →
      perform_workers c.swaps.length limit n sid st = some st2 →
      ExSound c R init (min (sid + n) c.swaps.length) st2 := by
  intro n
  induction n with
  | zero =>
    intro sid st st2 _ _ hso _ hw
    simp only [perform_workers, Option.some.injEq] at hw
    rw [← hw]
    exact hso
  | succ n ih =>
    intro sid st st2 hinv hex hso hcov hw
    unfold perform_workers at hw
    rw [show sid + (n + 1) = sid + 1 + n by omega]
    by_cases hs : sid ≥ c.swaps.length
    · rw [if_pos hs] at hw
      have e : min (sid + 1) c.swaps.length = min sid c.swaps.length := by omega
      apply ih (sid + 1) st st2 _ _ _ (fun j h1 h2 h3 => hcov j (by omega) (by omega) h3) hw
      · rw [e]; exact hinv
      · rw [e]; exact hex
      · rw [e]; exact hso
    · rw [if_neg hs] at hw
      cases hp : perform_swap limit sid st with
      | none => rw [hp] at hw; simp at hw
      | some st1 =>
        rw [hp] at hw
        dsimp only at hw
        have e0 : min sid c.swaps.length = sid := by omega
        have e1 : min (sid + 1) c.swaps.length = sid + 1 := by omega
        rw [e0] at hinv hex hso
        have hsl := hcov sid (by omega) (by omega) (by omega)
        apply ih (sid + 1) st1 st2 _ _ _ (fun j h1 h2 h3 => hcov j (by omega) (by omega) h3) hw
        · rw [e1]; exact perform_swap_inv h hinv hsl hlim hp
        · rw [e1]; exact perform_swap_ex h hcover hlinks hinv hex hsl hlim hp
        · rw [e1]; exact perform_swap_sound h hcover hsound hinv hex hso hsl hlim hp

theorem perform_batches_sound {c : RunCtx} (h : c.WF) {R : List ExistenceRequestMsg}
    {init : List ExistenceSuccessorMsg} (hRn : ∀ r ∈ R, r.swap_id < c.swaps.length)
    (hcover : ∀ fl : List Bool, c.swaps.length ≤ fl.length →
      ∀ k, k < 2 * c.swaps.length → KeyCover c fl k R)
    (hlinks : ∀ (X : edge_t) (p u : Nat), (∃ r ∈ R, r.edge = X ∧ r.swap_id = p) →
      (∃ r ∈ R, r.edge = X ∧ r.swap_id = u) → p < u →
      (∀ r ∈ R, r.edge = X → p < r.swap_id → u ≤ r.swap_id) →
      (∃ v ∈ R, v.edge = X ∧ v.forward_only = false ∧ u ≤ v.swap_id) →
      (⟨p, X, u⟩ : ExistenceSuccessorMsg) ∈ init)
    (hsound : ∀ m ∈ init, m.swap_id < m.successor ∧
      ∀ r ∈ R, r.edge = m.edge → m.swap_id < r.swap_id → m.successor ≤ r.swap_id)
    {t b : Nat} (ht : 0 < t) :
    ∀ (fuel base : Nat) (st st2 : PerformState), t ∣ base →
      PerfInv c (2 * min base c.swaps.length) (min base c.swaps.length) st →
      ExInv c R init (min base c.swaps.length) (min base c.swaps.length) st →
      ExSound c R init (min base c.swaps.length) st →
      perform_batches t b c.swaps.length fuel base st = some st2 →
      ExSound c R init c.swaps.length st2 := by
  have hn := h.n_lt
  have hll := le_loop_limit c.swaps.length t
  have hdone : ∀ (base : Nat) (st : PerformState),
      ExSound c R init (min base c.swaps.length) st →
      ¬ base < loop_limit c.swaps.length t → ExSound c R init c.swaps.length st := by
    intro base st hso hb
    rw [show min base c.swaps.length = c.swaps.length by omega] at hso
    exact hso
  intro fuel
  induction fuel with
  | zero =>
    intro base st st2 _ _ _ hso hp
    unfold perform_batches at hp
    by_cases hb : base < loop_limit c.swaps.length t
    · rw [if_pos hb] at hp; simp at hp
    · rw [if_neg hb] at hp
      simp only [Option.some.injEq] at hp
      rw [← hp]
      exact hdone base st hso hb
  | succ fuel ih =>
    intro base st st2 hd hinv hex hso hp
    unfold perform_batches at hp
    by_cases hb : base < loop_limit c.swaps.length t
    · rw [if_pos hb] at hp
      dsimp only at hp
      have hbn : base < c.swaps.length := lt_of_lt_loop_limit ht hd hb
      generalize hlimit : min c.swaps.length (base + b * t) = limit at hp
      have hlim : limit ≤ c.swaps.length := by omega
      have hpack : pack_swap_id_spos limit 0 = 2 * limit := by
        rw [pack_eq (by omega) (by omega)]; omega
      rw [hpack] at hp
      have hix := init_existence_present c.swaps.length (b * t) base st.existence_placeholder
        EdgeExistenceInformation.start_initialization (fun _ => rfl)
      generalize init_existence c.swaps.length (b * t) base st.existence_placeholder
        EdgeExistenceInformation.start_initialization = ix at hp hix
      obtain ⟨st1, hst1⟩ : ∃ st1 : PerformState, st1 = { st with
          existence_placeholder := ix.1
          existence_information := ix.2
          _edge_state := st._edge_state.start_batch ⟨2 * limit, ⟨-1, -1⟩⟩
          _existence_info := st._existence_info.start_batch ⟨limit, ⟨-1, -1⟩⟩ } := ⟨_, rfl⟩
      rw [← hst1] at hp
      have eb : min base c.swaps.length = base := by omega
      rw [eb] at hinv hex hso
      have hinv1 : PerfInv c (2 * min base limit) base st1 := by
        rw [show min base limit = base by omega, hst1]
        exact hinv.of_fields rfl rfl rfl rfl rfl rfl rfl
      have hex1 : ExInv c R init (min base limit) base st1 := by
        rw [show min base limit = base by omega, hst1]
        exact hex.ex_of_fields rfl rfl (fun u h1 h2 => by omega) rfl rfl
      have hso1 : ExSound c R init base st1 := by
        rw [hst1]
        apply hso.sound_of_fields
        · intro u e _ he
          rw [hix u] at he
          simp at he
        · intro x hx; exact hx
        · rfl
        · rfl
      have hl1 : st1._edge_state.limit = some ⟨2 * limit, ⟨-1, -1⟩⟩ := by
        rw [hst1]; rfl
      have hl1x : st1._existence_info.limit = some ⟨limit, ⟨-1, -1⟩⟩ := by
        rw [hst1]; rfl
      have hcnt : limit < base + hydrate_count t base limit → limit = c.swaps.length := by
        intro hlt
        by_contra hne
        have : limit = base + b * t := by omega
        rw [this, hydrate_count_full ht] at hlt
        omega
      have hinv2 := perform_hydrate_inv h hlim ⟨-1, -1⟩ (hydrate_count t base limit) base st1
        hinv1 (by omega) hl1 hcnt
      have hex2 := perform_hydrate_ex hRn hlim ⟨-1, -1⟩ (hydrate_count t base limit) base st1
        hex1 hl1x hcnt
      have hso2 := perform_hydrate_sound (hydrate_count t base limit) base st1 hso1
      have hge := hydrate_count_ge t base limit ht
      rw [show min (base + hydrate_count t base limit) limit = limit by omega] at hinv2 hex2
      generalize perform_hydrate (hydrate_count t base limit) base st1 = st2a
        at hp hinv2 hex2 hso2
      cases hw : perform_workers c.swaps.length limit
          (min (loop_limit c.swaps.length t) (base + b * t) - base) base st2a with
      | none => rw [hw] at hp; simp at hp
      | some st3 =>
        rw [hw] at hp
        dsimp only at hp
        have hinv3 := perform_workers_inv h hlim _ base st2a st3
          (by rw [eb]; exact hinv2) (fun j h1 h2 h3 => by omega) hw
        have hex3 := perform_workers_ex h hcover hlinks hlim _ base st2a st3
          (by rw [eb]; exact hinv2) (by rw [eb]; exact hex2) (fun j h1 h2 h3 => by omega) hw
        have hso3 := perform_workers_sound h hcover hlinks hsound hlim _ base st2a st3
          (by rw [eb]; exact hinv2) (by rw [eb]; exact hex2) (by rw [eb]; exact hso2)
          (fun j h1 h2 h3 => by omega) hw
        have el : min (base + (min (loop_limit c.swaps.length t) (base + b * t) - base))
            c.swaps.length = limit := by omega
        rw [el] at hinv3 hex3 hso3
        have en : min (base + b * t) c.swaps.length = limit := by omega
        apply ih (base + b * t) _ st2 (Dvd.dvd.add hd (Dvd.intro_left b rfl)) _ _ _ hp
        · rw [en]; exact hinv3.of_fields rfl rfl rfl rfl rfl rfl rfl
        · rw [en]; exact hex3.ex_of_fields rfl rfl (fun u _ _ => rfl) rfl rfl
        · rw [en]
          exact hso3.sound_of_fields (fun u e hu he => hso3.store u e hu he)
            (fun x hx => hx) rfl rfl
    · rw [if_neg hb] at hp
      simp only [Option.some.injEq] at hp
      rw [← hp]
      exact hdone base st hso hb

/-- The swap performer, run on the messages of the conflict computer and of the
existence-request processor for a simple graph, writes the debug records of the
serial reference. -/
theorem perform_swaps_serial {c : RunCtx} (h : c.WF) {t b : Nat} (ht : 0 < t)
    (R : List ExistenceRequestMsg) (hRn : ∀ r ∈ R, r.swap_id < c.swaps.length)
    (hcover : ∀ fl : List Bool, c.swaps.length ≤ fl.length →
      ∀ k, k < 2 * c.swaps.length → KeyCover c fl k R)
    (hE : c.edges.Sorted edge_le) (hsimple : is_simple c.edges) (p : PerformResult)
    (hp : _perform_swaps t b c.swaps.length
      (PQSorterMerger.finish_sorter_input DependencyChainEdgeMsg.le c.depchain_edges)
      (_process_existence_requests t (sorter_sort ExistenceRequestMsg.le R)
        c.edges).existence_info
      (sorter_sort DependencyChainSuccessorMsg.le c.links)
      (_process_existence_requests t (sorter_sort ExistenceRequestMsg.le R)
        c.edges).existence_successor
      (_process_existence_requests t (sorter_sort ExistenceRequestMsg.le R)
        c.edges).existence_placeholder
      (c.swaps.map SwapDescriptor.direction) = some p) :
    p.debug = serial_records c.edges c.swaps := by
  have hsorted := sorter_sort_sorted ExistenceRequestMsg.le R
  have hmemR := mem_sorter_sort ExistenceRequestMsg.le R
  -- the messages of the existence-request processor
  have hlinks : ∀ (X : edge_t) (p u : Nat), (∃ r ∈ R, r.edge = X ∧ r.swap_id = p) →
      (∃ r ∈ R, r.edge = X ∧ r.swap_id = u) → p < u →
      (∀ r ∈ R, r.edge = X → p < r.swap_id → u ≤ r.swap_id) →
      (∃ v ∈ R, v.edge = X ∧ v.forward_only = false ∧ u ≤ v.swap_id) →
      (⟨p, X, u⟩ : ExistenceSuccessorMsg) ∈
        (_process_existence_requests t (sorter_sort ExistenceRequestMsg.le R)
          c.edges).existence_successor := by
    intro X p u h1 h2 hpu h3 h4
    unfold _process_existence_requests
    dsimp only
    rw [mem_sorter_sort]
    apply process_requests_successors t _ _ _ (Nat.le_refl _) hsorted X p u _ _ hpu
    · intro r hr; exact h3 r ((hmemR r).mp hr)
    · obtain ⟨v, hv, hv2⟩ := h4; exact ⟨v, (hmemR v).mpr hv, hv2⟩
    · obtain ⟨r, hr, hr2⟩ := h1; exact ⟨r, (hmemR r).mpr hr, hr2⟩
    · obtain ⟨r, hr, hr2⟩ := h2; exact ⟨r, (hmemR r).mpr hr, hr2⟩
  have hsound : ∀ m ∈ (_process_existence_requests t (sorter_sort ExistenceRequestMsg.le R)
      c.edges).existence_successor, m.swap_id < m.successor ∧
      ∀ r ∈ R, r.edge = m.edge → m.swap_id < r.swap_id → m.successor ≤ r.swap_id := by
    intro m hm
    unfold _process_existence_requests at hm
    dsimp only at hm
    obtain ⟨x, hx, rfl⟩ := List.mem_map.mp ((mem_sorter_sort _ _ _).mp hm)
    refine ⟨process_requests_lt t _ _ _ hsorted x hx, ?_⟩
    intro r hr
    exact (process_requests_links_sound t _ _ _ hsorted x hx).2 r ((hmemR r).mpr hr)
  have hinfo := (process_requests_info t c.edges hE (sorter_sort ExistenceRequestMsg.le R).length
    (sorter_sort ExistenceRequestMsg.le R) [] c.edges (Nat.le_refl _) hsorted rfl
    (fun x hx => by simp at hx)).1
  generalize hx : _process_existence_requests t (sorter_sort ExistenceRequestMsg.le R)
    c.edges = x at hp hlinks hsound
  have hxi : x.existence_info = PQSorterMerger.finish_sorter_input ExistenceInfoMsg.le
      (process_requests t (sorter_sort ExistenceRequestMsg.le R).length
        (sorter_sort ExistenceRequestMsg.le R) c.edges).existence_info := by
    rw [← hx]; rfl
  have hxs : x.existence_successor.Pairwise (fun a b => a.swap_id ≤ b.swap_id) := by
    rw [← hx]
    unfold _process_existence_requests
    dsimp only
    exact (sorter_sort_sorted ExistenceSuccessorMsg.le _).imp exsucc_le_sid
  have hinit : ExInv c R x.existence_successor (min 0 c.swaps.length) (min 0 c.swaps.length)
      { _edge_state := PQSorterMerger.finish_sorter_input DependencyChainEdgeMsg.le
          c.depchain_edges
        _existence_info := x.existence_info
        edge_dependencies := sorter_sort DependencyChainSuccessorMsg.le c.links
        existence_successor := x.existence_successor
        existence_placeholder := x.existence_placeholder
        _swap_direction := c.swaps.map SwapDescriptor.direction
        source_edges := fun _ => edge_t.invalid
        existence_information := EdgeExistenceInformation.start_initialization
        edge_updates := []
        debug := []
        forwarded := []
        answered := [] } := by
    rw [show min 0 c.swaps.length = 0 by omega]
    constructor
    · show x.existence_info.cursor.Sorted _
      rw [hxi]
      exact sorter_sort_sorted _ _
    · show x.existence_info.pq.Sorted _
      rw [hxi]
      exact List.sorted_nil
    · intro y _; exact Nat.zero_le _
    · exact hxs
    · intro m hm _; exact hm
    · intro u e _ hI hN he
      refine ⟨fun hlt => by omega, fun _ => ?_⟩
      show _ ∈ x.existence_info.content
      rw [hxi]
      simp only [PQSorterMerger.content, PQSorterMerger.finish_sorter_input, List.append_nil]
      rw [mem_sorter_sort]
      apply (hinfo u e).mpr
      obtain ⟨r, hr, hre, hru⟩ := hI.requests
      obtain ⟨v, hv, hve, hvf, -⟩ := hI.target
      refine ⟨he, ⟨v, (hmemR v).mpr hv, hve, hvf⟩, ⟨r, (hmemR r).mpr hr, hre, hru⟩, ?_⟩
      intro r2 hr2 hr2e
      exact hN r2 ((hmemR r2).mp hr2) hr2e (Nat.zero_le _)
    · exact hsimple
  have hsinit : ExSound c R x.existence_successor (min 0 c.swaps.length)
      { _edge_state := PQSorterMerger.finish_sorter_input DependencyChainEdgeMsg.le
          c.depchain_edges
        _existence_info := x.existence_info
        edge_dependencies := sorter_sort DependencyChainSuccessorMsg.le c.links
        existence_successor := x.existence_successor
        existence_placeholder := x.existence_placeholder
        _swap_direction := c.swaps.map SwapDescriptor.direction
        source_edges := fun _ => edge_t.invalid
        existence_information := EdgeExistenceInformation.start_initialization
        edge_updates := []
        debug := []
        forwarded := []
        answered := [] } := by
    rw [show min 0 c.swaps.length = 0 by omega]
    constructor
    · intro u e _ he
      simp [EdgeExistenceInformation.start_initialization] at he
    · intro y hy _ _
      have hy2 : y ∈ x.existence_info.content := hy
      rw [hxi] at hy2
      simp only [PQSorterMerger.content, PQSorterMerger.finish_sorter_input,
        List.append_nil] at hy2
      rw [mem_sorter_sort] at hy2
      obtain ⟨g1, -, -, g4⟩ := (hinfo y.swap_id y.edge).mp hy2
      refine ⟨g1, ?_⟩
      intro r hr hre _
      exact g4 r ((hmemR r).mpr hr) hre
    · intro m hm
      exact ⟨hm, Nat.zero_le _⟩
    · rfl
    · rfl
  unfold _perform_swaps at hp
  dsimp only at hp
  split at hp
  · simp at hp
  next st1 hst1 =>
  simp only [Option.some.injEq] at hp
  rw [← hp]
  dsimp only
  have hpinit := perf_inv_initial h x.existence_info x.existence_successor
    x.existence_placeholder
  have hfin := perform_batches_sound h hRn hcover hlinks hsound ht _ 0 _ st1 (Nat.dvd_zero t)
    hpinit hinit hsinit hst1
  have := hfin.records
  rw [List.take_length] at this
  exact this

/-! ## On simple graphs the engine is the serial reference -/

theorem serial_records_getElem (ss : List SwapDescriptor) :
    ∀ (A : List edge_t) (i : Nat) (hi : i < ss.length),
      (serial_records A ss)[i]? =
        some (serial_decision (serial_run A (ss.take i)) ss[i]).normalize := by
  induction ss with
  | nil => intro A i hi; simp at hi
  | cons s ss ih =>
    intro A i hi
    cases i with
    | zero => simp [serial_records, serial_run]
    | succ i =>
      have h1 := ih (serial_swap A s) i (by simpa using hi)
      simp only [serial_records, List.getElem?_cons_succ, List.take_succ_cons,
        List.getElem_cons_succ]
      rw [h1]
      rfl

theorem sorter_sort_edges_congr (l1 l2 : List edge_t) (h : l1.Perm l2) :
    sorter_sort edge_le l1 = sorter_sort edge_le l2 := by
  haveI : IsAntisymm edge_t edge_le := ⟨fun _ _ => edge_le_antisymm⟩
  exact List.eq_of_perm_of_sorted
    (((sorter_sort_perm edge_le l1).trans h).trans (sorter_sort_perm edge_le l2).symm)
    (sorter_sort_sorted edge_le l1) (sorter_sort_sorted edge_le l2)

/-- On a simple graph the debug vector of a run is the debug vector of the
serial reference, and the edge list the run leaves is, in some order, the edge
list of the serial reference. -/
theorem run_serial_simple (b t : Nat) (edges : List edge_t)
    (swaps : List SwapDescriptor) (ht : 0 < t) (hn : swaps.length < 2 ^ 63)
    (hcanon : ∀ e ∈ edges, e.canonical) (hsorted : edges.Sorted edge_le)
    (hloop : ∀ e ∈ edges, e.is_loop = false) (hnodup : edges.Nodup)
    (hrange : ∀ s ∈ swaps, s.eid_a < edges.length ∧ s.eid_b < edges.length)
    (hdist : ∀ s ∈ swaps, s.eid_a ≠ s.eid_b)
    (r : Engine × RunLog) (hr : run_swaps_with b t edges swaps = some r) :
    r.1._result = serial_records edges swaps ∧ r.1._edges.Perm (serial_run edges swaps) := by
  by_cases hS : swaps = []
  · subst hS
    rw [run_swaps_with_nil] at hr
    simp only [Option.some.injEq] at hr
    rw [← hr]
    exact ⟨rfl, List.Perm.refl _⟩
  · obtain ⟨cr, p, hcr, hp, -, hres, -⟩ := run_swaps_with_some b t edges swaps hS r hr
    obtain ⟨-, hperm⟩ := run_refines_positional b t edges swaps ht hn hrange hdist r hr
    have hwf := run_ctx_wf t edges swaps hn hrange hdist
    have hcs := compute_conflicts_edge_state hwf ht _ cr hcr
    obtain ⟨hmerger, hRn⟩ := compute_conflicts_requests t b swaps.length _ _ _ cr hcr
    rw [hcs, hmerger] at hp
    have hready := perform_swaps_ready hwf ht _ _ _ p hp
    have hrec := perform_swaps_serial hwf ht cr.existence_requests hRn
      (fun fl hfl => compute_conflicts_cover hwf ht fl hfl hready cr hcr) hsorted
      ⟨hnodup, hloop, hcanon⟩ p hp
    have hrec2 : p.debug = serial_records edges swaps := hrec
    rw [hres, hrec2]
    refine ⟨rfl, ?_⟩
    rw [hres, hrec2, positional_run_serial swaps edges hrange] at hperm
    exact hperm

/-- C1, amended: on a simple graph the engine is the serial reference.  For every
run of the engine (any number of worker threads, any batch size) that returns, on
an edge list that is canonical, sorted, free of self-loops and free of duplicate
edges, with fewer than `2^63` swaps whose two edge ids are distinct and in range,
the edge list `_edges` after the run is, up to the order of the edges, the edge
list of the serial simulator that applies the swaps one after another (a swap is
performed iff neither swapped edge is a self-loop nor present in the current
graph); sorted, the two edge lists are equal. -/
theorem engine_is_serial_on_simple_graphs (b t : Nat) (edges : List edge_t)
    (swaps : List SwapDescriptor) (ht : 0 < t) (hn : swaps.length < 2 ^ 63)
    (hcanon : ∀ e ∈ edges, e.canonical) (hsorted : edges.Sorted edge_le)
    (hloop : ∀ e ∈ edges, e.is_loop = false) (hnodup : edges.Nodup)
    (hrange : ∀ s ∈ swaps, s.eid_a < edges.length ∧ s.eid_b < edges.length)
    (hdist : ∀ s ∈ swaps, s.eid_a ≠ s.eid_b)
    (r : Engine × RunLog) (hr : run_swaps_with b t edges swaps = some r) :
    r.1._edges.Perm (serial_run edges swaps) ∧
      sorter_sort edge_le r.1._edges = serial_edges_after edges swaps := by
  obtain ⟨-, hperm⟩ := run_serial_simple b t edges swaps ht hn hcanon hsorted hloop hnodup
    hrange hdist r hr
  exact ⟨hperm, sorter_sort_edges_congr _ _ hperm⟩

/-- Witness for C1, amended: the run on the simple graph `simple_E` with three
swaps, two worker threads and one swap per thread and batch returns; the edge
list it leaves is that of the serial reference. -/
theorem engine_is_serial_on_simple_graphs_witness :
    run_swaps_with 1 2 simple_E simple_S = some simple_result ∧
      simple_result.1._edges.Perm (serial_run simple_E simple_S) ∧
      sorter_sort edge_le simple_result.1._edges = serial_edges_after simple_E simple_S :=
  ⟨by decide!,
    engine_is_serial_on_simple_graphs 1 2 simple_E simple_S (by decide) (by decide) (by decide)
      (by decide) (by decide) (by decide) (by decide) (by decide) simple_result (by decide!)⟩

/-- C2, amended: on a simple graph the debug vector is that of the serial
reference.  For every run of the engine that returns, on an edge list that is
canonical, sorted, free of self-loops and free of duplicate edges, with fewer
than `2^63` swaps whose two edge ids are distinct and in range, and for every
swap `i`: the debug record `i` is the normalized record of the serial reference,
decided on the edge list `A` as it stood after the swaps `0..i-1` in the serial
reference; if it says `performed`, its edges are the two swapped edges of the
edges of `A` at the positions `eid_a` and `eid_b` (sorted among themselves), and
the serial reference replaces the two edges at these positions by exactly these
two edges; if it says not `performed`, the swap changes nothing, and the edges a
swap hands on as `new_edges` are then its two source edges.  The edge list the
run leaves is, up to the order of the edges, the edge list after the last swap. -/
theorem debug_records_are_serial_on_simple_graphs (b t : Nat) (edges : List edge_t)
    (swaps : List SwapDescriptor) (ht : 0 < t) (hn : swaps.length < 2 ^ 63)
    (hcanon : ∀ e ∈ edges, e.canonical) (hsorted : edges.Sorted edge_le)
    (hloop : ∀ e ∈ edges, e.is_loop = false) (hnodup : edges.Nodup)
    (hrange : ∀ s ∈ swaps, s.eid_a < edges.length ∧ s.eid_b < edges.length)
    (hdist : ∀ s ∈ swaps, s.eid_a ≠ s.eid_b)
    (r : Engine × RunLog) (hr : run_swaps_with b t edges swaps = some r) :
    r.1._result.length = swaps.length ∧
      (∀ (i : Nat) (hi : i < swaps.length), ∃ rec : SwapResult,
        r.1._result[i]? = some rec ∧
        rec = (serial_decision (serial_run edges (swaps.take i)) swaps[i]).normalize ∧
        (rec.performed = true →
          (rec.edges = _swap_edges
              ((serial_run edges (swaps.take i)).getD swaps[i].eid_a edge_t.invalid)
              ((serial_run edges (swaps.take i)).getD swaps[i].eid_b edge_t.invalid)
              swaps[i].direction ∨
            rec.edges = (_swap_edges
              ((serial_run edges (swaps.take i)).getD swaps[i].eid_a edge_t.invalid)
              ((serial_run edges (swaps.take i)).getD swaps[i].eid_b edge_t.invalid)
              swaps[i].direction).swap) ∧
          serial_run edges (swaps.take (i + 1)) =
            ((serial_run edges (swaps.take i)).set swaps[i].eid_a
              (_swap_edges
                ((serial_run edges (swaps.take i)).getD swaps[i].eid_a edge_t.invalid)
                ((serial_run edges (swaps.take i)).getD swaps[i].eid_b edge_t.invalid)
                swaps[i].direction).1).set swaps[i].eid_b
              (_swap_edges
                ((serial_run edges (swaps.take i)).getD swaps[i].eid_a edge_t.invalid)
                ((serial_run edges (swaps.take i)).getD swaps[i].eid_b edge_t.invalid)
                swaps[i].direction).2) ∧
        (rec.performed = false →
          serial_run edges (swaps.take (i + 1)) = serial_run edges (swaps.take i))) ∧
      r.1._edges.Perm (serial_run edges swaps) ∧
      ∀ (x : EdgeExistenceInformation) (sid : Nat) (cur : edge_t × edge_t) (d : Bool),
        (swap_decision x sid cur d).performed = false →
          swap_outcome (swap_decision x sid cur d) cur = cur := by
  obtain ⟨hrec, hperm⟩ := run_serial_simple b t edges swaps ht hn hcanon hsorted hloop hnodup
    hrange hdist r hr
  refine ⟨by rw [hrec, serial_records_length], ?_, hperm, ?_⟩
  · intro i hi
    refine ⟨_, by rw [hrec]; exact serial_records_getElem swaps edges i hi, rfl, ?_, ?_⟩
    · intro hp
      rw [(normalize_fields _).1] at hp
      have hs := hrange swaps[i] (List.getElem_mem _)
      have hlen := serial_run_length (swaps.take i) edges
      have htake : swaps.take (i + 1) = swaps.take i ++ [swaps[i]] := by
        rw [List.take_succ, List.getElem?_eq_getElem hi, Option.toList_some]
      constructor
      · unfold SwapResult.normalize
        split
        · right; rfl
        · left; rfl
      · rw [htake, serial_run_snoc,
          serial_swap_positional _ _ (by rw [hlen]; exact hs.1) (by rw [hlen]; exact hs.2), hp]
        unfold positional_swap
        simp only [if_true]
    · intro hp
      rw [(normalize_fields _).1] at hp
      have hs := hrange swaps[i] (List.getElem_mem _)
      have hlen := serial_run_length (swaps.take i) edges
      have htake : swaps.take (i + 1) = swaps.take i ++ [swaps[i]] := by
        rw [List.take_succ, List.getElem?_eq_getElem hi, Option.toList_some]
      rw [htake, serial_run_snoc,
        serial_swap_positional _ _ (by rw [hlen]; exact hs.1) (by rw [hlen]; exact hs.2), hp,
        positional_swap_false]
  · intro x sid cur d hp
    rw [swap_outcome_eq, if_neg (by rw [hp]; simp)]

/-- Witness for C2, amended: the run on the simple graph `simple_E` with three
swaps, two worker threads and one swap per thread and batch returns; its second
debug record says `performed`, and its edges are the swapped edges of the edges
at the positions 0 and 4 of the edge list, which the refused first swap has left
as it was. -/
theorem debug_records_are_serial_on_simple_graphs_witness :
    run_swaps_with 1 2 simple_E simple_S = some simple_result ∧
      simple_result.1._result.length = simple_S.length ∧
      simple_result.1._result[1]? = some ⟨true, false, (⟨0, 4⟩, ⟨1, 5⟩), (false, false)⟩ ∧
      serial_run simple_E (simple_S.take 1) = simple_E ∧
      _swap_edges ⟨0, 1⟩ ⟨4, 5⟩ false = (⟨0, 4⟩, ⟨1, 5⟩) ∧
      simple_result.1._edges.Perm (serial_run simple_E simple_S) :=
  ⟨by decide!,
    (debug_records_are_serial_on_simple_graphs 1 2 simple_E simple_S (by decide) (by decide)
      (by decide) (by decide) (by decide) (by decide) (by decide) (by decide) simple_result
      (by decide!)).1,
    by decide!, by decide!, by decide!,
    (debug_records_are_serial_on_simple_graphs 1 2 simple_E simple_S (by decide) (by decide)
      (by decide) (by decide) (by decide) (by decide) (by decide) (by decide) simple_result
      (by decide!)).2.2.1⟩

end EdgeSwapParallelTFP
